import Mathlib

/-!
# Heap snapshot generator

A shallow embedding of `v8/src/profiler/heap-snapshot-generator.cc`: the
identity registry (`HeapObjectsMap`), the graph store (`HeapSnapshot`,
`HeapEntry`, `HeapGraphEdge`), the Filler (`SnapshotFiller`, `HeapEntriesMap`)
and the passes and progress reports of `HeapSnapshotGenerator`.

* An `Address` is a natural number; `nullptr` is `0`.
* `SnapshotObjectId` is a 32-bit unsigned integer (the serializer of the same
  file budgets `MaxDecimalDigitsIn<sizeof(unsigned)>` digits for it), so the
  arithmetic on ids is taken modulo `2 ^ 32`.
* `std::vector::at` throws on an index out of range and a write through a null
  `base::HashMap::Entry*` is a crash: both are the result `none`.
* `DCHECK`s are compiled out of release builds and are not part of the
  operations; the properties they assert are stated as predicates.
-/

namespace HeapProfiler

/-- Number of values of the 32-bit unsigned type `SnapshotObjectId`. -/
def kSnapshotObjectIdRange : Nat := 4294967296

/-- Conversion of a C++ `int` to `unsigned int` (value modulo `2 ^ 32`). -/
def toUnsigned (x : Int) : Nat := (x % 4294967296).toNat

/-! ## base::HashMap -/

/-- Modelled from the spec: `base::HashMap` (v8/src/base/hashmap.h) is not among
the sources; the registry is "keyed by current memory address in a hash map".
A map from a pointer key to a pointer-sized value, here the list of its
(key, value) entries. The hash passed along with every key
(`ComputePointerHash`) only selects the bucket and is left out. -/
abbrev HashMap := List (Nat × Nat)

namespace HashMap

/-- Modelled from the spec: `Lookup(key, hash)` gives the entry of `key`, or
`nullptr` (here `none`) when the key has no entry. The result is the entry's
value. -/
def Lookup : HashMap → Nat → Option Nat
  | [], _ => none
  | (k, v) :: rest, key => if k = key then some v else Lookup rest key

/-- Modelled from the spec: the assignment `entry->value = value` through the
entry of `key`. -/
def SetValue : HashMap → Nat → Nat → HashMap
  | [], _, _ => []
  | (k, v) :: rest, key, value =>
    if k = key then (k, value) :: rest else (k, v) :: SetValue rest key value

/-- Modelled from the spec: `LookupOrInsert(key, hash)` gives the entry of
`key`, inserting one with a null value when the key has none. The result is the
map and the value of the entry. -/
def LookupOrInsert (m : HashMap) (key : Nat) : HashMap × Nat :=
  match Lookup m key with
  | some v => (m, v)
  | none => (m ++ [(key, 0)], 0)

/-- Modelled from the spec: `Remove(key, hash)` deletes the entry of `key` and
gives its value, or `nullptr` when the key has no entry. -/
def Remove (m : HashMap) (key : Nat) : HashMap × Nat :=
  match Lookup m key with
  | some v => (m.filter (fun kv => decide (kv.1 ≠ key)), v)
  | none => (m, 0)

/-- Modelled from the spec: `occupancy()` is the number of entries. -/
def occupancy (m : HashMap) : Nat := m.length

end HashMap

/-! ## HeapObjectsMap -/

/-- The record `HeapObjectsMap::EntryInfo`. -/
structure EntryInfo where
  id : Nat
  addr : Nat
  size : Nat
  accessed : Bool
  deriving DecidableEq, Repr

/-- The state of a `HeapObjectsMap`: `next_id_`, `entries_map_`, `entries_`. -/
structure HeapObjectsMap where
  next_id_ : Nat
  entries_map_ : HashMap
  entries_ : List EntryInfo
  deriving DecidableEq, Repr

/-- Modelled from the spec: `HeapObjectsMap::kObjectIdStep` is declared in the
header, which is not among the sources; ids are "odd/even-partitioned", so the
step between two ids of one kind is 2. -/
def kObjectIdStep : Nat := 2

def kInternalRootObjectId : Nat := 1

def kGcRootsObjectId : Nat :=
  (kInternalRootObjectId + kObjectIdStep) % kSnapshotObjectIdRange

def kGcRootsFirstSubrootId : Nat :=
  (kGcRootsObjectId + kObjectIdStep) % kSnapshotObjectIdRange

/-- The constant `kFirstAvailableObjectId`; `VisitorSynchronization::kNumberOfSyncTags`
is declared outside the sources and is a parameter. -/
def kFirstAvailableObjectId (kNumberOfSyncTags : Nat) : Nat :=
  (kGcRootsFirstSubrootId + kNumberOfSyncTags * kObjectIdStep) % kSnapshotObjectIdRange

/-- The dummy element at index zero: `entries_.emplace_back(0, nullptr, 0, true)`. -/
def dummyEntry : EntryInfo := ⟨0, 0, 0, true⟩

namespace HeapObjectsMap

/-- The constructor `HeapObjectsMap::HeapObjectsMap`. -/
def ctor (kNumberOfSyncTags : Nat) : HeapObjectsMap :=
  ⟨kFirstAvailableObjectId kNumberOfSyncTags, [], [dummyEntry]⟩

/-- `HeapObjectsMap::MoveObject(from, to, object_size)`; the parameters `from` and
`to` are `from_` and `to_`. -/
def MoveObject (s : HeapObjectsMap) (from_ to_ : Nat) (object_size : Int) :
    Option (Bool × HeapObjectsMap) :=
  if from_ = to_ then some (false, s)
  else
    let r := HashMap.Remove s.entries_map_ from_
    let from_value := r.2
    if from_value = 0 then
      let r2 := HashMap.Remove r.1 to_
      let to_value := r2.2
      if to_value ≠ 0 then
        match s.entries_[to_value]? with
        | none => none
        | some e =>
          some (false, ⟨s.next_id_, r2.1, s.entries_.set to_value { e with addr := 0 }⟩)
      else some (false, ⟨s.next_id_, r2.1, s.entries_⟩)
    else
      let r2 := HashMap.LookupOrInsert r.1 to_
      let to_value := r2.2
      let cleared : Option (List EntryInfo) :=
        if to_value ≠ 0 then
          match s.entries_[to_value]? with
          | none => none
          | some e => some (s.entries_.set to_value { e with addr := 0 })
        else some s.entries_
      match cleared with
      | none => none
      | some es =>
        match es[from_value]? with
        | none => none
        | some e =>
          some (true, ⟨s.next_id_, HashMap.SetValue r2.1 to_ from_value,
            es.set from_value { e with addr := to_, size := toUnsigned object_size }⟩)

/-- `HeapObjectsMap::FindEntry(addr)`; the state is returned as it is left. -/
def FindEntry (s : HeapObjectsMap) (addr : Nat) : Option (Nat × HeapObjectsMap) :=
  match HashMap.Lookup s.entries_map_ addr with
  | none => some (0, s)
  | some entry_index =>
    match s.entries_[entry_index]? with
    | none => none
    | some entry_info => some (entry_info.id, s)

/-- `HeapObjectsMap::FindOrAddEntry(addr, size, accessed)`. -/
def FindOrAddEntry (s : HeapObjectsMap) (addr size : Nat) (accessed : Bool) :
    Option (Nat × HeapObjectsMap) :=
  let r := HashMap.LookupOrInsert s.entries_map_ addr
  if r.2 ≠ 0 then
    match s.entries_[r.2]? with
    | none => none
    | some entry_info =>
      some (entry_info.id,
        ⟨s.next_id_, r.1, s.entries_.set r.2 { entry_info with accessed := accessed, size := size }⟩)
  else
    some (s.next_id_,
      ⟨(s.next_id_ + kObjectIdStep) % kSnapshotObjectIdRange,
       HashMap.SetValue r.1 addr s.entries_.length,
       s.entries_ ++ [⟨s.next_id_, addr, size, accessed⟩]⟩)

/-- `HeapObjectsMap::UpdateObjectSize(addr, size)`. -/
def UpdateObjectSize (s : HeapObjectsMap) (addr : Nat) (size : Int) : Option HeapObjectsMap :=
  (FindOrAddEntry s addr (toUnsigned size) false).map Prod.snd

/-- One pass through the body of the loop of `RemoveDeadEntries`, at index `i`.
The result is `first_free_entry`, the entries and the map after it. -/
def RemoveDeadEntriesStep (i first_free_entry : Nat) (es : List EntryInfo) (m : HashMap) :
    Option (Nat × List EntryInfo × HashMap) :=
  match es[i]? with
  | none => none
  | some entry_info =>
    if entry_info.accessed then
      let es1 := if first_free_entry ≠ i then es.set first_free_entry entry_info else es
      match es1[first_free_entry]? with
      | none => none
      | some e =>
        let es2 := es1.set first_free_entry { e with accessed := false }
        match HashMap.Lookup m entry_info.addr with
        | none => none
        | some _ =>
          some (first_free_entry + 1, es2, HashMap.SetValue m entry_info.addr first_free_entry)
    else
      let m1 := if entry_info.addr ≠ 0 then (HashMap.Remove m entry_info.addr).1 else m
      some (first_free_entry, es, m1)

/-- The loop of `RemoveDeadEntries`, run `fuel` times from index `i`. -/
def RemoveDeadEntriesLoop :
    Nat → Nat → Nat → List EntryInfo → HashMap → Option (Nat × List EntryInfo × HashMap)
  | 0, _, first_free_entry, es, m => some (first_free_entry, es, m)
  | fuel + 1, i, first_free_entry, es, m =>
    match RemoveDeadEntriesStep i first_free_entry es m with
    | none => none
    | some (ff1, es1, m1) => RemoveDeadEntriesLoop fuel (i + 1) ff1 es1 m1

/-- `HeapObjectsMap::RemoveDeadEntries()`: the loop runs for the indices
`1 .. entries_.size() - 1`, then the tail from `first_free_entry` is erased. -/
def RemoveDeadEntries (s : HeapObjectsMap) : Option HeapObjectsMap :=
  match RemoveDeadEntriesLoop (s.entries_.length - 1) 1 1 s.entries_ s.entries_map_ with
  | none => none
  | some (first_free_entry, es, m) => some ⟨s.next_id_, m, es.take first_free_entry⟩

end HeapObjectsMap

open HeapObjectsMap

/-- The states a registry goes through: from the constructor by `FindOrAddEntry`
(which `UpdateObjectSize` calls with `accessed = false`), `MoveObject` and
`RemoveDeadEntries`, each call returning. Addresses passed in are addresses of
heap objects and so are not null (`MoveObject` asserts it with `DCHECK_NOT_NULL`;
the registry keeps `nullptr` for "no address"). -/
inductive Reachable (kNumberOfSyncTags : Nat) : HeapObjectsMap → Prop
  | ctor : Reachable kNumberOfSyncTags (HeapObjectsMap.ctor kNumberOfSyncTags)
  | findOrAdd {s s1 : HeapObjectsMap} {addr size id : Nat} {accessed : Bool} :
      Reachable kNumberOfSyncTags s → addr ≠ 0 →
      FindOrAddEntry s addr size accessed = some (id, s1) → Reachable kNumberOfSyncTags s1
  | move {s s1 : HeapObjectsMap} {from_ to_ : Nat} {object_size : Int} {moved : Bool} :
      Reachable kNumberOfSyncTags s → from_ ≠ 0 → to_ ≠ 0 →
      MoveObject s from_ to_ object_size = some (moved, s1) → Reachable kNumberOfSyncTags s1
  | sweep {s s1 : HeapObjectsMap} :
      Reachable kNumberOfSyncTags s → RemoveDeadEntries s = some s1 →
      Reachable kNumberOfSyncTags s1

/-- Consistency of the address map with the entry list. -/
structure Inv (s : HeapObjectsMap) : Prop where
  head_dummy : s.entries_[0]? = some dummyEntry
  keys_nodup : (s.entries_map_.map Prod.fst).Nodup
  map_entry : ∀ k v, HashMap.Lookup s.entries_map_ k = some v →
    k ≠ 0 ∧ v ≠ 0 ∧ ∃ e, s.entries_[v]? = some e ∧ e.addr = k
  entry_map : ∀ j e, j ≠ 0 → s.entries_[j]? = some e → e.addr ≠ 0 →
    HashMap.Lookup s.entries_map_ e.addr = some j
  next_odd : s.next_id_ % 2 = 1
  ids_odd : ∀ j e, j ≠ 0 → s.entries_[j]? = some e → e.id % 2 = 1

/-- An entry with its accessed flag cleared. -/
def clearAccessed (e : EntryInfo) : EntryInfo := { e with accessed := false }

/-- The entries that are marked accessed, in order, each with the flag cleared. -/
def survivors (es : List EntryInfo) : List EntryInfo :=
  (es.filter (fun e => e.accessed)).map clearAccessed

/-- The state of the loop of `RemoveDeadEntries` before the pass at index `i`,
for the entry list `es0` the call started with. -/
structure SweepInv (es0 : List EntryInfo) (i ff : Nat) (es : List EntryInfo) (m : HashMap) :
    Prop where
  len : es.length = es0.length
  one_le : 1 ≤ ff
  ff_le : ff ≤ i
  i_le : i ≤ es0.length
  suffix : ∀ j, i ≤ j → es[j]? = es0[j]?
  front : es.take ff = dummyEntry :: survivors (es0.take i).tail
  keys_nodup : (m.map Prod.fst).Nodup
  bound : ∀ k v, HashMap.Lookup m k = some v → k ≠ 0 ∧ v ≠ 0 ∧
    ((v < ff ∧ ∃ e, es[v]? = some e ∧ e.addr = k) ∨ (i ≤ v ∧ ∃ e, es0[v]? = some e ∧ e.addr = k))
  kept : ∀ j e, j ≠ 0 → j < ff → es[j]? = some e → HashMap.Lookup m e.addr = some j
  rest : ∀ j e, i ≤ j → es0[j]? = some e → e.addr ≠ 0 → HashMap.Lookup m e.addr = some j
  ids_odd : ∀ j e, j ≠ 0 → es[j]? = some e → e.id % 2 = 1

/-- The address `addr` is tracked with the id `id`: the map binds it to an
entry that carries this id. -/
def Tracked (s : HeapObjectsMap) (addr id : Nat) : Prop :=
  ∃ v e, HashMap.Lookup s.entries_map_ addr = some v ∧ s.entries_[v]? = some e ∧ e.id = id

/-- Every recorded id is below `next_id_`: the counter has not wrapped past an
id that is still recorded. -/
def IdsBelowNext (s : HeapObjectsMap) : Prop :=
  ∀ (j : Nat) (e : EntryInfo), s.entries_[j]? = some e → e.id < s.next_id_

/-- No two entries carry the same id. -/
def UniqueIds (s : HeapObjectsMap) : Prop :=
  ∀ (j1 j2 : Nat) (e1 e2 : EntryInfo),
    s.entries_[j1]? = some e1 → s.entries_[j2]? = some e2 → e1.id = e2.id → j1 = j2

/-- The part of a `v8::RetainedObjectInfo` that `GenerateId` reads: `GetHash()`,
`GetLabel()` (the bytes before the terminating NUL) and `GetElementCount()`. -/
structure RetainedObjectInfo where
  hash : Int
  label : List Nat
  element_count : Int

/-- `HeapObjectsMap::GenerateId(info)`. `StringHasher::HashSequentialString` and
`ComputeIntegerHash` are declared outside the sources and are parameters, as is
the heap's hash seed; their results are 32-bit. -/
def GenerateId (HashSequentialString : List Nat → Nat → Nat → Nat)
    (ComputeIntegerHash : Nat → Nat) (hashSeed : Nat) (info : RetainedObjectInfo) : Nat :=
  let id0 := toUnsigned info.hash
  let id1 := id0 ^^^
    (HashSequentialString info.label info.label.length hashSeed % kSnapshotObjectIdRange)
  let id2 :=
    if info.element_count ≠ -1 then
      id1 ^^^ (ComputeIntegerHash (toUnsigned info.element_count) % kSnapshotObjectIdRange)
    else id1
  (id2 <<< 1) % kSnapshotObjectIdRange

/-- A call on the registry. -/
inductive Op where
  | findOrAdd (addr size : Nat) (accessed : Bool)
  | move (from_ to_ : Nat) (object_size : Int)
  | sweep

/-- One call; the result is the state after it and the ids it newly allocated
(the returned id when `FindOrAddEntry` inserted an entry, else none). -/
def step (s : HeapObjectsMap) : Op → Option (HeapObjectsMap × List Nat)
  | .findOrAdd addr size accessed =>
    match FindOrAddEntry s addr size accessed with
    | none => none
    | some (id, s1) =>
      some (s1, if s1.entries_.length = s.entries_.length + 1 then [id] else [])
  | .move from_ to_ object_size =>
    match MoveObject s from_ to_ object_size with
    | none => none
    | some (_, s1) => some (s1, [])
  | .sweep =>
    match RemoveDeadEntries s with
    | none => none
    | some s1 => some (s1, [])

/-- A sequence of calls; the result is the last state and the ids newly
allocated on the way, in the order of their allocation. -/
def run : HeapObjectsMap → List Op → Option (HeapObjectsMap × List Nat)
  | s, [] => some (s, [])
  | s, op :: ops =>
    match step s op with
    | none => none
    | some (s1, ids) =>
      match run s1 ops with
      | none => none
      | some (s2, ids2) => some (s2, ids ++ ids2)

/-- The call passes addresses of heap objects, which are not null. -/
def Op.valid : Op → Prop
  | .findOrAdd addr _ _ => addr ≠ 0
  | .move from_ to_ _ => from_ ≠ 0 ∧ to_ ≠ 0
  | .sweep => True

/-- The ids of the entries, in list order. -/
def idList (s : HeapObjectsMap) : List Nat := s.entries_.map EntryInfo.id

/-- The ids of the entries are strictly increasing in list order and all below
`next_id_`. -/
def IdsSorted (s : HeapObjectsMap) : Prop :=
  (idList s).Pairwise (· < ·) ∧ ∀ x ∈ idList s, x < s.next_id_

/-- A registry that tracks nothing, with the counter at `next`. -/
def emptiedState (next : Nat) : HeapObjectsMap := ⟨next, [], [dummyEntry]⟩

/-- A registry that tracks the address 8 with the id `id`, with the counter at `next`. -/
def oneTrackedState (id next : Nat) : HeapObjectsMap :=
  ⟨next, [(8, 1)], [dummyEntry, ⟨id, 8, 0, false⟩]⟩

/-- The calls `UpdateObjectSize(16, 0)` and `RemoveDeadEntries()`, `k` times over. -/
def sweepRounds : Nat → List Op
  | 0 => []
  | k + 1 => Op.findOrAdd 16 0 false :: Op.sweep :: sweepRounds k

/-! ## HeapSnapshot: the graph store

A pointer to a `HeapEntry` is the index of the entry in `entries_` (what
`HeapEntry::index()` computes from the pointer), a pointer to a `HeapGraphEdge`
the index of the edge in `edges_`; a null pointer is `none`. Indexing `entries_`
or `children_` outside their bounds is the result `none`. Indexes and child
counts are natural numbers: they are bounded by the number of nodes and edges
that are held in memory.

The accessors `HeapEntry::index()`, `HeapEntry::children_count()` and
`HeapGraphEdge::from()` are declared in heap-snapshot-generator.h and
heap-snapshot-generator-inl.h, which are not among the sources: `index()` is
the position of the entry in `entries_`, `children_count()` the field
`children_count_`, `from()` the entry at the from index of the edge. -/

/-- `HeapEntry::Type`. -/
inductive HeapEntryType where
  | kHidden | kObject | kClosure | kString | kCode | kArray | kRegExp | kHeapNumber
  | kNative | kSynthetic | kConsString | kSlicedString | kSymbol
  deriving DecidableEq, Repr

/-- `HeapGraphEdge::Type`. -/
inductive HeapGraphEdgeType where
  | kContextVariable | kElement | kProperty | kInternal | kHidden | kShortcut | kWeak
  deriving DecidableEq, Repr

/-- The union of `index_` and `name_` of a `HeapGraphEdge`. -/
inductive EdgeLabel where
  | index_ (index : Int)
  | name_ (name : String)
  deriving DecidableEq, Repr

/-- The union of `to_index_` and `to_entry_` of a `HeapGraphEdge`. -/
inductive EdgeTarget where
  | to_index_ (index : Nat)
  | to_entry_ (entry : Nat)
  deriving DecidableEq, Repr

/-- The class `HeapGraphEdge`: the type and the from index of `bit_field_`, the
target and the label. -/
structure HeapGraphEdge where
  type : HeapGraphEdgeType
  from_index : Nat
  to_ : EdgeTarget
  label : EdgeLabel
  deriving DecidableEq, Repr

/-- The class `HeapEntry` (without the back pointer `snapshot_`). -/
structure HeapEntry where
  type_ : HeapEntryType
  children_count_ : Nat
  children_index_ : Int
  self_size_ : Nat
  name_ : String
  id_ : Nat
  trace_node_id_ : Nat
  deriving DecidableEq, Repr

/-- The constant `HeapEntry::kNoEntry`. -/
def kNoEntry : Int := -1

/-- The class `HeapSnapshot`: the root indexes, `entries_`, `edges_`, `children_`
and `sorted_entries_`. -/
structure HeapSnapshot where
  root_index_ : Int
  gc_roots_index_ : Int
  gc_subroot_indexes_ : List Int
  entries_ : List HeapEntry
  edges_ : List HeapGraphEdge
  children_ : List (Option Nat)
  sorted_entries_ : List Nat
  deriving DecidableEq, Repr

namespace HeapSnapshot

/-- The constructor `HeapSnapshot::HeapSnapshot`. -/
def ctor (kNumberOfSyncTags : Nat) : HeapSnapshot :=
  ⟨kNoEntry, kNoEntry, List.replicate kNumberOfSyncTags kNoEntry, [], [], [], []⟩

/-- `HeapSnapshot::AddEntry(type, name, id, size, trace_node_id)`; the result is
the new entry and the snapshot. -/
def AddEntry (s : HeapSnapshot) (type : HeapEntryType) (name : String) (id size : Nat)
    (trace_node_id : Nat) : Nat × HeapSnapshot :=
  (s.entries_.length,
    { s with entries_ := s.entries_ ++ [⟨type, 0, -1, size, name, id, trace_node_id⟩] })

/-- `HeapSnapshot::AddRootEntry()`. -/
def AddRootEntry (s : HeapSnapshot) : Nat × HeapSnapshot :=
  let r := s.AddEntry HeapEntryType.kSynthetic "" kInternalRootObjectId 0 0
  (r.1, { r.2 with root_index_ := r.1 })

/-- `HeapSnapshot::AddGcRootsEntry()`. -/
def AddGcRootsEntry (s : HeapSnapshot) : Nat × HeapSnapshot :=
  let r := s.AddEntry HeapEntryType.kSynthetic "(GC roots)" kGcRootsObjectId 0 0
  (r.1, { r.2 with gc_roots_index_ := r.1 })

/-- `HeapSnapshot::AddGcSubrootEntry(tag, id)`; the table
`VisitorSynchronization::kTagNames` is declared outside the sources and is a
parameter. -/
def AddGcSubrootEntry (kTagNames : Nat → String) (s : HeapSnapshot) (tag id : Nat) :
    Nat × HeapSnapshot :=
  let r := s.AddEntry HeapEntryType.kSynthetic (kTagNames tag) id 0 0
  (r.1, { r.2 with gc_subroot_indexes_ := r.2.gc_subroot_indexes_.set tag r.1 })

/-- The loop of `AddSyntheticRootEntries`, for the tags from `tag` on, `fuel` of
them; the result is the id after the last one and the snapshot. -/
def AddGcSubrootEntries (kTagNames : Nat → String) : Nat → Nat → Nat → HeapSnapshot →
    Nat × HeapSnapshot
  | 0, _, id, s => (id, s)
  | fuel + 1, tag, id, s =>
    AddGcSubrootEntries kTagNames fuel (tag + 1)
      ((id + kObjectIdStep) % kSnapshotObjectIdRange) (AddGcSubrootEntry kTagNames s tag id).2

/-- `HeapSnapshot::AddSyntheticRootEntries()`; the result is the last value of
`id`, which the closing `DCHECK_EQ` compares with `kFirstAvailableObjectId`, and
the snapshot. -/
def AddSyntheticRootEntries (kNumberOfSyncTags : Nat) (kTagNames : Nat → String)
    (s : HeapSnapshot) : Nat × HeapSnapshot :=
  let s1 := (AddRootEntry s).2
  let s2 := (AddGcRootsEntry s1).2
  AddGcSubrootEntries kTagNames kNumberOfSyncTags 0 kGcRootsFirstSubrootId s2

end HeapSnapshot

namespace HeapEntry

/-- `HeapEntry::SetNamedReference(type, name, entry)` on the entry `self` of the
snapshot. -/
def SetNamedReference (s : HeapSnapshot) (self : Nat) (type : HeapGraphEdgeType)
    (name : String) (entry : Nat) : Option HeapSnapshot :=
  match s.entries_[self]?, s.entries_[entry]? with
  | some e, some _ =>
    some { s with
      edges_ := s.edges_ ++ [⟨type, self, EdgeTarget.to_index_ entry, EdgeLabel.name_ name⟩],
      entries_ := s.entries_.set self { e with children_count_ := e.children_count_ + 1 } }
  | _, _ => none

/-- `HeapEntry::SetIndexedReference(type, index, entry)` on the entry `self` of
the snapshot. -/
def SetIndexedReference (s : HeapSnapshot) (self : Nat) (type : HeapGraphEdgeType)
    (index : Int) (entry : Nat) : Option HeapSnapshot :=
  match s.entries_[self]?, s.entries_[entry]? with
  | some e, some _ =>
    some { s with
      edges_ := s.edges_ ++ [⟨type, self, EdgeTarget.to_index_ entry, EdgeLabel.index_ index⟩],
      entries_ := s.entries_.set self { e with children_count_ := e.children_count_ + 1 } }
  | _, _ => none

/-- Modelled from the spec: `HeapEntry::set_children_index(index)` is defined in
heap-snapshot-generator-inl.h, which is not among the sources. The first phase
of the finalisation is to "compute each node's `child_start_index` as a prefix
sum over child counts": `index` is recorded as the node's start index and the
result, the index for the next node, is `index` plus the child count. The count
is reset, for `add_child` to count the children it has registered. -/
def set_children_index (e : HeapEntry) (index : Nat) : HeapEntry × Nat :=
  ({ e with children_index_ := (index : Int), children_count_ := 0 }, index + e.children_count_)

/-- Modelled from the spec: `HeapEntry::add_child(edge)` is defined in
heap-snapshot-generator-inl.h, which is not among the sources. The second phase
of the finalisation takes each edge and "registers it into its `from` node's
child run": the edge is stored in `children_` at the node's start index plus the
number of children registered so far, and that number goes up by one. -/
def add_child (s : HeapSnapshot) (self : Nat) (edge : Nat) : Option HeapSnapshot :=
  match s.entries_[self]? with
  | none => none
  | some e =>
    if 0 ≤ e.children_index_ ∧ e.children_index_.toNat + e.children_count_ < s.children_.length
    then
      some { s with
        children_ := s.children_.set (e.children_index_.toNat + e.children_count_) (some edge),
        entries_ := s.entries_.set self { e with children_count_ := e.children_count_ + 1 } }
    else none

end HeapEntry

namespace HeapSnapshot

/-- The first loop of `FillChildren`: `set_children_index` on every entry in
order, from the index `children_index`. -/
def setChildrenIndexes : List HeapEntry → Nat → List HeapEntry × Nat
  | [], children_index => ([], children_index)
  | e :: es, children_index =>
    let r := e.set_children_index children_index
    let rest := setChildrenIndexes es r.2
    (r.1 :: rest.1, rest.2)

/-- The body of the second loop of `FillChildren` for the edge at `k`:
`edge.ReplaceToIndexWithEntry(this)`, then `edge.from()->add_child(&edge)`. -/
def fillEdge (s : HeapSnapshot) (k : Nat) : Option HeapSnapshot :=
  match s.edges_[k]? with
  | none => none
  | some edge =>
    match edge.to_ with
    | EdgeTarget.to_entry_ _ => none
    | EdgeTarget.to_index_ to_index =>
      if to_index < s.entries_.length then
        HeapEntry.add_child
          { s with edges_ := s.edges_.set k { edge with to_ := EdgeTarget.to_entry_ to_index } }
          edge.from_index k
      else none

/-- `std::deque::resize(n)` on `children_`: cut to `n` elements or filled up
with null pointers. -/
def resizeChildren (children : List (Option Nat)) (n : Nat) : List (Option Nat) :=
  children.take n ++ List.replicate (n - children.length) none

/-- `HeapSnapshot::FillChildren()`; the result is the last value of
`children_index`, which the `DCHECK_EQ` compares with `edges().size()`, and the
snapshot. -/
def FillChildren (s : HeapSnapshot) : Option (Nat × HeapSnapshot) :=
  let r := setChildrenIndexes s.entries_ 0
  let s1 : HeapSnapshot :=
    { s with children_ := resizeChildren s.children_ s.edges_.length, entries_ := r.1 }
  match (List.range s1.edges_.length).foldlM fillEdge s1 with
  | none => none
  | some s2 => some (r.2, s2)

end HeapSnapshot

namespace HeapSnapshot

/-- The accessor `id()` through an entry pointer. Every pointer that is followed
points into `entries_`. -/
def entryId (s : HeapSnapshot) (entry : Nat) : Nat :=
  match s.entries_[entry]? with
  | some e => e.id_
  | none => 0

/-- The comparison `SortByIds::operator()`. -/
def SortByIds (s : HeapSnapshot) (entry1_ptr entry2_ptr : Nat) : Bool :=
  decide (s.entryId entry1_ptr < s.entryId entry2_ptr)

/-- The loop of `std::lower_bound` over the range `[first, first + len)` of `l`,
for the comparison `comp` of an element with the searched value. -/
def lower_bound_loop (l : List Nat) (comp : Nat → Bool) : Nat → Nat → Nat → Nat
  | 0, first, _ => first
  | fuel + 1, first, len =>
    if len = 0 then first
    else
      match l[first + len / 2]? with
      | none => first
      | some x =>
        if comp x then lower_bound_loop l comp fuel (first + len / 2 + 1) (len - len / 2 - 1)
        else lower_bound_loop l comp fuel first (len / 2)

/-- The call `std::lower_bound(l.begin(), l.end(), val, comp)`: a binary search
for the first position whose element does not compare below the value. Every
turn of the loop makes the range shorter, so `l.length` turns are enough. -/
def lower_bound (l : List Nat) (comp : Nat → Bool) : Nat :=
  lower_bound_loop l comp l.length 0 l.length

/-- `HeapSnapshot::GetSortedEntriesList()`; `std_sort` is the library's
`std::sort`, given the comparison. The result is the list and the snapshot. -/
def GetSortedEntriesList (std_sort : (Nat → Nat → Bool) → List Nat → List Nat)
    (s : HeapSnapshot) : List Nat × HeapSnapshot :=
  if s.sorted_entries_.isEmpty then
    let sorted := std_sort (SortByIds s) (List.range s.entries_.length)
    (sorted, { s with sorted_entries_ := sorted })
  else (s.sorted_entries_, s)

/-- `HeapSnapshot::GetEntryById(id)`; the result is the entry, `none` for
`nullptr`, and the snapshot. -/
def GetEntryById (std_sort : (Nat → Nat → Bool) → List Nat → List Nat)
    (s : HeapSnapshot) (id : Nat) : Option Nat × HeapSnapshot :=
  let r := GetSortedEntriesList std_sort s
  let it := lower_bound r.1 (fun first => decide (r.2.entryId first < id))
  match r.1[it]? with
  | none => (none, r.2)
  | some entry => if r.2.entryId entry ≠ id then (none, r.2) else (some entry, r.2)

end HeapSnapshot

/-- What the library promises of `std::sort` with a comparison by a key: the
result is a permutation of the input in which no element has a smaller key than
an element before it. -/
def SortContract (std_sort : (Nat → Nat → Bool) → List Nat → List Nat) : Prop :=
  ∀ (key : Nat → Nat) (l : List Nat),
    (std_sort (fun a b => decide (key a < key b)) l).Perm l ∧
    (std_sort (fun a b => decide (key a < key b)) l).Pairwise (fun a b => key a ≤ key b)

/-- A sort that keeps the contract: the insertion sort of the library, by "not
below". -/
def insertionSortBy (comp : Nat → Nat → Bool) (l : List Nat) : List Nat :=
  l.insertionSort (fun a b => comp b a = false)

/-- The indexes of the edges that leave the node `i`, in the order of `edges`. -/
def edgesFrom (edges : List HeapGraphEdge) (i : Nat) : List Nat :=
  (List.range edges.length).filter
    (fun k => decide ((edges[k]?).map HeapGraphEdge.from_index = some i))

/-- The sum of the child counts of the nodes with an index below `i`. -/
def childCountsBelow (entries : List HeapEntry) (i : Nat) : Nat :=
  ((entries.take i).map HeapEntry.children_count_).sum

/-- The stores built by add-node and add-edge calls on a new snapshot. -/
inductive Built : HeapSnapshot → Prop
  | ctor (kNumberOfSyncTags : Nat) : Built (HeapSnapshot.ctor kNumberOfSyncTags)
  | addEntry {s : HeapSnapshot} (type : HeapEntryType) (name : String) (id size : Nat)
      (trace_node_id : Nat) : Built s → Built (s.AddEntry type name id size trace_node_id).2
  | addRootEntry {s : HeapSnapshot} : Built s → Built s.AddRootEntry.2
  | addGcRootsEntry {s : HeapSnapshot} : Built s → Built s.AddGcRootsEntry.2
  | addGcSubrootEntry {s : HeapSnapshot} (kTagNames : Nat → String) (tag id : Nat) :
      Built s → Built (s.AddGcSubrootEntry kTagNames tag id).2
  | setNamedReference {s s1 : HeapSnapshot} (self : Nat) (type : HeapGraphEdgeType)
      (name : String) (entry : Nat) :
      Built s → HeapEntry.SetNamedReference s self type name entry = some s1 → Built s1
  | setIndexedReference {s s1 : HeapSnapshot} (self : Nat) (type : HeapGraphEdgeType)
      (index : Int) (entry : Nat) :
      Built s → HeapEntry.SetIndexedReference s self type index entry = some s1 → Built s1

/-! ## The Filler

A `HeapThing` is a pointer, a natural number. An index of an entry is an `int`
in the code; the indexes that occur are those of entries held in memory, and
the casts between `int` and the pointer-sized value of the map keep them. -/

namespace HeapEntriesMap

/-- `HeapEntriesMap::Map(thing)` on the map `entries_`. -/
def Map (entries_ : HashMap) (thing : Nat) : Int :=
  match HashMap.Lookup entries_ thing with
  | none => kNoEntry
  | some value => (value : Int)

/-- `HeapEntriesMap::Pair(thing, entry)` on the map `entries_`. -/
def Pair (entries_ : HashMap) (thing : Nat) (entry : Nat) : HashMap :=
  HashMap.SetValue (HashMap.LookupOrInsert entries_ thing).1 thing entry

end HeapEntriesMap

/-- The arguments an allocator passes to `HeapSnapshot::AddEntry`. -/
structure EntryFields where
  type : HeapEntryType
  name : String
  id : Nat
  size : Nat
  trace_node_id : Nat

/-- The interface `HeapEntriesAllocator`. Its method `AllocateEntry(ptr)` ends, in
each of the three classes of the file that have it (`V8HeapExplorer`,
`JSArrayBufferDataEntryAllocator`, `BasicHeapEntriesAllocator`), in one call of
`snapshot_->AddEntry`; an allocator is the arguments of that call for a thing. -/
abbrev HeapEntriesAllocator := Nat → EntryFields

/-- The method `AllocateEntry(ptr)` of an allocator. -/
def HeapEntriesAllocator.AllocateEntry (allocator : HeapEntriesAllocator) (s : HeapSnapshot)
    (ptr : Nat) : Nat × HeapSnapshot :=
  s.AddEntry (allocator ptr).type (allocator ptr).name (allocator ptr).id (allocator ptr).size
    (allocator ptr).trace_node_id

/-- The class `SnapshotFiller`: the snapshot and the map behind its pointers
`snapshot_` and `entries_`. The names storage `names_` is used through
`GetName` only, which is a parameter of the calls that use it. -/
structure SnapshotFiller where
  snapshot_ : HeapSnapshot
  entries_ : HashMap

namespace SnapshotFiller

/-- `SnapshotFiller::AddEntry(ptr, allocator)`. -/
def AddEntry (f : SnapshotFiller) (ptr : Nat) (allocator : HeapEntriesAllocator) :
    Nat × SnapshotFiller :=
  let r := allocator.AllocateEntry f.snapshot_ ptr
  (r.1, ⟨r.2, HeapEntriesMap.Pair f.entries_ ptr r.1⟩)

/-- `SnapshotFiller::FindEntry(ptr)`; `none` is `nullptr`. -/
def FindEntry (f : SnapshotFiller) (ptr : Nat) : Option Nat :=
  if HeapEntriesMap.Map f.entries_ ptr ≠ kNoEntry then
    some (HeapEntriesMap.Map f.entries_ ptr).toNat
  else none

/-- `SnapshotFiller::FindOrAddEntry(ptr, allocator)`. -/
def FindOrAddEntry (f : SnapshotFiller) (ptr : Nat) (allocator : HeapEntriesAllocator) :
    Nat × SnapshotFiller :=
  match FindEntry f ptr with
  | some entry => (entry, f)
  | none => AddEntry f ptr allocator

/-- `SnapshotFiller::SetIndexedReference(type, parent, index, child_entry)`. -/
def SetIndexedReference (f : SnapshotFiller) (type : HeapGraphEdgeType) (parent : Nat)
    (index : Int) (child_entry : Nat) : Option SnapshotFiller :=
  match HeapEntry.SetIndexedReference f.snapshot_ parent type index child_entry with
  | none => none
  | some s => some { f with snapshot_ := s }

/-- `SnapshotFiller::SetIndexedAutoIndexReference(type, parent, child_entry)`. -/
def SetIndexedAutoIndexReference (f : SnapshotFiller) (type : HeapGraphEdgeType) (parent : Nat)
    (child_entry : Nat) : Option SnapshotFiller :=
  match f.snapshot_.entries_[parent]? with
  | none => none
  | some parent_entry =>
    match HeapEntry.SetIndexedReference f.snapshot_ parent type
        ((parent_entry.children_count_ : Int) + 1) child_entry with
    | none => none
    | some s => some { f with snapshot_ := s }

/-- `SnapshotFiller::SetNamedReference(type, parent, reference_name, child_entry)`. -/
def SetNamedReference (f : SnapshotFiller) (type : HeapGraphEdgeType) (parent : Nat)
    (reference_name : String) (child_entry : Nat) : Option SnapshotFiller :=
  match HeapEntry.SetNamedReference f.snapshot_ parent type reference_name child_entry with
  | none => none
  | some s => some { f with snapshot_ := s }

/-- `SnapshotFiller::SetNamedAutoIndexReference(type, parent, child_entry)`;
`StringsStorage::GetName(int)` is declared outside the sources and is a
parameter. -/
def SetNamedAutoIndexReference (GetName : Int → String) (f : SnapshotFiller)
    (type : HeapGraphEdgeType) (parent : Nat) (child_entry : Nat) : Option SnapshotFiller :=
  match f.snapshot_.entries_[parent]? with
  | none => none
  | some parent_entry =>
    match HeapEntry.SetNamedReference f.snapshot_ parent type
        (GetName ((parent_entry.children_count_ : Int) + 1)) child_entry with
    | none => none
    | some s => some { f with snapshot_ := s }

end SnapshotFiller

/-- A call on the Filler. -/
inductive FillerCall where
  | AddEntry (ptr : Nat) (allocator : HeapEntriesAllocator)
  | FindOrAddEntry (ptr : Nat) (allocator : HeapEntriesAllocator)
  | SetIndexedReference (type : HeapGraphEdgeType) (parent : Nat) (index : Int)
      (child_entry : Nat)
  | SetIndexedAutoIndexReference (type : HeapGraphEdgeType) (parent : Nat) (child_entry : Nat)
  | SetNamedReference (type : HeapGraphEdgeType) (parent : Nat) (reference_name : String)
      (child_entry : Nat)
  | SetNamedAutoIndexReference (type : HeapGraphEdgeType) (parent : Nat) (child_entry : Nat)

/-- One call on the Filler. -/
def FillerCall.apply (GetName : Int → String) (f : SnapshotFiller) :
    FillerCall → Option SnapshotFiller
  | .AddEntry ptr allocator => some (f.AddEntry ptr allocator).2
  | .FindOrAddEntry ptr allocator => some (f.FindOrAddEntry ptr allocator).2
  | .SetIndexedReference type parent index child_entry =>
    f.SetIndexedReference type parent index child_entry
  | .SetIndexedAutoIndexReference type parent child_entry =>
    f.SetIndexedAutoIndexReference type parent child_entry
  | .SetNamedReference type parent reference_name child_entry =>
    f.SetNamedReference type parent reference_name child_entry
  | .SetNamedAutoIndexReference type parent child_entry =>
    f.SetNamedAutoIndexReference GetName type parent child_entry

/-- A sequence of calls on the Filler. -/
def applyCalls (GetName : Int → String) : SnapshotFiller → List FillerCall →
    Option SnapshotFiller
  | f, [] => some f
  | f, c :: cs =>
    match c.apply GetName f with
    | none => none
    | some f1 => applyCalls GetName f1 cs

/-- The things that the calls `AddEntry` and `FindOrAddEntry` of the sequence were
made for. -/
def addedThings : List FillerCall → List Nat
  | [] => []
  | .AddEntry ptr _ :: cs => ptr :: addedThings cs
  | .FindOrAddEntry ptr _ :: cs => ptr :: addedThings cs
  | _ :: cs => addedThings cs

/-! ## HeapSnapshotGenerator: the passes and the progress reports

The generation is followed through the calls it makes, in their order: each
call that matters for the cancellation appends an `Event` to the list `events`
of the generator. What the extraction of one object writes into the snapshot
is behind the event `ExtractReferences`. The objects that a `HeapIterator`
yields are a list of pointers. The counters are `int`s that count heap
objects. -/

/-- `v8::ActivityControl::ControlOption`. -/
inductive ControlOption where
  | kContinue
  | kAbort
  deriving DecidableEq, Repr

/-- A call made during the generation. `ExtractReferences pass obj` is the body
of the loop of `IterateAndExtractSinglePass` for the object `obj`, up to the
progress report: `GetEntry`, the extractor of the pass, the reference to the map
and the hidden references. `RootReferences` is the part of
`V8HeapExplorer::IterateAndExtractReferences` before the passes,
`NativeReferences` the work of `NativeObjectsExplorer::IterateAndExtractReferences`. -/
inductive Event where
  | TagGlobalObjects
  | CollectAllGarbage
  | AddSyntheticRootEntries
  | RootReferences
  | ExtractReferences (pass : Nat) (obj : Nat)
  | ReportProgressValue (done total : Int)
  | NativeReferences
  | FillChildren
  | RememberLastJSObjectId
  deriving DecidableEq, Repr

/-- The host's `v8::ActivityControl`: the answer of `ReportProgressValue(done,
total)`, which may depend on all that happened before the call. -/
abbrev ActivityControl := List Event → Int → Int → ControlOption

/-- The class `HeapSnapshotGenerator`: `control_` (`none` for `nullptr`), the two
counters, and the calls made so far. -/
structure HeapSnapshotGenerator where
  control_ : Option ActivityControl
  progress_total_ : Int
  progress_counter_ : Int
  events : List Event

namespace HeapSnapshotGenerator

/-- The call `e` is made. -/
def record (g : HeapSnapshotGenerator) (e : Event) : HeapSnapshotGenerator :=
  { g with events := g.events ++ [e] }

/-- `HeapSnapshotGenerator::ProgressStep()`. -/
def ProgressStep (g : HeapSnapshotGenerator) : HeapSnapshotGenerator :=
  { g with progress_counter_ := g.progress_counter_ + 1 }

/-- The constant `kProgressReportGranularity` of `ProgressReport`. -/
def kProgressReportGranularity : Int := 10000

/-- `HeapSnapshotGenerator::ProgressReport(force)`; `%` on `int` truncates
towards zero. -/
def ProgressReport (g : HeapSnapshotGenerator) (force : Bool) : Bool × HeapSnapshotGenerator :=
  match g.control_ with
  | some control =>
    if force || decide (Int.tmod g.progress_counter_ kProgressReportGranularity = 0) then
      (decide (control g.events g.progress_counter_ g.progress_total_ = ControlOption.kContinue),
        g.record (Event.ReportProgressValue g.progress_counter_ g.progress_total_))
    else (true, g)
  | none => (true, g)

/-- `HeapSnapshotGenerator::SetProgressTotal(iterations_count)`; the two
arguments after it are the results of the two `EstimateObjectsCount` calls. -/
def SetProgressTotal (g : HeapSnapshotGenerator) (iterations_count : Int)
    (v8_objects_count dom_objects_count : Int) : HeapSnapshotGenerator :=
  match g.control_ with
  | none => g
  | some _ =>
    { g with
      progress_total_ := iterations_count * (v8_objects_count + dom_objects_count),
      progress_counter_ := 0 }

end HeapSnapshotGenerator

namespace V8HeapExplorer

/-- `V8HeapExplorer::EstimateObjectsCount(iterator)` for an iterator that yields
`objects`. -/
def EstimateObjectsCount (objects : List Nat) : Int := objects.length

/-- The loop of `IterateAndExtractSinglePass` over the objects the iterator
still yields. After every turn, also one that `continue` ends, the increment
of the loop calls `ProgressStep`. -/
def IterateAndExtractSinglePassLoop (pass : Nat) :
    List Nat → Bool → HeapSnapshotGenerator → Bool × HeapSnapshotGenerator
  | [], interrupted, g => (interrupted, g)
  | obj :: objects, interrupted, g =>
    if interrupted then
      IterateAndExtractSinglePassLoop pass objects interrupted g.ProgressStep
    else
      let r := (g.record (Event.ExtractReferences pass obj)).ProgressReport false
      IterateAndExtractSinglePassLoop pass objects (if r.1 then interrupted else true)
        r.2.ProgressStep

/-- `V8HeapExplorer::IterateAndExtractSinglePass<extractor>()`, for the pass 1 or
2 and the objects its iterator yields. -/
def IterateAndExtractSinglePass (pass : Nat) (objects : List Nat) (g : HeapSnapshotGenerator) :
    Bool × HeapSnapshotGenerator :=
  IterateAndExtractSinglePassLoop pass objects false g

/-- `V8HeapExplorer::IterateAndExtractReferences(filler)`; `objects1` and
`objects2` are what the iterators of the two passes yield. -/
def IterateAndExtractReferences (objects1 objects2 : List Nat) (g : HeapSnapshotGenerator) :
    Bool × HeapSnapshotGenerator :=
  let g0 := g.record Event.RootReferences
  let p1 := IterateAndExtractSinglePass 1 objects1 g0
  let p := if p1.1 then p1 else IterateAndExtractSinglePass 2 objects2 p1.2
  if p.1 then (false, p.2)
  else p.2.ProgressReport true

end V8HeapExplorer

namespace NativeObjectsExplorer

/-- `NativeObjectsExplorer::IterateAndExtractReferences(filler)`. -/
def IterateAndExtractReferences (g : HeapSnapshotGenerator) : Bool × HeapSnapshotGenerator :=
  (true, g.record Event.NativeReferences)

end NativeObjectsExplorer

namespace HeapSnapshotGenerator

/-- `HeapSnapshotGenerator::FillReferences()`. -/
def FillReferences (objects1 objects2 : List Nat) (g : HeapSnapshotGenerator) :
    Bool × HeapSnapshotGenerator :=
  let v8 := V8HeapExplorer.IterateAndExtractReferences objects1 objects2 g
  if v8.1 then NativeObjectsExplorer.IterateAndExtractReferences v8.2
  else (false, v8.2)

/-- The part of `GenerateSnapshot` before `FillReferences`; `objects0` is what the
iterator of `SetProgressTotal` yields. -/
def prepare (objects0 : List Nat) (dom_objects_count : Int) (g : HeapSnapshotGenerator) :
    HeapSnapshotGenerator :=
  let g1 := ((g.record Event.TagGlobalObjects).record Event.CollectAllGarbage).record
    Event.CollectAllGarbage
  let g2 := g1.SetProgressTotal 2 (V8HeapExplorer.EstimateObjectsCount objects0)
    dom_objects_count
  g2.record Event.AddSyntheticRootEntries

/-- `HeapSnapshotGenerator::GenerateSnapshot()`. -/
def GenerateSnapshot (objects0 objects1 objects2 : List Nat) (dom_objects_count : Int)
    (g : HeapSnapshotGenerator) : Bool × HeapSnapshotGenerator :=
  let r := FillReferences objects1 objects2 (prepare objects0 dom_objects_count g)
  if !r.1 then (false, r.2)
  else
    let g4 := (r.2.record Event.FillChildren).record Event.RememberLastJSObjectId
    let g5 := { g4 with progress_counter_ := g4.progress_total_ }
    let q := g5.ProgressReport true
    if !q.1 then (false, q.2) else (true, q.2)

end HeapSnapshotGenerator

/-! ## Predicates and examples for the claims on the store, the Filler and the generator -/

/-- The snapshot `s1` is `s` with the edge `edge` appended to `edges_` and the
child count of the entry `edge.from_index` one higher; nothing else differs. -/
def AddsEdge (s s1 : HeapSnapshot) (edge : HeapGraphEdge) : Prop :=
  ∃ e, s.entries_[edge.from_index]? = some e ∧
    s1 = { s with
      edges_ := s.edges_ ++ [edge],
      entries_ := s.entries_.set edge.from_index
        { e with children_count_ := e.children_count_ + 1 } }

/-- What the add-node and add-edge calls keep true of a store: the two ends of
every edge are indexes of entries and the target is not yet replaced; the child
count of every entry is the number of the edges that leave it; the child counts
add up to the number of edges; `children_` is empty. -/
structure StoreInv (s : HeapSnapshot) : Prop where
  edges_in : ∀ (k : Nat) (edge : HeapGraphEdge), s.edges_[k]? = some edge →
    edge.from_index < s.entries_.length ∧
    ∃ j, edge.to_ = EdgeTarget.to_index_ j ∧ j < s.entries_.length
  counts : ∀ (i : Nat) (e : HeapEntry), s.entries_[i]? = some e → e.children_count_ = (edgesFrom s.edges_ i).length
  total : (s.entries_.map HeapEntry.children_count_).sum = s.edges_.length
  children_empty : s.children_ = []

/-- The values of the map of the Filler are indexes of entries. -/
def MapInRange (f : SnapshotFiller) : Prop :=
  ∀ (thing v : Nat), HashMap.Lookup f.entries_ thing = some v → v < f.snapshot_.entries_.length

/-- The call is not a `SetIndexedReference` or `SetNamedReference` for the parent
`p`: the parent `p` gets no edge but by the auto-index calls. -/
def FillerCall.autoIndexFor (p : Nat) : FillerCall → Prop
  | .SetIndexedReference _ parent _ _ => parent ≠ p
  | .SetNamedReference _ parent _ _ => parent ≠ p
  | _ => True

/-- The edges that leave the node `p` are labelled 1, 2, 3, ... in their order:
the index, or the name `GetName` gives for it. -/
def LabelsRun (GetName : Int → String) (p : Nat) (s : HeapSnapshot) : Prop :=
  ∀ (j k : Nat) (edge : HeapGraphEdge), (edgesFrom s.edges_ p)[j]? = some k →
    s.edges_[k]? = some edge →
    edge.label = EdgeLabel.index_ ((j : Int) + 1) ∨
    edge.label = EdgeLabel.name_ (GetName ((j : Int) + 1))

/-- A snapshot of two entries without edges. -/
def twoEntries : HeapSnapshot :=
  ((HeapSnapshot.ctor 0).AddRootEntry.2.AddEntry HeapEntryType.kObject "Object" 5 16 0).2

/-- The list `sorted_entries_` is as `GetSortedEntriesList` leaves it: not built,
or the pointers to all entries in the order of their ids. `AddEntry` asserts the
first (`DCHECK(sorted_entries_.empty())`), no other call changes the entries'
ids or their number. -/
def SortedEntriesOk (s : HeapSnapshot) : Prop :=
  s.sorted_entries_ = [] ∨
    (s.sorted_entries_.Perm (List.range s.entries_.length) ∧
      s.sorted_entries_.Pairwise (fun a b => s.entryId a ≤ s.entryId b))

/-- A snapshot of three entries with the ids 9, 5 and 7. -/
def threeEntries : HeapSnapshot :=
  ⟨kNoEntry, kNoEntry, [],
    [⟨HeapEntryType.kObject, 0, -1, 16, "A", 9, 0⟩, ⟨HeapEntryType.kObject, 0, -1, 16, "B", 5, 0⟩,
      ⟨HeapEntryType.kObject, 0, -1, 16, "C", 7, 0⟩], [], [], []⟩

/-- The state of the second loop of `FillChildren` on the snapshot `s0` when the
first `k` edges are done: every entry has its start index and has counted its
edges among the first `k`; these are in `children_`, in their order, from the
start index of the entry on; the targets of the first `k` edges are replaced. -/
structure FillInv (s0 : HeapSnapshot) (k : Nat) (s : HeapSnapshot) : Prop where
  entries_len : s.entries_.length = s0.entries_.length
  entry : ∀ (i : Nat) (e0 : HeapEntry), s0.entries_[i]? = some e0 →
    s.entries_[i]? = some { e0 with
      children_index_ := ((childCountsBelow s0.entries_ i : Nat) : Int),
      children_count_ := (edgesFrom (s0.edges_.take k) i).length }
  children_len : s.children_.length = s0.edges_.length
  children : ∀ (i j x : Nat), (edgesFrom (s0.edges_.take k) i)[j]? = some x →
    s.children_[childCountsBelow s0.entries_ i + j]? = some (some x)
  edges_len : s.edges_.length = s0.edges_.length
  edges : ∀ (q j : Nat) (edge : HeapGraphEdge), s0.edges_[q]? = some edge →
    edge.to_ = EdgeTarget.to_index_ j →
    s.edges_[q]? = some (if q < k then { edge with to_ := EdgeTarget.to_entry_ j } else edge)
  root_index : s.root_index_ = s0.root_index_
  gc_roots_index : s.gc_roots_index_ = s0.gc_roots_index_
  gc_subroot_indexes : s.gc_subroot_indexes_ = s0.gc_subroot_indexes_
  sorted_entries : s.sorted_entries_ = s0.sorted_entries_

/-- A store of three entries, the root, A and B, with the edges root to A (the
property "x"), A to B (the element 0), root to B (the element 2) and B to A
(the internal "back"), in the order of their insertion. -/
def linkedEntries : HeapSnapshot :=
  ⟨0, kNoEntry, [],
    [⟨HeapEntryType.kSynthetic, 2, -1, 0, "", kInternalRootObjectId, 0⟩,
      ⟨HeapEntryType.kObject, 1, -1, 16, "A", 5, 0⟩,
      ⟨HeapEntryType.kObject, 1, -1, 16, "B", 7, 0⟩],
    [⟨HeapGraphEdgeType.kProperty, 0, EdgeTarget.to_index_ 1, EdgeLabel.name_ "x"⟩,
      ⟨HeapGraphEdgeType.kElement, 1, EdgeTarget.to_index_ 2, EdgeLabel.index_ 0⟩,
      ⟨HeapGraphEdgeType.kElement, 0, EdgeTarget.to_index_ 2, EdgeLabel.index_ 2⟩,
      ⟨HeapGraphEdgeType.kInternal, 2, EdgeTarget.to_index_ 1, EdgeLabel.name_ "back"⟩],
    [], []⟩

/-- The calls on the Filler that build `linkedEntries` from the snapshot with the
root entry. -/
def linkedCalls : List FillerCall :=
  [FillerCall.FindOrAddEntry 8 (fun _ => ⟨HeapEntryType.kObject, "A", 5, 16, 0⟩),
    FillerCall.FindOrAddEntry 24 (fun _ => ⟨HeapEntryType.kObject, "B", 7, 16, 0⟩),
    FillerCall.SetNamedReference HeapGraphEdgeType.kProperty 0 "x" 1,
    FillerCall.FindOrAddEntry 8 (fun _ => ⟨HeapEntryType.kObject, "A", 5, 16, 0⟩),
    FillerCall.SetIndexedReference HeapGraphEdgeType.kElement 1 0 2,
    FillerCall.SetIndexedAutoIndexReference HeapGraphEdgeType.kElement 0 2,
    FillerCall.SetNamedReference HeapGraphEdgeType.kInternal 2 "back" 1]

/-- The objects whose references the pass `pass` extracted, by the list of the
calls, in their order. -/
def extracted (pass : Nat) : List Event → List Nat
  | [] => []
  | Event.ExtractReferences p obj :: es =>
    if p = pass then obj :: extracted pass es else extracted pass es
  | _ :: es => extracted pass es

/-- The generator when the first pass starts: after the part of `GenerateSnapshot`
before `FillReferences` and the part of
`V8HeapExplorer::IterateAndExtractReferences` before the passes. -/
def HeapSnapshotGenerator.atPass1 (objects0 : List Nat) (dom_objects_count : Int)
    (g : HeapSnapshotGenerator) : HeapSnapshotGenerator :=
  (g.prepare objects0 dom_objects_count).record Event.RootReferences

/-- A host that answers `kAbort` to the report it gets after `n` earlier reports,
and `kContinue` to every other one. -/
def abortAt (n : Nat) : ActivityControl :=
  fun events _ _ =>
    if (events.filter (fun e => match e with
      | Event.ReportProgressValue _ _ => true
      | _ => false)).length = n then ControlOption.kAbort
    else ControlOption.kContinue

/-- A host that answers `kContinue` to every report. -/
def continueAlways : ActivityControl := fun _ _ _ => ControlOption.kContinue

/-- The generator when `GenerateSnapshot` makes its last report: after
`FillReferences` has returned true, `FillChildren`, `RememberLastJSObjectId` and
the assignment `progress_counter_ = progress_total_`. -/
def HeapSnapshotGenerator.atLastReport (objects0 objects1 objects2 : List Nat)
    (dom_objects_count : Int) (g : HeapSnapshotGenerator) : HeapSnapshotGenerator :=
  { (((g.prepare objects0 dom_objects_count).FillReferences objects1 objects2).2.record
      Event.FillChildren).record Event.RememberLastJSObjectId with
    progress_counter_ :=
      ((g.prepare objects0 dom_objects_count).FillReferences objects1 objects2).2.progress_total_ }

/-! ## The output stream writer -/

/-- The result of `v8::OutputStream::WriteAsciiChunk`. -/
inductive WriteResult
  | kContinue
  | kAbort
  deriving DecidableEq, Repr

/-- A call received by the embedder's `v8::OutputStream`. -/
inductive StreamCall
  | WriteAsciiChunk (data : List Char)
  | EndOfStream
  deriving DecidableEq, Repr

/-- The embedder's `v8::OutputStream` (the interface is declared in `v8.h`, the implementation
is the embedder's): its chunk size, and the answer of `WriteAsciiChunk` to a chunk, which may
depend on the calls the stream received before. -/
structure OutputStream where
  GetChunkSize : Nat
  WriteAsciiChunk : List StreamCall → List Char → WriteResult

/-- The class `OutputStreamWriter`. `chunk_` is the buffer, of `chunk_size_` cells; `calls` is
the list of the calls made on `stream_` so far. -/
structure OutputStreamWriter where
  stream_ : OutputStream
  chunk_size_ : Nat
  chunk_ : List Char
  chunk_pos_ : Nat
  aborted_ : Bool
  calls : List StreamCall

/-- `MaxDecimalDigitsIn<4>::kUnsigned`. -/
def MaxDecimalDigitsIn4.kUnsigned : Nat := 10

/-- `MaxDecimalDigitsIn<4>::kSigned`. -/
def MaxDecimalDigitsIn4.kSigned : Nat := 11

/-- `MaxDecimalDigitsIn<8>::kUnsigned`. -/
def MaxDecimalDigitsIn8.kUnsigned : Nat := 20

/-- `MaxDecimalDigitsIn<8>::kSigned`. -/
def MaxDecimalDigitsIn8.kSigned : Nat := 20

/-- The range of `unsigned`. -/
def kUnsignedRange : Nat := 4294967296

/-- `MemCopy(dest + pos, src, n)` with `n` the length of `src`: the cells `pos .. pos + n - 1`
of `dest` are overwritten. The callers check that they exist. -/
def MemCopy (dest : List Char) (pos : Nat) (src : List Char) : List Char :=
  dest.take pos ++ src ++ dest.drop (pos + src.length)

/-- The decimal digits of `n`, least significant first; the first argument bounds their
number. -/
def decimalRev : Nat → Nat → List Char
  | 0, _ => []
  | fuel + 1, n =>
    Char.ofNat (48 + n % 10) :: (if n / 10 = 0 then [] else decimalRev fuel (n / 10))

/-- The decimal numeral of `n`: its digits, most significant first, without leading zeros
(`0` for 0). -/
def decimal (n : Nat) : List Char := (decimalRev (n + 1) n).reverse

/-- What `SNPrintF(buffer, "%u", n)` prints before the terminating NUL: the decimal numeral
of `n`. -/
def SNPrintF_u (n : Nat) : List Char := decimal n

namespace OutputStreamWriter

/-- The constructor: an empty buffer of `stream->GetChunkSize()` cells. -/
def ctor (stream : OutputStream) : OutputStreamWriter :=
  { stream_ := stream, chunk_size_ := stream.GetChunkSize,
    chunk_ := List.replicate stream.GetChunkSize (Char.ofNat 0), chunk_pos_ := 0,
    aborted_ := false, calls := [] }

/-- `OutputStreamWriter::aborted`. -/
def aborted (w : OutputStreamWriter) : Bool := w.aborted_

/-- `OutputStreamWriter::WriteChunk`: nothing once aborted; otherwise the first `chunk_pos_`
cells of the buffer go to the stream, whose answer may set `aborted_`, and the buffer is
emptied. -/
def WriteChunk (w : OutputStreamWriter) : OutputStreamWriter :=
  if w.aborted_ then w
  else
    { w with
      aborted_ :=
        decide (w.stream_.WriteAsciiChunk w.calls (w.chunk_.take w.chunk_pos_) = WriteResult.kAbort),
      calls := w.calls ++ [StreamCall.WriteAsciiChunk (w.chunk_.take w.chunk_pos_)],
      chunk_pos_ := 0 }

/-- `OutputStreamWriter::MaybeWriteChunk`. -/
def MaybeWriteChunk (w : OutputStreamWriter) : OutputStreamWriter :=
  if w.chunk_pos_ = w.chunk_size_ then w.WriteChunk else w

/-- `OutputStreamWriter::AddCharacter`. There is no result (`none`) when `chunk_pos_` is not a
cell of the buffer. -/
def AddCharacter (w : OutputStreamWriter) (c : Char) : Option OutputStreamWriter :=
  if w.chunk_pos_ < w.chunk_.length then
    some (MaybeWriteChunk { w with chunk_ := w.chunk_.set w.chunk_pos_ c,
                                    chunk_pos_ := w.chunk_pos_ + 1 })
  else none

/-- The loop of `OutputStreamWriter::AddSubstring` over the characters `s` still to copy. There
is no result when the copy would leave the buffer, or when `s_chunk_size` is 0: the loop
then does not advance. The first argument bounds the number of rounds; every round that has a
result copies at least one character. -/
def AddSubstringLoop : Nat → OutputStreamWriter → List Char → Option OutputStreamWriter
  | _, w, [] => some w
  | 0, _, _ :: _ => none
  | fuel + 1, w, c :: s =>
    let s_chunk_size := min (w.chunk_size_ - w.chunk_pos_) (c :: s).length
    if s_chunk_size = 0 then none
    else if w.chunk_pos_ + s_chunk_size ≤ w.chunk_.length then
      AddSubstringLoop fuel
        (MaybeWriteChunk { w with chunk_ := MemCopy w.chunk_ w.chunk_pos_ ((c :: s).take s_chunk_size),
                                  chunk_pos_ := w.chunk_pos_ + s_chunk_size })
        ((c :: s).drop s_chunk_size)
    else none

/-- `OutputStreamWriter::AddSubstring`: `s` holds the characters before the terminating NUL.
There is no result when `n` exceeds their number. -/
def AddSubstring (w : OutputStreamWriter) (s : List Char) (n : Int) : Option OutputStreamWriter :=
  if n ≤ 0 then some w
  else if n.toNat ≤ s.length then AddSubstringLoop n.toNat w (s.take n.toNat)
  else none

/-- `OutputStreamWriter::AddString`. -/
def AddString (w : OutputStreamWriter) (s : List Char) : Option OutputStreamWriter :=
  w.AddSubstring s s.length

/-- `kMaxNumberSize` of `AddNumberImpl<unsigned>`. -/
def kMaxNumberSize : Nat := MaxDecimalDigitsIn4.kUnsigned + 1

/-- `OutputStreamWriter::AddNumberImpl<unsigned>` with the format `"%u"`. With
`kMaxNumberSize` free cells the digits and the NUL are printed into the buffer at
`chunk_pos_`; otherwise into a local buffer of `kMaxNumberSize` cells that is added as a
string. There is no result when the print does not fit. -/
def AddNumberImpl (w : OutputStreamWriter) (n : Nat) : Option OutputStreamWriter :=
  if w.chunk_size_ - w.chunk_pos_ ≥ kMaxNumberSize then
    if w.chunk_pos_ + (SNPrintF_u n).length + 1 ≤ w.chunk_.length then
      some (MaybeWriteChunk
        { w with chunk_ := MemCopy w.chunk_ w.chunk_pos_ (SNPrintF_u n ++ [Char.ofNat 0]),
                 chunk_pos_ := w.chunk_pos_ + (SNPrintF_u n).length })
    else none
  else
    if (SNPrintF_u n).length + 1 ≤ kMaxNumberSize then w.AddString (SNPrintF_u n) else none

/-- `OutputStreamWriter::AddNumber`: the argument is converted to `unsigned`. -/
def AddNumber (w : OutputStreamWriter) (n : Nat) : Option OutputStreamWriter :=
  w.AddNumberImpl (n % kUnsignedRange)

/-- `OutputStreamWriter::Finalize`. -/
def Finalize (w : OutputStreamWriter) : OutputStreamWriter :=
  if w.aborted_ then w
  else
    let w1 := if w.chunk_pos_ ≠ 0 then w.WriteChunk else w
    { w1 with calls := w1.calls ++ [StreamCall.EndOfStream] }

end OutputStreamWriter

/-- A call of one of the adding members of `OutputStreamWriter`. -/
inductive WriterCall
  | AddCharacter (c : Char)
  | AddString (s : List Char)
  | AddSubstring (s : List Char) (n : Int)
  | AddNumber (n : Nat)
  deriving DecidableEq, Repr

/-- The effect of one call. -/
def WriterCall.apply (w : OutputStreamWriter) : WriterCall → Option OutputStreamWriter
  | .AddCharacter c => w.AddCharacter c
  | .AddString s => w.AddString s
  | .AddSubstring s n => w.AddSubstring s n
  | .AddNumber n => w.AddNumber n

/-- The effect of a list of calls, in order. -/
def applyWriterCalls (w : OutputStreamWriter) (cs : List WriterCall) : Option OutputStreamWriter :=
  cs.foldlM WriterCall.apply w

/-- The chunks among the calls a stream received, in order. -/
def chunksOf : List StreamCall → List (List Char)
  | [] => []
  | StreamCall.WriteAsciiChunk data :: cs => data :: chunksOf cs
  | StreamCall.EndOfStream :: cs => chunksOf cs

/-- The text a stream received: its chunks, concatenated. -/
def received (calls : List StreamCall) : List Char := (chunksOf calls).flatten

/-- The text a writer has taken so far: what the stream received and what waits in the
buffer. -/
def OutputStreamWriter.written (w : OutputStreamWriter) : List Char :=
  received w.calls ++ w.chunk_.take w.chunk_pos_

/-- The text a call adds. -/
def WriterCall.text : WriterCall → List Char
  | .AddCharacter c => [c]
  | .AddString s => s
  | .AddSubstring s n => s.take n.toNat
  | .AddNumber n => SNPrintF_u (n % kUnsignedRange)

/-- The requirement of a call on its arguments: `AddSubstring(s, n)` is called with `n` at
most the length of `s`. -/
def WriterCall.Valid : WriterCall → Prop
  | .AddSubstring s n => n ≤ s.length
  | _ => True

/-- A stream that never aborts. -/
def neverAborts (chunk_size : Nat) : OutputStream :=
  { GetChunkSize := chunk_size, WriteAsciiChunk := fun _ _ => WriteResult.kContinue }

/-- A stream that aborts on its `n`-th chunk (counted from 1) and on every later one. -/
def abortsAt (chunk_size n : Nat) : OutputStream :=
  { GetChunkSize := chunk_size,
    WriteAsciiChunk := fun calls _ =>
      if (chunksOf calls).length + 1 < n then WriteResult.kContinue else WriteResult.kAbort }

/-! ## HeapSnapshotJSONSerializer

A `const char*` is the list of the characters before the terminating NUL; a `char` is a
`Char`, a byte being a `Char` whose code is below 256. A local `EmbeddedVector<char, N>` is a
list of `N` cells; a write outside it is the result `none`. The class declaration of the
serializer, with its constructor, `entry_index`, `StringHash` and `StringsMatch`, is in
heap-snapshot-generator.h, and `AllocationTracker`, `HeapObjectsMap::TimeInterval` and
`unibrow::Utf8` are declared in other files that are not among the sources. -/

/-- Conversion to `ToUnsigned<bytes>::Type`: the value modulo `2 ^ (8 * bytes)`. -/
def ToUnsigned (bytes : Nat) (value : Int) : Nat :=
  (value % ((2 ^ (8 * bytes) : Nat) : Int)).toNat

/-- The first loop of `utoa_impl`: `do { ++number_of_digits; } while (t /= 10);`. The first
argument bounds the number of rounds. -/
def utoa_impl.count : Nat → Nat → Nat → Nat
  | 0, _, number_of_digits => number_of_digits
  | fuel + 1, t, number_of_digits =>
    if t / 10 = 0 then number_of_digits + 1
    else utoa_impl.count fuel (t / 10) (number_of_digits + 1)

/-- The second loop of `utoa_impl`: `do { buffer[--buffer_pos] = '0' + value % 10;
value /= 10; } while (value);`. There is no result when a cell written is outside the
buffer. The first argument bounds the number of rounds. -/
def utoa_impl.fill : Nat → Nat → List Char → Nat → Option (List Char)
  | 0, _, _, _ => none
  | fuel + 1, value, buffer, buffer_pos =>
    if buffer_pos = 0 then none
    else if buffer_pos - 1 < buffer.length then
      if value / 10 = 0 then some (buffer.set (buffer_pos - 1) (Char.ofNat (48 + value % 10)))
      else utoa_impl.fill fuel (value / 10)
        (buffer.set (buffer_pos - 1) (Char.ofNat (48 + value % 10))) (buffer_pos - 1)
    else none

/-- The function `utoa_impl`: the digits of `value` are written into `buffer` from
`buffer_pos` on; the result is the buffer and the position after the last digit. -/
def utoa_impl (value : Nat) (buffer : List Char) (buffer_pos : Nat) : Option (List Char × Nat) :=
  let number_of_digits := utoa_impl.count (value + 1) value 0
  let result := buffer_pos + number_of_digits
  (utoa_impl.fill (value + 1) value buffer result).map (fun b => (b, result))

/-- The function `utoa` for a value of `bytes` bytes. -/
def utoa (bytes : Nat) (value : Int) (buffer : List Char) (buffer_pos : Nat) :
    Option (List Char × Nat) :=
  utoa_impl (ToUnsigned bytes value) buffer buffer_pos

/-- A new `EmbeddedVector<char, size>`. -/
def EmbeddedVector (size : Nat) : List Char := List.replicate size (Char.ofNat 0)

/-- The statement `buffer[buffer_pos++] = c`. -/
def put (c : Char) (buffer : List Char) (buffer_pos : Nat) : Option (List Char × Nat) :=
  if buffer_pos < buffer.length then some (buffer.set buffer_pos c, buffer_pos + 1) else none

/-- The string at `buffer.start()`: the characters before the first NUL. There is none when
the buffer holds no NUL. -/
def cstring : List Char → Option (List Char)
  | [] => none
  | c :: rest => if c = Char.ofNat 0 then some [] else (cstring rest).map (fun s => c :: s)

/-- Modelled from the spec: the values of the enumerators of `HeapEntry::Type` are declared in
`v8.h`, which is not among the sources; the labels of the kinds are listed in the order of their
values by `node_types` in the meta data that `SerializeSnapshot` writes (the "enum label
tables" of the wire format). -/
def HeapEntryType.value : HeapEntryType → Nat
  | .kHidden => 0
  | .kArray => 1
  | .kString => 2
  | .kObject => 3
  | .kCode => 4
  | .kClosure => 5
  | .kRegExp => 6
  | .kHeapNumber => 7
  | .kNative => 8
  | .kSynthetic => 9
  | .kConsString => 10
  | .kSlicedString => 11
  | .kSymbol => 12

/-- Modelled from the spec: the values of the enumerators of `HeapGraphEdge::Type` are declared
in `v8.h`, which is not among the sources; the labels of the kinds are listed in the order of
their values by `edge_types` in the meta data that `SerializeSnapshot` writes. -/
def HeapGraphEdgeType.value : HeapGraphEdgeType → Nat
  | .kContextVariable => 0
  | .kElement => 1
  | .kProperty => 2
  | .kInternal => 3
  | .kHidden => 4
  | .kShortcut => 5
  | .kWeak => 6

/-- Modelled from the spec: `strings_` is a `base::HashMap` whose keys are compared by
`StringsMatch`; the String Table is a "mapping from string content to a dense integer index".
Here the list of its (key, value) entries, in the order of their insertion; the value of an
entry is the id, or 0 for the null value of a new entry. -/
abbrev StringsMap := List (String × Nat)

namespace StringsMap

/-- Modelled from the spec: `Lookup` by the content of the key. -/
def Lookup : StringsMap → String → Option Nat
  | [], _ => none
  | (k, v) :: rest, key => if k = key then some v else Lookup rest key

/-- Modelled from the spec: the assignment `entry->value = value` through the entry of
`key`. -/
def SetValue : StringsMap → String → Nat → StringsMap
  | [], _, _ => []
  | (k, v) :: rest, key, value =>
    if k = key then (k, value) :: rest else (k, v) :: SetValue rest key value

/-- Modelled from the spec: `LookupOrInsert(key, hash)` gives the entry of `key`, inserting
one with a null value when the key has none. The result is the map and the value of the
entry. -/
def LookupOrInsert (m : StringsMap) (key : String) : StringsMap × Nat :=
  match Lookup m key with
  | some v => (m, v)
  | none => (m ++ [(key, 0)], 0)

/-- Modelled from the spec: `occupancy()` is the number of entries. -/
def occupancy (m : StringsMap) : Nat := m.length

end StringsMap

/-- The structure `AllocationTracker::FunctionInfo`, as far as the serializer reads it. -/
structure FunctionInfo where
  name : String
  function_id : Nat
  script_name : String
  script_id : Int
  line : Int
  column : Int
  deriving DecidableEq, Repr

/-- The class `AllocationTraceNode`, as far as the serializer reads it. -/
inductive AllocationTraceNode where
  | mk (id function_info_index allocation_count allocation_size : Nat)
      (children : List AllocationTraceNode)

/-- The class `AllocationTracker`, as far as the serializer reads it: `function_info_list()`
and the root of `trace_tree()`, as they are after `PrepareForSerialization`. -/
structure AllocationTracker where
  function_info_list : List FunctionInfo
  trace_tree_root : AllocationTraceNode

/-- The structure `HeapObjectsMap::TimeInterval`, as far as the serializer reads it: the last
assigned id and the time stamp, in microseconds. -/
structure TimeInterval where
  id : Nat
  timestamp : Int
  deriving DecidableEq, Repr

/-- What the serializer reads through `snapshot_->profiler()`: the allocation tracker, null
when allocations are not tracked, and the samples of the heap objects map. -/
structure HeapProfilerData where
  allocation_tracker : Option AllocationTracker
  samples : List TimeInterval

/-- The class `unibrow::Utf8`, as far as `SerializeString` uses it: the constant `kBadChar`,
and `CalculateValue(s, length, &cursor)` as a function of the `length` bytes at `s`, giving the
character and the cursor. -/
structure Utf8 where
  kBadChar : Nat
  CalculateValue : List Char → Nat × Nat

/-- The class `HeapSnapshotJSONSerializer`. `writer_` is the writer that `Serialize` creates;
`profiler` stands for `snapshot_->profiler()`. -/
structure HeapSnapshotJSONSerializer where
  snapshot_ : HeapSnapshot
  profiler : HeapProfilerData
  strings_ : StringsMap
  next_string_id_ : Nat
  writer_ : OutputStreamWriter

namespace HeapSnapshotJSONSerializer

/-- `kEdgeFieldsCount`. -/
def kEdgeFieldsCount : Nat := 3

/-- `kNodeFieldsCount`. -/
def kNodeFieldsCount : Nat := 6

/-- Modelled from the spec: the constructor is in heap-snapshot-generator.h, which is not among
the sources. The string table starts empty and "index 0 [is] reserved as a dummy
placeholder": the first id is 1. The writer is the one that `Serialize` creates for
`stream`. -/
def ctor (snapshot : HeapSnapshot) (profiler : HeapProfilerData) (stream : OutputStream) :
    HeapSnapshotJSONSerializer :=
  { snapshot_ := snapshot, profiler := profiler, strings_ := [], next_string_id_ := 1,
    writer_ := OutputStreamWriter.ctor stream }

/-- `HeapSnapshotJSONSerializer::GetStringId`. -/
def GetStringId (z : HeapSnapshotJSONSerializer) (s : String) :
    Nat × HeapSnapshotJSONSerializer :=
  let cache_entry := z.strings_.LookupOrInsert s
  if cache_entry.2 = 0 then
    (z.next_string_id_,
      { z with strings_ := StringsMap.SetValue cache_entry.1 s z.next_string_id_,
               next_string_id_ := z.next_string_id_ + 1 })
  else (cache_entry.2, { z with strings_ := cache_entry.1 })

/-- A call of a member of `writer_` that gives a writer. -/
def onWriter (z : HeapSnapshotJSONSerializer)
    (f : OutputStreamWriter → Option OutputStreamWriter) : Option HeapSnapshotJSONSerializer :=
  (f z.writer_).map (fun w => { z with writer_ := w })

/-- `writer_->AddCharacter(c)`. -/
def AddCharacter (z : HeapSnapshotJSONSerializer) (c : Char) : Option HeapSnapshotJSONSerializer :=
  z.onWriter (fun w => w.AddCharacter c)

/-- `writer_->AddString(s)`. -/
def AddString (z : HeapSnapshotJSONSerializer) (s : List Char) : Option HeapSnapshotJSONSerializer :=
  z.onWriter (fun w => w.AddString s)

/-- `writer_->AddNumber(n)`. -/
def AddNumber (z : HeapSnapshotJSONSerializer) (n : Nat) : Option HeapSnapshotJSONSerializer :=
  z.onWriter (fun w => w.AddNumber n)

/-- `writer_->AddString(buffer.start())`. -/
def AddBuffer (z : HeapSnapshotJSONSerializer) (buffer : List Char) :
    Option HeapSnapshotJSONSerializer :=
  (cstring buffer).bind z.AddString

/-- `kBufferSize` of `SerializeEdge`. -/
def SerializeEdge.kBufferSize : Nat := MaxDecimalDigitsIn4.kUnsigned * 3 + 3 + 2

/-- `HeapSnapshotJSONSerializer::SerializeEdge`. `edge` is the pointer to the edge. There is
no result when the edge is read through the member of a union that was not the one written:
`index()` of an edge with a name, `name()` of an edge with an index, `to()` of an edge whose
target is still an index. `entry_index` is declared in the header. The target is read before the steps on the
buffer. -/
def SerializeEdge (entry_index : Nat → Int) (z : HeapSnapshotJSONSerializer) (edge : Nat)
    (first_edge : Bool) : Option HeapSnapshotJSONSerializer := do
  let e ← z.snapshot_.edges_[edge]?
  let buffer := EmbeddedVector SerializeEdge.kBufferSize
  let r ←
    (if e.type = HeapGraphEdgeType.kElement ∨ e.type = HeapGraphEdgeType.kHidden then
      match e.label with
      | EdgeLabel.index_ index => some (index, z)
      | EdgeLabel.name_ _ => none
    else
      match e.label with
      | EdgeLabel.index_ _ => none
      | EdgeLabel.name_ name => some (((z.GetStringId name).1 : Int), (z.GetStringId name).2))
  let z := r.2
  let to_ ← (match e.to_ with
    | EdgeTarget.to_entry_ entry => some entry
    | EdgeTarget.to_index_ _ => none)
  let b ←
    (if !first_edge then put ',' buffer 0 else some (buffer, 0))
      |>.bind (fun b => utoa 4 e.type.value b.1 b.2)
      |>.bind (fun b => put ',' b.1 b.2)
      |>.bind (fun b => utoa 4 r.1 b.1 b.2)
      |>.bind (fun b => put ',' b.1 b.2)
      |>.bind (fun b => utoa 4 (entry_index to_) b.1 b.2)
      |>.bind (fun b => put '\n' b.1 b.2)
      |>.bind (fun b => put (Char.ofNat 0) b.1 b.2)
  z.AddBuffer b.1

/-- The loop of `HeapSnapshotJSONSerializer::SerializeEdges` from position `i` of `children()`
on, over the pointers `edges` that remain. There is no result for a null pointer. -/
def SerializeEdgesLoop (entry_index : Nat → Int) :
    List (Option Nat) → Nat → HeapSnapshotJSONSerializer → Option HeapSnapshotJSONSerializer
  | [], _, z => some z
  | none :: _, _, _ => none
  | some edge :: edges, i, z =>
    match SerializeEdge entry_index z edge (decide (i = 0)) with
    | none => none
    | some z1 => if z1.writer_.aborted then some z1 else SerializeEdgesLoop entry_index edges (i + 1) z1

/-- `HeapSnapshotJSONSerializer::SerializeEdges`. -/
def SerializeEdges (entry_index : Nat → Int) (z : HeapSnapshotJSONSerializer) :
    Option HeapSnapshotJSONSerializer :=
  SerializeEdgesLoop entry_index z.snapshot_.children_ 0 z

/-- `kBufferSize` of `SerializeNode`. -/
def SerializeNode.kBufferSize : Nat :=
  5 * MaxDecimalDigitsIn4.kUnsigned + MaxDecimalDigitsIn8.kUnsigned + 6 + 1 + 1

/-- `HeapSnapshotJSONSerializer::SerializeNode`. `entry` is the pointer to the entry. The id
of the name is taken before the steps on the buffer, which do not depend on the string
table. -/
def SerializeNode (entry_index : Nat → Int) (z : HeapSnapshotJSONSerializer) (entry : Nat) :
    Option HeapSnapshotJSONSerializer := do
  let e ← z.snapshot_.entries_[entry]?
  let buffer := EmbeddedVector SerializeNode.kBufferSize
  let id := z.GetStringId e.name_
  let b ←
    (if entry_index entry ≠ 0 then put ',' buffer 0 else some (buffer, 0))
      |>.bind (fun b => utoa 4 e.type_.value b.1 b.2)
      |>.bind (fun b => put ',' b.1 b.2)
      |>.bind (fun b => utoa 4 id.1 b.1 b.2)
      |>.bind (fun b => put ',' b.1 b.2)
      |>.bind (fun b => utoa 4 e.id_ b.1 b.2)
      |>.bind (fun b => put ',' b.1 b.2)
      |>.bind (fun b => utoa 8 e.self_size_ b.1 b.2)
      |>.bind (fun b => put ',' b.1 b.2)
      |>.bind (fun b => utoa 4 e.children_count_ b.1 b.2)
      |>.bind (fun b => put ',' b.1 b.2)
      |>.bind (fun b => utoa 4 e.trace_node_id_ b.1 b.2)
      |>.bind (fun b => put '\n' b.1 b.2)
      |>.bind (fun b => put (Char.ofNat 0) b.1 b.2)
  id.2.AddBuffer b.1

/-- The loop of `HeapSnapshotJSONSerializer::SerializeNodes` over the entries from the pointer
`entry` on, `n` of them. -/
def SerializeNodesLoop (entry_index : Nat → Int) :
    Nat → Nat → HeapSnapshotJSONSerializer → Option HeapSnapshotJSONSerializer
  | 0, _, z => some z
  | n + 1, entry, z =>
    match SerializeNode entry_index z entry with
    | none => none
    | some z1 => if z1.writer_.aborted then some z1 else SerializeNodesLoop entry_index n (entry + 1) z1

/-- `HeapSnapshotJSONSerializer::SerializeNodes`. -/
def SerializeNodes (entry_index : Nat → Int) (z : HeapSnapshotJSONSerializer) :
    Option HeapSnapshotJSONSerializer :=
  SerializeNodesLoop entry_index z.snapshot_.entries_.length 0 z

/-- The object that describes the layout, as `SerializeSnapshot` writes it. -/
def metaText : String :=
  "\x7b\"node_fields\":[\"type\",\"name\",\"id\",\"self_size\",\"edge_count\",\"trace_node_id\"]," ++
  "\"node_types\":[[\"hidden\",\"array\",\"string\",\"object\",\"code\",\"closure\",\"regexp\"," ++
  "\"number\",\"native\",\"synthetic\",\"concatenated string\",\"sliced string\",\"symbol\"]," ++
  "\"string\",\"number\",\"number\",\"number\",\"number\",\"number\"]," ++
  "\"edge_fields\":[\"type\",\"name_or_index\",\"to_node\"]," ++
  "\"edge_types\":[[\"context\",\"element\",\"property\",\"internal\",\"hidden\",\"shortcut\"," ++
  "\"weak\"],\"string_or_number\",\"node\"]," ++
  "\"trace_function_info_fields\":[\"function_id\",\"name\",\"script_name\",\"script_id\"," ++
  "\"line\",\"column\"]," ++
  "\"trace_node_fields\":[\"id\",\"function_info_index\",\"count\",\"size\",\"children\"]," ++
  "\"sample_fields\":[\"timestamp_us\",\"last_assigned_id\"]\x7d"

/-- `HeapSnapshotJSONSerializer::SerializeSnapshot`. The number of edges is converted from
`double` to `unsigned`: there is no result when it is not below `2 ^ 32`. -/
def SerializeSnapshot (z : HeapSnapshotJSONSerializer) : Option HeapSnapshotJSONSerializer := do
  let z ← z.AddString "\"meta\":".toList
  let z ← z.AddString metaText.toList
  let z ← z.AddString ",\"node_count\":".toList
  let z ← z.AddNumber (z.snapshot_.entries_.length % kUnsignedRange)
  let z ← z.AddString ",\"edge_count\":".toList
  let z ← (if z.snapshot_.edges_.length < kUnsignedRange then z.AddNumber z.snapshot_.edges_.length
    else none)
  let z ← z.AddString ",\"trace_function_count\":".toList
  let count : Nat :=
    match z.profiler.allocation_tracker with
    | some tracker => tracker.function_info_list.length % kUnsignedRange
    | none => 0
  z.AddNumber count

/-- The table `hex_chars`. -/
def hex_chars : List Char := "0123456789ABCDEF".toList

/-- The function `WriteUChar`. -/
def WriteUChar (w : OutputStreamWriter) (u : Nat) : Option OutputStreamWriter := do
  let w ← w.AddString "\\u".toList
  let w ← w.AddCharacter (← hex_chars[(u >>> 12) &&& 0xF]?)
  let w ← w.AddCharacter (← hex_chars[(u >>> 8) &&& 0xF]?)
  let w ← w.AddCharacter (← hex_chars[(u >>> 4) &&& 0xF]?)
  w.AddCharacter (← hex_chars[u &&& 0xF]?)

/-- `kBufferSize` of `SerializeTraceNode`. -/
def SerializeTraceNode.kBufferSize : Nat := 4 * MaxDecimalDigitsIn4.kUnsigned + 4 + 1 + 1

mutual
/-- `HeapSnapshotJSONSerializer::SerializeTraceNode`. -/
def SerializeTraceNode (z : HeapSnapshotJSONSerializer) :
    AllocationTraceNode → Option HeapSnapshotJSONSerializer
  | AllocationTraceNode.mk id function_info_index allocation_count allocation_size children => do
    let buffer := EmbeddedVector SerializeTraceNode.kBufferSize
    let b ←
      (utoa 4 id buffer 0)
        |>.bind (fun b => put ',' b.1 b.2)
        |>.bind (fun b => utoa 4 function_info_index b.1 b.2)
        |>.bind (fun b => put ',' b.1 b.2)
        |>.bind (fun b => utoa 4 allocation_count b.1 b.2)
        |>.bind (fun b => put ',' b.1 b.2)
        |>.bind (fun b => utoa 4 allocation_size b.1 b.2)
        |>.bind (fun b => put ',' b.1 b.2)
        |>.bind (fun b => put '[' b.1 b.2)
        |>.bind (fun b => put (Char.ofNat 0) b.1 b.2)
    let z ← z.AddBuffer b.1
    let z ← SerializeTraceNodeChildren z 0 children
    z.AddCharacter ']'
/-- The loop of `SerializeTraceNode` over the children, `i` of which are done. -/
def SerializeTraceNodeChildren (z : HeapSnapshotJSONSerializer) (i : Nat) :
    List AllocationTraceNode → Option HeapSnapshotJSONSerializer
  | [] => some z
  | child :: children => do
    let z ← (if i > 0 then z.AddCharacter ',' else some z)
    let z ← SerializeTraceNode z child
    SerializeTraceNodeChildren z (i + 1) children
end

/-- `HeapSnapshotJSONSerializer::SerializeTraceTree`. -/
def SerializeTraceTree (z : HeapSnapshotJSONSerializer) : Option HeapSnapshotJSONSerializer :=
  match z.profiler.allocation_tracker with
  | none => some z
  | some tracker => SerializeTraceNode z tracker.trace_tree_root

/-- The function `SerializePosition`. -/
def SerializePosition (position : Int) (buffer : List Char) (buffer_pos : Nat) :
    Option (List Char × Nat) :=
  if position = -1 then put '0' buffer buffer_pos
  else utoa 4 (toUnsigned (position + 1)) buffer buffer_pos

/-- `kBufferSize` of `SerializeTraceNodeInfos`. -/
def SerializeTraceNodeInfos.kBufferSize : Nat := 6 * MaxDecimalDigitsIn4.kUnsigned + 6 + 1 + 1

/-- The loop of `HeapSnapshotJSONSerializer::SerializeTraceNodeInfos`, `i` rounds of which are
done; `buffer` is the one buffer of all rounds. -/
def SerializeTraceNodeInfosLoop : List FunctionInfo → Nat → List Char →
    HeapSnapshotJSONSerializer → Option HeapSnapshotJSONSerializer
  | [], _, _, z => some z
  | info :: infos, i, buffer, z => do
    let name_id := z.GetStringId info.name
    let script_name_id := name_id.2.GetStringId info.script_name
    let b ←
      (if i > 0 then put ',' buffer 0 else some (buffer, 0))
        |>.bind (fun b => utoa 4 info.function_id b.1 b.2)
        |>.bind (fun b => put ',' b.1 b.2)
        |>.bind (fun b => utoa 4 name_id.1 b.1 b.2)
        |>.bind (fun b => put ',' b.1 b.2)
        |>.bind (fun b => utoa 4 script_name_id.1 b.1 b.2)
        |>.bind (fun b => put ',' b.1 b.2)
        |>.bind (fun b => utoa 4 (toUnsigned info.script_id) b.1 b.2)
        |>.bind (fun b => put ',' b.1 b.2)
        |>.bind (fun b => SerializePosition info.line b.1 b.2)
        |>.bind (fun b => put ',' b.1 b.2)
        |>.bind (fun b => SerializePosition info.column b.1 b.2)
        |>.bind (fun b => put '\n' b.1 b.2)
        |>.bind (fun b => put (Char.ofNat 0) b.1 b.2)
    let z ← script_name_id.2.AddBuffer b.1
    SerializeTraceNodeInfosLoop infos (i + 1) b.1 z

/-- `HeapSnapshotJSONSerializer::SerializeTraceNodeInfos`. -/
def SerializeTraceNodeInfos (z : HeapSnapshotJSONSerializer) : Option HeapSnapshotJSONSerializer :=
  match z.profiler.allocation_tracker with
  | none => some z
  | some tracker =>
    SerializeTraceNodeInfosLoop tracker.function_info_list 0
      (EmbeddedVector SerializeTraceNodeInfos.kBufferSize) z

/-- `kBufferSize` of `SerializeSamples`. -/
def SerializeSamples.kBufferSize : Nat :=
  MaxDecimalDigitsIn8.kUnsigned + MaxDecimalDigitsIn4.kUnsigned + 2 + 1 + 1

/-- The loop of `HeapSnapshotJSONSerializer::SerializeSamples`, `i` rounds of which are done;
`buffer` is the one buffer of all rounds. -/
def SerializeSamplesLoop (start_time : Int) : List TimeInterval → Nat → List Char →
    HeapSnapshotJSONSerializer → Option HeapSnapshotJSONSerializer
  | [], _, _, z => some z
  | sample :: samples, i, buffer, z => do
    let time_delta := sample.timestamp - start_time
    let b ←
      (if i > 0 then put ',' buffer 0 else some (buffer, 0))
        |>.bind (fun b => utoa 8 time_delta b.1 b.2)
        |>.bind (fun b => put ',' b.1 b.2)
        |>.bind (fun b => utoa 4 sample.id b.1 b.2)
        |>.bind (fun b => put '\n' b.1 b.2)
        |>.bind (fun b => put (Char.ofNat 0) b.1 b.2)
    let z ← z.AddBuffer b.1
    SerializeSamplesLoop start_time samples (i + 1) b.1 z

/-- `HeapSnapshotJSONSerializer::SerializeSamples`. -/
def SerializeSamples (z : HeapSnapshotJSONSerializer) : Option HeapSnapshotJSONSerializer :=
  match z.profiler.samples with
  | [] => some z
  | sample0 :: samples =>
    SerializeSamplesLoop sample0.timestamp (sample0 :: samples) 0
      (EmbeddedVector SerializeSamples.kBufferSize) z

/-- The loop `for ( ; length <= 4 && *(s + length) != 0; ++length)` of `SerializeString`;
the end of the list is the terminating NUL. The first argument bounds the number of rounds. -/
def SerializeString.length (s : List Char) : Nat → Nat → Nat
  | 0, length => length
  | fuel + 1, length =>
    match s[length]? with
    | none => length
    | some c =>
      if length ≤ 4 ∧ c ≠ Char.ofNat 0 then SerializeString.length s fuel (length + 1) else length

/-- The body of the loop of `HeapSnapshotJSONSerializer::SerializeString` for the byte `c`,
which is followed by the bytes `s`: the writer, and the bytes that remain for the next
rounds. There is no result when the cursor that `CalculateValue` gives is 0 (the loop
then does not advance) or leads beyond the terminating NUL. -/
def SerializeStringChar (utf8 : Utf8) (w : OutputStreamWriter) (c : Char) (s : List Char) :
    Option (OutputStreamWriter × List Char) :=
  if c = Char.ofNat 8 then (w.AddString "\\b".toList).map (fun w1 => (w1, s))
  else if c = Char.ofNat 12 then (w.AddString "\\f".toList).map (fun w1 => (w1, s))
  else if c = '\n' then (w.AddString "\\n".toList).map (fun w1 => (w1, s))
  else if c = '\r' then (w.AddString "\\r".toList).map (fun w1 => (w1, s))
  else if c = '\t' then (w.AddString "\\t".toList).map (fun w1 => (w1, s))
  else if c = '\"' ∨ c = '\\' then
    ((w.AddCharacter '\\').bind (fun w1 => w1.AddCharacter c)).map (fun w1 => (w1, s))
  else if c.toNat > 31 ∧ c.toNat < 128 then (w.AddCharacter c).map (fun w1 => (w1, s))
  else if c.toNat ≤ 31 then (WriteUChar w c.toNat).map (fun w1 => (w1, s))
  else
    let length := SerializeString.length (c :: s) 5 1
    let r := utf8.CalculateValue ((c :: s).take length)
    if r.1 ≠ utf8.kBadChar then
      if r.2 = 0 ∨ r.2 - 1 > s.length then none
      else (WriteUChar w r.1).map (fun w1 => (w1, s.drop (r.2 - 1)))
    else (w.AddCharacter '?').map (fun w1 => (w1, s))

/-- The loop of `HeapSnapshotJSONSerializer::SerializeString` over the bytes that remain; the
end of the list is the terminating NUL. The first argument bounds the number of rounds. -/
def SerializeStringLoop (utf8 : Utf8) :
    Nat → OutputStreamWriter → List Char → Option OutputStreamWriter
  | _, w, [] => some w
  | 0, _, _ :: _ => none
  | fuel + 1, w, c :: s =>
    if c = Char.ofNat 0 then some w
    else (SerializeStringChar utf8 w c s).bind (fun r => SerializeStringLoop utf8 fuel r.1 r.2)

/-- `HeapSnapshotJSONSerializer::SerializeString`. -/
def SerializeString (utf8 : Utf8) (z : HeapSnapshotJSONSerializer) (s : List Char) :
    Option HeapSnapshotJSONSerializer := do
  let z ← z.AddCharacter '\n'
  let z ← z.AddCharacter '\"'
  let z ← z.onWriter (fun w => SerializeStringLoop utf8 s.length w s)
  z.AddCharacter '\"'

/-- The first loop of `SerializeStrings`: every key of `strings_` is stored at the index that
is its value. There is no result when an index is outside `sorted_strings`. -/
def fillSortedStrings : StringsMap → List (Option String) → Option (List (Option String))
  | [], sorted_strings => some sorted_strings
  | (key, value) :: rest, sorted_strings =>
    if value < sorted_strings.length then
      fillSortedStrings rest (sorted_strings.set value (some key))
    else none

/-- The second loop of `SerializeStrings`, from index `i` on, for `n` rounds. There is no
result when a cell read was not written by the first loop. -/
def SerializeStringsLoop (utf8 : Utf8) (sorted_strings : List (Option String)) :
    Nat → Nat → HeapSnapshotJSONSerializer → Option HeapSnapshotJSONSerializer
  | 0, _, z => some z
  | n + 1, i, z =>
    match sorted_strings[i]? with
    | some (some s) =>
      match (z.AddCharacter ',').bind (SerializeString utf8 · s.toList) with
      | none => none
      | some z1 =>
        if z1.writer_.aborted then some z1
        else SerializeStringsLoop utf8 sorted_strings n (i + 1) z1
    | _ => none

/-- `HeapSnapshotJSONSerializer::SerializeStrings`. The cells of the new `sorted_strings` hold
no string (`none`). -/
def SerializeStrings (utf8 : Utf8) (z : HeapSnapshotJSONSerializer) :
    Option HeapSnapshotJSONSerializer := do
  let sorted_strings ←
    fillSortedStrings z.strings_ (List.replicate (z.strings_.occupancy + 1) none)
  let z ← z.AddString "\"<dummy>\"".toList
  SerializeStringsLoop utf8 sorted_strings (sorted_strings.length - 1) 1 z

/-- The statement `if (writer_->aborted()) return;` of `SerializeImpl` after a call with the
result `r`: `rest` runs when the call has a result and the writer is not aborted. -/
def unlessAborted (r : Option HeapSnapshotJSONSerializer)
    (rest : HeapSnapshotJSONSerializer → Option HeapSnapshotJSONSerializer) :
    Option HeapSnapshotJSONSerializer :=
  r.bind (fun z => if z.writer_.aborted then some z else rest z)

/-- `HeapSnapshotJSONSerializer::SerializeImpl`. -/
def SerializeImpl (entry_index : Nat → Int) (utf8 : Utf8) (z : HeapSnapshotJSONSerializer) :
    Option HeapSnapshotJSONSerializer :=
  unlessAborted
    ((z.AddCharacter '\x7b')
      |>.bind (·.AddString "\"snapshot\":\x7b".toList)
      |>.bind (·.SerializeSnapshot)) fun z =>
  unlessAborted
    ((z.AddString "\x7d,\n".toList)
      |>.bind (·.AddString "\"nodes\":[".toList)
      |>.bind (·.SerializeNodes entry_index)) fun z =>
  unlessAborted
    ((z.AddString "],\n".toList)
      |>.bind (·.AddString "\"edges\":[".toList)
      |>.bind (·.SerializeEdges entry_index)) fun z =>
  unlessAborted
    ((z.AddString "],\n".toList)
      |>.bind (·.AddString "\"trace_function_infos\":[".toList)
      |>.bind (·.SerializeTraceNodeInfos)) fun z =>
  unlessAborted
    ((z.AddString "],\n".toList)
      |>.bind (·.AddString "\"trace_tree\":[".toList)
      |>.bind (·.SerializeTraceTree)) fun z =>
  unlessAborted
    ((z.AddString "],\n".toList)
      |>.bind (·.AddString "\"samples\":[".toList)
      |>.bind (·.SerializeSamples)) fun z =>
  unlessAborted
    ((z.AddString "],\n".toList)
      |>.bind (·.AddString "\"strings\":[".toList)
      |>.bind (·.SerializeStrings utf8)) fun z =>
  ((z.AddCharacter ']')
    |>.bind (·.AddCharacter '\x7d')).map (fun z => { z with writer_ := z.writer_.Finalize })

/-- `HeapSnapshotJSONSerializer::Serialize`: `SerializeImpl` with a new writer for `stream`.
The result keeps the writer, with the calls the stream received. -/
def Serialize (entry_index : Nat → Int) (utf8 : Utf8) (z : HeapSnapshotJSONSerializer)
    (stream : OutputStream) : Option HeapSnapshotJSONSerializer :=
  SerializeImpl entry_index utf8 { z with writer_ := OutputStreamWriter.ctor stream }

end HeapSnapshotJSONSerializer

/-! ## V8HeapExplorer: the two passes and the fixed arrays

An `Object*` is a natural number. The classes of the heap objects are declared in files that are
not among the sources (objects.h and others): what the explorer reads through them is the
record `Heap`. The extraction routines that the first pass chooses from are followed through
the list of the routines it calls. -/

/-- The type `FixedArraySubInstanceType` (declared in objects.h): the value that the file
names, and the others. -/
inductive FixedArraySubInstanceType where
  | JS_WEAK_COLLECTION_SUB_TYPE
  | other (value : Nat)
  deriving DecidableEq, Repr

/-- What the explorer reads of the heap and of its objects: the constant `kPointerSize`, the
type tests, the roots that `IsEssentialObject` compares with, `FixedArray::length`,
`FixedArray::get`, `FixedArray::OffsetOfElementAt`, `JSWeakCollection::table`,
`JSWeakCollection::kTableOffset`, and `Capacity`, `EntryToIndex`, `kEntryKeyIndex` and
`EntryToValueIndex` of `ObjectHashTable`. -/
structure Heap where
  kPointerSize : Nat
  IsHeapObject : Nat → Bool
  IsOddball : Nat → Bool
  IsFixedArray : Nat → Bool
  IsContext : Nat → Bool
  IsHashTable : Nat → Bool
  IsJSGlobalProxy : Nat → Bool
  IsJSArrayBuffer : Nat → Bool
  IsJSObject : Nat → Bool
  IsJSWeakSet : Nat → Bool
  IsJSWeakMap : Nat → Bool
  IsJSSet : Nat → Bool
  IsJSMap : Nat → Bool
  IsJSPromise : Nat → Bool
  IsString : Nat → Bool
  IsSymbol : Nat → Bool
  IsMap : Nat → Bool
  IsSharedFunctionInfo : Nat → Bool
  IsScript : Nat → Bool
  IsAccessorInfo : Nat → Bool
  IsAccessorPair : Nat → Bool
  IsCode : Nat → Bool
  IsCell : Nat → Bool
  IsWeakCell : Nat → Bool
  IsPropertyCell : Nat → Bool
  IsAllocationSite : Nat → Bool
  empty_byte_array : Nat
  empty_fixed_array : Nat
  empty_descriptor_array : Nat
  fixed_array_map : Nat
  cell_map : Nat
  global_property_cell_map : Nat
  shared_function_info_map : Nat
  free_space_map : Nat
  one_pointer_filler_map : Nat
  two_pointer_filler_map : Nat
  length : Nat → Nat
  get : Nat → Nat → Nat
  OffsetOfElementAt : Nat → Int
  table : Nat → Nat
  kTableOffset : Int
  Capacity : Nat → Nat
  EntryToIndex : Nat → Nat
  kEntryKeyIndex : Nat
  EntryToValueIndex : Nat → Nat

/-- The routines that the two passes call for an object. -/
inductive ExtractRoutine where
  | ExtractJSGlobalProxyReferences
  | ExtractJSArrayBufferReferences
  | ExtractJSWeakCollectionReferences
  | ExtractJSCollectionReferences
  | ExtractJSPromiseReferences
  | ExtractJSObjectReferences
  | ExtractStringReferences
  | ExtractSymbolReferences
  | ExtractMapReferences
  | ExtractSharedFunctionInfoReferences
  | ExtractScriptReferences
  | ExtractAccessorInfoReferences
  | ExtractAccessorPairReferences
  | ExtractCodeReferences
  | ExtractCellReferences
  | ExtractWeakCellReferences
  | ExtractPropertyCellReferences
  | ExtractAllocationSiteReferences
  | ExtractContextReferences
  | ExtractFixedArrayReferences
  deriving DecidableEq, Repr

/-- The class `V8HeapExplorer`, as far as the references of the fixed arrays use it: the
Filler, the map `array_types_` (the list of its entries) and the vector `marks_`. -/
structure V8HeapExplorer where
  filler_ : SnapshotFiller
  array_types_ : List (Nat × FixedArraySubInstanceType)
  marks_ : List Bool

namespace V8HeapExplorer

/-- `V8HeapExplorer::ExtractReferencesPass1`: the result, and the routines called for the
object, in their order. -/
def ExtractReferencesPass1 (heap : Heap) (obj : Nat) : Bool × List ExtractRoutine :=
  if heap.IsFixedArray obj then (false, [])
  else if heap.IsJSGlobalProxy obj then (true, [ExtractRoutine.ExtractJSGlobalProxyReferences])
  else if heap.IsJSArrayBuffer obj then (true, [ExtractRoutine.ExtractJSArrayBufferReferences])
  else if heap.IsJSObject obj then
    (true,
      (if heap.IsJSWeakSet obj then [ExtractRoutine.ExtractJSWeakCollectionReferences]
       else if heap.IsJSWeakMap obj then [ExtractRoutine.ExtractJSWeakCollectionReferences]
       else if heap.IsJSSet obj then [ExtractRoutine.ExtractJSCollectionReferences]
       else if heap.IsJSMap obj then [ExtractRoutine.ExtractJSCollectionReferences]
       else if heap.IsJSPromise obj then [ExtractRoutine.ExtractJSPromiseReferences]
       else []) ++ [ExtractRoutine.ExtractJSObjectReferences])
  else if heap.IsString obj then (true, [ExtractRoutine.ExtractStringReferences])
  else if heap.IsSymbol obj then (true, [ExtractRoutine.ExtractSymbolReferences])
  else if heap.IsMap obj then (true, [ExtractRoutine.ExtractMapReferences])
  else if heap.IsSharedFunctionInfo obj then
    (true, [ExtractRoutine.ExtractSharedFunctionInfoReferences])
  else if heap.IsScript obj then (true, [ExtractRoutine.ExtractScriptReferences])
  else if heap.IsAccessorInfo obj then (true, [ExtractRoutine.ExtractAccessorInfoReferences])
  else if heap.IsAccessorPair obj then (true, [ExtractRoutine.ExtractAccessorPairReferences])
  else if heap.IsCode obj then (true, [ExtractRoutine.ExtractCodeReferences])
  else if heap.IsCell obj then (true, [ExtractRoutine.ExtractCellReferences])
  else if heap.IsWeakCell obj then (true, [ExtractRoutine.ExtractWeakCellReferences])
  else if heap.IsPropertyCell obj then (true, [ExtractRoutine.ExtractPropertyCellReferences])
  else if heap.IsAllocationSite obj then
    (true, [ExtractRoutine.ExtractAllocationSiteReferences])
  else (true, [])

/-- `V8HeapExplorer::ExtractReferencesPass2`: the result, and the routine called for the
object. -/
def ExtractReferencesPass2 (heap : Heap) (obj : Nat) : Bool × List ExtractRoutine :=
  if !heap.IsFixedArray obj then (false, [])
  else if heap.IsContext obj then (true, [ExtractRoutine.ExtractContextReferences])
  else (true, [ExtractRoutine.ExtractFixedArrayReferences])

/-- The extractor of the pass `pass`, the template argument of
`IterateAndExtractSinglePass`. -/
def extractor (pass : Nat) (heap : Heap) (obj : Nat) : Bool × List ExtractRoutine :=
  if pass = 1 then ExtractReferencesPass1 heap obj else ExtractReferencesPass2 heap obj

/-- `V8HeapExplorer::IsEssentialObject`. -/
def IsEssentialObject (heap : Heap) (object : Nat) : Bool :=
  heap.IsHeapObject object && !heap.IsOddball object &&
  decide (object ≠ heap.empty_byte_array) &&
  decide (object ≠ heap.empty_fixed_array) &&
  decide (object ≠ heap.empty_descriptor_array) &&
  decide (object ≠ heap.fixed_array_map) && decide (object ≠ heap.cell_map) &&
  decide (object ≠ heap.global_property_cell_map) &&
  decide (object ≠ heap.shared_function_info_map) &&
  decide (object ≠ heap.free_space_map) &&
  decide (object ≠ heap.one_pointer_filler_map) &&
  decide (object ≠ heap.two_pointer_filler_map)

/-- `V8HeapExplorer::GetEntry`; `none` is `nullptr`. The explorer is the allocator of its
entries: `allocator` gives the arguments of its `AddEntry` calls. -/
def GetEntry (heap : Heap) (allocator : HeapEntriesAllocator) (x : V8HeapExplorer) (obj : Nat) :
    Option Nat × V8HeapExplorer :=
  if !heap.IsHeapObject obj then (none, x)
  else
    (some (x.filler_.FindOrAddEntry obj allocator).1,
      { x with filler_ := (x.filler_.FindOrAddEntry obj allocator).2 })

/-- `V8HeapExplorer::MarkVisitedField`. There is no result when the index is outside
`marks_`. -/
def MarkVisitedField (heap : Heap) (x : V8HeapExplorer) (offset : Int) : Option V8HeapExplorer :=
  if offset < 0 then some x
  else if (offset / (heap.kPointerSize : Int)).toNat < x.marks_.length then
    some { x with marks_ := x.marks_.set (offset / (heap.kPointerSize : Int)).toNat true }
  else none

/-- The part that `SetInternalReference` and `SetWeakReference` share: the entry of the
child, the named edge of the kind `type` when the child is essential, and the mark of the
field. -/
def SetNamedFieldReference (heap : Heap) (allocator : HeapEntriesAllocator)
    (type : HeapGraphEdgeType) (x : V8HeapExplorer) (parent_entry : Nat)
    (reference_name : String) (child_obj : Nat) (field_offset : Int) : Option V8HeapExplorer :=
  match (x.GetEntry heap allocator child_obj).1 with
  | none => some (x.GetEntry heap allocator child_obj).2
  | some child_entry =>
    (if IsEssentialObject heap child_obj then
      ((x.GetEntry heap allocator child_obj).2.filler_.SetNamedReference type parent_entry
        reference_name child_entry).map
        (fun f => { (x.GetEntry heap allocator child_obj).2 with filler_ := f })
     else some (x.GetEntry heap allocator child_obj).2).bind
      (fun x1 => x1.MarkVisitedField heap field_offset)

/-- `V8HeapExplorer::SetInternalReference` with a name. -/
def SetInternalReferenceNamed (heap : Heap) (allocator : HeapEntriesAllocator)
    (x : V8HeapExplorer) (parent_entry : Nat) (reference_name : String) (child_obj : Nat)
    (field_offset : Int) : Option V8HeapExplorer :=
  SetNamedFieldReference heap allocator HeapGraphEdgeType.kInternal x parent_entry reference_name
    child_obj field_offset

/-- `V8HeapExplorer::SetInternalReference` with an index: the name of the edge is
`names_->GetName(index)`. -/
def SetInternalReference (heap : Heap) (allocator : HeapEntriesAllocator)
    (GetName : Int → String) (x : V8HeapExplorer) (parent_entry : Nat) (index : Int)
    (child_obj : Nat) (field_offset : Int) : Option V8HeapExplorer :=
  SetNamedFieldReference heap allocator HeapGraphEdgeType.kInternal x parent_entry (GetName index)
    child_obj field_offset

/-- `V8HeapExplorer::SetWeakReference` with an index: the name of the edge is
`names_->GetFormatted("%d", index)`, here `GetFormatted index`. -/
def SetWeakReference (heap : Heap) (allocator : HeapEntriesAllocator)
    (GetFormatted : Int → String) (x : V8HeapExplorer) (parent_entry : Nat) (index : Int)
    (child_obj : Nat) (field_offset : Int) : Option V8HeapExplorer :=
  SetNamedFieldReference heap allocator HeapGraphEdgeType.kWeak x parent_entry
    (GetFormatted index) child_obj field_offset

/-- `array_types_.find(array)`; `none` is `array_types_.end()`. -/
def findArrayType : List (Nat × FixedArraySubInstanceType) → Nat →
    Option FixedArraySubInstanceType
  | [], _ => none
  | (k, v) :: rest, array => if k = array then some v else findArrayType rest array

/-- The assignment `array_types_[array] = type`. -/
def setArrayType : List (Nat × FixedArraySubInstanceType) → Nat → FixedArraySubInstanceType →
    List (Nat × FixedArraySubInstanceType)
  | [], array, type => [(array, type)]
  | (k, v) :: rest, array, type =>
    if k = array then (k, type) :: rest else (k, v) :: setArrayType rest array type

/-- `V8HeapExplorer::TagFixedArraySubType`. -/
def TagFixedArraySubType (x : V8HeapExplorer) (array : Nat) (type : FixedArraySubInstanceType) :
    V8HeapExplorer :=
  { x with array_types_ := setArrayType x.array_types_ array type }

/-- `V8HeapExplorer::ExtractJSWeakCollectionReferences`. -/
def ExtractJSWeakCollectionReferences (heap : Heap) (allocator : HeapEntriesAllocator)
    (x : V8HeapExplorer) (entry : Nat) (obj : Nat) : Option V8HeapExplorer :=
  SetInternalReferenceNamed heap allocator
    (if heap.IsHashTable (heap.table obj) then
      x.TagFixedArraySubType (heap.table obj) FixedArraySubInstanceType.JS_WEAK_COLLECTION_SUB_TYPE
     else x)
    entry "table" (heap.table obj) heap.kTableOffset

/-- The loop `for (i = 0; i < l; ++i) SetInternalReference(array, entry, i, array->get(i),
array->OffsetOfElementAt(i))` of `ExtractFixedArrayReferences`, over the indexes that
remain. -/
def ExtractFixedArrayElements (heap : Heap) (allocator : HeapEntriesAllocator)
    (GetName : Int → String) (entry array : Nat) :
    List Nat → V8HeapExplorer → Option V8HeapExplorer
  | [], x => some x
  | i :: rest, x =>
    (SetInternalReference heap allocator GetName x entry (i : Int) (heap.get array i)
      (heap.OffsetOfElementAt i)).bind
      (ExtractFixedArrayElements heap allocator GetName entry array rest)

/-- The loop of `ExtractFixedArrayReferences` over the entries of a table tagged
`JS_WEAK_COLLECTION_SUB_TYPE`, over the entries that remain. -/
def ExtractWeakTableEntries (heap : Heap) (allocator : HeapEntriesAllocator)
    (GetName GetFormatted : Int → String) (entry table : Nat) :
    List Nat → V8HeapExplorer → Option V8HeapExplorer
  | [], x => some x
  | i :: rest, x =>
    ((SetWeakReference heap allocator GetFormatted x entry
        ((heap.EntryToIndex i + heap.kEntryKeyIndex : Nat) : Int)
        (heap.get table (heap.EntryToIndex i + heap.kEntryKeyIndex))
        (heap.OffsetOfElementAt (heap.EntryToIndex i + heap.kEntryKeyIndex))).bind
      (fun x1 => SetInternalReference heap allocator GetName x1 entry
        ((heap.EntryToValueIndex i : Nat) : Int)
        (heap.get table (heap.EntryToValueIndex i))
        (heap.OffsetOfElementAt (heap.EntryToValueIndex i)))).bind
      (ExtractWeakTableEntries heap allocator GetName GetFormatted entry table rest)

/-- `V8HeapExplorer::ExtractFixedArrayReferences`. -/
def ExtractFixedArrayReferences (heap : Heap) (allocator : HeapEntriesAllocator)
    (GetName GetFormatted : Int → String) (x : V8HeapExplorer) (entry array : Nat) :
    Option V8HeapExplorer :=
  match findArrayType x.array_types_ array with
  | none =>
    ExtractFixedArrayElements heap allocator GetName entry array
      (List.range (heap.length array)) x
  | some FixedArraySubInstanceType.JS_WEAK_COLLECTION_SUB_TYPE =>
    ExtractWeakTableEntries heap allocator GetName GetFormatted entry array
      (List.range (heap.Capacity array)) x
  | some (FixedArraySubInstanceType.other _) =>
    ExtractFixedArrayElements heap allocator GetName entry array
      (List.range (heap.length array)) x

end V8HeapExplorer

/-! ## Predicates and examples for the claims on the writer and the serializer -/

/-- The stream answers `kContinue` to every chunk. -/
def OutputStream.NeverAborts (stream : OutputStream) : Prop :=
  ∀ (calls : List StreamCall) (data : List Char),
    stream.WriteAsciiChunk calls data = WriteResult.kContinue

/-- What holds of a writer between two calls as long as no chunk was answered by `kAbort`:
the buffer has `chunk_size_` cells, which is not 0, it is not full, the stream received
chunks only, and each of them was full. -/
structure WriterOk (w : OutputStreamWriter) : Prop where
  size_pos : 0 < w.chunk_size_
  buffer : w.chunk_.length = w.chunk_size_
  pos : w.chunk_pos_ < w.chunk_size_
  not_aborted : w.aborted_ = false
  only_chunks : w.calls = (chunksOf w.calls).map StreamCall.WriteAsciiChunk
  chunks_full : ∀ c ∈ chunksOf w.calls, c.length = w.chunk_size_

/-- The writer `w1` is `w` after `text` was added: the same stream and chunk size, the
calls of `w` followed by others, and the text taken so far is that of `w` followed by
`text`. -/
structure Wrote (w w1 : OutputStreamWriter) (text : List Char) : Prop where
  stream : w1.stream_ = w.stream_
  size : w1.chunk_size_ = w.chunk_size_
  ok : WriterOk w1
  calls : ∃ more, w1.calls = w.calls ++ more
  written : w1.written = w.written ++ text

/-- The pair of a buffer and the position in it, after `text` was written from the start of
a buffer of `size` cells. -/
def BufIs (b : List Char × Nat) (text : List Char) (size : Nat) : Prop :=
  b.2 = text.length ∧ b.1.length = size ∧ b.1.take text.length = text

/-- The steps on a buffer of `size` cells so far have a result, and wrote `text` from the
start of the buffer. -/
def Step (x : Option (List Char × Nat)) (text : List Char) (size : Nat) : Prop :=
  ∃ b, x = some b ∧ BufIs b text size

/-- The distinct strings after one more use: `s` comes last when it was not used before. -/
def intern (order : List String) (s : String) : List String :=
  if s ∈ order then order else order ++ [s]

/-- The distinct strings of a list of uses, in the order of their first use. -/
def firstUses (uses : List String) : List String := uses.foldl intern []

/-- The string table of the serializer holds the strings `order`, the `k`-th of them (from 1)
with the id `k`, and the next id is their number plus one. -/
def StringsAre (z : HeapSnapshotJSONSerializer) (order : List String) : Prop :=
  order.Nodup ∧ z.strings_ = order.zip (List.range' 1 order.length) ∧
  z.next_string_id_ = order.length + 1

/-- A sequence of `GetStringId` calls: the ids returned, and the serializer after them. -/
def GetStringIds : HeapSnapshotJSONSerializer → List String →
    List Nat × HeapSnapshotJSONSerializer
  | z, [] => ([], z)
  | z, s :: rest =>
    ((z.GetStringId s).1 :: (GetStringIds (z.GetStringId s).2 rest).1,
      (GetStringIds (z.GetStringId s).2 rest).2)

/-- What holds of a serializer between two steps of `SerializeImpl` on a stream that never
aborts: the string table holds the strings `order`, the writer is good. -/
structure SerializerOk (z : HeapSnapshotJSONSerializer) (order : List String) : Prop where
  strings : StringsAre z order
  writer : WriterOk z.writer_
  never : z.writer_.stream_.NeverAborts

/-- The serializer `z1` is `z` after a step that added `text` to the writer and left the
strings `order1` in the string table; the snapshot and the profiler data are the same. -/
structure Emits (z z1 : HeapSnapshotJSONSerializer) (order1 : List String) (text : List Char) :
    Prop where
  snapshot : z1.snapshot_ = z.snapshot_
  profiler : z1.profiler = z.profiler
  strings : StringsAre z1 order1
  wrote : Wrote z.writer_ z1.writer_ text

/-- A tuple of numbers as text: their decimal numerals, separated by commas and ended by a
newline. -/
def tupleText (fields : List Nat) : List Char :=
  List.intercalate [','] (fields.map decimal) ++ ['\n']

/-- The six fields of the tuple of a node, as unsigned numbers of 32 bits, the size of 64
bits: type, id of the name in the string table, id, self size, child count, trace node id. -/
def nodeFields (e : HeapEntry) (name_id : Nat) : List Nat :=
  [e.type_.value, name_id % kUnsignedRange, e.id_ % kUnsignedRange,
    e.self_size_ % 18446744073709551616, e.children_count_ % kUnsignedRange,
    e.trace_node_id_ % kUnsignedRange]

/-- The text of the nodes `entries`, the first of which has the index `i`: for each node a
comma when `entry_index` of its index is not 0, and its tuple. `order` is the string table
after the nodes are written. -/
def nodesText (entry_index : Nat → Int) (i : Nat) (entries : List HeapEntry)
    (order : List String) : List Char :=
  ((entries.enumFrom i).map (fun ie =>
    (if entry_index ie.1 ≠ 0 then [','] else []) ++
      tupleText (nodeFields ie.2 (order.indexOf ie.2.name_ + 1)))).flatten

/-- The kind of an edge and its label agree, as the constructors of `HeapGraphEdge` assert:
an index for the kinds element and hidden, a name for the other kinds. -/
def EdgeLabelOk (e : HeapGraphEdge) : Prop :=
  (e.type = HeapGraphEdgeType.kElement ∨ e.type = HeapGraphEdgeType.kHidden) ↔
    ∃ index, e.label = EdgeLabel.index_ index

/-- The names that the edges of a list bring into the string table, in their order. -/
def edgeNames : List HeapGraphEdge → List String
  | [] => []
  | e :: es =>
    match e.label with
    | EdgeLabel.index_ _ => edgeNames es
    | EdgeLabel.name_ name => name :: edgeNames es

/-- The three fields of the tuple of an edge, as unsigned numbers of 32 bits: type, the index
or the id of the name in the string table, and `entry_index` of the target. -/
def edgeFields (entry_index : Nat → Int) (order : List String) (e : HeapGraphEdge) : List Nat :=
  [e.type.value,
    (match e.label with
      | EdgeLabel.index_ index => toUnsigned index
      | EdgeLabel.name_ name => (order.indexOf name + 1) % kUnsignedRange),
    (match e.to_ with
      | EdgeTarget.to_entry_ entry => toUnsigned (entry_index entry)
      | EdgeTarget.to_index_ index => toUnsigned (entry_index index))]

/-- The text of the edges `edges`, `i` edges being written before them: for each edge but
the very first a comma, and its tuple. `order` is the string table after the edges are
written. -/
def edgesText (entry_index : Nat → Int) (i : Nat) (edges : List HeapGraphEdge)
    (order : List String) : List Char :=
  ((edges.enumFrom i).map (fun ie =>
    (if ie.1 = 0 then [] else [',']) ++ tupleText (edgeFields entry_index order ie.2))).flatten

/-- The text holds no NUL character. -/
def NoNul (text : List Char) : Prop := ∀ c ∈ text, c ≠ Char.ofNat 0

/-- The hexadecimal digit, in upper case, of the value `n` modulo 16. -/
def hexDigit (n : Nat) : Char := HeapSnapshotJSONSerializer.hex_chars.getD (n % 16) '0'

/-- The escape of the lower 16 bits of `u`: backslash, `u` and four hexadecimal digits. -/
def uEscape (u : Nat) : List Char :=
  ['\\', 'u', hexDigit (u / 4096), hexDigit (u / 256), hexDigit (u / 16), hexDigit u]

/-- The text of one byte below 128 in a string literal: the two-character escapes of
backspace, form feed, newline, carriage return and tab, a backslash before the quote and the
backslash, the byte itself from 32 on, and the `u` escape for the other bytes below 32. -/
def escapeByte (c : Char) : List Char :=
  if c = Char.ofNat 8 then ['\\', 'b']
  else if c = Char.ofNat 12 then ['\\', 'f']
  else if c = '\n' then ['\\', 'n']
  else if c = '\r' then ['\\', 'r']
  else if c = '\t' then ['\\', 't']
  else if c = '\"' ∨ c = '\\' then ['\\', c]
  else if c.toNat > 31 then [c]
  else uEscape c.toNat

/-- What `SerializeString` relies on in `unibrow::Utf8::CalculateValue`: when the result is
not `kBadChar`, the cursor is at least 1 and at most the number of bytes given. -/
def Utf8.Ok (utf8 : Utf8) : Prop :=
  ∀ (bytes : List Char), (utf8.CalculateValue bytes).1 ≠ utf8.kBadChar →
    1 ≤ (utf8.CalculateValue bytes).2 ∧ (utf8.CalculateValue bytes).2 ≤ bytes.length

/-- The text of the byte `c`, which is followed by the bytes `s`, in a string literal, and
the bytes that remain: a byte below 128 by `escapeByte`, a sequence of bytes from 128 on by
the `u` escape of the character that `CalculateValue` gives, or `?` when it gives
`kBadChar`. -/
def escapeChar (utf8 : Utf8) (c : Char) (s : List Char) : List Char × List Char :=
  if c.toNat < 128 then (escapeByte c, s)
  else if (utf8.CalculateValue
      ((c :: s).take (HeapSnapshotJSONSerializer.SerializeString.length (c :: s) 5 1))).1 ≠
      utf8.kBadChar then
    (uEscape (utf8.CalculateValue
      ((c :: s).take (HeapSnapshotJSONSerializer.SerializeString.length (c :: s) 5 1))).1,
     s.drop ((utf8.CalculateValue
      ((c :: s).take (HeapSnapshotJSONSerializer.SerializeString.length (c :: s) 5 1))).2 - 1))
  else (['?'], s)

/-- The text of the bytes of a string between the quotes of its literal, up to the first
NUL. The first argument bounds the number of rounds. -/
def escapeText (utf8 : Utf8) : Nat → List Char → List Char
  | _, [] => []
  | 0, _ :: _ => []
  | fuel + 1, c :: s =>
    if c = Char.ofNat 0 then []
    else (escapeChar utf8 c s).1 ++ escapeText utf8 fuel (escapeChar utf8 c s).2

/-- The element of the `strings` array for a string: a newline and the string literal. -/
def stringText (utf8 : Utf8) (s : String) : List Char :=
  '\n' :: '\"' :: escapeText utf8 s.toList.length s.toList ++ ['\"']

/-- The text of the `strings` array for the strings `order`: the dummy element, and for each
string a comma and its element. -/
def stringsText (utf8 : Utf8) (order : List String) : List Char :=
  "\"<dummy>\"".toList ++ (order.map (fun s => ',' :: stringText utf8 s)).flatten

/-- The value of a hexadecimal digit. -/
def hexValue (c : Char) : Option Nat :=
  if '0'.toNat ≤ c.toNat ∧ c.toNat ≤ '9'.toNat then some (c.toNat - '0'.toNat)
  else if 'A'.toNat ≤ c.toNat ∧ c.toNat ≤ 'F'.toNat then some (c.toNat - 'A'.toNat + 10)
  else if 'a'.toNat ≤ c.toNat ∧ c.toNat ≤ 'f'.toNat then some (c.toNat - 'a'.toNat + 10)
  else none

/-- A decoder of the text between the quotes of a JSON string literal, by the grammar of
JSON: a backslash starts one of the escapes `\"`, `\\`, `\/`, `\b`, `\f`, `\n`, `\r`, `\t` or
`\u` with four hexadecimal digits, which stands for the character with that code; a quote and
a character below 32 cannot stand for themselves; every other character stands for
itself. -/
def jsonDecode : List Char → Option (List Char)
  | [] => some []
  | c :: rest =>
    if c = '\\' then
      match rest with
      | [] => none
      | e :: rest2 =>
        if e = 'u' then
          match rest2 with
          | a :: b :: c :: d :: rest3 =>
            match hexValue a, hexValue b, hexValue c, hexValue d, jsonDecode rest3 with
            | some va, some vb, some vc, some vd, some r =>
              some (Char.ofNat (((va * 16 + vb) * 16 + vc) * 16 + vd) :: r)
            | _, _, _, _, _ => none
          | _ => none
        else
          match jsonDecode rest2 with
          | none => none
          | some r =>
            if e = '\"' then some ('\"' :: r)
            else if e = '\\' then some ('\\' :: r)
            else if e = '/' then some ('/' :: r)
            else if e = 'b' then some (Char.ofNat 8 :: r)
            else if e = 'f' then some (Char.ofNat 12 :: r)
            else if e = 'n' then some ('\n' :: r)
            else if e = 'r' then some ('\r' :: r)
            else if e = 't' then some ('\t' :: r)
            else none
    else if c = '\"' ∨ c.toNat < 32 then none
    else (jsonDecode rest).map (fun r => c :: r)

/-- The text of the member `snapshot` of the document: the meta data and the three counts. -/
def snapshotText (snapshot : HeapSnapshot) (profiler : HeapProfilerData) : List Char :=
  "\"meta\":".toList ++ HeapSnapshotJSONSerializer.metaText.toList ++
    ",\"node_count\":".toList ++ decimal (snapshot.entries_.length % kUnsignedRange) ++
    ",\"edge_count\":".toList ++ decimal snapshot.edges_.length ++
    ",\"trace_function_count\":".toList ++
    decimal (match profiler.allocation_tracker with
      | some tracker => tracker.function_info_list.length % kUnsignedRange
      | none => 0)

/-- The document that `SerializeImpl` writes, from the texts of its sections. -/
def documentText (snapshot nodes edges infos tree samples strings : List Char) : List Char :=
  ['\x7b'] ++ "\"snapshot\":\x7b".toList ++ snapshot ++ "\x7d,\n".toList ++
  "\"nodes\":[".toList ++ nodes ++ "],\n".toList ++
  "\"edges\":[".toList ++ edges ++ "],\n".toList ++
  "\"trace_function_infos\":[".toList ++ infos ++ "],\n".toList ++
  "\"trace_tree\":[".toList ++ tree ++ "],\n".toList ++
  "\"samples\":[".toList ++ samples ++ "],\n".toList ++
  "\"strings\":[".toList ++ strings ++ [']'] ++ ['\x7d']

/-- The strings that a serialization brings into the string table, in the order of their
uses: the names of the nodes, the names of the edges of `children()`, and the names and script
names of the function infos of the allocation tracker. -/
def usedStrings (entries : List HeapEntry) (edges : List HeapGraphEdge)
    (profiler : HeapProfilerData) : List String :=
  entries.map HeapEntry.name_ ++ edgeNames edges ++
    (match profiler.allocation_tracker with
      | some tracker => tracker.function_info_list
      | none => []).flatMap (fun info => [info.name, info.script_name])

/-- The snapshot is ready for the serializer: every position of `children()` holds a pointer
to an edge of the snapshot, the edge at the same position of `edges`, whose label agrees with
its kind and whose target is resolved to an entry of the snapshot. -/
def ChildrenAre (s : HeapSnapshot) (edges : List HeapGraphEdge) : Prop :=
  List.Forall₂ (fun (p : Option Nat) (e : HeapGraphEdge) =>
    ∃ k j, p = some k ∧ s.edges_[k]? = some e ∧ EdgeLabelOk e ∧
      e.to_ = EdgeTarget.to_entry_ j) s.children_ edges

/-- The value of a sequence of decimal digits that follows digits of the value `acc`; there
is no value when a character is not a digit. -/
def parseDigits (acc : Nat) : List Char → Option Nat
  | [] => some acc
  | c :: rest =>
    if 48 ≤ c.toNat ∧ c.toNat ≤ 57 then parseDigits (acc * 10 + (c.toNat - 48)) rest else none

/-- A reader of the decimal numerals of JSON: one digit at least, and no zero before another
digit. -/
def parseDecimal (text : List Char) : Option Nat :=
  match text with
  | [] => none
  | c :: rest => if c = '0' ∧ rest ≠ [] then none else parseDigits 0 (c :: rest)

/-- A reader of the elements of a JSON array of numbers, the text between the brackets: the
newlines between the elements are dropped, the elements are separated by commas, and each is a
decimal numeral. -/
def parseNumbers (text : List Char) : Option (List Nat) :=
  if text.filter (fun c => c ≠ '\n') = [] then some []
  else ((text.filter (fun c => c ≠ '\n')).splitOn ',').mapM parseDecimal

/-- The store `linkedEntries` after `FillChildren`. -/
def linkedFilled : HeapSnapshot :=
  ⟨0, kNoEntry, [],
    [⟨HeapEntryType.kSynthetic, 2, 0, 0, "", kInternalRootObjectId, 0⟩,
      ⟨HeapEntryType.kObject, 1, 2, 16, "A", 5, 0⟩,
      ⟨HeapEntryType.kObject, 1, 3, 16, "B", 7, 0⟩],
    [⟨HeapGraphEdgeType.kProperty, 0, EdgeTarget.to_entry_ 1, EdgeLabel.name_ "x"⟩,
      ⟨HeapGraphEdgeType.kElement, 1, EdgeTarget.to_entry_ 2, EdgeLabel.index_ 0⟩,
      ⟨HeapGraphEdgeType.kElement, 0, EdgeTarget.to_entry_ 2, EdgeLabel.index_ 2⟩,
      ⟨HeapGraphEdgeType.kInternal, 2, EdgeTarget.to_entry_ 1, EdgeLabel.name_ "back"⟩],
    [some 0, some 2, some 1, some 3], []⟩

/-- A decoder that reports every sequence as bad, for the examples with names of bytes below
128 only. -/
def noUtf8 : Utf8 := ⟨65533, fun _ => (65533, 1)⟩

/-- A decoder that knows one sequence of bytes, F0 9F 98 80, the UTF-8 form of the character
U+1F600, and reports every other sequence as bad. -/
def oneUtf8 : Utf8 :=
  ⟨65533, fun bytes =>
    if bytes = [Char.ofNat 240, Char.ofNat 159, Char.ofNat 152, Char.ofNat 128] then (128512, 4)
    else (65533, 1)⟩

/-- The elements of the `strings` array for the strings `order`: the literal of the dummy, and
for each string a newline and its literal. -/
def stringsElements (utf8 : Utf8) (order : List String) : List (List Char) :=
  "\"<dummy>\"".toList :: order.map (stringText utf8)

/-- The tuples of the nodes `entries`, the first of which has the index `i`, each with the
comma before it when `entry_index` of its index is not 0. -/
def nodeTuples (entry_index : Nat → Int) (i : Nat) (entries : List HeapEntry)
    (order : List String) : List (List Char) :=
  (entries.enumFrom i).map (fun ie =>
    (if entry_index ie.1 ≠ 0 then [','] else []) ++
      tupleText (nodeFields ie.2 (order.indexOf ie.2.name_ + 1)))

/-- The tuples of the edges `edges`, `i` edges being written before them, each but the very
first with the comma before it. -/
def edgeTuples (entry_index : Nat → Int) (i : Nat) (edges : List HeapGraphEdge)
    (order : List String) : List (List Char) :=
  (edges.enumFrom i).map (fun ie =>
    (if ie.1 = 0 then [] else [',']) ++ tupleText (edgeFields entry_index order ie.2))

/-- The index of an entry in the `nodes` array, as `entry_index` of V8 computes it: the
index of the entry times the number of fields of a node. -/
def nodeArrayIndex (i : Nat) : Int := (i : Int) * HeapSnapshotJSONSerializer.kNodeFieldsCount

/-- A heap of three objects for the examples: the object 2 is a fixed array, the object 3 a
context, the object 1 neither; the roots that `IsEssentialObject` compares with are not among
them. -/
def smallHeap : Heap :=
  { kPointerSize := 8,
    IsHeapObject := fun o => decide (o ≠ 0),
    IsOddball := fun o => decide (o = 9),
    IsFixedArray := fun o => decide (o = 2 ∨ o = 3),
    IsContext := fun o => decide (o = 3),
    IsHashTable := fun _ => false,
    IsJSGlobalProxy := fun _ => false,
    IsJSArrayBuffer := fun _ => false,
    IsJSObject := fun o => decide (o = 1),
    IsJSWeakSet := fun _ => false,
    IsJSWeakMap := fun _ => false,
    IsJSSet := fun _ => false,
    IsJSMap := fun _ => false,
    IsJSPromise := fun _ => false,
    IsString := fun _ => false,
    IsSymbol := fun _ => false,
    IsMap := fun _ => false,
    IsSharedFunctionInfo := fun _ => false,
    IsScript := fun _ => false,
    IsAccessorInfo := fun _ => false,
    IsAccessorPair := fun _ => false,
    IsCode := fun _ => false,
    IsCell := fun _ => false,
    IsWeakCell := fun _ => false,
    IsPropertyCell := fun _ => false,
    IsAllocationSite := fun _ => false,
    empty_byte_array := 100,
    empty_fixed_array := 101,
    empty_descriptor_array := 102,
    fixed_array_map := 103,
    cell_map := 104,
    global_property_cell_map := 105,
    shared_function_info_map := 106,
    free_space_map := 107,
    one_pointer_filler_map := 108,
    two_pointer_filler_map := 109,
    length := fun _ => 2,
    get := fun _ i => if i = 0 then 1 else 9,
    OffsetOfElementAt := fun i => 16 + 8 * (i : Int),
    table := fun _ => 2,
    kTableOffset := 24,
    Capacity := fun _ => 1,
    EntryToIndex := fun i => 2 * i,
    kEntryKeyIndex := 0,
    EntryToValueIndex := fun i => 2 * i + 1 }

/-- What `IsEssentialHiddenReference` reads of the classes declared outside the sources: the
test `IsCodeDataContainer` and the offsets `AllocationSite::kWeakNextOffset`,
`CodeDataContainer::kNextCodeLinkOffset` and
`Context::OffsetOfElementAt(Context::NEXT_CONTEXT_LINK)`. -/
structure WeakLinks where
  IsCodeDataContainer : Nat → Bool
  kWeakNextOffset : Int
  kNextCodeLinkOffset : Int
  kNextContextLinkOffset : Int

namespace V8HeapExplorer

/-- `V8HeapExplorer::IsEssentialHiddenReference`. -/
def IsEssentialHiddenReference (heap : Heap) (links : WeakLinks) (parent : Nat)
    (field_offset : Int) : Bool :=
  if heap.IsAllocationSite parent && decide (field_offset = links.kWeakNextOffset) then false
  else if links.IsCodeDataContainer parent &&
      decide (field_offset = links.kNextCodeLinkOffset) then false
  else if heap.IsContext parent && decide (field_offset = links.kNextContextLinkOffset) then
    false
  else true

/-- `V8HeapExplorer::SetHiddenReference`. -/
def SetHiddenReference (heap : Heap) (links : WeakLinks) (allocator : HeapEntriesAllocator)
    (x : V8HeapExplorer) (parent_obj parent_entry : Nat) (index : Int) (child_obj : Nat)
    (field_offset : Int) : Option V8HeapExplorer :=
  match (x.GetEntry heap allocator child_obj).1 with
  | none => some (x.GetEntry heap allocator child_obj).2
  | some child_entry =>
    if IsEssentialObject heap child_obj &&
        IsEssentialHiddenReference heap links parent_obj field_offset then
      ((x.GetEntry heap allocator child_obj).2.filler_.SetIndexedReference
        HeapGraphEdgeType.kHidden parent_entry index child_entry).map
        (fun f => { (x.GetEntry heap allocator child_obj).2 with filler_ := f })
    else some (x.GetEntry heap allocator child_obj).2

end V8HeapExplorer

/-- The class `IndexedReferencesExtractor`. A slot `p` is given by the difference
`p - HeapObject::RawField(parent_obj_, 0)`, its index, and by its value `*p`; `parent_start_`
is the slot of the index 0, and `parent_end_` is kept as the size of the parent in bytes: a
slot is below `parent_end_` when its offset, the index times `kPointerSize`, is below the
size. -/
structure IndexedReferencesExtractor where
  generator_ : V8HeapExplorer
  parent_obj_ : Nat
  parent_end_ : Int
  parent_ : Nat
  next_index_ : Int

namespace IndexedReferencesExtractor

/-- The constructor of `IndexedReferencesExtractor`; `Size` is `parent_obj->Size()`. -/
def ctor (generator : V8HeapExplorer) (parent_obj : Nat) (Size : Nat) (parent : Nat) :
    IndexedReferencesExtractor :=
  { generator_ := generator, parent_obj_ := parent_obj, parent_end_ := (Size : Int),
    parent_ := parent, next_index_ := 0 }

/-- One round of the loop of `IndexedReferencesExtractor::VisitPointers`, for the slot with the
index `index` and the value `value`. There is no result when the mark read is outside
`marks_`. -/
def VisitPointer (heap : Heap) (links : WeakLinks) (allocator : HeapEntriesAllocator)
    (v : IndexedReferencesExtractor) (index : Int) (value : Nat) :
    Option IndexedReferencesExtractor :=
  let hidden : Option IndexedReferencesExtractor :=
    (v.generator_.SetHiddenReference heap links allocator v.parent_obj_ v.parent_
      (v.next_index_ + 1) value (index * (heap.kPointerSize : Int))).map
      (fun x => { v with generator_ := x, next_index_ := v.next_index_ + 1 })
  if 0 ≤ index ∧ index * (heap.kPointerSize : Int) < v.parent_end_ then
    match v.generator_.marks_[index.toNat]? with
    | none => none
    | some true =>
      some { v with
        generator_ := { v.generator_ with marks_ := v.generator_.marks_.set index.toNat false },
        next_index_ := v.next_index_ + 1 }
    | some false => hidden
  else hidden

/-- `IndexedReferencesExtractor::VisitPointers(host, start, end)` for the slots from `start`
to `end`, in their order. -/
def VisitPointers (heap : Heap) (links : WeakLinks) (allocator : HeapEntriesAllocator) :
    IndexedReferencesExtractor → List (Int × Nat) → Option IndexedReferencesExtractor
  | v, [] => some v
  | v, (index, value) :: slots =>
    (v.VisitPointer heap links allocator index value).bind
      (fun v1 => VisitPointers heap links allocator v1 slots)

end IndexedReferencesExtractor

/-- The struct `IndexTag` of `RootsReferencesExtractor`. -/
structure IndexTag where
  index : Nat
  tag : Nat
  deriving DecidableEq, Repr

/-- A call that `RootsReferencesExtractor::FillReferences` makes on the explorer. -/
inductive ExplorerCall where
  | SetGcSubrootReference (tag : Nat) (is_weak : Bool) (child_obj : Nat)
  | TagBuiltinCodeObject (code : Nat) (builtin_index : Nat)
  deriving DecidableEq, Repr

/-- The class `RootsReferencesExtractor`. -/
structure RootsReferencesExtractor where
  collecting_all_references_ : Bool
  strong_references_ : List Nat
  all_references_ : List Nat
  previous_reference_count_ : Nat
  reference_tags_ : List IndexTag

namespace RootsReferencesExtractor

/-- The constructor of `RootsReferencesExtractor`. -/
def ctor : RootsReferencesExtractor :=
  { collecting_all_references_ := false, strong_references_ := [], all_references_ := [],
    previous_reference_count_ := 0, reference_tags_ := [] }

/-- `RootsReferencesExtractor::VisitRootPointers(root, start, end)` for the values of the
slots from `start` to `end`. -/
def VisitRootPointers (r : RootsReferencesExtractor) (values : List Nat) :
    RootsReferencesExtractor :=
  if r.collecting_all_references_ then
    { r with all_references_ := r.all_references_ ++ values }
  else { r with strong_references_ := r.strong_references_ ++ values }

/-- `RootsReferencesExtractor::SetCollectingAllReferences`. -/
def SetCollectingAllReferences (r : RootsReferencesExtractor) : RootsReferencesExtractor :=
  { r with collecting_all_references_ := true }

/-- `RootsReferencesExtractor::Synchronize(tag)`. -/
def Synchronize (r : RootsReferencesExtractor) (tag : Nat) : RootsReferencesExtractor :=
  if r.collecting_all_references_ ∧ r.previous_reference_count_ ≠ r.all_references_.length then
    { r with
      previous_reference_count_ := r.all_references_.length,
      reference_tags_ := r.reference_tags_ ++ [⟨r.all_references_.length, tag⟩] }
  else r

/-- The loop of `FillReferences`, with the values of `strong_index`, `all_index`,
`tags_index` and `builtin_index` and the calls made so far: the calls, and the last value of
`strong_index`. There is no result when `reference_tags_[tags_index]` is outside the vector.
The first argument bounds the number of rounds. -/
def FillReferencesLoop (r : RootsReferencesExtractor) (kBuiltins : Nat) :
    Nat → Nat → Nat → Nat → Nat → List ExplorerCall → Option (List ExplorerCall × Nat)
  | 0, strong_index, _, _, _, calls => some (calls, strong_index)
  | fuel + 1, strong_index, all_index, tags_index, builtin_index, calls =>
    match r.all_references_[all_index]? with
    | none => some (calls, strong_index)
    | some reference =>
      let is_strong : Bool :=
        decide (strong_index < r.strong_references_.length) &&
          decide (r.strong_references_[strong_index]? = some reference)
      match r.reference_tags_[tags_index]? with
      | none => none
      | some t =>
        FillReferencesLoop r kBuiltins fuel
          (if is_strong then strong_index + 1 else strong_index)
          (all_index + 1)
          (if t.index = all_index + 1 then tags_index + 1 else tags_index)
          (if t.tag = kBuiltins then builtin_index + 1 else builtin_index)
          (calls ++ [ExplorerCall.SetGcSubrootReference t.tag (!is_strong) reference] ++
            (if t.tag = kBuiltins then
              [ExplorerCall.TagBuiltinCodeObject reference builtin_index]
             else []))

/-- `RootsReferencesExtractor::FillReferences(explorer)`: the calls made on the explorer, and
the value of `strong_index` that the final `CHECK_EQ` compares with
`strong_references_.size()`. `kBuiltins` is `VisitorSynchronization::kBuiltins`. -/
def FillReferences (r : RootsReferencesExtractor) (kBuiltins : Nat) :
    Option (List ExplorerCall × Nat) :=
  FillReferencesLoop r kBuiltins r.all_references_.length 0 0 0 0 []

end RootsReferencesExtractor

/-- The strength that the comparison of the two lists gives to each element of `all`: strong
(true) exactly when the element equals the next element of `strong` that is not yet
matched. -/
def classify : List Nat → List Nat → List Bool
  | _, [] => []
  | [], _ :: all => false :: classify [] all
  | s :: strong, a :: all =>
    if s = a then true :: classify strong all else false :: classify (s :: strong) all

/-- The references of the `SetGcSubrootReference` calls among the calls, each with its
strength (true for strong), in their order. -/
def subrootReferences : List ExplorerCall → List (Nat × Bool)
  | [] => []
  | ExplorerCall.SetGcSubrootReference _ is_weak child_obj :: calls =>
    (child_obj, !is_weak) :: subrootReferences calls
  | ExplorerCall.TagBuiltinCodeObject _ _ :: calls => subrootReferences calls

/-- The tags cover the references: for every number of references below `n` there is a tag
with a greater index, and the tag at `tags_index` has an index above the references done
when the tags before it have an index at most that number. The tags that `Synchronize` records
during the second iteration of the roots have increasing indexes, the last of which is the
number of all references. -/
def TagsCover (tags : List IndexTag) (n : Nat) : Prop :=
  tags.Pairwise (fun a b => a.index < b.index) ∧ (∀ t ∈ tags, 0 < t.index) ∧
    (0 < n → ∃ t, tags.getLast? = some t ∧ t.index = n)

/-- The explorer `x1` is `x` after calls that added the edges `new` to the snapshot: the
things that had an entry keep it, the entries that were there have counted their new edges,
and the tags of the arrays are the same. -/
structure Stepped (x x1 : V8HeapExplorer) (new : List HeapGraphEdge) : Prop where
  map : MapInRange x1.filler_
  edges : x1.filler_.snapshot_.edges_ = x.filler_.snapshot_.edges_ ++ new
  lookups : ∀ (q t : Nat), HashMap.Lookup x.filler_.entries_ q = some t →
    HashMap.Lookup x1.filler_.entries_ q = some t
  array_types : x1.array_types_ = x.array_types_
  entries_len : x.filler_.snapshot_.entries_.length ≤ x1.filler_.snapshot_.entries_.length
  entries : ∀ (i : Nat) (e : HeapEntry), x.filler_.snapshot_.entries_[i]? = some e →
    x1.filler_.snapshot_.entries_[i]? = some { e with
      children_count_ :=
        e.children_count_ + (new.filter (fun g => decide (g.from_index = i))).length }

/-- The edge that a reference with a name adds for the field of `parent` that holds
`child_obj`, by the Filler after the call: one edge of the kind `type` to the entry of the
child when the child is essential, and none otherwise. -/
def fieldEdges (heap : Heap) (type : HeapGraphEdgeType) (parent : Nat) (name : String)
    (child_obj : Nat) (f : SnapshotFiller) : List HeapGraphEdge :=
  if V8HeapExplorer.IsEssentialObject heap child_obj then
    match HashMap.Lookup f.entries_ child_obj with
    | some t => [⟨type, parent, EdgeTarget.to_index_ t, EdgeLabel.name_ name⟩]
    | none => []
  else []

/-- The edge that `SetHiddenReference` adds, by the Filler after the call: one hidden edge
with the index `index` to the entry of the child when the child is essential and the
reference is an essential hidden reference, and none otherwise. -/
def hiddenEdges (heap : Heap) (links : WeakLinks) (parent_obj parent : Nat) (index : Int)
    (child_obj : Nat) (field_offset : Int) (f : SnapshotFiller) : List HeapGraphEdge :=
  if V8HeapExplorer.IsEssentialObject heap child_obj ∧
      V8HeapExplorer.IsEssentialHiddenReference heap links parent_obj field_offset then
    match HashMap.Lookup f.entries_ child_obj with
    | some t => [⟨HeapGraphEdgeType.kHidden, parent, EdgeTarget.to_index_ t,
        EdgeLabel.index_ index⟩]
    | none => []
  else []

/-- The marks after `MarkVisitedField` for a field of a child that is a heap object. -/
def markedAt (heap : Heap) (marks : List Bool) (child_obj : Nat) (field_offset : Int) :
    List Bool :=
  if heap.IsHeapObject child_obj ∧ 0 ≤ field_offset then
    marks.set (field_offset / (heap.kPointerSize : Int)).toNat true
  else marks

/-- An allocator for the examples: every object gets an entry of the type object. -/
def smallAllocator : HeapEntriesAllocator :=
  fun ptr => ⟨HeapEntryType.kObject, "Object", 2 * ptr + 1, 16, 0⟩

/-- An explorer for the examples: the snapshot `twoEntries`, an empty map of the entries, no
tag, and eight marks that are not set. -/
def smallExplorer : V8HeapExplorer :=
  ⟨⟨twoEntries, []⟩, [], List.replicate 8 false⟩

/-- The weak links for the examples: no object is a code data container, and the offsets of
the links are 8. -/
def smallLinks : WeakLinks := ⟨fun _ => false, 8, 8, 8⟩

/-- An extractor for the examples: the parent is the object 2 of `smallHeap`, of 32 bytes,
with the entry 1 of `twoEntries`; the mark of its slot 2 is set. -/
def smallExtractor : IndexedReferencesExtractor :=
  ⟨⟨⟨twoEntries, []⟩, [], [false, false, true, false]⟩, 2, 32, 1, 0⟩

/-- The inner loop of `HeapObjectsMap::PushHeapObjectsStats`: `while (entry_info <
end_entry_info && entry_info->id < time_interval_id) { entries_size += entry_info->size;
++entry_info; }`. The entries from `entry_info` on are the list; the result is the entries
from the new `entry_info` on, `entries_size` (an `uint32_t`) and the number of entries
passed. -/
def scanInterval (time_interval_id : Nat) :
    List EntryInfo → Nat → Nat → List EntryInfo × Nat × Nat
  | [], entries_size, entries_count => ([], entries_size, entries_count)
  | e :: rest, entries_size, entries_count =>
    if e.id < time_interval_id then
      scanInterval time_interval_id rest ((entries_size + e.size) % 4294967296)
        (entries_count + 1)
    else (e :: rest, entries_size, entries_count)

/-- The outer loop of `HeapObjectsMap::PushHeapObjectsStats` over the ids of the time
intervals: the entries from the last `entry_info` on, which the closing `DCHECK` compares
with `end_entry_info`, and for each interval its `entries_count` and `entries_size`. -/
def scanIntervals : List Nat → List EntryInfo → List EntryInfo × List (Nat × Nat)
  | [], entries => (entries, [])
  | id :: ids, entries =>
    ((scanIntervals ids (scanInterval id entries 0 0).1).1,
      ((scanInterval id entries 0 0).2.2, (scanInterval id entries 0 0).2.1) ::
        (scanIntervals ids (scanInterval id entries 0 0).1).2)

/-- The states a registry goes through in the hands of its callers; the flag says whether a
scan of the heap is under way. A scan visits the objects with `FindOrAddEntry` and ends with
`RemoveDeadEntries`: `UpdateHeapObjectsMap` does the two back to back, and so does the
generation of a snapshot, whose `V8HeapExplorer::AddEntry` calls `FindOrAddEntry` and which
the sweep follows. No object moves during a scan. Between two scans the objects move
(`MoveObject`) and change their size (`UpdateObjectSize`, which calls `FindOrAddEntry` with
`accessed = false`). Addresses passed in are addresses of heap objects and so are not null. -/
inductive CallerReachable (kNumberOfSyncTags : Nat) : Bool → HeapObjectsMap → Prop
  | ctor : CallerReachable kNumberOfSyncTags false (HeapObjectsMap.ctor kNumberOfSyncTags)
  | updateSize {s s1 : HeapObjectsMap} {addr : Nat} {size : Int} :
      CallerReachable kNumberOfSyncTags false s → addr ≠ 0 →
      UpdateObjectSize s addr size = some s1 → CallerReachable kNumberOfSyncTags false s1
  | move {s s1 : HeapObjectsMap} {from_ to_ : Nat} {object_size : Int} {moved : Bool} :
      CallerReachable kNumberOfSyncTags false s → from_ ≠ 0 → to_ ≠ 0 →
      MoveObject s from_ to_ object_size = some (moved, s1) →
      CallerReachable kNumberOfSyncTags false s1
  | start {s : HeapObjectsMap} :
      CallerReachable kNumberOfSyncTags false s → CallerReachable kNumberOfSyncTags true s
  | visit {s s1 : HeapObjectsMap} {addr size id : Nat} {accessed : Bool} :
      CallerReachable kNumberOfSyncTags true s → addr ≠ 0 →
      FindOrAddEntry s addr size accessed = some (id, s1) →
      CallerReachable kNumberOfSyncTags true s1
  | sweep {s s1 : HeapObjectsMap} :
      CallerReachable kNumberOfSyncTags true s → RemoveDeadEntries s = some s1 →
      CallerReachable kNumberOfSyncTags false s1

namespace HeapObjectsMap

/-- The loop of `HeapObjectsMap::UpdateHeapObjectsMap` over the objects that the iterator
still yields, each given by `obj->address()` and `obj->Size()`. `accessed` is the default
argument of `FindOrAddEntry`, which the header declares. -/
def UpdateHeapObjectsMapLoop (accessed : Bool) :
    HeapObjectsMap → List (Nat × Int) → Option HeapObjectsMap
  | s, [] => some s
  | s, (address, size) :: objects =>
    match FindOrAddEntry s address (toUnsigned size) accessed with
    | none => none
    | some (_, s1) => UpdateHeapObjectsMapLoop accessed s1 objects

/-- `HeapObjectsMap::UpdateHeapObjectsMap()`, after the garbage collection it starts with:
the loop over the objects of the heap, and `RemoveDeadEntries`. -/
def UpdateHeapObjectsMap (accessed : Bool) (s : HeapObjectsMap) (objects : List (Nat × Int)) :
    Option HeapObjectsMap :=
  match UpdateHeapObjectsMapLoop accessed s objects with
  | none => none
  | some s1 => RemoveDeadEntries s1

/-- `HeapObjectsMap::PushHeapObjectsStats` up to its closing `DCHECK(entry_info ==
end_entry_info)`, for a stream that does not abort: `UpdateHeapObjectsMap`, the new time
interval with the id `next_id_`, and the scan of the entries. `time_interval_ids` are the ids
of the time intervals recorded before the call. The result is the registry after the update,
the entries from the last `entry_info` on, and the count and the size of every interval. -/
def PushHeapObjectsStatsScan (accessed : Bool) (s : HeapObjectsMap) (objects : List (Nat × Int))
    (time_interval_ids : List Nat) :
    Option (HeapObjectsMap × List EntryInfo × List (Nat × Nat)) :=
  (UpdateHeapObjectsMap accessed s objects).map
    (fun s1 => (s1, scanIntervals (time_interval_ids ++ [s1.next_id_]) s1.entries_))

end HeapObjectsMap

/-- A call that the body of the loop of `IterateAndExtractSinglePass` makes for the object
`obj`: `GetEntry(obj)`; a routine that the extractor of the pass calls for the object;
`SetInternalReference(obj, entry, "map", obj->map(), HeapObject::kMapOffset)`; and
`obj->Iterate(&refs_extractor)`, the sweep of the slots of the object by an
`IndexedReferencesExtractor`. -/
inductive PassCall where
  | GetEntry (obj : Nat)
  | Extract (routine : ExtractRoutine) (obj : Nat)
  | SetInternalReferenceMap (obj : Nat)
  | Iterate (obj : Nat)
  deriving DecidableEq, Repr

/-- The object of a call `obj->Iterate(&refs_extractor)`. -/
def PassCall.iterated : PassCall → Option Nat
  | PassCall.Iterate obj => some obj
  | _ => none

namespace V8HeapExplorer

/-- The body of the loop of `IterateAndExtractSinglePass<extractor>` for the object `obj`,
up to the progress report, by the calls it makes: `GetEntry`, the extractor of the pass with
the routines it calls, and, only when the extractor returned true, the reference to the map
and the sweep of the slots. The resizing of `marks_` is not followed. -/
def IterateAndExtractSinglePassBody (heap : Heap) (pass obj : Nat) : List PassCall :=
  PassCall.GetEntry obj ::
    ((extractor pass heap obj).2.map (fun routine => PassCall.Extract routine obj) ++
      (if (extractor pass heap obj).1 then
        [PassCall.SetInternalReferenceMap obj, PassCall.Iterate obj]
      else []))

/-- The loop of `IterateAndExtractSinglePass` over the objects the iterator still yields,
with the calls of its bodies: the generator goes through the loop as in
`IterateAndExtractSinglePassLoop`, and every turn that is not skipped appends the calls of
its body. -/
def IterateAndExtractSinglePassCallsLoop (heap : Heap) (pass : Nat) :
    List Nat → Bool → HeapSnapshotGenerator → List PassCall →
      Bool × HeapSnapshotGenerator × List PassCall
  | [], interrupted, g, calls => (interrupted, g, calls)
  | obj :: objects, interrupted, g, calls =>
    if interrupted then
      IterateAndExtractSinglePassCallsLoop heap pass objects interrupted g.ProgressStep calls
    else
      let r := (g.record (Event.ExtractReferences pass obj)).ProgressReport false
      IterateAndExtractSinglePassCallsLoop heap pass objects (if r.1 then interrupted else true)
        r.2.ProgressStep (calls ++ IterateAndExtractSinglePassBody heap pass obj)

/-- `V8HeapExplorer::IterateAndExtractSinglePass<extractor>()` with the calls of its
bodies, after the calls `calls`. -/
def IterateAndExtractSinglePassCalls (heap : Heap) (pass : Nat) (objects : List Nat)
    (g : HeapSnapshotGenerator) (calls : List PassCall) :
    Bool × HeapSnapshotGenerator × List PassCall :=
  IterateAndExtractSinglePassCallsLoop heap pass objects false g calls

/-- `V8HeapExplorer::IterateAndExtractReferences(filler)` with the calls of the bodies of
the two passes; `objects1` and `objects2` are what the iterators of the passes yield. -/
def IterateAndExtractReferencesCalls (heap : Heap) (objects1 objects2 : List Nat)
    (g : HeapSnapshotGenerator) : Bool × HeapSnapshotGenerator × List PassCall :=
  let g0 := g.record Event.RootReferences
  let p1 := IterateAndExtractSinglePassCalls heap 1 objects1 g0 []
  let p := if p1.1 then p1 else IterateAndExtractSinglePassCalls heap 2 objects2 p1.2.1 p1.2.2
  if p.1 then (false, p.2.1, p.2.2)
  else ((p.2.1.ProgressReport true).1, (p.2.1.ProgressReport true).2, p.2.2)

end V8HeapExplorer

/-! ## The address map -/

namespace HashMap

theorem Lookup_SetValue (m : HashMap) (k v k2 : Nat) :
    Lookup (SetValue m k v) k2 =
      if k2 = k then (Lookup m k).map (fun _ => v) else Lookup m k2 := by
  induction m with
  | nil => simp [SetValue, Lookup]
  | cons kv rest ih =>
    obtain ⟨a, b⟩ := kv
    by_cases hak : a = k
    · subst hak
      by_cases h2 : k2 = a
      · subst h2; simp [SetValue, Lookup]
      · have h3 : ¬ a = k2 := fun h => h2 h.symm
        simp [SetValue, Lookup, h2, h3]
    · by_cases h2 : k2 = k
      · subst h2; simp [SetValue, Lookup, hak, ih]
      · by_cases h3 : a = k2
        · simp [SetValue, Lookup, hak, h2, h3]
        · simp [SetValue, Lookup, hak, h2, h3, ih]

theorem Lookup_filter (m : HashMap) (k k2 : Nat) :
    Lookup (m.filter (fun kv => decide (kv.1 ≠ k))) k2 =
      if k2 = k then none else Lookup m k2 := by
  induction m with
  | nil => simp [Lookup]
  | cons kv rest ih =>
    obtain ⟨a, b⟩ := kv
    simp only [ne_eq, decide_not] at ih ⊢
    by_cases hak : a = k
    · subst hak
      by_cases h2 : k2 = a
      · subst h2
        simpa [List.filter_cons] using ih
      · have h3 : ¬ a = k2 := fun h => h2 h.symm
        simp [List.filter_cons, ih, h2, Lookup, h3]
    · by_cases h2 : k2 = k
      · subst h2
        simpa [List.filter_cons, hak, Lookup] using ih
      · by_cases h3 : a = k2
        · subst h3
          simp [List.filter_cons, hak, Lookup, h2]
        · simp [List.filter_cons, hak, Lookup, h3, ih, h2]

theorem Lookup_append (m : HashMap) (k v k2 : Nat) :
    Lookup (m ++ [(k, v)]) k2 =
      match Lookup m k2 with
      | some x => some x
      | none => if k = k2 then some v else none := by
  induction m with
  | nil => simp [Lookup]
  | cons kv rest ih =>
    obtain ⟨a, b⟩ := kv
    by_cases h3 : a = k2
    · simp [Lookup, h3]
    · simp [Lookup, h3, ih]

theorem Lookup_none_iff (m : HashMap) (k : Nat) :
    Lookup m k = none ↔ k ∉ m.map Prod.fst := by
  induction m with
  | nil => simp [Lookup]
  | cons kv rest ih =>
    obtain ⟨a, b⟩ := kv
    by_cases h3 : a = k
    · simp [Lookup, h3]
    · have h4 : ¬ k = a := fun h => h3 h.symm
      simp [Lookup, h3, h4, ih]

theorem keys_SetValue (m : HashMap) (k v : Nat) :
    (SetValue m k v).map Prod.fst = m.map Prod.fst := by
  induction m with
  | nil => simp [SetValue]
  | cons kv rest ih =>
    obtain ⟨a, b⟩ := kv
    by_cases hak : a = k
    · simp [SetValue, hak]
    · simp [SetValue, hak, ih]

theorem SetValue_append_new (m : HashMap) (k v w : Nat) (h : Lookup m k = none) :
    SetValue (m ++ [(k, v)]) k w = m ++ [(k, w)] := by
  induction m with
  | nil => simp [SetValue]
  | cons kv rest ih =>
    obtain ⟨a, b⟩ := kv
    by_cases hak : a = k
    · simp [Lookup, hak] at h
    · simp only [Lookup, hak, if_false] at h
      simp [SetValue, hak, ih h]

theorem SetValue_same (m : HashMap) (k v : Nat) (h : Lookup m k = some v) :
    SetValue m k v = m := by
  induction m with
  | nil => simp [SetValue]
  | cons kv rest ih =>
    obtain ⟨a, b⟩ := kv
    by_cases hak : a = k
    · simp [Lookup, hak] at h
      simp [SetValue, hak, h]
    · simp only [Lookup, hak, if_false] at h
      simp [SetValue, hak, ih h]

theorem keys_filter_nodup (m : HashMap) (k : Nat) (h : (m.map Prod.fst).Nodup) :
    ((m.filter (fun kv => decide (kv.1 ≠ k))).map Prod.fst).Nodup :=
  List.Nodup.sublist (List.Sublist.map _ (List.filter_sublist m)) h

theorem keys_append_nodup (m : HashMap) (k v : Nat) (h : (m.map Prod.fst).Nodup)
    (hk : Lookup m k = none) : ((m ++ [(k, v)]).map Prod.fst).Nodup := by
  rw [Lookup_none_iff] at hk
  rw [List.map_append, List.nodup_append]
  refine ⟨h, by simp, ?_⟩
  intro a ha hb
  simp only [List.map_cons, List.map_nil, List.mem_singleton] at hb
  subst hb
  exact hk ha

theorem Remove_snd (m : HashMap) (k : Nat) : (Remove m k).2 = (Lookup m k).getD 0 := by
  unfold Remove
  cases h : Lookup m k <;> simp

theorem Lookup_Remove (m : HashMap) (k k2 : Nat) :
    Lookup (Remove m k).1 k2 = if k2 = k then none else Lookup m k2 := by
  unfold Remove
  cases h : Lookup m k with
  | none =>
    by_cases h2 : k2 = k
    · subst h2; simp [h]
    · simp [h2]
  | some v => simpa using Lookup_filter m k k2

theorem keys_Remove_nodup (m : HashMap) (k : Nat) (h : (m.map Prod.fst).Nodup) :
    ((Remove m k).1.map Prod.fst).Nodup := by
  unfold Remove
  cases h2 : Lookup m k with
  | none => simpa using h
  | some v => simpa using keys_filter_nodup m k h

theorem LookupOrInsert_snd (m : HashMap) (k : Nat) :
    (LookupOrInsert m k).2 = (Lookup m k).getD 0 := by
  unfold LookupOrInsert
  cases h : Lookup m k <;> simp

theorem Lookup_LookupOrInsert (m : HashMap) (k k2 : Nat) :
    Lookup (LookupOrInsert m k).1 k2 =
      if k2 = k then some ((Lookup m k).getD 0) else Lookup m k2 := by
  unfold LookupOrInsert
  cases h : Lookup m k with
  | none =>
    by_cases h2 : k2 = k
    · subst h2; simp [Lookup_append, h]
    · have h3 : ¬ k = k2 := fun h => h2 h.symm
      simp only [Lookup_append, h2, h3, if_false]
      cases Lookup m k2 <;> rfl
  | some v =>
    by_cases h2 : k2 = k
    · subst h2; simp [h]
    · simp [h2]

theorem keys_LookupOrInsert_nodup (m : HashMap) (k : Nat) (h : (m.map Prod.fst).Nodup) :
    ((LookupOrInsert m k).1.map Prod.fst).Nodup := by
  unfold LookupOrInsert
  cases h2 : Lookup m k with
  | none => simpa using keys_append_nodup m k 0 h h2
  | some v => simpa using h

end HashMap

/-! ## The entry list -/

theorem set_getElem?_self {α : Type} (l : List α) (i : Nat) (a : α) (h : l[i]? = some a) :
    l.set i a = l := by
  apply List.ext_getElem?
  intro j
  rw [List.getElem?_set]
  by_cases hij : i = j
  · subst hij
    have hlt : i < l.length := by
      rcases List.getElem?_eq_some.mp h with ⟨hl, _⟩
      exact hl
    simp [hlt, h]
  · simp [hij]

theorem lt_length_of_getElem? {α : Type} {l : List α} {i : Nat} {a : α} (h : l[i]? = some a) :
    i < l.length := by
  rcases List.getElem?_eq_some.mp h with ⟨hl, _⟩
  exact hl

/-! ## FindOrAddEntry -/

namespace HeapObjectsMap

theorem FindOrAddEntry_tracked (s : HeapObjectsMap) (addr size v : Nat) (accessed : Bool)
    (e : EntryInfo) (hl : HashMap.Lookup s.entries_map_ addr = some v) (hv : v ≠ 0)
    (he : s.entries_[v]? = some e) :
    FindOrAddEntry s addr size accessed =
      some (e.id, ⟨s.next_id_, s.entries_map_,
        s.entries_.set v { e with accessed := accessed, size := size }⟩) := by
  simp [FindOrAddEntry, HashMap.LookupOrInsert, hl, hv, he]

theorem FindOrAddEntry_untracked (s : HeapObjectsMap) (addr size : Nat) (accessed : Bool)
    (hl : HashMap.Lookup s.entries_map_ addr = none) :
    FindOrAddEntry s addr size accessed =
      some (s.next_id_, ⟨(s.next_id_ + kObjectIdStep) % kSnapshotObjectIdRange,
        s.entries_map_ ++ [(addr, s.entries_.length)],
        s.entries_ ++ [⟨s.next_id_, addr, size, accessed⟩]⟩) := by
  simp [FindOrAddEntry, HashMap.LookupOrInsert, hl, HashMap.SetValue_append_new]

theorem Inv_ctor (n : Nat) : Inv (ctor n) := by
  refine ⟨rfl, by simp [ctor], ?_, ?_, ?_, ?_⟩
  · intro k v h
    simp [ctor, HashMap.Lookup] at h
  · intro j e hj h
    cases j with
    | zero => exact absurd rfl hj
    | succ j => simp [ctor] at h
  · simp only [ctor, kFirstAvailableObjectId, kGcRootsFirstSubrootId, kGcRootsObjectId,
      kInternalRootObjectId, kObjectIdStep, kSnapshotObjectIdRange]
    omega
  · intro j e hj h
    cases j with
    | zero => exact absurd rfl hj
    | succ j => simp [ctor] at h

/-- Rewriting the size and the accessed flag of one entry keeps the invariant. -/
theorem Inv_set_same (s : HeapObjectsMap) (h : Inv s) (v : Nat) (e e2 : EntryInfo)
    (hv : v ≠ 0) (he : s.entries_[v]? = some e) (haddr : e2.addr = e.addr)
    (hid : e2.id = e.id) :
    Inv ⟨s.next_id_, s.entries_map_, s.entries_.set v e2⟩ := by
  have hlt : v < s.entries_.length := lt_length_of_getElem? he
  refine ⟨?_, h.keys_nodup, ?_, ?_, h.next_odd, ?_⟩
  · show (s.entries_.set v e2)[0]? = some dummyEntry
    rw [List.getElem?_set_ne hv]
    exact h.head_dummy
  · intro k w hk
    obtain ⟨hk0, hw0, e3, he3, ha3⟩ := h.map_entry k w hk
    refine ⟨hk0, hw0, ?_⟩
    show ∃ e, (s.entries_.set v e2)[w]? = some e ∧ e.addr = k
    by_cases hvw : v = w
    · subst hvw
      refine ⟨e2, List.getElem?_set_self hlt, ?_⟩
      rw [he] at he3
      cases he3
      rw [haddr, ha3]
    · exact ⟨e3, by rw [List.getElem?_set_ne hvw]; exact he3, ha3⟩
  · intro j e3 hj hj3 ha3
    show HashMap.Lookup s.entries_map_ e3.addr = some j
    change (s.entries_.set v e2)[j]? = some e3 at hj3
    by_cases hvj : v = j
    · subst hvj
      rw [List.getElem?_set_self hlt] at hj3
      cases hj3
      rw [haddr] at ha3 ⊢
      exact h.entry_map v e hv he ha3
    · rw [List.getElem?_set_ne hvj] at hj3
      exact h.entry_map j e3 hj hj3 ha3
  · intro j e3 hj hj3
    change (s.entries_.set v e2)[j]? = some e3 at hj3
    by_cases hvj : v = j
    · subst hvj
      rw [List.getElem?_set_self hlt] at hj3
      cases hj3
      rw [hid]
      exact h.ids_odd v e hv he
    · rw [List.getElem?_set_ne hvj] at hj3
      exact h.ids_odd j e3 hj hj3

theorem next_id_step_odd (x : Nat) (h : x % 2 = 1) :
    (x + kObjectIdStep) % kSnapshotObjectIdRange % 2 = 1 := by
  simp only [kObjectIdStep, kSnapshotObjectIdRange]
  omega

/-- Appending an entry for an address without binding keeps the invariant. -/
theorem Inv_append (s : HeapObjectsMap) (h : Inv s) (addr size : Nat) (accessed : Bool)
    (ha : addr ≠ 0) (hl : HashMap.Lookup s.entries_map_ addr = none) :
    Inv ⟨(s.next_id_ + kObjectIdStep) % kSnapshotObjectIdRange,
      s.entries_map_ ++ [(addr, s.entries_.length)],
      s.entries_ ++ [⟨s.next_id_, addr, size, accessed⟩]⟩ := by
  have hlen : 0 < s.entries_.length := lt_length_of_getElem? h.head_dummy
  refine ⟨?_, HashMap.keys_append_nodup _ _ _ h.keys_nodup hl, ?_, ?_,
    next_id_step_odd _ h.next_odd, ?_⟩
  · show (s.entries_ ++ [_])[0]? = some dummyEntry
    rw [List.getElem?_append_left hlen]
    exact h.head_dummy
  · intro k w hk
    change HashMap.Lookup (s.entries_map_ ++ [(addr, s.entries_.length)]) k = some w at hk
    show k ≠ 0 ∧ w ≠ 0 ∧ ∃ e, (s.entries_ ++ [_])[w]? = some e ∧ e.addr = k
    rw [HashMap.Lookup_append] at hk
    cases hm : HashMap.Lookup s.entries_map_ k with
    | some x =>
      rw [hm] at hk
      have hxw : x = w := Option.some.inj hk
      subst hxw
      obtain ⟨hk0, hw0, e3, he3, ha3⟩ := h.map_entry k x hm
      refine ⟨hk0, hw0, e3, ?_, ha3⟩
      rw [List.getElem?_append_left (lt_length_of_getElem? he3)]
      exact he3
    | none =>
      rw [hm] at hk
      by_cases hak : addr = k
      · subst hak
        simp only [if_true] at hk
        cases hk
        refine ⟨ha, Nat.pos_iff_ne_zero.mp hlen, ⟨s.next_id_, addr, size, accessed⟩, ?_, rfl⟩
        rw [List.getElem?_append_right (Nat.le_refl _)]
        simp
      · simp [hak] at hk
  · intro j e3 hj hj3 ha3
    change (s.entries_ ++ [_])[j]? = some e3 at hj3
    show HashMap.Lookup (s.entries_map_ ++ [(addr, s.entries_.length)]) e3.addr = some j
    rw [HashMap.Lookup_append]
    by_cases hjl : j < s.entries_.length
    · rw [List.getElem?_append_left hjl] at hj3
      rw [h.entry_map j e3 hj hj3 ha3]
    · rw [List.getElem?_append_right (Nat.le_of_not_lt hjl)] at hj3
      have hj0 : j - s.entries_.length = 0 := by
        by_contra hne
        have : 1 ≤ j - s.entries_.length := Nat.one_le_iff_ne_zero.mpr hne
        rw [List.getElem?_eq_none (by simpa using this)] at hj3
        cases hj3
      rw [hj0] at hj3
      simp only [List.getElem?_cons_zero, Option.some.injEq] at hj3
      subst hj3
      have hjeq : j = s.entries_.length := by omega
      simp [hl, hjeq]
  · intro j e3 hj hj3
    change (s.entries_ ++ [_])[j]? = some e3 at hj3
    by_cases hjl : j < s.entries_.length
    · rw [List.getElem?_append_left hjl] at hj3
      exact h.ids_odd j e3 hj hj3
    · rw [List.getElem?_append_right (Nat.le_of_not_lt hjl)] at hj3
      have hj0 : j - s.entries_.length = 0 := by
        by_contra hne
        have : 1 ≤ j - s.entries_.length := Nat.one_le_iff_ne_zero.mpr hne
        rw [List.getElem?_eq_none (by simpa using this)] at hj3
        cases hj3
      rw [hj0] at hj3
      simp only [List.getElem?_cons_zero, Option.some.injEq] at hj3
      subst hj3
      exact h.next_odd

/-- On a consistent state `FindOrAddEntry` returns, and it is one of the two
explicit updates. -/
theorem FindOrAddEntry_cases (s : HeapObjectsMap) (h : Inv s) (addr size : Nat)
    (accessed : Bool) :
    (∃ v e, HashMap.Lookup s.entries_map_ addr = some v ∧ v ≠ 0 ∧
        s.entries_[v]? = some e ∧ e.addr = addr ∧
        FindOrAddEntry s addr size accessed =
          some (e.id, ⟨s.next_id_, s.entries_map_,
            s.entries_.set v { e with accessed := accessed, size := size }⟩)) ∨
    (HashMap.Lookup s.entries_map_ addr = none ∧
        FindOrAddEntry s addr size accessed =
          some (s.next_id_, ⟨(s.next_id_ + kObjectIdStep) % kSnapshotObjectIdRange,
            s.entries_map_ ++ [(addr, s.entries_.length)],
            s.entries_ ++ [⟨s.next_id_, addr, size, accessed⟩]⟩)) := by
  cases hl : HashMap.Lookup s.entries_map_ addr with
  | none => exact Or.inr ⟨rfl, FindOrAddEntry_untracked s addr size accessed hl⟩
  | some v =>
    obtain ⟨_, hv0, e, he, ha⟩ := h.map_entry addr v hl
    exact Or.inl ⟨v, e, rfl, hv0, he, ha, FindOrAddEntry_tracked s addr size v accessed e hl hv0 he⟩

theorem Inv_FindOrAddEntry (s s1 : HeapObjectsMap) (h : Inv s) (addr size id : Nat)
    (accessed : Bool) (ha : addr ≠ 0)
    (hf : FindOrAddEntry s addr size accessed = some (id, s1)) : Inv s1 := by
  rcases FindOrAddEntry_cases s h addr size accessed with
    ⟨v, e, _, hv0, he, _, heq⟩ | ⟨hl, heq⟩
  · rw [heq] at hf
    cases hf
    exact Inv_set_same s h v e _ hv0 he rfl rfl
  · rw [heq] at hf
    cases hf
    exact Inv_append s h addr size accessed ha hl

/-! ## MoveObject -/

theorem MoveObject_untracked_untracked (s : HeapObjectsMap) (from_ to_ : Nat) (size : Int)
    (hne : from_ ≠ to_) (hf : HashMap.Lookup s.entries_map_ from_ = none)
    (ht : HashMap.Lookup s.entries_map_ to_ = none) :
    MoveObject s from_ to_ size = some (false, s) := by
  simp [MoveObject, hne, HashMap.Remove, hf, ht]

theorem MoveObject_untracked_tracked (s : HeapObjectsMap) (from_ to_ tv : Nat) (size : Int)
    (et : EntryInfo) (hne : from_ ≠ to_) (hf : HashMap.Lookup s.entries_map_ from_ = none)
    (ht : HashMap.Lookup s.entries_map_ to_ = some tv) (htv : tv ≠ 0)
    (het : s.entries_[tv]? = some et) :
    MoveObject s from_ to_ size =
      some (false, ⟨s.next_id_, s.entries_map_.filter (fun kv => decide (kv.1 ≠ to_)),
        s.entries_.set tv { et with addr := 0 }⟩) := by
  simp [MoveObject, hne, HashMap.Remove, hf, ht, htv, het]

theorem MoveObject_tracked_untracked (s : HeapObjectsMap) (from_ to_ fv : Nat) (size : Int)
    (ef : EntryInfo) (hne : from_ ≠ to_) (hf : HashMap.Lookup s.entries_map_ from_ = some fv)
    (hfv : fv ≠ 0) (ht : HashMap.Lookup s.entries_map_ to_ = none)
    (hef : s.entries_[fv]? = some ef) :
    MoveObject s from_ to_ size =
      some (true, ⟨s.next_id_,
        s.entries_map_.filter (fun kv => decide (kv.1 ≠ from_)) ++ [(to_, fv)],
        s.entries_.set fv { ef with addr := to_, size := toUnsigned size }⟩) := by
  have hne2 : ¬ to_ = from_ := fun h => hne h.symm
  have h1 : HashMap.Lookup (s.entries_map_.filter (fun kv => decide (kv.1 ≠ from_))) to_ = none := by
    rw [HashMap.Lookup_filter]; simp [hne2, ht]
  have h2 := HashMap.SetValue_append_new _ to_ 0 fv h1
  simp only [ne_eq, decide_not] at h1 h2
  simp [MoveObject, hne, HashMap.Remove, hf, hfv, HashMap.LookupOrInsert, h1, hef, h2]

theorem MoveObject_tracked_tracked (s : HeapObjectsMap) (from_ to_ fv tv : Nat) (size : Int)
    (ef et : EntryInfo) (hne : from_ ≠ to_)
    (hf : HashMap.Lookup s.entries_map_ from_ = some fv) (hfv : fv ≠ 0)
    (ht : HashMap.Lookup s.entries_map_ to_ = some tv) (htv : tv ≠ 0) (hft : fv ≠ tv)
    (hef : s.entries_[fv]? = some ef) (het : s.entries_[tv]? = some et) :
    MoveObject s from_ to_ size =
      some (true, ⟨s.next_id_,
        HashMap.SetValue (s.entries_map_.filter (fun kv => decide (kv.1 ≠ from_))) to_ fv,
        (s.entries_.set tv { et with addr := 0 }).set fv
          { ef with addr := to_, size := toUnsigned size }⟩) := by
  have hne2 : ¬ to_ = from_ := fun h => hne h.symm
  have h1 : HashMap.Lookup (s.entries_map_.filter (fun kv => decide (kv.1 ≠ from_))) to_
      = some tv := by
    rw [HashMap.Lookup_filter]; simp [hne2, ht]
  have h3 : (s.entries_.set tv { et with addr := 0 })[fv]? = some ef := by
    rw [List.getElem?_set_ne (fun h => hft h.symm)]; exact hef
  simp only [ne_eq, decide_not] at h1
  simp [MoveObject, hne, HashMap.Remove, hf, hfv, HashMap.LookupOrInsert, h1, htv, het, h3]

/-- Two bound addresses with the same index are the same address. -/
theorem Inv_addr_unique {s : HeapObjectsMap} (h : Inv s) {k1 k2 v : Nat}
    (h1 : HashMap.Lookup s.entries_map_ k1 = some v)
    (h2 : HashMap.Lookup s.entries_map_ k2 = some v) : k1 = k2 := by
  obtain ⟨_, _, e1, he1, ha1⟩ := h.map_entry k1 v h1
  obtain ⟨_, _, e2, he2, ha2⟩ := h.map_entry k2 v h2
  rw [he1] at he2
  cases he2
  rw [← ha1, ← ha2]

theorem Inv_move_untracked_tracked (s : HeapObjectsMap) (h : Inv s) (to_ tv : Nat)
    (et : EntryInfo) (ht : HashMap.Lookup s.entries_map_ to_ = some tv)
    (het : s.entries_[tv]? = some et) :
    Inv ⟨s.next_id_, s.entries_map_.filter (fun kv => decide (kv.1 ≠ to_)),
      s.entries_.set tv { et with addr := 0 }⟩ := by
  obtain ⟨_, htv, _, _, _⟩ := h.map_entry to_ tv ht
  have hlt : tv < s.entries_.length := lt_length_of_getElem? het
  refine ⟨?_, HashMap.keys_filter_nodup _ _ h.keys_nodup, ?_, ?_, h.next_odd, ?_⟩
  · show (s.entries_.set tv _)[0]? = some dummyEntry
    rw [List.getElem?_set_ne htv]
    exact h.head_dummy
  · intro k w hk
    change HashMap.Lookup (s.entries_map_.filter (fun kv => decide (kv.1 ≠ to_))) k = some w at hk
    show k ≠ 0 ∧ w ≠ 0 ∧ ∃ e, (s.entries_.set tv _)[w]? = some e ∧ e.addr = k
    rw [HashMap.Lookup_filter] at hk
    by_cases hkt : k = to_
    · simp [hkt] at hk
    · simp only [hkt, if_false] at hk
      obtain ⟨hk0, hw0, e3, he3, ha3⟩ := h.map_entry k w hk
      have hwt : tv ≠ w := by
        intro hEq
        subst hEq
        exact hkt (Inv_addr_unique h hk ht)
      exact ⟨hk0, hw0, e3, by rw [List.getElem?_set_ne hwt]; exact he3, ha3⟩
  · intro j e3 hj hj3 ha3
    change (s.entries_.set tv _)[j]? = some e3 at hj3
    show HashMap.Lookup (s.entries_map_.filter (fun kv => decide (kv.1 ≠ to_))) e3.addr = some j
    by_cases htj : tv = j
    · subst htj
      rw [List.getElem?_set_self hlt] at hj3
      cases hj3
      exact absurd rfl ha3
    · rw [List.getElem?_set_ne htj] at hj3
      have hb := h.entry_map j e3 hj hj3 ha3
      rw [HashMap.Lookup_filter]
      have hne : ¬ e3.addr = to_ := by
        intro hEq
        rw [hEq, ht] at hb
        exact htj (Option.some.inj hb)
      simp only [hne, if_false]
      exact hb
  · intro j e3 hj hj3
    change (s.entries_.set tv _)[j]? = some e3 at hj3
    by_cases htj : tv = j
    · subst htj
      rw [List.getElem?_set_self hlt] at hj3
      cases hj3
      exact h.ids_odd tv et hj het
    · rw [List.getElem?_set_ne htj] at hj3
      exact h.ids_odd j e3 hj hj3

theorem Inv_move_tracked_untracked (s : HeapObjectsMap) (h : Inv s) (from_ to_ fv size : Nat)
    (ef : EntryInfo) (hne : from_ ≠ to_) (ht0 : to_ ≠ 0)
    (hf : HashMap.Lookup s.entries_map_ from_ = some fv)
    (ht : HashMap.Lookup s.entries_map_ to_ = none)
    (hef : s.entries_[fv]? = some ef) :
    Inv ⟨s.next_id_, s.entries_map_.filter (fun kv => decide (kv.1 ≠ from_)) ++ [(to_, fv)],
      s.entries_.set fv { ef with addr := to_, size := size }⟩ := by
  obtain ⟨_, hfv, _, _, _⟩ := h.map_entry from_ fv hf
  have hlt : fv < s.entries_.length := lt_length_of_getElem? hef
  have hne2 : ¬ to_ = from_ := fun h => hne h.symm
  have h1 : HashMap.Lookup (s.entries_map_.filter (fun kv => decide (kv.1 ≠ from_))) to_ = none := by
    rw [HashMap.Lookup_filter]; simp [hne2, ht]
  refine ⟨?_, HashMap.keys_append_nodup _ _ _ (HashMap.keys_filter_nodup _ _ h.keys_nodup) h1,
    ?_, ?_, h.next_odd, ?_⟩
  · show (s.entries_.set fv _)[0]? = some dummyEntry
    rw [List.getElem?_set_ne hfv]
    exact h.head_dummy
  · intro k w hk
    change HashMap.Lookup (s.entries_map_.filter (fun kv => decide (kv.1 ≠ from_)) ++ [(to_, fv)]) k
      = some w at hk
    show k ≠ 0 ∧ w ≠ 0 ∧ ∃ e, (s.entries_.set fv _)[w]? = some e ∧ e.addr = k
    rw [HashMap.Lookup_append, HashMap.Lookup_filter] at hk
    by_cases hkf : k = from_
    · subst hkf
      simp [hne2] at hk
    · simp only [hkf, if_false] at hk
      cases hm : HashMap.Lookup s.entries_map_ k with
      | some x =>
        rw [hm] at hk
        have hxw : x = w := Option.some.inj hk
        subst hxw
        obtain ⟨hk0, hw0, e3, he3, ha3⟩ := h.map_entry k x hm
        have hwt : fv ≠ x := by
          intro hEq
          subst hEq
          exact hkf (Inv_addr_unique h hm hf)
        exact ⟨hk0, hw0, e3, by rw [List.getElem?_set_ne hwt]; exact he3, ha3⟩
      | none =>
        rw [hm] at hk
        by_cases hkt : to_ = k
        · subst hkt
          simp only [if_true] at hk
          have hxw : fv = w := Option.some.inj hk
          subst hxw
          exact ⟨ht0, hfv, _, List.getElem?_set_self hlt, rfl⟩
        · simp [hkt] at hk
  · intro j e3 hj hj3 ha3
    change (s.entries_.set fv _)[j]? = some e3 at hj3
    show HashMap.Lookup (s.entries_map_.filter (fun kv => decide (kv.1 ≠ from_)) ++ [(to_, fv)])
      e3.addr = some j
    rw [HashMap.Lookup_append, HashMap.Lookup_filter]
    by_cases hfj : fv = j
    · subst hfj
      rw [List.getElem?_set_self hlt] at hj3
      cases hj3
      simp [hne2, ht]
    · rw [List.getElem?_set_ne hfj] at hj3
      have hb := h.entry_map j e3 hj hj3 ha3
      have hne3 : ¬ e3.addr = from_ := by
        intro hEq
        rw [hEq, hf] at hb
        exact hfj (Option.some.inj hb)
      simp only [hne3, if_false, hb]
  · intro j e3 hj hj3
    change (s.entries_.set fv _)[j]? = some e3 at hj3
    by_cases hfj : fv = j
    · subst hfj
      rw [List.getElem?_set_self hlt] at hj3
      cases hj3
      exact h.ids_odd fv ef hj hef
    · rw [List.getElem?_set_ne hfj] at hj3
      exact h.ids_odd j e3 hj hj3

theorem Inv_move_tracked_tracked (s : HeapObjectsMap) (h : Inv s) (from_ to_ fv tv size : Nat)
    (ef et : EntryInfo) (hne : from_ ≠ to_) (ht0 : to_ ≠ 0)
    (hf : HashMap.Lookup s.entries_map_ from_ = some fv)
    (ht : HashMap.Lookup s.entries_map_ to_ = some tv)
    (hef : s.entries_[fv]? = some ef) (het : s.entries_[tv]? = some et) :
    Inv ⟨s.next_id_,
      HashMap.SetValue (s.entries_map_.filter (fun kv => decide (kv.1 ≠ from_))) to_ fv,
      (s.entries_.set tv { et with addr := 0 }).set fv { ef with addr := to_, size := size }⟩ := by
  obtain ⟨_, hfv, _, _, _⟩ := h.map_entry from_ fv hf
  obtain ⟨_, htv, _, _, _⟩ := h.map_entry to_ tv ht
  have hft : fv ≠ tv := by
    intro hEq
    subst hEq
    exact hne (Inv_addr_unique h hf ht)
  have hltf : fv < s.entries_.length := lt_length_of_getElem? hef
  have hltt : tv < s.entries_.length := lt_length_of_getElem? het
  have hltf2 : fv < (s.entries_.set tv { et with addr := 0 }).length := by
    rw [List.length_set]; exact hltf
  have hne2 : ¬ to_ = from_ := fun h => hne h.symm
  have h1 : HashMap.Lookup (s.entries_map_.filter (fun kv => decide (kv.1 ≠ from_))) to_
      = some tv := by
    rw [HashMap.Lookup_filter]; simp [hne2, ht]
  refine ⟨?_, ?_, ?_, ?_, h.next_odd, ?_⟩
  · show ((s.entries_.set tv _).set fv _)[0]? = some dummyEntry
    rw [List.getElem?_set_ne hfv, List.getElem?_set_ne htv]
    exact h.head_dummy
  · show ((HashMap.SetValue _ to_ fv).map Prod.fst).Nodup
    rw [HashMap.keys_SetValue]
    exact HashMap.keys_filter_nodup _ _ h.keys_nodup
  · intro k w hk
    change HashMap.Lookup (HashMap.SetValue
      (s.entries_map_.filter (fun kv => decide (kv.1 ≠ from_))) to_ fv) k = some w at hk
    show k ≠ 0 ∧ w ≠ 0 ∧ ∃ e, ((s.entries_.set tv _).set fv _)[w]? = some e ∧ e.addr = k
    rw [HashMap.Lookup_SetValue] at hk
    by_cases hkt : k = to_
    · subst hkt
      rw [h1] at hk
      simp only [if_true, Option.map_some'] at hk
      have hxw : fv = w := Option.some.inj hk
      subst hxw
      exact ⟨ht0, hfv, _, List.getElem?_set_self hltf2, rfl⟩
    · simp only [hkt, if_false] at hk
      rw [HashMap.Lookup_filter] at hk
      by_cases hkf : k = from_
      · simp [hkf] at hk
      · simp only [hkf, if_false] at hk
        obtain ⟨hk0, hw0, e3, he3, ha3⟩ := h.map_entry k w hk
        have hwf : fv ≠ w := by
          intro hEq
          subst hEq
          exact hkf (Inv_addr_unique h hk hf)
        have hwt : tv ≠ w := by
          intro hEq
          subst hEq
          exact hkt (Inv_addr_unique h hk ht)
        refine ⟨hk0, hw0, e3, ?_, ha3⟩
        rw [List.getElem?_set_ne hwf, List.getElem?_set_ne hwt]
        exact he3
  · intro j e3 hj hj3 ha3
    change ((s.entries_.set tv _).set fv _)[j]? = some e3 at hj3
    show HashMap.Lookup (HashMap.SetValue
      (s.entries_map_.filter (fun kv => decide (kv.1 ≠ from_))) to_ fv) e3.addr = some j
    rw [HashMap.Lookup_SetValue]
    by_cases hfj : fv = j
    · subst hfj
      rw [List.getElem?_set_self hltf2] at hj3
      cases hj3
      show (if to_ = to_ then _ else _) = some fv
      rw [if_pos rfl, h1]
      rfl
    · rw [List.getElem?_set_ne hfj] at hj3
      by_cases htj : tv = j
      · subst htj
        rw [List.getElem?_set_self hltt] at hj3
        cases hj3
        exact absurd rfl ha3
      · rw [List.getElem?_set_ne htj] at hj3
        have hb := h.entry_map j e3 hj hj3 ha3
        have hne3 : ¬ e3.addr = from_ := by
          intro hEq
          rw [hEq, hf] at hb
          exact hfj (Option.some.inj hb)
        have hne4 : ¬ e3.addr = to_ := by
          intro hEq
          rw [hEq, ht] at hb
          exact htj (Option.some.inj hb)
        rw [if_neg hne4, HashMap.Lookup_filter, if_neg hne3]
        exact hb
  · intro j e3 hj hj3
    change ((s.entries_.set tv _).set fv _)[j]? = some e3 at hj3
    by_cases hfj : fv = j
    · subst hfj
      rw [List.getElem?_set_self hltf2] at hj3
      cases hj3
      exact h.ids_odd fv ef hj hef
    · rw [List.getElem?_set_ne hfj] at hj3
      by_cases htj : tv = j
      · subst htj
        rw [List.getElem?_set_self hltt] at hj3
        cases hj3
        exact h.ids_odd tv et hj het
      · rw [List.getElem?_set_ne htj] at hj3
        exact h.ids_odd j e3 hj hj3

/-- The four ways `MoveObject` goes on a consistent state when `from` and `to`
differ; in each of them it returns. -/
theorem MoveObject_cases (s : HeapObjectsMap) (h : Inv s) (from_ to_ : Nat) (size : Int)
    (hne : from_ ≠ to_) :
    (HashMap.Lookup s.entries_map_ from_ = none ∧ HashMap.Lookup s.entries_map_ to_ = none ∧
      MoveObject s from_ to_ size = some (false, s)) ∨
    (∃ tv et, HashMap.Lookup s.entries_map_ from_ = none ∧
      HashMap.Lookup s.entries_map_ to_ = some tv ∧ tv ≠ 0 ∧ s.entries_[tv]? = some et ∧
      et.addr = to_ ∧
      MoveObject s from_ to_ size =
        some (false, ⟨s.next_id_, s.entries_map_.filter (fun kv => decide (kv.1 ≠ to_)),
          s.entries_.set tv { et with addr := 0 }⟩)) ∨
    (∃ fv ef, HashMap.Lookup s.entries_map_ from_ = some fv ∧ fv ≠ 0 ∧
      HashMap.Lookup s.entries_map_ to_ = none ∧ s.entries_[fv]? = some ef ∧
      ef.addr = from_ ∧
      MoveObject s from_ to_ size =
        some (true, ⟨s.next_id_,
          s.entries_map_.filter (fun kv => decide (kv.1 ≠ from_)) ++ [(to_, fv)],
          s.entries_.set fv { ef with addr := to_, size := toUnsigned size }⟩)) ∨
    (∃ fv tv ef et, HashMap.Lookup s.entries_map_ from_ = some fv ∧ fv ≠ 0 ∧
      HashMap.Lookup s.entries_map_ to_ = some tv ∧ tv ≠ 0 ∧ fv ≠ tv ∧
      s.entries_[fv]? = some ef ∧ s.entries_[tv]? = some et ∧
      ef.addr = from_ ∧ et.addr = to_ ∧
      MoveObject s from_ to_ size =
        some (true, ⟨s.next_id_,
          HashMap.SetValue (s.entries_map_.filter (fun kv => decide (kv.1 ≠ from_))) to_ fv,
          (s.entries_.set tv { et with addr := 0 }).set fv
            { ef with addr := to_, size := toUnsigned size }⟩)) := by
  cases hf : HashMap.Lookup s.entries_map_ from_ with
  | none =>
    cases ht : HashMap.Lookup s.entries_map_ to_ with
    | none => exact Or.inl ⟨rfl, rfl, MoveObject_untracked_untracked s from_ to_ size hne hf ht⟩
    | some tv =>
      obtain ⟨_, htv, et, het, hat⟩ := h.map_entry to_ tv ht
      exact Or.inr (Or.inl ⟨tv, et, rfl, rfl, htv, het, hat,
        MoveObject_untracked_tracked s from_ to_ tv size et hne hf ht htv het⟩)
  | some fv =>
    obtain ⟨_, hfv, ef, hef, haf⟩ := h.map_entry from_ fv hf
    cases ht : HashMap.Lookup s.entries_map_ to_ with
    | none =>
      exact Or.inr (Or.inr (Or.inl ⟨fv, ef, rfl, hfv, rfl, hef, haf,
        MoveObject_tracked_untracked s from_ to_ fv size ef hne hf hfv ht hef⟩))
    | some tv =>
      obtain ⟨_, htv, et, het, hat⟩ := h.map_entry to_ tv ht
      have hft : fv ≠ tv := by
        intro hEq
        subst hEq
        exact hne (Inv_addr_unique h hf ht)
      exact Or.inr (Or.inr (Or.inr ⟨fv, tv, ef, et, rfl, hfv, rfl, htv, hft, hef, het, haf, hat,
        MoveObject_tracked_tracked s from_ to_ fv tv size ef et hne hf hfv ht htv hft hef het⟩))

theorem Inv_MoveObject (s s1 : HeapObjectsMap) (h : Inv s) (from_ to_ : Nat) (size : Int)
    (moved : Bool) (ht0 : to_ ≠ 0)
    (hm : MoveObject s from_ to_ size = some (moved, s1)) : Inv s1 := by
  by_cases hne : from_ = to_
  · simp [MoveObject, hne] at hm
    rw [← hm.2]
    exact h
  · rcases MoveObject_cases s h from_ to_ size hne with
      ⟨_, _, heq⟩ | ⟨tv, et, _, ht, _, het, _, heq⟩ | ⟨fv, ef, hf, _, ht, hef, _, heq⟩ |
      ⟨fv, tv, ef, et, hf, _, ht, _, _, hef, het, _, _, heq⟩
    · rw [heq] at hm
      cases hm
      exact h
    · rw [heq] at hm
      cases hm
      exact Inv_move_untracked_tracked s h to_ tv et ht het
    · rw [heq] at hm
      cases hm
      exact Inv_move_tracked_untracked s h from_ to_ fv _ ef hne ht0 hf ht hef
    · rw [heq] at hm
      cases hm
      exact Inv_move_tracked_tracked s h from_ to_ fv tv _ ef et hne ht0 hf ht hef het

/-! ## RemoveDeadEntries -/

theorem survivors_append (a b : List EntryInfo) :
    survivors (a ++ b) = survivors a ++ survivors b := by
  simp [survivors]

theorem take_set_le {α : Type} (l : List α) (n m : Nat) (a : α) (h : m ≤ n) :
    (l.set n a).take m = l.take m := by
  apply List.ext_getElem?
  intro j
  rw [List.getElem?_take, List.getElem?_take]
  by_cases hj : j < m
  · have hne : n ≠ j := by omega
    simp [hj, List.getElem?_set_ne hne]
  · simp [hj]

theorem take_succ_tail (es0 : List EntryInfo) (i : Nat) (e : EntryInfo) (hi : 1 ≤ i)
    (he : es0[i]? = some e) : (es0.take (i + 1)).tail = (es0.take i).tail ++ [e] := by
  have hlt : i < es0.length := lt_length_of_getElem? he
  rw [List.take_succ, he]
  have hne : es0.take i ≠ [] := by
    intro hnil
    have hlen : (es0.take i).length = i := by
      rw [List.length_take]; omega
    rw [hnil] at hlen
    simp at hlen
    omega
  simpa using List.tail_append_of_ne_nil hne

theorem take_succ_set (es : List EntryInfo) (ff : Nat) (x : EntryInfo) (h : ff < es.length) :
    (es.set ff x).take (ff + 1) = es.take ff ++ [x] := by
  rw [List.take_succ, take_set_le es ff ff x (Nat.le_refl _), List.getElem?_set_self h]
  rfl

theorem SweepInv_step_accessed (es0 es : List EntryInfo) (m : HashMap) (i ff : Nat)
    (e : EntryInfo) (h : SweepInv es0 i ff es m) (he : es0[i]? = some e)
    (hacc : e.accessed = true) (ha : e.addr ≠ 0) :
    RemoveDeadEntriesStep i ff es m =
        some (ff + 1, es.set ff (clearAccessed e), HashMap.SetValue m e.addr ff) ∧
      SweepInv es0 (i + 1) (ff + 1) (es.set ff (clearAccessed e))
        (HashMap.SetValue m e.addr ff) := by
  have hiL : i < es0.length := lt_length_of_getElem? he
  have hes : es[i]? = some e := by rw [h.suffix i (Nat.le_refl _)]; exact he
  have hffL : ff < es.length := by
    have := h.ff_le
    have := h.len
    omega
  have hlook : HashMap.Lookup m e.addr = some i := h.rest i e (Nat.le_refl _) he ha
  have hi0 : i ≠ 0 := by
    have := h.one_le
    have := h.ff_le
    omega
  have hff0 : ff ≠ 0 := by
    have := h.one_le
    omega
  constructor
  · by_cases hfi : ff = i
    · subst hfi
      simp [RemoveDeadEntriesStep, hes, hacc, hlook, clearAccessed]
    · have h1 : (es.set ff e)[ff]? = some e := List.getElem?_set_self hffL
      simp [RemoveDeadEntriesStep, hes, hacc, hlook, clearAccessed, hfi, h1, List.set_set]
  · refine ⟨?_, ?_, ?_, ?_, ?_, ?_, ?_, ?_, ?_, ?_, ?_⟩
    · rw [List.length_set]; exact h.len
    · have := h.one_le
      omega
    · have := h.ff_le
      omega
    · omega
    · intro j hj
      have hne : ff ≠ j := by
        have := h.ff_le
        omega
      rw [List.getElem?_set_ne hne]
      exact h.suffix j (by omega)
    · rw [take_succ_set es ff _ hffL, h.front, take_succ_tail es0 i e (by omega) he,
        survivors_append]
      simp [survivors, hacc]
    · rw [HashMap.keys_SetValue]
      exact h.keys_nodup
    · intro k v hk
      rw [HashMap.Lookup_SetValue] at hk
      by_cases hka : k = e.addr
      · subst hka
        rw [hlook] at hk
        simp only [if_true, Option.map_some'] at hk
        have hv : ff = v := Option.some.inj hk
        subst hv
        refine ⟨ha, hff0, Or.inl ⟨Nat.lt_succ_self _, clearAccessed e, ?_, rfl⟩⟩
        exact List.getElem?_set_self hffL
      · simp only [hka, if_false] at hk
        obtain ⟨hk0, hv0, hcase⟩ := h.bound k v hk
        refine ⟨hk0, hv0, ?_⟩
        rcases hcase with ⟨hvff, e2, he2, ha2⟩ | ⟨hiv, e2, he2, ha2⟩
        · refine Or.inl ⟨Nat.lt_succ_of_lt hvff, e2, ?_, ha2⟩
          rw [List.getElem?_set_ne (by omega)]
          exact he2
        · refine Or.inr ⟨?_, e2, he2, ha2⟩
          by_contra hlt
          have hvi : v = i := by omega
          subst hvi
          rw [he] at he2
          cases he2
          exact hka ha2.symm
    · intro j e2 hj0 hjff hj
      rw [HashMap.Lookup_SetValue]
      by_cases hfj : ff = j
      · subst hfj
        rw [List.getElem?_set_self hffL] at hj
        cases hj
        simp [clearAccessed, hlook]
      · rw [List.getElem?_set_ne hfj] at hj
        have hb := h.kept j e2 hj0 (by omega) hj
        have hne : ¬ e2.addr = e.addr := by
          intro hEq
          rw [hEq, hlook] at hb
          have := Option.some.inj hb
          have := h.ff_le
          omega
        rw [if_neg hne]
        exact hb
    · intro j e2 hij hj ha2
      rw [HashMap.Lookup_SetValue]
      have hb := h.rest j e2 (by omega) hj ha2
      have hne : ¬ e2.addr = e.addr := by
        intro hEq
        rw [hEq, hlook] at hb
        have := Option.some.inj hb
        omega
      rw [if_neg hne]
      exact hb
    · intro j e2 hj0 hj
      by_cases hfj : ff = j
      · subst hfj
        rw [List.getElem?_set_self hffL] at hj
        cases hj
        exact h.ids_odd i e hi0 hes
      · rw [List.getElem?_set_ne hfj] at hj
        exact h.ids_odd j e2 hj0 hj

theorem SweepInv_step_null (es0 es : List EntryInfo) (m : HashMap) (i ff : Nat)
    (e : EntryInfo) (h : SweepInv es0 i ff es m) (he : es0[i]? = some e)
    (hacc : e.accessed = true) (ha : e.addr = 0) :
    RemoveDeadEntriesStep i ff es m = none := by
  have hes : es[i]? = some e := by rw [h.suffix i (Nat.le_refl _)]; exact he
  have hlook : HashMap.Lookup m e.addr = none := by
    cases hl : HashMap.Lookup m e.addr with
    | none => rfl
    | some v => exact absurd ha (h.bound _ _ hl).1
  have hffL : ff < es.length := by
    have := h.ff_le
    have := h.len
    have := lt_length_of_getElem? he
    omega
  by_cases hfi : ff = i
  · subst hfi
    simp [RemoveDeadEntriesStep, hes, hacc, hlook]
  · have h1 : (es.set ff e)[ff]? = some e := List.getElem?_set_self hffL
    simp [RemoveDeadEntriesStep, hes, hacc, hlook, hfi, h1]

theorem SweepInv_step_dead (es0 es : List EntryInfo) (m : HashMap) (i ff : Nat)
    (e : EntryInfo) (h : SweepInv es0 i ff es m) (he : es0[i]? = some e)
    (hacc : e.accessed = false) :
    ∃ m1, RemoveDeadEntriesStep i ff es m = some (ff, es, m1) ∧
      SweepInv es0 (i + 1) ff es m1 := by
  have hiL : i < es0.length := lt_length_of_getElem? he
  have hes : es[i]? = some e := by rw [h.suffix i (Nat.le_refl _)]; exact he
  refine ⟨if e.addr ≠ 0 then (HashMap.Remove m e.addr).1 else m, ?_, ?_⟩
  · simp [RemoveDeadEntriesStep, hes, hacc]
  · have hm1 : ∀ k, HashMap.Lookup (if e.addr ≠ 0 then (HashMap.Remove m e.addr).1 else m) k =
        if k = e.addr then none else HashMap.Lookup m k := by
      intro k
      by_cases ha : e.addr = 0
      · simp only [ha, ne_eq, not_true_eq_false, if_false]
        by_cases hk : k = 0
        · subst hk
          simp only [if_true]
          cases hl : HashMap.Lookup m 0 with
          | none => rfl
          | some v => exact absurd rfl (h.bound _ _ hl).1
        · simp [hk]
      · simp only [ne_eq, ha, not_false_eq_true, if_true]
        exact HashMap.Lookup_Remove m e.addr k
    have hnd : ((if e.addr ≠ 0 then (HashMap.Remove m e.addr).1 else m).map Prod.fst).Nodup := by
      by_cases ha : e.addr = 0
      · simp only [ha, ne_eq, not_true_eq_false, if_false]
        exact h.keys_nodup
      · simp only [ne_eq, ha, not_false_eq_true, if_true]
        exact HashMap.keys_Remove_nodup m e.addr h.keys_nodup
    refine ⟨h.len, h.one_le, ?_, ?_, ?_, ?_, hnd, ?_, ?_, ?_, h.ids_odd⟩
    · have := h.ff_le
      omega
    · omega
    · intro j hj
      exact h.suffix j (by omega)
    · rw [h.front, take_succ_tail es0 i e (by have := h.one_le; have := h.ff_le; omega) he,
        survivors_append]
      simp [survivors, hacc]
    · intro k v hk
      rw [hm1] at hk
      by_cases hka : k = e.addr
      · simp [hka] at hk
      · simp only [hka, if_false] at hk
        obtain ⟨hk0, hv0, hcase⟩ := h.bound k v hk
        refine ⟨hk0, hv0, ?_⟩
        rcases hcase with hl | ⟨hiv, e2, he2, ha2⟩
        · exact Or.inl hl
        · refine Or.inr ⟨?_, e2, he2, ha2⟩
          by_contra hlt
          have hvi : v = i := by omega
          subst hvi
          rw [he] at he2
          cases he2
          exact hka ha2.symm
    · intro j e2 hj0 hjff hj
      have hb := h.kept j e2 hj0 hjff hj
      rw [hm1]
      have hne : ¬ e2.addr = e.addr := by
        intro hEq
        have ha : e.addr ≠ 0 := by
          rw [← hEq]
          exact (h.bound _ _ hb).1
        have hb2 := h.rest i e (Nat.le_refl _) he ha
        rw [hEq, hb2] at hb
        have := Option.some.inj hb
        have := h.ff_le
        omega
      rw [if_neg hne]
      exact hb
    · intro j e2 hij hj ha2
      have hb := h.rest j e2 (by omega) hj ha2
      rw [hm1]
      have hne : ¬ e2.addr = e.addr := by
        intro hEq
        have ha : e.addr ≠ 0 := by
          rw [← hEq]
          exact ha2
        have hb2 := h.rest i e (Nat.le_refl _) he ha
        rw [hEq, hb2] at hb
        have := Option.some.inj hb
        omega
      rw [if_neg hne]
      exact hb

/-- When the loop of `RemoveDeadEntries` returns, it has gone through every index. -/
theorem SweepInv_loop (es0 : List EntryInfo) :
    ∀ (fuel i ff : Nat) (es : List EntryInfo) (m : HashMap),
      SweepInv es0 i ff es m → i + fuel = es0.length →
      ∀ r, RemoveDeadEntriesLoop fuel i ff es m = some r →
        SweepInv es0 es0.length r.1 r.2.1 r.2.2 := by
  intro fuel
  induction fuel with
  | zero =>
    intro i ff es m h hi r hr
    simp only [RemoveDeadEntriesLoop, Option.some.injEq] at hr
    subst hr
    have hiL : i = es0.length := by omega
    subst hiL
    exact h
  | succ fuel ih =>
    intro i ff es m h hi r hr
    have hiL : i < es0.length := by omega
    have he : es0[i]? = some es0[i] := List.getElem?_eq_getElem hiL
    cases hacc : (es0[i]).accessed with
    | false =>
      obtain ⟨m1, hstep, hinv⟩ := SweepInv_step_dead es0 es m i ff _ h he hacc
      simp only [RemoveDeadEntriesLoop, hstep] at hr
      exact ih (i + 1) ff es m1 hinv (by omega) r hr
    | true =>
      by_cases ha : (es0[i]).addr = 0
      · have hstep := SweepInv_step_null es0 es m i ff _ h he hacc ha
        simp [RemoveDeadEntriesLoop, hstep] at hr
      · obtain ⟨hstep, hinv⟩ := SweepInv_step_accessed es0 es m i ff _ h he hacc ha
        simp only [RemoveDeadEntriesLoop, hstep] at hr
        exact ih (i + 1) (ff + 1) _ _ hinv (by omega) r hr

/-- The loop of `RemoveDeadEntries` returns when every entry that is marked
accessed still has an address. -/
theorem SweepInv_loop_total (es0 : List EntryInfo) :
    ∀ (fuel i ff : Nat) (es : List EntryInfo) (m : HashMap),
      SweepInv es0 i ff es m → i + fuel = es0.length →
      (∀ j e, i ≤ j → es0[j]? = some e → e.accessed = true → e.addr ≠ 0) →
      ∃ r, RemoveDeadEntriesLoop fuel i ff es m = some r := by
  intro fuel
  induction fuel with
  | zero =>
    intro i ff es m _ _ _
    exact ⟨_, rfl⟩
  | succ fuel ih =>
    intro i ff es m h hi hlive
    have hiL : i < es0.length := by omega
    have he : es0[i]? = some es0[i] := List.getElem?_eq_getElem hiL
    cases hacc : (es0[i]).accessed with
    | false =>
      obtain ⟨m1, hstep, hinv⟩ := SweepInv_step_dead es0 es m i ff _ h he hacc
      simp only [RemoveDeadEntriesLoop, hstep]
      exact ih (i + 1) ff es m1 hinv (by omega) (fun j e hj => hlive j e (by omega))
    | true =>
      have ha := hlive i _ (Nat.le_refl _) he hacc
      obtain ⟨hstep, hinv⟩ := SweepInv_step_accessed es0 es m i ff _ h he hacc ha
      simp only [RemoveDeadEntriesLoop, hstep]
      exact ih (i + 1) (ff + 1) _ _ hinv (by omega) (fun j e hj => hlive j e (by omega))

theorem SweepInv_init (s : HeapObjectsMap) (h : Inv s) :
    SweepInv s.entries_ 1 1 s.entries_ s.entries_map_ := by
  have hlen : 0 < s.entries_.length := lt_length_of_getElem? h.head_dummy
  refine ⟨rfl, Nat.le_refl _, Nat.le_refl _, hlen, fun _ _ => rfl, ?_, h.keys_nodup, ?_, ?_, ?_,
    h.ids_odd⟩
  · cases hs : s.entries_ with
    | nil => rw [hs] at hlen; simp at hlen
    | cons a l =>
      have hd := h.head_dummy
      rw [hs] at hd
      simp only [List.getElem?_cons_zero, Option.some.injEq] at hd
      subst hd
      simp [survivors]
  · intro k v hk
    obtain ⟨hk0, hv0, e, he, ha⟩ := h.map_entry k v hk
    exact ⟨hk0, hv0, Or.inr ⟨Nat.one_le_iff_ne_zero.mpr hv0, e, he, ha⟩⟩
  · intro j e hj0 hj1
    omega
  · intro j e hj he ha
    exact h.entry_map j e (by omega) he ha

/-- What `RemoveDeadEntries` leaves when it returns on a consistent state. -/
theorem RemoveDeadEntries_sound (s s1 : HeapObjectsMap) (h : Inv s)
    (hr : RemoveDeadEntries s = some s1) :
    Inv s1 ∧ s1.entries_ = dummyEntry :: survivors s.entries_.tail ∧
      s1.next_id_ = s.next_id_ := by
  have hlen : 0 < s.entries_.length := lt_length_of_getElem? h.head_dummy
  unfold RemoveDeadEntries at hr
  cases hloop : RemoveDeadEntriesLoop (s.entries_.length - 1) 1 1 s.entries_ s.entries_map_ with
  | none => simp [hloop] at hr
  | some r =>
    obtain ⟨ff, es, m⟩ := r
    simp only [hloop, Option.some.injEq] at hr
    subst hr
    have hfin := SweepInv_loop s.entries_ (s.entries_.length - 1) 1 1 s.entries_ s.entries_map_
      (SweepInv_init s h) (by omega) _ hloop
    simp only at hfin
    have hfront : es.take ff = dummyEntry :: survivors s.entries_.tail := by
      rw [hfin.front, List.take_length]
    have hffL : ff ≤ es.length := by
      have := hfin.ff_le
      have := hfin.len
      omega
    refine ⟨⟨?_, hfin.keys_nodup, ?_, ?_, h.next_odd, ?_⟩, hfront, rfl⟩
    · show (es.take ff)[0]? = some dummyEntry
      rw [hfront]
      exact List.getElem?_cons_zero
    · intro k v hk
      obtain ⟨hk0, hv0, hcase⟩ := hfin.bound k v hk
      refine ⟨hk0, hv0, ?_⟩
      rcases hcase with ⟨hvff, e, he, ha⟩ | ⟨hLv, e, he, _⟩
      · refine ⟨e, ?_, ha⟩
        show (es.take ff)[v]? = some e
        rw [List.getElem?_take_of_lt hvff]
        exact he
      · have := lt_length_of_getElem? he
        omega
    · intro j e hj0 hj ha
      change (es.take ff)[j]? = some e at hj
      have hjff : j < ff := by
        have := lt_length_of_getElem? hj
        rw [List.length_take] at this
        omega
      rw [List.getElem?_take_of_lt hjff] at hj
      exact hfin.kept j e hj0 hjff hj
    · intro j e hj0 hj
      change (es.take ff)[j]? = some e at hj
      have hjff : j < ff := by
        have := lt_length_of_getElem? hj
        rw [List.length_take] at this
        omega
      rw [List.getElem?_take_of_lt hjff] at hj
      exact hfin.ids_odd j e hj0 hj

/-- The sweep returns when every entry that is marked accessed still has an
address, which is what its `DCHECK(entry)` needs on a consistent state. -/
theorem RemoveDeadEntries_total (s : HeapObjectsMap) (h : Inv s)
    (hlive : ∀ j e, j ≠ 0 → s.entries_[j]? = some e → e.accessed = true → e.addr ≠ 0) :
    ∃ s1, RemoveDeadEntries s = some s1 := by
  have hlen : 0 < s.entries_.length := lt_length_of_getElem? h.head_dummy
  obtain ⟨r, hr⟩ := SweepInv_loop_total s.entries_ (s.entries_.length - 1) 1 1 s.entries_
    s.entries_map_ (SweepInv_init s h) (by omega)
    (fun j e hj he hacc => hlive j e (by omega) he hacc)
  obtain ⟨ff, es, m⟩ := r
  exact ⟨⟨s.next_id_, m, es.take ff⟩, by simp [RemoveDeadEntries, hr]⟩

end HeapObjectsMap

/-- Every state a registry goes through is consistent. -/
theorem Reachable_Inv (n : Nat) (s : HeapObjectsMap) (h : Reachable n s) : Inv s := by
  induction h with
  | ctor => exact Inv_ctor n
  | findOrAdd _ ha hf ih => exact Inv_FindOrAddEntry _ _ ih _ _ _ _ ha hf
  | move _ _ ht hm ih => exact Inv_MoveObject _ _ ih _ _ _ _ ht hm
  | sweep _ hr ih => exact (RemoveDeadEntries_sound _ _ ih hr).1

/-- On a reachable state in which every entry that is marked accessed still has
an address, `RemoveDeadEntries` returns and keeps exactly the accessed entries:
the entry list becomes the dummy followed by the accessed entries in their
order, flags cleared; `FindEntry` gives the id of a kept entry at its address
and 0 at the address of a dropped one. -/
theorem RemoveDeadEntries_keeps_accessed (n : Nat) (s : HeapObjectsMap) (h : Reachable n s)
    (hlive : ∀ j e, j ≠ 0 → s.entries_[j]? = some e → e.accessed = true → e.addr ≠ 0) :
    ∃ s1, RemoveDeadEntries s = some s1 ∧
      s1.entries_ = dummyEntry :: survivors s.entries_.tail ∧
      s1.next_id_ = s.next_id_ ∧
      (∀ e ∈ s.entries_.tail, e.accessed = true → FindEntry s1 e.addr = some (e.id, s1)) ∧
      (∀ e ∈ s.entries_.tail, e.accessed = false → FindEntry s1 e.addr = some (0, s1)) := by
  have hinv := Reachable_Inv n s h
  obtain ⟨s1, hr⟩ := RemoveDeadEntries_total s hinv hlive
  obtain ⟨hinv1, hent, hnext⟩ := RemoveDeadEntries_sound s s1 hinv hr
  have hidx : ∀ e ∈ s.entries_.tail, ∃ j, j ≠ 0 ∧ s.entries_[j]? = some e := by
    intro e he
    obtain ⟨p, hp⟩ := List.mem_iff_getElem?.mp he
    refine ⟨p + 1, Nat.succ_ne_zero p, ?_⟩
    cases hs : s.entries_ with
    | nil => rw [hs] at he; simp at he
    | cons d tl =>
      rw [hs] at hp
      simpa using hp
  have hsurv : ∀ j e2, j ≠ 0 → s1.entries_[j]? = some e2 →
      ∃ e0 ∈ s.entries_.tail, e0.accessed = true ∧ e2 = clearAccessed e0 := by
    intro j e2 hj hj2
    rw [hent] at hj2
    cases j with
    | zero => exact absurd rfl hj
    | succ p =>
      simp only [List.getElem?_cons_succ] at hj2
      have hmem : e2 ∈ survivors s.entries_.tail := List.mem_iff_getElem?.mpr ⟨p, hj2⟩
      simp only [survivors, List.mem_map, List.mem_filter] at hmem
      obtain ⟨e0, ⟨he0, hacc⟩, hEq⟩ := hmem
      exact ⟨e0, he0, hacc, hEq.symm⟩
  refine ⟨s1, hr, hent, hnext, ?_, ?_⟩
  · intro e he hacc
    obtain ⟨j0, hj0, hje⟩ := hidx e he
    have ha : e.addr ≠ 0 := hlive j0 e hj0 hje hacc
    have hmem : clearAccessed e ∈ survivors s.entries_.tail := by
      simp only [survivors, List.mem_map, List.mem_filter]
      exact ⟨e, ⟨he, hacc⟩, rfl⟩
    obtain ⟨p, hp⟩ := List.mem_iff_getElem?.mp hmem
    have hj1 : s1.entries_[p + 1]? = some (clearAccessed e) := by
      rw [hent]
      simpa using hp
    have hb := hinv1.entry_map (p + 1) (clearAccessed e) (Nat.succ_ne_zero p) hj1 ha
    change HashMap.Lookup s1.entries_map_ e.addr = some (p + 1) at hb
    simp [FindEntry, hb, hj1, clearAccessed]
  · intro e he hacc
    cases hl : HashMap.Lookup s1.entries_map_ e.addr with
    | none => simp [FindEntry, hl]
    | some v =>
      exfalso
      obtain ⟨ha, hv0, e2, he2, ha2⟩ := hinv1.map_entry e.addr v hl
      obtain ⟨e0, he0, hacc0, hEq⟩ := hsurv v e2 hv0 he2
      obtain ⟨j, hj, hje⟩ := hidx e he
      obtain ⟨j0, hj0, hje0⟩ := hidx e0 he0
      have haddr : e0.addr = e.addr := by
        rw [← ha2, hEq]
        rfl
      have hb := hinv.entry_map j e hj hje ha
      have hb0 := hinv.entry_map j0 e0 hj0 hje0 (by rw [haddr]; exact ha)
      rw [haddr, hb] at hb0
      have hjj : j = j0 := Option.some.inj hb0
      subst hjj
      rw [hje] at hje0
      cases hje0
      rw [hacc] at hacc0
      cases hacc0

/-! ## Some states of a registry -/

theorem reachable_one :
    Reachable 0 ⟨7, [(8, 1)], [dummyEntry, ⟨5, 8, 4, true⟩]⟩ :=
  @Reachable.findOrAdd 0 (ctor 0) _ 8 4 5 true Reachable.ctor (by decide) rfl

theorem reachable_two :
    Reachable 0 ⟨9, [(8, 1), (16, 2)], [dummyEntry, ⟨5, 8, 4, true⟩, ⟨7, 16, 4, false⟩]⟩ :=
  @Reachable.findOrAdd 0 _ _ 16 4 7 false reachable_one (by decide) rfl

/-! ## The id counter -/

theorem kFirstAvailableObjectId_lt (n : Nat) :
    kFirstAvailableObjectId n < 4294967296 := by
  simp only [kFirstAvailableObjectId, kSnapshotObjectIdRange]
  exact Nat.mod_lt _ (by decide)

theorem reachable_emptied (n k : Nat) :
    Reachable n (emptiedState ((kFirstAvailableObjectId n + 2 * k) % 4294967296)) := by
  induction k with
  | zero =>
    have h : (kFirstAvailableObjectId n + 2 * 0) % 4294967296 = kFirstAvailableObjectId n :=
      Nat.mod_eq_of_lt (kFirstAvailableObjectId_lt n)
    rw [h]
    exact Reachable.ctor
  | succ k ih =>
    have h1 : Reachable n ⟨((kFirstAvailableObjectId n + 2 * k) % 4294967296 + 2) % 4294967296,
        [(16, 1)],
        [dummyEntry, ⟨(kFirstAvailableObjectId n + 2 * k) % 4294967296, 16, 0, false⟩]⟩ :=
      @Reachable.findOrAdd n _ _ 16 0 ((kFirstAvailableObjectId n + 2 * k) % 4294967296) false
        ih (by decide) rfl
    have h2 : Reachable n
        (emptiedState (((kFirstAvailableObjectId n + 2 * k) % 4294967296 + 2) % 4294967296)) :=
      @Reachable.sweep n _ _ h1 rfl
    have harith : ((kFirstAvailableObjectId n + 2 * k) % 4294967296 + 2) % 4294967296
        = (kFirstAvailableObjectId n + 2 * (k + 1)) % 4294967296 := by omega
    rw [harith] at h2
    exact h2

theorem reachable_oneTracked (n k : Nat) :
    Reachable n (oneTrackedState (kFirstAvailableObjectId n)
      ((kFirstAvailableObjectId n + 2 + 2 * k) % 4294967296)) := by
  induction k with
  | zero =>
    have h1 : Reachable n ⟨(kFirstAvailableObjectId n + 2) % 4294967296, [(8, 1)],
        [dummyEntry, ⟨kFirstAvailableObjectId n, 8, 0, true⟩]⟩ :=
      @Reachable.findOrAdd n (ctor n) _ 8 0 (kFirstAvailableObjectId n) true Reachable.ctor
        (by decide) rfl
    exact @Reachable.sweep n _ _ h1 rfl
  | succ k ih =>
    have h1 : Reachable n ⟨(kFirstAvailableObjectId n + 2 + 2 * k) % 4294967296, [(8, 1)],
        [dummyEntry, ⟨kFirstAvailableObjectId n, 8, 0, true⟩]⟩ :=
      @Reachable.findOrAdd n _ _ 8 0 (kFirstAvailableObjectId n) true ih (by decide) rfl
    have h2 : Reachable n
        ⟨((kFirstAvailableObjectId n + 2 + 2 * k) % 4294967296 + 2) % 4294967296,
        [(8, 1), (16, 2)],
        [dummyEntry, ⟨kFirstAvailableObjectId n, 8, 0, true⟩,
          ⟨(kFirstAvailableObjectId n + 2 + 2 * k) % 4294967296, 16, 0, false⟩]⟩ :=
      @Reachable.findOrAdd n _ _ 16 0 ((kFirstAvailableObjectId n + 2 + 2 * k) % 4294967296)
        false h1 (by decide) rfl
    have h3 : Reachable n (oneTrackedState (kFirstAvailableObjectId n)
        (((kFirstAvailableObjectId n + 2 + 2 * k) % 4294967296 + 2) % 4294967296)) :=
      @Reachable.sweep n _ _ h2 rfl
    have harith : ((kFirstAvailableObjectId n + 2 + 2 * k) % 4294967296 + 2) % 4294967296
        = (kFirstAvailableObjectId n + 2 + 2 * (k + 1)) % 4294967296 := by omega
    rw [harith] at h3
    exact h3

/-- After `2 ^ 31 - 1` rounds the counter is back at the first id, which is still
recorded. -/
theorem reachable_oneTracked_wrapped (n : Nat) :
    Reachable n (oneTrackedState (kFirstAvailableObjectId n) (kFirstAvailableObjectId n)) := by
  have h := reachable_oneTracked n 2147483647
  have hlt := kFirstAvailableObjectId_lt n
  have harith : (kFirstAvailableObjectId n + 2 + 2 * 2147483647) % 4294967296
      = kFirstAvailableObjectId n := by omega
  rw [harith] at h
  exact h

theorem MoveObject_next_id (s s1 : HeapObjectsMap) (from_ to_ : Nat) (size : Int)
    (moved : Bool) (hm : MoveObject s from_ to_ size = some (moved, s1)) :
    s1.next_id_ = s.next_id_ := by
  simp only [MoveObject] at hm
  by_cases h1 : from_ = to_
  · simp only [h1, if_true, Option.some.injEq, Prod.mk.injEq] at hm
    rw [← hm.2]
  · simp only [h1, if_false] at hm
    by_cases h2 : (HashMap.Remove s.entries_map_ from_).2 = 0
    · simp only [h2, if_true] at hm
      by_cases h3 : (HashMap.Remove (HashMap.Remove s.entries_map_ from_).1 to_).2 = 0
      · simp only [h3, ne_eq, not_true_eq_false, if_false, Option.some.injEq,
          Prod.mk.injEq] at hm
        rw [← hm.2]
      · simp only [ne_eq, h3, not_false_eq_true, if_true] at hm
        cases he : s.entries_[(HashMap.Remove (HashMap.Remove s.entries_map_ from_).1 to_).2]? with
        | none => simp [he] at hm
        | some e =>
          simp only [he, Option.some.injEq, Prod.mk.injEq] at hm
          rw [← hm.2]
    · simp only [h2, if_false] at hm
      split at hm
      · cases hm
      · split at hm
        · cases hm
        · simp only [Option.some.injEq, Prod.mk.injEq] at hm
          rw [← hm.2]

theorem RemoveDeadEntries_next_id (s s1 : HeapObjectsMap)
    (hr : RemoveDeadEntries s = some s1) : s1.next_id_ = s.next_id_ := by
  unfold RemoveDeadEntries at hr
  split at hr
  · cases hr
  · cases hr; rfl

/-- A call either allocates no id and leaves the counter, or allocates the id
the counter is at and advances the counter by `kObjectIdStep`. -/
theorem step_ids (s s1 : HeapObjectsMap) (op : Op) (ids : List Nat)
    (hs : step s op = some (s1, ids)) :
    (ids = [] ∧ s1.next_id_ = s.next_id_) ∨
    (ids = [s.next_id_] ∧
      s1.next_id_ = (s.next_id_ + kObjectIdStep) % kSnapshotObjectIdRange) := by
  cases op with
  | findOrAdd addr size accessed =>
    simp only [step] at hs
    cases hf : FindOrAddEntry s addr size accessed with
    | none => simp [hf] at hs
    | some r =>
      obtain ⟨id, s2⟩ := r
      simp only [hf, Option.some.injEq, Prod.mk.injEq] at hs
      obtain ⟨hs1, hids⟩ := hs
      subst hs1
      simp only [FindOrAddEntry] at hf
      split_ifs at hf with h1
      · cases he : s.entries_[(HashMap.LookupOrInsert s.entries_map_ addr).2]? with
        | none => simp [he] at hf
        | some e =>
          simp only [he, Option.some.injEq, Prod.mk.injEq] at hf
          obtain ⟨_, hs2⟩ := hf
          subst hs2
          left
          simp only [List.length_set] at hids
          simp at hids
          exact ⟨hids, rfl⟩
      · simp only [Option.some.injEq, Prod.mk.injEq] at hf
        obtain ⟨hid, hs2⟩ := hf
        subst hs2
        subst hid
        right
        simp at hids
        exact ⟨hids.symm, rfl⟩
  | move from_ to_ object_size =>
    simp only [step] at hs
    cases hm : MoveObject s from_ to_ object_size with
    | none => simp [hm] at hs
    | some r =>
      obtain ⟨moved, s2⟩ := r
      simp only [hm, Option.some.injEq, Prod.mk.injEq] at hs
      obtain ⟨hs1, hids⟩ := hs
      subst hs1
      exact Or.inl ⟨hids.symm, MoveObject_next_id s s2 from_ to_ object_size moved hm⟩
  | sweep =>
    simp only [step] at hs
    cases hr : RemoveDeadEntries s with
    | none => simp [hr] at hs
    | some s2 =>
      simp only [hr, Option.some.injEq, Prod.mk.injEq] at hs
      obtain ⟨hs1, hids⟩ := hs
      subst hs1
      exact Or.inl ⟨hids.symm, RemoveDeadEntries_next_id s s2 hr⟩

/-- The ids allocated along a sequence of calls are strictly increasing and not
below the counter at the start, as long as the counter does not wrap before the
last of them is allocated. -/
theorem run_ids_increasing :
    ∀ (ops : List Op) (s s1 : HeapObjectsMap) (ids : List Nat),
      run s ops = some (s1, ids) →
      s.next_id_ + kObjectIdStep * ids.length ≤ kSnapshotObjectIdRange + 1 →
      ids.Pairwise (· < ·) ∧ ∀ x ∈ ids, s.next_id_ ≤ x := by
  intro ops
  induction ops with
  | nil =>
    intro s s1 ids hr _
    simp only [run, Option.some.injEq, Prod.mk.injEq] at hr
    rw [← hr.2]
    simp
  | cons op ops ih =>
    intro s s1 ids hr hb
    simp only [run] at hr
    cases hs : step s op with
    | none => simp [hs] at hr
    | some r =>
      obtain ⟨s2, ids1⟩ := r
      simp only [hs] at hr
      cases hr2 : run s2 ops with
      | none => simp [hr2] at hr
      | some r2 =>
        obtain ⟨s3, ids2⟩ := r2
        simp only [hr2, Option.some.injEq, Prod.mk.injEq] at hr
        obtain ⟨_, hids⟩ := hr
        subst hids
        rcases step_ids s s2 op ids1 hs with ⟨h1, hn⟩ | ⟨h1, hn⟩
        · subst h1
          simp only [List.nil_append] at hb ⊢
          rw [← hn]
          exact ih s2 s3 ids2 hr2 (by rw [hn]; exact hb)
        · subst h1
          simp only [List.singleton_append, List.length_cons, kObjectIdStep,
            kSnapshotObjectIdRange] at hb hn ⊢
          cases ids2 with
          | nil => simp
          | cons y ys =>
            simp only [List.length_cons] at hb
            have hn2 : s2.next_id_ = s.next_id_ + 2 := by
              rw [hn]
              exact Nat.mod_eq_of_lt (by omega)
            have hrec := ih s2 s3 (y :: ys) hr2 (by
              simp only [List.length_cons, kObjectIdStep, kSnapshotObjectIdRange]
              omega)
            refine ⟨List.Pairwise.cons ?_ hrec.1, ?_⟩
            · intro x hx
              have := hrec.2 x hx
              omega
            · intro x hx
              rcases List.mem_cons.mp hx with hx | hx
              · omega
              · have := hrec.2 x hx
                omega

theorem run_append (a b : List Op) :
    ∀ s, run s (a ++ b) =
      match run s a with
      | none => none
      | some (s1, ids1) =>
        match run s1 b with
        | none => none
        | some (s2, ids2) => some (s2, ids1 ++ ids2) := by
  induction a with
  | nil =>
    intro s
    simp only [List.nil_append, run]
    cases run s b with
    | none => rfl
    | some r => simp
  | cons op ops ih =>
    intro s
    rw [List.cons_append]
    simp only [run]
    cases hs : step s op with
    | none => rfl
    | some r =>
      obtain ⟨s1, ids⟩ := r
      simp only []
      rw [ih s1]
      cases h1 : run s1 ops with
      | none => rfl
      | some r1 =>
        obtain ⟨s2, ids2⟩ := r1
        simp only []
        cases h2 : run s2 b with
        | none => rfl
        | some r2 =>
          obtain ⟨s3, ids3⟩ := r2
          simp

theorem run_sweepRounds (k : Nat) :
    ∀ x, ∃ ids, run (emptiedState x) (sweepRounds k) =
      some (emptiedState (if k = 0 then x else (x + 2 * k) % 4294967296), ids) := by
  induction k with
  | zero =>
    intro x
    exact ⟨[], rfl⟩
  | succ k ih =>
    intro x
    obtain ⟨ids, hids⟩ := ih ((x + 2) % 4294967296)
    have harith : (if k = 0 then (x + 2) % 4294967296
        else ((x + 2) % 4294967296 + 2 * k) % 4294967296) = (x + 2 * (k + 1)) % 4294967296 := by
      split_ifs with hk
      · subst hk; rfl
      · omega
    rw [harith] at hids
    refine ⟨[x] ++ ids, ?_⟩
    have h1 : step (emptiedState x) (Op.findOrAdd 16 0 false) =
        some (⟨(x + 2) % 4294967296, [(16, 1)], [dummyEntry, ⟨x, 16, 0, false⟩]⟩, [x]) := rfl
    have h2 : step ⟨(x + 2) % 4294967296, [(16, 1)], [dummyEntry, ⟨x, 16, 0, false⟩]⟩ Op.sweep =
        some (emptiedState ((x + 2) % 4294967296), []) := rfl
    simp only [sweepRounds, run, h1, h2, hids, Nat.succ_ne_zero, if_false]
    rfl

theorem idsBelowNext_one : IdsBelowNext ⟨7, [(8, 1)], [dummyEntry, ⟨5, 8, 4, true⟩]⟩ := by
  intro j e he
  rcases j with _ | _ | j
  · simp at he; subst he; decide
  · simp at he; subst he; decide
  · simp at he

theorem uniqueIds_two :
    UniqueIds ⟨9, [(8, 1), (16, 2)], [dummyEntry, ⟨5, 8, 4, true⟩, ⟨7, 16, 4, false⟩]⟩ := by
  intro j1 j2 e1 e2 h1 h2 hEq
  rcases j1 with _ | _ | _ | j1 <;> rcases j2 with _ | _ | _ | j2 <;>
    simp [dummyEntry] at h1 h2 <;> subst h1 <;> subst h2 <;> simp at hEq <;> rfl

/-- What `MoveObject` leaves when `from` is tracked and differs from `to`. -/
theorem MoveObject_tracked (s : HeapObjectsMap) (hinv : Inv s) (from_ to_ i : Nat) (size : Int)
    (hne : from_ ≠ to_) (ht : Tracked s from_ i) :
    ∃ s1 fv e, MoveObject s from_ to_ size = some (true, s1) ∧
      s1.next_id_ = s.next_id_ ∧ fv ≠ 0 ∧
      HashMap.Lookup s.entries_map_ from_ = some fv ∧
      HashMap.Lookup s1.entries_map_ to_ = some fv ∧ s1.entries_[fv]? = some e ∧ e.id = i ∧
      HashMap.Lookup s1.entries_map_ from_ = none := by
  obtain ⟨v, e0, hl, he0, hid⟩ := ht
  have hne2 : ¬ to_ = from_ := fun h => hne h.symm
  rcases MoveObject_cases s hinv from_ to_ size hne with
    ⟨hf, _, _⟩ | ⟨tv, et, hf, _⟩ | ⟨fv, ef, hf, hfv, htn, hef, _, heq⟩ |
    ⟨fv, tv, ef, et, hf, hfv, htl, htv, hft, hef, het, _, _, heq⟩
  · rw [hf] at hl
    cases hl
  · rw [hf] at hl
    cases hl
  · rw [hf] at hl
    have hvf : fv = v := Option.some.inj hl
    subst hvf
    rw [hef] at he0
    have hee : ef = e0 := Option.some.inj he0
    subst hee
    refine ⟨_, fv, _, heq, rfl, hfv, hf, ?_, List.getElem?_set_self (lt_length_of_getElem? hef),
      hid, ?_⟩
    · show HashMap.Lookup (s.entries_map_.filter (fun kv => decide (kv.1 ≠ from_)) ++ [(to_, fv)])
        to_ = some fv
      rw [HashMap.Lookup_append, HashMap.Lookup_filter]
      simp [hne2, htn]
    · show HashMap.Lookup (s.entries_map_.filter (fun kv => decide (kv.1 ≠ from_)) ++ [(to_, fv)])
        from_ = none
      rw [HashMap.Lookup_append, HashMap.Lookup_filter]
      simp [hne2]
  · rw [hf] at hl
    have hvf : fv = v := Option.some.inj hl
    subst hvf
    rw [hef] at he0
    have hee : ef = e0 := Option.some.inj he0
    subst hee
    have hlt : fv < (s.entries_.set tv { et with addr := 0 }).length := by
      rw [List.length_set]
      exact lt_length_of_getElem? hef
    refine ⟨_, fv, _, heq, rfl, hfv, hf, ?_, List.getElem?_set_self hlt, hid, ?_⟩
    · show HashMap.Lookup (HashMap.SetValue
        (s.entries_map_.filter (fun kv => decide (kv.1 ≠ from_))) to_ fv) to_ = some fv
      rw [HashMap.Lookup_SetValue, HashMap.Lookup_filter]
      simp [hne2, htl]
    · show HashMap.Lookup (HashMap.SetValue
        (s.entries_map_.filter (fun kv => decide (kv.1 ≠ from_))) to_ fv) from_ = none
      rw [HashMap.Lookup_SetValue, if_neg hne, HashMap.Lookup_filter, if_pos rfl]

theorem run_sweepRounds_succ (k x : Nat) :
    ∃ ids, run (emptiedState x) (sweepRounds (k + 1)) =
      some (emptiedState ((x + 2 * (k + 1)) % 4294967296), x :: ids) := by
  obtain ⟨ids, hids⟩ := run_sweepRounds k ((x + 2) % 4294967296)
  have harith : (if k = 0 then (x + 2) % 4294967296
      else ((x + 2) % 4294967296 + 2 * k) % 4294967296) = (x + 2 * (k + 1)) % 4294967296 := by
    split_ifs with hk
    · subst hk; rfl
    · omega
  rw [harith] at hids
  refine ⟨ids, ?_⟩
  have h1 : step (emptiedState x) (Op.findOrAdd 16 0 false) =
      some (⟨(x + 2) % 4294967296, [(16, 1)], [dummyEntry, ⟨x, 16, 0, false⟩]⟩, [x]) := rfl
  have h2 : step ⟨(x + 2) % 4294967296, [(16, 1)], [dummyEntry, ⟨x, 16, 0, false⟩]⟩ Op.sweep =
      some (emptiedState ((x + 2) % 4294967296), []) := rfl
  simp only [sweepRounds, run, h1, h2, hids]
  rfl

/-- For every number of sync tags the first id is handed out twice: by the first
allocation of a fresh registry and again after `2 ^ 31` rounds of
`UpdateObjectSize(16, 0)` and `RemoveDeadEntries()`. -/
theorem first_id_allocated_twice (n : Nat) :
    ∃ s ids, run (ctor n) (sweepRounds 2147483648 ++ [Op.findOrAdd 16 0 true]) =
      some (s, kFirstAvailableObjectId n :: ids ++ [kFirstAvailableObjectId n]) := by
  obtain ⟨ids, hids⟩ := run_sweepRounds_succ 2147483647 (kFirstAvailableObjectId n)
  have hlt := kFirstAvailableObjectId_lt n
  have harith : (kFirstAvailableObjectId n + 2 * (2147483647 + 1)) % 4294967296
      = kFirstAvailableObjectId n := by omega
  rw [harith] at hids
  have hlast : run (emptiedState (kFirstAvailableObjectId n)) [Op.findOrAdd 16 0 true] =
      some (⟨(kFirstAvailableObjectId n + 2) % 4294967296, [(16, 1)],
        [dummyEntry, ⟨kFirstAvailableObjectId n, 16, 0, true⟩]⟩,
        [kFirstAvailableObjectId n]) := rfl
  refine ⟨⟨(kFirstAvailableObjectId n + 2) % 4294967296, [(16, 1)],
    [dummyEntry, ⟨kFirstAvailableObjectId n, 16, 0, true⟩]⟩, ids, ?_⟩
  rw [run_append]
  have hc : ctor n = emptiedState (kFirstAvailableObjectId n) := rfl
  have hk : sweepRounds 2147483648 = sweepRounds (2147483647 + 1) := rfl
  rw [hc, hk, hids]
  simp only [hlast]

/-- For every number of sync tags: once the counter has wrapped back to the first
id, which the address 8 still carries, `MoveObject(8, 24, 0)` followed by
`FindOrAddEntry(8, 0)` allocates that id again. -/
theorem fresh_id_collides_after_wrap (n : Nat) :
    Reachable n (oneTrackedState (kFirstAvailableObjectId n) (kFirstAvailableObjectId n)) ∧
    Tracked (oneTrackedState (kFirstAvailableObjectId n) (kFirstAvailableObjectId n)) 8
      (kFirstAvailableObjectId n) ∧
    MoveObject (oneTrackedState (kFirstAvailableObjectId n) (kFirstAvailableObjectId n)) 8 24 0 =
      some (true, ⟨kFirstAvailableObjectId n, [(24, 1)],
        [dummyEntry, ⟨kFirstAvailableObjectId n, 24, 0, false⟩]⟩) ∧
    FindOrAddEntry ⟨kFirstAvailableObjectId n, [(24, 1)],
        [dummyEntry, ⟨kFirstAvailableObjectId n, 24, 0, false⟩]⟩ 8 0 true =
      some (kFirstAvailableObjectId n,
        ⟨(kFirstAvailableObjectId n + 2) % 4294967296, [(24, 1), (8, 2)],
          [dummyEntry, ⟨kFirstAvailableObjectId n, 24, 0, false⟩,
            ⟨kFirstAvailableObjectId n, 8, 0, true⟩]⟩) :=
  ⟨reachable_oneTracked_wrapped n, ⟨1, ⟨kFirstAvailableObjectId n, 8, 0, false⟩, rfl, rfl, rfl⟩,
    rfl, rfl⟩

/-- For every number of sync tags: once the counter has wrapped back to the first
id, the addresses 8 and 16 can both carry it; `MoveObject(24, 16, 0)` of the
untracked address 24 then leaves `FindEntry(8)` returning the id of the dropped
entry. -/
theorem shared_id_survives_after_wrap (n : Nat) :
    Reachable n ⟨(kFirstAvailableObjectId n + 2) % 4294967296, [(8, 1), (16, 2)],
      [dummyEntry, ⟨kFirstAvailableObjectId n, 8, 0, false⟩,
        ⟨kFirstAvailableObjectId n, 16, 0, true⟩]⟩ ∧
    MoveObject ⟨(kFirstAvailableObjectId n + 2) % 4294967296, [(8, 1), (16, 2)],
        [dummyEntry, ⟨kFirstAvailableObjectId n, 8, 0, false⟩,
          ⟨kFirstAvailableObjectId n, 16, 0, true⟩]⟩ 24 16 0 =
      some (false, ⟨(kFirstAvailableObjectId n + 2) % 4294967296, [(8, 1)],
        [dummyEntry, ⟨kFirstAvailableObjectId n, 8, 0, false⟩,
          ⟨kFirstAvailableObjectId n, 0, 0, true⟩]⟩) ∧
    FindEntry ⟨(kFirstAvailableObjectId n + 2) % 4294967296, [(8, 1)],
        [dummyEntry, ⟨kFirstAvailableObjectId n, 8, 0, false⟩,
          ⟨kFirstAvailableObjectId n, 0, 0, true⟩]⟩ 8 =
      some (kFirstAvailableObjectId n,
        ⟨(kFirstAvailableObjectId n + 2) % 4294967296, [(8, 1)],
          [dummyEntry, ⟨kFirstAvailableObjectId n, 8, 0, false⟩,
            ⟨kFirstAvailableObjectId n, 0, 0, true⟩]⟩) :=
  ⟨@Reachable.findOrAdd n _ _ 16 0 (kFirstAvailableObjectId n) true
     (reachable_oneTracked_wrapped n) (by decide) rfl,
   rfl, rfl⟩

/-! ## The order of the ids -/

theorem map_id_set (es : List EntryInfo) (v : Nat) (e e2 : EntryInfo) (he : es[v]? = some e)
    (hid : e2.id = e.id) : (es.set v e2).map EntryInfo.id = es.map EntryInfo.id := by
  rw [List.map_set, hid]
  apply set_getElem?_self
  rw [List.getElem?_map, he]
  rfl

theorem IdsSorted_below (s : HeapObjectsMap) (h : IdsSorted s) : IdsBelowNext s := by
  intro j e he
  apply h.2
  exact List.mem_map.mpr ⟨e, List.mem_iff_getElem?.mpr ⟨j, he⟩, rfl⟩

theorem IdsSorted_unique (s : HeapObjectsMap) (h : IdsSorted s) : UniqueIds s := by
  have hnd : (idList s).Nodup := h.1.imp (fun hlt => Nat.ne_of_lt hlt)
  have hne := List.nodup_iff_getElem?_ne_getElem?.mp hnd
  intro j1 j2 e1 e2 h1 h2 hEq
  have g1 : (idList s)[j1]? = some e1.id := by
    simp only [idList, List.getElem?_map, h1, Option.map_some']
  have g2 : (idList s)[j2]? = some e2.id := by
    simp only [idList, List.getElem?_map, h2, Option.map_some']
  have l1 : j1 < (idList s).length := lt_length_of_getElem? g1
  have l2 : j2 < (idList s).length := lt_length_of_getElem? g2
  rcases Nat.lt_trichotomy j1 j2 with hlt | heq | hgt
  · exact absurd (by rw [g1, g2, hEq]) (hne j1 j2 hlt l2)
  · exact heq
  · exact absurd (by rw [g1, g2, hEq]) (hne j2 j1 hgt l1)

/-- A call that returns keeps the ids of the entries strictly increasing and
below `next_id_`, when the counter does not wrap in it. -/
theorem step_IdsSorted (s s1 : HeapObjectsMap) (op : Op) (ids : List Nat) (hinv : Inv s)
    (hsorted : IdsSorted s) (hs : step s op = some (s1, ids))
    (hb : s.next_id_ + kObjectIdStep * ids.length < kSnapshotObjectIdRange) :
    IdsSorted s1 := by
  cases op with
  | findOrAdd addr size accessed =>
    simp only [step] at hs
    rcases FindOrAddEntry_cases s hinv addr size accessed with
      ⟨v, e, _, _, he, _, heq⟩ | ⟨_, heq⟩
    · simp only [heq, Option.some.injEq, Prod.mk.injEq] at hs
      rw [← hs.1]
      have hm := map_id_set s.entries_ v e { e with accessed := accessed, size := size } he rfl
      exact ⟨by simp only [idList, hm]; exact hsorted.1,
        by simp only [idList, hm]; exact hsorted.2⟩
    · simp only [heq, Option.some.injEq, Prod.mk.injEq] at hs
      obtain ⟨hs1, hids⟩ := hs
      subst hs1
      simp at hids
      subst hids
      simp only [List.length_singleton, kObjectIdStep, kSnapshotObjectIdRange] at hb
      have hn : (s.next_id_ + kObjectIdStep) % kSnapshotObjectIdRange = s.next_id_ + 2 := by
        simp only [kObjectIdStep, kSnapshotObjectIdRange]
        exact Nat.mod_eq_of_lt (by omega)
      constructor
      · simp only [idList, List.map_append, List.map_cons, List.map_nil]
        rw [List.pairwise_append]
        refine ⟨hsorted.1, by simp, ?_⟩
        intro a ha b hb2
        simp only [List.mem_singleton] at hb2
        subst hb2
        exact hsorted.2 a ha
      · intro x hx
        simp only [idList, List.map_append, List.map_cons, List.map_nil, List.mem_append,
          List.mem_singleton] at hx
        show x < (s.next_id_ + kObjectIdStep) % kSnapshotObjectIdRange
        rw [hn]
        rcases hx with hx | hx
        · have := hsorted.2 x hx
          omega
        · omega
  | move from_ to_ object_size =>
    simp only [step] at hs
    by_cases hne : from_ = to_
    · simp [MoveObject, hne] at hs
      rw [← hs.1]
      exact hsorted
    · rcases MoveObject_cases s hinv from_ to_ object_size hne with
        ⟨_, _, heq⟩ | ⟨tv, et, _, _, _, het, _, heq⟩ | ⟨fv, ef, _, _, _, hef, _, heq⟩ |
        ⟨fv, tv, ef, et, _, _, _, _, hft, hef, het, _, _, heq⟩
      · simp only [heq, Option.some.injEq, Prod.mk.injEq] at hs
        rw [← hs.1]
        exact hsorted
      · simp only [heq, Option.some.injEq, Prod.mk.injEq] at hs
        rw [← hs.1]
        have hm := map_id_set s.entries_ tv et { et with addr := 0 } het rfl
        exact ⟨by simp only [idList, hm]; exact hsorted.1,
          by simp only [idList, hm]; exact hsorted.2⟩
      · simp only [heq, Option.some.injEq, Prod.mk.injEq] at hs
        rw [← hs.1]
        have hm := map_id_set s.entries_ fv ef
          { ef with addr := to_, size := toUnsigned object_size } hef rfl
        exact ⟨by simp only [idList, hm]; exact hsorted.1,
          by simp only [idList, hm]; exact hsorted.2⟩
      · simp only [heq, Option.some.injEq, Prod.mk.injEq] at hs
        rw [← hs.1]
        have hm1 := map_id_set s.entries_ tv et { et with addr := 0 } het rfl
        have hef2 : (s.entries_.set tv { et with addr := 0 })[fv]? = some ef := by
          rw [List.getElem?_set_ne (fun h => hft h.symm)]
          exact hef
        have hm2 := map_id_set _ fv ef
          { ef with addr := to_, size := toUnsigned object_size } hef2 rfl
        rw [hm1] at hm2
        exact ⟨by simp only [idList, hm2]; exact hsorted.1,
          by simp only [idList, hm2]; exact hsorted.2⟩
  | sweep =>
    simp only [step] at hs
    cases hr : RemoveDeadEntries s with
    | none => simp [hr] at hs
    | some s2 =>
      simp only [hr, Option.some.injEq, Prod.mk.injEq] at hs
      obtain ⟨hs1, _⟩ := hs
      subst hs1
      obtain ⟨_, hent, hnext⟩ := RemoveDeadEntries_sound s s2 hinv hr
      have hsub : (idList s2).Sublist (idList s) := by
        simp only [idList, hent]
        cases hes : s.entries_ with
        | nil =>
          have hd := hinv.head_dummy
          rw [hes] at hd
          simp at hd
        | cons d tl =>
          have hd := hinv.head_dummy
          rw [hes] at hd
          simp only [List.getElem?_cons_zero, Option.some.injEq] at hd
          subst hd
          simp only [List.tail_cons, List.map_cons, survivors, List.map_map]
          apply List.cons_sublist_cons.mpr
          have hfun : (EntryInfo.id ∘ clearAccessed) = EntryInfo.id := by
            funext e
            rfl
          rw [hfun]
          exact List.Sublist.map _ (List.filter_sublist tl)
      refine ⟨List.Pairwise.sublist hsub hsorted.1, ?_⟩
      intro x hx
      rw [hnext]
      exact hsorted.2 x (hsub.subset hx)

theorem step_Inv (s s1 : HeapObjectsMap) (op : Op) (ids : List Nat) (hinv : Inv s)
    (hv : Op.valid op) (hs : step s op = some (s1, ids)) : Inv s1 := by
  cases op with
  | findOrAdd addr size accessed =>
    simp only [step] at hs
    cases hf : FindOrAddEntry s addr size accessed with
    | none => simp [hf] at hs
    | some r =>
      obtain ⟨id, s2⟩ := r
      simp only [hf, Option.some.injEq, Prod.mk.injEq] at hs
      rw [← hs.1]
      exact Inv_FindOrAddEntry s s2 hinv addr size id accessed hv hf
  | move from_ to_ object_size =>
    simp only [step] at hs
    cases hm : MoveObject s from_ to_ object_size with
    | none => simp [hm] at hs
    | some r =>
      obtain ⟨moved, s2⟩ := r
      simp only [hm, Option.some.injEq, Prod.mk.injEq] at hs
      rw [← hs.1]
      exact Inv_MoveObject s s2 hinv from_ to_ object_size moved hv.2 hm
  | sweep =>
    simp only [step] at hs
    cases hr : RemoveDeadEntries s with
    | none => simp [hr] at hs
    | some s2 =>
      simp only [hr, Option.some.injEq, Prod.mk.injEq] at hs
      rw [← hs.1]
      exact (RemoveDeadEntries_sound s s2 hinv hr).1

/-- A sequence of returning calls with non-null addresses leads from a reachable
state to a reachable state. -/
theorem run_Reachable (n : Nat) :
    ∀ (ops : List Op) (s s1 : HeapObjectsMap) (ids : List Nat),
      Reachable n s → (∀ op ∈ ops, Op.valid op) → run s ops = some (s1, ids) →
      Reachable n s1 := by
  intro ops
  induction ops with
  | nil =>
    intro s s1 ids hreach _ hr
    simp only [run, Option.some.injEq, Prod.mk.injEq] at hr
    rw [← hr.1]
    exact hreach
  | cons op ops ih =>
    intro s s1 ids hreach hv hr
    simp only [run] at hr
    cases hs : step s op with
    | none => simp [hs] at hr
    | some r =>
      obtain ⟨s2, ids1⟩ := r
      simp only [hs] at hr
      cases hr2 : run s2 ops with
      | none => simp [hr2] at hr
      | some r2 =>
        obtain ⟨s3, ids2⟩ := r2
        simp only [hr2, Option.some.injEq, Prod.mk.injEq] at hr
        obtain ⟨hs3, _⟩ := hr
        subst hs3
        have hvalid := hv op (List.mem_cons_self _ _)
        have hreach2 : Reachable n s2 := by
          cases op with
          | findOrAdd addr size accessed =>
            simp only [step] at hs
            cases hf : FindOrAddEntry s addr size accessed with
            | none => simp [hf] at hs
            | some r3 =>
              obtain ⟨id, s4⟩ := r3
              simp only [hf, Option.some.injEq, Prod.mk.injEq] at hs
              rw [← hs.1]
              exact Reachable.findOrAdd hreach hvalid hf
          | move from_ to_ object_size =>
            simp only [step] at hs
            cases hm : MoveObject s from_ to_ object_size with
            | none => simp [hm] at hs
            | some r3 =>
              obtain ⟨moved, s4⟩ := r3
              simp only [hm, Option.some.injEq, Prod.mk.injEq] at hs
              rw [← hs.1]
              exact Reachable.move hreach hvalid.1 hvalid.2 hm
          | sweep =>
            simp only [step] at hs
            cases hsw : RemoveDeadEntries s with
            | none => simp [hsw] at hs
            | some s4 =>
              simp only [hsw, Option.some.injEq, Prod.mk.injEq] at hs
              rw [← hs.1]
              exact Reachable.sweep hreach hsw
        exact ih s2 s3 ids2 hreach2 (fun o ho => hv o (List.mem_cons_of_mem _ ho)) hr2

/-- Along a sequence of calls in which the counter does not wrap the ids of the
entries stay strictly increasing and below `next_id_`. -/
theorem run_IdsSorted :
    ∀ (ops : List Op) (s s1 : HeapObjectsMap) (ids : List Nat),
      Inv s → IdsSorted s → (∀ op ∈ ops, Op.valid op) → run s ops = some (s1, ids) →
      s.next_id_ + kObjectIdStep * ids.length < kSnapshotObjectIdRange →
      Inv s1 ∧ IdsSorted s1 := by
  intro ops
  induction ops with
  | nil =>
    intro s s1 ids hinv hsorted _ hr _
    simp only [run, Option.some.injEq, Prod.mk.injEq] at hr
    rw [← hr.1]
    exact ⟨hinv, hsorted⟩
  | cons op ops ih =>
    intro s s1 ids hinv hsorted hv hr hb
    simp only [run] at hr
    cases hs : step s op with
    | none => simp [hs] at hr
    | some r =>
      obtain ⟨s2, ids1⟩ := r
      simp only [hs] at hr
      cases hr2 : run s2 ops with
      | none => simp [hr2] at hr
      | some r2 =>
        obtain ⟨s3, ids2⟩ := r2
        simp only [hr2, Option.some.injEq, Prod.mk.injEq] at hr
        obtain ⟨hs3, hids⟩ := hr
        subst hs3
        subst hids
        simp only [List.length_append, kObjectIdStep, kSnapshotObjectIdRange] at hb
        have hinv2 := step_Inv s s2 op ids1 hinv (hv op (List.mem_cons_self _ _)) hs
        have hsorted2 := step_IdsSorted s s2 op ids1 hinv hsorted hs (by
          simp only [kObjectIdStep, kSnapshotObjectIdRange]
          omega)
        have hnext : s2.next_id_ + 2 * ids2.length < 4294967296 := by
          rcases step_ids s s2 op ids1 hs with ⟨h1, hn⟩ | ⟨h1, hn⟩
          · subst h1
            simp only [List.length_nil] at hb
            omega
          · subst h1
            simp only [List.length_singleton, kObjectIdStep, kSnapshotObjectIdRange] at hb hn
            have : (s.next_id_ + 2) % 4294967296 = s.next_id_ + 2 :=
              Nat.mod_eq_of_lt (by omega)
            omega
        exact ih s2 s3 ids2 hinv2 hsorted2 (fun o ho => hv o (List.mem_cons_of_mem _ ho)) hr2
          (by simp only [kObjectIdStep, kSnapshotObjectIdRange]; exact hnext)

/-- Until the counter wraps, the ids of the entries of a registry are strictly
increasing in list order, below `next_id_`, and pairwise different. -/
theorem ids_sorted_until_wrap (n : Nat) (ops : List Op) (s : HeapObjectsMap) (ids : List Nat)
    (hv : ∀ op ∈ ops, Op.valid op) (hr : run (ctor n) ops = some (s, ids))
    (hb : kFirstAvailableObjectId n + kObjectIdStep * ids.length < kSnapshotObjectIdRange) :
    IdsSorted s ∧ IdsBelowNext s ∧ UniqueIds s := by
  have h0 : IdsSorted (ctor n) := by
    constructor
    · simp [idList, ctor]
    · intro x hx
      simp only [idList, ctor, List.map_cons, List.map_nil, List.mem_singleton] at hx
      subst hx
      have hodd := (Inv_ctor n).next_odd
      simp only [ctor] at hodd
      show dummyEntry.id < kFirstAvailableObjectId n
      have hd : dummyEntry.id = 0 := rfl
      omega
  obtain ⟨_, hsorted⟩ := run_IdsSorted ops (ctor n) s ids (Inv_ctor n) h0 hv hr hb
  exact ⟨hsorted, IdsSorted_below s hsorted, IdsSorted_unique s hsorted⟩

/-! ## Claims on the identity registry -/

/-- C1. `FindOrAddEntry` is idempotent: in every state of a registry, for every
address, size and accessed flag, the call returns, and the same call made
again right after it returns the same id and leaves the state as the first
call left it (entry list, address map and `next_id_`). -/
theorem FindOrAddEntry_idempotent (n : Nat) (s : HeapObjectsMap) (addr size : Nat)
    (accessed : Bool) (h : Reachable n s) :
    ∃ id s1, FindOrAddEntry s addr size accessed = some (id, s1) ∧
      FindOrAddEntry s1 addr size accessed = some (id, s1) := by
  have hinv := Reachable_Inv n s h
  rcases FindOrAddEntry_cases s hinv addr size accessed with
    ⟨v, e, hl, hv0, he, _, heq⟩ | ⟨hl, heq⟩
  · refine ⟨_, _, heq, ?_⟩
    have hlt : v < s.entries_.length := lt_length_of_getElem? he
    have h2 := FindOrAddEntry_tracked
      ⟨s.next_id_, s.entries_map_, s.entries_.set v { e with accessed := accessed, size := size }⟩
      addr size v accessed { e with accessed := accessed, size := size } hl hv0
      (List.getElem?_set_self hlt)
    rw [h2]
    simp [List.set_set]
  · refine ⟨_, _, heq, ?_⟩
    have hlen : 0 < s.entries_.length := lt_length_of_getElem? hinv.head_dummy
    have hl2 : HashMap.Lookup (s.entries_map_ ++ [(addr, s.entries_.length)]) addr
        = some s.entries_.length := by
      rw [HashMap.Lookup_append, hl]
      simp
    have hget : (s.entries_ ++ [(⟨s.next_id_, addr, size, accessed⟩ : EntryInfo)])[s.entries_.length]?
        = some ⟨s.next_id_, addr, size, accessed⟩ := by
      rw [List.getElem?_append_right (Nat.le_refl _)]
      simp
    have h2 := FindOrAddEntry_tracked
      ⟨(s.next_id_ + kObjectIdStep) % kSnapshotObjectIdRange,
        s.entries_map_ ++ [(addr, s.entries_.length)],
        s.entries_ ++ [⟨s.next_id_, addr, size, accessed⟩]⟩
      addr size s.entries_.length accessed ⟨s.next_id_, addr, size, accessed⟩ hl2
      (Nat.pos_iff_ne_zero.mp hlen) hget
    rw [h2]
    have hset := set_getElem?_self _ _ _ hget
    simp only at hset ⊢
    rw [hset]

theorem FindOrAddEntry_idempotent_witness :
    Reachable 0 (ctor 0) ∧
    ∃ id s1, FindOrAddEntry (ctor 0) 8 4 true = some (id, s1) ∧
      FindOrAddEntry s1 8 4 true = some (id, s1) :=
  ⟨Reachable.ctor, FindOrAddEntry_idempotent 0 (ctor 0) 8 4 true Reachable.ctor⟩

/-- C5. Registry consistency is an invariant of every state reachable from the
constructor by `FindOrAddEntry`, `MoveObject` and `RemoveDeadEntries`: every
address bound in the map points to an entry whose `addr` is that address,
distinct bound addresses point to distinct entries, every entry other than the
dummy with a non-null `addr` is bound in the map at that address to its own
index, and so no two entries carry the same non-null address. -/
theorem registry_consistent (n : Nat) (s : HeapObjectsMap) (h : Reachable n s) :
    (∀ addr v, HashMap.Lookup s.entries_map_ addr = some v →
      ∃ e, s.entries_[v]? = some e ∧ e.addr = addr) ∧
    (∀ a1 a2 v1 v2, HashMap.Lookup s.entries_map_ a1 = some v1 →
      HashMap.Lookup s.entries_map_ a2 = some v2 → a1 ≠ a2 → v1 ≠ v2) ∧
    (∀ j e, j ≠ 0 → s.entries_[j]? = some e → e.addr ≠ 0 →
      HashMap.Lookup s.entries_map_ e.addr = some j) ∧
    (∀ j1 j2 e1 e2, j1 ≠ 0 → j2 ≠ 0 → s.entries_[j1]? = some e1 → s.entries_[j2]? = some e2 →
      e1.addr ≠ 0 → e1.addr = e2.addr → j1 = j2) := by
  have hinv := Reachable_Inv n s h
  refine ⟨?_, ?_, hinv.entry_map, ?_⟩
  · intro addr v hl
    obtain ⟨_, _, e, he, ha⟩ := hinv.map_entry addr v hl
    exact ⟨e, he, ha⟩
  · intro a1 a2 v1 v2 h1 h2 hne hv
    subst hv
    exact hne (Inv_addr_unique hinv h1 h2)
  · intro j1 j2 e1 e2 hj1 hj2 he1 he2 ha1 hEq
    have hb1 := hinv.entry_map j1 e1 hj1 he1 ha1
    have hb2 := hinv.entry_map j2 e2 hj2 he2 (by rw [← hEq]; exact ha1)
    rw [hEq, hb2] at hb1
    exact (Option.some.inj hb1).symm

theorem registry_consistent_witness :
    Reachable 0 ⟨9, [(8, 1), (16, 2)], [dummyEntry, ⟨5, 8, 4, true⟩, ⟨7, 16, 4, false⟩]⟩ ∧
    HashMap.Lookup [(8, 1), (16, 2)] 16 = some 2 ∧
    ∀ j e, j ≠ 0 → [dummyEntry, ⟨5, 8, 4, true⟩, ⟨7, 16, 4, false⟩][j]? = some e → e.addr ≠ 0 →
      HashMap.Lookup [(8, 1), (16, 2)] e.addr = some j :=
  ⟨reachable_two, rfl, (registry_consistent 0 _ reachable_two).2.2.1⟩

/-- C9. `FindEntry(addr)` returns, leaves the state as it is, and its result is 0
exactly when `addr` has no binding in the map; when `addr` is bound, the result is
the id of the entry it is bound to (an entry with that address), and in a
reachable state that id is never 0. -/
theorem FindEntry_zero_iff_untracked (n : Nat) (s : HeapObjectsMap) (addr : Nat)
    (h : Reachable n s) :
    ∃ id, FindEntry s addr = some (id, s) ∧
      (id = 0 ↔ HashMap.Lookup s.entries_map_ addr = none) ∧
      (∀ v, HashMap.Lookup s.entries_map_ addr = some v →
        ∃ e, s.entries_[v]? = some e ∧ e.addr = addr ∧ id = e.id ∧ id ≠ 0) := by
  have hinv := Reachable_Inv n s h
  cases hl : HashMap.Lookup s.entries_map_ addr with
  | none =>
    refine ⟨0, by simp [FindEntry, hl], by simp, ?_⟩
    intro v hv
    cases hv
  | some v =>
    obtain ⟨_, hv0, e, he, ha⟩ := hinv.map_entry addr v hl
    have hodd := hinv.ids_odd v e hv0 he
    have hne : e.id ≠ 0 := by
      intro h0
      rw [h0] at hodd
      simp at hodd
    refine ⟨e.id, by simp [FindEntry, hl, he], by simp [hne], ?_⟩
    intro w hw
    cases hw
    exact ⟨e, he, ha, rfl, hne⟩

theorem FindEntry_zero_iff_untracked_witness :
    Reachable 0 ⟨7, [(8, 1)], [dummyEntry, ⟨5, 8, 4, true⟩]⟩ ∧
    ∃ id, FindEntry ⟨7, [(8, 1)], [dummyEntry, ⟨5, 8, 4, true⟩]⟩ 8 =
        some (id, ⟨7, [(8, 1)], [dummyEntry, ⟨5, 8, 4, true⟩]⟩) ∧
      (id = 0 ↔ HashMap.Lookup [(8, 1)] 8 = none) ∧
      (∀ v, HashMap.Lookup [(8, 1)] 8 = some v →
        ∃ e, [dummyEntry, ⟨5, 8, 4, true⟩][v]? = some e ∧ e.addr = 8 ∧ id = e.id ∧ id ≠ 0) :=
  ⟨reachable_one, FindEntry_zero_iff_untracked 0 _ 8 reachable_one⟩

/-- C7. In a reachable state `FindOrAddEntry` on an address that is bound in the
map returns the id of its entry and rewrites only that entry: the size becomes
the size passed in, whatever it was, and the accessed flag the flag passed in
(`true` when the call leaves it out); no entry is added and `next_id_` stays.
`UpdateObjectSize(addr, size)` is that update with the flag `false`. On an
address without binding the id `next_id_` is returned, an entry with it is
appended and bound, and `next_id_` advances by `kObjectIdStep`. -/
theorem FindOrAddEntry_update_or_insert (n : Nat) (s : HeapObjectsMap) (addr size : Nat)
    (isize : Int) (accessed : Bool) (h : Reachable n s) :
    (∀ v e, HashMap.Lookup s.entries_map_ addr = some v → s.entries_[v]? = some e →
      FindOrAddEntry s addr size accessed =
        some (e.id, ⟨s.next_id_, s.entries_map_, s.entries_.set v ⟨e.id, e.addr, size, accessed⟩⟩) ∧
      UpdateObjectSize s addr isize =
        some ⟨s.next_id_, s.entries_map_,
          s.entries_.set v ⟨e.id, e.addr, toUnsigned isize, false⟩⟩ ∧
      (s.entries_.set v ⟨e.id, e.addr, size, accessed⟩).length = s.entries_.length ∧
      (s.entries_.set v ⟨e.id, e.addr, size, accessed⟩)[v]? = some ⟨e.id, e.addr, size, accessed⟩) ∧
    (HashMap.Lookup s.entries_map_ addr = none →
      FindOrAddEntry s addr size accessed =
        some (s.next_id_, ⟨(s.next_id_ + kObjectIdStep) % kSnapshotObjectIdRange,
          s.entries_map_ ++ [(addr, s.entries_.length)],
          s.entries_ ++ [⟨s.next_id_, addr, size, accessed⟩]⟩) ∧
      UpdateObjectSize s addr isize =
        some ⟨(s.next_id_ + kObjectIdStep) % kSnapshotObjectIdRange,
          s.entries_map_ ++ [(addr, s.entries_.length)],
          s.entries_ ++ [⟨s.next_id_, addr, toUnsigned isize, false⟩]⟩) := by
  have hinv := Reachable_Inv n s h
  constructor
  · intro v e hl he
    obtain ⟨_, hv0, _, _, _⟩ := hinv.map_entry addr v hl
    refine ⟨FindOrAddEntry_tracked s addr size v accessed e hl hv0 he, ?_, List.length_set _ _ _,
      List.getElem?_set_self (lt_length_of_getElem? he)⟩
    simp [UpdateObjectSize, FindOrAddEntry_tracked s addr _ v false e hl hv0 he]
  · intro hl
    refine ⟨FindOrAddEntry_untracked s addr size accessed hl, ?_⟩
    simp [UpdateObjectSize, FindOrAddEntry_untracked s addr _ false hl]

theorem FindOrAddEntry_update_or_insert_witness :
    Reachable 0 ⟨7, [(8, 1)], [dummyEntry, ⟨5, 8, 4, true⟩]⟩ ∧
    FindOrAddEntry ⟨7, [(8, 1)], [dummyEntry, ⟨5, 8, 4, true⟩]⟩ 8 12 true =
      some (5, ⟨7, [(8, 1)], [dummyEntry, ⟨5, 8, 12, true⟩]⟩) ∧
    UpdateObjectSize ⟨7, [(8, 1)], [dummyEntry, ⟨5, 8, 4, true⟩]⟩ 8 20 =
      some ⟨7, [(8, 1)], [dummyEntry, ⟨5, 8, 20, false⟩]⟩ :=
  ⟨reachable_one,
   ((FindOrAddEntry_update_or_insert 0 _ 8 12 20 true reachable_one).1 1 ⟨5, 8, 4, true⟩
      rfl rfl).1,
   ((FindOrAddEntry_update_or_insert 0 _ 8 12 20 true reachable_one).1 1 ⟨5, 8, 4, true⟩
      rfl rfl).2.1⟩

theorem GenerateId_even (HashSequentialString : List Nat → Nat → Nat → Nat)
    (ComputeIntegerHash : Nat → Nat) (hashSeed : Nat) (info : RetainedObjectInfo) :
    GenerateId HashSequentialString ComputeIntegerHash hashSeed info % 2 = 0 := by
  simp only [GenerateId, Nat.shiftLeft_eq, kSnapshotObjectIdRange]
  omega

theorem FindOrAddEntry_id_odd (s s1 : HeapObjectsMap) (hinv : Inv s) (addr size id : Nat)
    (accessed : Bool) (hf : FindOrAddEntry s addr size accessed = some (id, s1)) :
    id % 2 = 1 := by
  rcases FindOrAddEntry_cases s hinv addr size accessed with
    ⟨v, e, _, hv0, he, _, heq⟩ | ⟨_, heq⟩
  · rw [heq] at hf
    cases hf
    exact hinv.ids_odd v e hv0 he
  · rw [heq] at hf
    cases hf
    exact hinv.next_odd

/-- C10, as the code has it: every id that `FindOrAddEntry` returns in a
reachable state (an id the registry assigned to an object of the managed heap)
is odd, and every id that `GenerateId` makes for a native object is even. -/
theorem FindOrAddEntry_odd_GenerateId_even (n : Nat) (s s1 : HeapObjectsMap)
    (addr size id : Nat) (accessed : Bool) (h : Reachable n s)
    (hf : FindOrAddEntry s addr size accessed = some (id, s1))
    (HashSequentialString : List Nat → Nat → Nat → Nat) (ComputeIntegerHash : Nat → Nat)
    (hashSeed : Nat) (info : RetainedObjectInfo) :
    id % 2 = 1 ∧ GenerateId HashSequentialString ComputeIntegerHash hashSeed info % 2 = 0 :=
  ⟨FindOrAddEntry_id_odd s s1 (Reachable_Inv n s h) addr size id accessed hf,
   GenerateId_even HashSequentialString ComputeIntegerHash hashSeed info⟩

theorem FindOrAddEntry_odd_GenerateId_even_witness :
    Reachable 0 (ctor 0) ∧
    FindOrAddEntry (ctor 0) 8 4 true = some (5, ⟨7, [(8, 1)], [dummyEntry, ⟨5, 8, 4, true⟩]⟩) ∧
    5 % 2 = 1 ∧
    GenerateId (fun _ _ _ => 0) (fun _ => 0) 0 ⟨3, [], -1⟩ % 2 = 0 :=
  ⟨Reachable.ctor, rfl,
   FindOrAddEntry_odd_GenerateId_even 0 (ctor 0) _ 8 4 5 true Reachable.ctor rfl
     (fun _ _ _ => 0) (fun _ => 0) 0 ⟨3, [], -1⟩⟩

/-- C10 as it is stated fails: the first id that `FindOrAddEntry` assigns in a
fresh registry is 5, which is not even, and `GenerateId` on a native object
with hash 3 (label hash 0, no element count) gives 6, which is not odd. -/
theorem parity_as_stated_fails :
    FindOrAddEntry (ctor 0) 8 4 true = some (5, ⟨7, [(8, 1)], [dummyEntry, ⟨5, 8, 4, true⟩]⟩) ∧
    ¬ (5 % 2 = 0) ∧
    GenerateId (fun _ _ _ => 0) (fun _ => 0) 0 ⟨3, [], -1⟩ = 6 ∧
    ¬ (6 % 2 = 1) :=
  ⟨rfl, by decide, by decide, by decide⟩

/-- The sweep relies on the order of the calls, whatever the number of sync tags. When
`MoveObject(8, 16, 4)` of an untracked object comes between `FindOrAddEntry(16, 4)`, which
marks a new entry accessed on a fresh registry, and the sweep, it takes the address of the
entry away (binding removed, `addr` null, flag still set); an entry that is marked accessed
then has no binding in the map, and `RemoveDeadEntries` does not return: it writes through
the null result of `Lookup`. -/
theorem RemoveDeadEntries_fails_after_untracked_move (n : Nat) :
    FindOrAddEntry (ctor n) 16 4 true =
      some (kFirstAvailableObjectId n,
        ⟨(kFirstAvailableObjectId n + 2) % 4294967296, [(16, 1)],
          [dummyEntry, ⟨kFirstAvailableObjectId n, 16, 4, true⟩]⟩) ∧
    MoveObject ⟨(kFirstAvailableObjectId n + 2) % 4294967296, [(16, 1)],
        [dummyEntry, ⟨kFirstAvailableObjectId n, 16, 4, true⟩]⟩ 8 16 4 =
      some (false, ⟨(kFirstAvailableObjectId n + 2) % 4294967296, [],
        [dummyEntry, ⟨kFirstAvailableObjectId n, 0, 4, true⟩]⟩) ∧
    Reachable n ⟨(kFirstAvailableObjectId n + 2) % 4294967296, [],
      [dummyEntry, ⟨kFirstAvailableObjectId n, 0, 4, true⟩]⟩ ∧
    HashMap.Lookup [] (EntryInfo.addr ⟨kFirstAvailableObjectId n, 0, 4, true⟩) = none ∧
    RemoveDeadEntries ⟨(kFirstAvailableObjectId n + 2) % 4294967296, [],
      [dummyEntry, ⟨kFirstAvailableObjectId n, 0, 4, true⟩]⟩ = none :=
  ⟨rfl, rfl,
   @Reachable.move n _ _ 8 16 4 false
     (@Reachable.findOrAdd n (ctor n) _ 16 4 (kFirstAvailableObjectId n) true Reachable.ctor
       (by decide) rfl)
     (by decide) (by decide) rfl,
   rfl, rfl⟩

/-- The sweep relies on the order of the calls, whatever the number of sync tags. When
`MoveObject(8, 16, 4)` comes between `FindOrAddEntry(8, 4)` and `FindOrAddEntry(16, 4)`,
which mark two entries accessed on a fresh registry, and the sweep, it moves the first
entry onto the address of the second; both entries are then marked accessed and the second
has a null `addr`, and `RemoveDeadEntries` does not return. -/
theorem RemoveDeadEntries_fails_after_collision (n : Nat) :
    run (ctor n) [Op.findOrAdd 8 4 true, Op.findOrAdd 16 4 true, Op.move 8 16 4] =
      some (⟨((kFirstAvailableObjectId n + 2) % 4294967296 + 2) % 4294967296, [(16, 1)],
        [dummyEntry, ⟨kFirstAvailableObjectId n, 16, 4, true⟩,
          ⟨(kFirstAvailableObjectId n + 2) % 4294967296, 0, 4, true⟩]⟩,
        [kFirstAvailableObjectId n, (kFirstAvailableObjectId n + 2) % 4294967296]) ∧
    Reachable n ⟨((kFirstAvailableObjectId n + 2) % 4294967296 + 2) % 4294967296, [(16, 1)],
      [dummyEntry, ⟨kFirstAvailableObjectId n, 16, 4, true⟩,
        ⟨(kFirstAvailableObjectId n + 2) % 4294967296, 0, 4, true⟩]⟩ ∧
    RemoveDeadEntries ⟨((kFirstAvailableObjectId n + 2) % 4294967296 + 2) % 4294967296,
      [(16, 1)],
      [dummyEntry, ⟨kFirstAvailableObjectId n, 16, 4, true⟩,
        ⟨(kFirstAvailableObjectId n + 2) % 4294967296, 0, 4, true⟩]⟩ = none :=
  ⟨rfl,
   run_Reachable n [Op.findOrAdd 8 4 true, Op.findOrAdd 16 4 true, Op.move 8 16 4] (ctor n) _
     [kFirstAvailableObjectId n, (kFirstAvailableObjectId n + 2) % 4294967296]
     Reachable.ctor (by simp [Op.valid]) rfl,
   rfl⟩

/-- C3, as the code has it: along every sequence of `FindOrAddEntry`,
`MoveObject` and `RemoveDeadEntries` calls on a fresh registry, as long as the
32-bit counter `next_id_` has not wrapped before the last allocation (the
number of ids allocated times `kObjectIdStep`, added to
`kFirstAvailableObjectId`, is at most `2 ^ 32 + 1`), each newly allocated id is
strictly greater than every id allocated before it, none is below
`kFirstAvailableObjectId`, and so no id is handed out twice. -/
theorem allocated_ids_increasing_until_wrap (n : Nat) (ops : List Op) (s : HeapObjectsMap)
    (ids : List Nat) (hr : run (ctor n) ops = some (s, ids))
    (hb : kFirstAvailableObjectId n + kObjectIdStep * ids.length ≤ kSnapshotObjectIdRange + 1) :
    ids.Pairwise (· < ·) ∧ (∀ x ∈ ids, kFirstAvailableObjectId n ≤ x) ∧ ids.Nodup := by
  obtain ⟨h1, h2⟩ := run_ids_increasing ops (ctor n) s ids hr hb
  exact ⟨h1, h2, h1.imp (fun h => Nat.ne_of_lt h)⟩

theorem allocated_ids_increasing_until_wrap_witness :
    run (ctor 0) [Op.findOrAdd 8 4 true, Op.findOrAdd 16 4 false, Op.sweep,
        Op.move 8 24 4, Op.findOrAdd 8 4 true] =
      some (⟨11, [(24, 1), (8, 2)], [dummyEntry, ⟨5, 24, 4, false⟩, ⟨9, 8, 4, true⟩]⟩, [5, 7, 9]) ∧
    [5, 7, 9].Pairwise (· < ·) ∧ (∀ x ∈ [5, 7, 9], kFirstAvailableObjectId 0 ≤ x) ∧
      [5, 7, 9].Nodup :=
  ⟨rfl, allocated_ids_increasing_until_wrap 0
    [Op.findOrAdd 8 4 true, Op.findOrAdd 16 4 false, Op.sweep, Op.move 8 24 4,
      Op.findOrAdd 8 4 true]
    ⟨11, [(24, 1), (8, 2)], [dummyEntry, ⟨5, 24, 4, false⟩, ⟨9, 8, 4, true⟩]⟩ [5, 7, 9] rfl
    (by decide)⟩

/-- C3 as it is stated fails: after `2 ^ 31 - 3` rounds of `UpdateObjectSize(16, 0)` and
`RemoveDeadEntries()` on a fresh registry the counter is at `2 ^ 32 - 1`; the next
two calls of `FindOrAddEntry` on new addresses allocate 4294967295 and then 1,
so the later id is not greater than the earlier one. -/
theorem allocated_ids_wrap :
    ∃ s ids, run (ctor 0)
        (sweepRounds 2147483645 ++ [Op.findOrAdd 16 0 true, Op.findOrAdd 24 0 true]) =
      some (s, ids ++ [4294967295, 1]) ∧
      ¬ (ids ++ [4294967295, 1]).Pairwise (· < ·) := by
  obtain ⟨ids, hids⟩ := run_sweepRounds 2147483645 5
  have harith : (if 2147483645 = 0 then 5 else (5 + 2 * 2147483645) % 4294967296)
      = 4294967295 := by norm_num
  rw [harith] at hids
  have hlast : run (emptiedState 4294967295) [Op.findOrAdd 16 0 true, Op.findOrAdd 24 0 true] =
      some (⟨3, [(16, 1), (24, 2)],
        [dummyEntry, ⟨4294967295, 16, 0, true⟩, ⟨1, 24, 0, true⟩]⟩, [4294967295, 1]) := rfl
  refine ⟨⟨3, [(16, 1), (24, 2)],
    [dummyEntry, ⟨4294967295, 16, 0, true⟩, ⟨1, 24, 0, true⟩]⟩, ids, ?_, ?_⟩
  · rw [run_append]
    have hc : ctor 0 = emptiedState 5 := rfl
    rw [hc, hids]
    simp only [hlast]
  · intro hp
    have h2 := (List.pairwise_append.mp hp).2.1
    simp at h2

/-- C2, as the code has it: in every reachable state in which the address `a` is
tracked with the id `i` and every recorded id is below `next_id_` (the counter
has not wrapped), for every address `b` other than `a`, `MoveObject(a, b, size)`
returns true; after it `FindOrAddEntry(b, ..)` returns `i`, and
`FindOrAddEntry(a, ..)`, right after the move or after that call, inserts an
entry with the id `next_id_`, which differs from `i`. -/
theorem move_keeps_id_until_wrap (n : Nat) (s : HeapObjectsMap) (a b i sz : Nat) (size : Int)
    (accessed : Bool) (h : Reachable n s) (hab : a ≠ b) (ht : Tracked s a i)
    (hw : IdsBelowNext s) :
    ∃ s1, MoveObject s a b size = some (true, s1) ∧
      (∃ s2, FindOrAddEntry s1 b sz accessed = some (i, s2) ∧
        ∃ s3, FindOrAddEntry s2 a sz accessed = some (s.next_id_, s3) ∧
          s3.entries_.length = s2.entries_.length + 1) ∧
      (∃ s3, FindOrAddEntry s1 a sz accessed = some (s.next_id_, s3) ∧
        s3.entries_.length = s1.entries_.length + 1) ∧
      s.next_id_ ≠ i := by
  have hinv := Reachable_Inv n s h
  have hlt : i < s.next_id_ := by
    obtain ⟨v, e, _, he, hid⟩ := ht
    rw [← hid]
    exact hw v e he
  obtain ⟨s1, fv, e, hm, hnext, hfv, _, hlb, he, hid, hla⟩ :=
    MoveObject_tracked s hinv a b i size hab ht
  subst hid
  refine ⟨s1, hm, ?_, ?_, Nat.ne_of_gt hlt⟩
  · have h1 := FindOrAddEntry_tracked s1 b sz fv accessed e hlb hfv he
    refine ⟨_, h1, ?_⟩
    have h2 := FindOrAddEntry_untracked
      ⟨s1.next_id_, s1.entries_map_, s1.entries_.set fv { e with accessed := accessed, size := sz }⟩
      a sz accessed hla
    rw [← hnext]
    exact ⟨_, h2, by simp⟩
  · have h2 := FindOrAddEntry_untracked s1 a sz accessed hla
    rw [← hnext]
    exact ⟨_, h2, by simp⟩

theorem move_keeps_id_until_wrap_witness :
    Reachable 0 ⟨7, [(8, 1)], [dummyEntry, ⟨5, 8, 4, true⟩]⟩ ∧
    Tracked ⟨7, [(8, 1)], [dummyEntry, ⟨5, 8, 4, true⟩]⟩ 8 5 ∧
    IdsBelowNext ⟨7, [(8, 1)], [dummyEntry, ⟨5, 8, 4, true⟩]⟩ ∧
    ∃ s1, MoveObject ⟨7, [(8, 1)], [dummyEntry, ⟨5, 8, 4, true⟩]⟩ 8 24 4 = some (true, s1) ∧
      (∃ s2, FindOrAddEntry s1 24 4 true = some (5, s2) ∧
        ∃ s3, FindOrAddEntry s2 8 4 true = some (7, s3) ∧
          s3.entries_.length = s2.entries_.length + 1) ∧
      (∃ s3, FindOrAddEntry s1 8 4 true = some (7, s3) ∧
        s3.entries_.length = s1.entries_.length + 1) ∧
      7 ≠ 5 :=
  ⟨reachable_one, ⟨1, ⟨5, 8, 4, true⟩, rfl, rfl, rfl⟩, idsBelowNext_one,
   move_keeps_id_until_wrap 0 ⟨7, [(8, 1)], [dummyEntry, ⟨5, 8, 4, true⟩]⟩ 8 24 5 4 4 true
     reachable_one (by decide) ⟨1, ⟨5, 8, 4, true⟩, rfl, rfl, rfl⟩ idsBelowNext_one⟩

/-- C2 as it is stated fails: in the state reached when the counter has wrapped
back to 5, the address 8 is tracked with the id 5; after `MoveObject(8, 24, 0)`
the call `FindOrAddEntry(8, 0)` allocates the id 5 again, the id of the moved
object. -/
theorem move_then_find_after_wrap :
    Reachable 0 (oneTrackedState 5 5) ∧
    Tracked (oneTrackedState 5 5) 8 5 ∧
    MoveObject (oneTrackedState 5 5) 8 24 0 =
      some (true, ⟨5, [(24, 1)], [dummyEntry, ⟨5, 24, 0, false⟩]⟩) ∧
    FindOrAddEntry ⟨5, [(24, 1)], [dummyEntry, ⟨5, 24, 0, false⟩]⟩ 24 0 true =
      some (5, ⟨5, [(24, 1)], [dummyEntry, ⟨5, 24, 0, true⟩]⟩) ∧
    FindOrAddEntry ⟨5, [(24, 1)], [dummyEntry, ⟨5, 24, 0, false⟩]⟩ 8 0 true =
      some (5, ⟨7, [(24, 1), (8, 2)], [dummyEntry, ⟨5, 24, 0, false⟩, ⟨5, 8, 0, true⟩]⟩) :=
  ⟨reachable_oneTracked_wrapped 0, ⟨1, ⟨5, 8, 0, false⟩, rfl, rfl, rfl⟩, rfl, rfl, rfl⟩

/-- C8, as the code has it: in every reachable state in which `from` is not
tracked, `to` (other than `from`) is tracked with the id `i` and no two entries
carry the same id (as it is until the counter wraps), `MoveObject(from, to, size)`
returns false and removes the binding of `to`: after it `FindEntry(to)` returns 0,
`FindEntry` returns `i` at no address, `next_id_` is as before, and `FindEntry`
returns at every other address what it returned before. -/
theorem move_untracked_drops_target (n : Nat) (s : HeapObjectsMap) (from_ to_ i : Nat)
    (size : Int) (h : Reachable n s) (hne : from_ ≠ to_)
    (hf : HashMap.Lookup s.entries_map_ from_ = none) (ht : Tracked s to_ i)
    (hu : UniqueIds s) :
    ∃ s1, MoveObject s from_ to_ size = some (false, s1) ∧
      FindEntry s1 to_ = some (0, s1) ∧
      (∀ addr, FindEntry s1 addr ≠ some (i, s1)) ∧
      s1.next_id_ = s.next_id_ ∧
      (∀ addr j, addr ≠ to_ → FindEntry s addr = some (j, s) →
        FindEntry s1 addr = some (j, s1)) := by
  have hinv := Reachable_Inv n s h
  obtain ⟨tv, et, htl, het, hid⟩ := ht
  obtain ⟨_, htv, _, _, _⟩ := hinv.map_entry to_ tv htl
  have hi0 : i ≠ 0 := by
    have hodd := hinv.ids_odd tv et htv het
    rw [hid] at hodd
    intro h0
    rw [h0] at hodd
    simp at hodd
  have heq := MoveObject_untracked_tracked s from_ to_ tv size et hne hf htl htv het
  have hlook : ∀ addr, HashMap.Lookup
      (s.entries_map_.filter (fun kv => decide (kv.1 ≠ to_))) addr =
      if addr = to_ then none else HashMap.Lookup s.entries_map_ addr :=
    fun addr => HashMap.Lookup_filter s.entries_map_ to_ addr
  have hother : ∀ addr, addr ≠ to_ →
      FindEntry ⟨s.next_id_, s.entries_map_.filter (fun kv => decide (kv.1 ≠ to_)),
          s.entries_.set tv { et with addr := 0 }⟩ addr =
        (FindEntry s addr).map (fun r =>
          (r.1, ⟨s.next_id_, s.entries_map_.filter (fun kv => decide (kv.1 ≠ to_)),
            s.entries_.set tv { et with addr := 0 }⟩)) ∧
      (∀ w, HashMap.Lookup s.entries_map_ addr = some w → w ≠ tv) := by
    intro addr hat
    have hw : ∀ w, HashMap.Lookup s.entries_map_ addr = some w → w ≠ tv := by
      intro w hl hEq
      subst hEq
      exact hat (Inv_addr_unique hinv hl htl)
    refine ⟨?_, hw⟩
    have hl1 := hlook addr
    rw [if_neg hat] at hl1
    cases hl : HashMap.Lookup s.entries_map_ addr with
    | none =>
      rw [hl] at hl1
      simp only [ne_eq, decide_not] at hl1
      simp [FindEntry, hl, hl1]
    | some w =>
      rw [hl] at hl1
      simp only [ne_eq, decide_not] at hl1
      obtain ⟨_, _, e3, he3, _⟩ := hinv.map_entry addr w hl
      have hne3 : tv ≠ w := fun hEq => hw w hl hEq.symm
      have hget : (s.entries_.set tv { et with addr := 0 })[w]? = some e3 := by
        rw [List.getElem?_set_ne hne3]
        exact he3
      simp [FindEntry, hl, hl1, he3, hget]
  have hto : FindEntry ⟨s.next_id_, s.entries_map_.filter (fun kv => decide (kv.1 ≠ to_)),
      s.entries_.set tv { et with addr := 0 }⟩ to_ =
      some (0, ⟨s.next_id_, s.entries_map_.filter (fun kv => decide (kv.1 ≠ to_)),
        s.entries_.set tv { et with addr := 0 }⟩) := by
    have hl1 := hlook to_
    rw [if_pos rfl] at hl1
    simp only [ne_eq, decide_not] at hl1
    simp [FindEntry, hl1]
  refine ⟨_, heq, hto, ?_, rfl, ?_⟩
  · intro addr hfind
    by_cases hat : addr = to_
    · subst hat
      rw [hto] at hfind
      simp only [Option.some.injEq, Prod.mk.injEq, and_true] at hfind
      exact hi0 hfind.symm
    · obtain ⟨hmap, hw⟩ := hother addr hat
      rw [hmap] at hfind
      cases hl : HashMap.Lookup s.entries_map_ addr with
      | none =>
        simp [FindEntry, hl] at hfind
        exact hi0 hfind.symm
      | some w =>
        obtain ⟨_, _, e3, he3, _⟩ := hinv.map_entry addr w hl
        simp [FindEntry, hl, he3] at hfind
        have hid3 : e3.id = et.id := by rw [hfind, hid]
        exact hw w hl (hu w tv e3 et he3 het hid3)
  · intro addr j hat hfind
    obtain ⟨hmap, _⟩ := hother addr hat
    rw [hmap, hfind]
    rfl

theorem move_untracked_drops_target_witness :
    Reachable 0 ⟨9, [(8, 1), (16, 2)], [dummyEntry, ⟨5, 8, 4, true⟩, ⟨7, 16, 4, false⟩]⟩ ∧
    ∃ s1, MoveObject ⟨9, [(8, 1), (16, 2)],
        [dummyEntry, ⟨5, 8, 4, true⟩, ⟨7, 16, 4, false⟩]⟩ 24 16 4 = some (false, s1) ∧
      FindEntry s1 16 = some (0, s1) ∧
      (∀ addr, FindEntry s1 addr ≠ some (7, s1)) ∧
      s1.next_id_ = 9 ∧
      (∀ addr j, addr ≠ 16 →
        FindEntry ⟨9, [(8, 1), (16, 2)],
          [dummyEntry, ⟨5, 8, 4, true⟩, ⟨7, 16, 4, false⟩]⟩ addr =
          some (j, ⟨9, [(8, 1), (16, 2)],
            [dummyEntry, ⟨5, 8, 4, true⟩, ⟨7, 16, 4, false⟩]⟩) →
        FindEntry s1 addr = some (j, s1)) :=
  ⟨reachable_two,
   move_untracked_drops_target 0 _ 24 16 7 4 reachable_two (by decide) rfl
     ⟨2, ⟨7, 16, 4, false⟩, rfl, rfl, rfl⟩ uniqueIds_two⟩

/-- C8 as it is stated fails: once the counter has wrapped back to 5, the
addresses 8 and 16 are both tracked with the id 5; `MoveObject(24, 16, 0)` of the
untracked address 24 removes the binding of 16, and `FindEntry(8)` still
returns 5, so an address still maps to the id of the dropped entry. -/
theorem move_untracked_after_wrap :
    Reachable 0 ⟨7, [(8, 1), (16, 2)], [dummyEntry, ⟨5, 8, 0, false⟩, ⟨5, 16, 0, true⟩]⟩ ∧
    HashMap.Lookup [(8, 1), (16, 2)] 24 = none ∧
    Tracked ⟨7, [(8, 1), (16, 2)], [dummyEntry, ⟨5, 8, 0, false⟩, ⟨5, 16, 0, true⟩]⟩ 16 5 ∧
    MoveObject ⟨7, [(8, 1), (16, 2)],
        [dummyEntry, ⟨5, 8, 0, false⟩, ⟨5, 16, 0, true⟩]⟩ 24 16 0 =
      some (false, ⟨7, [(8, 1)], [dummyEntry, ⟨5, 8, 0, false⟩, ⟨5, 0, 0, true⟩]⟩) ∧
    FindEntry ⟨7, [(8, 1)], [dummyEntry, ⟨5, 8, 0, false⟩, ⟨5, 0, 0, true⟩]⟩ 8 =
      some (5, ⟨7, [(8, 1)], [dummyEntry, ⟨5, 8, 0, false⟩, ⟨5, 0, 0, true⟩]⟩) :=
  ⟨@Reachable.findOrAdd 0 (oneTrackedState 5 5) _ 16 0 5 true (reachable_oneTracked_wrapped 0)
     (by decide) rfl,
   rfl, ⟨2, ⟨5, 16, 0, true⟩, rfl, rfl, rfl⟩, rfl, rfl⟩

/-! ## Adding nodes and edges -/

theorem SetNamedReference_AddsEdge (s : HeapSnapshot) (self entry : Nat)
    (type : HeapGraphEdgeType) (name : String)
    (hself : self < s.entries_.length) (hentry : entry < s.entries_.length) :
    ∃ s1, HeapEntry.SetNamedReference s self type name entry = some s1 ∧
      AddsEdge s s1 ⟨type, self, EdgeTarget.to_index_ entry, EdgeLabel.name_ name⟩ := by
  have h1 : s.entries_[self]? = some s.entries_[self] := List.getElem?_eq_getElem hself
  have h2 : s.entries_[entry]? = some s.entries_[entry] := List.getElem?_eq_getElem hentry
  refine ⟨_, ?_, s.entries_[self], h1, rfl⟩
  simp only [HeapEntry.SetNamedReference, h1, h2]

theorem SetIndexedReference_AddsEdge (s : HeapSnapshot) (self entry : Nat)
    (type : HeapGraphEdgeType) (index : Int)
    (hself : self < s.entries_.length) (hentry : entry < s.entries_.length) :
    ∃ s1, HeapEntry.SetIndexedReference s self type index entry = some s1 ∧
      AddsEdge s s1 ⟨type, self, EdgeTarget.to_index_ entry, EdgeLabel.index_ index⟩ := by
  have h1 : s.entries_[self]? = some s.entries_[self] := List.getElem?_eq_getElem hself
  have h2 : s.entries_[entry]? = some s.entries_[entry] := List.getElem?_eq_getElem hentry
  refine ⟨_, ?_, s.entries_[self], h1, rfl⟩
  simp only [HeapEntry.SetIndexedReference, h1, h2]

theorem SetNamedReference_some (s s1 : HeapSnapshot) (self entry : Nat)
    (type : HeapGraphEdgeType) (name : String)
    (h : HeapEntry.SetNamedReference s self type name entry = some s1) :
    self < s.entries_.length ∧ entry < s.entries_.length := by
  simp only [HeapEntry.SetNamedReference] at h
  cases h1 : s.entries_[self]? with
  | none => simp [h1] at h
  | some e =>
    cases h2 : s.entries_[entry]? with
    | none => simp [h1, h2] at h
    | some e2 => exact ⟨lt_length_of_getElem? h1, lt_length_of_getElem? h2⟩

theorem SetIndexedReference_some (s s1 : HeapSnapshot) (self entry : Nat)
    (type : HeapGraphEdgeType) (index : Int)
    (h : HeapEntry.SetIndexedReference s self type index entry = some s1) :
    self < s.entries_.length ∧ entry < s.entries_.length := by
  simp only [HeapEntry.SetIndexedReference] at h
  cases h1 : s.entries_[self]? with
  | none => simp [h1] at h
  | some e =>
    cases h2 : s.entries_[entry]? with
    | none => simp [h1, h2] at h
    | some e2 => exact ⟨lt_length_of_getElem? h1, lt_length_of_getElem? h2⟩

theorem AddsEdge_frame (s s1 : HeapSnapshot) (edge : HeapGraphEdge) (h : AddsEdge s s1 edge) :
    s1.edges_ = s.edges_ ++ [edge] ∧
    s1.entries_.length = s.entries_.length ∧
    (∃ e, s.entries_[edge.from_index]? = some e ∧
      s1.entries_[edge.from_index]? = some { e with children_count_ := e.children_count_ + 1 }) ∧
    (∀ i, i ≠ edge.from_index → s1.entries_[i]? = s.entries_[i]?) ∧
    s1.children_ = s.children_ ∧ s1.sorted_entries_ = s.sorted_entries_ ∧
    s1.root_index_ = s.root_index_ ∧ s1.gc_roots_index_ = s.gc_roots_index_ ∧
    s1.gc_subroot_indexes_ = s.gc_subroot_indexes_ := by
  obtain ⟨e, he, rfl⟩ := h
  refine ⟨rfl, by simp, ⟨e, he, ?_⟩, ?_, rfl, rfl, rfl, rfl, rfl⟩
  · simp only
    rw [List.getElem?_set_self (lt_length_of_getElem? he)]
  · intro i hi
    simp only
    rw [List.getElem?_set_ne (Ne.symm hi)]

/-! ## What the built stores keep -/

theorem edgesFrom_append (edges : List HeapGraphEdge) (edge : HeapGraphEdge) (i : Nat) :
    edgesFrom (edges ++ [edge]) i =
      edgesFrom edges i ++ (if edge.from_index = i then [edges.length] else []) := by
  simp only [edgesFrom, List.length_append, List.length_singleton, List.range_succ,
    List.filter_append]
  congr 1
  · apply List.filter_congr
    intro k hk
    rw [List.getElem?_append_left (List.mem_range.mp hk)]
  · by_cases h : edge.from_index = i
    · simp [h]
    · simp [h]

theorem edgesFrom_nil (i : Nat) : edgesFrom [] i = [] := rfl

theorem edgesFrom_lt (edges : List HeapGraphEdge) (i k : Nat) (h : k ∈ edgesFrom edges i) :
    ∃ edge, edges[k]? = some edge ∧ edge.from_index = i := by
  simp only [edgesFrom, List.mem_filter, List.mem_range, decide_eq_true_eq] at h
  obtain ⟨hk, hf⟩ := h
  rw [List.getElem?_eq_getElem hk] at hf
  exact ⟨edges[k], List.getElem?_eq_getElem hk, by simpa using hf⟩

theorem mem_edgesFrom (edges : List HeapGraphEdge) (i k : Nat) (edge : HeapGraphEdge)
    (h : edges[k]? = some edge) (hf : edge.from_index = i) : k ∈ edgesFrom edges i := by
  simp only [edgesFrom, List.mem_filter, List.mem_range, decide_eq_true_eq]
  exact ⟨lt_length_of_getElem? h, by simp [h, hf]⟩

theorem edgesFrom_eq_nil (edges : List HeapGraphEdge) (i : Nat)
    (h : ∀ (k : Nat) (edge : HeapGraphEdge), edges[k]? = some edge → edge.from_index ≠ i) :
    edgesFrom edges i = [] := by
  apply List.eq_nil_iff_forall_not_mem.mpr
  intro k hk
  obtain ⟨edge, he, hf⟩ := edgesFrom_lt edges i k hk
  exact h k edge he hf

theorem sum_map_set_succ (es : List HeapEntry) (i : Nat) (e : HeapEntry)
    (h : es[i]? = some e) :
    ((es.set i { e with children_count_ := e.children_count_ + 1 }).map
      HeapEntry.children_count_).sum = (es.map HeapEntry.children_count_).sum + 1 := by
  induction es generalizing i with
  | nil => simp at h
  | cons x xs ih =>
    cases i with
    | zero =>
      simp only [List.getElem?_cons_zero, Option.some.injEq] at h
      subst h
      simp only [List.set_cons_zero, List.map_cons, List.sum_cons]
      omega
    | succ i =>
      simp only [List.getElem?_cons_succ] at h
      simp only [List.set_cons_succ, List.map_cons, List.sum_cons, ih i h]
      omega

theorem StoreInv_ctor (n : Nat) : StoreInv (HeapSnapshot.ctor n) := by
  refine ⟨?_, ?_, rfl, rfl⟩
  · intro k edge h
    simp [HeapSnapshot.ctor] at h
  · intro i e h
    simp [HeapSnapshot.ctor] at h

theorem StoreInv_append (s s1 : HeapSnapshot) (e0 : HeapEntry) (h : StoreInv s)
    (hentries : s1.entries_ = s.entries_ ++ [e0]) (h0 : e0.children_count_ = 0)
    (hedges : s1.edges_ = s.edges_) (hchildren : s1.children_ = s.children_) :
    StoreInv s1 := by
  refine ⟨?_, ?_, ?_, ?_⟩
  · intro k edge hk
    rw [hedges] at hk
    obtain ⟨h1, j, h2, h3⟩ := h.edges_in k edge hk
    rw [hentries, List.length_append, List.length_singleton]
    exact ⟨by omega, j, h2, by omega⟩
  · intro i e hi
    rw [hedges]
    rw [hentries] at hi
    by_cases hlt : i < s.entries_.length
    · rw [List.getElem?_append_left hlt] at hi
      exact h.counts i e hi
    · rw [List.getElem?_append_right (by omega)] at hi
      have hi0 : i - s.entries_.length = 0 := by
        by_contra hne
        have : ([e0] : List HeapEntry)[i - s.entries_.length]? = none :=
          List.getElem?_eq_none (by simp; omega)
        rw [this] at hi
        exact Option.noConfusion hi
      rw [hi0] at hi
      simp only [List.getElem?_cons_zero, Option.some.injEq] at hi
      subst hi
      rw [h0, edgesFrom_eq_nil]
      · rfl
      · intro k edge hk hf
        have := (h.edges_in k edge hk).1
        omega
  · rw [hentries, hedges, List.map_append, List.sum_append, h.total]
    simp [h0]
  · rw [hchildren, h.children_empty]

theorem StoreInv_AddEntry (s : HeapSnapshot) (h : StoreInv s) (type : HeapEntryType)
    (name : String) (id size trace_node_id : Nat) :
    StoreInv (s.AddEntry type name id size trace_node_id).2 :=
  StoreInv_append s _ ⟨type, 0, -1, size, name, id, trace_node_id⟩ h rfl rfl rfl rfl

theorem StoreInv_AddsEdge (s s1 : HeapSnapshot) (edge : HeapGraphEdge) (h : StoreInv s)
    (hadd : AddsEdge s s1 edge)
    (hto : ∃ j, edge.to_ = EdgeTarget.to_index_ j ∧ j < s.entries_.length) : StoreInv s1 := by
  obtain ⟨e, he, rfl⟩ := hadd
  have hlt := lt_length_of_getElem? he
  refine ⟨?_, ?_, ?_, ?_⟩
  · intro k edge2 hk
    simp only [List.length_set]
    simp only at hk
    by_cases hkl : k < s.edges_.length
    · rw [List.getElem?_append_left hkl] at hk
      exact h.edges_in k edge2 hk
    · rw [List.getElem?_append_right (by omega)] at hk
      have hk0 : k - s.edges_.length = 0 := by
        by_contra hne
        have : ([edge] : List HeapGraphEdge)[k - s.edges_.length]? = none :=
          List.getElem?_eq_none (by simp; omega)
        rw [this] at hk
        exact Option.noConfusion hk
      rw [hk0] at hk
      simp only [List.getElem?_cons_zero, Option.some.injEq] at hk
      subst hk
      exact ⟨hlt, hto⟩
  · intro i e2 hi
    simp only at hi ⊢
    rw [edgesFrom_append]
    by_cases hif : edge.from_index = i
    · subst hif
      rw [List.getElem?_set_self hlt] at hi
      simp only [Option.some.injEq] at hi
      subst hi
      simp [h.counts _ e he]
    · rw [List.getElem?_set_ne hif] at hi
      simp [hif, h.counts i e2 hi]
  · simp only [List.length_append, List.length_singleton]
    rw [sum_map_set_succ _ _ _ he, h.total]
  · exact h.children_empty

theorem Built_StoreInv (s : HeapSnapshot) (h : Built s) : StoreInv s := by
  induction h with
  | ctor n => exact StoreInv_ctor n
  | addEntry type name id size trace_node_id _ ih => exact StoreInv_AddEntry _ ih _ _ _ _ _
  | addRootEntry _ ih =>
    exact StoreInv_append _ _ ⟨HeapEntryType.kSynthetic, 0, -1, 0, "", kInternalRootObjectId, 0⟩
      ih rfl rfl rfl rfl
  | addGcRootsEntry _ ih =>
    exact StoreInv_append _ _
      ⟨HeapEntryType.kSynthetic, 0, -1, 0, "(GC roots)", kGcRootsObjectId, 0⟩ ih rfl rfl rfl rfl
  | addGcSubrootEntry kTagNames tag id _ ih =>
    exact StoreInv_append _ _ ⟨HeapEntryType.kSynthetic, 0, -1, 0, kTagNames tag, id, 0⟩
      ih rfl rfl rfl rfl
  | setNamedReference self type name entry _ hs ih =>
    obtain ⟨h1, h2⟩ := SetNamedReference_some _ _ _ _ _ _ hs
    obtain ⟨s2, hs2, hadd⟩ := SetNamedReference_AddsEdge _ self entry type name h1 h2
    rw [hs] at hs2
    cases hs2
    exact StoreInv_AddsEdge _ _ _ ih hadd ⟨entry, rfl, h2⟩
  | setIndexedReference self type index entry _ hs ih =>
    obtain ⟨h1, h2⟩ := SetIndexedReference_some _ _ _ _ _ _ hs
    obtain ⟨s2, hs2, hadd⟩ := SetIndexedReference_AddsEdge _ self entry type index h1 h2
    rw [hs] at hs2
    cases hs2
    exact StoreInv_AddsEdge _ _ _ ih hadd ⟨entry, rfl, h2⟩

/-! ## The Filler -/

theorem Lookup_Pair (m : HashMap) (thing entry thing2 : Nat) :
    HashMap.Lookup (HeapEntriesMap.Pair m thing entry) thing2 =
      if thing2 = thing then some entry else HashMap.Lookup m thing2 := by
  unfold HeapEntriesMap.Pair
  simp only [HashMap.Lookup_SetValue, HashMap.Lookup_LookupOrInsert]
  by_cases h : thing2 = thing
  · simp [h]
  · simp [h]

theorem FindEntry_eq_Lookup (f : SnapshotFiller) (ptr : Nat) :
    f.FindEntry ptr = HashMap.Lookup f.entries_ ptr := by
  unfold SnapshotFiller.FindEntry HeapEntriesMap.Map
  cases h : HashMap.Lookup f.entries_ ptr with
  | none => simp [kNoEntry]
  | some v =>
    have hv : (v : Int) ≠ kNoEntry := by
      simp only [kNoEntry]
      omega
    simp [hv]

theorem Filler_SetIndexedReference_some (f f1 : SnapshotFiller) (type : HeapGraphEdgeType)
    (parent child_entry : Nat) (index : Int)
    (h : f.SetIndexedReference type parent index child_entry = some f1) :
    child_entry < f.snapshot_.entries_.length ∧ f1.entries_ = f.entries_ ∧
    AddsEdge f.snapshot_ f1.snapshot_
      ⟨type, parent, EdgeTarget.to_index_ child_entry, EdgeLabel.index_ index⟩ := by
  unfold SnapshotFiller.SetIndexedReference at h
  cases hs : HeapEntry.SetIndexedReference f.snapshot_ parent type index child_entry with
  | none => simp [hs] at h
  | some s =>
    simp only [hs, Option.some.injEq] at h
    subst h
    obtain ⟨h1, h2⟩ := SetIndexedReference_some _ _ _ _ _ _ hs
    obtain ⟨s2, hs2, hadd⟩ := SetIndexedReference_AddsEdge _ parent child_entry type index h1 h2
    rw [hs] at hs2
    cases hs2
    exact ⟨h2, rfl, hadd⟩

theorem Filler_SetNamedReference_some (f f1 : SnapshotFiller) (type : HeapGraphEdgeType)
    (parent child_entry : Nat) (name : String)
    (h : f.SetNamedReference type parent name child_entry = some f1) :
    child_entry < f.snapshot_.entries_.length ∧ f1.entries_ = f.entries_ ∧
    AddsEdge f.snapshot_ f1.snapshot_
      ⟨type, parent, EdgeTarget.to_index_ child_entry, EdgeLabel.name_ name⟩ := by
  unfold SnapshotFiller.SetNamedReference at h
  cases hs : HeapEntry.SetNamedReference f.snapshot_ parent type name child_entry with
  | none => simp [hs] at h
  | some s =>
    simp only [hs, Option.some.injEq] at h
    subst h
    obtain ⟨h1, h2⟩ := SetNamedReference_some _ _ _ _ _ _ hs
    obtain ⟨s2, hs2, hadd⟩ := SetNamedReference_AddsEdge _ parent child_entry type name h1 h2
    rw [hs] at hs2
    cases hs2
    exact ⟨h2, rfl, hadd⟩

theorem Filler_SetIndexedAutoIndexReference_some (f f1 : SnapshotFiller)
    (type : HeapGraphEdgeType) (parent child_entry : Nat)
    (h : f.SetIndexedAutoIndexReference type parent child_entry = some f1) :
    ∃ parent_entry, f.snapshot_.entries_[parent]? = some parent_entry ∧
      child_entry < f.snapshot_.entries_.length ∧ f1.entries_ = f.entries_ ∧
      AddsEdge f.snapshot_ f1.snapshot_
        ⟨type, parent, EdgeTarget.to_index_ child_entry,
          EdgeLabel.index_ ((parent_entry.children_count_ : Int) + 1)⟩ := by
  unfold SnapshotFiller.SetIndexedAutoIndexReference at h
  cases hp : f.snapshot_.entries_[parent]? with
  | none => simp [hp] at h
  | some parent_entry =>
    simp only [hp] at h
    have h2 : f.SetIndexedReference type parent ((parent_entry.children_count_ : Int) + 1)
        child_entry = some f1 := h
    exact ⟨parent_entry, rfl, Filler_SetIndexedReference_some _ _ _ _ _ _ h2⟩

theorem Filler_SetNamedAutoIndexReference_some (GetName : Int → String)
    (f f1 : SnapshotFiller) (type : HeapGraphEdgeType) (parent child_entry : Nat)
    (h : f.SetNamedAutoIndexReference GetName type parent child_entry = some f1) :
    ∃ parent_entry, f.snapshot_.entries_[parent]? = some parent_entry ∧
      child_entry < f.snapshot_.entries_.length ∧ f1.entries_ = f.entries_ ∧
      AddsEdge f.snapshot_ f1.snapshot_
        ⟨type, parent, EdgeTarget.to_index_ child_entry,
          EdgeLabel.name_ (GetName ((parent_entry.children_count_ : Int) + 1))⟩ := by
  unfold SnapshotFiller.SetNamedAutoIndexReference at h
  cases hp : f.snapshot_.entries_[parent]? with
  | none => simp [hp] at h
  | some parent_entry =>
    simp only [hp] at h
    have h2 : f.SetNamedReference type parent
        (GetName ((parent_entry.children_count_ : Int) + 1)) child_entry = some f1 := h
    exact ⟨parent_entry, rfl, Filler_SetNamedReference_some _ _ _ _ _ _ h2⟩

theorem Filler_FindOrAddEntry_cases (f : SnapshotFiller) (ptr : Nat)
    (allocator : HeapEntriesAllocator) :
    (∃ entry, HashMap.Lookup f.entries_ ptr = some entry ∧
      f.FindOrAddEntry ptr allocator = (entry, f)) ∨
    (HashMap.Lookup f.entries_ ptr = none ∧
      f.FindOrAddEntry ptr allocator = f.AddEntry ptr allocator) := by
  unfold SnapshotFiller.FindOrAddEntry
  rw [FindEntry_eq_Lookup]
  cases h : HashMap.Lookup f.entries_ ptr with
  | none => exact Or.inr ⟨rfl, rfl⟩
  | some entry => exact Or.inl ⟨entry, rfl, rfl⟩

/-- Every invariant of the single calls is an invariant of the sequences. -/
theorem applyCalls_invariant (GetName : Int → String) (P : SnapshotFiller → Prop)
    (Q : FillerCall → Prop)
    (hstep : ∀ (f f1 : SnapshotFiller) (c : FillerCall), P f → Q c →
      c.apply GetName f = some f1 → P f1) :
    ∀ (calls : List FillerCall) (f0 f : SnapshotFiller), P f0 → (∀ c ∈ calls, Q c) →
      applyCalls GetName f0 calls = some f → P f := by
  intro calls
  induction calls with
  | nil =>
    intro f0 f h0 _ h
    simp only [applyCalls, Option.some.injEq] at h
    subst h
    exact h0
  | cons c cs ih =>
    intro f0 f h0 hq h
    simp only [applyCalls] at h
    cases hc : c.apply GetName f0 with
    | none => simp [hc] at h
    | some f1 =>
      simp only [hc] at h
      exact ih f1 f (hstep f0 f1 c h0 (hq c (List.mem_cons_self _ _)) hc)
        (fun c2 hc2 => hq c2 (List.mem_cons_of_mem _ hc2)) h

theorem AddsEdge_length (s s1 : HeapSnapshot) (edge : HeapGraphEdge) (h : AddsEdge s s1 edge) :
    s1.entries_.length = s.entries_.length := (AddsEdge_frame s s1 edge h).2.1

theorem MapInRange_AddEntry (f : SnapshotFiller) (h : MapInRange f) (ptr : Nat)
    (allocator : HeapEntriesAllocator) : MapInRange (f.AddEntry ptr allocator).2 := by
  intro thing v hv
  have hlen : (f.AddEntry ptr allocator).2.snapshot_.entries_.length =
      f.snapshot_.entries_.length + 1 := by
    simp [SnapshotFiller.AddEntry, HeapEntriesAllocator.AllocateEntry, HeapSnapshot.AddEntry]
  have hmap : (f.AddEntry ptr allocator).2.entries_ =
      HeapEntriesMap.Pair f.entries_ ptr f.snapshot_.entries_.length := rfl
  rw [hmap, Lookup_Pair] at hv
  rw [hlen]
  by_cases ht : thing = ptr
  · simp only [ht, if_true, Option.some.injEq] at hv
    omega
  · simp only [ht, if_false] at hv
    have := h thing v hv
    omega

theorem MapInRange_apply (GetName : Int → String) (f f1 : SnapshotFiller) (c : FillerCall)
    (h : MapInRange f) (hc : c.apply GetName f = some f1) : MapInRange f1 := by
  have hedge : ∀ (edge : HeapGraphEdge), f1.entries_ = f.entries_ →
      AddsEdge f.snapshot_ f1.snapshot_ edge → MapInRange f1 := by
    intro edge hm hadd thing v hv
    rw [hm] at hv
    rw [AddsEdge_length _ _ _ hadd]
    exact h thing v hv
  cases c with
  | AddEntry ptr allocator =>
    simp only [FillerCall.apply, Option.some.injEq] at hc
    subst hc
    exact MapInRange_AddEntry f h ptr allocator
  | FindOrAddEntry ptr allocator =>
    simp only [FillerCall.apply, Option.some.injEq] at hc
    subst hc
    rcases Filler_FindOrAddEntry_cases f ptr allocator with ⟨entry, _, he⟩ | ⟨_, he⟩
    · rw [he]
      exact h
    · rw [he]
      exact MapInRange_AddEntry f h ptr allocator
  | SetIndexedReference type parent index child_entry =>
    obtain ⟨_, hm, hadd⟩ := Filler_SetIndexedReference_some _ _ _ _ _ _ hc
    exact hedge _ hm hadd
  | SetIndexedAutoIndexReference type parent child_entry =>
    obtain ⟨_, _, _, hm, hadd⟩ := Filler_SetIndexedAutoIndexReference_some _ _ _ _ _ hc
    exact hedge _ hm hadd
  | SetNamedReference type parent name child_entry =>
    obtain ⟨_, hm, hadd⟩ := Filler_SetNamedReference_some _ _ _ _ _ _ hc
    exact hedge _ hm hadd
  | SetNamedAutoIndexReference type parent child_entry =>
    obtain ⟨_, _, _, hm, hadd⟩ := Filler_SetNamedAutoIndexReference_some _ _ _ _ _ _ hc
    exact hedge _ hm hadd

theorem StoreInv_apply (GetName : Int → String) (f f1 : SnapshotFiller) (c : FillerCall)
    (h : StoreInv f.snapshot_) (hc : c.apply GetName f = some f1) : StoreInv f1.snapshot_ := by
  cases c with
  | AddEntry ptr allocator =>
    simp only [FillerCall.apply, Option.some.injEq] at hc
    subst hc
    exact StoreInv_AddEntry _ h _ _ _ _ _
  | FindOrAddEntry ptr allocator =>
    simp only [FillerCall.apply, Option.some.injEq] at hc
    subst hc
    rcases Filler_FindOrAddEntry_cases f ptr allocator with ⟨entry, _, he⟩ | ⟨_, he⟩
    · rw [he]
      exact h
    · rw [he]
      exact StoreInv_AddEntry _ h _ _ _ _ _
  | SetIndexedReference type parent index child_entry =>
    obtain ⟨hlt, _, hadd⟩ := Filler_SetIndexedReference_some _ _ _ _ _ _ hc
    exact StoreInv_AddsEdge _ _ _ h hadd ⟨child_entry, rfl, hlt⟩
  | SetIndexedAutoIndexReference type parent child_entry =>
    obtain ⟨_, _, hlt, _, hadd⟩ := Filler_SetIndexedAutoIndexReference_some _ _ _ _ _ hc
    exact StoreInv_AddsEdge _ _ _ h hadd ⟨child_entry, rfl, hlt⟩
  | SetNamedReference type parent name child_entry =>
    obtain ⟨hlt, _, hadd⟩ := Filler_SetNamedReference_some _ _ _ _ _ _ hc
    exact StoreInv_AddsEdge _ _ _ h hadd ⟨child_entry, rfl, hlt⟩
  | SetNamedAutoIndexReference type parent child_entry =>
    obtain ⟨_, _, hlt, _, hadd⟩ := Filler_SetNamedAutoIndexReference_some _ _ _ _ _ _ hc
    exact StoreInv_AddsEdge _ _ _ h hadd ⟨child_entry, rfl, hlt⟩

theorem applyCalls_StoreInv (GetName : Int → String) (calls : List FillerCall)
    (f0 f : SnapshotFiller) (h0 : StoreInv f0.snapshot_)
    (h : applyCalls GetName f0 calls = some f) : StoreInv f.snapshot_ :=
  applyCalls_invariant GetName (fun f => StoreInv f.snapshot_) (fun _ => True)
    (fun f f1 c hP _ hc => StoreInv_apply GetName f f1 c hP hc) calls f0 f h0
    (fun _ _ => trivial) h

theorem applyCalls_MapInRange (GetName : Int → String) (calls : List FillerCall)
    (f0 f : SnapshotFiller) (h0 : MapInRange f0)
    (h : applyCalls GetName f0 calls = some f) : MapInRange f :=
  applyCalls_invariant GetName MapInRange (fun _ => True)
    (fun f f1 c hP _ hc => MapInRange_apply GetName f f1 c hP hc) calls f0 f h0
    (fun _ _ => trivial) h

theorem apply_Lookup (GetName : Int → String) (f f1 : SnapshotFiller) (c : FillerCall)
    (hc : c.apply GetName f = some f1) (thing : Nat) :
    HashMap.Lookup f1.entries_ thing ≠ none ↔
      (HashMap.Lookup f.entries_ thing ≠ none ∨ thing ∈ addedThings [c]) := by
  have hadd : ∀ (ptr : Nat) (allocator : HeapEntriesAllocator),
      (HashMap.Lookup (f.AddEntry ptr allocator).2.entries_ thing ≠ none ↔
        (HashMap.Lookup f.entries_ thing ≠ none ∨ thing = ptr)) := by
    intro ptr allocator
    have hmap : (f.AddEntry ptr allocator).2.entries_ =
        HeapEntriesMap.Pair f.entries_ ptr f.snapshot_.entries_.length := rfl
    rw [hmap, Lookup_Pair]
    by_cases ht : thing = ptr
    · simp [ht]
    · simp [ht]
  cases c with
  | AddEntry ptr allocator =>
    simp only [FillerCall.apply, Option.some.injEq] at hc
    subst hc
    simpa [addedThings] using hadd ptr allocator
  | FindOrAddEntry ptr allocator =>
    simp only [FillerCall.apply, Option.some.injEq] at hc
    subst hc
    rcases Filler_FindOrAddEntry_cases f ptr allocator with ⟨entry, hl, he⟩ | ⟨_, he⟩
    · rw [he]
      simp only [addedThings, List.mem_singleton]
      constructor
      · intro h
        exact Or.inl h
      · rintro (h | h)
        · exact h
        · subst h
          simp [hl]
    · rw [he]
      simpa [addedThings] using hadd ptr allocator
  | SetIndexedReference type parent index child_entry =>
    obtain ⟨_, hm, _⟩ := Filler_SetIndexedReference_some _ _ _ _ _ _ hc
    simp [hm, addedThings]
  | SetIndexedAutoIndexReference type parent child_entry =>
    obtain ⟨_, _, _, hm, _⟩ := Filler_SetIndexedAutoIndexReference_some _ _ _ _ _ hc
    simp [hm, addedThings]
  | SetNamedReference type parent name child_entry =>
    obtain ⟨_, hm, _⟩ := Filler_SetNamedReference_some _ _ _ _ _ _ hc
    simp [hm, addedThings]
  | SetNamedAutoIndexReference type parent child_entry =>
    obtain ⟨_, _, _, hm, _⟩ := Filler_SetNamedAutoIndexReference_some _ _ _ _ _ _ hc
    simp [hm, addedThings]

theorem addedThings_cons (c : FillerCall) (cs : List FillerCall) :
    addedThings (c :: cs) = addedThings [c] ++ addedThings cs := by
  cases c <;> simp [addedThings]

theorem applyCalls_Lookup (GetName : Int → String) :
    ∀ (calls : List FillerCall) (f0 f : SnapshotFiller),
      applyCalls GetName f0 calls = some f → ∀ (thing : Nat),
      (HashMap.Lookup f.entries_ thing ≠ none ↔
        (HashMap.Lookup f0.entries_ thing ≠ none ∨ thing ∈ addedThings calls)) := by
  intro calls
  induction calls with
  | nil =>
    intro f0 f h thing
    simp only [applyCalls, Option.some.injEq] at h
    subst h
    simp [addedThings]
  | cons c cs ih =>
    intro f0 f h thing
    simp only [applyCalls] at h
    cases hc : c.apply GetName f0 with
    | none => simp [hc] at h
    | some f1 =>
      simp only [hc] at h
      rw [addedThings_cons c cs, ih f1 f h thing, apply_Lookup GetName f0 f1 c hc thing,
        List.mem_append, or_assoc]

/-! ## FillChildren -/

theorem childCountsBelow_mono (entries : List HeapEntry) :
    ∀ (i j : Nat), i ≤ j → childCountsBelow entries i ≤ childCountsBelow entries j := by
  unfold childCountsBelow
  induction entries with
  | nil =>
    intro i j _
    simp
  | cons a l ih =>
    intro i j hij
    cases i with
    | zero => simp
    | succ i =>
      cases j with
      | zero => omega
      | succ j =>
        simp only [List.take_succ_cons, List.map_cons, List.sum_cons]
        have := ih i j (by omega)
        omega

theorem childCountsBelow_succ (entries : List HeapEntry) :
    ∀ (i : Nat) (e : HeapEntry), entries[i]? = some e →
      childCountsBelow entries (i + 1) = childCountsBelow entries i + e.children_count_ := by
  unfold childCountsBelow
  induction entries with
  | nil =>
    intro i e h
    simp at h
  | cons a l ih =>
    intro i e h
    cases i with
    | zero =>
      simp only [List.getElem?_cons_zero, Option.some.injEq] at h
      subst h
      simp
    | succ i =>
      simp only [List.getElem?_cons_succ] at h
      simp only [List.take_succ_cons, List.map_cons, List.sum_cons]
      rw [ih i e h]
      omega

theorem childCountsBelow_length (entries : List HeapEntry) :
    childCountsBelow entries entries.length = (entries.map HeapEntry.children_count_).sum := by
  simp [childCountsBelow]

theorem childCountsBelow_le (entries : List HeapEntry) (i : Nat) (e : HeapEntry)
    (h : entries[i]? = some e) :
    childCountsBelow entries i + e.children_count_ ≤
      (entries.map HeapEntry.children_count_).sum := by
  rw [← childCountsBelow_succ entries i e h, ← childCountsBelow_length]
  exact childCountsBelow_mono entries _ _ (lt_length_of_getElem? h)

/-- Every position below the sum of the child counts is in the run of one entry. -/
theorem childCountsBelow_cover (entries : List HeapEntry) :
    ∀ (p : Nat), p < (entries.map HeapEntry.children_count_).sum →
      ∃ (i : Nat) (e : HeapEntry), entries[i]? = some e ∧
        childCountsBelow entries i ≤ p ∧ p < childCountsBelow entries i + e.children_count_ := by
  unfold childCountsBelow
  induction entries with
  | nil =>
    intro p hp
    simp at hp
  | cons a l ih =>
    intro p hp
    simp only [List.map_cons, List.sum_cons] at hp
    by_cases hpa : p < a.children_count_
    · exact ⟨0, a, List.getElem?_cons_zero, by simp, by simpa using hpa⟩
    · obtain ⟨i, e, he, h1, h2⟩ := ih (p - a.children_count_) (by omega)
      refine ⟨i + 1, e, by simpa using he, ?_, ?_⟩
      · simp only [List.take_succ_cons, List.map_cons, List.sum_cons]
        omega
      · simp only [List.take_succ_cons, List.map_cons, List.sum_cons]
        omega

theorem setChildrenIndexes_spec :
    ∀ (es : List HeapEntry) (acc : Nat),
      (HeapSnapshot.setChildrenIndexes es acc).2 =
        acc + (es.map HeapEntry.children_count_).sum ∧
      (HeapSnapshot.setChildrenIndexes es acc).1.length = es.length ∧
      ∀ (i : Nat) (e : HeapEntry), es[i]? = some e →
        (HeapSnapshot.setChildrenIndexes es acc).1[i]? = some { e with
          children_index_ := ((acc + childCountsBelow es i : Nat) : Int),
          children_count_ := 0 } := by
  intro es
  induction es with
  | nil =>
    intro acc
    refine ⟨by simp [HeapSnapshot.setChildrenIndexes], rfl, ?_⟩
    intro i e h
    simp at h
  | cons a l ih =>
    intro acc
    obtain ⟨h1, h2, h3⟩ := ih (acc + a.children_count_)
    simp only [HeapSnapshot.setChildrenIndexes, HeapEntry.set_children_index]
    refine ⟨?_, ?_, ?_⟩
    · rw [h1]
      simp only [List.map_cons, List.sum_cons]
      omega
    · simp only [List.length_cons, h2]
    · intro i e h
      cases i with
      | zero =>
        simp only [List.getElem?_cons_zero, Option.some.injEq] at h
        subst h
        simp [childCountsBelow]
      | succ i =>
        simp only [List.getElem?_cons_succ] at h ⊢
        rw [h3 i e h]
        have : acc + a.children_count_ + childCountsBelow l i =
            acc + childCountsBelow (a :: l) (i + 1) := by
          simp only [childCountsBelow, List.take_succ_cons, List.map_cons, List.sum_cons]
          omega
        rw [this]

theorem edgesFrom_take_succ (edges : List HeapGraphEdge) (k i : Nat) (edge : HeapGraphEdge)
    (h : edges[k]? = some edge) :
    edgesFrom (edges.take (k + 1)) i =
      edgesFrom (edges.take k) i ++ (if edge.from_index = i then [k] else []) := by
  have hk := lt_length_of_getElem? h
  rw [List.take_succ, h]
  simp only [Option.toList]
  rw [edgesFrom_append]
  have hlen : (edges.take k).length = k := by
    rw [List.length_take]
    omega
  rw [hlen]

theorem edgesFrom_take_length (edges : List HeapGraphEdge) (i : Nat) :
    edgesFrom (edges.take edges.length) i = edgesFrom edges i := by
  rw [List.take_length]

theorem edgesFrom_take_le (edges : List HeapGraphEdge) (i : Nat) :
    ∀ (d k : Nat), k + d = edges.length →
      (edgesFrom (edges.take k) i).length ≤ (edgesFrom edges i).length := by
  intro d
  induction d with
  | zero =>
    intro k hk
    have : k = edges.length := by omega
    rw [this, edgesFrom_take_length]
  | succ d ih =>
    intro k hk
    have hlt : k < edges.length := by omega
    have h := ih (k + 1) (by omega)
    rw [edgesFrom_take_succ edges k i edges[k] (List.getElem?_eq_getElem hlt)] at h
    simp only [List.length_append] at h
    omega

theorem edgesFrom_nodup (edges : List HeapGraphEdge) (i : Nat) : (edgesFrom edges i).Nodup :=
  (List.nodup_range _).sublist (List.filter_sublist _)

theorem edgesFrom_increasing (edges : List HeapGraphEdge) (i : Nat) :
    (edgesFrom edges i).Pairwise (· < ·) :=
  (List.pairwise_lt_range _).sublist (List.filter_sublist _)

theorem resizeChildren_length (children : List (Option Nat)) (n : Nat) :
    (HeapSnapshot.resizeChildren children n).length = n := by
  simp only [HeapSnapshot.resizeChildren, List.length_append, List.length_take,
    List.length_replicate]
  omega

theorem FillInv_init (s0 : HeapSnapshot) :
    FillInv s0 0 { s0 with
      children_ := HeapSnapshot.resizeChildren s0.children_ s0.edges_.length,
      entries_ := (HeapSnapshot.setChildrenIndexes s0.entries_ 0).1 } := by
  obtain ⟨_, h2, h3⟩ := setChildrenIndexes_spec s0.entries_ 0
  refine ⟨h2, ?_, resizeChildren_length _ _, ?_, rfl, ?_, rfl, rfl, rfl, rfl⟩
  · intro i e0 h
    simp only
    rw [h3 i e0 h]
    simp [edgesFrom_nil]
  · intro i j x h
    simp [edgesFrom_nil] at h
  · intro q j edge h _
    simpa using h

theorem FillInv_step (s0 s : HeapSnapshot) (k : Nat) (hinv : StoreInv s0)
    (h : FillInv s0 k s) (hk : k < s0.edges_.length) :
    ∃ s1, HeapSnapshot.fillEdge s k = some s1 ∧ FillInv s0 (k + 1) s1 := by
  have hedge0 := List.getElem?_eq_getElem hk
  obtain ⟨hfrom, j, hto, hj⟩ := hinv.edges_in k s0.edges_[k] hedge0
  have hcur : s.edges_[k]? = some s0.edges_[k] := by
    rw [h.edges k j _ hedge0 hto]
    simp
  have he0 := List.getElem?_eq_getElem hfrom
  have hecur := h.entry _ _ he0
  have htake : ∀ i, edgesFrom (s0.edges_.take (k + 1)) i =
      edgesFrom (s0.edges_.take k) i ++ (if s0.edges_[k].from_index = i then [k] else []) :=
    fun i => edgesFrom_take_succ s0.edges_ k i _ hedge0
  -- the position that is written
  have hcount : (edgesFrom (s0.edges_.take k) s0.edges_[k].from_index).length + 1 ≤
      (s0.entries_[s0.edges_[k].from_index]).children_count_ := by
    rw [hinv.counts _ _ he0]
    have := edgesFrom_take_le s0.edges_ s0.edges_[k].from_index (s0.edges_.length - (k + 1))
      (k + 1) (by omega)
    rw [htake] at this
    simpa using this
  have hpos : childCountsBelow s0.entries_ s0.edges_[k].from_index +
      (edgesFrom (s0.edges_.take k) s0.edges_[k].from_index).length < s.children_.length := by
    have := childCountsBelow_le s0.entries_ _ _ he0
    rw [hinv.total] at this
    rw [h.children_len]
    omega
  refine ⟨{ s with
      edges_ := s.edges_.set k { s0.edges_[k] with to_ := EdgeTarget.to_entry_ j },
      children_ := s.children_.set (childCountsBelow s0.entries_ s0.edges_[k].from_index +
        (edgesFrom (s0.edges_.take k) s0.edges_[k].from_index).length) (some k),
      entries_ := s.entries_.set s0.edges_[k].from_index
        { s0.entries_[s0.edges_[k].from_index] with
          children_index_ := ((childCountsBelow s0.entries_ s0.edges_[k].from_index : Nat) : Int),
          children_count_ :=
            (edgesFrom (s0.edges_.take k) s0.edges_[k].from_index).length + 1 } }, ?_, ?_⟩
  · have hjs : j < s.entries_.length := by
      rw [h.entries_len]
      exact hj
    have hnonneg : (0 : Int) ≤ ((childCountsBelow s0.entries_ s0.edges_[k].from_index : Nat) : Int) :=
      Int.ofNat_nonneg _
    simp only [HeapSnapshot.fillEdge, hcur, hto, hjs, if_true, HeapEntry.add_child, hecur,
      Int.toNat_ofNat, hnonneg, hpos, and_self]
  · refine ⟨?_, ?_, ?_, ?_, ?_, ?_, h.root_index, h.gc_roots_index, h.gc_subroot_indexes,
      h.sorted_entries⟩
    · simp only [List.length_set]
      exact h.entries_len
    · intro i e0 hi
      simp only
      rw [htake]
      by_cases hif : s0.edges_[k].from_index = i
      · subst hif
        rw [he0] at hi
        simp only [Option.some.injEq] at hi
        subst hi
        rw [List.getElem?_set_self (by rw [h.entries_len]; exact hfrom)]
        simp
      · rw [List.getElem?_set_ne hif, h.entry i e0 hi]
        simp [hif]
    · simp only [List.length_set]
      exact h.children_len
    · intro i jj x hx
      simp only
      rw [htake] at hx
      by_cases hif : s0.edges_[k].from_index = i
      · subst hif
        simp only [if_true] at hx
        by_cases hjl : jj < (edgesFrom (s0.edges_.take k) s0.edges_[k].from_index).length
        · rw [List.getElem?_append_left hjl] at hx
          rw [List.getElem?_set_ne (by omega)]
          exact h.children _ jj x hx
        · rw [List.getElem?_append_right (by omega)] at hx
          have hj0 : jj - (edgesFrom (s0.edges_.take k) s0.edges_[k].from_index).length = 0 := by
            by_contra hne
            have : ([k] : List Nat)[jj -
                (edgesFrom (s0.edges_.take k) s0.edges_[k].from_index).length]? = none :=
              List.getElem?_eq_none (by simp; omega)
            rw [this] at hx
            exact Option.noConfusion hx
          rw [hj0] at hx
          simp only [List.getElem?_cons_zero, Option.some.injEq] at hx
          subst hx
          have hjeq : jj = (edgesFrom (s0.edges_.take k) s0.edges_[k].from_index).length := by
            omega
          rw [hjeq, List.getElem?_set_self hpos]
      · simp only [hif, if_false, List.append_nil] at hx
        have hjl := lt_length_of_getElem? hx
        -- the run of `i` is apart from the position that is written
        have hmem := List.getElem?_mem hx
        obtain ⟨edge, hedge, hef⟩ := edgesFrom_lt _ i x hmem
        have hxk : x < k := by
          have := lt_length_of_getElem? hedge
          rw [List.length_take] at this
          omega
        have hedge2 : s0.edges_[x]? = some edge := by
          rw [List.getElem?_take_of_lt hxk] at hedge
          exact hedge
        have hilt : i < s0.entries_.length := by
          have := (hinv.edges_in x edge hedge2).1
          rw [hef] at this
          exact this
        have hei := List.getElem?_eq_getElem hilt
        have hci : (edgesFrom (s0.edges_.take k) i).length ≤ (s0.entries_[i]).children_count_ := by
          rw [hinv.counts _ _ hei]
          exact edgesFrom_take_le s0.edges_ i (s0.edges_.length - k) k (by omega)
        have hne : childCountsBelow s0.entries_ s0.edges_[k].from_index +
            (edgesFrom (s0.edges_.take k) s0.edges_[k].from_index).length ≠
            childCountsBelow s0.entries_ i + jj := by
          rcases Nat.lt_or_gt_of_ne hif with hlt | hgt
          · have h1 := childCountsBelow_succ s0.entries_ _ _ he0
            have h2 := childCountsBelow_mono s0.entries_ (s0.edges_[k].from_index + 1) i hlt
            omega
          · have h1 := childCountsBelow_succ s0.entries_ _ _ hei
            have h2 := childCountsBelow_mono s0.entries_ (i + 1) s0.edges_[k].from_index hgt
            omega
        rw [List.getElem?_set_ne hne]
        exact h.children i jj x hx
    · simp only [List.length_set]
      exact h.edges_len
    · intro q j2 edge hq hto2
      simp only
      by_cases hqk : q = k
      · subst hqk
        rw [hedge0] at hq
        simp only [Option.some.injEq] at hq
        subst hq
        rw [hto] at hto2
        simp only [EdgeTarget.to_index_.injEq] at hto2
        subst hto2
        rw [List.getElem?_set_self (by rw [h.edges_len]; exact hk)]
        simp
      · rw [List.getElem?_set_ne (Ne.symm hqk), h.edges q j2 edge hq hto2]
        have : (q < k + 1) = (q < k) := by
          apply propext
          omega
        simp only [this]

theorem FillInv_loop (s0 : HeapSnapshot) (hinv : StoreInv s0) :
    ∀ (k : Nat), k ≤ s0.edges_.length →
      ∃ s, (List.range k).foldlM HeapSnapshot.fillEdge { s0 with
          children_ := HeapSnapshot.resizeChildren s0.children_ s0.edges_.length,
          entries_ := (HeapSnapshot.setChildrenIndexes s0.entries_ 0).1 } = some s ∧
        FillInv s0 k s := by
  intro k
  induction k with
  | zero =>
    intro _
    exact ⟨_, rfl, FillInv_init s0⟩
  | succ k ih =>
    intro hk
    obtain ⟨s, hs, hfill⟩ := ih (by omega)
    obtain ⟨s1, hs1, hfill1⟩ := FillInv_step s0 s k hinv hfill (by omega)
    refine ⟨s1, ?_, hfill1⟩
    rw [List.range_succ, List.foldlM_append, hs]
    simpa using hs1

/-- On a store that keeps `StoreInv`, `FillChildren` returns, with the number of
edges as the last value of `children_index`. -/
theorem FillChildren_spec (s0 : HeapSnapshot) (hinv : StoreInv s0) :
    ∃ s, HeapSnapshot.FillChildren s0 = some (s0.edges_.length, s) ∧
      FillInv s0 s0.edges_.length s := by
  obtain ⟨s, hs, hfill⟩ := FillInv_loop s0 hinv s0.edges_.length (Nat.le_refl _)
  refine ⟨s, ?_, hfill⟩
  obtain ⟨h1, _, _⟩ := setChildrenIndexes_spec s0.entries_ 0
  simp only [HeapSnapshot.FillChildren, hs, h1, hinv.total, Nat.zero_add]

/-- When the loop is done every position of `children_` holds an edge: the
position `p` is in the run of one entry `i`, at the offset `j`, and holds the
edge number `j` of those that leave `i`. -/
theorem FillInv_cover (s0 s2 : HeapSnapshot) (hinv : StoreInv s0)
    (h : FillInv s0 s0.edges_.length s2) (p : Nat) (hp : p < s0.edges_.length) :
    ∃ (i j x : Nat) (e0 : HeapEntry), s0.entries_[i]? = some e0 ∧
      p = childCountsBelow s0.entries_ i + j ∧ (edgesFrom s0.edges_ i)[j]? = some x ∧
      s2.children_[p]? = some (some x) := by
  rw [← hinv.total] at hp
  obtain ⟨i, e0, he0, h1, h2⟩ := childCountsBelow_cover s0.entries_ p hp
  have hj : p - childCountsBelow s0.entries_ i < (edgesFrom s0.edges_ i).length := by
    rw [← hinv.counts i e0 he0]
    omega
  have hx := List.getElem?_eq_getElem hj
  refine ⟨i, p - childCountsBelow s0.entries_ i, _, e0, he0, by omega, hx, ?_⟩
  have := h.children i (p - childCountsBelow s0.entries_ i) _
    (by rw [edgesFrom_take_length]; exact hx)
  rw [← this]
  congr 1
  omega

theorem FillInv_from (s0 s2 : HeapSnapshot) (hinv : StoreInv s0)
    (h : FillInv s0 s0.edges_.length s2) (x : Nat) (edge2 : HeapGraphEdge)
    (hx : s2.edges_[x]? = some edge2) :
    ∃ (edge : HeapGraphEdge) (j : Nat), s0.edges_[x]? = some edge ∧
      edge.to_ = EdgeTarget.to_index_ j ∧ j < s0.entries_.length ∧
      edge.from_index < s0.entries_.length ∧
      edge2 = { edge with to_ := EdgeTarget.to_entry_ j } := by
  have hlt : x < s0.edges_.length := by
    rw [← h.edges_len]
    exact lt_length_of_getElem? hx
  have he := List.getElem?_eq_getElem hlt
  obtain ⟨hfrom, j, hto, hj⟩ := hinv.edges_in x _ he
  have := h.edges x j _ he hto
  rw [hx] at this
  simp only [hlt, if_true, Option.some.injEq] at this
  exact ⟨_, j, he, hto, hj, hfrom, this⟩

theorem FillInv_ordered (s0 s2 : HeapSnapshot) (hinv : StoreInv s0)
    (h : FillInv s0 s0.edges_.length s2) (p q k1 k2 : Nat) (e1 e2 : HeapGraphEdge)
    (hpq : p ≤ q) (hp : s2.children_[p]? = some (some k1))
    (hq : s2.children_[q]? = some (some k2)) (h1 : s2.edges_[k1]? = some e1)
    (h2 : s2.edges_[k2]? = some e2) : e1.from_index ≤ e2.from_index := by
  have hplt : p < s0.edges_.length := by
    rw [← h.children_len]
    exact lt_length_of_getElem? hp
  have hqlt : q < s0.edges_.length := by
    rw [← h.children_len]
    exact lt_length_of_getElem? hq
  obtain ⟨i1, j1, x1, a1, ha1, hp1, hx1, hc1⟩ := FillInv_cover s0 s2 hinv h p hplt
  obtain ⟨i2, j2, x2, a2, ha2, hp2, hx2, hc2⟩ := FillInv_cover s0 s2 hinv h q hqlt
  rw [hp] at hc1
  rw [hq] at hc2
  simp only [Option.some.injEq] at hc1 hc2
  subst hc1 hc2
  obtain ⟨b1, hb1, hf1⟩ := edgesFrom_lt _ _ _ (List.getElem?_mem hx1)
  obtain ⟨b2, hb2, hf2⟩ := edgesFrom_lt _ _ _ (List.getElem?_mem hx2)
  obtain ⟨c1, _, hc1, _, _, _, he1⟩ := FillInv_from s0 s2 hinv h k1 e1 h1
  obtain ⟨c2, _, hc2, _, _, _, he2⟩ := FillInv_from s0 s2 hinv h k2 e2 h2
  rw [hb1] at hc1
  rw [hb2] at hc2
  simp only [Option.some.injEq] at hc1 hc2
  subst hc1 hc2
  have hfe1 : e1.from_index = i1 := by rw [he1]; exact hf1
  have hfe2 : e2.from_index = i2 := by rw [he2]; exact hf2
  rw [hfe1, hfe2]
  by_contra hgt
  have hlt : i2 + 1 ≤ i1 := by omega
  have hm := childCountsBelow_mono s0.entries_ (i2 + 1) i1 hlt
  have hs := childCountsBelow_succ s0.entries_ i2 a2 ha2
  have hj2 : j2 < a2.children_count_ := by
    rw [hinv.counts i2 a2 ha2]
    exact lt_length_of_getElem? hx2
  omega

theorem FillInv_perm (s0 s2 : HeapSnapshot) (hinv : StoreInv s0)
    (h : FillInv s0 s0.edges_.length s2) :
    s2.children_.Perm ((List.range s0.edges_.length).map some) := by
  have hnodup : s2.children_.Nodup := by
    rw [List.nodup_iff_getElem?_ne_getElem?]
    intro p q hpq hq heq
    rw [h.children_len] at hq
    obtain ⟨i1, j1, x1, a1, ha1, hp1, hx1, hc1⟩ := FillInv_cover s0 s2 hinv h p (by omega)
    obtain ⟨i2, j2, x2, a2, ha2, hp2, hx2, hc2⟩ := FillInv_cover s0 s2 hinv h q hq
    rw [hc1, hc2] at heq
    simp only [Option.some.injEq] at heq
    subst heq
    obtain ⟨b1, hb1, hf1⟩ := edgesFrom_lt _ _ _ (List.getElem?_mem hx1)
    obtain ⟨b2, hb2, hf2⟩ := edgesFrom_lt _ _ _ (List.getElem?_mem hx2)
    rw [hb1] at hb2
    simp only [Option.some.injEq] at hb2
    subst hb2
    rw [hf1] at hf2
    subst hf2
    have hl1 := lt_length_of_getElem? hx1
    have hl2 := lt_length_of_getElem? hx2
    rw [List.getElem?_eq_getElem hl1] at hx1
    rw [List.getElem?_eq_getElem hl2] at hx2
    have hjj : j1 = j2 := by
      apply ((edgesFrom_nodup s0.edges_ i1).getElem_inj_iff).mp
      rw [Option.some.inj hx1, Option.some.inj hx2]
    omega
  have hsub : s2.children_ ⊆ (List.range s0.edges_.length).map some := by
    intro a ha
    obtain ⟨p, hp⟩ := List.mem_iff_getElem?.mp ha
    have hplt : p < s0.edges_.length := by
      rw [← h.children_len]
      exact lt_length_of_getElem? hp
    obtain ⟨i, j, x, e0, _, _, hx, hc⟩ := FillInv_cover s0 s2 hinv h p hplt
    rw [hp] at hc
    simp only [Option.some.injEq] at hc
    subst hc
    obtain ⟨b, hb, _⟩ := edgesFrom_lt _ _ _ (List.getElem?_mem hx)
    exact List.mem_map.mpr ⟨x, List.mem_range.mpr (lt_length_of_getElem? hb), rfl⟩
  exact (List.subperm_of_subset hnodup hsub).perm_of_length_le
    (by simp [h.children_len])

theorem FillInv_run (s0 s2 : HeapSnapshot)
    (h : FillInv s0 s0.edges_.length s2) (i : Nat) :
    (s2.children_.drop (childCountsBelow s0.entries_ i)).take (edgesFrom s0.edges_ i).length =
      (edgesFrom s0.edges_ i).map some := by
  apply List.ext_getElem?
  intro j
  rw [List.getElem?_take, List.getElem?_drop, List.getElem?_map]
  by_cases hj : j < (edgesFrom s0.edges_ i).length
  · simp only [hj, if_true]
    have hx := List.getElem?_eq_getElem hj
    rw [hx]
    exact h.children i j _ (by rw [edgesFrom_take_length]; exact hx)
  · simp only [hj, if_false]
    rw [List.getElem?_eq_none (by omega)]
    rfl

/-! ## The synthetic roots -/

/-- The entry `AddGcSubrootEntry` makes for a tag. -/
theorem AddGcSubrootEntries_spec (kTagNames : Nat → String) :
    ∀ (fuel tag id : Nat) (s : HeapSnapshot), id < kSnapshotObjectIdRange →
      (HeapSnapshot.AddGcSubrootEntries kTagNames fuel tag id s).1 =
        (id + kObjectIdStep * fuel) % kSnapshotObjectIdRange ∧
      (HeapSnapshot.AddGcSubrootEntries kTagNames fuel tag id s).2.entries_ =
        s.entries_ ++ (List.range fuel).map (fun t =>
          (⟨HeapEntryType.kSynthetic, 0, -1, 0, kTagNames (tag + t),
            (id + kObjectIdStep * t) % kSnapshotObjectIdRange, 0⟩ : HeapEntry)) ∧
      (∀ x, (HeapSnapshot.AddGcSubrootEntries kTagNames fuel tag id s).2.gc_subroot_indexes_[x]? =
        if tag ≤ x ∧ x < tag + fuel ∧ x < s.gc_subroot_indexes_.length then
          some ((s.entries_.length + (x - tag) : Nat) : Int)
        else s.gc_subroot_indexes_[x]?) ∧
      (HeapSnapshot.AddGcSubrootEntries kTagNames fuel tag id s).2.root_index_ = s.root_index_ ∧
      (HeapSnapshot.AddGcSubrootEntries kTagNames fuel tag id s).2.gc_roots_index_ =
        s.gc_roots_index_ ∧
      (HeapSnapshot.AddGcSubrootEntries kTagNames fuel tag id s).2.edges_ = s.edges_ ∧
      (HeapSnapshot.AddGcSubrootEntries kTagNames fuel tag id s).2.children_ = s.children_ ∧
      (HeapSnapshot.AddGcSubrootEntries kTagNames fuel tag id s).2.sorted_entries_ =
        s.sorted_entries_ := by
  intro fuel
  induction fuel with
  | zero =>
    intro tag id s hid
    refine ⟨?_, ?_, ?_, rfl, rfl, rfl, rfl, rfl⟩
    · simp only [HeapSnapshot.AddGcSubrootEntries, Nat.mul_zero, Nat.add_zero]
      exact (Nat.mod_eq_of_lt hid).symm
    · simp [HeapSnapshot.AddGcSubrootEntries]
    · intro x
      have : ¬ (tag ≤ x ∧ x < tag + 0 ∧ x < s.gc_subroot_indexes_.length) := by omega
      simp only [HeapSnapshot.AddGcSubrootEntries, this, if_false]
  | succ fuel ih =>
    intro tag id s hid
    have hid2 : (id + kObjectIdStep) % kSnapshotObjectIdRange < kSnapshotObjectIdRange :=
      Nat.mod_lt _ (by decide)
    obtain ⟨h1, h2, h3, h4, h5, h6, h7, h8⟩ := ih (tag + 1)
      ((id + kObjectIdStep) % kSnapshotObjectIdRange)
      (HeapSnapshot.AddGcSubrootEntry kTagNames s tag id).2 hid2
    simp only [HeapSnapshot.AddGcSubrootEntries]
    refine ⟨?_, ?_, ?_, ?_, ?_, ?_, ?_, ?_⟩
    · rw [h1]
      simp only [kObjectIdStep, kSnapshotObjectIdRange]
      omega
    · rw [h2]
      simp only [HeapSnapshot.AddGcSubrootEntry, HeapSnapshot.AddEntry, List.append_assoc,
        List.singleton_append, List.range_succ_eq_map, List.map_cons, List.map_map]
      congr 2
      · simp only [Nat.mul_zero, Nat.add_zero]
        rw [Nat.mod_eq_of_lt hid]
      · apply List.map_congr_left
        intro t _
        have harith : ((id + 2) % 4294967296 + 2 * t) % 4294967296 =
            (id + 2 * (t + 1)) % 4294967296 := by omega
        have htag : tag + 1 + t = tag + (t + 1) := by omega
        simp only [Function.comp, kObjectIdStep, kSnapshotObjectIdRange, harith, htag,
          Nat.succ_eq_add_one]
    · intro x
      rw [h3]
      simp only [HeapSnapshot.AddGcSubrootEntry, HeapSnapshot.AddEntry, List.length_set,
        List.length_append, List.length_singleton]
      by_cases hx : tag + 1 ≤ x ∧ x < tag + 1 + fuel ∧ x < s.gc_subroot_indexes_.length
      · have hx2 : tag ≤ x ∧ x < tag + (fuel + 1) ∧ x < s.gc_subroot_indexes_.length := by
          omega
        simp only [hx, hx2, and_self, if_true, Option.some.injEq]
        congr 1
        omega
      · simp only [hx, if_false]
        by_cases hxt : x = tag
        · subst hxt
          by_cases hlen : x < s.gc_subroot_indexes_.length
          · have hx2 : x ≤ x ∧ x < x + (fuel + 1) ∧ x < s.gc_subroot_indexes_.length := by
              omega
            simp only [hx2, and_self, if_true]
            rw [List.getElem?_set_self hlen]
            simp
          · have hx2 : ¬ (x ≤ x ∧ x < x + (fuel + 1) ∧ x < s.gc_subroot_indexes_.length) := by
              omega
            simp only [hx2, if_false]
            rw [List.getElem?_eq_none (by simp; omega), List.getElem?_eq_none (by omega)]
        · have hx2 : ¬ (tag ≤ x ∧ x < tag + (fuel + 1) ∧ x < s.gc_subroot_indexes_.length) := by
            omega
          simp only [hx2, if_false]
          rw [List.getElem?_set_ne (Ne.symm hxt)]
    · rw [h4]; rfl
    · rw [h5]; rfl
    · rw [h6]; rfl
    · rw [h7]; rfl
    · rw [h8]; rfl

/-- C11, as the code has it. For a number of sync tags `n` with
`kGcRootsFirstSubrootId + n * kObjectIdStep` below `2 ^ 32`,
`AddSyntheticRootEntries` on the new snapshot adds exactly `2 + n` entries, all
of the type `kSynthetic`, of size 0 and without children; the entry 0 is the
root, with the name "" and the id `kInternalRootObjectId`, and `root_index_` is
0; the entry 1 is "(GC roots)" with the id `kGcRootsObjectId`; the subroot of
the tag `t` is the entry `2 + t`, with the name of the tag and the id
`kGcRootsFirstSubrootId + t * kObjectIdStep`; the id after the last subroot is
`kFirstAvailableObjectId`; there is no edge. Every id that a registry made for
`n` tags allocates, in a sequence of calls in which its 32-bit counter does not
wrap, is greater than the id of every synthetic entry. -/
theorem AddSyntheticRootEntries_nodes (n : Nat) (kTagNames : Nat → String) (ops : List Op)
    (r : HeapObjectsMap) (ids : List Nat)
    (hn : kGcRootsFirstSubrootId + n * kObjectIdStep < kSnapshotObjectIdRange)
    (hr : run (HeapObjectsMap.ctor n) ops = some (r, ids))
    (hb : kFirstAvailableObjectId n + kObjectIdStep * ids.length ≤ kSnapshotObjectIdRange + 1) :
    (HeapSnapshot.AddSyntheticRootEntries n kTagNames (HeapSnapshot.ctor n)).2.entries_.length
      = 2 + n ∧
    (∀ e ∈ (HeapSnapshot.AddSyntheticRootEntries n kTagNames (HeapSnapshot.ctor n)).2.entries_,
      e.type_ = HeapEntryType.kSynthetic ∧ e.self_size_ = 0 ∧ e.children_count_ = 0) ∧
    (HeapSnapshot.AddSyntheticRootEntries n kTagNames (HeapSnapshot.ctor n)).2.entries_[0]? =
      some ⟨HeapEntryType.kSynthetic, 0, -1, 0, "", kInternalRootObjectId, 0⟩ ∧
    (HeapSnapshot.AddSyntheticRootEntries n kTagNames (HeapSnapshot.ctor n)).2.root_index_ = 0 ∧
    (HeapSnapshot.AddSyntheticRootEntries n kTagNames (HeapSnapshot.ctor n)).2.entries_[1]? =
      some ⟨HeapEntryType.kSynthetic, 0, -1, 0, "(GC roots)", kGcRootsObjectId, 0⟩ ∧
    (HeapSnapshot.AddSyntheticRootEntries n kTagNames (HeapSnapshot.ctor n)).2.gc_roots_index_
      = 1 ∧
    (∀ t, t < n →
      (HeapSnapshot.AddSyntheticRootEntries n kTagNames (HeapSnapshot.ctor n)).2.entries_[2 + t]?
        = some ⟨HeapEntryType.kSynthetic, 0, -1, 0, kTagNames t,
            kGcRootsFirstSubrootId + t * kObjectIdStep, 0⟩ ∧
      (HeapSnapshot.AddSyntheticRootEntries n kTagNames
        (HeapSnapshot.ctor n)).2.gc_subroot_indexes_[t]? = some (((2 + t : Nat)) : Int)) ∧
    (HeapSnapshot.AddSyntheticRootEntries n kTagNames (HeapSnapshot.ctor n)).1 =
      kFirstAvailableObjectId n ∧
    (HeapSnapshot.AddSyntheticRootEntries n kTagNames (HeapSnapshot.ctor n)).2.edges_ = [] ∧
    (∀ e ∈ (HeapSnapshot.AddSyntheticRootEntries n kTagNames (HeapSnapshot.ctor n)).2.entries_,
      ∀ x ∈ ids, e.id_ < x) := by
  have hres : HeapSnapshot.AddSyntheticRootEntries n kTagNames (HeapSnapshot.ctor n) =
      HeapSnapshot.AddGcSubrootEntries kTagNames n 0 kGcRootsFirstSubrootId
        (HeapSnapshot.ctor n).AddRootEntry.2.AddGcRootsEntry.2 := rfl
  obtain ⟨h1, h2, h3, h4, h5, h6, _, _⟩ := AddGcSubrootEntries_spec kTagNames n 0
    kGcRootsFirstSubrootId (HeapSnapshot.ctor n).AddRootEntry.2.AddGcRootsEntry.2 (by decide)
  rw [← hres] at h1 h2 h3 h4 h5 h6
  have hbase : (HeapSnapshot.ctor n).AddRootEntry.2.AddGcRootsEntry.2.entries_ =
      [⟨HeapEntryType.kSynthetic, 0, -1, 0, "", kInternalRootObjectId, 0⟩,
        ⟨HeapEntryType.kSynthetic, 0, -1, 0, "(GC roots)", kGcRootsObjectId, 0⟩] := rfl
  have hbaselen : (HeapSnapshot.ctor n).AddRootEntry.2.AddGcRootsEntry.2.gc_subroot_indexes_.length
      = n := by
    simp [HeapSnapshot.ctor, HeapSnapshot.AddRootEntry, HeapSnapshot.AddGcRootsEntry,
      HeapSnapshot.AddEntry]
  rw [hbase] at h2
  have hfirst : kFirstAvailableObjectId n = kGcRootsFirstSubrootId + n * kObjectIdStep := by
    unfold kFirstAvailableObjectId
    exact Nat.mod_eq_of_lt hn
  have hn5 : 5 + n * 2 < 4294967296 := hn
  have hk5 : kGcRootsFirstSubrootId = 5 := rfl
  have hk3 : kGcRootsObjectId = 3 := rfl
  have hk1 : kInternalRootObjectId = 1 := rfl
  have hk2 : kObjectIdStep = 2 := rfl
  have hR : kSnapshotObjectIdRange = 4294967296 := rfl
  have hsub : ∀ t, t < n →
      (HeapSnapshot.AddSyntheticRootEntries n kTagNames (HeapSnapshot.ctor n)).2.entries_[2 + t]?
        = some ⟨HeapEntryType.kSynthetic, 0, -1, 0, kTagNames t,
            kGcRootsFirstSubrootId + t * kObjectIdStep, 0⟩ := by
    intro t ht
    rw [h2, List.getElem?_append_right (by simp)]
    simp only [List.length_cons, List.length_nil, Nat.zero_add, Nat.reduceAdd,
      Nat.add_sub_cancel_left, List.getElem?_map, List.getElem?_range ht, Option.map_some']
    have hmod : (kGcRootsFirstSubrootId + kObjectIdStep * t) % kSnapshotObjectIdRange =
        kGcRootsFirstSubrootId + t * kObjectIdStep := by
      rw [hk5, hk2, hR]
      omega
    rw [hmod]
  have hall : ∀ e ∈ (HeapSnapshot.AddSyntheticRootEntries n kTagNames
      (HeapSnapshot.ctor n)).2.entries_,
      e.type_ = HeapEntryType.kSynthetic ∧ e.self_size_ = 0 ∧ e.children_count_ = 0 ∧
      e.id_ < kFirstAvailableObjectId n := by
    intro e he
    rw [h2] at he
    simp only [List.mem_append, List.mem_cons, List.mem_singleton, List.not_mem_nil, or_false,
      List.mem_map, List.mem_range] at he
    rw [hfirst]
    rcases he with (he | he) | ⟨t, ht, he⟩
    · subst he
      refine ⟨rfl, rfl, rfl, ?_⟩
      rw [hk5, hk2]
      simp only [hk1]
      omega
    · subst he
      refine ⟨rfl, rfl, rfl, ?_⟩
      rw [hk5, hk2]
      simp only [hk3]
      omega
    · subst he
      refine ⟨rfl, rfl, rfl, ?_⟩
      simp only [hk5, hk2, hR]
      omega
  obtain ⟨_, hlow⟩ := run_ids_increasing ops (HeapObjectsMap.ctor n) r ids hr hb
  refine ⟨?_, ?_, ?_, ?_, ?_, ?_, ?_, ?_, ?_, ?_⟩
  · rw [h2]
    simp
    omega
  · intro e he
    exact ⟨(hall e he).1, (hall e he).2.1, (hall e he).2.2.1⟩
  · rw [h2, List.getElem?_append_left (by simp)]
    rfl
  · rw [h4]
    rfl
  · rw [h2, List.getElem?_append_left (by simp)]
    rfl
  · rw [h5]
    rfl
  · intro t ht
    refine ⟨hsub t ht, ?_⟩
    rw [h3 t, hbaselen]
    have hc : 0 ≤ t ∧ t < 0 + n ∧ t < n := by omega
    simp only [hc, and_self, if_true, hbase]
    simp
  · rw [h1, hfirst, hk5, hk2, hR]
    omega
  · rw [h6]
    rfl
  · intro e he x hx
    have h1 := (hall e he).2.2.2
    have h2 := hlow x hx
    have h3 : (HeapObjectsMap.ctor n).next_id_ = kFirstAvailableObjectId n := rfl
    omega

theorem AddSyntheticRootEntries_nodes_witness :
    (kGcRootsFirstSubrootId + 2 * kObjectIdStep < kSnapshotObjectIdRange ∧
      run (HeapObjectsMap.ctor 2) [Op.findOrAdd 8 4 true, Op.findOrAdd 16 4 true] =
        some (⟨13, [(8, 1), (16, 2)], [dummyEntry, ⟨9, 8, 4, true⟩, ⟨11, 16, 4, true⟩]⟩,
          [9, 11])) ∧
    (HeapSnapshot.AddSyntheticRootEntries 2 (fun _ => "(Strong roots)")
      (HeapSnapshot.ctor 2)).2.entries_.map HeapEntry.id_ = [1, 3, 5, 7] ∧
    ∀ e ∈ (HeapSnapshot.AddSyntheticRootEntries 2 (fun _ => "(Strong roots)")
        (HeapSnapshot.ctor 2)).2.entries_,
      ∀ x ∈ [9, 11], e.id_ < x :=
  ⟨⟨by decide, rfl⟩, rfl,
    (AddSyntheticRootEntries_nodes 2 (fun _ => "(Strong roots)")
      [Op.findOrAdd 8 4 true, Op.findOrAdd 16 4 true]
      ⟨13, [(8, 1), (16, 2)], [dummyEntry, ⟨9, 8, 4, true⟩, ⟨11, 16, 4, true⟩]⟩ [9, 11]
      (by decide) rfl (by decide)).2.2.2.2.2.2.2.2.2⟩

/-- C11 as it is stated fails: with no sync tag, after `2 ^ 31 - 2` rounds of
`UpdateObjectSize(16, 0)` and `RemoveDeadEntries()` on the new registry the
counter has wrapped to 1, and the next `FindOrAddEntry` allocates the id 1,
the id `kInternalRootObjectId` of the synthetic root. -/
theorem registry_allocates_root_id_after_wrap :
    (HeapSnapshot.AddSyntheticRootEntries 0 (fun _ => "") (HeapSnapshot.ctor 0)).2.entries_ =
      [⟨HeapEntryType.kSynthetic, 0, -1, 0, "", 1, 0⟩,
        ⟨HeapEntryType.kSynthetic, 0, -1, 0, "(GC roots)", 3, 0⟩] ∧
    ∃ s ids, run (HeapObjectsMap.ctor 0) (sweepRounds 2147483646 ++ [Op.findOrAdd 16 0 true]) =
      some (s, ids ++ [1]) := by
  refine ⟨rfl, ?_⟩
  obtain ⟨ids, hids⟩ := run_sweepRounds 2147483646 5
  have harith : (if 2147483646 = 0 then 5 else (5 + 2 * 2147483646) % 4294967296) = 1 := by
    norm_num
  rw [harith] at hids
  have hlast : run (emptiedState 1) [Op.findOrAdd 16 0 true] =
      some (⟨3, [(16, 1)], [dummyEntry, ⟨1, 16, 0, true⟩]⟩, [1]) := rfl
  refine ⟨⟨3, [(16, 1)], [dummyEntry, ⟨1, 16, 0, true⟩]⟩, ids, ?_⟩
  rw [run_append]
  have hc : HeapObjectsMap.ctor 0 = emptiedState 5 := rfl
  rw [hc, hids]
  simp only [hlast]

/-! ## Claims on the graph store and the Filler -/

/-- C12. `HeapEntry::SetNamedReference` and `HeapEntry::SetIndexedReference`, called
on an entry `self` of the snapshot for an entry `entry` of the snapshot, return,
and each appends exactly one edge at the end of `edges_`: it has the given type
and label (the name, or the index), its from index is `self` and its to index
is `entry`. The child count of `self` goes up by exactly one. No other entry, no
earlier edge, not the number of entries and no other field of the snapshot
changes. -/
theorem SetReference_appends_one_edge (s : HeapSnapshot) (self entry : Nat)
    (type : HeapGraphEdgeType) (name : String) (index : Int)
    (hself : self < s.entries_.length) (hentry : entry < s.entries_.length) :
    ∀ (label : EdgeLabel) (r : Option HeapSnapshot),
      (label = EdgeLabel.name_ name ∧
          r = HeapEntry.SetNamedReference s self type name entry) ∨
        (label = EdgeLabel.index_ index ∧
          r = HeapEntry.SetIndexedReference s self type index entry) →
      ∃ s1 e, r = some s1 ∧ s.entries_[self]? = some e ∧
        s1.edges_ = s.edges_ ++ [⟨type, self, EdgeTarget.to_index_ entry, label⟩] ∧
        s1.entries_[self]? = some { e with children_count_ := e.children_count_ + 1 } ∧
        (∀ i, i ≠ self → s1.entries_[i]? = s.entries_[i]?) ∧
        s1.entries_.length = s.entries_.length ∧
        (∀ k, k < s.edges_.length → s1.edges_[k]? = s.edges_[k]?) ∧
        s1.edges_.length = s.edges_.length + 1 ∧
        s1.children_ = s.children_ ∧ s1.sorted_entries_ = s.sorted_entries_ ∧
        s1.root_index_ = s.root_index_ ∧ s1.gc_roots_index_ = s.gc_roots_index_ ∧
        s1.gc_subroot_indexes_ = s.gc_subroot_indexes_ := by
  intro label r hr
  have key : ∃ s1, r = some s1 ∧
      AddsEdge s s1 ⟨type, self, EdgeTarget.to_index_ entry, label⟩ := by
    rcases hr with ⟨hl, hr⟩ | ⟨hl, hr⟩
    · subst hl hr
      exact SetNamedReference_AddsEdge s self entry type name hself hentry
    · subst hl hr
      exact SetIndexedReference_AddsEdge s self entry type index hself hentry
  obtain ⟨s1, hs1, hadd⟩ := key
  obtain ⟨h1, h2, ⟨e, he, he1⟩, h4, h5, h6, h7, h8, h9⟩ := AddsEdge_frame s s1 _ hadd
  refine ⟨s1, e, hs1, he, h1, he1, h4, h2, ?_, ?_, h5, h6, h7, h8, h9⟩
  · intro k hk
    rw [h1, List.getElem?_append_left hk]
  · rw [h1]
    simp

theorem SetReference_appends_one_edge_witness :
    ∃ s1 e, HeapEntry.SetIndexedReference twoEntries 0 HeapGraphEdgeType.kElement 7 1 = some s1 ∧
      twoEntries.entries_[0]? = some e ∧
      s1.edges_ = twoEntries.edges_ ++
        [⟨HeapGraphEdgeType.kElement, 0, EdgeTarget.to_index_ 1, EdgeLabel.index_ 7⟩] ∧
      s1.entries_[0]? = some { e with children_count_ := e.children_count_ + 1 } ∧
      (∀ i, i ≠ 0 → s1.entries_[i]? = twoEntries.entries_[i]?) ∧
      s1.entries_.length = twoEntries.entries_.length ∧
      (∀ k, k < twoEntries.edges_.length → s1.edges_[k]? = twoEntries.edges_[k]?) ∧
      s1.edges_.length = twoEntries.edges_.length + 1 ∧
      s1.children_ = twoEntries.children_ ∧ s1.sorted_entries_ = twoEntries.sorted_entries_ ∧
      s1.root_index_ = twoEntries.root_index_ ∧
      s1.gc_roots_index_ = twoEntries.gc_roots_index_ ∧
      s1.gc_subroot_indexes_ = twoEntries.gc_subroot_indexes_ :=
  SetReference_appends_one_edge twoEntries 0 1 HeapGraphEdgeType.kElement "x" 7
    (by decide) (by decide) (EdgeLabel.index_ 7) _ (Or.inr ⟨rfl, rfl⟩)

/-! ## Claims on FillChildren -/

theorem Built_linkedEntries : Built linkedEntries :=
  @Built.setNamedReference _ linkedEntries 2 HeapGraphEdgeType.kInternal "back" 1
    (@Built.setIndexedReference _ _ 0 HeapGraphEdgeType.kElement 2 2
      (@Built.setIndexedReference _ _ 1 HeapGraphEdgeType.kElement 0 2
        (@Built.setNamedReference _ _ 0 HeapGraphEdgeType.kProperty "x" 1
          (Built.addEntry HeapEntryType.kObject "B" 7 16 0
            (Built.addEntry HeapEntryType.kObject "A" 5 16 0
              (Built.addRootEntry (Built.ctor 0))))
          rfl)
        rfl)
      rfl)
    rfl

/-- C13. For every store built by add-node and add-edge calls on a new snapshot,
the child counts of the entries add up to the number of edges, and
`FillChildren` returns: the last value of its `children_index` is the number of
edges (what its `DCHECK_EQ` asserts), the number of entries is as before, and
the `children_index_` of every entry is the sum of the child counts that the
entries with a smaller index had when `FillChildren` was called. -/
theorem FillChildren_start_is_sum_below (s : HeapSnapshot) (h : Built s) :
    (s.entries_.map HeapEntry.children_count_).sum = s.edges_.length ∧
    ∃ (total : Nat) (s2 : HeapSnapshot), HeapSnapshot.FillChildren s = some (total, s2) ∧
      total = s.edges_.length ∧ s2.entries_.length = s.entries_.length ∧
      ∀ (i : Nat) (e2 : HeapEntry), s2.entries_[i]? = some e2 →
        e2.children_index_ = (((s.entries_.take i).map HeapEntry.children_count_).sum : Nat) := by
  have hinv := Built_StoreInv s h
  obtain ⟨s2, hs2, hfill⟩ := FillChildren_spec s hinv
  refine ⟨hinv.total, s.edges_.length, s2, hs2, rfl, hfill.entries_len, ?_⟩
  intro i e2 he2
  have hlt : i < s.entries_.length := by
    rw [← hfill.entries_len]
    exact lt_length_of_getElem? he2
  have := hfill.entry i _ (List.getElem?_eq_getElem hlt)
  rw [he2] at this
  simp only [Option.some.injEq] at this
  rw [this]
  rfl

theorem FillChildren_start_is_sum_below_witness :
    Built linkedEntries ∧
    (linkedEntries.entries_.map HeapEntry.children_count_).sum = linkedEntries.edges_.length ∧
    (HeapSnapshot.FillChildren linkedEntries).map
        (fun r => (r.1, r.2.entries_.map HeapEntry.children_index_)) = some (4, [0, 2, 3]) ∧
    ∃ (total : Nat) (s2 : HeapSnapshot),
      HeapSnapshot.FillChildren linkedEntries = some (total, s2) ∧
      total = linkedEntries.edges_.length ∧
      s2.entries_.length = linkedEntries.entries_.length ∧
      ∀ (i : Nat) (e2 : HeapEntry), s2.entries_[i]? = some e2 →
        e2.children_index_ =
          (((linkedEntries.entries_.take i).map HeapEntry.children_count_).sum : Nat) :=
  ⟨Built_linkedEntries, (FillChildren_start_is_sum_below linkedEntries Built_linkedEntries).1,
    by decide, (FillChildren_start_is_sum_below linkedEntries Built_linkedEntries).2⟩

/-- C14. For every store built by add-node and add-edge calls on a new snapshot,
`FillChildren` returns, and afterwards: `children_` is a permutation of the
pointers to all edges; every entry `i` has as its child count the number of the
edges that leave it, which is the count it had before, and its run of
`children_`, from its start index on and of the length of its child count, is
the list of the edges that leave it, in the order of their insertion; the run
of the entry `i + 1` starts where the run of the entry `i` ends; along
`children_` the from index does not decrease; every edge keeps its type, its
from index and its label. -/
theorem FillChildren_buckets_edges (s : HeapSnapshot) (h : Built s) :
    ∃ (total : Nat) (s2 : HeapSnapshot), HeapSnapshot.FillChildren s = some (total, s2) ∧
      s2.children_.Perm ((List.range s.edges_.length).map some) ∧
      (∀ (i : Nat) (e0 : HeapEntry), s.entries_[i]? = some e0 →
        ∃ (e2 : HeapEntry) (start : Nat), s2.entries_[i]? = some e2 ∧
          e2.children_index_ = (start : Int) ∧
          e2.children_count_ = (edgesFrom s.edges_ i).length ∧
          e2.children_count_ = e0.children_count_ ∧
          (s2.children_.drop start).take e2.children_count_ = (edgesFrom s.edges_ i).map some ∧
          (edgesFrom s.edges_ i).Pairwise (· < ·) ∧
          (∀ (e3 : HeapEntry), s2.entries_[i + 1]? = some e3 →
            e3.children_index_ = ((start + e2.children_count_ : Nat) : Int))) ∧
      (∀ (p q k1 k2 : Nat) (e1 e2 : HeapGraphEdge), p ≤ q →
        s2.children_[p]? = some (some k1) → s2.children_[q]? = some (some k2) →
        s2.edges_[k1]? = some e1 → s2.edges_[k2]? = some e2 →
        e1.from_index ≤ e2.from_index) ∧
      (∀ (k : Nat) (edge : HeapGraphEdge), s.edges_[k]? = some edge →
        ∃ edge2, s2.edges_[k]? = some edge2 ∧ edge2.type = edge.type ∧
          edge2.from_index = edge.from_index ∧ edge2.label = edge.label) := by
  have hinv := Built_StoreInv s h
  obtain ⟨s2, hs2, hfill⟩ := FillChildren_spec s hinv
  refine ⟨s.edges_.length, s2, hs2, FillInv_perm s s2 hinv hfill, ?_,
    FillInv_ordered s s2 hinv hfill, ?_⟩
  · intro i e0 he0
    have he2 := hfill.entry i e0 he0
    rw [edgesFrom_take_length] at he2
    refine ⟨_, childCountsBelow s.entries_ i, he2, rfl, rfl, (hinv.counts i e0 he0).symm,
      FillInv_run s s2 hfill i, edgesFrom_increasing s.edges_ i, ?_⟩
    intro e3 he3
    have hlt : i + 1 < s.entries_.length := by
      rw [← hfill.entries_len]
      exact lt_length_of_getElem? he3
    have := hfill.entry (i + 1) _ (List.getElem?_eq_getElem hlt)
    rw [he3] at this
    simp only [Option.some.injEq] at this
    rw [this]
    simp only
    rw [childCountsBelow_succ s.entries_ i e0 he0, hinv.counts i e0 he0]
  · intro k edge hk
    obtain ⟨hfrom, j, hto, hj⟩ := hinv.edges_in k edge hk
    have := hfill.edges k j edge hk hto
    simp only [lt_length_of_getElem? hk, if_true] at this
    exact ⟨_, this, rfl, rfl, rfl⟩

theorem FillChildren_buckets_edges_witness :
    Built linkedEntries ∧
    (HeapSnapshot.FillChildren linkedEntries).map
        (fun r => (r.2.children_, r.2.entries_.map HeapEntry.children_count_)) =
      some ([some 0, some 2, some 1, some 3], [2, 1, 1]) ∧
    ∃ (total : Nat) (s2 : HeapSnapshot),
      HeapSnapshot.FillChildren linkedEntries = some (total, s2) ∧
      s2.children_.Perm ((List.range linkedEntries.edges_.length).map some) :=
  ⟨Built_linkedEntries, by decide,
    (FillChildren_buckets_edges linkedEntries Built_linkedEntries).imp
      (fun _ h => h.imp (fun _ h2 => ⟨h2.1, h2.2.1⟩))⟩

/-- C15. For every store that calls on the Filler (`AddEntry`, `FindOrAddEntry`,
the four `Set...Reference` calls, each returning only for a parent and a child
that are entries) build on a built snapshot: the from index and the to index of
every edge are below the number of entries; `FillChildren` returns, so
`ReplaceToIndexWithEntry` indexes no entry outside `entries()`; and afterwards
the number of entries is as it was when `FillChildren` was called, every edge
has its from index below it and points to an entry with an index below it. -/
theorem no_dangling_edges (GetName : Int → String) (s0 : HeapSnapshot)
    (calls : List FillerCall) (f : SnapshotFiller) (h0 : Built s0)
    (hrun : applyCalls GetName ⟨s0, []⟩ calls = some f) :
    (∀ (k : Nat) (edge : HeapGraphEdge), f.snapshot_.edges_[k]? = some edge →
      edge.from_index < f.snapshot_.entries_.length ∧
      ∃ j, edge.to_ = EdgeTarget.to_index_ j ∧ j < f.snapshot_.entries_.length) ∧
    ∃ (total : Nat) (s2 : HeapSnapshot),
      HeapSnapshot.FillChildren f.snapshot_ = some (total, s2) ∧
      s2.entries_.length = f.snapshot_.entries_.length ∧
      s2.edges_.length = f.snapshot_.edges_.length ∧
      ∀ (k : Nat) (edge : HeapGraphEdge), s2.edges_[k]? = some edge →
        edge.from_index < f.snapshot_.entries_.length ∧
        ∃ j, edge.to_ = EdgeTarget.to_entry_ j ∧ j < f.snapshot_.entries_.length := by
  have hinv : StoreInv f.snapshot_ :=
    applyCalls_StoreInv GetName calls ⟨s0, []⟩ f (Built_StoreInv s0 h0) hrun
  obtain ⟨s2, hs2, hfill⟩ := FillChildren_spec f.snapshot_ hinv
  refine ⟨hinv.edges_in, f.snapshot_.edges_.length, s2, hs2, hfill.entries_len,
    hfill.edges_len, ?_⟩
  intro k edge hk
  obtain ⟨edge0, j, _, _, hj, hfrom, he⟩ := FillInv_from f.snapshot_ s2 hinv hfill k edge hk
  rw [he]
  exact ⟨hfrom, j, rfl, hj⟩

theorem no_dangling_edges_witness :
    Built (HeapSnapshot.ctor 0).AddRootEntry.2 ∧
    (applyCalls toString ⟨(HeapSnapshot.ctor 0).AddRootEntry.2, []⟩ linkedCalls).map
        (fun f => f.entries_) = some [(8, 1), (24, 2)] ∧
    applyCalls toString ⟨(HeapSnapshot.ctor 0).AddRootEntry.2, []⟩ linkedCalls =
      some ⟨linkedEntries, [(8, 1), (24, 2)]⟩ ∧
    ∃ (total : Nat) (s2 : HeapSnapshot),
      HeapSnapshot.FillChildren linkedEntries = some (total, s2) ∧
      s2.entries_.length = linkedEntries.entries_.length ∧
      s2.edges_.length = linkedEntries.edges_.length ∧
      ∀ (k : Nat) (edge : HeapGraphEdge), s2.edges_[k]? = some edge →
        edge.from_index < linkedEntries.entries_.length ∧
        ∃ j, edge.to_ = EdgeTarget.to_entry_ j ∧ j < linkedEntries.entries_.length :=
  ⟨Built.addRootEntry (Built.ctor 0), rfl, rfl,
    (no_dangling_edges toString (HeapSnapshot.ctor 0).AddRootEntry.2 linkedCalls
      ⟨linkedEntries, [(8, 1), (24, 2)]⟩ (Built.addRootEntry (Built.ctor 0)) rfl).2⟩

/-! ## The lookup by id -/

theorem insertionSortBy_contract : SortContract insertionSortBy := by
  intro key l
  unfold insertionSortBy
  refine ⟨List.perm_insertionSort _ l, ?_⟩
  haveI : IsTotal Nat (fun a b => decide (key b < key a) = false) :=
    ⟨fun a b => by
      simp only [decide_eq_false_iff_not, not_lt]
      omega⟩
  haveI : IsTrans Nat (fun a b => decide (key b < key a) = false) :=
    ⟨fun a b c hab hbc => by
      simp only [decide_eq_false_iff_not, not_lt] at hab hbc ⊢
      omega⟩
  have h := List.sorted_insertionSort (fun a b => decide (key b < key a) = false) l
  refine List.Pairwise.imp ?_ h
  intro a b hab
  simp only [decide_eq_false_iff_not, not_lt] at hab
  exact hab

theorem lower_bound_loop_spec (l : List Nat) (comp : Nat → Bool) (p : Nat)
    (hp : ∀ (i x : Nat), l[i]? = some x → (i < p ↔ comp x = true)) :
    ∀ (fuel first len : Nat), len ≤ fuel → first ≤ p → p ≤ first + len →
      first + len ≤ l.length → HeapSnapshot.lower_bound_loop l comp fuel first len = p := by
  intro fuel
  induction fuel with
  | zero =>
    intro first len h1 h2 h3 _
    simp only [HeapSnapshot.lower_bound_loop]
    omega
  | succ fuel ih =>
    intro first len h1 h2 h3 h4
    simp only [HeapSnapshot.lower_bound_loop]
    by_cases hlen : len = 0
    · simp only [hlen, if_true]
      omega
    · simp only [hlen, if_false]
      have hmid : first + len / 2 < l.length := by omega
      rw [List.getElem?_eq_getElem hmid]
      simp only
      have hx := hp (first + len / 2) l[first + len / 2] (List.getElem?_eq_getElem hmid)
      by_cases hc : comp l[first + len / 2] = true
      · simp only [hc, if_true]
        have := hx.mpr hc
        exact ih _ _ (by omega) (by omega) (by omega) (by omega)
      · simp only [hc]
        have : ¬ first + len / 2 < p := fun h => hc (hx.mp h)
        exact ih _ _ (by omega) (by omega) (by omega) (by omega)

theorem lower_bound_spec (l : List Nat) (comp : Nat → Bool) (p : Nat) (hle : p ≤ l.length)
    (hp : ∀ (i x : Nat), l[i]? = some x → (i < p ↔ comp x = true)) :
    HeapSnapshot.lower_bound l comp = p :=
  lower_bound_loop_spec l comp p hp l.length 0 l.length (Nat.le_refl _) (Nat.zero_le _)
    (by omega) (by omega)

theorem partition_point (key : Nat → Nat) (id : Nat) :
    ∀ (l : List Nat), l.Pairwise (fun a b => key a ≤ key b) →
      ∃ p, p ≤ l.length ∧ ∀ (i x : Nat), l[i]? = some x → (i < p ↔ key x < id) := by
  intro l
  induction l with
  | nil =>
    intro _
    exact ⟨0, Nat.le_refl _, fun i x h => by simp at h⟩
  | cons a l ih =>
    intro hs
    obtain ⟨ha, hl⟩ := List.pairwise_cons.mp hs
    obtain ⟨p, hple, hp⟩ := ih hl
    by_cases hlt : key a < id
    · refine ⟨p + 1, by simp; omega, ?_⟩
      intro i x hi
      cases i with
      | zero =>
        simp only [List.getElem?_cons_zero, Option.some.injEq] at hi
        subst hi
        simp [hlt]
      | succ i =>
        simp only [List.getElem?_cons_succ] at hi
        rw [← hp i x hi]
        omega
    · refine ⟨0, Nat.zero_le _, ?_⟩
      intro i x hi
      have hx : key a ≤ key x := by
        cases i with
        | zero =>
          simp only [List.getElem?_cons_zero, Option.some.injEq] at hi
          subst hi
          exact Nat.le_refl _
        | succ i =>
          simp only [List.getElem?_cons_succ] at hi
          exact ha x (List.getElem?_mem hi)
      constructor
      · intro h
        omega
      · intro h
        omega

theorem entryId_eq (s : HeapSnapshot) (entry : Nat) (e : HeapEntry)
    (h : s.entries_[entry]? = some e) : s.entryId entry = e.id_ := by
  simp [HeapSnapshot.entryId, h]

theorem GetSortedEntriesList_spec (std_sort : (Nat → Nat → Bool) → List Nat → List Nat)
    (hsort : SortContract std_sort) (s : HeapSnapshot) (hok : SortedEntriesOk s) :
    (s.GetSortedEntriesList std_sort).1.Perm (List.range s.entries_.length) ∧
    (s.GetSortedEntriesList std_sort).1.Pairwise (fun a b => s.entryId a ≤ s.entryId b) ∧
    (s.GetSortedEntriesList std_sort).2 =
      { s with sorted_entries_ := (s.GetSortedEntriesList std_sort).1 } ∧
    (s.sorted_entries_ = [] → (s.GetSortedEntriesList std_sort).1 =
      std_sort (HeapSnapshot.SortByIds s) (List.range s.entries_.length)) ∧
    (s.sorted_entries_ ≠ [] → s.GetSortedEntriesList std_sort = (s.sorted_entries_, s)) := by
  by_cases hempty : s.sorted_entries_ = []
  · have hres : s.GetSortedEntriesList std_sort =
        (std_sort (HeapSnapshot.SortByIds s) (List.range s.entries_.length),
          { s with sorted_entries_ :=
            std_sort (HeapSnapshot.SortByIds s) (List.range s.entries_.length) }) := by
      simp [HeapSnapshot.GetSortedEntriesList, hempty]
    obtain ⟨h1, h2⟩ := hsort s.entryId (List.range s.entries_.length)
    rw [hres]
    exact ⟨h1, h2, rfl, fun _ => rfl, fun h => absurd hempty h⟩
  · have hres : s.GetSortedEntriesList std_sort = (s.sorted_entries_, s) := by
      have hne : s.sorted_entries_.isEmpty = false := by
        cases hs : s.sorted_entries_ with
        | nil => exact absurd hs hempty
        | cons a l => rfl
      simp [HeapSnapshot.GetSortedEntriesList, hne]
    rcases hok with hok | ⟨h1, h2⟩
    · exact absurd hok hempty
    · rw [hres]
      exact ⟨h1, h2, rfl, fun h => absurd h hempty, fun _ => rfl⟩

theorem GetEntryById_spec (std_sort : (Nat → Nat → Bool) → List Nat → List Nat)
    (hsort : SortContract std_sort) (s : HeapSnapshot) (hok : SortedEntriesOk s) (id : Nat) :
    (s.GetEntryById std_sort id).2 = (s.GetSortedEntriesList std_sort).2 ∧
    ((∃ e ∈ s.entries_, e.id_ = id) →
      ∃ entry e, (s.GetEntryById std_sort id).1 = some entry ∧
        s.entries_[entry]? = some e ∧ e.id_ = id) ∧
    ((s.GetEntryById std_sort id).1 = none ↔ ¬ ∃ e ∈ s.entries_, e.id_ = id) := by
  obtain ⟨hperm, hsorted, hstate, _, _⟩ := GetSortedEntriesList_spec std_sort hsort s hok
  have hid : ∀ entry, (s.GetSortedEntriesList std_sort).2.entryId entry = s.entryId entry := by
    intro entry
    rw [hstate]
    rfl
  obtain ⟨p, hple, hp⟩ := partition_point s.entryId id _ hsorted
  have hlb : HeapSnapshot.lower_bound (s.GetSortedEntriesList std_sort).1
      (fun first => decide ((s.GetSortedEntriesList std_sort).2.entryId first < id)) = p := by
    apply lower_bound_spec _ _ p hple
    intro i x hi
    rw [hp i x hi, hid]
    simp
  have hmem : ∀ x, x ∈ (s.GetSortedEntriesList std_sort).1 → x < s.entries_.length := by
    intro x hx
    exact List.mem_range.mp ((hperm.mem_iff).mp hx)
  -- the result, by the element at the position `p`
  have hres : (s.GetEntryById std_sort id) =
      match (s.GetSortedEntriesList std_sort).1[p]? with
      | none => (none, (s.GetSortedEntriesList std_sort).2)
      | some entry =>
        if s.entryId entry ≠ id then (none, (s.GetSortedEntriesList std_sort).2)
        else (some entry, (s.GetSortedEntriesList std_sort).2) := by
    unfold HeapSnapshot.GetEntryById
    simp only [hlb]
    cases (s.GetSortedEntriesList std_sort).1[p]? with
    | none => rfl
    | some entry => simp only [hid]
  -- an entry with the id is at the position `p`
  have hfound : (∃ e ∈ s.entries_, e.id_ = id) →
      ∃ entry e, (s.GetSortedEntriesList std_sort).1[p]? = some entry ∧
        s.entries_[entry]? = some e ∧ e.id_ = id := by
    rintro ⟨e, he, heid⟩
    obtain ⟨q, hq⟩ := List.mem_iff_getElem?.mp he
    have hqlt : q < s.entries_.length := lt_length_of_getElem? hq
    have hqmem : q ∈ (s.GetSortedEntriesList std_sort).1 :=
      (hperm.mem_iff).mpr (List.mem_range.mpr hqlt)
    obtain ⟨i, hi⟩ := List.mem_iff_getElem?.mp hqmem
    have hkq : s.entryId q = id := by rw [entryId_eq s q e hq, heid]
    have hip : ¬ i < p := by
      intro h
      have := (hp i q hi).mp h
      omega
    have hilt : i < (s.GetSortedEntriesList std_sort).1.length := lt_length_of_getElem? hi
    have hplt : p < (s.GetSortedEntriesList std_sort).1.length := by omega
    have hpx := List.getElem?_eq_getElem hplt
    have hxge : ¬ s.entryId (s.GetSortedEntriesList std_sort).1[p] < id := by
      intro h
      have := (hp p _ hpx).mpr h
      omega
    have hxle : s.entryId (s.GetSortedEntriesList std_sort).1[p] ≤ id := by
      by_cases hpi : p = i
      · subst hpi
        rw [hpx] at hi
        simp only [Option.some.injEq] at hi
        rw [hi, hkq]
      · have h := (List.pairwise_iff_getElem.mp hsorted) p i hplt hilt (by omega)
        have hiq : (s.GetSortedEntriesList std_sort).1[i] = q := by
          rw [List.getElem?_eq_getElem hilt] at hi
          exact Option.some.inj hi
        rw [hiq, hkq] at h
        exact h
    have hxlt := hmem _ (List.getElem_mem hplt)
    refine ⟨_, s.entries_[(s.GetSortedEntriesList std_sort).1[p]], hpx,
      List.getElem?_eq_getElem hxlt, ?_⟩
    rw [← entryId_eq s _ _ (List.getElem?_eq_getElem hxlt)]
    omega
  refine ⟨?_, ?_, ?_⟩
  · rw [hres]
    cases (s.GetSortedEntriesList std_sort).1[p]? with
    | none => rfl
    | some entry =>
      simp only
      split_ifs <;> rfl
  · intro hex
    obtain ⟨entry, e, h1, h2, h3⟩ := hfound hex
    refine ⟨entry, e, ?_, h2, h3⟩
    rw [hres, h1]
    simp only
    rw [entryId_eq s entry e h2, h3]
    simp
  · constructor
    · intro hnone hex
      obtain ⟨entry, e, h1, h2, h3⟩ := hfound hex
      rw [hres, h1] at hnone
      simp only at hnone
      rw [entryId_eq s entry e h2, h3] at hnone
      simp at hnone
    · intro hno
      rw [hres]
      cases hx : (s.GetSortedEntriesList std_sort).1[p]? with
      | none => rfl
      | some entry =>
        simp only
        have hlt := hmem entry (List.getElem?_mem hx)
        by_cases hne : s.entryId entry = id
        · exfalso
          apply hno
          refine ⟨s.entries_[entry], List.getElem_mem hlt, ?_⟩
          rw [← entryId_eq s _ _ (List.getElem?_eq_getElem hlt)]
          exact hne
        · simp [hne]

theorem SortedEntriesOk_GetSortedEntriesList
    (std_sort : (Nat → Nat → Bool) → List Nat → List Nat)
    (hsort : SortContract std_sort) (s : HeapSnapshot) (hok : SortedEntriesOk s) :
    SortedEntriesOk (s.GetSortedEntriesList std_sort).2 := by
  obtain ⟨h1, h2, h3, _, _⟩ := GetSortedEntriesList_spec std_sort hsort s hok
  rw [h3]
  exact Or.inr ⟨h1, h2⟩

theorem Built_sorted_entries (s : HeapSnapshot) (h : Built s) : s.sorted_entries_ = [] := by
  induction h with
  | ctor n => rfl
  | addEntry type name id size trace_node_id _ ih => exact ih
  | addRootEntry _ ih => exact ih
  | addGcRootsEntry _ ih => exact ih
  | addGcSubrootEntry kTagNames tag id _ ih => exact ih
  | setNamedReference self type name entry _ hs ih =>
    obtain ⟨h1, h2⟩ := SetNamedReference_some _ _ _ _ _ _ hs
    obtain ⟨s2, hs2, hadd⟩ := SetNamedReference_AddsEdge _ self entry type name h1 h2
    rw [hs] at hs2
    cases hs2
    rw [(AddsEdge_frame _ _ _ hadd).2.2.2.2.2.1]
    exact ih
  | setIndexedReference self type index entry _ hs ih =>
    obtain ⟨h1, h2⟩ := SetIndexedReference_some _ _ _ _ _ _ hs
    obtain ⟨s2, hs2, hadd⟩ := SetIndexedReference_AddsEdge _ self entry type index h1 h2
    rw [hs] at hs2
    cases hs2
    rw [(AddsEdge_frame _ _ _ hadd).2.2.2.2.2.1]
    exact ih

/-- C16. For a `std::sort` that keeps its contract and a snapshot whose
`sorted_entries_` is not built, or was built by an earlier query: the list of `GetSortedEntriesList` is a permutation of the
pointers to all entries, in the order of non-decreasing id; it is the result of
the sort when `sorted_entries_` was empty, and is kept in `sorted_entries_`;
when `sorted_entries_` was not empty it is that list, and nothing changes.
`GetEntryById(id)` leaves the snapshot as `GetSortedEntriesList` does; it
returns an entry of the snapshot with the id `id` whenever some entry has that
id, and `nullptr` exactly when no entry has it. -/
theorem GetEntryById_finds_entry (std_sort : (Nat → Nat → Bool) → List Nat → List Nat)
    (hsort : SortContract std_sort) (s : HeapSnapshot) (hok : SortedEntriesOk s) (id : Nat) :
    ((s.GetSortedEntriesList std_sort).1.Perm (List.range s.entries_.length) ∧
      (s.GetSortedEntriesList std_sort).1.Pairwise (fun a b => s.entryId a ≤ s.entryId b) ∧
      (s.GetSortedEntriesList std_sort).2 =
        { s with sorted_entries_ := (s.GetSortedEntriesList std_sort).1 } ∧
      (s.sorted_entries_ = [] → (s.GetSortedEntriesList std_sort).1 =
        std_sort (HeapSnapshot.SortByIds s) (List.range s.entries_.length)) ∧
      (s.sorted_entries_ ≠ [] → s.GetSortedEntriesList std_sort = (s.sorted_entries_, s)) ∧
      SortedEntriesOk (s.GetSortedEntriesList std_sort).2) ∧
    ((s.GetEntryById std_sort id).2 = (s.GetSortedEntriesList std_sort).2 ∧
      ((∃ e ∈ s.entries_, e.id_ = id) →
        ∃ entry e, (s.GetEntryById std_sort id).1 = some entry ∧
          s.entries_[entry]? = some e ∧ e.id_ = id) ∧
      ((s.GetEntryById std_sort id).1 = none ↔ ¬ ∃ e ∈ s.entries_, e.id_ = id)) := by
  obtain ⟨h1, h2, h3, h4, h5⟩ := GetSortedEntriesList_spec std_sort hsort s hok
  exact ⟨⟨h1, h2, h3, h4, h5, SortedEntriesOk_GetSortedEntriesList std_sort hsort s hok⟩,
    GetEntryById_spec std_sort hsort s hok id⟩

theorem GetEntryById_finds_entry_witness :
    (HeapSnapshot.GetSortedEntriesList insertionSortBy threeEntries).1 = [1, 2, 0] ∧
    (HeapSnapshot.GetEntryById insertionSortBy threeEntries 7).1 = some 2 ∧
    ((HeapSnapshot.GetEntryById insertionSortBy threeEntries 6).1 = none ↔
      ¬ ∃ e ∈ threeEntries.entries_, e.id_ = 6) :=
  ⟨by decide, by decide,
    (GetEntryById_finds_entry insertionSortBy insertionSortBy_contract threeEntries (Or.inl rfl)
      6).2.2.2⟩

/-- C17. In the Filler reached by any sequence of calls from an empty map (over
any snapshot, also one without entries): `FindEntry(thing)` is `nullptr`, and
`Map(thing)` is `kNoEntry`, exactly when neither `AddEntry` nor `FindOrAddEntry`
was called for the thing, and else it is an entry of the snapshot;
`AddEntry(thing)` appends one entry, returns it, and `FindEntry(thing)` returns
it afterwards, whatever its index (0 on a snapshot without entries);
`FindOrAddEntry` on an added thing returns the entry `FindEntry` gives and
changes nothing, on a new thing it is `AddEntry`; a second `FindOrAddEntry` for
the same thing returns the entry of the first and adds none. -/
theorem Filler_materialises_once (GetName : Int → String) (s0 : HeapSnapshot)
    (calls : List FillerCall) (f : SnapshotFiller)
    (hrun : applyCalls GetName ⟨s0, []⟩ calls = some f) (thing : Nat)
    (allocator : HeapEntriesAllocator) :
    (f.FindEntry thing = none ↔ thing ∉ addedThings calls) ∧
    (f.FindEntry thing = none ↔ HeapEntriesMap.Map f.entries_ thing = kNoEntry) ∧
    (∀ entry, f.FindEntry thing = some entry → entry < f.snapshot_.entries_.length) ∧
    ((f.AddEntry thing allocator).1 = f.snapshot_.entries_.length ∧
      (f.AddEntry thing allocator).2.snapshot_.entries_ =
        f.snapshot_.entries_ ++ [⟨(allocator thing).type, 0, -1, (allocator thing).size,
          (allocator thing).name, (allocator thing).id, (allocator thing).trace_node_id⟩] ∧
      (f.AddEntry thing allocator).2.FindEntry thing = some (f.AddEntry thing allocator).1) ∧
    (thing ∈ addedThings calls →
      ∃ entry, f.FindEntry thing = some entry ∧
        f.FindOrAddEntry thing allocator = (entry, f)) ∧
    (thing ∉ addedThings calls →
      f.FindOrAddEntry thing allocator = f.AddEntry thing allocator) ∧
    (∀ allocator2 : HeapEntriesAllocator,
      (f.FindOrAddEntry thing allocator).2.FindOrAddEntry thing allocator2 =
        f.FindOrAddEntry thing allocator) := by
  have hlook := applyCalls_Lookup GetName calls ⟨s0, []⟩ f hrun thing
  have hrange : MapInRange f :=
    applyCalls_MapInRange GetName calls ⟨s0, []⟩ f
      (fun t v hv => by simp [HashMap.Lookup] at hv) hrun
  have hnone : f.FindEntry thing = none ↔ thing ∉ addedThings calls := by
    rw [FindEntry_eq_Lookup]
    have h0 : HashMap.Lookup ([] : HashMap) thing = none := rfl
    simp only [h0, ne_eq, not_true_eq_false, false_or] at hlook
    constructor
    · intro h hmem
      exact (hlook.mpr hmem) h
    · intro h
      by_contra hne
      exact h (hlook.mp hne)
  have haddfind : (f.AddEntry thing allocator).2.FindEntry thing =
      some (f.AddEntry thing allocator).1 := by
    rw [FindEntry_eq_Lookup]
    have hmap : (f.AddEntry thing allocator).2.entries_ =
        HeapEntriesMap.Pair f.entries_ thing f.snapshot_.entries_.length := rfl
    rw [hmap, Lookup_Pair]
    simp [SnapshotFiller.AddEntry, HeapEntriesAllocator.AllocateEntry, HeapSnapshot.AddEntry]
  refine ⟨hnone, ?_, ?_, ⟨rfl, rfl, haddfind⟩, ?_, ?_, ?_⟩
  · unfold SnapshotFiller.FindEntry
    by_cases h : HeapEntriesMap.Map f.entries_ thing = kNoEntry
    · simp [h]
    · simp [h]
  · intro entry he
    rw [FindEntry_eq_Lookup] at he
    exact hrange thing entry he
  · intro hmem
    rcases Filler_FindOrAddEntry_cases f thing allocator with ⟨entry, hl, he⟩ | ⟨hl, _⟩
    · exact ⟨entry, by rw [FindEntry_eq_Lookup]; exact hl, he⟩
    · rw [← FindEntry_eq_Lookup] at hl
      exact absurd hmem (hnone.mp hl)
  · intro hmem
    rcases Filler_FindOrAddEntry_cases f thing allocator with ⟨entry, hl, _⟩ | ⟨_, he⟩
    · rw [← FindEntry_eq_Lookup] at hl
      have := hnone.mpr hmem
      rw [this] at hl
      exact Option.noConfusion hl
    · exact he
  · intro allocator2
    rcases Filler_FindOrAddEntry_cases f thing allocator with ⟨entry, hl, he⟩ | ⟨_, he⟩
    · rw [he]
      rcases Filler_FindOrAddEntry_cases f thing allocator2 with ⟨entry2, hl2, he2⟩ | ⟨hl2, _⟩
      · rw [hl] at hl2
        cases hl2
        exact he2
      · rw [hl] at hl2
        exact Option.noConfusion hl2
    · rw [he]
      rcases Filler_FindOrAddEntry_cases (f.AddEntry thing allocator).2 thing allocator2 with
        ⟨entry2, hl2, he2⟩ | ⟨hl2, _⟩
      · rw [he2]
        rw [← FindEntry_eq_Lookup, haddfind] at hl2
        cases hl2
        rfl
      · rw [← FindEntry_eq_Lookup, haddfind] at hl2
        exact Option.noConfusion hl2

theorem Filler_materialises_once_witness :
    applyCalls toString ⟨HeapSnapshot.ctor 0, []⟩ [] = some ⟨HeapSnapshot.ctor 0, []⟩ ∧
    (SnapshotFiller.AddEntry ⟨HeapSnapshot.ctor 0, []⟩ 8
      (fun _ => ⟨HeapEntryType.kObject, "Object", 5, 16, 0⟩)).1 = 0 ∧
    (SnapshotFiller.AddEntry ⟨HeapSnapshot.ctor 0, []⟩ 8
      (fun _ => ⟨HeapEntryType.kObject, "Object", 5, 16, 0⟩)).2.FindEntry 8 = some 0 :=
  ⟨rfl,
    (Filler_materialises_once toString (HeapSnapshot.ctor 0) [] ⟨HeapSnapshot.ctor 0, []⟩ rfl 8
      (fun _ => ⟨HeapEntryType.kObject, "Object", 5, 16, 0⟩)).2.2.2.1.1,
    (Filler_materialises_once toString (HeapSnapshot.ctor 0) [] ⟨HeapSnapshot.ctor 0, []⟩ rfl 8
      (fun _ => ⟨HeapEntryType.kObject, "Object", 5, 16, 0⟩)).2.2.2.1.2.2⟩

theorem LabelsRun_AddsEdge (GetName : Int → String) (p : Nat) (s s1 : HeapSnapshot)
    (edge : HeapGraphEdge) (hinv : StoreInv s) (h : LabelsRun GetName p s)
    (hadd : AddsEdge s s1 edge)
    (hlabel : edge.from_index = p → ∃ e, s.entries_[p]? = some e ∧
      (edge.label = EdgeLabel.index_ ((e.children_count_ : Int) + 1) ∨
        edge.label = EdgeLabel.name_ (GetName ((e.children_count_ : Int) + 1)))) :
    LabelsRun GetName p s1 := by
  have hedges := (AddsEdge_frame s s1 edge hadd).1
  intro j k edge2 hj hk
  rw [hedges] at hj hk
  rw [edgesFrom_append] at hj
  by_cases hjl : j < (edgesFrom s.edges_ p).length
  · rw [List.getElem?_append_left hjl] at hj
    obtain ⟨edge3, he3, _⟩ := edgesFrom_lt s.edges_ p k (List.getElem?_mem hj)
    rw [List.getElem?_append_left (lt_length_of_getElem? he3)] at hk
    exact h j k edge2 hj hk
  · rw [List.getElem?_append_right (by omega)] at hj
    by_cases hf : edge.from_index = p
    · simp only [hf, if_true] at hj
      have hj0 : j - (edgesFrom s.edges_ p).length = 0 := by
        by_contra hne
        have : ([s.edges_.length] : List Nat)[j - (edgesFrom s.edges_ p).length]? = none :=
          List.getElem?_eq_none (by simp; omega)
        rw [this] at hj
        exact Option.noConfusion hj
      rw [hj0] at hj
      simp only [List.getElem?_cons_zero, Option.some.injEq] at hj
      subst hj
      rw [List.getElem?_append_right (Nat.le_refl _)] at hk
      simp only [Nat.sub_self, List.getElem?_cons_zero, Option.some.injEq] at hk
      subst hk
      obtain ⟨e, he, hl⟩ := hlabel hf
      have hcount := hinv.counts p e he
      have hje : j = e.children_count_ := by omega
      rw [hje]
      exact hl
    · simp only [hf, if_false] at hj
      simp at hj

theorem LabelsRun_apply (GetName : Int → String) (p : Nat) (f f1 : SnapshotFiller)
    (c : FillerCall)
    (h : StoreInv f.snapshot_ ∧ LabelsRun GetName p f.snapshot_) (hq : c.autoIndexFor p)
    (hc : c.apply GetName f = some f1) :
    StoreInv f1.snapshot_ ∧ LabelsRun GetName p f1.snapshot_ := by
  refine ⟨StoreInv_apply GetName f f1 c h.1 hc, ?_⟩
  have hsame : ∀ (ptr : Nat) (allocator : HeapEntriesAllocator),
      LabelsRun GetName p (f.AddEntry ptr allocator).2.snapshot_ :=
    fun _ _ => h.2
  cases c with
  | AddEntry ptr allocator =>
    simp only [FillerCall.apply, Option.some.injEq] at hc
    subst hc
    exact hsame ptr allocator
  | FindOrAddEntry ptr allocator =>
    simp only [FillerCall.apply, Option.some.injEq] at hc
    subst hc
    rcases Filler_FindOrAddEntry_cases f ptr allocator with ⟨entry, _, he⟩ | ⟨_, he⟩
    · rw [he]
      exact h.2
    · rw [he]
      exact hsame ptr allocator
  | SetIndexedReference type parent index child_entry =>
    obtain ⟨_, _, hadd⟩ := Filler_SetIndexedReference_some _ _ _ _ _ _ hc
    exact LabelsRun_AddsEdge GetName p _ _ _ h.1 h.2 hadd (fun hf => absurd hf hq)
  | SetIndexedAutoIndexReference type parent child_entry =>
    obtain ⟨e, he, _, _, hadd⟩ := Filler_SetIndexedAutoIndexReference_some _ _ _ _ _ hc
    refine LabelsRun_AddsEdge GetName p _ _ _ h.1 h.2 hadd (fun hf => ?_)
    simp only at hf
    subst hf
    exact ⟨e, he, Or.inl rfl⟩
  | SetNamedReference type parent name child_entry =>
    obtain ⟨_, _, hadd⟩ := Filler_SetNamedReference_some _ _ _ _ _ _ hc
    exact LabelsRun_AddsEdge GetName p _ _ _ h.1 h.2 hadd (fun hf => absurd hf hq)
  | SetNamedAutoIndexReference type parent child_entry =>
    obtain ⟨e, he, _, _, hadd⟩ := Filler_SetNamedAutoIndexReference_some _ _ _ _ _ _ hc
    refine LabelsRun_AddsEdge GetName p _ _ _ h.1 h.2 hadd (fun hf => ?_)
    simp only at hf
    subst hf
    exact ⟨e, he, Or.inr rfl⟩

theorem Filler_SetIndexedAutoIndexReference_AddsEdge (f : SnapshotFiller)
    (type : HeapGraphEdgeType) (parent child_entry : Nat) (parent_entry : HeapEntry)
    (hp : f.snapshot_.entries_[parent]? = some parent_entry)
    (hc : child_entry < f.snapshot_.entries_.length) :
    ∃ f1, f.SetIndexedAutoIndexReference type parent child_entry = some f1 ∧
      f1.entries_ = f.entries_ ∧
      AddsEdge f.snapshot_ f1.snapshot_ ⟨type, parent, EdgeTarget.to_index_ child_entry,
        EdgeLabel.index_ ((parent_entry.children_count_ : Int) + 1)⟩ := by
  obtain ⟨s1, hs1, hadd⟩ := SetIndexedReference_AddsEdge f.snapshot_ parent child_entry type
    ((parent_entry.children_count_ : Int) + 1) (lt_length_of_getElem? hp) hc
  refine ⟨{ f with snapshot_ := s1 }, ?_, rfl, hadd⟩
  simp only [SnapshotFiller.SetIndexedAutoIndexReference, hp, hs1]

theorem Filler_SetNamedAutoIndexReference_AddsEdge (GetName : Int → String)
    (f : SnapshotFiller)
    (type : HeapGraphEdgeType) (parent child_entry : Nat) (parent_entry : HeapEntry)
    (hp : f.snapshot_.entries_[parent]? = some parent_entry)
    (hc : child_entry < f.snapshot_.entries_.length) :
    ∃ f1, f.SetNamedAutoIndexReference GetName type parent child_entry = some f1 ∧
      f1.entries_ = f.entries_ ∧
      AddsEdge f.snapshot_ f1.snapshot_ ⟨type, parent, EdgeTarget.to_index_ child_entry,
        EdgeLabel.name_ (GetName ((parent_entry.children_count_ : Int) + 1))⟩ := by
  obtain ⟨s1, hs1, hadd⟩ := SetNamedReference_AddsEdge f.snapshot_ parent child_entry type
    (GetName ((parent_entry.children_count_ : Int) + 1)) (lt_length_of_getElem? hp) hc
  refine ⟨{ f with snapshot_ := s1 }, ?_, rfl, hadd⟩
  simp only [SnapshotFiller.SetNamedAutoIndexReference, hp, hs1]

/-- C18, as the code has it. On an entry `parent` with the child count `c`, for an
entry `child_entry` of the snapshot, `SetIndexedAutoIndexReference` and
`SetNamedAutoIndexReference` each add one edge from `parent` to `child_entry`
whose index is `c + 1` (for the named variant: whose name is what `GetName`
gives for `c + 1`), the child count of the parent once the edge is added, and
change nothing but that edge and the child count. So in every store that the
Filler builds on a built snapshot in which `p` has no edge, by calls among which
`p` is the parent of auto-index calls only, the edges of `p` are labelled
1, 2, 3, ... in the order of their insertion. -/
theorem auto_index_label_is_next_child_count (GetName : Int → String) (f : SnapshotFiller)
    (type : HeapGraphEdgeType) (parent child_entry : Nat) (parent_entry : HeapEntry)
    (hp : f.snapshot_.entries_[parent]? = some parent_entry)
    (hc : child_entry < f.snapshot_.entries_.length) :
    (∃ f1, f.SetIndexedAutoIndexReference type parent child_entry = some f1 ∧
      f1.entries_ = f.entries_ ∧
      AddsEdge f.snapshot_ f1.snapshot_ ⟨type, parent, EdgeTarget.to_index_ child_entry,
        EdgeLabel.index_ ((parent_entry.children_count_ : Int) + 1)⟩) ∧
    (∃ f1, f.SetNamedAutoIndexReference GetName type parent child_entry = some f1 ∧
      f1.entries_ = f.entries_ ∧
      AddsEdge f.snapshot_ f1.snapshot_ ⟨type, parent, EdgeTarget.to_index_ child_entry,
        EdgeLabel.name_ (GetName ((parent_entry.children_count_ : Int) + 1))⟩) ∧
    (∀ (s0 : HeapSnapshot) (calls : List FillerCall) (p : Nat) (f2 : SnapshotFiller),
      Built s0 → edgesFrom s0.edges_ p = [] → (∀ c ∈ calls, c.autoIndexFor p) →
      applyCalls GetName ⟨s0, []⟩ calls = some f2 →
      ∀ (j k : Nat) (edge : HeapGraphEdge),
        (edgesFrom f2.snapshot_.edges_ p)[j]? = some k →
        f2.snapshot_.edges_[k]? = some edge →
        edge.label = EdgeLabel.index_ ((j : Int) + 1) ∨
        edge.label = EdgeLabel.name_ (GetName ((j : Int) + 1))) := by
  refine ⟨Filler_SetIndexedAutoIndexReference_AddsEdge f type parent child_entry parent_entry
      hp hc,
    Filler_SetNamedAutoIndexReference_AddsEdge GetName f type parent child_entry parent_entry
      hp hc, ?_⟩
  intro s0 calls p f2 hb h0 hq hrun
  have hinit : StoreInv (⟨s0, []⟩ : SnapshotFiller).snapshot_ ∧
      LabelsRun GetName p (⟨s0, []⟩ : SnapshotFiller).snapshot_ := by
    refine ⟨Built_StoreInv s0 hb, ?_⟩
    intro j k edge hj _
    simp only [h0] at hj
    simp at hj
  exact (applyCalls_invariant GetName
    (fun f => StoreInv f.snapshot_ ∧ LabelsRun GetName p f.snapshot_)
    (fun c => c.autoIndexFor p)
    (fun f f1 c hP hQ hc => LabelsRun_apply GetName p f f1 c hP hQ hc)
    calls ⟨s0, []⟩ f2 hinit hq hrun).2

theorem auto_index_label_is_next_child_count_witness :
    twoEntries.entries_[0]? =
      some ⟨HeapEntryType.kSynthetic, 0, -1, 0, "", kInternalRootObjectId, 0⟩ ∧
    ∃ f1, SnapshotFiller.SetIndexedAutoIndexReference ⟨twoEntries, []⟩
        HeapGraphEdgeType.kElement 0 1 = some f1 ∧
      f1.entries_ = [] ∧
      AddsEdge twoEntries f1.snapshot_
        ⟨HeapGraphEdgeType.kElement, 0, EdgeTarget.to_index_ 1, EdgeLabel.index_ 1⟩ :=
  ⟨rfl, (auto_index_label_is_next_child_count toString ⟨twoEntries, []⟩
    HeapGraphEdgeType.kElement 0 1
    ⟨HeapEntryType.kSynthetic, 0, -1, 0, "", kInternalRootObjectId, 0⟩ rfl (by decide)).1⟩

/-- C18 as it is stated fails: the root entry of `twoEntries` has no child, its
child count at the time of the call is 0, and the edge that
`SetIndexedAutoIndexReference` adds has the index 1, the edge that
`SetNamedAutoIndexReference` adds the name of 1. -/
theorem auto_index_label_is_not_child_count :
    (twoEntries.entries_[0]?).map HeapEntry.children_count_ = some 0 ∧
    (SnapshotFiller.SetIndexedAutoIndexReference ⟨twoEntries, []⟩
        HeapGraphEdgeType.kElement 0 1).map (fun f1 => f1.snapshot_.edges_) =
      some [⟨HeapGraphEdgeType.kElement, 0, EdgeTarget.to_index_ 1, EdgeLabel.index_ 1⟩] ∧
    (SnapshotFiller.SetNamedAutoIndexReference toString ⟨twoEntries, []⟩
        HeapGraphEdgeType.kInternal 0 1).map (fun f1 => f1.snapshot_.edges_) =
      some [⟨HeapGraphEdgeType.kInternal, 0, EdgeTarget.to_index_ 1,
        EdgeLabel.name_ (toString (1 : Int))⟩] ∧
    EdgeLabel.index_ 1 ≠ EdgeLabel.index_ 0 ∧ (1 : Int) ≠ 0 :=
  ⟨rfl, rfl, rfl, by decide, by decide⟩

/-! ## The progress reports and the cancellation -/

theorem ProgressReport_cases (g : HeapSnapshotGenerator) (force : Bool) :
    (∃ control, g.control_ = some control ∧
      (force = true ∨ (10000 : Int) ∣ g.progress_counter_) ∧
      g.ProgressReport force =
        (decide (control g.events g.progress_counter_ g.progress_total_ =
          ControlOption.kContinue),
          g.record (Event.ReportProgressValue g.progress_counter_ g.progress_total_))) ∨
    (¬ (g.control_.isSome = true ∧ (force = true ∨ (10000 : Int) ∣ g.progress_counter_)) ∧
      g.ProgressReport force = (true, g)) := by
  unfold HeapSnapshotGenerator.ProgressReport
  cases hc : g.control_ with
  | none =>
    right
    simp
  | some control =>
    have hdvd : (10000 : Int) ∣ g.progress_counter_ ↔
        Int.tmod g.progress_counter_ HeapSnapshotGenerator.kProgressReportGranularity = 0 :=
      Int.dvd_iff_tmod_eq_zero
    by_cases hdue : force = true ∨ (10000 : Int) ∣ g.progress_counter_
    · left
      refine ⟨control, rfl, hdue, ?_⟩
      have : (force || decide (Int.tmod g.progress_counter_
          HeapSnapshotGenerator.kProgressReportGranularity = 0)) = true := by
        rcases hdue with h | h
        · simp [h]
        · simp [hdvd.mp h]
      simp only [this, if_true]
    · right
      refine ⟨by simp [hdue], ?_⟩
      have : (force || decide (Int.tmod g.progress_counter_
          HeapSnapshotGenerator.kProgressReportGranularity = 0)) = false := by
        simp only [not_or] at hdue
        have h1 : force = false := by simpa using hdue.1
        have h2 : ¬ Int.tmod g.progress_counter_
            HeapSnapshotGenerator.kProgressReportGranularity = 0 := fun h => hdue.2 (hdvd.mpr h)
        simp [h1, h2]
      simp only [this]
      rfl

/-- C19. `ProgressReport(force)` calls the control's
`ReportProgressValue(progress_counter_, progress_total_)`, once, exactly when
`control_` is not null and `force` is true or `progress_counter_` is a multiple
of 10000; it then returns true if and only if the control answered `kContinue`,
and changes nothing else. In every other case, so whenever `control_` is null,
it returns true, calls nothing and changes nothing. -/
theorem ProgressReport_granularity (g : HeapSnapshotGenerator) (force : Bool) :
    ((g.ProgressReport force).2.events =
        g.events ++ [Event.ReportProgressValue g.progress_counter_ g.progress_total_] ↔
      (g.control_.isSome = true ∧ (force = true ∨ (10000 : Int) ∣ g.progress_counter_))) ∧
    (∀ control : ActivityControl, g.control_ = some control →
      (force = true ∨ (10000 : Int) ∣ g.progress_counter_) →
      ((g.ProgressReport force).1 = true ↔
        control g.events g.progress_counter_ g.progress_total_ = ControlOption.kContinue) ∧
      (g.ProgressReport force).2 =
        { g with events :=
          g.events ++ [Event.ReportProgressValue g.progress_counter_ g.progress_total_] }) ∧
    (¬ (g.control_.isSome = true ∧ (force = true ∨ (10000 : Int) ∣ g.progress_counter_)) →
      g.ProgressReport force = (true, g)) ∧
    (g.control_ = none → g.ProgressReport force = (true, g)) := by
  rcases ProgressReport_cases g force with ⟨control, hc, hdue, hres⟩ | ⟨hnot, hres⟩
  · refine ⟨?_, ?_, ?_, ?_⟩
    · rw [hres]
      constructor
      · intro _
        exact ⟨by simp [hc], hdue⟩
      · intro _
        rfl
    · intro control2 hc2 _
      rw [hc] at hc2
      cases hc2
      rw [hres]
      exact ⟨by simp, rfl⟩
    · intro hnot
      exact absurd ⟨by simp [hc], hdue⟩ hnot
    · intro hnone
      rw [hc] at hnone
      exact Option.noConfusion hnone
  · refine ⟨?_, ?_, ?_, ?_⟩
    · rw [hres]
      constructor
      · intro h
        have := congrArg List.length h
        simp at this
      · intro h
        exact absurd h hnot
    · intro control hc hdue
      exact absurd ⟨by simp [hc], hdue⟩ hnot
    · intro _
      exact hres
    · intro _
      exact hres

theorem ProgressReport_granularity_witness :
    HeapSnapshotGenerator.ProgressReport ⟨some continueAlways, 100, 20000, []⟩ false =
      (true, ⟨some continueAlways, 100, 20000, [Event.ReportProgressValue 20000 100]⟩) ∧
    HeapSnapshotGenerator.ProgressReport ⟨some (abortAt 1), 100, 20001, []⟩ false =
      (true, ⟨some (abortAt 1), 100, 20001, []⟩) ∧
    HeapSnapshotGenerator.ProgressReport ⟨none, 100, 20000, []⟩ true =
      (true, ⟨none, 100, 20000, []⟩) :=
  ⟨rfl,
    (ProgressReport_granularity ⟨some (abortAt 1), 100, 20001, []⟩ false).2.2.1 (by decide),
    (ProgressReport_granularity ⟨none, 100, 20000, []⟩ true).2.2.2 rfl⟩

theorem extracted_append (pass : Nat) (a b : List Event) :
    extracted pass (a ++ b) = extracted pass a ++ extracted pass b := by
  induction a with
  | nil => rfl
  | cons e es ih =>
    cases e with
    | ExtractReferences p obj =>
      by_cases hp : p = pass
      · simp [extracted, hp, ih]
      · simp [extracted, hp, ih]
    | _ => simpa [extracted] using ih

theorem Loop_interrupted (pass : Nat) :
    ∀ (objects : List Nat) (g : HeapSnapshotGenerator),
      V8HeapExplorer.IterateAndExtractSinglePassLoop pass objects true g =
        (true, { g with progress_counter_ := g.progress_counter_ + objects.length }) := by
  intro objects
  induction objects with
  | nil =>
    intro g
    simp [V8HeapExplorer.IterateAndExtractSinglePassLoop]
  | cons obj rest ih =>
    intro g
    simp only [V8HeapExplorer.IterateAndExtractSinglePassLoop, if_true, ih,
      HeapSnapshotGenerator.ProgressStep, List.length_cons, Nat.cast_add, Nat.cast_one]
    congr 2
    omega

/-- What one pass does, from a generator `g` and not yet interrupted: it extracts
the references of the first `k` objects, in their order, and of no object in
the name of another pass; when it is not interrupted these are all objects;
when it is interrupted its last two calls are the extraction of the object
`k - 1` and the report to which the control answered `kAbort`; and a report of
the pass to which the control answers `kAbort` is the last call of the pass,
which is then interrupted. -/
theorem Loop_spec (pass : Nat) :
    ∀ (objects : List Nat) (g : HeapSnapshotGenerator),
      ∃ (new : List Event) (k : Nat),
        (V8HeapExplorer.IterateAndExtractSinglePassLoop pass objects false g).2.events =
          g.events ++ new ∧
        (V8HeapExplorer.IterateAndExtractSinglePassLoop pass objects false g).2.control_ =
          g.control_ ∧
        (V8HeapExplorer.IterateAndExtractSinglePassLoop pass objects false g).2.progress_total_ =
          g.progress_total_ ∧
        k ≤ objects.length ∧ extracted pass new = objects.take k ∧
        (∀ e ∈ new, (∃ obj, e = Event.ExtractReferences pass obj) ∨
          (∃ c t, e = Event.ReportProgressValue c t)) ∧
        ((V8HeapExplorer.IterateAndExtractSinglePassLoop pass objects false g).1 = false →
          k = objects.length) ∧
        ((V8HeapExplorer.IterateAndExtractSinglePassLoop pass objects false g).1 = true →
          ∃ (control : ActivityControl) (c t : Int) (obj : Nat) (pre : List Event),
            g.control_ = some control ∧
            new = pre ++ [Event.ExtractReferences pass obj, Event.ReportProgressValue c t] ∧
            control (g.events ++ pre ++ [Event.ExtractReferences pass obj]) c t =
              ControlOption.kAbort ∧
            0 < k ∧ objects[k - 1]? = some obj) ∧
        (∀ (control : ActivityControl) (i : Nat) (c t : Int), g.control_ = some control →
          new[i]? = some (Event.ReportProgressValue c t) →
          control (g.events ++ new.take i) c t = ControlOption.kAbort →
          i + 1 = new.length ∧
          (V8HeapExplorer.IterateAndExtractSinglePassLoop pass objects false g).1 = true) := by
  intro objects
  induction objects with
  | nil =>
    intro g
    refine ⟨[], 0, by simp [V8HeapExplorer.IterateAndExtractSinglePassLoop], rfl, rfl,
      Nat.le_refl _, rfl, by simp, fun _ => rfl, ?_, ?_⟩
    · intro h
      simp [V8HeapExplorer.IterateAndExtractSinglePassLoop] at h
    · intro control i c t _ h
      simp at h
  | cons obj rest ih =>
    intro g
    have hloop : V8HeapExplorer.IterateAndExtractSinglePassLoop pass (obj :: rest) false g =
        V8HeapExplorer.IterateAndExtractSinglePassLoop pass rest
          (if ((g.record (Event.ExtractReferences pass obj)).ProgressReport false).1 then false
            else true)
          ((g.record (Event.ExtractReferences pass obj)).ProgressReport false).2.ProgressStep := by
      simp [V8HeapExplorer.IterateAndExtractSinglePassLoop]
    rw [hloop]
    rcases ProgressReport_cases (g.record (Event.ExtractReferences pass obj)) false with
      ⟨control, hc, _, hres⟩ | ⟨_, hres⟩
    · -- the report is made
      have hc0 : g.control_ = some control := hc
      by_cases hans : control (g.events ++ [Event.ExtractReferences pass obj])
          g.progress_counter_ g.progress_total_ = ControlOption.kContinue
      · -- the control answers kContinue
        have hres2 : (g.record (Event.ExtractReferences pass obj)).ProgressReport false =
            (true, (g.record (Event.ExtractReferences pass obj)).record
              (Event.ReportProgressValue g.progress_counter_ g.progress_total_)) := by
          rw [hres]
          have : decide (control (g.record (Event.ExtractReferences pass obj)).events
              (g.record (Event.ExtractReferences pass obj)).progress_counter_
              (g.record (Event.ExtractReferences pass obj)).progress_total_ =
              ControlOption.kContinue) = true := by
            simpa [HeapSnapshotGenerator.record] using hans
          rw [this]
          rfl
        rw [hres2]
        simp only [if_true]
        obtain ⟨new, k, h1, h2, h3, h4, h5, h6, h7, h8, h9⟩ :=
          ih (((g.record (Event.ExtractReferences pass obj)).record
            (Event.ReportProgressValue g.progress_counter_ g.progress_total_)).ProgressStep)
        have hev : (((g.record (Event.ExtractReferences pass obj)).record
            (Event.ReportProgressValue g.progress_counter_ g.progress_total_)).ProgressStep).events
            = g.events ++ [Event.ExtractReferences pass obj,
              Event.ReportProgressValue g.progress_counter_ g.progress_total_] := by
          simp [HeapSnapshotGenerator.record, HeapSnapshotGenerator.ProgressStep]
        rw [hev] at h1 h8 h9
        refine ⟨Event.ExtractReferences pass obj ::
          Event.ReportProgressValue g.progress_counter_ g.progress_total_ :: new, k + 1,
          ?_, h2, h3, by simp; omega, ?_, ?_, ?_, ?_, ?_⟩
        · rw [h1]
          simp
        · simp [extracted, h5]
        · intro e he
          simp only [List.mem_cons] at he
          rcases he with he | he | he
          · exact Or.inl ⟨obj, he⟩
          · exact Or.inr ⟨_, _, he⟩
          · exact h6 e he
        · intro h
          simp [h7 h]
        · intro h
          obtain ⟨control2, c, t, obj2, pre, hc2, hnew, habort, hk, hobj⟩ := h8 h
          refine ⟨control2, c, t, obj2, Event.ExtractReferences pass obj ::
            Event.ReportProgressValue g.progress_counter_ g.progress_total_ :: pre, hc2, ?_, ?_,
            by omega, ?_⟩
          · rw [hnew]
            simp
          · simpa using habort
          · have : k + 1 - 1 = (k - 1) + 1 := by omega
            rw [this, List.getElem?_cons_succ]
            exact hobj
        · intro control2 i c t hc2 hi habort
          have hcc : control2 = control := by
            have : g.control_ = some control2 := hc2
            rw [hc0] at this
            exact (Option.some.inj this).symm
          subst hcc
          cases i with
          | zero => simp at hi
          | succ i =>
            cases i with
            | zero =>
              simp only [List.getElem?_cons_succ, List.getElem?_cons_zero, Option.some.injEq,
                Event.ReportProgressValue.injEq] at hi
              obtain ⟨hi1, hi2⟩ := hi
              subst hi1 hi2
              simp only [Nat.zero_add, List.take_succ_cons, List.take_zero] at habort
              rw [hans] at habort
              exact ControlOption.noConfusion habort
            | succ i =>
              simp only [List.getElem?_cons_succ] at hi
              simp only [List.take_succ_cons] at habort
              have := h9 control2 i c t hc2 hi (by simpa using habort)
              simp only [List.length_cons]
              exact ⟨by omega, this.2⟩
      · -- the control answers kAbort
        have hab : control (g.events ++ [Event.ExtractReferences pass obj])
            g.progress_counter_ g.progress_total_ = ControlOption.kAbort := by
          cases hv : control (g.events ++ [Event.ExtractReferences pass obj])
            g.progress_counter_ g.progress_total_ with
          | kContinue => exact absurd hv hans
          | kAbort => rfl
        have hres2 : (g.record (Event.ExtractReferences pass obj)).ProgressReport false =
            (false, (g.record (Event.ExtractReferences pass obj)).record
              (Event.ReportProgressValue g.progress_counter_ g.progress_total_)) := by
          rw [hres]
          have : decide (control (g.record (Event.ExtractReferences pass obj)).events
              (g.record (Event.ExtractReferences pass obj)).progress_counter_
              (g.record (Event.ExtractReferences pass obj)).progress_total_ =
              ControlOption.kContinue) = false := by
            simpa [HeapSnapshotGenerator.record] using hans
          rw [this]
          rfl
        rw [hres2]
        simp only [Bool.false_eq_true, if_false]
        rw [Loop_interrupted]
        refine ⟨[Event.ExtractReferences pass obj,
          Event.ReportProgressValue g.progress_counter_ g.progress_total_], 1, ?_, rfl, rfl,
          by simp, by simp [extracted], ?_, ?_, ?_, ?_⟩
        · simp [HeapSnapshotGenerator.record, HeapSnapshotGenerator.ProgressStep]
        · intro e he
          simp only [List.mem_cons, List.mem_singleton, List.not_mem_nil, or_false] at he
          rcases he with he | he
          · exact Or.inl ⟨obj, he⟩
          · exact Or.inr ⟨_, _, he⟩
        · intro h
          simp at h
        · intro _
          exact ⟨control, _, _, obj, [], hc0, rfl, by simpa using hab, by omega, by simp⟩
        · intro control2 i c t _ hi _
          cases i with
          | zero => simp at hi
          | succ i =>
            cases i with
            | zero => exact ⟨rfl, rfl⟩
            | succ i => simp at hi
    · -- no report is made
      rw [hres]
      simp only [if_true]
      obtain ⟨new, k, h1, h2, h3, h4, h5, h6, h7, h8, h9⟩ :=
        ih ((g.record (Event.ExtractReferences pass obj)).ProgressStep)
      have hev : ((g.record (Event.ExtractReferences pass obj)).ProgressStep).events
          = g.events ++ [Event.ExtractReferences pass obj] := by
        simp [HeapSnapshotGenerator.record, HeapSnapshotGenerator.ProgressStep]
      rw [hev] at h1 h8 h9
      refine ⟨Event.ExtractReferences pass obj :: new, k + 1,
        ?_, h2, h3, by simp; omega, ?_, ?_, ?_, ?_, ?_⟩
      · rw [h1]
        simp
      · simp [extracted, h5]
      · intro e he
        simp only [List.mem_cons] at he
        rcases he with he | he
        · exact Or.inl ⟨obj, he⟩
        · exact h6 e he
      · intro h
        simp [h7 h]
      · intro h
        obtain ⟨control2, c, t, obj2, pre, hc2, hnew, habort, hk, hobj⟩ := h8 h
        refine ⟨control2, c, t, obj2, Event.ExtractReferences pass obj :: pre, hc2, ?_, ?_,
          by omega, ?_⟩
        · rw [hnew]
          simp
        · simpa using habort
        · have : k + 1 - 1 = (k - 1) + 1 := by omega
          rw [this, List.getElem?_cons_succ]
          exact hobj
      · intro control2 i c t hc2 hi habort
        cases i with
        | zero => simp at hi
        | succ i =>
          simp only [List.getElem?_cons_succ] at hi
          simp only [List.take_succ_cons] at habort
          have := h9 control2 i c t hc2 hi (by simpa using habort)
          simp only [List.length_cons]
          exact ⟨by omega, this.2⟩

theorem atPass1_control (objects0 : List Nat) (dom_objects_count : Int)
    (g : HeapSnapshotGenerator) :
    (g.atPass1 objects0 dom_objects_count).control_ = g.control_ ∧
    (g.atPass1 objects0 dom_objects_count).events =
      g.events ++ [Event.TagGlobalObjects, Event.CollectAllGarbage, Event.CollectAllGarbage,
        Event.AddSyntheticRootEntries, Event.RootReferences] := by
  cases hc : g.control_ with
  | none =>
    simp [HeapSnapshotGenerator.atPass1, HeapSnapshotGenerator.prepare,
      HeapSnapshotGenerator.SetProgressTotal, HeapSnapshotGenerator.record, hc]
  | some control =>
    simp [HeapSnapshotGenerator.atPass1, HeapSnapshotGenerator.prepare,
      HeapSnapshotGenerator.SetProgressTotal, HeapSnapshotGenerator.record, hc]

theorem ProgressReport_control (g : HeapSnapshotGenerator) (force : Bool) :
    (g.ProgressReport force).2.control_ = g.control_ := by
  rcases ProgressReport_cases g force with ⟨control, _, _, hres⟩ | ⟨_, hres⟩
  · rw [hres]
    rfl
  · rw [hres]

theorem IterateAndExtractReferences_interrupted (objects1 objects2 : List Nat)
    (g : HeapSnapshotGenerator)
    (h : (V8HeapExplorer.IterateAndExtractSinglePass 1 objects1
      (g.record Event.RootReferences)).1 = true) :
    V8HeapExplorer.IterateAndExtractReferences objects1 objects2 g =
      (false, (V8HeapExplorer.IterateAndExtractSinglePass 1 objects1
        (g.record Event.RootReferences)).2) := by
  simp [V8HeapExplorer.IterateAndExtractReferences, h]

theorem GenerateSnapshot_interrupted (objects0 objects1 objects2 : List Nat)
    (dom_objects_count : Int) (g : HeapSnapshotGenerator)
    (h : (V8HeapExplorer.IterateAndExtractSinglePass 1 objects1
      (g.atPass1 objects0 dom_objects_count)).1 = true) :
    g.GenerateSnapshot objects0 objects1 objects2 dom_objects_count =
      (false, (V8HeapExplorer.IterateAndExtractSinglePass 1 objects1
        (g.atPass1 objects0 dom_objects_count)).2) := by
  have h2 := IterateAndExtractReferences_interrupted objects1 objects2
    (g.prepare objects0 dom_objects_count) h
  simp only [HeapSnapshotGenerator.GenerateSnapshot, HeapSnapshotGenerator.FillReferences, h2]
  rfl

theorem Loop_control (pass : Nat) (objects : List Nat) (g : HeapSnapshotGenerator) :
    (V8HeapExplorer.IterateAndExtractSinglePass pass objects g).2.control_ = g.control_ := by
  obtain ⟨_, _, _, h2, _⟩ := Loop_spec pass objects g
  exact h2

theorem FillReferences_control (objects1 objects2 : List Nat) (g : HeapSnapshotGenerator) :
    (g.FillReferences objects1 objects2).2.control_ = g.control_ := by
  have h1 := Loop_control 1 objects1 (g.record Event.RootReferences)
  have h2 := Loop_control 2 objects2
    (V8HeapExplorer.IterateAndExtractSinglePass 1 objects1 (g.record Event.RootReferences)).2
  have h3 := ProgressReport_control
    (V8HeapExplorer.IterateAndExtractSinglePass 2 objects2
      (V8HeapExplorer.IterateAndExtractSinglePass 1 objects1
        (g.record Event.RootReferences)).2).2 true
  have h0 : (g.record Event.RootReferences).control_ = g.control_ := rfl
  simp only [HeapSnapshotGenerator.FillReferences, V8HeapExplorer.IterateAndExtractReferences,
    NativeObjectsExplorer.IterateAndExtractReferences]
  split_ifs <;> simp_all [HeapSnapshotGenerator.record]

theorem FillReferences_true (objects1 objects2 : List Nat) (g : HeapSnapshotGenerator)
    (h : (g.FillReferences objects1 objects2).1 = true) :
    (V8HeapExplorer.IterateAndExtractSinglePass 1 objects1
      (g.record Event.RootReferences)).1 = false ∧
    (V8HeapExplorer.IterateAndExtractSinglePass 2 objects2
      (V8HeapExplorer.IterateAndExtractSinglePass 1 objects1
        (g.record Event.RootReferences)).2).1 = false ∧
    ((V8HeapExplorer.IterateAndExtractSinglePass 2 objects2
      (V8HeapExplorer.IterateAndExtractSinglePass 1 objects1
        (g.record Event.RootReferences)).2).2.ProgressReport true).1 = true := by
  simp only [HeapSnapshotGenerator.FillReferences, V8HeapExplorer.IterateAndExtractReferences,
    NativeObjectsExplorer.IterateAndExtractReferences] at h
  cases h1 : (V8HeapExplorer.IterateAndExtractSinglePass 1 objects1
      (g.record Event.RootReferences)).1 with
  | true => simp [h1] at h
  | false =>
    cases h2 : (V8HeapExplorer.IterateAndExtractSinglePass 2 objects2
        (V8HeapExplorer.IterateAndExtractSinglePass 1 objects1
          (g.record Event.RootReferences)).2).1 with
    | true => simp [h1, h2] at h
    | false =>
      cases h3 : ((V8HeapExplorer.IterateAndExtractSinglePass 2 objects2
          (V8HeapExplorer.IterateAndExtractSinglePass 1 objects1
            (g.record Event.RootReferences)).2).2.ProgressReport true).1 with
      | true => exact ⟨rfl, rfl, rfl⟩
      | false => simp [h1, h2, h3] at h

theorem GenerateSnapshot_true (objects0 objects1 objects2 : List Nat)
    (dom_objects_count : Int) (g : HeapSnapshotGenerator)
    (h : (g.GenerateSnapshot objects0 objects1 objects2 dom_objects_count).1 = true) :
    ((g.prepare objects0 dom_objects_count).FillReferences objects1 objects2).1 = true ∧
    ((g.atLastReport objects0 objects1 objects2 dom_objects_count).ProgressReport true).1 = true ∧
    g.GenerateSnapshot objects0 objects1 objects2 dom_objects_count =
      (true, ((g.atLastReport objects0 objects1 objects2 dom_objects_count).ProgressReport
        true).2) := by
  have hG : g.GenerateSnapshot objects0 objects1 objects2 dom_objects_count =
      if !((g.prepare objects0 dom_objects_count).FillReferences objects1 objects2).1 then
        (false, ((g.prepare objects0 dom_objects_count).FillReferences objects1 objects2).2)
      else if !((g.atLastReport objects0 objects1 objects2 dom_objects_count).ProgressReport
          true).1 then
        (false, ((g.atLastReport objects0 objects1 objects2 dom_objects_count).ProgressReport
          true).2)
      else
        (true, ((g.atLastReport objects0 objects1 objects2 dom_objects_count).ProgressReport
          true).2) := rfl
  rw [hG] at h ⊢
  cases h1 : ((g.prepare objects0 dom_objects_count).FillReferences objects1 objects2).1 with
  | false => simp [h1] at h
  | true =>
    cases h2 : ((g.atLastReport objects0 objects1 objects2 dom_objects_count).ProgressReport
        true).1 with
    | false => simp [h1, h2] at h
    | true => simp

theorem prepare_control (objects0 : List Nat) (dom_objects_count : Int)
    (g : HeapSnapshotGenerator) : (g.prepare objects0 dom_objects_count).control_ = g.control_ :=
  (atPass1_control objects0 dom_objects_count g).1

/-- C20. Pass 1 of `GenerateSnapshot` extracts the references of the first `k`
objects its iterator yields, in their order. If the control answers `kAbort` to
a report of pass 1, that report is the last call of the pass and of the whole
generation: it follows the extraction of the object `k - 1`, no later object is
extracted, no object is extracted by pass 2, `FillChildren` is not called,
`IterateAndExtractSinglePass` returns true (interrupted),
`V8HeapExplorer::IterateAndExtractReferences` returns false and
`GenerateSnapshot` returns false. If `GenerateSnapshot` returns true, neither
pass was interrupted, pass 1 extracted every object, both forced reports
returned true, and a control that is installed answered `kContinue` to the
last call of the generation, the report of `progress_total_` out of
`progress_total_`, made after `FillChildren`. -/
theorem abort_is_clean_failure (objects0 objects1 objects2 : List Nat)
    (dom_objects_count : Int) (g : HeapSnapshotGenerator) :
    ∃ (new : List Event) (k : Nat),
      (V8HeapExplorer.IterateAndExtractSinglePass 1 objects1
        (g.atPass1 objects0 dom_objects_count)).2.events =
        g.events ++ [Event.TagGlobalObjects, Event.CollectAllGarbage, Event.CollectAllGarbage,
          Event.AddSyntheticRootEntries, Event.RootReferences] ++ new ∧
      k ≤ objects1.length ∧ extracted 1 new = objects1.take k ∧
      (∀ (control : ActivityControl) (i : Nat) (c t : Int), g.control_ = some control →
        new[i]? = some (Event.ReportProgressValue c t) →
        control (g.events ++ [Event.TagGlobalObjects, Event.CollectAllGarbage,
          Event.CollectAllGarbage, Event.AddSyntheticRootEntries, Event.RootReferences] ++
          new.take i) c t = ControlOption.kAbort →
        i + 1 = new.length ∧
        (∃ obj, 0 < k ∧ objects1[k - 1]? = some obj ∧
          new[i - 1]? = some (Event.ExtractReferences 1 obj)) ∧
        (V8HeapExplorer.IterateAndExtractSinglePass 1 objects1
          (g.atPass1 objects0 dom_objects_count)).1 = true ∧
        V8HeapExplorer.IterateAndExtractReferences objects1 objects2
            (g.prepare objects0 dom_objects_count) =
          (false, (V8HeapExplorer.IterateAndExtractSinglePass 1 objects1
            (g.atPass1 objects0 dom_objects_count)).2) ∧
        g.GenerateSnapshot objects0 objects1 objects2 dom_objects_count =
          (false, (V8HeapExplorer.IterateAndExtractSinglePass 1 objects1
            (g.atPass1 objects0 dom_objects_count)).2) ∧
        (g.GenerateSnapshot objects0 objects1 objects2 dom_objects_count).2.events =
          g.events ++ [Event.TagGlobalObjects, Event.CollectAllGarbage, Event.CollectAllGarbage,
            Event.AddSyntheticRootEntries, Event.RootReferences] ++ new ∧
        Event.FillChildren ∉ [Event.TagGlobalObjects, Event.CollectAllGarbage,
          Event.CollectAllGarbage, Event.AddSyntheticRootEntries, Event.RootReferences] ++ new ∧
        extracted 2 ([Event.TagGlobalObjects, Event.CollectAllGarbage,
          Event.CollectAllGarbage, Event.AddSyntheticRootEntries, Event.RootReferences] ++ new)
          = []) ∧
      ((g.GenerateSnapshot objects0 objects1 objects2 dom_objects_count).1 = true →
        (V8HeapExplorer.IterateAndExtractSinglePass 1 objects1
          (g.atPass1 objects0 dom_objects_count)).1 = false ∧
        (V8HeapExplorer.IterateAndExtractSinglePass 2 objects2
          (V8HeapExplorer.IterateAndExtractSinglePass 1 objects1
            (g.atPass1 objects0 dom_objects_count)).2).1 = false ∧
        ((V8HeapExplorer.IterateAndExtractSinglePass 2 objects2
          (V8HeapExplorer.IterateAndExtractSinglePass 1 objects1
            (g.atPass1 objects0 dom_objects_count)).2).2.ProgressReport true).1 = true ∧
        extracted 1 new = objects1 ∧
        ∀ (control : ActivityControl), g.control_ = some control →
          ∃ (pre : List Event) (c : Int),
            (g.GenerateSnapshot objects0 objects1 objects2 dom_objects_count).2.events =
              pre ++ [Event.ReportProgressValue c c] ∧
            control pre c c = ControlOption.kContinue ∧ Event.FillChildren ∈ pre) := by
  obtain ⟨new, k, h1, h2, h3, h4, h5, h6, h7, h8, h9⟩ :=
    Loop_spec 1 objects1 (g.atPass1 objects0 dom_objects_count)
  obtain ⟨hctl, hev⟩ := atPass1_control objects0 dom_objects_count g
  rw [hev] at h1 h8 h9
  rw [hctl] at h2 h8 h9
  have hnofill : Event.FillChildren ∉ [Event.TagGlobalObjects, Event.CollectAllGarbage,
      Event.CollectAllGarbage, Event.AddSyntheticRootEntries, Event.RootReferences] ++ new := by
    intro hmem
    simp only [List.mem_append, List.mem_cons, List.mem_singleton, List.not_mem_nil,
      or_false] at hmem
    rcases hmem with hmem | hmem
    · rcases hmem with h | h | h | h | h <;> exact Event.noConfusion h
    · rcases h6 _ hmem with ⟨obj, h⟩ | ⟨c, t, h⟩ <;> exact Event.noConfusion h
  have hnopass2 : extracted 2 ([Event.TagGlobalObjects, Event.CollectAllGarbage,
      Event.CollectAllGarbage, Event.AddSyntheticRootEntries, Event.RootReferences] ++ new)
      = [] := by
    rw [extracted_append]
    have hnew : ∀ (l : List Event), (∀ e ∈ l, (∃ obj, e = Event.ExtractReferences 1 obj) ∨
        (∃ c t, e = Event.ReportProgressValue c t)) → extracted 2 l = [] := by
      intro l
      induction l with
      | nil => intro _; rfl
      | cons e es ih =>
        intro hl
        have hes := ih (fun e he => hl e (List.mem_cons_of_mem _ he))
        rcases hl e (List.mem_cons_self _ _) with ⟨obj, h⟩ | ⟨c, t, h⟩
        · subst h
          simp [extracted, hes]
        · subst h
          simp [extracted, hes]
    rw [hnew new h6]
    rfl
  refine ⟨new, k, h1, h4, h5, ?_, ?_⟩
  · intro control i c t hc hi habort
    obtain ⟨hlast, hint⟩ := h9 control i c t hc hi habort
    obtain ⟨control2, c2, t2, obj, pre, _, hnew, _, hk, hobj⟩ := h8 hint
    have hgen := GenerateSnapshot_interrupted objects0 objects1 objects2 dom_objects_count g hint
    refine ⟨hlast, ⟨obj, hk, hobj, ?_⟩, hint,
      IterateAndExtractReferences_interrupted objects1 objects2 _ hint, hgen, ?_, hnofill,
      hnopass2⟩
    · have hi1 : i - 1 = pre.length := by
        rw [hnew] at hlast
        simp at hlast
        omega
      rw [hi1, hnew, List.getElem?_append_right (Nat.le_refl _)]
      simp
    · rw [hgen]
      exact h1
  · intro htrue
    obtain ⟨t1, t2, t3⟩ :=
      GenerateSnapshot_true objects0 objects1 objects2 dom_objects_count g htrue
    obtain ⟨p1, p2, p3⟩ := FillReferences_true objects1 objects2 _ t1
    refine ⟨p1, p2, p3, ?_, ?_⟩
    · rw [h5, h7 p1]
      simp
    · intro control hc
      have hcfinal : (g.atLastReport objects0 objects1 objects2 dom_objects_count).control_ =
          some control := by
        show ((g.prepare objects0 dom_objects_count).FillReferences objects1 objects2).2.control_
          = some control
        rw [FillReferences_control, prepare_control]
        exact hc
      rcases ProgressReport_cases (g.atLastReport objects0 objects1 objects2 dom_objects_count)
        true with ⟨control2, hcc, _, hres⟩ | ⟨hnot, _⟩
      · rw [hcfinal] at hcc
        cases hcc
        rw [hres] at t2 t3
        rw [t3]
        refine ⟨(g.atLastReport objects0 objects1 objects2 dom_objects_count).events,
          (g.atLastReport objects0 objects1 objects2 dom_objects_count).progress_total_,
          rfl, by simpa using t2, ?_⟩
        simp [HeapSnapshotGenerator.atLastReport, HeapSnapshotGenerator.record]
      · exfalso
        apply hnot
        exact ⟨by rw [hcfinal]; rfl, Or.inl rfl⟩

theorem abort_is_clean_failure_witness :
    (HeapSnapshotGenerator.GenerateSnapshot [8, 16, 24] [8, 16, 24] [8, 16, 24] 0
        ⟨some (abortAt 0), 0, 0, []⟩).1 = false ∧
    (HeapSnapshotGenerator.GenerateSnapshot [8, 16, 24] [8, 16, 24] [8, 16, 24] 0
        ⟨some (abortAt 0), 0, 0, []⟩).2.events =
      [Event.TagGlobalObjects, Event.CollectAllGarbage, Event.CollectAllGarbage,
        Event.AddSyntheticRootEntries, Event.RootReferences, Event.ExtractReferences 1 8,
        Event.ReportProgressValue 0 6] ∧
    (HeapSnapshotGenerator.GenerateSnapshot [8, 16] [8, 16] [8, 16] 0
        ⟨some continueAlways, 0, 0, []⟩).1 = true ∧
    (HeapSnapshotGenerator.GenerateSnapshot [8, 16] [8, 16] [8, 16] 0
        ⟨some continueAlways, 0, 0, []⟩).2.events =
      [Event.TagGlobalObjects, Event.CollectAllGarbage, Event.CollectAllGarbage,
        Event.AddSyntheticRootEntries, Event.RootReferences, Event.ExtractReferences 1 8,
        Event.ReportProgressValue 0 4, Event.ExtractReferences 1 16,
        Event.ExtractReferences 2 8, Event.ExtractReferences 2 16,
        Event.ReportProgressValue 4 4, Event.NativeReferences, Event.FillChildren,
        Event.RememberLastJSObjectId, Event.ReportProgressValue 4 4] ∧
    ∃ (new : List Event) (k : Nat),
      (V8HeapExplorer.IterateAndExtractSinglePass 1 [8, 16, 24]
        (HeapSnapshotGenerator.atPass1 [8, 16, 24] 0 ⟨some (abortAt 0), 0, 0, []⟩)).2.events =
        [] ++ [Event.TagGlobalObjects, Event.CollectAllGarbage, Event.CollectAllGarbage,
          Event.AddSyntheticRootEntries, Event.RootReferences] ++ new ∧
      k ≤ 3 ∧ extracted 1 new = [8, 16, 24].take k :=
  ⟨by decide, by decide, by decide, by decide,
    (abort_is_clean_failure [8, 16, 24] [8, 16, 24] [8, 16, 24] 0
      ⟨some (abortAt 0), 0, 0, []⟩).imp
      (fun _ h => h.imp (fun _ h2 => ⟨h2.1, h2.2.1, h2.2.2.1⟩))⟩

/-! ## The decimal numerals -/

theorem decimalRev_fuel : ∀ (fuel1 fuel2 n : Nat), n < fuel1 → n < fuel2 →
    decimalRev fuel1 n = decimalRev fuel2 n := by
  intro fuel1
  induction fuel1 with
  | zero => intro fuel2 n h; omega
  | succ f ih =>
    intro fuel2 n h1 h2
    cases fuel2 with
    | zero => omega
    | succ g =>
      simp only [decimalRev]
      by_cases h : n / 10 = 0
      · simp [h]
      · simp only [h, if_false]
        have : n / 10 < n := Nat.div_lt_self (by omega) (by decide)
        rw [ih g (n / 10) (by omega) (by omega)]

theorem decimal_eq (n : Nat) :
    decimal n = if n / 10 = 0 then [Char.ofNat (48 + n % 10)]
      else decimal (n / 10) ++ [Char.ofNat (48 + n % 10)] := by
  have h0 : decimal n = (Char.ofNat (48 + n % 10) ::
      (if n / 10 = 0 then [] else decimalRev n (n / 10))).reverse := rfl
  rw [h0]
  by_cases h : n / 10 = 0
  · simp [h]
  · simp only [h, if_false, List.reverse_cons]
    have : n / 10 < n := Nat.div_lt_self (by omega) (by decide)
    rw [decimalRev_fuel n (n / 10 + 1) (n / 10) (by omega) (by omega)]
    rfl

theorem decimal_length_pos (n : Nat) : 0 < (decimal n).length := by
  rw [decimal_eq]; split <;> simp

theorem decimal_length_le : ∀ (e n : Nat), 0 < e → n < 10 ^ e → (decimal n).length ≤ e := by
  intro e
  induction e with
  | zero => intro n h; omega
  | succ e ih =>
    intro n _ hn
    rw [decimal_eq]
    by_cases h : n / 10 = 0
    · simp [h]
    · simp only [h, if_false, List.length_append, List.length_singleton]
      have he : 0 < e := by
        rcases Nat.eq_zero_or_pos e with h0 | h0
        · subst h0; simp at hn; omega
        · exact h0
      have : n / 10 < 10 ^ e := by
        rw [Nat.div_lt_iff_lt_mul (by decide)]; rw [pow_succ] at hn; exact hn
      have := ih (n / 10) he this
      omega

theorem decimal_length_unsigned (n : Nat) (h : n < kUnsignedRange) : (decimal n).length ≤ 10 :=
  decimal_length_le 10 n (by decide) (lt_of_lt_of_le h (by unfold kUnsignedRange; norm_num))

/-- Every character of a decimal numeral is one of the digits `0` .. `9`. -/
theorem decimal_digits (n : Nat) : ∀ c ∈ decimal n, ∃ d, d < 10 ∧ c = Char.ofNat (48 + d) := by
  induction n using Nat.strong_induction_on with
  | _ n ih =>
    intro c hc
    rw [decimal_eq] at hc
    by_cases h : n / 10 = 0
    · simp only [h, if_true, List.mem_singleton] at hc
      exact ⟨n % 10, Nat.mod_lt _ (by decide), hc⟩
    · simp only [h, if_false, List.mem_append, List.mem_singleton] at hc
      rcases hc with hc | hc
      · exact ih (n / 10) (Nat.div_lt_self (by omega) (by decide)) c hc
      · exact ⟨n % 10, Nat.mod_lt _ (by decide), hc⟩

/-! ## The output stream writer -/

theorem chunksOf_append (a b : List StreamCall) : chunksOf (a ++ b) = chunksOf a ++ chunksOf b := by
  induction a with
  | nil => rfl
  | cons c a ih => cases c <;> simp [chunksOf, ih]

theorem chunksOf_map (cs : List (List Char)) :
    chunksOf (cs.map StreamCall.WriteAsciiChunk) = cs := by
  induction cs with
  | nil => rfl
  | cons c cs ih => simp [chunksOf, ih]

theorem received_append (a b : List StreamCall) : received (a ++ b) = received a ++ received b := by
  simp [received, chunksOf_append]

theorem MemCopy_length (dest : List Char) (pos : Nat) (src : List Char)
    (h : pos + src.length ≤ dest.length) : (MemCopy dest pos src).length = dest.length := by
  simp [MemCopy]; omega

theorem MemCopy_take (dest : List Char) (pos : Nat) (src : List Char)
    (h : pos + src.length ≤ dest.length) :
    (MemCopy dest pos src).take (pos + src.length) = dest.take pos ++ src := by
  have h1 : (dest.take pos ++ src).length = pos + src.length := by simp; omega
  unfold MemCopy
  rw [← h1, List.take_left]

theorem MemCopy_take_le (dest : List Char) (pos : Nat) (src : List Char) (k : Nat)
    (h : pos + src.length ≤ dest.length) (hk : k ≤ src.length) :
    (MemCopy dest pos src).take (pos + k) = dest.take pos ++ src.take k := by
  have h1 : (dest.take pos).length = pos := by simp; omega
  unfold MemCopy
  rw [List.append_assoc, List.take_append_eq_append_take, h1]
  simp only [List.take_append_eq_append_take]
  have h2 : pos + k - pos = k := by omega
  have h3 : k - src.length = 0 := by omega
  rw [h2, h3]
  simp [List.take_take]

theorem set_take_succ (l : List Char) (pos : Nat) (c : Char) (h : pos < l.length) :
    (l.set pos c).take (pos + 1) = l.take pos ++ [c] := by
  rw [List.take_succ, take_set_le l pos pos c (le_refl pos)]
  simp [h]

theorem Wrote_refl (w : OutputStreamWriter) (h : WriterOk w) : Wrote w w [] :=
  ⟨rfl, rfl, h, ⟨[], by simp⟩, by simp⟩

theorem Wrote_trans {w w1 w2 : OutputStreamWriter} {t1 t2 : List Char} (h1 : Wrote w w1 t1)
    (h2 : Wrote w1 w2 t2) : Wrote w w2 (t1 ++ t2) := by
  obtain ⟨m1, hm1⟩ := h1.calls
  obtain ⟨m2, hm2⟩ := h2.calls
  exact ⟨h2.stream.trans h1.stream, h2.size.trans h1.size, h2.ok,
    ⟨m1 ++ m2, by rw [hm2, hm1, List.append_assoc]⟩,
    by rw [h2.written, h1.written, List.append_assoc]⟩

theorem Wrote_never {w w1 : OutputStreamWriter} {t : List Char} (h : Wrote w w1 t)
    (hn : w.stream_.NeverAborts) : w1.stream_.NeverAborts := by
  rw [h.stream]; exact hn

/-- The step that ends every adding member: a writer `p` that differs from a good writer
`w` by `text` in the buffer, which may now be full, is good again after
`MaybeWriteChunk`. -/
theorem MaybeWriteChunk_wrote (w p : OutputStreamWriter) (text : List Char) (hw : WriterOk w)
    (hnever : w.stream_.NeverAborts) (hs : p.stream_ = w.stream_)
    (hsz : p.chunk_size_ = w.chunk_size_) (hb : p.chunk_.length = p.chunk_size_)
    (hpos : p.chunk_pos_ ≤ p.chunk_size_) (ha : p.aborted_ = false) (hc : p.calls = w.calls)
    (htext : p.chunk_.take p.chunk_pos_ = w.chunk_.take w.chunk_pos_ ++ text) :
    Wrote w p.MaybeWriteChunk text := by
  unfold OutputStreamWriter.MaybeWriteChunk
  by_cases hfull : p.chunk_pos_ = p.chunk_size_
  · rw [if_pos hfull]
    unfold OutputStreamWriter.WriteChunk
    simp only [ha, Bool.false_eq_true, if_false]
    have hk : p.stream_.WriteAsciiChunk p.calls (p.chunk_.take p.chunk_pos_) =
        WriteResult.kContinue := by rw [hs]; exact hnever _ _
    have hlen : (p.chunk_.take p.chunk_pos_).length = p.chunk_size_ := by
      rw [List.length_take, hb, hfull]; simp
    refine ⟨hs, hsz, ?_, ⟨[StreamCall.WriteAsciiChunk (p.chunk_.take p.chunk_pos_)], ?_⟩, ?_⟩
    · refine ⟨?_, hb, ?_, ?_, ?_, ?_⟩
      · show 0 < p.chunk_size_
        rw [hsz]; exact hw.size_pos
      · show 0 < p.chunk_size_
        rw [hsz]; exact hw.size_pos
      · show decide (_ = WriteResult.kAbort) = false
        rw [hk]; rfl
      · show p.calls ++ _ = _
        rw [chunksOf_append, List.map_append, hc, ← hw.only_chunks]; rfl
      · intro c hcmem
        change c ∈ chunksOf (p.calls ++ _) at hcmem
        rw [chunksOf_append, List.mem_append, hc] at hcmem
        rcases hcmem with h1 | h1
        · show c.length = p.chunk_size_
          rw [hsz]; exact hw.chunks_full c h1
        · simp only [chunksOf, List.mem_singleton] at h1
          subst h1; exact hlen
    · show p.calls ++ _ = _
      rw [hc]
    · show received (p.calls ++ _) ++ List.take 0 p.chunk_ = _
      rw [received_append, hc, htext]
      simp [OutputStreamWriter.written, received, chunksOf]
  · rw [if_neg hfull]
    refine ⟨hs, hsz, ⟨?_, hb, ?_, ha, ?_, ?_⟩, ⟨[], by simp [hc]⟩, ?_⟩
    · rw [hsz]; exact hw.size_pos
    · omega
    · rw [hc]; exact hw.only_chunks
    · intro c hcmem
      rw [hc] at hcmem
      rw [hsz]; exact hw.chunks_full c hcmem
    · unfold OutputStreamWriter.written
      rw [hc, htext, List.append_assoc]

theorem AddCharacter_wrote (w : OutputStreamWriter) (c : Char) (hw : WriterOk w)
    (hnever : w.stream_.NeverAborts) :
    ∃ w1, w.AddCharacter c = some w1 ∧ Wrote w w1 [c] := by
  have hlt : w.chunk_pos_ < w.chunk_.length := by rw [hw.buffer]; exact hw.pos
  refine ⟨_, by unfold OutputStreamWriter.AddCharacter; rw [if_pos hlt], ?_⟩
  apply MaybeWriteChunk_wrote w ⟨w.stream_, w.chunk_size_, w.chunk_.set w.chunk_pos_ c,
    w.chunk_pos_ + 1, w.aborted_, w.calls⟩ [c] hw hnever rfl rfl
  · show (w.chunk_.set w.chunk_pos_ c).length = w.chunk_size_
    rw [List.length_set, hw.buffer]
  · show w.chunk_pos_ + 1 ≤ w.chunk_size_
    exact hw.pos
  · exact hw.not_aborted
  · rfl
  · show (w.chunk_.set w.chunk_pos_ c).take (w.chunk_pos_ + 1) = _
    exact set_take_succ _ _ _ hlt

theorem AddSubstringLoop_wrote : ∀ (fuel : Nat) (w : OutputStreamWriter) (s : List Char),
    WriterOk w → w.stream_.NeverAborts → s.length ≤ fuel →
    ∃ w1, OutputStreamWriter.AddSubstringLoop fuel w s = some w1 ∧ Wrote w w1 s := by
  intro fuel
  induction fuel with
  | zero =>
    intro w s hw _ hlen
    have : s = [] := List.length_eq_zero.mp (by omega)
    subst this
    exact ⟨w, rfl, Wrote_refl w hw⟩
  | succ fuel ih =>
    intro w s hw hnever hlen
    cases s with
    | nil => exact ⟨w, rfl, Wrote_refl w hw⟩
    | cons c s =>
      have hpos := hw.pos
      have hbuf := hw.buffer
      have hk0 : min (w.chunk_size_ - w.chunk_pos_) (c :: s).length ≠ 0 := by
        simp only [List.length_cons]; omega
      have hk1 : w.chunk_pos_ + min (w.chunk_size_ - w.chunk_pos_) (c :: s).length ≤
          w.chunk_.length := by
        rw [hbuf]; omega
      have hktake : ((c :: s).take (min (w.chunk_size_ - w.chunk_pos_) (c :: s).length)).length =
          min (w.chunk_size_ - w.chunk_pos_) (c :: s).length := by
        rw [List.length_take]; omega
      have hstep := MaybeWriteChunk_wrote w
        { w with
          chunk_ := MemCopy w.chunk_ w.chunk_pos_
            ((c :: s).take (min (w.chunk_size_ - w.chunk_pos_) (c :: s).length)),
          chunk_pos_ := w.chunk_pos_ + min (w.chunk_size_ - w.chunk_pos_) (c :: s).length }
        ((c :: s).take (min (w.chunk_size_ - w.chunk_pos_) (c :: s).length)) hw hnever rfl rfl
        (by
          show (MemCopy _ _ _).length = w.chunk_size_
          rw [MemCopy_length _ _ _ (by rw [hktake]; exact hk1), hbuf])
        (by
          show w.chunk_pos_ + _ ≤ w.chunk_size_
          omega)
        hw.not_aborted rfl
        (by
          show (MemCopy _ _ _).take (w.chunk_pos_ + _) = _
          have := MemCopy_take w.chunk_ w.chunk_pos_
            ((c :: s).take (min (w.chunk_size_ - w.chunk_pos_) (c :: s).length))
            (by rw [hktake]; exact hk1)
          rw [hktake] at this
          exact this)
      obtain ⟨w2, h2, hw2⟩ := ih _
        ((c :: s).drop (min (w.chunk_size_ - w.chunk_pos_) (c :: s).length)) hstep.ok
        (Wrote_never hstep hnever)
        (by rw [List.length_drop]; simp only [List.length_cons] at hlen hk0 ⊢; omega)
      refine ⟨w2, ?_, ?_⟩
      · rw [OutputStreamWriter.AddSubstringLoop]
        simp only [hk0, if_false, hk1, if_true]
        exact h2
      · have := Wrote_trans hstep hw2
        rw [List.take_append_drop] at this
        exact this

theorem AddSubstring_wrote (w : OutputStreamWriter) (s : List Char) (n : Int) (hw : WriterOk w)
    (hnever : w.stream_.NeverAborts) (hn : n ≤ s.length) :
    ∃ w1, w.AddSubstring s n = some w1 ∧ Wrote w w1 (s.take n.toNat) := by
  unfold OutputStreamWriter.AddSubstring
  by_cases h0 : n ≤ 0
  · rw [if_pos h0]
    have : n.toNat = 0 := by omega
    rw [this]
    exact ⟨w, rfl, Wrote_refl w hw⟩
  · rw [if_neg h0]
    have hle : n.toNat ≤ s.length := by omega
    rw [if_pos hle]
    exact AddSubstringLoop_wrote _ w _ hw hnever (by rw [List.length_take]; omega)

theorem AddString_wrote (w : OutputStreamWriter) (s : List Char) (hw : WriterOk w)
    (hnever : w.stream_.NeverAborts) :
    ∃ w1, w.AddString s = some w1 ∧ Wrote w w1 s := by
  obtain ⟨w1, h1, hw1⟩ := AddSubstring_wrote w s s.length hw hnever (le_refl _)
  refine ⟨w1, h1, ?_⟩
  simpa using hw1

theorem AddNumberImpl_wrote (w : OutputStreamWriter) (n : Nat) (hw : WriterOk w)
    (hnever : w.stream_.NeverAborts) (hn : n < kUnsignedRange) :
    ∃ w1, w.AddNumberImpl n = some w1 ∧ Wrote w w1 (decimal n) := by
  have hlen := decimal_length_unsigned n hn
  have hk : OutputStreamWriter.kMaxNumberSize = 11 := rfl
  unfold OutputStreamWriter.AddNumberImpl
  simp only [SNPrintF_u, hk]
  by_cases hroom : w.chunk_size_ - w.chunk_pos_ ≥ 11
  · rw [if_pos hroom]
    have hfit : w.chunk_pos_ + (decimal n).length + 1 ≤ w.chunk_.length := by
      rw [hw.buffer]; omega
    rw [if_pos hfit]
    refine ⟨_, rfl, ?_⟩
    apply MaybeWriteChunk_wrote w ⟨w.stream_, w.chunk_size_,
      MemCopy w.chunk_ w.chunk_pos_ (decimal n ++ [Char.ofNat 0]),
      w.chunk_pos_ + (decimal n).length, w.aborted_, w.calls⟩ (decimal n) hw hnever rfl rfl
    · show (MemCopy _ _ _).length = w.chunk_size_
      rw [MemCopy_length _ _ _ (by simp; omega), hw.buffer]
    · show w.chunk_pos_ + _ ≤ w.chunk_size_
      omega
    · exact hw.not_aborted
    · rfl
    · show (MemCopy _ _ _).take (w.chunk_pos_ + _) = _
      rw [MemCopy_take_le _ _ _ _ (by simp; omega) (by simp)]
      simp
  · rw [if_neg hroom]
    rw [if_pos (by omega)]
    exact AddString_wrote w _ hw hnever

theorem AddNumber_wrote (w : OutputStreamWriter) (n : Nat) (hw : WriterOk w)
    (hnever : w.stream_.NeverAborts) :
    ∃ w1, w.AddNumber n = some w1 ∧ Wrote w w1 (decimal (n % kUnsignedRange)) :=
  AddNumberImpl_wrote w _ hw hnever (Nat.mod_lt _ (by decide))

theorem ctor_ok (stream : OutputStream) (h : 0 < stream.GetChunkSize) :
    WriterOk (OutputStreamWriter.ctor stream) :=
  ⟨h, by simp [OutputStreamWriter.ctor], h, rfl, rfl, by simp [OutputStreamWriter.ctor, chunksOf]⟩

theorem WriterCall_wrote (w : OutputStreamWriter) (c : WriterCall) (hw : WriterOk w)
    (hnever : w.stream_.NeverAborts) (hc : c.Valid) :
    ∃ w1, c.apply w = some w1 ∧ Wrote w w1 c.text := by
  cases c with
  | AddCharacter c => exact AddCharacter_wrote w c hw hnever
  | AddString s => exact AddString_wrote w s hw hnever
  | AddSubstring s n => exact AddSubstring_wrote w s n hw hnever hc
  | AddNumber n => exact AddNumber_wrote w n hw hnever

theorem applyWriterCalls_wrote : ∀ (cs : List WriterCall) (w : OutputStreamWriter),
    WriterOk w → w.stream_.NeverAborts → (∀ c ∈ cs, c.Valid) →
    ∃ w1, applyWriterCalls w cs = some w1 ∧ Wrote w w1 (cs.map WriterCall.text).flatten := by
  intro cs
  induction cs with
  | nil => intro w hw _ _; exact ⟨w, rfl, Wrote_refl w hw⟩
  | cons c cs ih =>
    intro w hw hnever hv
    obtain ⟨w1, h1, hw1⟩ := WriterCall_wrote w c hw hnever (hv c (List.mem_cons_self _ _))
    obtain ⟨w2, h2, hw2⟩ := ih w1 hw1.ok (Wrote_never hw1 hnever)
      (fun c hc => hv c (List.mem_cons_of_mem _ hc))
    refine ⟨w2, ?_, ?_⟩
    · simp only [applyWriterCalls, List.foldlM_cons, h1, Option.bind_eq_bind, Option.some_bind]
      exact h2
    · simpa using Wrote_trans hw1 hw2

/-! ## Claims on the output stream writer -/

theorem ctor_written (stream : OutputStream) : (OutputStreamWriter.ctor stream).written = [] := by
  simp [OutputStreamWriter.written, OutputStreamWriter.ctor, received, chunksOf]

/-- What `Finalize` sends for a good writer: the rest of the buffer as a last chunk when it is
not empty, and then the end of the stream. -/
theorem Finalize_calls (w : OutputStreamWriter) (hw : WriterOk w) :
    w.Finalize.calls =
      (chunksOf w.calls ++ (if w.chunk_pos_ ≠ 0 then [w.chunk_.take w.chunk_pos_] else [])).map
        StreamCall.WriteAsciiChunk ++ [StreamCall.EndOfStream] := by
  unfold OutputStreamWriter.Finalize
  simp only [hw.not_aborted, Bool.false_eq_true, if_false]
  by_cases h : w.chunk_pos_ ≠ 0
  · rw [if_pos h, if_pos h]
    unfold OutputStreamWriter.WriteChunk
    simp only [hw.not_aborted, Bool.false_eq_true, if_false, List.map_append, ← hw.only_chunks]
    rfl
  · rw [if_neg h, if_neg h, List.append_nil, ← hw.only_chunks]

/-- Claim C21: chunking preserves the content. On a stream with a chunk size above 0 that
never aborts, every sequence of `AddCharacter`, `AddString`, `AddSubstring` (with a length
within the string) and `AddNumber` calls has a result, and after `Finalize` the stream
received chunks followed by one `EndOfStream`: the chunks concatenated are the texts of the
calls concatenated, every chunk but the last has exactly `chunk_size` characters, no chunk is
empty or longer than `chunk_size`. Between the calls `chunk_pos_ < chunk_size_` holds, the
stream has received full chunks only, and they are followed in the buffer by the rest of the
text added so far: a chunk is written as soon as the buffer is full. -/
theorem chunking_preserves_content (stream : OutputStream) (cs : List WriterCall)
    (hsize : 0 < stream.GetChunkSize) (hnever : stream.NeverAborts)
    (hvalid : ∀ c ∈ cs, c.Valid) :
    ∃ (w : OutputStreamWriter) (chunks : List (List Char)),
      applyWriterCalls (OutputStreamWriter.ctor stream) cs = some w ∧
      w.Finalize.calls = chunks.map StreamCall.WriteAsciiChunk ++ [StreamCall.EndOfStream] ∧
      chunks.flatten = (cs.map WriterCall.text).flatten ∧
      (∀ (i : Nat) (c : List Char), chunks[i]? = some c → i + 1 < chunks.length →
        c.length = stream.GetChunkSize) ∧
      (∀ c ∈ chunks, 0 < c.length ∧ c.length ≤ stream.GetChunkSize) ∧
      (∀ k, k ≤ cs.length →
        ∃ wk, applyWriterCalls (OutputStreamWriter.ctor stream) (cs.take k) = some wk ∧
          wk.chunk_pos_ < wk.chunk_size_ ∧ wk.chunk_size_ = stream.GetChunkSize ∧
          wk.calls = (chunksOf wk.calls).map StreamCall.WriteAsciiChunk ∧
          (∀ c ∈ chunksOf wk.calls, c.length = stream.GetChunkSize) ∧
          (chunksOf wk.calls).flatten ++ wk.chunk_.take wk.chunk_pos_ =
            ((cs.take k).map WriterCall.text).flatten) := by
  have hall : ∀ (l : List WriterCall), (∀ c ∈ l, c.Valid) →
      ∃ wk, applyWriterCalls (OutputStreamWriter.ctor stream) l = some wk ∧
        WriterOk wk ∧ wk.chunk_size_ = stream.GetChunkSize ∧
        (chunksOf wk.calls).flatten ++ wk.chunk_.take wk.chunk_pos_ =
          (l.map WriterCall.text).flatten := by
    intro l hl
    obtain ⟨wk, h1, h2⟩ := applyWriterCalls_wrote l (OutputStreamWriter.ctor stream)
      (ctor_ok stream hsize) hnever hl
    refine ⟨wk, h1, h2.ok, h2.size, ?_⟩
    have := h2.written
    rw [ctor_written, List.nil_append] at this
    exact this
  obtain ⟨w, hw1, hok, hsz, htext⟩ := hall cs hvalid
  refine ⟨w, chunksOf w.calls ++ (if w.chunk_pos_ ≠ 0 then [w.chunk_.take w.chunk_pos_] else []),
    hw1, Finalize_calls w hok, ?_, ?_, ?_, ?_⟩
  · rw [← htext, List.flatten_append]
    by_cases h : w.chunk_pos_ ≠ 0
    · simp [h]
    · have h0 : w.chunk_pos_ = 0 := by omega
      simp [h0]
  · intro i c hi hlt
    rw [List.length_append] at hlt
    have hlast : (if w.chunk_pos_ ≠ 0 then [w.chunk_.take w.chunk_pos_] else []).length ≤ 1 := by
      split <;> simp
    have hil : i < (chunksOf w.calls).length := by omega
    rw [List.getElem?_append_left hil] at hi
    rw [← hsz]
    exact hok.chunks_full c (List.getElem?_mem hi)
  · intro c hc
    rw [List.mem_append] at hc
    rcases hc with hc | hc
    · have := hok.chunks_full c hc
      have := hok.size_pos
      omega
    · by_cases h : w.chunk_pos_ ≠ 0
      · rw [if_pos h, List.mem_singleton] at hc
        subst hc
        have := hok.pos
        have := hok.buffer
        rw [List.length_take]
        omega
      · rw [if_neg h] at hc
        exact absurd hc (List.not_mem_nil c)
  · intro k _
    obtain ⟨wk, h1, hk, hs, ht⟩ := hall (cs.take k)
      (fun c hc => hvalid c (List.mem_of_mem_take hc))
    refine ⟨wk, h1, hk.pos, hs, hk.only_chunks, ?_, ht⟩
    intro c hc
    rw [← hs]
    exact hk.chunks_full c hc

theorem chunking_preserves_content_witness :
    ∃ (w : OutputStreamWriter) (chunks : List (List Char)),
      applyWriterCalls (OutputStreamWriter.ctor (neverAborts 4))
        [WriterCall.AddString ['a', 'b', 'c'], WriterCall.AddNumber 12345,
          WriterCall.AddCharacter 'x'] = some w ∧
      w.Finalize.calls = chunks.map StreamCall.WriteAsciiChunk ++ [StreamCall.EndOfStream] ∧
      chunks.flatten = ['a', 'b', 'c', '1', '2', '3', '4', '5', 'x'] :=
  (chunking_preserves_content (neverAborts 4)
    [WriterCall.AddString ['a', 'b', 'c'], WriterCall.AddNumber 12345,
      WriterCall.AddCharacter 'x'] (by decide) (fun _ _ => rfl)
    (by intro c hc; cases c <;> simp [WriterCall.Valid] at hc ⊢)).imp
    (fun _ h => h.imp (fun _ h2 => ⟨h2.1, h2.2.1, h2.2.2.1.trans (by decide)⟩))

/-- Once `aborted_` is set, a call that has a result makes no call on the stream and leaves
`aborted_` set. -/
theorem aborted_silent (w : OutputStreamWriter) (h : w.aborted_ = true) :
    w.WriteChunk = w ∧ w.Finalize = w := by
  constructor
  · unfold OutputStreamWriter.WriteChunk; rw [if_pos h]
  · unfold OutputStreamWriter.Finalize; rw [if_pos h]

theorem MaybeWriteChunk_aborted (w : OutputStreamWriter) (h : w.aborted_ = true) :
    w.MaybeWriteChunk = w := by
  unfold OutputStreamWriter.MaybeWriteChunk
  rw [(aborted_silent w h).1]; simp

theorem AddCharacter_aborted (w w1 : OutputStreamWriter) (c : Char) (h : w.aborted_ = true)
    (h1 : w.AddCharacter c = some w1) : w1.aborted_ = true ∧ w1.calls = w.calls := by
  unfold OutputStreamWriter.AddCharacter at h1
  split at h1
  · rw [MaybeWriteChunk_aborted _ (by exact h)] at h1
    cases h1
    exact ⟨h, rfl⟩
  · exact Option.noConfusion h1

theorem AddSubstringLoop_aborted : ∀ (fuel : Nat) (w w1 : OutputStreamWriter) (s : List Char),
    w.aborted_ = true → OutputStreamWriter.AddSubstringLoop fuel w s = some w1 →
    w1.aborted_ = true ∧ w1.calls = w.calls := by
  intro fuel
  induction fuel with
  | zero =>
    intro w w1 s h h1
    cases s with
    | nil => simp only [OutputStreamWriter.AddSubstringLoop] at h1; cases h1; exact ⟨h, rfl⟩
    | cons c s => exact Option.noConfusion h1
  | succ fuel ih =>
    intro w w1 s h h1
    cases s with
    | nil => simp only [OutputStreamWriter.AddSubstringLoop] at h1; cases h1; exact ⟨h, rfl⟩
    | cons c s =>
      rw [OutputStreamWriter.AddSubstringLoop] at h1
      split at h1
      · exact Option.noConfusion h1
      · split at h1
        · rw [MaybeWriteChunk_aborted _ (by exact h)] at h1
          have hih := fun hp => ih _ w1 _ hp h1
          exact hih h
        · exact Option.noConfusion h1

theorem AddSubstring_aborted (w w1 : OutputStreamWriter) (s : List Char) (n : Int)
    (h : w.aborted_ = true) (h1 : w.AddSubstring s n = some w1) :
    w1.aborted_ = true ∧ w1.calls = w.calls := by
  unfold OutputStreamWriter.AddSubstring at h1
  split at h1
  · cases h1; exact ⟨h, rfl⟩
  · split at h1
    · exact AddSubstringLoop_aborted _ w w1 _ h h1
    · exact Option.noConfusion h1

theorem AddNumber_aborted (w w1 : OutputStreamWriter) (n : Nat)
    (h : w.aborted_ = true) (h1 : w.AddNumber n = some w1) :
    w1.aborted_ = true ∧ w1.calls = w.calls := by
  unfold OutputStreamWriter.AddNumber OutputStreamWriter.AddNumberImpl at h1
  split at h1
  · split at h1
    · rw [MaybeWriteChunk_aborted _ (by exact h)] at h1
      cases h1; exact ⟨h, rfl⟩
    · exact Option.noConfusion h1
  · split at h1
    · exact AddSubstring_aborted w w1 _ _ h h1
    · exact Option.noConfusion h1

/-- After an abort the calls that have a result are silent: no chunk and no end of stream is
sent, whatever is added. -/
theorem applyWriterCalls_aborted : ∀ (cs : List WriterCall) (w w1 : OutputStreamWriter),
    w.aborted_ = true → applyWriterCalls w cs = some w1 →
    w1.aborted_ = true ∧ w1.calls = w.calls ∧ w1.Finalize.calls = w.calls := by
  intro cs
  induction cs with
  | nil =>
    intro w w1 h h1
    simp only [applyWriterCalls, List.foldlM_nil] at h1
    cases h1
    exact ⟨h, rfl, by rw [(aborted_silent _ h).2]⟩
  | cons c cs ih =>
    intro w w1 h h1
    simp only [applyWriterCalls, List.foldlM_cons, Option.bind_eq_bind] at h1
    cases hc : c.apply w with
    | none => rw [hc] at h1; exact Option.noConfusion h1
    | some w2 =>
      rw [hc, Option.some_bind] at h1
      have h2 : w2.aborted_ = true ∧ w2.calls = w.calls := by
        cases c with
        | AddCharacter c => exact AddCharacter_aborted w w2 c h hc
        | AddString s => exact AddSubstring_aborted w w2 s _ h hc
        | AddSubstring s n => exact AddSubstring_aborted w w2 s n h hc
        | AddNumber n => exact AddNumber_aborted w w2 n h hc
      have := ih w2 w1 h2.1 h1
      rw [h2.2] at this
      exact this

/-- Claim C22: the abort is not handled to the end. (1) When the chunk that `Finalize`
sends is the one the stream aborts on, `EndOfStream` is still called, and that chunk is not a
full one: with a chunk size of 4, `AddString("ab")` and `Finalize` on a stream that aborts on
its first chunk send the chunk `ab` and then `EndOfStream`. (2) `WriteChunk` returns early
once `aborted_` is set and leaves `chunk_pos_` at `chunk_size_`: with a chunk size of 2 and a
stream that aborts on its first chunk, `AddString("abcd")` has a result with a full buffer,
after which `AddCharacter` has none (it writes behind the buffer), and `AddString("abcde")`
has none (its loop copies 0 characters for ever). (3) So `Serialize` itself does not return
for a stream with a chunk size of 4 that aborts on its first chunk. -/
theorem abort_leaves_writer_stuck :
    ((OutputStreamWriter.ctor (abortsAt 4 1)).AddString ['a', 'b']).map
        (fun w => (w.Finalize.calls, w.Finalize.aborted_)) =
      some ([StreamCall.WriteAsciiChunk ['a', 'b'], StreamCall.EndOfStream], true) ∧
    ((OutputStreamWriter.ctor (abortsAt 2 1)).AddString ['a', 'b', 'c', 'd']).map
        (fun w => (w.calls, w.aborted_, w.chunk_pos_, w.chunk_size_)) =
      some ([StreamCall.WriteAsciiChunk ['a', 'b']], true, 2, 2) ∧
    ((OutputStreamWriter.ctor (abortsAt 2 1)).AddString ['a', 'b', 'c', 'd']).bind
        (fun w => (w.AddCharacter 'x').map (fun w1 => w1.calls)) = none ∧
    ((OutputStreamWriter.ctor (abortsAt 2 1)).AddString ['a', 'b', 'c', 'd', 'e']).map
        (fun w => w.calls) = none ∧
    (HeapSnapshotJSONSerializer.Serialize (fun i => (i : Int) * 6) ⟨65533, fun _ => (65533, 1)⟩
        (HeapSnapshotJSONSerializer.ctor twoEntries ⟨none, []⟩ (abortsAt 4 1))
        (abortsAt 4 1)).map (fun z => z.writer_.calls) = none := by
  refine ⟨by decide, by decide, by decide, by decide, ?_⟩
  rfl

theorem only_chunks_mem (calls : List StreamCall)
    (h : calls = (chunksOf calls).map StreamCall.WriteAsciiChunk) (c : StreamCall)
    (hc : c ∈ calls) : ∃ d, c = StreamCall.WriteAsciiChunk d := by
  rw [h, List.mem_map] at hc
  obtain ⟨d, _, hd⟩ := hc
  exact ⟨d, hd.symm⟩

/-- What is in the buffer of a good writer goes to the stream together: after more text was
added, either nothing was sent and the buffer holds what it held followed by the text, or the
first chunk sent since begins with what the buffer held. -/
theorem Wrote_first_chunk {w w1 : OutputStreamWriter} {t : List Char} (hw : WriterOk w)
    (h : Wrote w w1 t) :
    (w1.calls = w.calls ∧ w1.chunk_.take w1.chunk_pos_ = w.chunk_.take w.chunk_pos_ ++ t) ∨
    (∃ d rest, w1.calls = w.calls ++ StreamCall.WriteAsciiChunk d :: rest ∧
      w.chunk_.take w.chunk_pos_ <+: d) := by
  obtain ⟨more, hmore⟩ := h.calls
  have hwr := h.written
  unfold OutputStreamWriter.written at hwr
  rw [hmore, received_append, List.append_assoc, List.append_assoc] at hwr
  have hwr2 := List.append_cancel_left hwr
  cases more with
  | nil =>
    left
    refine ⟨by rw [hmore, List.append_nil], ?_⟩
    simpa [received, chunksOf] using hwr2
  | cons c rest =>
    right
    obtain ⟨d, hd⟩ := only_chunks_mem w1.calls h.ok.only_chunks c (by rw [hmore]; simp)
    subst hd
    refine ⟨d, rest, hmore, ?_⟩
    have hdlen : d.length = w.chunk_size_ := by
      rw [← h.size]
      apply h.ok.chunks_full
      rw [hmore, chunksOf_append]
      simp [chunksOf]
    have hblen : (w.chunk_.take w.chunk_pos_).length ≤ d.length := by
      rw [List.length_take, hdlen]
      have := hw.pos
      omega
    have heq : d ++ (received rest ++ w1.chunk_.take w1.chunk_pos_) =
        w.chunk_.take w.chunk_pos_ ++ t := by
      rw [← hwr2]
      simp [received, chunksOf]
    exact List.prefix_of_prefix_length_le ⟨t, rfl⟩ ⟨_, heq⟩ hblen

/-- The digits of a number that was added with `kMaxNumberSize` free cells are placed in the
buffer, and nothing is sent. -/
theorem AddNumber_in_buffer (w : OutputStreamWriter) (n : Nat) (hw : WriterOk w)
    (hroom : OutputStreamWriter.kMaxNumberSize ≤ w.chunk_size_ - w.chunk_pos_) :
    ∃ w1, w.AddNumber n = some w1 ∧ w1.calls = w.calls ∧
      w1.chunk_pos_ = w.chunk_pos_ + (decimal (n % kUnsignedRange)).length ∧
      w1.chunk_.take w1.chunk_pos_ =
        w.chunk_.take w.chunk_pos_ ++ decimal (n % kUnsignedRange) := by
  have hlen := decimal_length_unsigned (n % kUnsignedRange) (Nat.mod_lt _ (by decide))
  have hk : OutputStreamWriter.kMaxNumberSize = 11 := rfl
  rw [hk] at hroom
  have hfit : w.chunk_pos_ + (decimal (n % kUnsignedRange)).length + 1 ≤ w.chunk_.length := by
    rw [hw.buffer]; omega
  have hne : ¬ (w.chunk_pos_ + (decimal (n % kUnsignedRange)).length = w.chunk_size_) := by
    omega
  refine ⟨⟨w.stream_, w.chunk_size_,
      MemCopy w.chunk_ w.chunk_pos_ (decimal (n % kUnsignedRange) ++ [Char.ofNat 0]),
      w.chunk_pos_ + (decimal (n % kUnsignedRange)).length, w.aborted_, w.calls⟩, ?_, rfl, rfl, ?_⟩
  · unfold OutputStreamWriter.AddNumber OutputStreamWriter.AddNumberImpl
    simp only [SNPrintF_u, hk]
    rw [if_pos hroom, if_pos hfit]
    unfold OutputStreamWriter.MaybeWriteChunk
    rw [if_neg hne]
  · show (MemCopy _ _ _).take (w.chunk_pos_ + _) = _
    rw [MemCopy_take_le _ _ _ _ (by simp; omega) (by simp)]
    simp

/-- Claim C23, amended: `AddNumber(n)` adds the decimal digits of `n`, in order and without
loss, on a stream that never aborts. When at least `kMaxNumberSize` = 11 cells of the buffer
are free, the digits are placed in the buffer together and nothing is sent by the call; then,
whatever is added later, the first chunk that the stream receives after the call, be it the
one `Finalize` sends, begins with what the buffer held before the call followed by all the
digits: they are delivered inside a single chunk. -/
theorem AddNumber_digits_in_one_chunk (w : OutputStreamWriter) (n : Nat) (cs : List WriterCall)
    (hw : WriterOk w) (hnever : w.stream_.NeverAborts) (hvalid : ∀ c ∈ cs, c.Valid) :
    ∃ w1, w.AddNumber n = some w1 ∧ Wrote w w1 (decimal (n % kUnsignedRange)) ∧
      (OutputStreamWriter.kMaxNumberSize ≤ w.chunk_size_ - w.chunk_pos_ →
        w1.calls = w.calls ∧
        ∃ w2 d rest, applyWriterCalls w1 cs = some w2 ∧
          w2.Finalize.calls = w.calls ++ StreamCall.WriteAsciiChunk d :: rest ∧
          w.chunk_.take w.chunk_pos_ ++ decimal (n % kUnsignedRange) <+: d) := by
  obtain ⟨w1, h1, hw1⟩ := AddNumber_wrote w n hw hnever
  refine ⟨w1, h1, hw1, ?_⟩
  intro hroom
  obtain ⟨w1', h1', hcalls, hpos, hbuf⟩ := AddNumber_in_buffer w n hw hroom
  rw [h1] at h1'
  cases h1'
  refine ⟨hcalls, ?_⟩
  obtain ⟨w2, h2, hw2⟩ := applyWriterCalls_wrote cs w1 hw1.ok (Wrote_never hw1 hnever) hvalid
  have hfin := Finalize_calls w2 hw2.ok
  rcases Wrote_first_chunk hw1.ok hw2 with ⟨hc, hb⟩ | ⟨d, rest, hc, hpre⟩
  · have hne : w2.chunk_pos_ ≠ 0 := by
      intro h0
      rw [h0] at hb
      have := congrArg List.length hb
      simp only [List.take_zero, List.length_nil, List.length_append, hbuf] at this
      have := decimal_length_pos (n % kUnsignedRange)
      omega
    rw [if_pos hne, List.map_append, ← hw2.ok.only_chunks, hc, hcalls] at hfin
    refine ⟨w2, w2.chunk_.take w2.chunk_pos_, [StreamCall.EndOfStream], h2,
      by rw [hfin]; simp, ?_⟩
    rw [hb, hbuf]
    exact List.prefix_append _ _
  · rw [List.map_append, ← hw2.ok.only_chunks, hc, hcalls] at hfin
    refine ⟨w2, d, rest ++
      List.map StreamCall.WriteAsciiChunk
        (if w2.chunk_pos_ ≠ 0 then [List.take w2.chunk_pos_ w2.chunk_] else []) ++
      [StreamCall.EndOfStream], h2, by rw [hfin]; simp, ?_⟩
    rw [← hbuf]
    exact hpre

theorem AddNumber_digits_in_one_chunk_witness :
    ∃ w1, (OutputStreamWriter.ctor (neverAborts 16)).AddNumber 12345 = some w1 ∧
      w1.calls = [] ∧
      ∃ w2 d rest, applyWriterCalls w1 [WriterCall.AddString ['a', 'b']] = some w2 ∧
        w2.Finalize.calls = [] ++ StreamCall.WriteAsciiChunk d :: rest ∧
        [] ++ ['1', '2', '3', '4', '5'] <+: d :=
  (AddNumber_digits_in_one_chunk (OutputStreamWriter.ctor (neverAborts 16)) 12345
    [WriterCall.AddString ['a', 'b']] (ctor_ok _ (by decide)) (fun _ _ => rfl)
    (by intro c hc; cases c <;> simp [WriterCall.Valid] at hc ⊢)).imp
    (fun _ h => ⟨h.1, (h.2.2 (by decide)).1, (h.2.2 (by decide)).2⟩)

/-- Counterexample to claim C23: with a chunk size of 4 and `abc` in the buffer, only one cell
is free, so `AddNumber(12345)` adds its digits as a string and they go out in two chunks,
`abc1` and `2345`. -/
theorem AddNumber_digits_straddle_chunks :
    (applyWriterCalls (OutputStreamWriter.ctor (neverAborts 4))
        [WriterCall.AddString ['a', 'b', 'c'], WriterCall.AddNumber 12345]).map
        (fun w => (w.calls, w.chunk_pos_)) =
      some ([StreamCall.WriteAsciiChunk ['a', 'b', 'c', '1'],
        StreamCall.WriteAsciiChunk ['2', '3', '4', '5']], 0) := by
  decide

/-! ## The function utoa and the local buffers -/

theorem utoa_count_eq : ∀ (fuel value k : Nat), value < fuel →
    utoa_impl.count fuel value k = k + (decimal value).length := by
  intro fuel
  induction fuel with
  | zero => intro value k h; omega
  | succ fuel ih =>
    intro value k h
    rw [utoa_impl.count, decimal_eq]
    by_cases h0 : value / 10 = 0
    · simp [h0]
    · rw [if_neg h0, if_neg h0]
      have : value / 10 < value := Nat.div_lt_self (by omega) (by decide)
      rw [ih (value / 10) (k + 1) (by omega)]
      simp; omega

theorem set_eq_take_cons_drop (l : List Char) (i : Nat) (c : Char) (h : i < l.length) :
    l.set i c = l.take i ++ c :: l.drop (i + 1) := by
  apply List.ext_getElem?
  intro j
  rw [List.getElem?_set]
  by_cases hij : i = j
  · subst hij
    rw [if_pos rfl, List.getElem?_append_right (by simp)]
    simp [h, Nat.min_eq_left (Nat.le_of_lt h)]
  · rw [if_neg hij]
    by_cases hlt : j < i
    · rw [List.getElem?_append_left (by simp; omega), List.getElem?_take_of_lt hlt]
    · have hgt : i < j := by omega
      rw [List.getElem?_append_right (by simp; omega)]
      have hlen : (l.take i).length = i := by simp; omega
      rw [hlen]
      obtain ⟨k, hk⟩ : ∃ k, j = i + 1 + k := ⟨j - i - 1, by omega⟩
      subst hk
      have : i + 1 + k - i = k + 1 := by omega
      rw [this, List.getElem?_cons_succ, List.getElem?_drop]

/-- The second loop of `utoa_impl` writes the numeral of `value` into the cells before
`buffer_pos`, when they exist, and leaves the other cells. -/
theorem utoa_fill_eq : ∀ (fuel value : Nat) (buffer : List Char) (buffer_pos : Nat),
    value < fuel → (decimal value).length ≤ buffer_pos → buffer_pos ≤ buffer.length →
    utoa_impl.fill fuel value buffer buffer_pos =
      some (buffer.take (buffer_pos - (decimal value).length) ++ decimal value ++
        buffer.drop buffer_pos) := by
  intro fuel
  induction fuel with
  | zero => intro value buffer p h; omega
  | succ fuel ih =>
    intro value buffer p h hd hp
    have hpos := decimal_length_pos value
    have hp0 : ¬ p = 0 := by omega
    have hlt : p - 1 < buffer.length := by omega
    rw [utoa_impl.fill, if_neg hp0, if_pos hlt]
    rw [decimal_eq] at hd ⊢
    by_cases h0 : value / 10 = 0
    · rw [if_pos h0, if_pos h0]
      rw [set_eq_take_cons_drop _ _ _ hlt]
      have : p - 1 + 1 = p := by omega
      simp [this]
    · rw [if_neg h0] at hd ⊢
      rw [if_neg h0]
      have hv : value / 10 < value := Nat.div_lt_self (by omega) (by decide)
      simp only [List.length_append, List.length_singleton] at hd
      rw [ih (value / 10) _ (p - 1) (by omega) (by omega) (by rw [List.length_set]; omega)]
      rw [set_eq_take_cons_drop _ _ _ hlt]
      have h1 : p - 1 + 1 = p := by omega
      have h2 : p - (decimal (value / 10) ++ [Char.ofNat (48 + value % 10)]).length =
          p - 1 - (decimal (value / 10)).length := by
        simp only [List.length_append, List.length_singleton]; omega
      have h3 : (buffer.take (p - 1)).length = p - 1 := by simp; omega
      rw [h1, h2]
      congr 1
      rw [List.take_append_of_le_length (by rw [h3]; omega), List.take_take,
        Nat.min_eq_left (by omega)]
      rw [List.drop_append_eq_append_drop, h3, Nat.sub_self, List.drop_zero,
        List.drop_eq_nil_of_le (by rw [h3])]
      simp

/-- The function `utoa_impl` writes the numeral of `value` from `buffer_pos` on, when the
cells exist, and returns the position behind it; the other cells keep what they held. -/
theorem utoa_impl_eq (value : Nat) (buffer : List Char) (buffer_pos : Nat)
    (h : buffer_pos + (decimal value).length ≤ buffer.length) :
    utoa_impl value buffer buffer_pos =
      some (buffer.take buffer_pos ++ decimal value ++
        buffer.drop (buffer_pos + (decimal value).length),
        buffer_pos + (decimal value).length) := by
  unfold utoa_impl
  simp only [utoa_count_eq (value + 1) value 0 (Nat.lt_succ_self _), Nat.zero_add]
  rw [utoa_fill_eq (value + 1) value buffer _ (Nat.lt_succ_self _) (by omega) h]
  simp

/-- Without the cells for the numeral, `utoa_impl` has no result. -/
theorem utoa_fill_none : ∀ (fuel value : Nat) (buffer : List Char) (buffer_pos : Nat),
    value < fuel → buffer.length < buffer_pos →
    utoa_impl.fill fuel value buffer buffer_pos = none := by
  intro fuel
  induction fuel with
  | zero => intro value buffer p h; omega
  | succ fuel ih =>
    intro value buffer p h hp
    have hp0 : ¬ p = 0 := by omega
    rw [utoa_impl.fill, if_neg hp0]
    by_cases hlt : p - 1 < buffer.length
    · rw [if_pos hlt]
      omega
    · rw [if_neg hlt]

theorem utoa_impl_none (value : Nat) (buffer : List Char) (buffer_pos : Nat)
    (h : buffer.length < buffer_pos + (decimal value).length) :
    utoa_impl value buffer buffer_pos = none := by
  unfold utoa_impl
  simp only [utoa_count_eq (value + 1) value 0 (Nat.lt_succ_self _), Nat.zero_add]
  rw [utoa_fill_none (value + 1) value buffer _ (Nat.lt_succ_self _) h]
  rfl

theorem ToUnsigned_lt (bytes : Nat) (value : Int) : ToUnsigned bytes value < 2 ^ (8 * bytes) := by
  unfold ToUnsigned
  have hpos : (0 : Int) < ((2 ^ (8 * bytes) : Nat) : Int) := by positivity
  have h1 := Int.emod_lt_of_pos value hpos
  have h2 := Int.emod_nonneg value (ne_of_gt hpos)
  omega

theorem ToUnsigned_nat (bytes n : Nat) : ToUnsigned bytes (n : Int) = n % 2 ^ (8 * bytes) := by
  unfold ToUnsigned
  rw [← Int.natCast_mod, Int.toNat_natCast]

theorem ToUnsigned_of_lt (bytes n : Nat) (h : n < 2 ^ (8 * bytes)) :
    ToUnsigned bytes (n : Int) = n := by
  rw [ToUnsigned_nat, Nat.mod_eq_of_lt h]

theorem decimal_ToUnsigned4 (value : Int) : (decimal (ToUnsigned 4 value)).length ≤ 10 :=
  decimal_length_le 10 _ (by decide) (lt_of_lt_of_le (ToUnsigned_lt 4 value) (by norm_num))

theorem decimal_ToUnsigned8 (value : Int) : (decimal (ToUnsigned 8 value)).length ≤ 20 :=
  decimal_length_le 20 _ (by decide) (lt_of_lt_of_le (ToUnsigned_lt 8 value) (by norm_num))

theorem Step_init (size : Nat) : Step (some (EmbeddedVector size, 0)) [] size :=
  ⟨_, rfl, rfl, by simp [EmbeddedVector], rfl⟩

theorem Step_put {x : Option (List Char × Nat)} {text : List Char} {size : Nat} (c : Char)
    (h : Step x text size) (hlt : text.length < size) :
    Step (x.bind (fun b => put c b.1 b.2)) (text ++ [c]) size := by
  obtain ⟨b, hx, h2, hl, ht⟩ := h
  subst hx
  have hb : b.2 < b.1.length := by omega
  refine ⟨(b.1.set b.2 c, b.2 + 1), by simp [put, hb], by simp [h2], by simp [hl], ?_⟩
  show (b.1.set b.2 c).take (text ++ [c]).length = text ++ [c]
  rw [List.length_append, List.length_singleton, ← h2, set_take_succ _ _ _ hb, h2, ht]

theorem Step_utoa_impl {x : Option (List Char × Nat)} {text : List Char} {size : Nat}
    (value : Nat) (h : Step x text size) (hlt : text.length + (decimal value).length ≤ size) :
    Step (x.bind (fun b => utoa_impl value b.1 b.2)) (text ++ decimal value) size := by
  obtain ⟨b, hx, h2, hl, ht⟩ := h
  subst hx
  rw [Option.some_bind, utoa_impl_eq value b.1 b.2 (by omega)]
  refine ⟨_, rfl, by simp [h2], by simp; omega, ?_⟩
  show (b.1.take b.2 ++ decimal value ++ _).take (text ++ decimal value).length = _
  have : (b.1.take b.2 ++ decimal value).length = (text ++ decimal value).length := by
    simp [h2]; omega
  rw [← this, List.take_left, h2, ht]

theorem Step_utoa {x : Option (List Char × Nat)} {text : List Char} {size : Nat}
    (bytes : Nat) (value : Int) (h : Step x text size)
    (hlt : text.length + (decimal (ToUnsigned bytes value)).length ≤ size) :
    Step (x.bind (fun b => utoa bytes value b.1 b.2)) (text ++ decimal (ToUnsigned bytes value))
      size :=
  Step_utoa_impl _ h hlt

theorem cstring_append (text rest : List Char) (h : ∀ c ∈ text, c ≠ Char.ofNat 0) :
    cstring (text ++ Char.ofNat 0 :: rest) = some text := by
  induction text with
  | nil => simp [cstring]
  | cons c text ih =>
    have hc : c ≠ Char.ofNat 0 := h c (List.mem_cons_self _ _)
    have ih2 := ih (fun c hc => h c (List.mem_cons_of_mem _ hc))
    rw [List.cons_append, cstring, if_neg hc, ih2]
    rfl

theorem Step_cstring {x : Option (List Char × Nat)} {text : List Char} {size : Nat}
    (h : Step x (text ++ [Char.ofNat 0]) size) (hz : ∀ c ∈ text, c ≠ Char.ofNat 0) :
    ∃ b, x = some b ∧ cstring b.1 = some text := by
  obtain ⟨b, hx, h2, hl, ht⟩ := h
  refine ⟨b, hx, ?_⟩
  have := List.take_append_drop (text ++ [Char.ofNat 0]).length b.1
  rw [ht, List.append_assoc, List.singleton_append] at this
  rw [← this]
  exact cstring_append text _ hz

theorem decimal_no_nul (n : Nat) : ∀ c ∈ decimal n, c ≠ Char.ofNat 0 := by
  intro c hc
  obtain ⟨d, hd, rfl⟩ := decimal_digits n c hc
  have : d = 0 ∨ d = 1 ∨ d = 2 ∨ d = 3 ∨ d = 4 ∨ d = 5 ∨ d = 6 ∨ d = 7 ∨ d = 8 ∨ d = 9 := by
    omega
  rcases this with h | h | h | h | h | h | h | h | h | h <;> subst h <;> decide

/-! ## The string table -/

theorem StringsMap_Lookup_zip : ∀ (order : List String) (k : Nat) (s : String),
    StringsMap.Lookup (order.zip (List.range' k order.length)) s =
      if s ∈ order then some (order.indexOf s + k) else none := by
  intro order
  induction order with
  | nil => intro k s; simp [StringsMap.Lookup]
  | cons a order ih =>
    intro k s
    rw [List.length_cons, List.range'_succ, List.zip_cons_cons, StringsMap.Lookup]
    by_cases h : a = s
    · subst h
      simp
    · rw [if_neg h, ih (k + 1) s]
      have h2 : ¬ s = a := fun e => h e.symm
      by_cases hm : s ∈ order
      · rw [if_pos hm, if_pos (List.mem_cons_of_mem _ hm), List.indexOf_cons_ne _ h]
        congr 1; omega
      · rw [if_neg hm, if_neg (by simp [h2, hm])]

theorem StringsMap_SetValue_append (m : StringsMap) (s : String) (v w : Nat)
    (h : StringsMap.Lookup m s = none) :
    StringsMap.SetValue (m ++ [(s, v)]) s w = m ++ [(s, w)] := by
  induction m with
  | nil => simp [StringsMap.SetValue]
  | cons a m ih =>
    obtain ⟨k, u⟩ := a
    rw [StringsMap.Lookup] at h
    by_cases hk : k = s
    · rw [if_pos hk] at h; exact Option.noConfusion h
    · rw [if_neg hk] at h
      rw [List.cons_append, StringsMap.SetValue, if_neg hk, ih h]
      rfl

theorem intern_nodup (order : List String) (s : String) (h : order.Nodup) :
    (intern order s).Nodup := by
  unfold intern
  split
  · exact h
  · rename_i hs
    rw [List.nodup_append]
    exact ⟨h, List.nodup_singleton s, by
      intro a ha hb
      rw [List.mem_singleton] at hb
      subst hb
      exact hs ha⟩

theorem mem_intern_self (order : List String) (s : String) : s ∈ intern order s := by
  unfold intern
  split
  · assumption
  · simp

theorem intern_extends (order : List String) (s : String) : order <+: intern order s := by
  unfold intern
  split
  · exact List.prefix_refl _
  · exact List.prefix_append _ _

theorem indexOf_of_extends {order order1 : List String} (h : order <+: order1) (t : String)
    (ht : t ∈ order) : order1.indexOf t = order.indexOf t := by
  obtain ⟨more, rfl⟩ := h
  exact List.indexOf_append_of_mem ht

theorem mem_of_extends {order order1 : List String} (h : order <+: order1) (t : String)
    (ht : t ∈ order) : t ∈ order1 := by
  obtain ⟨more, rfl⟩ := h
  exact List.mem_append_left _ ht

/-- One call of `GetStringId`: the id is the position (from 1) of the string among the
distinct strings used so far, the table holds them, and nothing else changes. -/
theorem GetStringId_spec (z : HeapSnapshotJSONSerializer) (order : List String) (s : String)
    (h : StringsAre z order) :
    (z.GetStringId s).1 = (intern order s).indexOf s + 1 ∧
    StringsAre (z.GetStringId s).2 (intern order s) ∧
    (z.GetStringId s).2.snapshot_ = z.snapshot_ ∧
    (z.GetStringId s).2.profiler = z.profiler ∧
    (z.GetStringId s).2.writer_ = z.writer_ := by
  obtain ⟨hnd, hmap, hnext⟩ := h
  have hlook := StringsMap_Lookup_zip order 1 s
  rw [← hmap] at hlook
  unfold HeapSnapshotJSONSerializer.GetStringId StringsMap.LookupOrInsert
  by_cases hs : s ∈ order
  · rw [if_pos hs] at hlook
    have hint : intern order s = order := by unfold intern; rw [if_pos hs]
    rw [hlook, hint]
    have hne : ¬ (order.indexOf s + 1 = 0) := by omega
    refine ⟨?_, ?_, ?_, ?_, ?_⟩ <;> rw [if_neg hne]
    exact ⟨hnd, hmap, hnext⟩
  · rw [if_neg hs] at hlook
    have hint : intern order s = order ++ [s] := by unfold intern; rw [if_neg hs]
    rw [hlook, hint]
    refine ⟨?_, ⟨?_, ?_, ?_⟩, ?_, ?_, ?_⟩ <;> (try rw [if_pos rfl])
    · rw [hnext, List.indexOf_append_of_not_mem hs]
      simp
    · rw [← hint]; exact intern_nodup order s hnd
    · show StringsMap.SetValue (z.strings_ ++ [(s, 0)]) s z.next_string_id_ = _
      rw [StringsMap_SetValue_append _ _ _ _ hlook, hmap, hnext]
      rw [List.length_append, List.length_singleton, List.range'_concat,
        List.zip_append (by simp)]
      simp [Nat.add_comm]
    · show z.next_string_id_ + 1 = _
      rw [hnext]; simp

theorem StringsAre_ctor (snapshot : HeapSnapshot) (profiler : HeapProfilerData)
    (stream : OutputStream) :
    StringsAre (HeapSnapshotJSONSerializer.ctor snapshot profiler stream) [] :=
  ⟨List.nodup_nil, rfl, rfl⟩

theorem firstUses_append (uses : List String) (s : String) :
    firstUses (uses ++ [s]) = intern (firstUses uses) s := by
  simp [firstUses, List.foldl_append]

theorem foldl_intern_extends : ∀ (uses : List String) (order : List String),
    order <+: uses.foldl intern order := by
  intro uses
  induction uses with
  | nil => intro order; exact List.prefix_refl _
  | cons s uses ih =>
    intro order
    exact (intern_extends order s).trans (ih (intern order s))

theorem foldl_intern_nodup : ∀ (uses : List String) (order : List String), order.Nodup →
    (uses.foldl intern order).Nodup := by
  intro uses
  induction uses with
  | nil => intro order h; exact h
  | cons s uses ih => intro order h; exact ih _ (intern_nodup order s h)

theorem mem_foldl_intern : ∀ (uses : List String) (order : List String) (t : String),
    t ∈ uses.foldl intern order ↔ t ∈ order ∨ t ∈ uses := by
  intro uses
  induction uses with
  | nil => intro order t; simp
  | cons s uses ih =>
    intro order t
    rw [List.foldl_cons, ih]
    unfold intern
    by_cases hs : s ∈ order
    · rw [if_pos hs]
      constructor
      · rintro (h | h)
        · exact Or.inl h
        · exact Or.inr (List.mem_cons_of_mem _ h)
      · rintro (h | h)
        · exact Or.inl h
        · rcases List.mem_cons.mp h with h | h
          · subst h; exact Or.inl hs
          · exact Or.inr h
    · rw [if_neg hs]
      simp only [List.mem_append, List.mem_singleton, List.mem_cons]
      tauto

/-- A sequence of `GetStringId` calls: every id is the position (from 1) of its string among
the distinct strings in the order of their first use. -/
theorem GetStringIds_spec : ∀ (uses : List String) (z : HeapSnapshotJSONSerializer)
    (order : List String), StringsAre z order →
    (GetStringIds z uses).1 = uses.map (fun s => (uses.foldl intern order).indexOf s + 1) ∧
    StringsAre (GetStringIds z uses).2 (uses.foldl intern order) ∧
    (GetStringIds z uses).2.snapshot_ = z.snapshot_ ∧
    (GetStringIds z uses).2.profiler = z.profiler ∧
    (GetStringIds z uses).2.writer_ = z.writer_ := by
  intro uses
  induction uses with
  | nil => intro z order h; exact ⟨rfl, h, rfl, rfl, rfl⟩
  | cons s uses ih =>
    intro z order h
    obtain ⟨h1, h2, h3, h4, h5⟩ := GetStringId_spec z order s h
    obtain ⟨i1, i2, i3, i4, i5⟩ := ih (z.GetStringId s).2 (intern order s) h2
    refine ⟨?_, i2, i3.trans h3, i4.trans h4, i5.trans h5⟩
    show (z.GetStringId s).1 :: (GetStringIds (z.GetStringId s).2 uses).1 = _
    rw [i1, h1, List.map_cons, List.foldl_cons]
    congr 2
    exact (indexOf_of_extends (foldl_intern_extends uses _) s (mem_intern_self order s)).symm

theorem firstUses_nodup (uses : List String) : (firstUses uses).Nodup :=
  foldl_intern_nodup uses [] List.nodup_nil

theorem mem_firstUses (uses : List String) (s : String) : s ∈ firstUses uses ↔ s ∈ uses := by
  unfold firstUses
  rw [mem_foldl_intern]
  simp

/-- The order of `firstUses` is the order of the first uses. -/
theorem firstUses_order (uses : List String) : ∀ (s t : String), s ∈ uses → t ∈ uses →
    ((firstUses uses).indexOf s < (firstUses uses).indexOf t ↔
      uses.indexOf s < uses.indexOf t) := by
  induction uses using List.reverseRecOn with
  | nil => intro s t hs; exact absurd hs (List.not_mem_nil s)
  | append_singleton uses u ih =>
    intro s t hs ht
    rw [firstUses_append]
    have key : ∀ (x : String), x ∈ uses ++ [u] →
        (x ∈ uses ∧ (intern (firstUses uses) u).indexOf x = (firstUses uses).indexOf x ∧
          (uses ++ [u]).indexOf x = uses.indexOf x ∧ uses.indexOf x < uses.length ∧
          (firstUses uses).indexOf x < (firstUses uses).length) ∨
        (x ∉ uses ∧ (intern (firstUses uses) u).indexOf x = (firstUses uses).length ∧
          (uses ++ [u]).indexOf x = uses.length) := by
      intro x hx
      by_cases hxu : x ∈ uses
      · left
        have hxf : x ∈ firstUses uses := (mem_firstUses uses x).mpr hxu
        exact ⟨hxu, indexOf_of_extends (intern_extends _ u) x hxf,
          List.indexOf_append_of_mem hxu, List.indexOf_lt_length.mpr hxu,
          List.indexOf_lt_length.mpr hxf⟩
      · right
        have hxe : x = u := by
          rcases List.mem_append.mp hx with h | h
          · exact absurd h hxu
          · exact List.mem_singleton.mp h
        subst hxe
        have hxf : x ∉ firstUses uses := fun h => hxu ((mem_firstUses uses x).mp h)
        refine ⟨hxu, ?_, ?_⟩
        · unfold intern
          rw [if_neg hxf, List.indexOf_append_of_not_mem hxf]
          simp
        · rw [List.indexOf_append_of_not_mem hxu]
          simp
    rcases key s hs with ⟨hsu, e1, e2, l1, l2⟩ | ⟨hsu, e1, e2⟩ <;>
      rcases key t ht with ⟨htu, f1, f2, m1, m2⟩ | ⟨htu, f1, f2⟩
    · rw [e1, e2, f1, f2]; exact ih s t hsu htu
    · rw [e1, e2, f1, f2]; exact ⟨fun _ => l1, fun _ => l2⟩
    · rw [e1, e2, f1, f2]; exact ⟨fun h => absurd h (by omega), fun h => absurd h (by omega)⟩
    · rw [e1, e2, f1, f2]; exact ⟨fun h => absurd h (by omega), fun h => absurd h (by omega)⟩

/-- Claim C24: `GetStringId` interns by content, in the order of the first uses. For every
sequence `uses` of `GetStringId` calls on a new serializer, the id returned for a string is its
position, counted from 1, in the list `firstUses uses` of the distinct strings; that list has
no string twice, holds exactly the strings used, and is ordered by the first use. So two calls
return the same id exactly when their strings have the same content, the `k`-th distinct
string gets the id `k` at each of its uses, the ids returned are exactly 1, 2, ..., (number of
distinct strings), and 0 is never returned. -/
theorem GetStringId_interns (snapshot : HeapSnapshot) (profiler : HeapProfilerData)
    (stream : OutputStream) (uses : List String) :
    (GetStringIds (HeapSnapshotJSONSerializer.ctor snapshot profiler stream) uses).1 =
      uses.map (fun s => (firstUses uses).indexOf s + 1) ∧
    (firstUses uses).Nodup ∧ (∀ s, s ∈ firstUses uses ↔ s ∈ uses) ∧
    (∀ s t, s ∈ uses → t ∈ uses →
      ((firstUses uses).indexOf s < (firstUses uses).indexOf t ↔
        uses.indexOf s < uses.indexOf t)) ∧
    (∀ (i j : Nat) (s t : String), uses[i]? = some s → uses[j]? = some t →
      ((GetStringIds (HeapSnapshotJSONSerializer.ctor snapshot profiler stream) uses).1[i]? =
        (GetStringIds (HeapSnapshotJSONSerializer.ctor snapshot profiler stream) uses).1[j]? ↔
        s = t)) ∧
    (∀ (k i : Nat) (s : String), (firstUses uses)[k]? = some s → uses[i]? = some s →
      (GetStringIds (HeapSnapshotJSONSerializer.ctor snapshot profiler stream) uses).1[i]? =
        some (k + 1)) ∧
    (∀ id, id ∈ (GetStringIds (HeapSnapshotJSONSerializer.ctor snapshot profiler stream) uses).1 ↔
      1 ≤ id ∧ id ≤ (firstUses uses).length) := by
  have hids : (GetStringIds (HeapSnapshotJSONSerializer.ctor snapshot profiler stream) uses).1 =
      uses.map (fun s => (firstUses uses).indexOf s + 1) :=
    (GetStringIds_spec uses _ [] (StringsAre_ctor snapshot profiler stream)).1
  have hnd := firstUses_nodup uses
  have hget : ∀ (i : Nat) (s : String), uses[i]? = some s →
      (GetStringIds (HeapSnapshotJSONSerializer.ctor snapshot profiler stream) uses).1[i]? =
        some ((firstUses uses).indexOf s + 1) := by
    intro i s hi
    rw [hids, List.getElem?_map, hi]
    rfl
  refine ⟨hids, hnd, mem_firstUses uses, firstUses_order uses, ?_, ?_, ?_⟩
  · intro i j s t hi hj
    rw [hget i s hi, hget j t hj]
    constructor
    · intro h
      have h2 : (firstUses uses).indexOf s = (firstUses uses).indexOf t := by
        have := Option.some.inj h; omega
      have hs : s ∈ firstUses uses := (mem_firstUses uses s).mpr (List.getElem?_mem hi)
      have := congrArg (fun n => (firstUses uses)[n]?) h2
      simp only [List.getElem?_indexOf hs] at this
      have ht : t ∈ firstUses uses := (mem_firstUses uses t).mpr (List.getElem?_mem hj)
      rw [List.getElem?_indexOf ht] at this
      exact Option.some.inj this
    · intro h; rw [h]
  · intro k i s hk hi
    rw [hget i s hi]
    have hkl := lt_length_of_getElem? hk
    have : (firstUses uses).indexOf s = k := by
      have h1 := List.getElem?_eq_getElem hkl
      rw [hk] at h1
      have h2 := Option.some.inj h1
      rw [h2]
      exact List.indexOf_getElem hnd k hkl
    rw [this]
  · intro id
    rw [hids, List.mem_map]
    constructor
    · rintro ⟨s, hs, rfl⟩
      have := List.indexOf_lt_length.mpr ((mem_firstUses uses s).mpr hs)
      omega
    · rintro ⟨h1, h2⟩
      have hlt : id - 1 < (firstUses uses).length := by omega
      refine ⟨(firstUses uses)[id - 1], (mem_firstUses uses _).mp (List.getElem_mem _), ?_⟩
      rw [List.indexOf_getElem hnd (id - 1) hlt]
      omega

/-! ## The steps of the serializer -/

theorem Emits_ok {z z1 : HeapSnapshotJSONSerializer} {order order1 : List String}
    {text : List Char} (h0 : SerializerOk z order) (h : Emits z z1 order1 text) :
    SerializerOk z1 order1 :=
  ⟨h.strings, h.wrote.ok, Wrote_never h.wrote h0.never⟩

theorem Emits_refl {z : HeapSnapshotJSONSerializer} {order : List String}
    (h0 : SerializerOk z order) : Emits z z order [] :=
  ⟨rfl, rfl, h0.strings, Wrote_refl _ h0.writer⟩

theorem Emits_trans {z z1 z2 : HeapSnapshotJSONSerializer} {order1 order2 : List String}
    {t1 t2 : List Char} (h1 : Emits z z1 order1 t1) (h2 : Emits z1 z2 order2 t2) :
    Emits z z2 order2 (t1 ++ t2) :=
  ⟨h2.snapshot.trans h1.snapshot, h2.profiler.trans h1.profiler, h2.strings,
    Wrote_trans h1.wrote h2.wrote⟩

theorem onWriter_emits (z : HeapSnapshotJSONSerializer) (order : List String)
    (f : OutputStreamWriter → Option OutputStreamWriter) (text : List Char)
    (h0 : SerializerOk z order) (hf : ∃ w1, f z.writer_ = some w1 ∧ Wrote z.writer_ w1 text) :
    ∃ z1, z.onWriter f = some z1 ∧ Emits z z1 order text := by
  obtain ⟨w1, h1, hw⟩ := hf
  refine ⟨{ z with writer_ := w1 }, by simp [HeapSnapshotJSONSerializer.onWriter, h1], rfl, rfl,
    h0.strings, hw⟩

theorem AddString_emits (z : HeapSnapshotJSONSerializer) (order : List String) (s : List Char)
    (h0 : SerializerOk z order) : ∃ z1, z.AddString s = some z1 ∧ Emits z z1 order s :=
  onWriter_emits z order _ s h0 (AddString_wrote _ s h0.writer h0.never)

theorem AddCharacter_emits (z : HeapSnapshotJSONSerializer) (order : List String) (c : Char)
    (h0 : SerializerOk z order) : ∃ z1, z.AddCharacter c = some z1 ∧ Emits z z1 order [c] :=
  onWriter_emits z order _ [c] h0 (AddCharacter_wrote _ c h0.writer h0.never)

theorem AddNumber_emits (z : HeapSnapshotJSONSerializer) (order : List String) (n : Nat)
    (h0 : SerializerOk z order) :
    ∃ z1, z.AddNumber n = some z1 ∧ Emits z z1 order (decimal (n % kUnsignedRange)) :=
  onWriter_emits z order _ _ h0 (AddNumber_wrote _ n h0.writer h0.never)

theorem GetStringId_ok (z : HeapSnapshotJSONSerializer) (order : List String) (s : String)
    (h0 : SerializerOk z order) :
    SerializerOk (z.GetStringId s).2 (intern order s) ∧
      Emits z (z.GetStringId s).2 (intern order s) [] := by
  obtain ⟨_, h2, h3, h4, h5⟩ := GetStringId_spec z order s h0.strings
  have hw : Wrote z.writer_ (z.GetStringId s).2.writer_ [] := by
    rw [h5]; exact Wrote_refl _ h0.writer
  exact ⟨⟨h2, by rw [h5]; exact h0.writer, by rw [h5]; exact h0.never⟩, h3, h4, h2, hw⟩

theorem AddBuffer_emits (z : HeapSnapshotJSONSerializer) (order : List String)
    (x : Option (List Char × Nat)) (text : List Char) (size : Nat)
    (h0 : SerializerOk z order) (hx : Step x (text ++ [Char.ofNat 0]) size)
    (hz : ∀ c ∈ text, c ≠ Char.ofNat 0) :
    ∃ z1, x.bind (fun b => z.AddBuffer b.1) = some z1 ∧ Emits z z1 order text := by
  obtain ⟨b, hb, hc⟩ := Step_cstring hx hz
  obtain ⟨z1, h1, he⟩ := AddString_emits z order text h0
  refine ⟨z1, ?_, he⟩
  rw [hb, Option.some_bind]
  unfold HeapSnapshotJSONSerializer.AddBuffer
  rw [hc, Option.some_bind]
  exact h1

theorem ToUnsigned4_nat (n : Nat) : ToUnsigned 4 (n : Int) = n % kUnsignedRange := by
  rw [ToUnsigned_nat]; rfl

theorem ToUnsigned8_nat (n : Nat) : ToUnsigned 8 (n : Int) = n % 18446744073709551616 := by
  rw [ToUnsigned_nat]; rfl

theorem ToUnsigned4_eq (x : Int) : ToUnsigned 4 x = toUnsigned x := by
  unfold ToUnsigned toUnsigned
  norm_num

theorem HeapEntryType_value_lt (t : HeapEntryType) : t.value < 13 := by
  cases t <;> decide

theorem HeapGraphEdgeType_value_lt (t : HeapGraphEdgeType) : t.value < 7 := by
  cases t <;> decide

theorem ToUnsigned4_small (n : Nat) (h : n < 13) : ToUnsigned 4 (n : Int) = n := by
  rw [ToUnsigned4_nat]
  exact Nat.mod_eq_of_lt (lt_trans h (by decide))

theorem tupleText_six (a b c d e f : Nat) :
    tupleText [a, b, c, d, e, f] =
      decimal a ++ [','] ++ decimal b ++ [','] ++ decimal c ++ [','] ++ decimal d ++ [','] ++
        decimal e ++ [','] ++ decimal f ++ ['\n'] := by
  simp [tupleText, List.intercalate, List.intersperse]

theorem tupleText_three (a b c : Nat) :
    tupleText [a, b, c] = decimal a ++ [','] ++ decimal b ++ [','] ++ decimal c ++ ['\n'] := by
  simp [tupleText, List.intercalate, List.intersperse]

theorem NoNul_nil : NoNul [] := fun c hc => absurd hc (List.not_mem_nil c)

theorem NoNul_append {a b : List Char} (ha : NoNul a) (hb : NoNul b) : NoNul (a ++ b) := by
  intro c hc
  rcases List.mem_append.mp hc with h | h
  · exact ha c h
  · exact hb c h

theorem NoNul_singleton {c : Char} (h : c ≠ Char.ofNat 0) : NoNul [c] := by
  intro d hd
  rw [List.mem_singleton] at hd
  rw [hd]; exact h

theorem NoNul_decimal (n : Nat) : NoNul (decimal n) := decimal_no_nul n

theorem NoNul_ite {p : Prop} [Decidable p] {a b : List Char} (ha : NoNul a) (hb : NoNul b) :
    NoNul (if p then a else b) := by
  split
  · exact ha
  · exact hb

theorem NoNul_comma : NoNul [','] := NoNul_singleton (by decide)

theorem NoNul_newline : NoNul ['\n'] := NoNul_singleton (by decide)

/-- One node: `SerializeNode` has a result, the name is in the string table afterwards, and
the text added is the comma, when `entry_index` of the node is not 0, and the tuple of the
node. -/
theorem SerializeNode_spec (entry_index : Nat → Int) (z : HeapSnapshotJSONSerializer)
    (order : List String) (entry : Nat) (e : HeapEntry) (h0 : SerializerOk z order)
    (he : z.snapshot_.entries_[entry]? = some e) :
    ∃ z1, HeapSnapshotJSONSerializer.SerializeNode entry_index z entry = some z1 ∧
      Emits z z1 (intern order e.name_)
        ((if entry_index entry ≠ 0 then [','] else []) ++
          tupleText (nodeFields e ((intern order e.name_).indexOf e.name_ + 1))) := by
  obtain ⟨hid, _, _, _, _⟩ := GetStringId_spec z order e.name_ h0.strings
  obtain ⟨hok, hem⟩ := GetStringId_ok z order e.name_ h0
  have d1 := decimal_ToUnsigned4 (e.type_.value : Int)
  have d2 := decimal_ToUnsigned4 ((z.GetStringId e.name_).1 : Int)
  have d3 := decimal_ToUnsigned4 (e.id_ : Int)
  have d4 := decimal_ToUnsigned8 (e.self_size_ : Int)
  have d5 := decimal_ToUnsigned4 (e.children_count_ : Int)
  have d6 := decimal_ToUnsigned4 (e.trace_node_id_ : Int)
  have hsz : HeapSnapshotJSONSerializer.SerializeNode.kBufferSize = 78 := rfl
  have hfirst : Step (if entry_index entry ≠ 0 then
        put ',' (EmbeddedVector HeapSnapshotJSONSerializer.SerializeNode.kBufferSize) 0
      else some (EmbeddedVector HeapSnapshotJSONSerializer.SerializeNode.kBufferSize, 0))
      (if entry_index entry ≠ 0 then [','] else []) 78 := by
    rw [hsz]
    by_cases hc : entry_index entry ≠ 0
    · rw [if_pos hc, if_pos hc]
      exact Step_put ',' (Step_init 78) (by simp)
    · rw [if_neg hc, if_neg hc]
      exact Step_init 78
  have hl0 : (if entry_index entry ≠ 0 then [','] else ([] : List Char)).length ≤ 1 := by
    split <;> simp
  have s1 := Step_utoa 4 (e.type_.value : Int) hfirst (by omega)
  have s2 := Step_put ',' s1 (by simp only [List.length_append]; omega)
  have s3 := Step_utoa 4 ((z.GetStringId e.name_).1 : Int) s2
    (by simp only [List.length_append, List.length_singleton]; omega)
  have s4 := Step_put ',' s3 (by simp only [List.length_append, List.length_singleton]; omega)
  have s5 := Step_utoa 4 (e.id_ : Int) s4
    (by simp only [List.length_append, List.length_singleton]; omega)
  have s6 := Step_put ',' s5 (by simp only [List.length_append, List.length_singleton]; omega)
  have s7 := Step_utoa 8 (e.self_size_ : Int) s6
    (by simp only [List.length_append, List.length_singleton]; omega)
  have s8 := Step_put ',' s7 (by simp only [List.length_append, List.length_singleton]; omega)
  have s9 := Step_utoa 4 (e.children_count_ : Int) s8
    (by simp only [List.length_append, List.length_singleton]; omega)
  have s10 := Step_put ',' s9 (by simp only [List.length_append, List.length_singleton]; omega)
  have s11 := Step_utoa 4 (e.trace_node_id_ : Int) s10
    (by simp only [List.length_append, List.length_singleton]; omega)
  have s12 := Step_put '\n' s11
    (by simp only [List.length_append, List.length_singleton]; omega)
  have s13 := Step_put (Char.ofNat 0) s12
    (by simp only [List.length_append, List.length_singleton]; omega)
  obtain ⟨z1, h1, hz1⟩ := AddBuffer_emits (z.GetStringId e.name_).2 (intern order e.name_) _ _ 78
    hok s13
    (NoNul_append (NoNul_append (NoNul_append (NoNul_append (NoNul_append (NoNul_append
      (NoNul_append (NoNul_append (NoNul_append (NoNul_append (NoNul_append (NoNul_append
      (NoNul_ite NoNul_comma NoNul_nil) (NoNul_decimal _)) NoNul_comma) (NoNul_decimal _))
      NoNul_comma) (NoNul_decimal _)) NoNul_comma) (NoNul_decimal _)) NoNul_comma)
      (NoNul_decimal _)) NoNul_comma) (NoNul_decimal _)) NoNul_newline)
  refine ⟨z1, ?_, ?_⟩
  · unfold HeapSnapshotJSONSerializer.SerializeNode
    simp only [he, Option.bind_eq_bind, Option.some_bind, bind, pure]
    exact h1
  · have := Emits_trans hem hz1
    rw [List.nil_append] at this
    rw [nodeFields, tupleText_six]
    rw [ToUnsigned4_small _ (HeapEntryType_value_lt _), ToUnsigned4_nat, ToUnsigned4_nat,
      ToUnsigned8_nat, ToUnsigned4_nat, ToUnsigned4_nat, hid] at this
    simpa [List.append_assoc] using this

theorem nodesText_cons (entry_index : Nat → Int) (i : Nat) (e : HeapEntry)
    (es : List HeapEntry) (order : List String) :
    nodesText entry_index i (e :: es) order =
      ((if entry_index i ≠ 0 then [','] else []) ++
        tupleText (nodeFields e (order.indexOf e.name_ + 1))) ++
      nodesText entry_index (i + 1) es order := by
  simp [nodesText, List.enumFrom_cons]

/-- The loop of `SerializeNodes`: every node is written, in the order of the indexes. -/
theorem SerializeNodesLoop_spec (entry_index : Nat → Int) :
    ∀ (es : List HeapEntry) (i : Nat) (z : HeapSnapshotJSONSerializer) (order : List String),
      SerializerOk z order →
      (∀ (j : Nat) (e : HeapEntry), es[j]? = some e → z.snapshot_.entries_[i + j]? = some e) →
      ∃ z1, HeapSnapshotJSONSerializer.SerializeNodesLoop entry_index es.length i z = some z1 ∧
        Emits z z1 ((es.map HeapEntry.name_).foldl intern order)
          (nodesText entry_index i es ((es.map HeapEntry.name_).foldl intern order)) := by
  intro es
  induction es with
  | nil =>
    intro i z order h0 _
    exact ⟨z, rfl, Emits_refl h0⟩
  | cons e es ih =>
    intro i z order h0 hes
    obtain ⟨z1, h1, hz1⟩ := SerializeNode_spec entry_index z order i e h0
      (hes 0 e (List.getElem?_cons_zero))
    have hok1 := Emits_ok h0 hz1
    obtain ⟨z2, h2, hz2⟩ := ih (i + 1) z1 (intern order e.name_) hok1 (by
      intro j e2 hj
      rw [hz1.snapshot]
      have := hes (j + 1) e2 (by rw [List.getElem?_cons_succ]; exact hj)
      rw [← this]
      congr 1
      omega)
    refine ⟨z2, ?_, ?_⟩
    · rw [List.length_cons, HeapSnapshotJSONSerializer.SerializeNodesLoop, h1]
      have hna : z1.writer_.aborted = false := hok1.writer.not_aborted
      simp only [hna, Bool.false_eq_true, if_false]
      exact h2
    · have := Emits_trans hz1 hz2
      rw [List.map_cons, List.foldl_cons, nodesText_cons]
      rw [indexOf_of_extends (foldl_intern_extends (es.map HeapEntry.name_) _) e.name_
        (mem_intern_self order e.name_)]
      exact this

theorem SerializeNodes_spec (entry_index : Nat → Int) (z : HeapSnapshotJSONSerializer)
    (order : List String) (h0 : SerializerOk z order) :
    ∃ z1, HeapSnapshotJSONSerializer.SerializeNodes entry_index z = some z1 ∧
      Emits z z1 ((z.snapshot_.entries_.map HeapEntry.name_).foldl intern order)
        (nodesText entry_index 0 z.snapshot_.entries_
          ((z.snapshot_.entries_.map HeapEntry.name_).foldl intern order)) := by
  unfold HeapSnapshotJSONSerializer.SerializeNodes
  exact SerializeNodesLoop_spec entry_index z.snapshot_.entries_ 0 z order h0
    (by intro j e hj; rw [Nat.zero_add]; exact hj)

/-- The string table after the name of an edge, if it has one, was looked up. -/
theorem edgeNames_cons_index (e : HeapGraphEdge) (es : List HeapGraphEdge) (index : Int)
    (h : e.label = EdgeLabel.index_ index) : edgeNames (e :: es) = edgeNames es := by
  simp [edgeNames, h]

theorem edgeNames_cons_name (e : HeapGraphEdge) (es : List HeapGraphEdge) (name : String)
    (h : e.label = EdgeLabel.name_ name) : edgeNames (e :: es) = name :: edgeNames es := by
  simp [edgeNames, h]

/-- One edge: `SerializeEdge` has a result for an edge whose label agrees with its kind and
whose target is resolved; the text added is the comma, unless the edge is the first, and the
tuple of the edge. -/
theorem SerializeEdge_spec (entry_index : Nat → Int) (z : HeapSnapshotJSONSerializer)
    (order : List String) (edge : Nat) (first_edge : Bool) (e : HeapGraphEdge) (j : Nat)
    (h0 : SerializerOk z order) (he : z.snapshot_.edges_[edge]? = some e)
    (hlabel : EdgeLabelOk e) (hto : e.to_ = EdgeTarget.to_entry_ j) :
    ∃ z1, HeapSnapshotJSONSerializer.SerializeEdge entry_index z edge first_edge = some z1 ∧
      Emits z z1 ((edgeNames [e]).foldl intern order)
        ((if first_edge then [] else [',']) ++
          tupleText (edgeFields entry_index ((edgeNames [e]).foldl intern order) e)) := by
  have hsz : HeapSnapshotJSONSerializer.SerializeEdge.kBufferSize = 35 := rfl
  have hfirst : Step (if (!first_edge) = true then
        put ',' (EmbeddedVector HeapSnapshotJSONSerializer.SerializeEdge.kBufferSize) 0
      else some (EmbeddedVector HeapSnapshotJSONSerializer.SerializeEdge.kBufferSize, 0))
      (if first_edge then [] else [',']) 35 := by
    rw [hsz]
    cases first_edge
    · exact Step_put ',' (Step_init 35) (by simp)
    · exact Step_init 35
  have hl0 : (if first_edge then ([] : List Char) else [',']).length ≤ 1 := by
    split <;> simp
  -- the steps on the buffer, for the second field `x` and the string table `zz`
  have hsteps : ∀ (x : Int) (zz : HeapSnapshotJSONSerializer) (order1 : List String),
      SerializerOk zz order1 →
      ∃ z1, (((((((((if (!first_edge) = true then
          put ',' (EmbeddedVector HeapSnapshotJSONSerializer.SerializeEdge.kBufferSize) 0
        else some (EmbeddedVector HeapSnapshotJSONSerializer.SerializeEdge.kBufferSize, 0)).bind
          (fun b => utoa 4 e.type.value b.1 b.2)).bind
          (fun b => put ',' b.1 b.2)).bind
          (fun b => utoa 4 x b.1 b.2)).bind
          (fun b => put ',' b.1 b.2)).bind
          (fun b => utoa 4 (entry_index j) b.1 b.2)).bind
          (fun b => put '\n' b.1 b.2)).bind
          (fun b => put (Char.ofNat 0) b.1 b.2)).bind
          (fun b => zz.AddBuffer b.1)) = some z1 ∧
        Emits zz z1 order1
          ((if first_edge then [] else [',']) ++
            (decimal e.type.value ++ [','] ++ decimal (toUnsigned x) ++ [','] ++
              decimal (toUnsigned (entry_index j)) ++ ['\n'])) := by
    intro x zz order1 hzz
    have d1 := decimal_ToUnsigned4 (e.type.value : Int)
    have d2 := decimal_ToUnsigned4 x
    have d3 := decimal_ToUnsigned4 (entry_index j)
    have s1 := Step_utoa 4 (e.type.value : Int) hfirst (by omega)
    have s2 := Step_put ',' s1 (by simp only [List.length_append]; omega)
    have s3 := Step_utoa 4 x s2
      (by simp only [List.length_append, List.length_singleton]; omega)
    have s4 := Step_put ',' s3 (by simp only [List.length_append, List.length_singleton]; omega)
    have s5 := Step_utoa 4 (entry_index j) s4
      (by simp only [List.length_append, List.length_singleton]; omega)
    have s6 := Step_put '\n' s5
      (by simp only [List.length_append, List.length_singleton]; omega)
    have s7 := Step_put (Char.ofNat 0) s6
      (by simp only [List.length_append, List.length_singleton]; omega)
    obtain ⟨z1, h1, hz1⟩ := AddBuffer_emits zz order1 _ _ 35 hzz s7
      (NoNul_append (NoNul_append (NoNul_append (NoNul_append (NoNul_append (NoNul_append
        (NoNul_ite NoNul_nil NoNul_comma) (NoNul_decimal _)) NoNul_comma) (NoNul_decimal _))
        NoNul_comma) (NoNul_decimal _)) NoNul_newline)
    refine ⟨z1, h1, ?_⟩
    have hty : ToUnsigned 4 (e.type.value : Int) = e.type.value :=
      ToUnsigned4_small _ (lt_trans (HeapGraphEdgeType_value_lt _) (by decide))
    rw [hty, ToUnsigned4_eq, ToUnsigned4_eq] at hz1
    simpa [List.append_assoc] using hz1
  unfold HeapSnapshotJSONSerializer.SerializeEdge
  simp only [he, hto, Option.bind_eq_bind, Option.some_bind, bind, pure]
  cases hl : e.label with
  | index_ index =>
    have hty : e.type = HeapGraphEdgeType.kElement ∨ e.type = HeapGraphEdgeType.kHidden :=
      hlabel.mpr ⟨index, hl⟩
    simp only [hty, if_true, Option.some_bind]
    obtain ⟨z1, h1, hz1⟩ := hsteps index z order h0
    refine ⟨z1, h1, ?_⟩
    rw [edgeNames_cons_index e [] index hl]
    simp only [edgeNames, List.foldl_nil, edgeFields, hl, hto, tupleText_three]
    exact hz1
  | name_ name =>
    have hty : ¬ (e.type = HeapGraphEdgeType.kElement ∨ e.type = HeapGraphEdgeType.kHidden) := by
      intro h
      obtain ⟨index, hi⟩ := hlabel.mp h
      rw [hl] at hi
      exact EdgeLabel.noConfusion hi
    simp only [hty, if_false, Option.some_bind]
    obtain ⟨hid, _, _, _, _⟩ := GetStringId_spec z order name h0.strings
    obtain ⟨hok, hem⟩ := GetStringId_ok z order name h0
    obtain ⟨z1, h1, hz1⟩ := hsteps ((z.GetStringId name).1 : Int) (z.GetStringId name).2
      (intern order name) hok
    refine ⟨z1, h1, ?_⟩
    rw [edgeNames_cons_name e [] name hl]
    simp only [edgeNames, List.foldl_nil, List.foldl_cons, edgeFields, hl, hto, tupleText_three]
    have := Emits_trans hem hz1
    rw [List.nil_append, hid] at this
    have hu : toUnsigned ((List.indexOf name (intern order name) + 1 : Nat) : Int) =
        (List.indexOf name (intern order name) + 1) % kUnsignedRange := by
      rw [← ToUnsigned4_eq, ToUnsigned4_nat]
    rw [hu] at this
    exact this

theorem edgesText_cons (entry_index : Nat → Int) (i : Nat) (e : HeapGraphEdge)
    (es : List HeapGraphEdge) (order : List String) :
    edgesText entry_index i (e :: es) order =
      ((if i = 0 then [] else [',']) ++ tupleText (edgeFields entry_index order e)) ++
      edgesText entry_index (i + 1) es order := by
  simp [edgesText, List.enumFrom_cons]

theorem edgeNames_cons (e : HeapGraphEdge) (es : List HeapGraphEdge) :
    edgeNames (e :: es) = edgeNames [e] ++ edgeNames es := by
  cases hl : e.label with
  | index_ index => simp [edgeNames, hl]
  | name_ name => simp [edgeNames, hl]

theorem edgeFields_extends (entry_index : Nat → Int) (order final : List String)
    (e : HeapGraphEdge) (h : (edgeNames [e]).foldl intern order <+: final) :
    edgeFields entry_index final e =
      edgeFields entry_index ((edgeNames [e]).foldl intern order) e := by
  cases hl : e.label with
  | index_ index => simp [edgeFields, hl]
  | name_ name =>
    rw [edgeNames_cons_name e [] name hl] at h ⊢
    simp only [edgeNames, List.foldl_cons, List.foldl_nil] at h ⊢
    simp only [edgeFields, hl]
    rw [indexOf_of_extends h name (mem_intern_self order name)]

/-- The loop of `SerializeEdges`: every edge of `children()` is written, in their order. -/
theorem SerializeEdgesLoop_spec (entry_index : Nat → Int) (s : HeapSnapshot) :
    ∀ (es : List HeapGraphEdge) (ptrs : List (Option Nat)) (i : Nat)
      (z : HeapSnapshotJSONSerializer) (order : List String),
      SerializerOk z order → z.snapshot_ = s →
      List.Forall₂ (fun (p : Option Nat) (e : HeapGraphEdge) =>
        ∃ k j, p = some k ∧ s.edges_[k]? = some e ∧ EdgeLabelOk e ∧
          e.to_ = EdgeTarget.to_entry_ j) ptrs es →
      ∃ z1, HeapSnapshotJSONSerializer.SerializeEdgesLoop entry_index ptrs i z = some z1 ∧
        Emits z z1 ((edgeNames es).foldl intern order)
          (edgesText entry_index i es ((edgeNames es).foldl intern order)) := by
  intro es
  induction es with
  | nil =>
    intro ptrs i z order h0 _ hf
    cases hf
    exact ⟨z, rfl, Emits_refl h0⟩
  | cons e es ih =>
    intro ptrs i z order h0 hs hf
    cases hf with
    | cons hp hrest =>
      rename_i p ptrs
      obtain ⟨k, j, hpk, hk, hlabel, hto⟩ := hp
      subst hpk
      obtain ⟨z1, h1, hz1⟩ := SerializeEdge_spec entry_index z order k (decide (i = 0)) e j h0
        (by rw [hs]; exact hk) hlabel hto
      have hok1 := Emits_ok h0 hz1
      obtain ⟨z2, h2, hz2⟩ := ih ptrs (i + 1) z1 _ hok1 (hz1.snapshot.trans hs) hrest
      refine ⟨z2, ?_, ?_⟩
      · rw [HeapSnapshotJSONSerializer.SerializeEdgesLoop, h1]
        have hna : z1.writer_.aborted = false := hok1.writer.not_aborted
        simp only [hna, Bool.false_eq_true, if_false]
        exact h2
      · have := Emits_trans hz1 hz2
        rw [edgeNames_cons, List.foldl_append, edgesText_cons,
          edgeFields_extends entry_index order _ e (foldl_intern_extends _ _)]
        simpa using this

/-- What `SerializeEdges` needs of the snapshot: every position of `children()` holds a
pointer to an edge of the snapshot, whose label agrees with its kind and whose target is
resolved. The list `es` is the list of those edges. -/
theorem SerializeEdges_spec (entry_index : Nat → Int) (z : HeapSnapshotJSONSerializer)
    (order : List String) (es : List HeapGraphEdge) (h0 : SerializerOk z order)
    (hf : List.Forall₂ (fun (p : Option Nat) (e : HeapGraphEdge) =>
        ∃ k j, p = some k ∧ z.snapshot_.edges_[k]? = some e ∧ EdgeLabelOk e ∧
          e.to_ = EdgeTarget.to_entry_ j) z.snapshot_.children_ es) :
    ∃ z1, HeapSnapshotJSONSerializer.SerializeEdges entry_index z = some z1 ∧
      Emits z z1 ((edgeNames es).foldl intern order)
        (edgesText entry_index 0 es ((edgeNames es).foldl intern order)) := by
  unfold HeapSnapshotJSONSerializer.SerializeEdges
  exact SerializeEdgesLoop_spec entry_index z.snapshot_ es _ 0 z order h0 rfl hf

/-- The text that `SerializeSnapshot` writes: the meta data and the three counts. -/
theorem SerializeSnapshot_spec (z : HeapSnapshotJSONSerializer) (order : List String)
    (h0 : SerializerOk z order) (hedges : z.snapshot_.edges_.length < kUnsignedRange) :
    ∃ z1, z.SerializeSnapshot = some z1 ∧
      Emits z z1 order
        ("\"meta\":".toList ++ HeapSnapshotJSONSerializer.metaText.toList ++
          ",\"node_count\":".toList ++ decimal (z.snapshot_.entries_.length % kUnsignedRange) ++
          ",\"edge_count\":".toList ++ decimal z.snapshot_.edges_.length ++
          ",\"trace_function_count\":".toList ++
          decimal (match z.profiler.allocation_tracker with
            | some tracker => tracker.function_info_list.length % kUnsignedRange
            | none => 0)) := by
  obtain ⟨z1, h1, e1⟩ := AddString_emits z order "\"meta\":".toList h0
  have k1 := Emits_ok h0 e1
  obtain ⟨z2, h2, e2⟩ := AddString_emits z1 order HeapSnapshotJSONSerializer.metaText.toList k1
  have k2 := Emits_ok k1 e2
  obtain ⟨z3, h3, e3⟩ := AddString_emits z2 order ",\"node_count\":".toList k2
  have k3 := Emits_ok k2 e3
  obtain ⟨z4, h4, e4⟩ := AddNumber_emits z3 order (z3.snapshot_.entries_.length % kUnsignedRange) k3
  have k4 := Emits_ok k3 e4
  obtain ⟨z5, h5, e5⟩ := AddString_emits z4 order ",\"edge_count\":".toList k4
  have k5 := Emits_ok k4 e5
  obtain ⟨z6, h6, e6⟩ := AddNumber_emits z5 order z5.snapshot_.edges_.length k5
  have k6 := Emits_ok k5 e6
  obtain ⟨z7, h7, e7⟩ := AddString_emits z6 order ",\"trace_function_count\":".toList k6
  have k7 := Emits_ok k6 e7
  obtain ⟨z8, h8, e8⟩ := AddNumber_emits z7 order
    (match z7.profiler.allocation_tracker with
      | some tracker => tracker.function_info_list.length % kUnsignedRange
      | none => 0) k7
  have hs3 : z3.snapshot_ = z.snapshot_ := e3.snapshot.trans (e2.snapshot.trans e1.snapshot)
  have hs5 : z5.snapshot_ = z.snapshot_ := e5.snapshot.trans (e4.snapshot.trans hs3)
  have hp7 : z7.profiler = z.profiler :=
    e7.profiler.trans (e6.profiler.trans (e5.profiler.trans (e4.profiler.trans
      (e3.profiler.trans (e2.profiler.trans e1.profiler)))))
  have hlt5 : z5.snapshot_.edges_.length < kUnsignedRange := by rw [hs5]; exact hedges
  refine ⟨z8, ?_, ?_⟩
  · unfold HeapSnapshotJSONSerializer.SerializeSnapshot
    simp only [h1, h2, h3, h4, h5, h6, h7, hlt5, if_true, Option.bind_eq_bind,
      Option.some_bind, bind, pure]
    exact h8
  · have := Emits_trans e1 (Emits_trans e2 (Emits_trans e3 (Emits_trans e4 (Emits_trans e5
      (Emits_trans e6 (Emits_trans e7 e8))))))
    rw [hs3, hs5, hp7, Nat.mod_mod, Nat.mod_eq_of_lt hedges] at this
    have hmod : ∀ (t : Option AllocationTracker),
        (match t with
          | some tracker => tracker.function_info_list.length % kUnsignedRange
          | none => 0) % kUnsignedRange =
        (match t with
          | some tracker => tracker.function_info_list.length % kUnsignedRange
          | none => 0) := by
      intro t
      cases t with
      | none => rfl
      | some tracker => exact Nat.mod_mod _ _
    rw [hmod] at this
    simpa only [List.append_assoc] using this

/-! ## The trace sections and the samples -/

theorem Step_start (buffer : List Char) (size : Nat) (h : buffer.length = size) :
    Step (some (buffer, 0)) [] size :=
  ⟨_, rfl, rfl, h, rfl⟩

theorem Step_first (c : Prop) [Decidable c] (buffer : List Char) (size : Nat)
    (h : buffer.length = size) (hs : 0 < size) :
    Step (if c then put ',' buffer 0 else some (buffer, 0)) (if c then [','] else []) size := by
  by_cases hc : c
  · rw [if_pos hc, if_pos hc]
    exact Step_put ',' (Step_start buffer size h) (by simpa using hs)
  · rw [if_neg hc, if_neg hc]
    exact Step_start buffer size h

/-- The steps on a buffer followed by `AddString(buffer.start())`, with the buffer kept for
the next round. -/
theorem AddBuffer_emits_keep (z : HeapSnapshotJSONSerializer) (order : List String)
    (x : Option (List Char × Nat)) (text : List Char) (size : Nat)
    (h0 : SerializerOk z order) (hx : Step x (text ++ [Char.ofNat 0]) size) (hz : NoNul text) :
    ∃ b z1, x = some b ∧ b.1.length = size ∧ z.AddBuffer b.1 = some z1 ∧
      Emits z z1 order text := by
  obtain ⟨b, hb, hc⟩ := Step_cstring hx hz
  obtain ⟨b2, hb2, _, hl, _⟩ := hx
  rw [hb] at hb2
  cases hb2
  obtain ⟨z1, h1, he⟩ := AddString_emits z order text h0
  refine ⟨b, z1, hb, hl, ?_, he⟩
  unfold HeapSnapshotJSONSerializer.AddBuffer
  rw [hc, Option.some_bind]
  exact h1

theorem Step_SerializePosition {x : Option (List Char × Nat)} {text : List Char} {size : Nat}
    (position : Int) (h : Step x text size) (hlt : text.length + 10 ≤ size) :
    ∃ t, t.length ≤ 10 ∧ NoNul t ∧
      Step (x.bind (fun b => HeapSnapshotJSONSerializer.SerializePosition position b.1 b.2))
        (text ++ t) size := by
  unfold HeapSnapshotJSONSerializer.SerializePosition
  by_cases hp : position = -1
  · simp only [hp, if_true]
    exact ⟨['0'], by simp, NoNul_singleton (by decide), Step_put '0' h (by omega)⟩
  · simp only [hp, if_false]
    have d := decimal_ToUnsigned4 ((toUnsigned (position + 1) : Nat) : Int)
    exact ⟨_, d, NoNul_decimal _, Step_utoa 4 _ h (by omega)⟩

/-- The loop of `SerializeTraceNodeInfos` has a result; the names and the script names of
the function infos come into the string table, in their order. -/
theorem SerializeTraceNodeInfosLoop_spec :
    ∀ (infos : List FunctionInfo) (i : Nat) (buffer : List Char)
      (z : HeapSnapshotJSONSerializer) (order : List String),
      SerializerOk z order →
      buffer.length = HeapSnapshotJSONSerializer.SerializeTraceNodeInfos.kBufferSize →
      ∃ z1 text, HeapSnapshotJSONSerializer.SerializeTraceNodeInfosLoop infos i buffer z =
          some z1 ∧
        Emits z z1 ((infos.flatMap (fun info => [info.name, info.script_name])).foldl intern order)
          text := by
  intro infos
  induction infos with
  | nil =>
    intro i buffer z order h0 _
    exact ⟨z, [], rfl, Emits_refl h0⟩
  | cons info infos ih =>
    intro i buffer z order h0 hlen
    have hsz : HeapSnapshotJSONSerializer.SerializeTraceNodeInfos.kBufferSize = 68 := rfl
    rw [hsz] at hlen
    obtain ⟨ok1, em1⟩ := GetStringId_ok z order info.name h0
    obtain ⟨ok2, em2⟩ := GetStringId_ok (z.GetStringId info.name).2 _ info.script_name ok1
    have hfirst := Step_first (i > 0) buffer 68 hlen (by decide)
    have hl0 : (if i > 0 then [','] else ([] : List Char)).length ≤ 1 := by
      split <;> simp
    have d1 := decimal_ToUnsigned4 (info.function_id : Int)
    have d2 := decimal_ToUnsigned4 ((z.GetStringId info.name).1 : Int)
    have d3 := decimal_ToUnsigned4
      (((z.GetStringId info.name).2.GetStringId info.script_name).1 : Int)
    have d4 := decimal_ToUnsigned4 ((toUnsigned info.script_id : Nat) : Int)
    have s1 := Step_utoa 4 (info.function_id : Int) hfirst (by omega)
    have s2 := Step_put ',' s1 (by simp only [List.length_append]; omega)
    have s3 := Step_utoa 4 ((z.GetStringId info.name).1 : Int) s2
      (by simp only [List.length_append, List.length_singleton]; omega)
    have s4 := Step_put ',' s3 (by simp only [List.length_append, List.length_singleton]; omega)
    have s5 := Step_utoa 4
      (((z.GetStringId info.name).2.GetStringId info.script_name).1 : Int) s4
      (by simp only [List.length_append, List.length_singleton]; omega)
    have s6 := Step_put ',' s5 (by simp only [List.length_append, List.length_singleton]; omega)
    have s7 := Step_utoa 4 ((toUnsigned info.script_id : Nat) : Int) s6
      (by simp only [List.length_append, List.length_singleton]; omega)
    have s8 := Step_put ',' s7 (by simp only [List.length_append, List.length_singleton]; omega)
    obtain ⟨t9, l9, n9, s9⟩ := Step_SerializePosition info.line s8
      (by simp only [List.length_append, List.length_singleton]; omega)
    have s10 := Step_put ',' s9 (by simp only [List.length_append, List.length_singleton]; omega)
    obtain ⟨t11, l11, n11, s11⟩ := Step_SerializePosition info.column s10
      (by simp only [List.length_append, List.length_singleton]; omega)
    have s12 := Step_put '\n' s11
      (by simp only [List.length_append, List.length_singleton]; omega)
    have s13 := Step_put (Char.ofNat 0) s12
      (by simp only [List.length_append, List.length_singleton]; omega)
    obtain ⟨b, z1, hb, hbl, h1, hz1⟩ := AddBuffer_emits_keep
      ((z.GetStringId info.name).2.GetStringId info.script_name).2 _ _ _ 68 ok2 s13
      (NoNul_append (NoNul_append (NoNul_append (NoNul_append (NoNul_append (NoNul_append
        (NoNul_append (NoNul_append (NoNul_append (NoNul_append (NoNul_append (NoNul_append
        (NoNul_ite NoNul_comma NoNul_nil) (NoNul_decimal _)) NoNul_comma) (NoNul_decimal _))
        NoNul_comma) (NoNul_decimal _)) NoNul_comma) (NoNul_decimal _)) NoNul_comma)
        n9) NoNul_comma) n11) NoNul_newline)
    have hok1 := Emits_ok ok2 hz1
    obtain ⟨z2, text2, h2, hz2⟩ := ih (i + 1) b.1 z1 _ hok1 (by rw [hbl]; rfl)
    have hem := Emits_trans (Emits_trans em1 em2) (Emits_trans hz1 hz2)
    have hord : ((info :: infos).flatMap (fun info => [info.name, info.script_name])).foldl
        intern order =
        (infos.flatMap (fun info => [info.name, info.script_name])).foldl intern
          (intern (intern order info.name) info.script_name) := by
      simp [List.flatMap_cons]
    rw [hord]
    refine ⟨z2, _, ?_, hem⟩
    rw [HeapSnapshotJSONSerializer.SerializeTraceNodeInfosLoop]
    simp only [Option.bind_eq_bind, bind, pure]
    rw [hb, Option.some_bind, h1, Option.some_bind]
    exact h2

theorem SerializeTraceNodeInfos_spec (z : HeapSnapshotJSONSerializer) (order : List String)
    (h0 : SerializerOk z order) :
    ∃ z1 text, z.SerializeTraceNodeInfos = some z1 ∧
      Emits z z1
        (((match z.profiler.allocation_tracker with
            | some tracker => tracker.function_info_list
            | none => []).flatMap (fun info => [info.name, info.script_name])).foldl intern
          order) text := by
  unfold HeapSnapshotJSONSerializer.SerializeTraceNodeInfos
  cases ht : z.profiler.allocation_tracker with
  | none => exact ⟨z, [], rfl, Emits_refl h0⟩
  | some tracker =>
    exact SerializeTraceNodeInfosLoop_spec tracker.function_info_list 0 _ z order h0
      (by simp [EmbeddedVector])

/-- The loop of `SerializeSamples` has a result and leaves the string table. -/
theorem SerializeSamplesLoop_spec (start_time : Int) :
    ∀ (samples : List TimeInterval) (i : Nat) (buffer : List Char)
      (z : HeapSnapshotJSONSerializer) (order : List String),
      SerializerOk z order →
      buffer.length = HeapSnapshotJSONSerializer.SerializeSamples.kBufferSize →
      ∃ z1 text, HeapSnapshotJSONSerializer.SerializeSamplesLoop start_time samples i buffer z =
          some z1 ∧ Emits z z1 order text := by
  intro samples
  induction samples with
  | nil =>
    intro i buffer z order h0 _
    exact ⟨z, [], rfl, Emits_refl h0⟩
  | cons sample samples ih =>
    intro i buffer z order h0 hlen
    have hsz : HeapSnapshotJSONSerializer.SerializeSamples.kBufferSize = 34 := rfl
    rw [hsz] at hlen
    have hfirst := Step_first (i > 0) buffer 34 hlen (by decide)
    have hl0 : (if i > 0 then [','] else ([] : List Char)).length ≤ 1 := by
      split <;> simp
    have d1 := decimal_ToUnsigned8 (sample.timestamp - start_time)
    have d2 := decimal_ToUnsigned4 (sample.id : Int)
    have s1 := Step_utoa 8 (sample.timestamp - start_time) hfirst (by omega)
    have s2 := Step_put ',' s1 (by simp only [List.length_append]; omega)
    have s3 := Step_utoa 4 (sample.id : Int) s2
      (by simp only [List.length_append, List.length_singleton]; omega)
    have s4 := Step_put '\n' s3
      (by simp only [List.length_append, List.length_singleton]; omega)
    have s5 := Step_put (Char.ofNat 0) s4
      (by simp only [List.length_append, List.length_singleton]; omega)
    obtain ⟨b, z1, hb, hbl, h1, hz1⟩ := AddBuffer_emits_keep z order _ _ 34 h0 s5
      (NoNul_append (NoNul_append (NoNul_append (NoNul_append
        (NoNul_ite NoNul_comma NoNul_nil) (NoNul_decimal _)) NoNul_comma) (NoNul_decimal _))
        NoNul_newline)
    have hok1 := Emits_ok h0 hz1
    obtain ⟨z2, text2, h2, hz2⟩ := ih (i + 1) b.1 z1 order hok1 (by rw [hbl]; rfl)
    refine ⟨z2, _, ?_, Emits_trans hz1 hz2⟩
    rw [HeapSnapshotJSONSerializer.SerializeSamplesLoop]
    simp only [Option.bind_eq_bind, bind, pure]
    rw [hb, Option.some_bind, h1, Option.some_bind]
    exact h2

theorem SerializeSamples_spec (z : HeapSnapshotJSONSerializer) (order : List String)
    (h0 : SerializerOk z order) :
    ∃ z1 text, z.SerializeSamples = some z1 ∧ Emits z z1 order text := by
  unfold HeapSnapshotJSONSerializer.SerializeSamples
  cases hs : z.profiler.samples with
  | nil => exact ⟨z, [], rfl, Emits_refl h0⟩
  | cons sample0 samples =>
    exact SerializeSamplesLoop_spec sample0.timestamp (sample0 :: samples) 0 _ z order h0
      (by simp [EmbeddedVector])

/-- The node of the trace tree and the nodes below it are written: `SerializeTraceNode` has
a result and leaves the string table. -/
theorem SerializeTraceNode_spec : ∀ (node : AllocationTraceNode)
    (z : HeapSnapshotJSONSerializer) (order : List String), SerializerOk z order →
    ∃ z1 text, HeapSnapshotJSONSerializer.SerializeTraceNode z node = some z1 ∧
      Emits z z1 order text :=
  @AllocationTraceNode.rec
    (fun node => ∀ (z : HeapSnapshotJSONSerializer) (order : List String), SerializerOk z order →
      ∃ z1 text, HeapSnapshotJSONSerializer.SerializeTraceNode z node = some z1 ∧
        Emits z z1 order text)
    (fun children => ∀ (z : HeapSnapshotJSONSerializer) (order : List String) (i : Nat),
      SerializerOk z order →
      ∃ z1 text, HeapSnapshotJSONSerializer.SerializeTraceNodeChildren z i children = some z1 ∧
        Emits z z1 order text)
    (by
      intro id function_info_index allocation_count allocation_size children ih z order h0
      have d1 := decimal_ToUnsigned4 (id : Int)
      have d2 := decimal_ToUnsigned4 (function_info_index : Int)
      have d3 := decimal_ToUnsigned4 (allocation_count : Int)
      have d4 := decimal_ToUnsigned4 (allocation_size : Int)
      have hsz : HeapSnapshotJSONSerializer.SerializeTraceNode.kBufferSize = 46 := rfl
      have s0 : Step (some (EmbeddedVector HeapSnapshotJSONSerializer.SerializeTraceNode.kBufferSize,
          0)) [] 46 := by rw [hsz]; exact Step_init 46
      have s1 : Step (utoa 4 (id : Int)
          (EmbeddedVector HeapSnapshotJSONSerializer.SerializeTraceNode.kBufferSize) 0)
          ([] ++ decimal (ToUnsigned 4 (id : Int))) 46 :=
        Step_utoa 4 (id : Int) s0 (by simp only [List.length_nil]; omega)
      have s2 := Step_put ',' s1 (by simp only [List.length_append, List.length_nil]; omega)
      have s3 := Step_utoa 4 (function_info_index : Int) s2
        (by simp only [List.length_append, List.length_singleton, List.length_nil]; omega)
      have s4 := Step_put ',' s3
        (by simp only [List.length_append, List.length_singleton, List.length_nil]; omega)
      have s5 := Step_utoa 4 (allocation_count : Int) s4
        (by simp only [List.length_append, List.length_singleton, List.length_nil]; omega)
      have s6 := Step_put ',' s5
        (by simp only [List.length_append, List.length_singleton, List.length_nil]; omega)
      have s7 := Step_utoa 4 (allocation_size : Int) s6
        (by simp only [List.length_append, List.length_singleton, List.length_nil]; omega)
      have s8 := Step_put ',' s7
        (by simp only [List.length_append, List.length_singleton, List.length_nil]; omega)
      have s9 := Step_put '[' s8
        (by simp only [List.length_append, List.length_singleton, List.length_nil]; omega)
      have s10 := Step_put (Char.ofNat 0) s9
        (by simp only [List.length_append, List.length_singleton, List.length_nil]; omega)
      obtain ⟨b, z1, hb, _, h1, hz1⟩ := AddBuffer_emits_keep z order _ _ 46 h0 s10
        (NoNul_append (NoNul_append (NoNul_append (NoNul_append (NoNul_append (NoNul_append
          (NoNul_append (NoNul_append (NoNul_append NoNul_nil (NoNul_decimal _)) NoNul_comma)
          (NoNul_decimal _)) NoNul_comma) (NoNul_decimal _)) NoNul_comma) (NoNul_decimal _))
          NoNul_comma) (NoNul_singleton (by decide)))
      have k1 := Emits_ok h0 hz1
      obtain ⟨z2, t2, h2, hz2⟩ := ih z1 order 0 k1
      have k2 := Emits_ok k1 hz2
      obtain ⟨z3, h3, hz3⟩ := AddCharacter_emits z2 order ']' k2
      refine ⟨z3, _, ?_, Emits_trans hz1 (Emits_trans hz2 hz3)⟩
      rw [HeapSnapshotJSONSerializer.SerializeTraceNode]
      simp only [Option.bind_eq_bind, bind, pure]
      rw [hb, Option.some_bind, h1, Option.some_bind, h2, Option.some_bind]
      exact h3)
    (by
      intro z order i h0
      exact ⟨z, [], by rw [HeapSnapshotJSONSerializer.SerializeTraceNodeChildren], Emits_refl h0⟩)
    (by
      intro child children ih1 ih2 z order i h0
      have hfirst : ∃ z1 t, (if i > 0 then z.AddCharacter ',' else some z) = some z1 ∧
          Emits z z1 order t := by
        by_cases hi : i > 0
        · rw [if_pos hi]
          obtain ⟨z1, h1, hz1⟩ := AddCharacter_emits z order ',' h0
          exact ⟨z1, _, h1, hz1⟩
        · rw [if_neg hi]
          exact ⟨z, [], rfl, Emits_refl h0⟩
      obtain ⟨z1, t1, h1, hz1⟩ := hfirst
      have k1 := Emits_ok h0 hz1
      obtain ⟨z2, t2, h2, hz2⟩ := ih1 z1 order k1
      have k2 := Emits_ok k1 hz2
      obtain ⟨z3, t3, h3, hz3⟩ := ih2 z2 order (i + 1) k2
      refine ⟨z3, _, ?_, Emits_trans hz1 (Emits_trans hz2 hz3)⟩
      rw [HeapSnapshotJSONSerializer.SerializeTraceNodeChildren]
      simp only [Option.bind_eq_bind, bind, pure]
      rw [h1, Option.some_bind, h2, Option.some_bind]
      exact h3)

theorem SerializeTraceTree_spec (z : HeapSnapshotJSONSerializer) (order : List String)
    (h0 : SerializerOk z order) :
    ∃ z1 text, z.SerializeTraceTree = some z1 ∧ Emits z z1 order text := by
  unfold HeapSnapshotJSONSerializer.SerializeTraceTree
  cases ht : z.profiler.allocation_tracker with
  | none => exact ⟨z, [], rfl, Emits_refl h0⟩
  | some tracker => exact SerializeTraceNode_spec tracker.trace_tree_root z order h0

/-! ## The string literals -/

theorem jsonDecode_plain (c : Char) (rest r : List Char) (h1 : c ≠ '\\') (h2 : c ≠ '\"')
    (h3 : ¬ c.toNat < 32) (hr : jsonDecode rest = some r) :
    jsonDecode (c :: rest) = some (c :: r) := by
  rw [jsonDecode.eq_def]
  simp [h1, h2, h3, hr]

theorem jsonDecode_u (a b c d : Char) (va vb vc vd : Nat) (rest r : List Char)
    (ha : hexValue a = some va) (hb : hexValue b = some vb) (hc : hexValue c = some vc)
    (hd : hexValue d = some vd) (hr : jsonDecode rest = some r) :
    jsonDecode ('\\' :: 'u' :: a :: b :: c :: d :: rest) =
      some (Char.ofNat (((va * 16 + vb) * 16 + vc) * 16 + vd) :: r) := by
  rw [jsonDecode.eq_def]
  simp [ha, hb, hc, hd, hr]

theorem jsonDecode_escape (e : Char) (rest r : List Char) (h : e ≠ 'u')
    (hr : jsonDecode rest = some r) :
    jsonDecode ('\\' :: e :: rest) =
      if e = '\"' then some ('\"' :: r)
      else if e = '\\' then some ('\\' :: r)
      else if e = '/' then some ('/' :: r)
      else if e = 'b' then some (Char.ofNat 8 :: r)
      else if e = 'f' then some (Char.ofNat 12 :: r)
      else if e = 'n' then some ('\n' :: r)
      else if e = 'r' then some ('\r' :: r)
      else if e = 't' then some ('\t' :: r)
      else none := by
  rw [jsonDecode.eq_def]
  simp [h, hr]

theorem hexValue_hexDigit (n : Nat) : hexValue (hexDigit n) = some (n % 16) := by
  unfold hexDigit
  have h : n % 16 < 16 := Nat.mod_lt _ (by decide)
  generalize n % 16 = k at h
  interval_cases k <;> decide

/-- A decoder reads the `u` escape as the character whose code is the lower 16 bits of the
value. -/
theorem jsonDecode_uEscape (u : Nat) (rest r : List Char) (hr : jsonDecode rest = some r) :
    jsonDecode (uEscape u ++ rest) = some (Char.ofNat (u % 65536) :: r) := by
  have h := jsonDecode_u (hexDigit (u / 4096)) (hexDigit (u / 256)) (hexDigit (u / 16))
    (hexDigit u) _ _ _ _ rest r (hexValue_hexDigit _) (hexValue_hexDigit _)
    (hexValue_hexDigit _) (hexValue_hexDigit _) hr
  have harith : ((u / 4096 % 16 * 16 + u / 256 % 16) * 16 + u / 16 % 16) * 16 + u % 16 =
      u % 65536 := by omega
  rw [harith] at h
  exact h

theorem hex_chars_getElem? (n : Nat) :
    HeapSnapshotJSONSerializer.hex_chars[n &&& 0xF]? = some (hexDigit n) := by
  have h1 : n &&& 0xF = n % 16 := Nat.and_pow_two_sub_one_eq_mod n 4
  have h2 : n % 16 < 16 := Nat.mod_lt _ (by decide)
  rw [h1]
  unfold hexDigit
  generalize n % 16 = k at h2
  interval_cases k <;> rfl

theorem WriteUChar_wrote (w : OutputStreamWriter) (u : Nat) (hw : WriterOk w)
    (hnever : w.stream_.NeverAborts) :
    ∃ w1, HeapSnapshotJSONSerializer.WriteUChar w u = some w1 ∧ Wrote w w1 (uEscape u) := by
  obtain ⟨w1, h1, e1⟩ := AddString_wrote w "\\u".toList hw hnever
  obtain ⟨w2, h2, e2⟩ := AddCharacter_wrote w1 (hexDigit (u / 4096)) e1.ok (Wrote_never e1 hnever)
  have n2 := Wrote_never e2 (Wrote_never e1 hnever)
  obtain ⟨w3, h3, e3⟩ := AddCharacter_wrote w2 (hexDigit (u / 256)) e2.ok n2
  have n3 := Wrote_never e3 n2
  obtain ⟨w4, h4, e4⟩ := AddCharacter_wrote w3 (hexDigit (u / 16)) e3.ok n3
  have n4 := Wrote_never e4 n3
  obtain ⟨w5, h5, e5⟩ := AddCharacter_wrote w4 (hexDigit u) e4.ok n4
  refine ⟨w5, ?_, ?_⟩
  · unfold HeapSnapshotJSONSerializer.WriteUChar
    have a1 : HeapSnapshotJSONSerializer.hex_chars[u >>> 12 &&& 0xF]? =
        some (hexDigit (u / 4096)) := by
      rw [hex_chars_getElem?, Nat.shiftRight_eq_div_pow]
    have a2 : HeapSnapshotJSONSerializer.hex_chars[u >>> 8 &&& 0xF]? =
        some (hexDigit (u / 256)) := by
      rw [hex_chars_getElem?, Nat.shiftRight_eq_div_pow]
    have a3 : HeapSnapshotJSONSerializer.hex_chars[u >>> 4 &&& 0xF]? =
        some (hexDigit (u / 16)) := by
      rw [hex_chars_getElem?, Nat.shiftRight_eq_div_pow]
    have a4 := hex_chars_getElem? u
    simp only [h1, a1, a2, a3, a4, h2, h3, h4, Option.bind_eq_bind, Option.some_bind, bind, pure]
    exact h5
  · have := Wrote_trans e1 (Wrote_trans e2 (Wrote_trans e3 (Wrote_trans e4 e5)))
    exact this

theorem map_wrote {w : OutputStreamWriter} {x : Option OutputStreamWriter} {t : List Char}
    (s : List Char) (h : ∃ w1, x = some w1 ∧ Wrote w w1 t) :
    ∃ w1, x.map (fun w1 => (w1, s)) = some (w1, s) ∧ Wrote w w1 t := by
  obtain ⟨w1, h1, e1⟩ := h
  exact ⟨w1, by rw [h1]; rfl, e1⟩

/-- One round of the loop of `SerializeString` writes the text of one byte, or of one
sequence of bytes from 128 on. -/
theorem SerializeStringChar_wrote (utf8 : Utf8) (w : OutputStreamWriter)
    (c : Char) (s : List Char) (hutf8 : 128 ≤ c.toNat → utf8.Ok) (hw : WriterOk w)
    (hnever : w.stream_.NeverAborts) :
    ∃ w1, HeapSnapshotJSONSerializer.SerializeStringChar utf8 w c s =
        some (w1, (escapeChar utf8 c s).2) ∧
      Wrote w w1 (escapeChar utf8 c s).1 ∧ (escapeChar utf8 c s).2.length ≤ s.length := by
  unfold HeapSnapshotJSONSerializer.SerializeStringChar escapeChar
  by_cases h8 : c = Char.ofNat 8
  · rw [if_pos h8, if_pos (by rw [h8]; decide)]
    have : escapeByte c = "\\b".toList := by rw [h8]; decide
    rw [this]
    obtain ⟨w1, h1, e1⟩ := map_wrote s (AddString_wrote w "\\b".toList hw hnever)
    exact ⟨w1, h1, e1, le_refl _⟩
  rw [if_neg h8]
  by_cases h12 : c = Char.ofNat 12
  · rw [if_pos h12, if_pos (by rw [h12]; decide)]
    have : escapeByte c = "\\f".toList := by rw [h12]; decide
    rw [this]
    obtain ⟨w1, h1, e1⟩ := map_wrote s (AddString_wrote w "\\f".toList hw hnever)
    exact ⟨w1, h1, e1, le_refl _⟩
  rw [if_neg h12]
  by_cases hn : c = '\n'
  · rw [if_pos hn, if_pos (by rw [hn]; decide)]
    have : escapeByte c = "\\n".toList := by rw [hn]; decide
    rw [this]
    obtain ⟨w1, h1, e1⟩ := map_wrote s (AddString_wrote w "\\n".toList hw hnever)
    exact ⟨w1, h1, e1, le_refl _⟩
  rw [if_neg hn]
  by_cases hr : c = '\r'
  · rw [if_pos hr, if_pos (by rw [hr]; decide)]
    have : escapeByte c = "\\r".toList := by rw [hr]; decide
    rw [this]
    obtain ⟨w1, h1, e1⟩ := map_wrote s (AddString_wrote w "\\r".toList hw hnever)
    exact ⟨w1, h1, e1, le_refl _⟩
  rw [if_neg hr]
  by_cases ht : c = '\t'
  · rw [if_pos ht, if_pos (by rw [ht]; decide)]
    have : escapeByte c = "\\t".toList := by rw [ht]; decide
    rw [this]
    obtain ⟨w1, h1, e1⟩ := map_wrote s (AddString_wrote w "\\t".toList hw hnever)
    exact ⟨w1, h1, e1, le_refl _⟩
  rw [if_neg ht]
  by_cases hq : c = '\"' ∨ c = '\\'
  · rw [if_pos hq, if_pos (by rcases hq with h | h <;> (rw [h]; decide))]
    have : escapeByte c = ['\\', c] := by
      unfold escapeByte
      rw [if_neg h8, if_neg h12, if_neg hn, if_neg hr, if_neg ht, if_pos hq]
    rw [this]
    obtain ⟨w1, h1, e1⟩ := AddCharacter_wrote w '\\' hw hnever
    obtain ⟨w2, h2, e2⟩ := AddCharacter_wrote w1 c e1.ok (Wrote_never e1 hnever)
    obtain ⟨w3, h3, e3⟩ := map_wrote s (show ∃ w3, (w.AddCharacter '\\').bind
      (fun w1 => w1.AddCharacter c) = some w3 ∧ Wrote w w3 (['\\'] ++ [c]) from
      ⟨w2, by rw [h1, Option.some_bind]; exact h2, Wrote_trans e1 e2⟩)
    exact ⟨w3, h3, e3, le_refl _⟩
  rw [if_neg hq]
  by_cases hp : c.toNat > 31 ∧ c.toNat < 128
  · rw [if_pos hp, if_pos hp.2]
    have : escapeByte c = [c] := by
      unfold escapeByte
      rw [if_neg h8, if_neg h12, if_neg hn, if_neg hr, if_neg ht, if_neg hq, if_pos hp.1]
    rw [this]
    obtain ⟨w1, h1, e1⟩ := map_wrote s (AddCharacter_wrote w c hw hnever)
    exact ⟨w1, h1, e1, le_refl _⟩
  rw [if_neg hp]
  by_cases hc : c.toNat ≤ 31
  · rw [if_pos hc, if_pos (by omega)]
    have : escapeByte c = uEscape c.toNat := by
      unfold escapeByte
      rw [if_neg h8, if_neg h12, if_neg hn, if_neg hr, if_neg ht, if_neg hq,
        if_neg (by omega)]
    rw [this]
    obtain ⟨w1, h1, e1⟩ := map_wrote s (WriteUChar_wrote w c.toNat hw hnever)
    exact ⟨w1, h1, e1, le_refl _⟩
  rw [if_neg hc, if_neg (show ¬ c.toNat < 128 by omega)]
  by_cases hbad : (utf8.CalculateValue ((c :: s).take
      (HeapSnapshotJSONSerializer.SerializeString.length (c :: s) 5 1))).1 ≠ utf8.kBadChar
  · rw [if_pos hbad, if_pos hbad]
    obtain ⟨hc1, hc2⟩ := hutf8 (by omega) _ hbad
    have hlt : (List.take (HeapSnapshotJSONSerializer.SerializeString.length (c :: s) 5 1)
        (c :: s)).length ≤ s.length + 1 := by
      rw [List.length_take]; simp only [List.length_cons]; omega
    rw [if_neg (by omega)]
    obtain ⟨w1, h1, e1⟩ := map_wrote (s.drop ((utf8.CalculateValue ((c :: s).take
      (HeapSnapshotJSONSerializer.SerializeString.length (c :: s) 5 1))).2 - 1))
      (WriteUChar_wrote w (utf8.CalculateValue ((c :: s).take
      (HeapSnapshotJSONSerializer.SerializeString.length (c :: s) 5 1))).1 hw hnever)
    exact ⟨w1, h1, e1, by rw [List.length_drop]; omega⟩
  · rw [if_neg hbad, if_neg hbad]
    obtain ⟨w1, h1, e1⟩ := map_wrote s (AddCharacter_wrote w '?' hw hnever)
    exact ⟨w1, h1, e1, le_refl _⟩

theorem escapeChar_suffix (utf8 : Utf8) (c : Char) (s : List Char) :
    (escapeChar utf8 c s).2 <:+ s := by
  unfold escapeChar
  split
  · exact List.suffix_refl s
  · split
    · exact List.drop_suffix _ s
    · exact List.suffix_refl s

/-- The loop of `SerializeString` writes the text of the bytes. What is used of
`CalculateValue` is needed only when a byte is not below 128. -/
theorem SerializeStringLoop_wrote (utf8 : Utf8) :
    ∀ (fuel : Nat) (w : OutputStreamWriter) (s : List Char),
      ((∃ c ∈ s, 128 ≤ c.toNat) → utf8.Ok) →
      WriterOk w → w.stream_.NeverAborts → s.length ≤ fuel →
      ∃ w1, HeapSnapshotJSONSerializer.SerializeStringLoop utf8 fuel w s = some w1 ∧
        Wrote w w1 (escapeText utf8 fuel s) := by
  intro fuel
  induction fuel with
  | zero =>
    intro w s _ hw _ hlen
    have : s = [] := List.length_eq_zero.mp (by omega)
    subst this
    exact ⟨w, rfl, Wrote_refl w hw⟩
  | succ fuel ih =>
    intro w s hutf8 hw hnever hlen
    cases s with
    | nil => exact ⟨w, rfl, Wrote_refl w hw⟩
    | cons c s =>
      have hlen2 : s.length ≤ fuel := by simp only [List.length_cons] at hlen; omega
      rw [HeapSnapshotJSONSerializer.SerializeStringLoop, escapeText]
      by_cases h0 : c = Char.ofNat 0
      · rw [if_pos h0, if_pos h0]
        exact ⟨w, rfl, Wrote_refl w hw⟩
      rw [if_neg h0, if_neg h0]
      obtain ⟨w1, h1, e1, hl⟩ := SerializeStringChar_wrote utf8 w c s
        (fun hc => hutf8 ⟨c, List.mem_cons_self _ _, hc⟩) hw hnever
      obtain ⟨w2, h2, e2⟩ := ih w1 _
        (fun ⟨d, hd, hd2⟩ => hutf8 ⟨d, List.mem_cons_of_mem _
          ((escapeChar_suffix utf8 c s).subset hd), hd2⟩)
        e1.ok (Wrote_never e1 hnever) (le_trans hl hlen2)
      exact ⟨w2, by rw [h1, Option.some_bind]; exact h2, Wrote_trans e1 e2⟩

/-- The text that `SerializeString` writes for a string: a newline and the literal. -/
theorem SerializeString_emits (utf8 : Utf8) (z : HeapSnapshotJSONSerializer)
    (order : List String) (s : String) (hutf8 : (∃ c ∈ s.toList, 128 ≤ c.toNat) → utf8.Ok)
    (h0 : SerializerOk z order) :
    ∃ z1, HeapSnapshotJSONSerializer.SerializeString utf8 z s.toList = some z1 ∧
      Emits z z1 order (stringText utf8 s) := by
  obtain ⟨z1, h1, e1⟩ := AddCharacter_emits z order '\n' h0
  have k1 := Emits_ok h0 e1
  obtain ⟨z2, h2, e2⟩ := AddCharacter_emits z1 order '\"' k1
  have k2 := Emits_ok k1 e2
  obtain ⟨z3, h3, e3⟩ := onWriter_emits z2 order
    (fun w => HeapSnapshotJSONSerializer.SerializeStringLoop utf8 s.toList.length w s.toList)
    _ k2 (SerializeStringLoop_wrote utf8 _ _ _ hutf8 k2.writer k2.never (le_refl _))
  have k3 := Emits_ok k2 e3
  obtain ⟨z4, h4, e4⟩ := AddCharacter_emits z3 order '\"' k3
  refine ⟨z4, ?_, ?_⟩
  · unfold HeapSnapshotJSONSerializer.SerializeString
    simp only [h1, h2, h3, Option.bind_eq_bind, Option.some_bind, bind, pure]
    exact h4
  · have := Emits_trans e1 (Emits_trans e2 (Emits_trans e3 e4))
    simpa [stringText] using this

/-! ## The strings array and the whole document -/

theorem fillSortedStrings_spec : ∀ (rest : List String) (k : Nat) (arr : List (Option String)),
    k + rest.length ≤ arr.length →
    HeapSnapshotJSONSerializer.fillSortedStrings (rest.zip (List.range' k rest.length)) arr =
      some (arr.take k ++ rest.map some ++ arr.drop (k + rest.length)) := by
  intro rest
  induction rest with
  | nil =>
    intro k arr _
    simp [HeapSnapshotJSONSerializer.fillSortedStrings]
  | cons s rest ih =>
    intro k arr h
    simp only [List.length_cons] at h
    have hk : k < arr.length := by omega
    rw [List.length_cons, List.range'_succ, List.zip_cons_cons,
      HeapSnapshotJSONSerializer.fillSortedStrings, if_pos hk,
      ih (k + 1) _ (by rw [List.length_set]; omega)]
    congr 1
    have h1 : (arr.set k (some s)).take (k + 1) = arr.take k ++ [some s] := by
      rw [List.take_succ, take_set_le arr k k _ (le_refl k)]
      simp [hk]
    have h2 : (arr.set k (some s)).drop (k + 1 + rest.length) =
        arr.drop (k + (rest.length + 1)) := by
      rw [List.drop_set_of_lt _ _ (by omega)]
      congr 1
      omega
    rw [h1, h2]
    simp

theorem fillSortedStrings_table (order : List String) :
    HeapSnapshotJSONSerializer.fillSortedStrings (order.zip (List.range' 1 order.length))
      (List.replicate (order.length + 1) none) = some (none :: order.map some) := by
  rw [fillSortedStrings_spec order 1 _ (by simp; omega)]
  have h1 : (List.replicate (order.length + 1) (none : Option String)).take 1 = [none] := by
    simp [List.replicate_succ]
  have h2 : (List.replicate (order.length + 1) (none : Option String)).drop
      (1 + order.length) = [] := by
    apply List.drop_eq_nil_of_le
    simp; omega
  rw [h1, h2]
  simp

/-- The second loop of `SerializeStrings`: the strings that remain are written, each after a
comma. -/
theorem SerializeStringsLoop_spec (utf8 : Utf8) (hutf8 : utf8.Ok)
    (sorted_strings : List (Option String)) (order : List String) :
    ∀ (rest : List String) (i : Nat) (z : HeapSnapshotJSONSerializer),
      SerializerOk z order →
      (∀ (j : Nat) (s : String), rest[j]? = some s → sorted_strings[i + j]? = some (some s)) →
      ∃ z1, HeapSnapshotJSONSerializer.SerializeStringsLoop utf8 sorted_strings rest.length i z =
          some z1 ∧
        Emits z z1 order (rest.map (fun s => ',' :: stringText utf8 s)).flatten := by
  intro rest
  induction rest with
  | nil =>
    intro i z h0 _
    exact ⟨z, rfl, Emits_refl h0⟩
  | cons s rest ih =>
    intro i z h0 hs
    obtain ⟨z1, h1, e1⟩ := AddCharacter_emits z order ',' h0
    have k1 := Emits_ok h0 e1
    obtain ⟨z2, h2, e2⟩ := SerializeString_emits utf8 z1 order s (fun _ => hutf8) k1
    have k2 := Emits_ok k1 e2
    obtain ⟨z3, h3, e3⟩ := ih (i + 1) z2 k2 (by
      intro j t hj
      have := hs (j + 1) t (by rw [List.getElem?_cons_succ]; exact hj)
      rw [← this]
      congr 1
      omega)
    have hhead := hs 0 s List.getElem?_cons_zero
    rw [Nat.add_zero] at hhead
    refine ⟨z3, ?_, ?_⟩
    · rw [List.length_cons, HeapSnapshotJSONSerializer.SerializeStringsLoop, hhead]
      simp only [h1, Option.some_bind, h2]
      have hna : z2.writer_.aborted = false := k2.writer.not_aborted
      simp only [hna, Bool.false_eq_true, if_false]
      exact h3
    · have := Emits_trans e1 (Emits_trans e2 e3)
      simpa using this

/-- The `strings` array: `SerializeStrings` writes the dummy element and then the strings of
the table, in the order of their ids. -/
theorem SerializeStrings_spec (utf8 : Utf8) (hutf8 : utf8.Ok) (z : HeapSnapshotJSONSerializer)
    (order : List String) (h0 : SerializerOk z order) :
    ∃ z1, z.SerializeStrings utf8 = some z1 ∧ Emits z z1 order (stringsText utf8 order) := by
  obtain ⟨_, hmap, _⟩ := h0.strings
  obtain ⟨z1, h1, e1⟩ := AddString_emits z order "\"<dummy>\"".toList h0
  have k1 := Emits_ok h0 e1
  obtain ⟨z2, h2, e2⟩ := SerializeStringsLoop_spec utf8 hutf8 (none :: order.map some) order
    order 1 z1 k1 (by
      intro j s hj
      rw [Nat.add_comm, List.getElem?_cons_succ, List.getElem?_map, hj]
      rfl)
  refine ⟨z2, ?_, ?_⟩
  · unfold HeapSnapshotJSONSerializer.SerializeStrings
    have hocc : z.strings_.occupancy = order.length := by
      unfold StringsMap.occupancy
      rw [hmap, List.length_zip]
      simp
    rw [hocc, hmap, fillSortedStrings_table]
    simp only [Option.bind_eq_bind, Option.some_bind, bind, pure, h1, List.length_cons,
      List.length_map, Nat.add_sub_cancel]
    exact h2
  · exact Emits_trans e1 e2

theorem nodesText_extends (entry_index : Nat → Int) (order final : List String)
    (h : order <+: final) : ∀ (es : List HeapEntry) (i : Nat),
    (∀ e ∈ es, e.name_ ∈ order) →
    nodesText entry_index i es final = nodesText entry_index i es order := by
  intro es
  induction es with
  | nil => intro i _; rfl
  | cons e es ih =>
    intro i hes
    rw [nodesText_cons, nodesText_cons, ih (i + 1) (fun e he => hes e (List.mem_cons_of_mem _ he)),
      indexOf_of_extends h e.name_ (hes e (List.mem_cons_self _ _))]

theorem edgeFields_of_extends (entry_index : Nat → Int) (order final : List String)
    (h : order <+: final) (e : HeapGraphEdge)
    (hm : ∀ name, e.label = EdgeLabel.name_ name → name ∈ order) :
    edgeFields entry_index final e = edgeFields entry_index order e := by
  cases hl : e.label with
  | index_ index => simp [edgeFields, hl]
  | name_ name =>
    simp only [edgeFields, hl]
    rw [indexOf_of_extends h name (hm name hl)]

theorem mem_edgeNames (es : List HeapGraphEdge) (e : HeapGraphEdge) (name : String)
    (he : e ∈ es) (hl : e.label = EdgeLabel.name_ name) : name ∈ edgeNames es := by
  induction es with
  | nil => exact absurd he (List.not_mem_nil e)
  | cons a es ih =>
    rw [edgeNames_cons]
    rcases List.mem_cons.mp he with h | h
    · subst h
      rw [edgeNames_cons_name e [] name hl]
      simp [edgeNames]
    · exact List.mem_append_right _ (ih h)

theorem edgesText_extends (entry_index : Nat → Int) (order final : List String)
    (h : order <+: final) : ∀ (es : List HeapGraphEdge) (i : Nat),
    (∀ e ∈ es, ∀ name, e.label = EdgeLabel.name_ name → name ∈ order) →
    edgesText entry_index i es final = edgesText entry_index i es order := by
  intro es
  induction es with
  | nil => intro i _; rfl
  | cons e es ih =>
    intro i hes
    rw [edgesText_cons, edgesText_cons,
      ih (i + 1) (fun e he => hes e (List.mem_cons_of_mem _ he)),
      edgeFields_of_extends entry_index order final h e (hes e (List.mem_cons_self _ _))]

theorem unlessAborted_some (z1 : HeapSnapshotJSONSerializer)
    (rest : HeapSnapshotJSONSerializer → Option HeapSnapshotJSONSerializer)
    (h : z1.writer_.aborted_ = false) :
    HeapSnapshotJSONSerializer.unlessAborted (some z1) rest = rest z1 := by
  unfold HeapSnapshotJSONSerializer.unlessAborted
  rw [Option.some_bind]
  have : z1.writer_.aborted = false := h
  simp [this]

/-- A section of `SerializeImpl`: two strings, the call `f`, and the test of `aborted`. -/
theorem section_emits (z : HeapSnapshotJSONSerializer) (order order1 : List String)
    (a b t : List Char) (f : HeapSnapshotJSONSerializer → Option HeapSnapshotJSONSerializer)
    (h0 : SerializerOk z order)
    (hf : ∀ z2, SerializerOk z2 order → z2.snapshot_ = z.snapshot_ → z2.profiler = z.profiler →
      ∃ z3, f z2 = some z3 ∧ Emits z2 z3 order1 t) :
    ∃ z3, (((z.AddString a).bind (fun z1 => z1.AddString b)).bind f) = some z3 ∧
      Emits z z3 order1 (a ++ b ++ t) := by
  obtain ⟨z1, h1, e1⟩ := AddString_emits z order a h0
  have k1 := Emits_ok h0 e1
  obtain ⟨z2, h2, e2⟩ := AddString_emits z1 order b k1
  have k2 := Emits_ok k1 e2
  obtain ⟨z3, h3, e3⟩ := hf z2 k2 (e2.snapshot.trans e1.snapshot) (e2.profiler.trans e1.profiler)
  refine ⟨z3, by rw [h1, Option.some_bind, h2, Option.some_bind]; exact h3, ?_⟩
  have := Emits_trans e1 (Emits_trans e2 e3)
  rw [← List.append_assoc] at this
  exact this

theorem Finalize_received (w : OutputStreamWriter) (hw : WriterOk w) :
    received w.Finalize.calls = w.written ∧
    ∃ (chunks : List (List Char)), w.Finalize.calls =
      chunks.map StreamCall.WriteAsciiChunk ++ [StreamCall.EndOfStream] := by
  have h := Finalize_calls w hw
  refine ⟨?_, _, h⟩
  rw [h, received_append]
  unfold received OutputStreamWriter.written received
  rw [chunksOf_map]
  by_cases hp : w.chunk_pos_ ≠ 0
  · rw [if_pos hp]; simp [chunksOf]
  · have : w.chunk_pos_ = 0 := by omega
    rw [if_neg hp, this]; simp [chunksOf]

/-- The whole of `SerializeImpl` on a stream that never aborts: it has a result, and the
document it writes is made of the sections in their order; the string table holds the strings
used, in the order of their first use. -/
theorem SerializeImpl_spec (entry_index : Nat → Int) (utf8 : Utf8) (hutf8 : utf8.Ok)
    (z : HeapSnapshotJSONSerializer) (order : List String) (es : List HeapGraphEdge)
    (h0 : SerializerOk z order) (hedges : z.snapshot_.edges_.length < kUnsignedRange)
    (hf : ChildrenAre z.snapshot_ es) :
    ∃ (z1 : HeapSnapshotJSONSerializer) (w : OutputStreamWriter) (infos tree samples : List Char),
      HeapSnapshotJSONSerializer.SerializeImpl entry_index utf8 z = some z1 ∧
      z1.writer_ = w.Finalize ∧
      Wrote z.writer_ w
        (documentText (snapshotText z.snapshot_ z.profiler)
          (nodesText entry_index 0 z.snapshot_.entries_
            ((usedStrings z.snapshot_.entries_ es z.profiler).foldl intern order))
          (edgesText entry_index 0 es
            ((usedStrings z.snapshot_.entries_ es z.profiler).foldl intern order))
          infos tree samples
          (stringsText utf8 ((usedStrings z.snapshot_.entries_ es z.profiler).foldl intern order))) ∧
      StringsAre z1 ((usedStrings z.snapshot_.entries_ es z.profiler).foldl intern order) ∧
      z1.snapshot_ = z.snapshot_ := by
  -- the section `snapshot`
  obtain ⟨a1, ha1, ea1⟩ := AddCharacter_emits z order '\x7b' h0
  have ka1 := Emits_ok h0 ea1
  obtain ⟨a2, ha2, ea2⟩ := AddString_emits a1 order "\"snapshot\":\x7b".toList ka1
  have ka2 := Emits_ok ka1 ea2
  have hsa2 : a2.snapshot_ = z.snapshot_ := ea2.snapshot.trans ea1.snapshot
  have hpa2 : a2.profiler = z.profiler := ea2.profiler.trans ea1.profiler
  obtain ⟨z1, h1, e1'⟩ := SerializeSnapshot_spec a2 order ka2 (by rw [hsa2]; exact hedges)
  have e1 := Emits_trans ea1 (Emits_trans ea2 e1')
  have k1 := Emits_ok h0 e1
  have hsec1 : (((z.AddCharacter '\x7b').bind
      (fun x => x.AddString "\"snapshot\":\x7b".toList)).bind
      (fun x => x.SerializeSnapshot)) = some z1 := by
    rw [ha1, Option.some_bind, ha2, Option.some_bind]; exact h1
  -- the nodes
  obtain ⟨z2, h2, e2⟩ := section_emits z1 order
    ((z.snapshot_.entries_.map HeapEntry.name_).foldl intern order)
    "\x7d,\n".toList "\"nodes\":[".toList
    (nodesText entry_index 0 z.snapshot_.entries_
      ((z.snapshot_.entries_.map HeapEntry.name_).foldl intern order))
    (fun x => x.SerializeNodes entry_index) k1
    (fun x hx hs _ => by
      have := SerializeNodes_spec entry_index x order hx
      rw [hs, e1.snapshot] at this
      exact this)
  have k2 := Emits_ok k1 e2
  -- the edges
  obtain ⟨z3, h3, e3⟩ := section_emits z2 _
    ((edgeNames es).foldl intern ((z.snapshot_.entries_.map HeapEntry.name_).foldl intern order))
    "],\n".toList "\"edges\":[".toList
    (edgesText entry_index 0 es ((edgeNames es).foldl intern
      ((z.snapshot_.entries_.map HeapEntry.name_).foldl intern order)))
    (fun x => x.SerializeEdges entry_index) k2
    (fun x hx hs _ => SerializeEdges_spec entry_index x _ es hx (by
      unfold ChildrenAre at hf
      rw [hs, e2.snapshot, e1.snapshot]; exact hf))
  have k3 := Emits_ok k2 e3
  -- the function infos
  have hp3 : z3.profiler = z.profiler := e3.profiler.trans (e2.profiler.trans e1.profiler)
  obtain ⟨tinfos, z4, h4, e4⟩ : ∃ tinfos z4,
      (((z3.AddString "],\n".toList).bind
        (fun x => x.AddString "\"trace_function_infos\":[".toList)).bind
        (fun x => x.SerializeTraceNodeInfos)) = some z4 ∧
      Emits z3 z4 ((usedStrings z.snapshot_.entries_ es z.profiler).foldl intern order)
        ("],\n".toList ++ "\"trace_function_infos\":[".toList ++ tinfos) := by
    obtain ⟨b1, hb1, eb1⟩ := AddString_emits z3 _ "],\n".toList k3
    have kb1 := Emits_ok k3 eb1
    obtain ⟨b2, hb2, eb2⟩ := AddString_emits b1 _ "\"trace_function_infos\":[".toList kb1
    have kb2 := Emits_ok kb1 eb2
    obtain ⟨b3, t, hb3, eb3⟩ := SerializeTraceNodeInfos_spec b2 _ kb2
    have hpb2 : b2.profiler = z.profiler := eb2.profiler.trans (eb1.profiler.trans hp3)
    rw [hpb2] at eb3
    refine ⟨t, b3, by rw [hb1, Option.some_bind, hb2, Option.some_bind]; exact hb3, ?_⟩
    have := Emits_trans eb1 (Emits_trans eb2 eb3)
    rw [← List.append_assoc] at this
    simpa only [usedStrings, List.foldl_append] using this
  have k4 := Emits_ok k3 e4
  -- the trace tree
  obtain ⟨ttree, z5, h5, e5⟩ : ∃ ttree z5,
      (((z4.AddString "],\n".toList).bind
        (fun x => x.AddString "\"trace_tree\":[".toList)).bind
        (fun x => x.SerializeTraceTree)) = some z5 ∧
      Emits z4 z5 ((usedStrings z.snapshot_.entries_ es z.profiler).foldl intern order)
        ("],\n".toList ++ "\"trace_tree\":[".toList ++ ttree) := by
    obtain ⟨b1, hb1, eb1⟩ := AddString_emits z4 _ "],\n".toList k4
    have kb1 := Emits_ok k4 eb1
    obtain ⟨b2, hb2, eb2⟩ := AddString_emits b1 _ "\"trace_tree\":[".toList kb1
    have kb2 := Emits_ok kb1 eb2
    obtain ⟨b3, t, hb3, eb3⟩ := SerializeTraceTree_spec b2 _ kb2
    refine ⟨t, b3, by rw [hb1, Option.some_bind, hb2, Option.some_bind]; exact hb3, ?_⟩
    have := Emits_trans eb1 (Emits_trans eb2 eb3)
    rw [← List.append_assoc] at this
    exact this
  have k5 := Emits_ok k4 e5
  -- the samples
  obtain ⟨tsamples, z6, h6, e6⟩ : ∃ tsamples z6,
      (((z5.AddString "],\n".toList).bind
        (fun x => x.AddString "\"samples\":[".toList)).bind
        (fun x => x.SerializeSamples)) = some z6 ∧
      Emits z5 z6 ((usedStrings z.snapshot_.entries_ es z.profiler).foldl intern order)
        ("],\n".toList ++ "\"samples\":[".toList ++ tsamples) := by
    obtain ⟨b1, hb1, eb1⟩ := AddString_emits z5 _ "],\n".toList k5
    have kb1 := Emits_ok k5 eb1
    obtain ⟨b2, hb2, eb2⟩ := AddString_emits b1 _ "\"samples\":[".toList kb1
    have kb2 := Emits_ok kb1 eb2
    obtain ⟨b3, t, hb3, eb3⟩ := SerializeSamples_spec b2 _ kb2
    refine ⟨t, b3, by rw [hb1, Option.some_bind, hb2, Option.some_bind]; exact hb3, ?_⟩
    have := Emits_trans eb1 (Emits_trans eb2 eb3)
    rw [← List.append_assoc] at this
    exact this
  have k6 := Emits_ok k5 e6
  -- the strings
  obtain ⟨z7, h7, e7⟩ := section_emits z6 _
    ((usedStrings z.snapshot_.entries_ es z.profiler).foldl intern order)
    "],\n".toList "\"strings\":[".toList
    (stringsText utf8 ((usedStrings z.snapshot_.entries_ es z.profiler).foldl intern order))
    (fun x => x.SerializeStrings utf8) k6
    (fun x hx _ _ => SerializeStrings_spec utf8 hutf8 x _ hx)
  have k7 := Emits_ok k6 e7
  -- the end
  obtain ⟨z8, h8, e8⟩ := AddCharacter_emits z7 _ ']' k7
  have k8 := Emits_ok k7 e8
  obtain ⟨z9, h9, e9⟩ := AddCharacter_emits z8 _ '\x7d' k8
  have k9 := Emits_ok k8 e9
  have hall := Emits_trans e1 (Emits_trans e2 (Emits_trans e3 (Emits_trans e4 (Emits_trans e5
    (Emits_trans e6 (Emits_trans e7 (Emits_trans e8 e9)))))))
  refine ⟨{ z9 with writer_ := z9.writer_.Finalize }, z9.writer_, tinfos, ttree, tsamples,
    ?_, rfl, ?_, ⟨k9.strings.1, k9.strings.2.1, k9.strings.2.2⟩, hall.snapshot⟩
  · unfold HeapSnapshotJSONSerializer.SerializeImpl
    rw [hsec1, unlessAborted_some _ _ k1.writer.not_aborted,
      h2, unlessAborted_some _ _ k2.writer.not_aborted,
      h3, unlessAborted_some _ _ k3.writer.not_aborted,
      h4, unlessAborted_some _ _ k4.writer.not_aborted,
      h5, unlessAborted_some _ _ k5.writer.not_aborted,
      h6, unlessAborted_some _ _ k6.writer.not_aborted,
      h7, unlessAborted_some _ _ k7.writer.not_aborted,
      h8, Option.some_bind, h9]
    rfl
  · have hw := hall.wrote
    have hn1 : nodesText entry_index 0 z.snapshot_.entries_
        ((usedStrings z.snapshot_.entries_ es z.profiler).foldl intern order) =
        nodesText entry_index 0 z.snapshot_.entries_
          ((z.snapshot_.entries_.map HeapEntry.name_).foldl intern order) := by
      apply nodesText_extends
      · simp only [usedStrings, List.foldl_append]
        exact (foldl_intern_extends _ _).trans (foldl_intern_extends _ _)
      · intro e he
        rw [mem_foldl_intern]
        exact Or.inr (List.mem_map_of_mem _ he)
    have hn2 : edgesText entry_index 0 es
        ((usedStrings z.snapshot_.entries_ es z.profiler).foldl intern order) =
        edgesText entry_index 0 es
          ((edgeNames es).foldl intern
            ((z.snapshot_.entries_.map HeapEntry.name_).foldl intern order)) := by
      apply edgesText_extends
      · simp only [usedStrings, List.foldl_append]
        exact foldl_intern_extends _ _
      · intro e he name hl
        rw [mem_foldl_intern]
        exact Or.inr (mem_edgeNames es e name he hl)
    rw [hn1, hn2]
    have hsnap : snapshotText z.snapshot_ z.profiler =
        "\"meta\":".toList ++ HeapSnapshotJSONSerializer.metaText.toList ++
          ",\"node_count\":".toList ++ decimal (a2.snapshot_.entries_.length % kUnsignedRange) ++
          ",\"edge_count\":".toList ++ decimal a2.snapshot_.edges_.length ++
          ",\"trace_function_count\":".toList ++
          decimal (match a2.profiler.allocation_tracker with
            | some tracker => tracker.function_info_list.length % kUnsignedRange
            | none => 0) := by
      rw [hsa2, hpa2]; rfl
    rw [hsnap]
    simpa only [documentText, List.append_assoc, List.singleton_append, List.cons_append,
      List.nil_append] using hw

/-! ### Decimal numerals read back -/

theorem parseDigits_append (a : List Char) (c : Char) : ∀ (acc : Nat),
    parseDigits acc (a ++ [c]) =
      (parseDigits acc a).bind (fun m =>
        if 48 ≤ c.toNat ∧ c.toNat ≤ 57 then some (m * 10 + (c.toNat - 48)) else none) := by
  induction a with
  | nil =>
    intro acc
    simp only [List.nil_append, parseDigits, Option.some_bind]
  | cons x a ih =>
    intro acc
    simp only [List.cons_append, parseDigits]
    split
    · exact ih _
    · rfl

theorem digit_toNat (d : Nat) (h : d < 10) : (Char.ofNat (48 + d)).toNat = 48 + d := by
  have : d = 0 ∨ d = 1 ∨ d = 2 ∨ d = 3 ∨ d = 4 ∨ d = 5 ∨ d = 6 ∨ d = 7 ∨ d = 8 ∨ d = 9 := by
    omega
  rcases this with h | h | h | h | h | h | h | h | h | h <;> subst h <;> rfl

theorem parseDigits_decimal (n : Nat) : parseDigits 0 (decimal n) = some n := by
  induction n using Nat.strong_induction_on with
  | _ n ih =>
    rw [decimal_eq]
    have hd := digit_toNat (n % 10) (Nat.mod_lt _ (by decide))
    by_cases h : n / 10 = 0
    · rw [if_pos h]
      simp only [parseDigits, hd]
      rw [if_pos (by omega)]
      congr 1
      omega
    · rw [if_neg h, parseDigits_append, ih (n / 10) (by omega), Option.some_bind, hd,
        if_pos (by omega)]
      congr 1
      omega

/-- A decimal numeral starts with `0` only when it is the numeral of 0. -/
theorem decimal_head (n : Nat) :
    ∃ c rest, decimal n = c :: rest ∧ (c = '0' → n = 0) ∧ (n = 0 → rest = []) := by
  induction n using Nat.strong_induction_on with
  | _ n ih =>
    rw [decimal_eq]
    by_cases h : n / 10 = 0
    · rw [if_pos h]
      refine ⟨_, [], rfl, ?_, fun _ => rfl⟩
      intro hc
      have hd := digit_toNat (n % 10) (Nat.mod_lt _ (by decide))
      rw [hc] at hd
      have : ('0' : Char).toNat = 48 := rfl
      omega
    · rw [if_neg h]
      obtain ⟨c, rest, hc, h1, _⟩ := ih (n / 10) (by omega)
      rw [hc]
      refine ⟨c, rest ++ [Char.ofNat (48 + n % 10)], List.cons_append _ _ _, ?_, ?_⟩
      · intro h0
        exact absurd (h1 h0) h
      · intro h0
        subst h0
        exact absurd rfl h

theorem parseDecimal_decimal (n : Nat) : parseDecimal (decimal n) = some n := by
  obtain ⟨c, rest, hc, h1, h2⟩ := decimal_head n
  have hp := parseDigits_decimal n
  rw [hc] at hp ⊢
  unfold parseDecimal
  simp only
  rw [if_neg]
  · exact hp
  · rintro ⟨h0, hne⟩
    exact hne (h2 (h1 h0))

/-- The `i`-th character of a decimal numeral of `d` digits is the digit of `10 ^ (d - 1 - i)`:
the most significant digit comes first. -/
theorem decimal_getElem? (n : Nat) : ∀ (i : Nat), i < (decimal n).length →
    (decimal n)[i]? = some (Char.ofNat (48 + n / 10 ^ ((decimal n).length - 1 - i) % 10)) := by
  induction n using Nat.strong_induction_on with
  | _ n ih =>
    intro i hi
    have he := decimal_eq n
    by_cases h : n / 10 = 0
    · rw [if_pos h] at he
      rw [he] at hi ⊢
      simp only [List.length_singleton] at hi ⊢
      have : i = 0 := by omega
      subst this
      simp
    · rw [if_neg h] at he
      rw [he] at hi ⊢
      simp only [List.length_append, List.length_singleton] at hi ⊢
      by_cases hlast : i = (decimal (n / 10)).length
      · subst hlast
        rw [List.getElem?_append_right (le_refl _)]
        simp
      · have hlt : i < (decimal (n / 10)).length := by omega
        rw [List.getElem?_append_left hlt, ih (n / 10) (by omega) i hlt]
        have e : (decimal (n / 10)).length + 1 - 1 - i =
            ((decimal (n / 10)).length - 1 - i) + 1 := by omega
        rw [e, pow_succ, Nat.mul_comm, Nat.div_div_eq_div_mul]

/-- The number of digits of a decimal numeral: that of 0 is `0`, and a value that is not 0
lies between the powers of ten. -/
theorem decimal_length_spec (n : Nat) :
    (n = 0 → decimal n = ['0']) ∧
    (0 < n → 10 ^ ((decimal n).length - 1) ≤ n ∧ n < 10 ^ (decimal n).length) := by
  refine ⟨fun h => by subst h; rfl, ?_⟩
  induction n using Nat.strong_induction_on with
  | _ n ih =>
    intro hn
    have he := decimal_eq n
    by_cases h : n / 10 = 0
    · rw [if_pos h] at he
      rw [he]
      simp only [List.length_singleton]
      omega
    · rw [if_neg h] at he
      rw [he]
      simp only [List.length_append, List.length_singleton]
      obtain ⟨h1, h2⟩ := ih (n / 10) (by omega) (by omega)
      have hpos := decimal_length_pos (n / 10)
      have e : (decimal (n / 10)).length + 1 - 1 = ((decimal (n / 10)).length - 1) + 1 := by
        omega
      rw [e, pow_succ, pow_succ]
      omega

/-- C36: `utoa_impl` writes the canonical decimal numeral. For a value `v` and a position `p`
with the cells for the numeral in the buffer, `utoa_impl` returns `p + d`, where `d` is the
number of decimal digits of `v` (1 for 0, and `10 ^ (d - 1) ≤ v < 10 ^ d` otherwise); the cell
`p + i` holds the digit of `10 ^ (d - 1 - i)`, so the most significant digit is first and it
is not `0` unless `v = 0`; every other cell is unchanged; the cells written read back as `v`;
and `utoa` of a signed argument is `utoa_impl` of the argument modulo `2 ^ width`. -/
theorem utoa_writes_canonical_decimal (v : Nat) (buffer : List Char) (p : Nat)
    (hfit : p + (decimal v).length ≤ buffer.length) :
    ∃ (buffer1 : List Char) (d : Nat),
      utoa_impl v buffer p = some (buffer1, p + d) ∧
      buffer1.length = buffer.length ∧
      (v = 0 → d = 1) ∧ (0 < v → 10 ^ (d - 1) ≤ v ∧ v < 10 ^ d) ∧
      (∀ i, i < d → buffer1[p + i]? = some (Char.ofNat (48 + v / 10 ^ (d - 1 - i) % 10))) ∧
      (0 < v → v / 10 ^ (d - 1) % 10 ≠ 0) ∧
      (∀ i, i < p ∨ p + d ≤ i → buffer1[i]? = buffer[i]?) ∧
      parseDecimal ((buffer1.drop p).take d) = some v ∧
      (∀ (bytes : Nat) (value : Int),
        utoa bytes value buffer p =
          utoa_impl (value % ((2 ^ (8 * bytes) : Nat) : Int)).toNat buffer p) := by
  have hlen : (buffer.take p).length = p := by rw [List.length_take]; omega
  have hspec := decimal_length_spec v
  refine ⟨_, (decimal v).length, utoa_impl_eq v buffer p hfit, ?_, ?_, hspec.2, ?_, ?_, ?_, ?_,
    fun _ _ => rfl⟩
  · simp only [List.length_append, List.length_take, List.length_drop]
    omega
  · intro h0
    rw [hspec.1 h0]
    rfl
  · intro i hi
    rw [List.append_assoc, List.getElem?_append_right (by omega), hlen,
      List.getElem?_append_left (by omega)]
    have : p + i - p = i := by omega
    rw [this]
    exact decimal_getElem? v i hi
  · intro hv
    obtain ⟨h1, h2⟩ := hspec.2 hv
    have hpos := decimal_length_pos v
    have hp : 0 < 10 ^ ((decimal v).length - 1) := by positivity
    have e : (decimal v).length = ((decimal v).length - 1) + 1 := by omega
    rw [e, pow_succ] at h2
    have hlo : 1 ≤ v / 10 ^ ((decimal v).length - 1) := by
      rw [Nat.le_div_iff_mul_le hp]
      omega
    have hhi : v / 10 ^ ((decimal v).length - 1) < 10 := by
      rw [Nat.div_lt_iff_lt_mul hp]
      rw [Nat.mul_comm]
      exact h2
    rw [Nat.mod_eq_of_lt hhi]
    omega
  · intro i hi
    rcases hi with hi | hi
    · rw [List.append_assoc, List.getElem?_append_left (by omega), List.getElem?_take]
      simp only [hi, if_true]
    · rw [List.getElem?_append_right (by
          simp only [List.length_append, List.length_take]; omega), List.getElem?_drop]
      congr 1
      simp only [List.length_append, List.length_take]
      omega
  · rw [List.append_assoc, List.drop_left' hlen, List.take_left]
    exact parseDecimal_decimal v

/-- The value 1203 is written as four digits at the position 2 of a buffer of 8 cells. -/
theorem utoa_writes_canonical_decimal_witness :
    ∃ (buffer1 : List Char) (d : Nat),
      utoa_impl 1203 (EmbeddedVector 8) 2 = some (buffer1, 2 + d) ∧
      buffer1.length = (EmbeddedVector 8).length ∧
      ((1203 : Nat) = 0 → d = 1) ∧ (0 < 1203 → 10 ^ (d - 1) ≤ 1203 ∧ 1203 < 10 ^ d) ∧
      (∀ i, i < d → buffer1[2 + i]? = some (Char.ofNat (48 + 1203 / 10 ^ (d - 1 - i) % 10))) ∧
      (0 < 1203 → 1203 / 10 ^ (d - 1) % 10 ≠ 0) ∧
      (∀ i, i < 2 ∨ 2 + d ≤ i → buffer1[i]? = (EmbeddedVector 8)[i]?) ∧
      parseDecimal ((buffer1.drop 2).take d) = some 1203 ∧
      (∀ (bytes : Nat) (value : Int),
        utoa bytes value (EmbeddedVector 8) 2 =
          utoa_impl (value % ((2 ^ (8 * bytes) : Nat) : Int)).toNat (EmbeddedVector 8) 2) :=
  utoa_writes_canonical_decimal 1203 (EmbeddedVector 8) 2 (by decide)

theorem nodeFields_length_le (e : HeapEntry) (name_id : Nat) :
    (tupleText (nodeFields e name_id)).length ≤ 76 := by
  rw [nodeFields, tupleText_six]
  have d1 := decimal_length_le 10 e.type_.value (by decide)
    (lt_trans (HeapEntryType_value_lt e.type_) (by norm_num))
  have d2 := decimal_length_unsigned (name_id % kUnsignedRange) (Nat.mod_lt _ (by decide))
  have d3 := decimal_length_unsigned (e.id_ % kUnsignedRange) (Nat.mod_lt _ (by decide))
  have d4 := decimal_length_le 20 (e.self_size_ % 18446744073709551616) (by decide)
    (lt_of_lt_of_le (Nat.mod_lt _ (by decide)) (by norm_num))
  have d5 := decimal_length_unsigned (e.children_count_ % kUnsignedRange)
    (Nat.mod_lt _ (by decide))
  have d6 := decimal_length_unsigned (e.trace_node_id_ % kUnsignedRange)
    (Nat.mod_lt _ (by decide))
  simp only [List.length_append, List.length_singleton]
  omega

theorem toUnsigned_lt (x : Int) : toUnsigned x < kUnsignedRange := by
  rw [← ToUnsigned4_eq]
  exact ToUnsigned_lt 4 x

theorem tupleText_three_le (a b c : Nat) (ha : a < kUnsignedRange) (hb : b < kUnsignedRange)
    (hc : c < kUnsignedRange) : (tupleText [a, b, c]).length ≤ 33 := by
  rw [tupleText_three]
  have d1 := decimal_length_unsigned a ha
  have d2 := decimal_length_unsigned b hb
  have d3 := decimal_length_unsigned c hc
  simp only [List.length_append, List.length_singleton]
  omega

theorem edgeFields_length_le (entry_index : Nat → Int) (order : List String)
    (e : HeapGraphEdge) : (tupleText (edgeFields entry_index order e)).length ≤ 33 := by
  have h : ∃ b c, edgeFields entry_index order e = [e.type.value, b, c] ∧
      b < kUnsignedRange ∧ c < kUnsignedRange := by
    unfold edgeFields
    refine ⟨_, _, rfl, ?_, ?_⟩
    · split
      · exact toUnsigned_lt _
      · exact Nat.mod_lt _ (by decide)
    · split <;> exact toUnsigned_lt _
  obtain ⟨b, c, h, hb, hc⟩ := h
  rw [h]
  exact tupleText_three_le _ _ _ (lt_trans (HeapGraphEdgeType_value_lt e.type) (by decide)) hb hc

/-- A new serializer on a stream that never aborts is in the state `SerializerOk`. -/
theorem SerializerOk_ctor (snapshot : HeapSnapshot) (profiler : HeapProfilerData)
    (stream : OutputStream) (hsize : 0 < stream.GetChunkSize) (hnever : stream.NeverAborts) :
    SerializerOk (HeapSnapshotJSONSerializer.ctor snapshot profiler stream) [] :=
  ⟨StringsAre_ctor snapshot profiler stream, ctor_ok stream hsize, hnever⟩

theorem neverAborts_never (chunk_size : Nat) : (neverAborts chunk_size).NeverAborts :=
  fun _ _ => rfl

/-- C37: the fixed tuple buffers never overflow. On a writer that takes the text,
`SerializeNode` has a result for every node, so every write into its buffer was in bounds, and
the text it built (optional comma, six fields, five commas, newline) with the terminating NUL
has at most `kBufferSize` = 5 * 10 + 20 + 6 + 1 + 1 characters; `SerializeEdge` has a result
for every edge whose label agrees with its kind and whose target is resolved, and its text
with the NUL has at most `kBufferSize` = 10 * 3 + 3 + 2 characters. -/
theorem tuple_buffers_never_overflow (entry_index : Nat → Int)
    (z : HeapSnapshotJSONSerializer) (order : List String) (h0 : SerializerOk z order) :
    HeapSnapshotJSONSerializer.SerializeNode.kBufferSize = 5 * 10 + 20 + 6 + 1 + 1 ∧
    HeapSnapshotJSONSerializer.SerializeEdge.kBufferSize = 10 * 3 + 3 + 2 ∧
    (∀ (entry : Nat) (e : HeapEntry), z.snapshot_.entries_[entry]? = some e →
      ∃ z1 text, HeapSnapshotJSONSerializer.SerializeNode entry_index z entry = some z1 ∧
        Wrote z.writer_ z1.writer_ text ∧
        text.length + 1 ≤ HeapSnapshotJSONSerializer.SerializeNode.kBufferSize) ∧
    (∀ (edge : Nat) (first_edge : Bool) (e : HeapGraphEdge) (j : Nat),
      z.snapshot_.edges_[edge]? = some e → EdgeLabelOk e → e.to_ = EdgeTarget.to_entry_ j →
      ∃ z1 text,
        HeapSnapshotJSONSerializer.SerializeEdge entry_index z edge first_edge = some z1 ∧
        Wrote z.writer_ z1.writer_ text ∧
        text.length + 1 ≤ HeapSnapshotJSONSerializer.SerializeEdge.kBufferSize) := by
  refine ⟨rfl, rfl, ?_, ?_⟩
  · intro entry e he
    obtain ⟨z1, h1, e1⟩ := SerializeNode_spec entry_index z order entry e h0 he
    refine ⟨z1, _, h1, e1.wrote, ?_⟩
    have hl := nodeFields_length_le e ((intern order e.name_).indexOf e.name_ + 1)
    have hk : HeapSnapshotJSONSerializer.SerializeNode.kBufferSize = 78 := rfl
    rw [hk, List.length_append]
    split <;> simp only [List.length_singleton, List.length_nil] <;> omega
  · intro edge first_edge e j he hlabel hto
    obtain ⟨z1, h1, e1⟩ := SerializeEdge_spec entry_index z order edge first_edge e j h0 he
      hlabel hto
    refine ⟨z1, _, h1, e1.wrote, ?_⟩
    have hl := edgeFields_length_le entry_index ((edgeNames [e]).foldl intern order) e
    have hk : HeapSnapshotJSONSerializer.SerializeEdge.kBufferSize = 35 := rfl
    rw [hk, List.length_append]
    split <;> simp only [List.length_singleton, List.length_nil] <;> omega

/-- The buffers on the store `linkedFilled`. -/
theorem tuple_buffers_never_overflow_witness :
    HeapSnapshotJSONSerializer.SerializeNode.kBufferSize = 5 * 10 + 20 + 6 + 1 + 1 ∧
    HeapSnapshotJSONSerializer.SerializeEdge.kBufferSize = 10 * 3 + 3 + 2 ∧
    (∀ (entry : Nat) (e : HeapEntry), linkedFilled.entries_[entry]? = some e →
      ∃ z1 text, HeapSnapshotJSONSerializer.SerializeNode (fun i => (i : Int) * 6)
          (HeapSnapshotJSONSerializer.ctor linkedFilled ⟨none, []⟩ (neverAborts 1024)) entry =
            some z1 ∧
        Wrote (OutputStreamWriter.ctor (neverAborts 1024)) z1.writer_ text ∧
        text.length + 1 ≤ HeapSnapshotJSONSerializer.SerializeNode.kBufferSize) ∧
    (∀ (edge : Nat) (first_edge : Bool) (e : HeapGraphEdge) (j : Nat),
      linkedFilled.edges_[edge]? = some e → EdgeLabelOk e → e.to_ = EdgeTarget.to_entry_ j →
      ∃ z1 text,
        HeapSnapshotJSONSerializer.SerializeEdge (fun i => (i : Int) * 6)
          (HeapSnapshotJSONSerializer.ctor linkedFilled ⟨none, []⟩ (neverAborts 1024))
          edge first_edge = some z1 ∧
        Wrote (OutputStreamWriter.ctor (neverAborts 1024)) z1.writer_ text ∧
        text.length + 1 ≤ HeapSnapshotJSONSerializer.SerializeEdge.kBufferSize) :=
  tuple_buffers_never_overflow (fun i => (i : Int) * 6)
    (HeapSnapshotJSONSerializer.ctor linkedFilled ⟨none, []⟩ (neverAborts 1024)) []
    (SerializerOk_ctor linkedFilled ⟨none, []⟩ (neverAborts 1024) (by decide)
      (neverAborts_never 1024))

/-! ### Strings of bytes below 128 -/

theorem escapeText_ascii (utf8 : Utf8) : ∀ (fuel : Nat) (s : List Char),
    (∀ c ∈ s, c ≠ Char.ofNat 0 ∧ c.toNat < 128) → s.length ≤ fuel →
    escapeText utf8 fuel s = s.flatMap escapeByte := by
  intro fuel
  induction fuel with
  | zero =>
    intro s _ hlen
    have : s = [] := List.length_eq_zero.mp (by omega)
    subst this
    rfl
  | succ fuel ih =>
    intro s hs hlen
    cases s with
    | nil => rfl
    | cons c s =>
      obtain ⟨h0, h128⟩ := hs c (List.mem_cons_self _ _)
      have he : escapeChar utf8 c s = (escapeByte c, s) := by
        unfold escapeChar
        rw [if_pos h128]
      rw [escapeText, if_neg h0, he, List.flatMap_cons]
      simp only
      rw [ih s (fun d hd => hs d (List.mem_cons_of_mem _ hd))
        (by simp only [List.length_cons] at hlen; omega)]

theorem jsonDecode_escapeByte (c : Char) (rest r : List Char) (h128 : c.toNat < 128)
    (hr : jsonDecode rest = some r) :
    jsonDecode (escapeByte c ++ rest) = some (c :: r) := by
  unfold escapeByte
  by_cases h1 : c = Char.ofNat 8
  · rw [if_pos h1, h1]
    exact (jsonDecode_escape 'b' rest r (by decide) hr).trans (by simp)
  rw [if_neg h1]
  by_cases h2 : c = Char.ofNat 12
  · rw [if_pos h2, h2]
    exact (jsonDecode_escape 'f' rest r (by decide) hr).trans (by simp)
  rw [if_neg h2]
  by_cases h3 : c = '\n'
  · rw [if_pos h3, h3]
    exact (jsonDecode_escape 'n' rest r (by decide) hr).trans (by simp)
  rw [if_neg h3]
  by_cases h4 : c = '\r'
  · rw [if_pos h4, h4]
    exact (jsonDecode_escape 'r' rest r (by decide) hr).trans (by simp)
  rw [if_neg h4]
  by_cases h5 : c = '\t'
  · rw [if_pos h5, h5]
    exact (jsonDecode_escape 't' rest r (by decide) hr).trans (by simp)
  rw [if_neg h5]
  by_cases h6 : c = '\"' ∨ c = '\\'
  · rw [if_pos h6]
    rcases h6 with h6 | h6
    · rw [h6]
      exact (jsonDecode_escape '\"' rest r (by decide) hr).trans (by simp)
    · rw [h6]
      exact (jsonDecode_escape '\\' rest r (by decide) hr).trans (by simp)
  rw [if_neg h6]
  by_cases h7 : c.toNat > 31
  · rw [if_pos h7]
    exact jsonDecode_plain c rest r (fun h => h6 (Or.inr h)) (fun h => h6 (Or.inl h))
      (by omega) hr
  · rw [if_neg h7]
    have h := jsonDecode_uEscape c.toNat rest r hr
    rw [Nat.mod_eq_of_lt (by omega), Char.ofNat_toNat] at h
    exact h

theorem jsonDecode_ascii : ∀ (s : List Char), (∀ c ∈ s, c.toNat < 128) →
    jsonDecode (s.flatMap escapeByte) = some s := by
  intro s
  induction s with
  | nil => intro _; rfl
  | cons c s ih =>
    intro hs
    rw [List.flatMap_cons]
    exact jsonDecode_escapeByte c _ s (hs c (List.mem_cons_self _ _))
      (ih (fun d hd => hs d (List.mem_cons_of_mem _ hd)))

/-- C38: `SerializeString` round-trips ASCII. For a string whose bytes are all below 128 (and
not NUL, which ends the string), on a writer that takes the text, `SerializeString` writes a
newline and a literal between two quotes; the literal is the text of each byte in turn: a
backslash before the quote and the backslash, the two-character escapes of backspace, form
feed, newline, carriage return and tab, the escape `u00XX` for every other byte below 32, and
the byte itself from 32 to 127; a JSON decoder reads the literal back as the string. -/
theorem SerializeString_round_trips_ascii (utf8 : Utf8) (z : HeapSnapshotJSONSerializer)
    (order : List String) (s : String) (h0 : SerializerOk z order)
    (hascii : ∀ c ∈ s.toList, c ≠ Char.ofNat 0 ∧ c.toNat < 128) :
    ∃ z1 literal, HeapSnapshotJSONSerializer.SerializeString utf8 z s.toList = some z1 ∧
      Wrote z.writer_ z1.writer_ ('\n' :: '\"' :: literal ++ ['\"']) ∧
      literal = s.toList.flatMap escapeByte ∧
      jsonDecode literal = some s.toList ∧
      escapeByte '\"' = ['\\', '\"'] ∧ escapeByte '\\' = ['\\', '\\'] ∧
      escapeByte (Char.ofNat 8) = ['\\', 'b'] ∧ escapeByte (Char.ofNat 12) = ['\\', 'f'] ∧
      escapeByte '\n' = ['\\', 'n'] ∧ escapeByte '\r' = ['\\', 'r'] ∧
      escapeByte '\t' = ['\\', 't'] ∧
      (∀ c : Char, c.toNat < 32 → c ≠ Char.ofNat 8 → c ≠ Char.ofNat 12 → c ≠ '\n' → c ≠ '\r' →
        c ≠ '\t' →
        escapeByte c = ['\\', 'u', '0', '0', hexDigit (c.toNat / 16), hexDigit c.toNat]) ∧
      (∀ c : Char, 32 ≤ c.toNat → c ≠ '\"' → c ≠ '\\' → escapeByte c = [c]) := by
  obtain ⟨z1, h1, e1⟩ := SerializeString_emits utf8 z order s
    (fun ⟨c, hc, h128⟩ => absurd (hascii c hc).2 (by omega)) h0
  have htext : escapeText utf8 s.toList.length s.toList = s.toList.flatMap escapeByte :=
    escapeText_ascii utf8 _ _ hascii (le_refl _)
  refine ⟨z1, _, h1, ?_, rfl, jsonDecode_ascii _ (fun c hc => (hascii c hc).2),
    by decide, by decide, by decide, by decide, by decide, by decide, by decide, ?_, ?_⟩
  · have := e1.wrote
    rw [stringText, htext] at this
    exact this
  · intro c h32 h8 h12 hn hr ht
    have hq : ¬ (c = '\"' ∨ c = '\\') := by
      rintro (h | h) <;> rw [h] at h32 <;> exact absurd h32 (by decide)
    unfold escapeByte
    rw [if_neg h8, if_neg h12, if_neg hn, if_neg hr, if_neg ht, if_neg hq, if_neg (by omega)]
    unfold uEscape
    have a1 : c.toNat / 4096 = 0 := Nat.div_eq_of_lt (by omega)
    have a2 : c.toNat / 256 = 0 := Nat.div_eq_of_lt (by omega)
    rw [a1, a2]
    rfl
  · intro c h32 hq hb
    have h8 : c ≠ Char.ofNat 8 := by rintro h; rw [h] at h32; exact absurd h32 (by decide)
    have h12 : c ≠ Char.ofNat 12 := by rintro h; rw [h] at h32; exact absurd h32 (by decide)
    have hn : c ≠ '\n' := by rintro h; rw [h] at h32; exact absurd h32 (by decide)
    have hr : c ≠ '\r' := by rintro h; rw [h] at h32; exact absurd h32 (by decide)
    have ht : c ≠ '\t' := by rintro h; rw [h] at h32; exact absurd h32 (by decide)
    unfold escapeByte
    rw [if_neg h8, if_neg h12, if_neg hn, if_neg hr, if_neg ht,
      if_neg (by rintro (h | h); exact hq h; exact hb h), if_pos (by omega)]

/-- The string of the bytes `a`, quote, `b`, backslash, newline and the byte 1. -/
theorem SerializeString_round_trips_ascii_witness :
    ∃ z1 literal, HeapSnapshotJSONSerializer.SerializeString noUtf8
        (HeapSnapshotJSONSerializer.ctor twoEntries ⟨none, []⟩ (neverAborts 1024))
        "a\"b\\\n\x01".toList = some z1 ∧
      Wrote (OutputStreamWriter.ctor (neverAborts 1024)) z1.writer_
        ('\n' :: '\"' :: literal ++ ['\"']) ∧
      literal = "a\\\"b\\\\\\n\\u0001".toList ∧
      jsonDecode literal = some "a\"b\\\n\x01".toList := by
  obtain ⟨z1, literal, h1, h2, h3, h4, _⟩ := SerializeString_round_trips_ascii noUtf8
    (HeapSnapshotJSONSerializer.ctor twoEntries ⟨none, []⟩ (neverAborts 1024)) []
    "a\"b\\\n\x01"
    (SerializerOk_ctor twoEntries ⟨none, []⟩ (neverAborts 1024) (by decide)
      (neverAborts_never 1024)) (by decide)
  exact ⟨z1, literal, h1, h2, h3.trans (by decide), h4⟩

theorem oneUtf8_ok : oneUtf8.Ok := by
  intro bytes h
  unfold oneUtf8 at h ⊢
  simp only at h ⊢
  by_cases hb : bytes = [Char.ofNat 240, Char.ofNat 159, Char.ofNat 152, Char.ofNat 128]
  · rw [if_pos hb]
    rw [hb]
    decide
  · rw [if_neg hb] at h
    exact absurd rfl h

/-- C35: the escape of a character that is not ASCII keeps the lower 16 bits only. When the
byte `c` is not below 128 and `CalculateValue` gives for the bytes from `c` on a character
`u` that is not `kBadChar`, with a cursor in the bytes, one round of the loop of
`SerializeString` writes backslash, `u` and four hexadecimal digits in upper case, the digits
of `u` modulo `2 ^ 16`, and goes on after the sequence; a JSON decoder reads the escape back
as the character `u % 65536`, which is `u` when `u < 65536` and another character for every
code point from U+10000 on. -/
theorem u_escape_keeps_low_16_bits (utf8 : Utf8) (w : OutputStreamWriter) (c : Char)
    (s : List Char) (u cursor : Nat) (hutf8 : utf8.Ok) (hw : WriterOk w)
    (hnever : w.stream_.NeverAborts) (hc : 128 ≤ c.toNat)
    (hdec : utf8.CalculateValue
      ((c :: s).take (HeapSnapshotJSONSerializer.SerializeString.length (c :: s) 5 1)) =
        (u, cursor))
    (hu : u ≠ utf8.kBadChar) :
    ∃ w1, HeapSnapshotJSONSerializer.SerializeStringChar utf8 w c s =
        some (w1, s.drop (cursor - 1)) ∧
      Wrote w w1 ['\\', 'u', hexDigit (u / 4096), hexDigit (u / 256), hexDigit (u / 16),
        hexDigit u] ∧
      jsonDecode ['\\', 'u', hexDigit (u / 4096), hexDigit (u / 256), hexDigit (u / 16),
        hexDigit u] = some [Char.ofNat (u % 65536)] ∧
      (u < 65536 → Char.ofNat (u % 65536) = Char.ofNat u) ∧
      (65536 ≤ u → u < 1114112 → Char.ofNat (u % 65536) ≠ Char.ofNat u) := by
  obtain ⟨w1, h1, e1, _⟩ := SerializeStringChar_wrote utf8 w c s (fun _ => hutf8) hw hnever
  have he : escapeChar utf8 c s = (uEscape u, s.drop (cursor - 1)) := by
    unfold escapeChar
    rw [if_neg (show ¬ c.toNat < 128 by omega), hdec, if_pos hu]
  rw [he] at h1 e1
  refine ⟨w1, h1, e1, ?_, ?_, ?_⟩
  · have := jsonDecode_uEscape u [] [] rfl
    rw [List.append_nil] at this
    exact this
  · intro h
    rw [Nat.mod_eq_of_lt h]
  · intro h1 h2 heq
    have a : (Char.ofNat u).toNat = u := by
      unfold Char.ofNat
      rw [dif_pos (Or.inr ⟨by omega, h2⟩)]
      rfl
    have hlt : u % 65536 < 65536 := Nat.mod_lt _ (by decide)
    have b : (Char.ofNat (u % 65536)).toNat ≤ u % 65536 := by
      unfold Char.ofNat
      split
      · exact le_refl _
      · exact Nat.zero_le _
    rw [heq, a] at b
    omega

/-- The name of the bytes F0 9F 98 80, the character U+1F600: the escape written has the
digits F600, which reads back as the character U+F600. -/
theorem u_escape_keeps_low_16_bits_witness :
    ∃ w1, HeapSnapshotJSONSerializer.SerializeStringChar oneUtf8
        (OutputStreamWriter.ctor (neverAborts 1024)) (Char.ofNat 240)
        [Char.ofNat 159, Char.ofNat 152, Char.ofNat 128] = some (w1, []) ∧
      Wrote (OutputStreamWriter.ctor (neverAborts 1024)) w1 ['\\', 'u', 'F', '6', '0', '0'] ∧
      jsonDecode ['\\', 'u', 'F', '6', '0', '0'] = some [Char.ofNat 62976] ∧
      Char.ofNat 62976 ≠ Char.ofNat 128512 := by
  obtain ⟨w1, h1, h2, h3, _, h5⟩ := u_escape_keeps_low_16_bits oneUtf8
    (OutputStreamWriter.ctor (neverAborts 1024)) (Char.ofNat 240)
    [Char.ofNat 159, Char.ofNat 152, Char.ofNat 128] 128512 4 oneUtf8_ok
    (ctor_ok (neverAborts 1024) (by decide)) (neverAborts_never 1024) (by decide) (by decide)
    (by decide)
  exact ⟨w1, h1, h2, h3, h5 (by decide) (by decide)⟩

/-! ### The finalised store and the document -/

theorem exists_related {α β : Type} (R : α → β → Prop) : ∀ (l : List α),
    (∀ a ∈ l, ∃ b, R a b) → ∃ bs, List.Forall₂ R l bs := by
  intro l
  induction l with
  | nil => intro _; exact ⟨[], List.Forall₂.nil⟩
  | cons a l ih =>
    intro h
    obtain ⟨b, hb⟩ := h a (List.mem_cons_self _ _)
    obtain ⟨bs, hbs⟩ := ih (fun x hx => h x (List.mem_cons_of_mem _ hx))
    exact ⟨b :: bs, List.Forall₂.cons hb hbs⟩

/-- After `FillChildren` on a store that keeps `StoreInv` and whose labels agree with the
kinds, `children()` is a sequence of as many edges as `edges()` holds, each with its label and
a target that is an entry of the snapshot. -/
theorem ChildrenAre_of_FillInv (s0 s2 : HeapSnapshot) (hinv : StoreInv s0)
    (h : FillInv s0 s0.edges_.length s2) (hlabels : ∀ e ∈ s0.edges_, EdgeLabelOk e) :
    ∃ es, ChildrenAre s2 es ∧ es.length = s2.children_.length ∧
      s2.children_.length = s2.edges_.length ∧
      List.Forall₂ (fun (p : Option Nat) (e : HeapGraphEdge) =>
        ∃ k j, p = some k ∧ s2.edges_[k]? = some e ∧ e.to_ = EdgeTarget.to_entry_ j ∧
          j < s2.entries_.length) s2.children_ es := by
  have hall : ∀ p ∈ s2.children_, ∃ e : HeapGraphEdge, ∃ k j, p = some k ∧
      s2.edges_[k]? = some e ∧ EdgeLabelOk e ∧ e.to_ = EdgeTarget.to_entry_ j ∧
      j < s2.entries_.length := by
    intro p hp
    obtain ⟨q, hq, hget⟩ := List.getElem_of_mem hp
    have hq0 : q < s0.edges_.length := by rw [← h.children_len]; exact hq
    obtain ⟨i, j, x, e0, _, _, hx, hc⟩ := FillInv_cover s0 s2 hinv h q hq0
    rw [List.getElem?_eq_getElem hq, hget] at hc
    have hxlt : x < s2.edges_.length := by
      have hmem := List.getElem?_mem hx
      unfold edgesFrom at hmem
      rw [List.mem_filter, List.mem_range] at hmem
      rw [h.edges_len]
      exact hmem.1
    obtain ⟨edge, t, he0, hto, ht, _, heq⟩ := FillInv_from s0 s2 hinv h x _
      (List.getElem?_eq_getElem hxlt)
    refine ⟨_, x, t, Option.some.inj hc, List.getElem?_eq_getElem hxlt, ?_, ?_, ?_⟩
    · rw [heq]
      exact hlabels edge (List.getElem?_mem he0)
    · rw [heq]
    · rw [h.entries_len]
      exact ht
  obtain ⟨es, hes⟩ := exists_related _ s2.children_ hall
  refine ⟨es, ?_, hes.length_eq.symm, by rw [h.children_len, h.edges_len], ?_⟩
  · exact hes.imp (fun p e ⟨k, j, h1, h2, h3, h4, _⟩ => ⟨k, j, h1, h2, h3, h4⟩)
  · exact hes.imp (fun p e ⟨k, j, h1, h2, _, h4, h5⟩ => ⟨k, j, h1, h2, h4, h5⟩)

/-- The result of `FillChildren` on a store built by the add calls. -/
theorem FillChildren_FillInv (s0 s : HeapSnapshot) (total : Nat) (hbuilt : Built s0)
    (hfill : HeapSnapshot.FillChildren s0 = some (total, s)) :
    FillInv s0 s0.edges_.length s := by
  obtain ⟨s2, h2, hf⟩ := FillChildren_spec s0 (Built_StoreInv s0 hbuilt)
  rw [hfill] at h2
  have : s = s2 := (Prod.mk.inj (Option.some.inj h2)).2
  rw [this]
  exact hf

theorem noUtf8_ok : noUtf8.Ok := fun _ h => absurd rfl h

theorem linkedEntries_labels : ∀ e ∈ linkedEntries.edges_, EdgeLabelOk e := by
  intro e he
  simp only [linkedEntries, List.mem_cons, List.mem_singleton, List.not_mem_nil, or_false] at he
  rcases he with rfl | rfl | rfl | rfl <;> simp [EdgeLabelOk]

theorem linkedFilled_fill : HeapSnapshot.FillChildren linkedEntries = some (4, linkedFilled) :=
  rfl

theorem intercalate_cons_eq (sep a : List Char) : ∀ (l : List (List Char)),
    List.intercalate sep (a :: l) = a ++ (l.map (fun x => sep ++ x)).flatten := by
  intro l
  induction l generalizing a with
  | nil => simp [List.intercalate]
  | cons b l ih =>
    have h := ih b
    simp only [List.intercalate, List.intersperse_cons_cons, List.flatten_cons, List.map_cons]
      at h ⊢
    rw [h, List.append_assoc]

theorem stringsText_elements (utf8 : Utf8) (order : List String) :
    stringsText utf8 order = List.intercalate [','] (stringsElements utf8 order) := by
  unfold stringsText stringsElements
  rw [intercalate_cons_eq, List.map_map]
  rfl

theorem stringsElements_getElem? (utf8 : Utf8) (order : List String) (s : String)
    (hs : s ∈ order) :
    (stringsElements utf8 order)[order.indexOf s + 1]? = some (stringText utf8 s) := by
  unfold stringsElements
  rw [List.getElem?_cons_succ, List.getElem?_map, List.getElem?_indexOf hs]
  rfl

theorem GetStringId_known (z : HeapSnapshotJSONSerializer) (order : List String) (s : String)
    (h : StringsAre z order) (hs : s ∈ order) : (z.GetStringId s).1 = order.indexOf s + 1 := by
  obtain ⟨h1, _⟩ := GetStringId_spec z order s h
  rw [h1]
  unfold intern
  rw [if_pos hs]

theorem mem_edgeNames_of_label : ∀ (es : List HeapGraphEdge) (e : HeapGraphEdge)
    (name : String), e ∈ es → e.label = EdgeLabel.name_ name → name ∈ edgeNames es := by
  intro es
  induction es with
  | nil => intro e name he; exact absurd he (List.not_mem_nil e)
  | cons x es ih =>
    intro e name he hl
    rcases List.mem_cons.mp he with rfl | he
    · rw [edgeNames, hl]
      exact List.mem_cons_self _ _
    · have := ih e name he hl
      rw [edgeNames]
      split
      · exact this
      · exact List.mem_cons_of_mem _ this

/-- The document that `Serialize` sends to a stream that never aborts, for a snapshot whose
`children()` are the edges `es`: the stream receives the sections in their order, the strings
after the nodes and the edges, and the string table holds the strings used, in the order of
their first use. -/
theorem Serialize_document (entry_index : Nat → Int) (utf8 : Utf8) (hutf8 : utf8.Ok)
    (s : HeapSnapshot) (profiler : HeapProfilerData) (stream : OutputStream)
    (es : List HeapGraphEdge) (hsize : 0 < stream.GetChunkSize) (hnever : stream.NeverAborts)
    (hedges : s.edges_.length < kUnsignedRange) (hf : ChildrenAre s es) :
    ∃ (z1 : HeapSnapshotJSONSerializer) (infos tree samples : List Char),
      HeapSnapshotJSONSerializer.Serialize entry_index utf8
        (HeapSnapshotJSONSerializer.ctor s profiler stream) stream = some z1 ∧
      received z1.writer_.calls =
        documentText (snapshotText s profiler)
          (nodesText entry_index 0 s.entries_ (firstUses (usedStrings s.entries_ es profiler)))
          (edgesText entry_index 0 es (firstUses (usedStrings s.entries_ es profiler)))
          infos tree samples
          (stringsText utf8 (firstUses (usedStrings s.entries_ es profiler))) ∧
      StringsAre z1 (firstUses (usedStrings s.entries_ es profiler)) := by
  obtain ⟨z1, w, infos, tree, samples, h1, hw, hwrote, hstr, _⟩ :=
    SerializeImpl_spec entry_index utf8 hutf8
      (HeapSnapshotJSONSerializer.ctor s profiler stream) [] es
      (SerializerOk_ctor s profiler stream hsize hnever) hedges hf
  refine ⟨z1, infos, tree, samples, h1, ?_, hstr⟩
  rw [hw, (Finalize_received w hwrote.ok).1, hwrote.written]
  have : (HeapSnapshotJSONSerializer.ctor s profiler stream).writer_.written = [] :=
    ctor_written stream
  rw [this, List.nil_append]
  rfl

/-- C25: every string index written resolves. For a store built by the add calls, with labels
that agree with the kinds, after `FillChildren`, `Serialize` on a stream that never aborts has
a result; the stream receives the document with the `strings` array after the nodes and the
edges; the array is the elements of `stringsElements` separated by commas: the dummy at the
position 0 and, at each position `i` from 1 to the number of interned strings, the literal of
the string `s` whose `GetStringId` index is `i`, so the array has that number of elements plus
one; and the index written for the name of every node and of every named edge of `children()`
is a position of the array that holds the literal of that name. -/
theorem strings_array_resolves_indexes (entry_index : Nat → Int) (utf8 : Utf8)
    (s0 s : HeapSnapshot) (total : Nat) (profiler : HeapProfilerData) (stream : OutputStream)
    (hutf8 : utf8.Ok) (hsize : 0 < stream.GetChunkSize) (hnever : stream.NeverAborts)
    (hbuilt : Built s0) (hlabels : ∀ e ∈ s0.edges_, EdgeLabelOk e)
    (hfill : HeapSnapshot.FillChildren s0 = some (total, s))
    (hedges : s0.edges_.length < kUnsignedRange) :
    ∃ (z1 : HeapSnapshotJSONSerializer) (es : List HeapGraphEdge) (order : List String)
      (infos tree samples : List Char),
      HeapSnapshotJSONSerializer.Serialize entry_index utf8
        (HeapSnapshotJSONSerializer.ctor s profiler stream) stream = some z1 ∧
      ChildrenAre s es ∧
      received z1.writer_.calls =
        documentText (snapshotText s profiler) (nodesText entry_index 0 s.entries_ order)
          (edgesText entry_index 0 es order) infos tree samples
          (List.intercalate [','] (stringsElements utf8 order)) ∧
      (stringsElements utf8 order).length = z1.strings_.occupancy + 1 ∧
      (stringsElements utf8 order)[0]? = some "\"<dummy>\"".toList ∧
      (∀ i, 1 ≤ i → i ≤ z1.strings_.occupancy → ∃ t : String, (z1.GetStringId t).1 = i ∧
        (z1.GetStringId t).2 = z1 ∧
        (stringsElements utf8 order)[i]? = some (stringText utf8 t)) ∧
      (∀ e ∈ s.entries_,
        nodeFields e (order.indexOf e.name_ + 1) =
          [e.type_.value, (order.indexOf e.name_ + 1) % kUnsignedRange, e.id_ % kUnsignedRange,
            e.self_size_ % 18446744073709551616, e.children_count_ % kUnsignedRange,
            e.trace_node_id_ % kUnsignedRange] ∧
        (z1.GetStringId e.name_).1 = order.indexOf e.name_ + 1 ∧
        (stringsElements utf8 order)[order.indexOf e.name_ + 1]? =
          some (stringText utf8 e.name_)) ∧
      (∀ e ∈ es, ∀ name, e.label = EdgeLabel.name_ name →
        (edgeFields entry_index order e)[1]? = some ((order.indexOf name + 1) % kUnsignedRange) ∧
        (z1.GetStringId name).1 = order.indexOf name + 1 ∧
        (stringsElements utf8 order)[order.indexOf name + 1]? = some (stringText utf8 name)) ∧
      (order.length < kUnsignedRange → ∀ t ∈ order,
        (order.indexOf t + 1) % kUnsignedRange = order.indexOf t + 1) := by
  have hinv := Built_StoreInv s0 hbuilt
  have hfi := FillChildren_FillInv s0 s total hbuilt hfill
  obtain ⟨es, hf, _, _, _⟩ := ChildrenAre_of_FillInv s0 s hinv hfi hlabels
  obtain ⟨z1, infos, tree, samples, h1, hdoc, hstr⟩ := Serialize_document entry_index utf8 hutf8
    s profiler stream es hsize hnever (by rw [hfi.edges_len]; exact hedges) hf
  have hocc : z1.strings_.occupancy =
      (firstUses (usedStrings s.entries_ es profiler)).length := by
    unfold StringsMap.occupancy
    rw [hstr.2.1, List.length_zip, List.length_range', Nat.min_self]
  have hknown : ∀ t, t ∈ firstUses (usedStrings s.entries_ es profiler) →
      (z1.GetStringId t).1 = (firstUses (usedStrings s.entries_ es profiler)).indexOf t + 1 ∧
      (z1.GetStringId t).2 = z1 := by
    intro t ht
    refine ⟨GetStringId_known z1 _ t hstr ht, ?_⟩
    have hlook := StringsMap_Lookup_zip (firstUses (usedStrings s.entries_ es profiler)) 1 t
    rw [← hstr.2.1, if_pos ht] at hlook
    unfold HeapSnapshotJSONSerializer.GetStringId StringsMap.LookupOrInsert
    rw [hlook]
    simp
  refine ⟨z1, es, firstUses (usedStrings s.entries_ es profiler), infos, tree, samples, h1, hf,
    ?_, ?_, by rw [stringsElements, List.getElem?_cons_zero], ?_, ?_, ?_, ?_⟩
  · rw [hdoc, stringsText_elements]
  · rw [hocc]
    simp [stringsElements]
  · intro i hi1 hi2
    rw [hocc] at hi2
    have hlt : i - 1 < (firstUses (usedStrings s.entries_ es profiler)).length := by omega
    have hmem := List.getElem_mem hlt
    have hidx := List.indexOf_getElem (firstUses_nodup (usedStrings s.entries_ es profiler))
      (i - 1) hlt
    obtain ⟨k1, k2⟩ := hknown _ hmem
    refine ⟨_, ?_, k2, ?_⟩
    · rw [k1, hidx]
      omega
    · have := stringsElements_getElem? utf8 _ _ hmem
      rw [hidx] at this
      have e : i - 1 + 1 = i := by omega
      rw [e] at this
      exact this
  · intro e he
    have hmem : e.name_ ∈ firstUses (usedStrings s.entries_ es profiler) := by
      rw [mem_firstUses]
      unfold usedStrings
      exact List.mem_append_left _ (List.mem_append_left _ (List.mem_map_of_mem _ he))
    exact ⟨rfl, (hknown _ hmem).1, stringsElements_getElem? utf8 _ _ hmem⟩
  · intro e he name hl
    have hmem : name ∈ firstUses (usedStrings s.entries_ es profiler) := by
      rw [mem_firstUses]
      unfold usedStrings
      exact List.mem_append_left _ (List.mem_append_right _
        (mem_edgeNames_of_label es e name he hl))
    refine ⟨?_, (hknown _ hmem).1, stringsElements_getElem? utf8 _ _ hmem⟩
    unfold edgeFields
    rw [hl]
    rfl
  · intro hlen t ht
    have := List.indexOf_lt_length.mpr ht
    exact Nat.mod_eq_of_lt (by omega)

/-- The document of the store `linkedFilled`. -/
theorem strings_array_resolves_indexes_witness :
    ∃ (z1 : HeapSnapshotJSONSerializer) (es : List HeapGraphEdge) (order : List String)
      (infos tree samples : List Char),
      HeapSnapshotJSONSerializer.Serialize nodeArrayIndex noUtf8
        (HeapSnapshotJSONSerializer.ctor linkedFilled ⟨none, []⟩ (neverAborts 1024))
        (neverAborts 1024) = some z1 ∧
      ChildrenAre linkedFilled es ∧
      received z1.writer_.calls =
        documentText (snapshotText linkedFilled ⟨none, []⟩)
          (nodesText nodeArrayIndex 0 linkedFilled.entries_ order)
          (edgesText nodeArrayIndex 0 es order) infos tree samples
          (List.intercalate [','] (stringsElements noUtf8 order)) ∧
      (stringsElements noUtf8 order).length = z1.strings_.occupancy + 1 := by
  obtain ⟨z1, es, order, infos, tree, samples, h1, h2, h3, h4, _⟩ :=
    strings_array_resolves_indexes nodeArrayIndex noUtf8 linkedEntries linkedFilled 4
      ⟨none, []⟩ (neverAborts 1024) noUtf8_ok (by decide) (neverAborts_never 1024)
      Built_linkedEntries linkedEntries_labels linkedFilled_fill (by decide)
  exact ⟨z1, es, order, infos, tree, samples, h1, h2, h3, h4⟩

/-- C26: the counts in the header match the streamed arrays. For a store built by the add
calls, with fewer than `2 ^ 32` entries and edges and labels that agree with the kinds, after
`FillChildren`, `Serialize` on a stream that never aborts has a result, and in the document the
stream receives the `node_count` is the numeral of `entries().size()`, which is the number of
the node tuples in `nodes`, and the `edge_count` is the numeral of `edges().size()`, which is
`children().size()`, the number of the edge tuples in `edges`. -/
theorem header_counts_match_arrays (entry_index : Nat → Int) (utf8 : Utf8)
    (s0 s : HeapSnapshot) (total : Nat) (profiler : HeapProfilerData) (stream : OutputStream)
    (hutf8 : utf8.Ok) (hsize : 0 < stream.GetChunkSize) (hnever : stream.NeverAborts)
    (hbuilt : Built s0) (hlabels : ∀ e ∈ s0.edges_, EdgeLabelOk e)
    (hfill : HeapSnapshot.FillChildren s0 = some (total, s))
    (hnodes : s0.entries_.length < kUnsignedRange)
    (hedges : s0.edges_.length < kUnsignedRange) :
    ∃ (z1 : HeapSnapshotJSONSerializer) (es : List HeapGraphEdge) (order : List String)
      (infos tree samples strings : List Char) (trace_function_count : Nat),
      HeapSnapshotJSONSerializer.Serialize entry_index utf8
        (HeapSnapshotJSONSerializer.ctor s profiler stream) stream = some z1 ∧
      received z1.writer_.calls =
        documentText
          ("\"meta\":".toList ++ HeapSnapshotJSONSerializer.metaText.toList ++
            ",\"node_count\":".toList ++ decimal s.entries_.length ++
            ",\"edge_count\":".toList ++ decimal s.edges_.length ++
            ",\"trace_function_count\":".toList ++ decimal trace_function_count)
          (nodeTuples entry_index 0 s.entries_ order).flatten
          (edgeTuples entry_index 0 es order).flatten infos tree samples strings ∧
      ChildrenAre s es ∧
      (nodeTuples entry_index 0 s.entries_ order).length = s.entries_.length ∧
      (edgeTuples entry_index 0 es order).length = s.children_.length ∧
      s.children_.length = s.edges_.length ∧
      parseDecimal (decimal s.entries_.length) =
        some (nodeTuples entry_index 0 s.entries_ order).length ∧
      parseDecimal (decimal s.edges_.length) =
        some (edgeTuples entry_index 0 es order).length := by
  have hinv := Built_StoreInv s0 hbuilt
  have hfi := FillChildren_FillInv s0 s total hbuilt hfill
  obtain ⟨es, hf, hlen, hce, _⟩ := ChildrenAre_of_FillInv s0 s hinv hfi hlabels
  obtain ⟨z1, infos, tree, samples, h1, hdoc, _⟩ := Serialize_document entry_index utf8 hutf8
    s profiler stream es hsize hnever (by rw [hfi.edges_len]; exact hedges) hf
  have hn : (nodeTuples entry_index 0 s.entries_
      (firstUses (usedStrings s.entries_ es profiler))).length = s.entries_.length := by
    simp [nodeTuples]
  have he : (edgeTuples entry_index 0 es
      (firstUses (usedStrings s.entries_ es profiler))).length = s.children_.length := by
    simp [edgeTuples, hlen]
  refine ⟨z1, es, firstUses (usedStrings s.entries_ es profiler), infos, tree, samples,
    stringsText utf8 (firstUses (usedStrings s.entries_ es profiler)),
    (match profiler.allocation_tracker with
      | some tracker => tracker.function_info_list.length % kUnsignedRange
      | none => 0),
    h1, ?_, hf, hn, he, hce, ?_, ?_⟩
  · rw [hdoc]
    unfold snapshotText
    rw [Nat.mod_eq_of_lt (by rw [hfi.entries_len]; exact hnodes)]
    rfl
  · rw [hn]
    exact parseDecimal_decimal _
  · rw [he, hce]
    exact parseDecimal_decimal _

/-- The document of the store `linkedFilled`: three nodes and four edges. -/
theorem header_counts_match_arrays_witness :
    ∃ (z1 : HeapSnapshotJSONSerializer) (es : List HeapGraphEdge) (order : List String)
      (infos tree samples strings : List Char) (trace_function_count : Nat),
      HeapSnapshotJSONSerializer.Serialize nodeArrayIndex noUtf8
        (HeapSnapshotJSONSerializer.ctor linkedFilled ⟨none, []⟩ (neverAborts 1024))
        (neverAborts 1024) = some z1 ∧
      received z1.writer_.calls =
        documentText
          ("\"meta\":".toList ++ HeapSnapshotJSONSerializer.metaText.toList ++
            ",\"node_count\":".toList ++ ['3'] ++
            ",\"edge_count\":".toList ++ ['4'] ++
            ",\"trace_function_count\":".toList ++ decimal trace_function_count)
          (nodeTuples nodeArrayIndex 0 linkedFilled.entries_ order).flatten
          (edgeTuples nodeArrayIndex 0 es order).flatten infos tree samples strings ∧
      (nodeTuples nodeArrayIndex 0 linkedFilled.entries_ order).length = 3 ∧
      (edgeTuples nodeArrayIndex 0 es order).length = 4 := by
  obtain ⟨z1, es, order, infos, tree, samples, strings, count, h1, h2, _, h4, h5, _⟩ :=
    header_counts_match_arrays nodeArrayIndex noUtf8 linkedEntries linkedFilled 4
      ⟨none, []⟩ (neverAborts 1024) noUtf8_ok (by decide) (neverAborts_never 1024)
      Built_linkedEntries linkedEntries_labels linkedFilled_fill (by decide) (by decide)
  exact ⟨z1, es, order, infos, tree, samples, strings, count, h1, h2, h4, h5⟩

/-! ### The array of numbers read back -/

theorem mem_intercalate (sep : List Char) (c : Char) : ∀ (l : List (List Char)),
    c ∈ List.intercalate sep l → c ∈ sep ∨ ∃ x ∈ l, c ∈ x := by
  intro l
  cases l with
  | nil => intro h; simp [List.intercalate] at h
  | cons a l =>
    intro h
    rw [intercalate_cons_eq, List.mem_append, List.mem_flatten] at h
    rcases h with h | ⟨y, hy, hc⟩
    · exact Or.inr ⟨a, List.mem_cons_self _ _, h⟩
    · obtain ⟨x, hx, rfl⟩ := List.mem_map.mp hy
      rcases List.mem_append.mp hc with hc | hc
      · exact Or.inl hc
      · exact Or.inr ⟨x, List.mem_cons_of_mem _ hx, hc⟩

theorem intercalate_append (sep : List Char) (a b : List (List Char)) (ha : a ≠ [])
    (hb : b ≠ []) :
    List.intercalate sep (a ++ b) =
      List.intercalate sep a ++ sep ++ List.intercalate sep b := by
  cases a with
  | nil => exact absurd rfl ha
  | cons x a =>
    cases b with
    | nil => exact absurd rfl hb
    | cons y b =>
      rw [List.cons_append, intercalate_cons_eq, intercalate_cons_eq, intercalate_cons_eq]
      simp [List.append_assoc]

theorem decimal_no_sep (n : Nat) (c : Char) (hc : c ∈ decimal n) : c ≠ ',' ∧ c ≠ '\n' := by
  obtain ⟨d, hd, rfl⟩ := decimal_digits n c hc
  have : d = 0 ∨ d = 1 ∨ d = 2 ∨ d = 3 ∨ d = 4 ∨ d = 5 ∨ d = 6 ∨ d = 7 ∨ d = 8 ∨ d = 9 := by
    omega
  rcases this with h | h | h | h | h | h | h | h | h | h <;> subst h <;> decide

/-- The newlines dropped from a tuple leave its numerals and commas. -/
theorem filter_tupleText (fields : List Nat) :
    (tupleText fields).filter (fun c => c ≠ '\n') =
      List.intercalate [','] (fields.map decimal) := by
  unfold tupleText
  rw [List.filter_append]
  have h1 : (List.intercalate [','] (fields.map decimal)).filter (fun c => c ≠ '\n') =
      List.intercalate [','] (fields.map decimal) := by
    rw [List.filter_eq_self]
    intro c hc
    rcases mem_intercalate _ c _ hc with h | ⟨x, hx, hcx⟩
    · rw [List.mem_singleton] at h
      rw [h]
      decide
    · obtain ⟨n, _, rfl⟩ := List.mem_map.mp hx
      have := (decimal_no_sep n c hcx).2
      simpa using this
  rw [h1]
  simp

theorem mapM_parseDecimal : ∀ (fields : List Nat),
    (fields.map decimal).mapM parseDecimal = some fields := by
  intro fields
  induction fields with
  | nil => rfl
  | cons n fields ih =>
    rw [List.map_cons, List.mapM_cons, parseDecimal_decimal, ih]
    rfl

/-- A text of numerals separated by commas reads back as the numbers. -/
theorem parseNumbers_intercalate (text : List Char) (fields : List Nat) (hne : fields ≠ [])
    (h : text.filter (fun c => c ≠ '\n') = List.intercalate [','] (fields.map decimal)) :
    parseNumbers text = some fields := by
  unfold parseNumbers
  rw [h]
  have hne2 : List.intercalate [','] (fields.map decimal) ≠ [] := by
    cases fields with
    | nil => exact absurd rfl hne
    | cons n fields =>
      rw [List.map_cons, intercalate_cons_eq]
      intro h0
      have := decimal_length_pos n
      have hl := congrArg List.length h0
      simp only [List.length_append, List.length_nil] at hl
      omega
  rw [if_neg hne2, List.splitOn_intercalate]
  · exact mapM_parseDecimal fields
  · intro l hl
    obtain ⟨n, _, rfl⟩ := List.mem_map.mp hl
    exact fun hc => (decimal_no_sep n _ hc).1 rfl
  · intro h0
    exact hne (List.map_eq_nil_iff.mp h0)

/-- The text of the nodes without the newlines: the numerals of all fields, separated by
commas, after a comma when the first node is not the node 0. -/
theorem filter_nodesText (entry_index : Nat → Int) (order : List String)
    (hidx : ∀ i, entry_index i = 0 ↔ i = 0) : ∀ (entries : List HeapEntry) (i : Nat),
    entries ≠ [] →
    (nodesText entry_index i entries order).filter (fun c => c ≠ '\n') =
      (if i = 0 then [] else [',']) ++
        List.intercalate [',']
          ((entries.flatMap (fun e => nodeFields e (order.indexOf e.name_ + 1))).map decimal) := by
  intro entries
  induction entries with
  | nil => intro i h; exact absurd rfl h
  | cons e rest ih =>
    intro i _
    rw [nodesText_cons, List.filter_append, List.filter_append, filter_tupleText,
      List.flatMap_cons]
    have hc : List.filter (fun c => decide (c ≠ '\n'))
        (if entry_index i ≠ 0 then [','] else []) = if i = 0 then [] else [','] := by
      by_cases hi : i = 0
      · rw [if_neg (by rw [ne_eq, not_not, hidx]; exact hi), if_pos hi]
        rfl
      · rw [if_pos (by rw [ne_eq, hidx]; exact hi), if_neg hi]
        rfl
    rw [hc]
    by_cases hrest : rest = []
    · subst hrest
      simp [nodesText]
    · rw [ih (i + 1) hrest, if_neg (Nat.succ_ne_zero i), List.map_append,
        intercalate_append]
      · simp [List.append_assoc]
      · simp [nodeFields]
      · cases rest with
        | nil => exact absurd rfl hrest
        | cons r rest => simp [nodeFields]

/-- The text of the nodes reads back as the flat list of the fields of all nodes. -/
theorem parseNumbers_nodesText (entry_index : Nat → Int) (order : List String)
    (hidx : ∀ i, entry_index i = 0 ↔ i = 0) (entries : List HeapEntry) :
    parseNumbers (nodesText entry_index 0 entries order) =
      some (entries.flatMap (fun e => nodeFields e (order.indexOf e.name_ + 1))) := by
  cases entries with
  | nil => rfl
  | cons e rest =>
    apply parseNumbers_intercalate
    · simp [nodeFields]
    · rw [filter_nodesText entry_index order hidx _ 0 (List.cons_ne_nil _ _)]
      rfl

theorem length_flatMap_nodeFields (order : List String) : ∀ (entries : List HeapEntry),
    (entries.flatMap (fun e => nodeFields e (order.indexOf e.name_ + 1))).length =
      HeapSnapshotJSONSerializer.kNodeFieldsCount * entries.length := by
  intro entries
  induction entries with
  | nil => rfl
  | cons e rest ih =>
    rw [List.flatMap_cons, List.length_append, ih, List.length_cons]
    simp only [nodeFields, List.length_cons, List.length_nil,
      HeapSnapshotJSONSerializer.kNodeFieldsCount]
    omega

theorem nodeArrayIndex_zero (i : Nat) : nodeArrayIndex i = 0 ↔ i = 0 := by
  unfold nodeArrayIndex HeapSnapshotJSONSerializer.kNodeFieldsCount
  omega

/-- With an `entry_index` that is 0 for the node 0 only, the text of the nodes has a comma
before every tuple but that of the node 0. -/
theorem nodesText_enum (entry_index : Nat → Int) (order : List String)
    (hidx : ∀ i, entry_index i = 0 ↔ i = 0) (entries : List HeapEntry) :
    nodesText entry_index 0 entries order =
      (entries.enum.map (fun ie =>
        (if ie.1 = 0 then [] else [',']) ++
          tupleText (nodeFields ie.2 (order.indexOf ie.2.name_ + 1)))).flatten := by
  unfold nodesText List.enum
  congr 1
  apply List.map_congr_left
  intro ie _
  by_cases hi : ie.1 = 0
  · rw [if_neg (by rw [ne_eq, not_not, hidx]; exact hi), if_pos hi]
  · rw [if_pos (by rw [ne_eq, hidx]; exact hi), if_neg hi]

theorem forall₂_mem_right {α β : Type} {R : α → β → Prop} : ∀ {l : List α} {bs : List β},
    List.Forall₂ R l bs → ∀ b ∈ bs, ∃ a ∈ l, R a b := by
  intro l bs h
  induction h with
  | nil => intro b hb; exact absurd hb (List.not_mem_nil b)
  | cons hab _ ih =>
    intro b hb
    rcases List.mem_cons.mp hb with rfl | hb
    · exact ⟨_, List.mem_cons_self _ _, hab⟩
    · obtain ⟨a, ha, hr⟩ := ih b hb
      exact ⟨a, List.mem_cons_of_mem _ ha, hr⟩

theorem edgesText_enum (entry_index : Nat → Int) (order : List String)
    (es : List HeapGraphEdge) :
    edgesText entry_index 0 es order =
      (es.enum.map (fun ie =>
        (if ie.1 = 0 then [] else [',']) ++
          tupleText (edgeFields entry_index order ie.2))).flatten := rfl

/-- C27: node tuples follow the declared layout. On a writer that takes the text, with an
`entry_index` that is 0 for the node 0 only, `SerializeNodes` has a result and writes, for the
nodes in the order of their indexes, a comma before every node but the node 0 and the tuple of
the node: `kNodeFieldsCount` = 6 decimal numerals separated by commas and ended by a newline,
of the type, the `GetStringId` index of the name, the id, the self size, the child count and
the trace node id, which is the order of `node_fields` at the start of the meta data; the text
reads back as the flat list of the fields of all nodes, 6 times the number of nodes. -/
theorem node_tuples_follow_layout (entry_index : Nat → Int) (z : HeapSnapshotJSONSerializer)
    (order : List String) (h0 : SerializerOk z order)
    (hidx : ∀ i, entry_index i = 0 ↔ i = 0) :
    ∃ (z1 : HeapSnapshotJSONSerializer) (order1 : List String),
      HeapSnapshotJSONSerializer.SerializeNodes entry_index z = some z1 ∧
      Wrote z.writer_ z1.writer_
        (z.snapshot_.entries_.enum.map (fun ie =>
          (if ie.1 = 0 then [] else [',']) ++
            tupleText (nodeFields ie.2 (order1.indexOf ie.2.name_ + 1)))).flatten ∧
      (∀ e ∈ z.snapshot_.entries_,
        (z1.GetStringId e.name_).1 = order1.indexOf e.name_ + 1 ∧
        nodeFields e (order1.indexOf e.name_ + 1) =
          [e.type_.value, (order1.indexOf e.name_ + 1) % kUnsignedRange, e.id_ % kUnsignedRange,
            e.self_size_ % 18446744073709551616, e.children_count_ % kUnsignedRange,
            e.trace_node_id_ % kUnsignedRange] ∧
        (nodeFields e (order1.indexOf e.name_ + 1)).length =
          HeapSnapshotJSONSerializer.kNodeFieldsCount ∧
        tupleText (nodeFields e (order1.indexOf e.name_ + 1)) =
          List.intercalate [','] ((nodeFields e (order1.indexOf e.name_ + 1)).map decimal) ++
            ['\n']) ∧
      HeapSnapshotJSONSerializer.kNodeFieldsCount = 6 ∧
      HeapSnapshotJSONSerializer.metaText.toList.take 76 =
        "\x7b\"node_fields\":[\"type\",\"name\",\"id\",\"self_size\",\"edge_count\",\"trace_node_id\"]".toList ∧
      parseNumbers (z.snapshot_.entries_.enum.map (fun ie =>
          (if ie.1 = 0 then [] else [',']) ++
            tupleText (nodeFields ie.2 (order1.indexOf ie.2.name_ + 1)))).flatten =
        some (z.snapshot_.entries_.flatMap
          (fun e => nodeFields e (order1.indexOf e.name_ + 1))) ∧
      (z.snapshot_.entries_.flatMap
          (fun e => nodeFields e (order1.indexOf e.name_ + 1))).length =
        6 * z.snapshot_.entries_.length := by
  obtain ⟨z1, h1, e1⟩ := SerializeNodes_spec entry_index z order h0
  refine ⟨z1, (z.snapshot_.entries_.map HeapEntry.name_).foldl intern order, h1, ?_, ?_, rfl,
    by decide, ?_, length_flatMap_nodeFields _ _⟩
  · rw [← nodesText_enum entry_index _ hidx]
    exact e1.wrote
  · intro e he
    refine ⟨?_, rfl, rfl, rfl⟩
    apply GetStringId_known z1 _ _ e1.strings
    rw [mem_foldl_intern]
    exact Or.inr (List.mem_map_of_mem _ he)
  · rw [← nodesText_enum entry_index _ hidx]
    exact parseNumbers_nodesText entry_index _ hidx _

/-- The nodes of the store `linkedFilled`. -/
theorem node_tuples_follow_layout_witness :
    ∃ (z1 : HeapSnapshotJSONSerializer) (order1 : List String),
      HeapSnapshotJSONSerializer.SerializeNodes nodeArrayIndex
        (HeapSnapshotJSONSerializer.ctor linkedFilled ⟨none, []⟩ (neverAborts 1024)) = some z1 ∧
      Wrote (OutputStreamWriter.ctor (neverAborts 1024)) z1.writer_
        (linkedFilled.entries_.enum.map (fun ie =>
          (if ie.1 = 0 then [] else [',']) ++
            tupleText (nodeFields ie.2 (order1.indexOf ie.2.name_ + 1)))).flatten ∧
      parseNumbers (linkedFilled.entries_.enum.map (fun ie =>
          (if ie.1 = 0 then [] else [',']) ++
            tupleText (nodeFields ie.2 (order1.indexOf ie.2.name_ + 1)))).flatten =
        some (linkedFilled.entries_.flatMap
          (fun e => nodeFields e (order1.indexOf e.name_ + 1))) := by
  obtain ⟨z1, order1, h1, h2, _, _, _, h6, _⟩ := node_tuples_follow_layout nodeArrayIndex
    (HeapSnapshotJSONSerializer.ctor linkedFilled ⟨none, []⟩ (neverAborts 1024)) []
    (SerializerOk_ctor linkedFilled ⟨none, []⟩ (neverAborts 1024) (by decide)
      (neverAborts_never 1024)) nodeArrayIndex_zero
  exact ⟨z1, order1, h1, h2, h6⟩

/-- C28: edge tuples follow the declared layout. For a store built by the add calls, with
labels that agree with the kinds, after `FillChildren`, on a writer that takes the text,
`SerializeEdges` has a result and writes, for the edges of `children()` in their order, a comma
before every edge but the first and the tuple of the edge: `kEdgeFieldsCount` = 3 decimal
numerals, of the kind, of the index when the kind is element or hidden and otherwise of the
`GetStringId` index of the name, and of `entry_index` of the target, which is an entry of the
snapshot; this is the order of `edge_fields` in the meta data. -/
theorem edge_tuples_follow_layout (entry_index : Nat → Int) (s0 s : HeapSnapshot) (total : Nat)
    (z : HeapSnapshotJSONSerializer) (order : List String) (hbuilt : Built s0)
    (hlabels : ∀ e ∈ s0.edges_, EdgeLabelOk e)
    (hfill : HeapSnapshot.FillChildren s0 = some (total, s)) (hz : z.snapshot_ = s)
    (h0 : SerializerOk z order) :
    ∃ (z1 : HeapSnapshotJSONSerializer) (es : List HeapGraphEdge) (order1 : List String),
      HeapSnapshotJSONSerializer.SerializeEdges entry_index z = some z1 ∧
      List.Forall₂ (fun (p : Option Nat) (e : HeapGraphEdge) =>
        ∃ k, p = some k ∧ s.edges_[k]? = some e) s.children_ es ∧
      Wrote z.writer_ z1.writer_
        (es.enum.map (fun ie =>
          (if ie.1 = 0 then [] else [',']) ++
            tupleText (edgeFields entry_index order1 ie.2))).flatten ∧
      (∀ e ∈ es,
        (edgeFields entry_index order1 e).length = HeapSnapshotJSONSerializer.kEdgeFieldsCount ∧
        (edgeFields entry_index order1 e)[0]? = some e.type.value ∧
        (e.type = HeapGraphEdgeType.kElement ∨ e.type = HeapGraphEdgeType.kHidden →
          ∃ index, e.label = EdgeLabel.index_ index ∧
            (edgeFields entry_index order1 e)[1]? = some (toUnsigned index)) ∧
        (¬ (e.type = HeapGraphEdgeType.kElement ∨ e.type = HeapGraphEdgeType.kHidden) →
          ∃ name, e.label = EdgeLabel.name_ name ∧
            (z1.GetStringId name).1 = order1.indexOf name + 1 ∧
            (edgeFields entry_index order1 e)[1]? =
              some ((order1.indexOf name + 1) % kUnsignedRange)) ∧
        (∃ j, e.to_ = EdgeTarget.to_entry_ j ∧ j < s.entries_.length ∧
          (edgeFields entry_index order1 e)[2]? = some (toUnsigned (entry_index j)))) ∧
      HeapSnapshotJSONSerializer.kEdgeFieldsCount = 3 ∧
      (HeapSnapshotJSONSerializer.metaText.toList.drop 286).take 48 =
        "\"edge_fields\":[\"type\",\"name_or_index\",\"to_node\"]".toList := by
  subst hz
  have hinv := Built_StoreInv s0 hbuilt
  have hfi := FillChildren_FillInv s0 z.snapshot_ total hbuilt hfill
  obtain ⟨es, hf, _, _, hto⟩ := ChildrenAre_of_FillInv s0 z.snapshot_ hinv hfi hlabels
  obtain ⟨z1, h1, e1⟩ := SerializeEdges_spec entry_index z order es h0 hf
  refine ⟨z1, es, (edgeNames es).foldl intern order, h1, ?_, ?_, ?_, rfl, by decide⟩
  · exact hf.imp (fun p e ⟨k, _, hp, hk, _⟩ => ⟨k, hp, hk⟩)
  · rw [← edgesText_enum]
    exact e1.wrote
  · intro e he
    obtain ⟨_, _, k, j, _, _, hlabel, _⟩ := forall₂_mem_right hf e he
    obtain ⟨_, _, k2, j2, _, _, hj, hjlt⟩ := forall₂_mem_right hto e he
    refine ⟨rfl, rfl, ?_, ?_, j2, hj, hjlt, ?_⟩
    · intro hk
      obtain ⟨index, hi⟩ := hlabel.mp hk
      refine ⟨index, hi, ?_⟩
      unfold edgeFields
      rw [hi]
      rfl
    · intro hk
      cases hl : e.label with
      | index_ index => exact absurd (hlabel.mpr ⟨index, hl⟩) hk
      | name_ name =>
        refine ⟨name, rfl, ?_, ?_⟩
        · apply GetStringId_known z1 _ _ e1.strings
          rw [mem_foldl_intern]
          exact Or.inr (mem_edgeNames_of_label es e name he hl)
        · unfold edgeFields
          rw [hl]
          rfl
    · unfold edgeFields
      rw [hj]
      rfl

/-- The edges of the store `linkedFilled`. -/
theorem edge_tuples_follow_layout_witness :
    ∃ (z1 : HeapSnapshotJSONSerializer) (es : List HeapGraphEdge) (order1 : List String),
      HeapSnapshotJSONSerializer.SerializeEdges nodeArrayIndex
        (HeapSnapshotJSONSerializer.ctor linkedFilled ⟨none, []⟩ (neverAborts 1024)) = some z1 ∧
      List.Forall₂ (fun (p : Option Nat) (e : HeapGraphEdge) =>
        ∃ k, p = some k ∧ linkedFilled.edges_[k]? = some e) linkedFilled.children_ es ∧
      Wrote (OutputStreamWriter.ctor (neverAborts 1024)) z1.writer_
        (es.enum.map (fun ie =>
          (if ie.1 = 0 then [] else [',']) ++
            tupleText (edgeFields nodeArrayIndex order1 ie.2))).flatten := by
  obtain ⟨z1, es, order1, h1, h2, h3, _⟩ := edge_tuples_follow_layout nodeArrayIndex
    linkedEntries linkedFilled 4
    (HeapSnapshotJSONSerializer.ctor linkedFilled ⟨none, []⟩ (neverAborts 1024)) []
    Built_linkedEntries linkedEntries_labels linkedFilled_fill rfl
    (SerializerOk_ctor linkedFilled ⟨none, []⟩ (neverAborts 1024) (by decide)
      (neverAborts_never 1024))
  exact ⟨z1, es, order1, h1, h2, h3⟩

theorem ite_fst_true {c : Prop} [Decidable c] {a : List ExtractRoutine}
    {x : Bool × List ExtractRoutine} (h : x.1 = true) :
    (if c then (true, a) else x).1 = true := by
  split
  · rfl
  · exact h

theorem extractor_pass1 (heap : Heap) (obj : Nat) :
    (V8HeapExplorer.ExtractReferencesPass1 heap obj).1 = !heap.IsFixedArray obj := by
  unfold V8HeapExplorer.ExtractReferencesPass1
  cases h : heap.IsFixedArray obj
  · rw [if_neg (by simp)]
    repeat apply ite_fst_true
    rfl
  · rfl

theorem extractor_pass2 (heap : Heap) (obj : Nat) :
    (V8HeapExplorer.ExtractReferencesPass2 heap obj).1 = heap.IsFixedArray obj := by
  unfold V8HeapExplorer.ExtractReferencesPass2
  cases heap.IsFixedArray obj
  · rfl
  · simp only [Bool.not_true, Bool.false_eq_true, if_false]
    split <;> rfl

theorem ite_routines {c : Prop} [Decidable c] {b : Bool} {a : List ExtractRoutine}
    {x : Bool × List ExtractRoutine}
    (ha : ∀ r ∈ a, r ≠ ExtractRoutine.ExtractContextReferences ∧
      r ≠ ExtractRoutine.ExtractFixedArrayReferences)
    (hx : ∀ r ∈ x.2, r ≠ ExtractRoutine.ExtractContextReferences ∧
      r ≠ ExtractRoutine.ExtractFixedArrayReferences) :
    ∀ r ∈ (if c then (b, a) else x).2, r ≠ ExtractRoutine.ExtractContextReferences ∧
      r ≠ ExtractRoutine.ExtractFixedArrayReferences := by
  split
  · exact ha
  · exact hx

/-- The first pass calls no routine of the second. -/
theorem pass1_routines (heap : Heap) (obj : Nat) :
    ∀ routine ∈ (V8HeapExplorer.ExtractReferencesPass1 heap obj).2,
      routine ≠ ExtractRoutine.ExtractContextReferences ∧
      routine ≠ ExtractRoutine.ExtractFixedArrayReferences := by
  unfold V8HeapExplorer.ExtractReferencesPass1
  repeat
    refine ite_routines ?_ ?_
    · intro r hr
      first
      | exact absurd hr (List.not_mem_nil _)
      | (rw [List.mem_singleton] at hr
         subst hr
         exact ⟨by decide, by decide⟩)
      | (rw [List.mem_append] at hr
         rcases hr with hr | hr
         · split_ifs at hr <;>
             first
             | exact absurd hr (List.not_mem_nil _)
             | (rw [List.mem_singleton] at hr
                subst hr
                exact ⟨by decide, by decide⟩)
         · rw [List.mem_singleton] at hr
           subst hr
           exact ⟨by decide, by decide⟩)
  intro r hr
  exact absurd hr (List.not_mem_nil _)

theorem count_filter_partition (p : Nat → Bool) (objects : List Nat) (obj : Nat) :
    (objects.filter (fun o => !p o)).count obj + (objects.filter p).count obj =
      objects.count obj := by
  cases h : p obj with
  | false =>
    have h1 : (objects.filter (fun o => !p o)).count obj = objects.count obj :=
      List.count_filter (by simp [h])
    have h2 : (objects.filter p).count obj = 0 := by
      apply List.count_eq_zero_of_not_mem
      intro hm
      rw [List.mem_filter, h] at hm
      exact absurd hm.2 (by simp)
    rw [h1, h2, Nat.add_zero]
  | true =>
    have h1 : (objects.filter p).count obj = objects.count obj := List.count_filter h
    have h2 : (objects.filter (fun o => !p o)).count obj = 0 := by
      apply List.count_eq_zero_of_not_mem
      intro hm
      rw [List.mem_filter] at hm
      simp [h] at hm
    rw [h1, h2, Nat.zero_add]

/-- A loop that is interrupted makes no call. -/
theorem SinglePassCallsLoop_interrupted (heap : Heap) (pass : Nat) :
    ∀ (objects : List Nat) (g : HeapSnapshotGenerator) (calls : List PassCall),
      (V8HeapExplorer.IterateAndExtractSinglePassCallsLoop heap pass objects true g calls).1 =
        true ∧
      (V8HeapExplorer.IterateAndExtractSinglePassCallsLoop heap pass objects true g calls).2.2 =
        calls := by
  intro objects
  induction objects with
  | nil => intro g calls; exact ⟨rfl, rfl⟩
  | cons obj objects ih =>
    intro g calls
    rw [V8HeapExplorer.IterateAndExtractSinglePassCallsLoop, if_pos rfl]
    exact ih _ _

/-- The generator goes through the loop with the calls as through the loop without. -/
theorem SinglePassCallsLoop_generator (heap : Heap) (pass : Nat) :
    ∀ (objects : List Nat) (interrupted : Bool) (g : HeapSnapshotGenerator)
      (calls : List PassCall),
      ((V8HeapExplorer.IterateAndExtractSinglePassCallsLoop heap pass objects interrupted g
          calls).1,
        (V8HeapExplorer.IterateAndExtractSinglePassCallsLoop heap pass objects interrupted g
          calls).2.1) =
        V8HeapExplorer.IterateAndExtractSinglePassLoop pass objects interrupted g := by
  intro objects
  induction objects with
  | nil => intro interrupted g calls; rfl
  | cons obj objects ih =>
    intro interrupted g calls
    rw [V8HeapExplorer.IterateAndExtractSinglePassCallsLoop,
      V8HeapExplorer.IterateAndExtractSinglePassLoop]
    cases interrupted with
    | true =>
      simp only [if_true]
      exact ih _ _ _
    | false =>
      simp only [Bool.false_eq_true, if_false]
      exact ih _ _ _

/-- A loop that is not interrupted makes the calls of the body for every object, in the
order of the objects. -/
theorem SinglePassCallsLoop_calls (heap : Heap) (pass : Nat) :
    ∀ (objects : List Nat) (g : HeapSnapshotGenerator) (calls : List PassCall),
      (V8HeapExplorer.IterateAndExtractSinglePassCallsLoop heap pass objects false g calls).1 =
        false →
      (V8HeapExplorer.IterateAndExtractSinglePassCallsLoop heap pass objects false g calls).2.2 =
        calls ++ objects.flatMap (V8HeapExplorer.IterateAndExtractSinglePassBody heap pass) := by
  intro objects
  induction objects with
  | nil =>
    intro g calls _
    simp [V8HeapExplorer.IterateAndExtractSinglePassCallsLoop]
  | cons obj objects ih =>
    intro g calls h
    rw [V8HeapExplorer.IterateAndExtractSinglePassCallsLoop] at h ⊢
    simp only [Bool.false_eq_true, if_false] at h ⊢
    cases hr : ((g.record (Event.ExtractReferences pass obj)).ProgressReport false).1 with
    | true =>
      rw [hr] at h
      simp only [if_true] at h ⊢
      rw [ih _ _ h, List.flatMap_cons, List.append_assoc]
    | false =>
      rw [hr] at h
      simp only [Bool.false_eq_true, if_false] at h
      rw [(SinglePassCallsLoop_interrupted heap pass objects _ _).1] at h
      exact absurd h (by decide)

theorem mem_body_iterate (heap : Heap) (pass a o : Nat) :
    PassCall.Iterate a ∈ V8HeapExplorer.IterateAndExtractSinglePassBody heap pass o ↔
      a = o ∧ (V8HeapExplorer.extractor pass heap o).1 = true := by
  unfold V8HeapExplorer.IterateAndExtractSinglePassBody
  cases h : (V8HeapExplorer.extractor pass heap o).1 <;> simp

theorem mem_body_extract (heap : Heap) (pass a o : Nat) (routine : ExtractRoutine) :
    PassCall.Extract routine a ∈ V8HeapExplorer.IterateAndExtractSinglePassBody heap pass o ↔
      a = o ∧ routine ∈ (V8HeapExplorer.extractor pass heap o).2 := by
  unfold V8HeapExplorer.IterateAndExtractSinglePassBody
  rw [List.mem_cons, List.mem_append, List.mem_map]
  constructor
  · rintro (h | ⟨r, hr, heq⟩ | h)
    · exact absurd h (by simp)
    · injection heq with h1 h2
      subst h1 h2
      exact ⟨rfl, hr⟩
    · split at h <;> simp at h
  · rintro ⟨rfl, hr⟩
    exact Or.inr (Or.inl ⟨routine, hr, rfl⟩)

theorem iterated_body (heap : Heap) (pass : Nat) : ∀ (objects : List Nat),
    (objects.flatMap (V8HeapExplorer.IterateAndExtractSinglePassBody heap pass)).filterMap
        PassCall.iterated =
      objects.filter (fun o => (V8HeapExplorer.extractor pass heap o).1) := by
  intro objects
  induction objects with
  | nil => rfl
  | cons o objects ih =>
    rw [List.flatMap_cons, List.filterMap_append, ih, List.filter_cons]
    have hb : (V8HeapExplorer.IterateAndExtractSinglePassBody heap pass o).filterMap
        PassCall.iterated = if (V8HeapExplorer.extractor pass heap o).1 = true then [o]
          else [] := by
      unfold V8HeapExplorer.IterateAndExtractSinglePassBody
      rw [List.filterMap_cons_none (by rfl), List.filterMap_append]
      have hm : ((V8HeapExplorer.extractor pass heap o).2.map
          (fun routine => PassCall.Extract routine o)).filterMap PassCall.iterated = [] := by
        rw [List.filterMap_eq_nil_iff]
        intro x hx
        obtain ⟨r, _, rfl⟩ := List.mem_map.mp hx
        rfl
      rw [hm, List.nil_append]
      split <;> rfl
    rw [hb]
    split <;> rfl

theorem count_iterate (obj : Nat) : ∀ (calls : List PassCall),
    calls.count (PassCall.Iterate obj) = (calls.filterMap PassCall.iterated).count obj := by
  intro calls
  induction calls with
  | nil => rfl
  | cons c calls ih =>
    cases c with
    | Iterate o =>
      rw [List.filterMap_cons_some (by rfl : PassCall.iterated (PassCall.Iterate o) = some o),
        List.count_cons, List.count_cons, ih]
      by_cases h : o = obj
      · simp [h]
      · simp [h]
    | GetEntry o =>
      rw [List.filterMap_cons_none (by rfl), List.count_cons, ih]
      simp
    | Extract r o =>
      rw [List.filterMap_cons_none (by rfl), List.count_cons, ih]
      simp
    | SetInternalReferenceMap o =>
      rw [List.filterMap_cons_none (by rfl), List.count_cons, ih]
      simp

/-- C29: the two passes partition the heap. For every object, `ExtractReferencesPass1`
returns true exactly when the object is not a FixedArray and `ExtractReferencesPass2` exactly
when it is one (a context is a FixedArray and gets `ExtractContextReferences`), so exactly one
of them returns true. When `IterateAndExtractReferences` returns true, for two iterators that
yield the same objects, each once, the calls of the loops are the bodies of the first pass
for all objects followed by the bodies of the second pass for all objects, and a body calls
the routines of its extractor and, only when the extractor returned true, sets the reference
to the map and sweeps the slots of the object. So the slots are swept in the first pass for
the objects that are not FixedArrays, in their order, and then in the second pass for the
FixedArrays; the references of every object are extracted exactly once, and those of a
FixedArray after those of every object that is not a FixedArray. -/
theorem passes_partition_heap (heap : Heap) (objects : List Nat) (g : HeapSnapshotGenerator)
    (hnodup : objects.Nodup)
    (hrun : (V8HeapExplorer.IterateAndExtractReferencesCalls heap objects objects g).1 = true) :
    (∀ obj, (V8HeapExplorer.ExtractReferencesPass1 heap obj).1 = (!heap.IsFixedArray obj) ∧
      (V8HeapExplorer.ExtractReferencesPass2 heap obj).1 = heap.IsFixedArray obj ∧
      ((V8HeapExplorer.ExtractReferencesPass1 heap obj).1 = true ↔
        ¬ (V8HeapExplorer.ExtractReferencesPass2 heap obj).1 = true) ∧
      (heap.IsFixedArray obj = true → heap.IsContext obj = true →
        V8HeapExplorer.ExtractReferencesPass2 heap obj =
          (true, [ExtractRoutine.ExtractContextReferences])) ∧
      (heap.IsFixedArray obj = true → heap.IsContext obj = false →
        V8HeapExplorer.ExtractReferencesPass2 heap obj =
          (true, [ExtractRoutine.ExtractFixedArrayReferences])) ∧
      (heap.IsFixedArray obj = true →
        V8HeapExplorer.ExtractReferencesPass1 heap obj = (false, [])) ∧
      (heap.IsFixedArray obj = false →
        V8HeapExplorer.ExtractReferencesPass2 heap obj = (false, [])) ∧
      (∀ routine ∈ (V8HeapExplorer.ExtractReferencesPass1 heap obj).2,
        routine ≠ ExtractRoutine.ExtractContextReferences ∧
        routine ≠ ExtractRoutine.ExtractFixedArrayReferences) ∧
      (heap.IsFixedArray obj = false → heap.IsJSGlobalProxy obj = false →
        heap.IsJSArrayBuffer obj = false → heap.IsJSObject obj = true →
        ExtractRoutine.ExtractJSObjectReferences ∈
          (V8HeapExplorer.ExtractReferencesPass1 heap obj).2)) ∧
    ((V8HeapExplorer.IterateAndExtractReferencesCalls heap objects objects g).1,
      (V8HeapExplorer.IterateAndExtractReferencesCalls heap objects objects g).2.1) =
      V8HeapExplorer.IterateAndExtractReferences objects objects g ∧
    ∃ calls : List PassCall,
      (V8HeapExplorer.IterateAndExtractReferencesCalls heap objects objects g).2.2 = calls ∧
      calls = objects.flatMap (V8HeapExplorer.IterateAndExtractSinglePassBody heap 1) ++
        objects.flatMap (V8HeapExplorer.IterateAndExtractSinglePassBody heap 2) ∧
      calls.filterMap PassCall.iterated =
        objects.filter (fun obj => !heap.IsFixedArray obj) ++
        objects.filter (fun obj => heap.IsFixedArray obj) ∧
      (∀ obj ∈ objects, calls.count (PassCall.Iterate obj) = 1) ∧
      (∀ (i j a b : Nat), calls[i]? = some (PassCall.Iterate a) →
        calls[j]? = some (PassCall.Iterate b) → heap.IsFixedArray a = false →
        heap.IsFixedArray b = true → i < j) ∧
      (∀ (routine : ExtractRoutine) (obj : Nat), PassCall.Extract routine obj ∈ calls ↔
        obj ∈ objects ∧ (routine ∈ (V8HeapExplorer.ExtractReferencesPass1 heap obj).2 ∨
          routine ∈ (V8HeapExplorer.ExtractReferencesPass2 heap obj).2)) := by
  have hgen1 := SinglePassCallsLoop_generator heap 1 objects false
    (g.record Event.RootReferences) []
  have hp1 : (V8HeapExplorer.IterateAndExtractSinglePassCallsLoop heap 1 objects false
      (g.record Event.RootReferences) []).1 = false := by
    cases h : (V8HeapExplorer.IterateAndExtractSinglePassCallsLoop heap 1 objects false
      (g.record Event.RootReferences) []).1 with
    | false => rfl
    | true =>
      simp [V8HeapExplorer.IterateAndExtractReferencesCalls,
        V8HeapExplorer.IterateAndExtractSinglePassCalls, h] at hrun
  have hgen2 := SinglePassCallsLoop_generator heap 2 objects false
    (V8HeapExplorer.IterateAndExtractSinglePassCallsLoop heap 1 objects false
      (g.record Event.RootReferences) []).2.1
    (V8HeapExplorer.IterateAndExtractSinglePassCallsLoop heap 1 objects false
      (g.record Event.RootReferences) []).2.2
  have hp2 : (V8HeapExplorer.IterateAndExtractSinglePassCallsLoop heap 2 objects false
      (V8HeapExplorer.IterateAndExtractSinglePassCallsLoop heap 1 objects false
        (g.record Event.RootReferences) []).2.1
      (V8HeapExplorer.IterateAndExtractSinglePassCallsLoop heap 1 objects false
        (g.record Event.RootReferences) []).2.2).1 = false := by
    cases h : (V8HeapExplorer.IterateAndExtractSinglePassCallsLoop heap 2 objects false
      (V8HeapExplorer.IterateAndExtractSinglePassCallsLoop heap 1 objects false
        (g.record Event.RootReferences) []).2.1
      (V8HeapExplorer.IterateAndExtractSinglePassCallsLoop heap 1 objects false
        (g.record Event.RootReferences) []).2.2).1 with
    | false => rfl
    | true =>
      simp [V8HeapExplorer.IterateAndExtractReferencesCalls,
        V8HeapExplorer.IterateAndExtractSinglePassCalls, hp1, h] at hrun
  have hc1 := SinglePassCallsLoop_calls heap 1 objects (g.record Event.RootReferences) [] hp1
  have hc2 := SinglePassCallsLoop_calls heap 2 objects _ _ hp2
  have hcalls : (V8HeapExplorer.IterateAndExtractReferencesCalls heap objects objects g).2.2 =
      objects.flatMap (V8HeapExplorer.IterateAndExtractSinglePassBody heap 1) ++
        objects.flatMap (V8HeapExplorer.IterateAndExtractSinglePassBody heap 2) := by
    simp only [V8HeapExplorer.IterateAndExtractReferencesCalls,
      V8HeapExplorer.IterateAndExtractSinglePassCalls, hp1, hp2, Bool.false_eq_true, if_false]
    rw [hc2, hc1, List.nil_append]
  have hgen : ((V8HeapExplorer.IterateAndExtractReferencesCalls heap objects objects g).1,
      (V8HeapExplorer.IterateAndExtractReferencesCalls heap objects objects g).2.1) =
      V8HeapExplorer.IterateAndExtractReferences objects objects g := by
    have e1 := congrArg Prod.fst hgen1
    have e2 := congrArg Prod.snd hgen1
    have e3 := congrArg Prod.fst hgen2
    have e4 := congrArg Prod.snd hgen2
    simp only at e1 e2 e3 e4
    have c1 : (V8HeapExplorer.IterateAndExtractSinglePassLoop 1 objects false
        (g.record Event.RootReferences)).1 = false := by
      rw [← e1]
      exact hp1
    have c2 : (V8HeapExplorer.IterateAndExtractSinglePassLoop 2 objects false
        (V8HeapExplorer.IterateAndExtractSinglePassLoop 1 objects false
          (g.record Event.RootReferences)).2).1 = false := by
      rw [← e2, ← e3]
      exact hp2
    have hrhs : V8HeapExplorer.IterateAndExtractReferences objects objects g =
        (V8HeapExplorer.IterateAndExtractSinglePassLoop 2 objects false
          (V8HeapExplorer.IterateAndExtractSinglePassLoop 1 objects false
            (g.record Event.RootReferences)).2).2.ProgressReport true := by
      simp [V8HeapExplorer.IterateAndExtractReferences,
        V8HeapExplorer.IterateAndExtractSinglePass, c1, c2]
    have hlhs : V8HeapExplorer.IterateAndExtractReferencesCalls heap objects objects g =
        (((V8HeapExplorer.IterateAndExtractSinglePassCallsLoop heap 2 objects false
          (V8HeapExplorer.IterateAndExtractSinglePassCallsLoop heap 1 objects false
            (g.record Event.RootReferences) []).2.1
          (V8HeapExplorer.IterateAndExtractSinglePassCallsLoop heap 1 objects false
            (g.record Event.RootReferences) []).2.2).2.1.ProgressReport true).1,
         ((V8HeapExplorer.IterateAndExtractSinglePassCallsLoop heap 2 objects false
          (V8HeapExplorer.IterateAndExtractSinglePassCallsLoop heap 1 objects false
            (g.record Event.RootReferences) []).2.1
          (V8HeapExplorer.IterateAndExtractSinglePassCallsLoop heap 1 objects false
            (g.record Event.RootReferences) []).2.2).2.1.ProgressReport true).2,
         (V8HeapExplorer.IterateAndExtractSinglePassCallsLoop heap 2 objects false
          (V8HeapExplorer.IterateAndExtractSinglePassCallsLoop heap 1 objects false
            (g.record Event.RootReferences) []).2.1
          (V8HeapExplorer.IterateAndExtractSinglePassCallsLoop heap 1 objects false
            (g.record Event.RootReferences) []).2.2).2.2) := by
      simp only [V8HeapExplorer.IterateAndExtractReferencesCalls,
        V8HeapExplorer.IterateAndExtractSinglePassCalls, hp1, hp2, Bool.false_eq_true,
        if_false]
    rw [hlhs, hrhs]
    simp only
    rw [e4, e2]
  have hf1 : (fun obj => (V8HeapExplorer.extractor 1 heap obj).1) =
      (fun obj => !heap.IsFixedArray obj) := by
    funext obj
    exact extractor_pass1 heap obj
  have hf2 : (fun obj => (V8HeapExplorer.extractor 2 heap obj).1) =
      (fun obj => heap.IsFixedArray obj) := by
    funext obj
    exact extractor_pass2 heap obj
  have hit : (objects.flatMap (V8HeapExplorer.IterateAndExtractSinglePassBody heap 1) ++
      objects.flatMap (V8HeapExplorer.IterateAndExtractSinglePassBody heap 2)).filterMap
        PassCall.iterated =
      objects.filter (fun obj => !heap.IsFixedArray obj) ++
        objects.filter (fun obj => heap.IsFixedArray obj) := by
    rw [List.filterMap_append, iterated_body, iterated_body, hf1, hf2]
  refine ⟨?_, hgen, _, hcalls, rfl, hit, ?_, ?_, ?_⟩
  · intro obj
    refine ⟨extractor_pass1 heap obj, extractor_pass2 heap obj, ?_, ?_, ?_, ?_, ?_,
      pass1_routines heap obj, ?_⟩
    · rw [extractor_pass1, extractor_pass2]
      cases heap.IsFixedArray obj <;> simp
    · intro h1 h2
      simp [V8HeapExplorer.ExtractReferencesPass2, h1, h2]
    · intro h1 h2
      simp [V8HeapExplorer.ExtractReferencesPass2, h1, h2]
    · intro h1
      simp [V8HeapExplorer.ExtractReferencesPass1, h1]
    · intro h1
      simp [V8HeapExplorer.ExtractReferencesPass2, h1]
    · intro h1 h2 h3 h4
      simp [V8HeapExplorer.ExtractReferencesPass1, h1, h2, h3, h4]
  · intro obj hobj
    rw [count_iterate, hit, List.count_append,
      count_filter_partition (fun o => heap.IsFixedArray o) objects obj]
    exact List.count_eq_one_of_mem hnodup hobj
  · intro i j a b hi hj ha hb
    by_contra hij
    have hlen : (objects.flatMap (V8HeapExplorer.IterateAndExtractSinglePassBody heap
        1)).length ≤ i ∨ j < (objects.flatMap
          (V8HeapExplorer.IterateAndExtractSinglePassBody heap 1)).length := by omega
    rcases hlen with hlen | hlen
    · rw [List.getElem?_append_right hlen] at hi
      have hm := List.getElem?_mem hi
      obtain ⟨o, _, ho⟩ := List.mem_flatMap.mp hm
      obtain ⟨rfl, hx⟩ := (mem_body_iterate heap 2 a o).mp ho
      have := extractor_pass2 heap a
      change (V8HeapExplorer.extractor 2 heap a).1 = _ at this
      rw [hx, ha] at this
      exact absurd this (by decide)
    · rw [List.getElem?_append_left hlen] at hj
      have hm := List.getElem?_mem hj
      obtain ⟨o, _, ho⟩ := List.mem_flatMap.mp hm
      obtain ⟨rfl, hx⟩ := (mem_body_iterate heap 1 b o).mp ho
      have := extractor_pass1 heap b
      change (V8HeapExplorer.extractor 1 heap b).1 = _ at this
      rw [hx, hb] at this
      exact absurd this (by decide)
  · intro routine obj
    rw [List.mem_append, List.mem_flatMap, List.mem_flatMap]
    constructor
    · rintro (⟨o, ho, hm⟩ | ⟨o, ho, hm⟩)
      · obtain ⟨rfl, hx⟩ := (mem_body_extract heap 1 obj o routine).mp hm
        exact ⟨ho, Or.inl hx⟩
      · obtain ⟨rfl, hx⟩ := (mem_body_extract heap 2 obj o routine).mp hm
        exact ⟨ho, Or.inr hx⟩
    · rintro ⟨ho, hx | hx⟩
      · exact Or.inl ⟨obj, ho, (mem_body_extract heap 1 obj obj routine).mpr ⟨rfl, hx⟩⟩
      · exact Or.inr ⟨obj, ho, (mem_body_extract heap 2 obj obj routine).mpr ⟨rfl, hx⟩⟩

/-- The two passes over the objects 1, 2 and 3 of `smallHeap`, without a control: the
slots of the object 1 are swept in the first pass, those of the fixed array 2 and of the
context 3 in the second. -/
theorem passes_partition_heap_witness :
    ∃ calls : List PassCall,
      (V8HeapExplorer.IterateAndExtractReferencesCalls smallHeap [1, 2, 3] [1, 2, 3]
        ⟨none, 0, 0, []⟩).2.2 = calls ∧
      calls.filterMap PassCall.iterated = [1, 2, 3] :=
  match (passes_partition_heap smallHeap [1, 2, 3] ⟨none, 0, 0, []⟩ (by decide)
    (by decide)).2.2 with
  | ⟨calls, h1, _, h3, _⟩ => ⟨calls, h1, h3.trans (by decide)⟩

/-! ### The references that the explorer sets -/

theorem Stepped_refl (x : V8HeapExplorer) (h : MapInRange x.filler_) : Stepped x x [] :=
  ⟨h, (List.append_nil _).symm, fun _ _ h => h, rfl, le_refl _, fun _ _ h => h⟩

theorem Stepped_trans {x x1 x2 : V8HeapExplorer} {a b : List HeapGraphEdge}
    (h1 : Stepped x x1 a) (h2 : Stepped x1 x2 b) : Stepped x x2 (a ++ b) := by
  refine ⟨h2.map, by rw [h2.edges, h1.edges, List.append_assoc],
    fun q t h => h2.lookups q t (h1.lookups q t h), h2.array_types.trans h1.array_types,
    le_trans h1.entries_len h2.entries_len, ?_⟩
  intro i e he
  have := h2.entries i _ (h1.entries i e he)
  rw [this, List.filter_append, List.length_append]
  simp only [Nat.add_assoc]

/-- `GetEntry` of a value that is not a heap object does nothing; of a heap object it gives
the entry of the object, which is added when there was none. -/
theorem GetEntry_step (heap : Heap) (allocator : HeapEntriesAllocator) (x : V8HeapExplorer)
    (child_obj : Nat) (hmap : MapInRange x.filler_) :
    (heap.IsHeapObject child_obj = false → x.GetEntry heap allocator child_obj = (none, x)) ∧
    (heap.IsHeapObject child_obj = true →
      ∃ t, (x.GetEntry heap allocator child_obj).1 = some t ∧
        HashMap.Lookup (x.GetEntry heap allocator child_obj).2.filler_.entries_ child_obj =
          some t ∧
        t < (x.GetEntry heap allocator child_obj).2.filler_.snapshot_.entries_.length ∧
        Stepped x (x.GetEntry heap allocator child_obj).2 [] ∧
        (x.GetEntry heap allocator child_obj).2.marks_ = x.marks_) := by
  constructor
  · intro h
    unfold V8HeapExplorer.GetEntry
    rw [h]
    rfl
  · intro h
    have hg : x.GetEntry heap allocator child_obj =
        (some (x.filler_.FindOrAddEntry child_obj allocator).1,
          { x with filler_ := (x.filler_.FindOrAddEntry child_obj allocator).2 }) := by
      unfold V8HeapExplorer.GetEntry
      rw [h]
      rfl
    rw [hg]
    rcases Filler_FindOrAddEntry_cases x.filler_ child_obj allocator with
      ⟨entry, hl, hf⟩ | ⟨hl, hf⟩
    · rw [hf]
      exact ⟨entry, rfl, hl, hmap child_obj entry hl, Stepped_refl x hmap, rfl⟩
    · rw [hf]
      have hm : (x.filler_.AddEntry child_obj allocator).2.entries_ =
          HeapEntriesMap.Pair x.filler_.entries_ child_obj x.filler_.snapshot_.entries_.length :=
        rfl
      have he : (x.filler_.AddEntry child_obj allocator).2.snapshot_.entries_ =
          x.filler_.snapshot_.entries_ ++ [⟨(allocator child_obj).type, 0, -1,
            (allocator child_obj).size, (allocator child_obj).name, (allocator child_obj).id,
            (allocator child_obj).trace_node_id⟩] := rfl
      refine ⟨x.filler_.snapshot_.entries_.length, rfl, ?_, ?_, ?_, rfl⟩
      · show HashMap.Lookup (x.filler_.AddEntry child_obj allocator).2.entries_ child_obj = _
        rw [hm, Lookup_Pair, if_pos rfl]
      · show _ < (x.filler_.AddEntry child_obj allocator).2.snapshot_.entries_.length
        rw [he, List.length_append, List.length_singleton]
        omega
      · refine ⟨MapInRange_AddEntry x.filler_ hmap child_obj allocator,
          (List.append_nil _).symm, ?_, rfl, ?_, ?_⟩
        · intro q t hq
          show HashMap.Lookup (x.filler_.AddEntry child_obj allocator).2.entries_ q = _
          rw [hm, Lookup_Pair]
          by_cases hqc : q = child_obj
          · rw [hqc, hl] at hq
            exact absurd hq (by simp)
          · rw [if_neg hqc]
            exact hq
        · show _ ≤ (x.filler_.AddEntry child_obj allocator).2.snapshot_.entries_.length
          rw [he, List.length_append]
          omega
        · intro i e hi
          show (x.filler_.AddEntry child_obj allocator).2.snapshot_.entries_[i]? = _
          rw [he, List.getElem?_append_left (lt_length_of_getElem? hi), hi]
          rfl

/-- One edge added by the Filler is a step of the explorer. -/
theorem Stepped_AddsEdge (x : V8HeapExplorer) (f1 : SnapshotFiller) (edge : HeapGraphEdge)
    (hmap : MapInRange x.filler_) (hentries : f1.entries_ = x.filler_.entries_)
    (hadd : AddsEdge x.filler_.snapshot_ f1.snapshot_ edge) :
    Stepped x { x with filler_ := f1 } [edge] := by
  obtain ⟨h1, h2, ⟨e0, he0, he1⟩, h4, _⟩ := AddsEdge_frame _ _ _ hadd
  refine ⟨?_, h1, ?_, rfl, le_of_eq h2.symm, ?_⟩
  · intro thing v hv
    show v < f1.snapshot_.entries_.length
    rw [h2]
    exact hmap thing v (by rw [← hentries]; exact hv)
  · intro q t hq
    show HashMap.Lookup f1.entries_ q = some t
    rw [hentries]
    exact hq
  · intro i e hi
    show f1.snapshot_.entries_[i]? = _
    by_cases hf : edge.from_index = i
    · subst hf
      rw [he0] at hi
      cases hi
      rw [he1]
      simp
    · rw [h4 i (Ne.symm hf), hi]
      simp [hf]

theorem IsEssentialObject_heap (heap : Heap) (object : Nat)
    (h : V8HeapExplorer.IsEssentialObject heap object = true) :
    heap.IsHeapObject object = true := by
  unfold V8HeapExplorer.IsEssentialObject at h
  simp only [Bool.and_eq_true] at h
  exact h.1.1.1.1.1.1.1.1.1.1.1

theorem MarkVisitedField_step (heap : Heap) (x : V8HeapExplorer) (offset : Int)
    (hmark : offset < 0 ∨ (offset / (heap.kPointerSize : Int)).toNat < x.marks_.length) :
    ∃ x1, x.MarkVisitedField heap offset = some x1 ∧ x1.filler_ = x.filler_ ∧
      x1.array_types_ = x.array_types_ ∧
      x1.marks_ = if 0 ≤ offset then
        x.marks_.set (offset / (heap.kPointerSize : Int)).toNat true else x.marks_ := by
  unfold V8HeapExplorer.MarkVisitedField
  by_cases h : offset < 0
  · rw [if_pos h]
    exact ⟨x, rfl, rfl, rfl, by rw [if_neg (by omega)]⟩
  · rw [if_neg h]
    rcases hmark with h2 | h2
    · exact absurd h2 h
    · rw [if_pos h2]
      exact ⟨_, rfl, rfl, rfl, by rw [if_pos (by omega)]⟩

theorem Stepped_marks {x x1 x2 : V8HeapExplorer} {new : List HeapGraphEdge}
    (h : Stepped x x1 new) (hf : x2.filler_ = x1.filler_)
    (ha : x2.array_types_ = x1.array_types_) : Stepped x x2 new :=
  ⟨by rw [hf]; exact h.map, by rw [hf]; exact h.edges,
    by rw [hf]; exact h.lookups, ha.trans h.array_types,
    by rw [hf]; exact h.entries_len, by rw [hf]; exact h.entries⟩

/-- The part that `SetInternalReference` and `SetWeakReference` share: it has a result, adds
the edge of `fieldEdges`, and marks the field when the child is a heap object. -/
theorem SetNamedFieldReference_step (heap : Heap) (allocator : HeapEntriesAllocator)
    (type : HeapGraphEdgeType) (x : V8HeapExplorer) (parent_entry : Nat)
    (reference_name : String) (child_obj : Nat) (field_offset : Int)
    (hmap : MapInRange x.filler_) (hparent : parent_entry < x.filler_.snapshot_.entries_.length)
    (hmark : field_offset < 0 ∨
      (field_offset / (heap.kPointerSize : Int)).toNat < x.marks_.length) :
    ∃ x1, V8HeapExplorer.SetNamedFieldReference heap allocator type x parent_entry
        reference_name child_obj field_offset = some x1 ∧
      Stepped x x1 (fieldEdges heap type parent_entry reference_name child_obj x1.filler_) ∧
      x1.marks_ = markedAt heap x.marks_ child_obj field_offset ∧
      (heap.IsHeapObject child_obj = false → x1 = x) ∧
      (heap.IsHeapObject child_obj = true →
        ∃ t, HashMap.Lookup x1.filler_.entries_ child_obj = some t) := by
  obtain ⟨hno, hyes⟩ := GetEntry_step heap allocator x child_obj hmap
  cases hh : heap.IsHeapObject child_obj with
  | false =>
    have hg := hno hh
    have hess : V8HeapExplorer.IsEssentialObject heap child_obj = false := by
      cases he : V8HeapExplorer.IsEssentialObject heap child_obj with
      | false => rfl
      | true => rw [IsEssentialObject_heap heap child_obj he] at hh; exact absurd hh (by simp)
    refine ⟨x, ?_, ?_, ?_, fun _ => rfl, fun h => absurd h (by simp)⟩
    · unfold V8HeapExplorer.SetNamedFieldReference
      rw [hg]
    · unfold fieldEdges
      rw [hess]
      exact Stepped_refl x hmap
    · unfold markedAt
      rw [hh]
      simp
  | true =>
    obtain ⟨t, h1, hl, ht, hstep, hmarks⟩ := hyes hh
    have hmark2 : field_offset < 0 ∨ (field_offset / (heap.kPointerSize : Int)).toNat <
        (x.GetEntry heap allocator child_obj).2.marks_.length := by rw [hmarks]; exact hmark
    have hma : markedAt heap x.marks_ child_obj field_offset =
        if 0 ≤ field_offset then
          x.marks_.set (field_offset / (heap.kPointerSize : Int)).toNat true
        else x.marks_ := by
      unfold markedAt
      rw [hh]
      simp
    cases hess : V8HeapExplorer.IsEssentialObject heap child_obj with
    | false =>
      obtain ⟨x1, hx1, hf1, ha1, hm1⟩ := MarkVisitedField_step heap
        (x.GetEntry heap allocator child_obj).2 field_offset hmark2
      refine ⟨x1, ?_, ?_, ?_, fun h => absurd h (by simp), fun _ => ⟨t, by rw [hf1]; exact hl⟩⟩
      · unfold V8HeapExplorer.SetNamedFieldReference
        rw [h1]
        simp only [hess, Bool.false_eq_true, if_false, Option.some_bind]
        exact hx1
      · unfold fieldEdges
        rw [hess]
        exact Stepped_marks hstep hf1 ha1
      · rw [hm1, hmarks, hma]
    | true =>
      obtain ⟨s1, hs1, hadd⟩ := SetNamedReference_AddsEdge
        (x.GetEntry heap allocator child_obj).2.filler_.snapshot_ parent_entry t type
        reference_name (lt_of_lt_of_le hparent hstep.entries_len) ht
      have hfill : (x.GetEntry heap allocator child_obj).2.filler_.SetNamedReference type
          parent_entry reference_name t =
          some { (x.GetEntry heap allocator child_obj).2.filler_ with snapshot_ := s1 } := by
        unfold SnapshotFiller.SetNamedReference
        rw [hs1]
      have hstep2 := Stepped_AddsEdge (x.GetEntry heap allocator child_obj).2
        { (x.GetEntry heap allocator child_obj).2.filler_ with snapshot_ := s1 } _ hstep.map rfl
        hadd
      have hstep3 := Stepped_trans hstep hstep2
      obtain ⟨x1, hx1, hf1, ha1, hm1⟩ := MarkVisitedField_step heap
        { (x.GetEntry heap allocator child_obj).2 with
          filler_ := { (x.GetEntry heap allocator child_obj).2.filler_ with snapshot_ := s1 } }
        field_offset hmark2
      refine ⟨x1, ?_, ?_, ?_, fun h => absurd h (by simp), fun _ => ⟨t, by rw [hf1]; exact hl⟩⟩
      · unfold V8HeapExplorer.SetNamedFieldReference
        rw [h1]
        simp only [hess, if_true, hfill, Option.map_some', Option.some_bind]
        exact hx1
      · have hfe : fieldEdges heap type parent_entry reference_name child_obj x1.filler_ =
            [⟨type, parent_entry, EdgeTarget.to_index_ t, EdgeLabel.name_ reference_name⟩] := by
          unfold fieldEdges
          rw [hess, hf1]
          simp only [if_true]
          rw [hl]
        rw [hfe]
        exact Stepped_marks hstep3 hf1 ha1
      · rw [hm1, hma]
        simp only [hmarks]

/-- `SetHiddenReference` has a result, adds the edge of `hiddenEdges` and leaves the marks. -/
theorem SetHiddenReference_step (heap : Heap) (links : WeakLinks)
    (allocator : HeapEntriesAllocator) (x : V8HeapExplorer) (parent_obj parent_entry : Nat)
    (index : Int) (child_obj : Nat) (field_offset : Int)
    (hmap : MapInRange x.filler_)
    (hparent : parent_entry < x.filler_.snapshot_.entries_.length) :
    ∃ x1, x.SetHiddenReference heap links allocator parent_obj parent_entry index child_obj
        field_offset = some x1 ∧
      Stepped x x1 (hiddenEdges heap links parent_obj parent_entry index child_obj field_offset
        x1.filler_) ∧
      x1.marks_ = x.marks_ ∧
      (heap.IsHeapObject child_obj = false → x1 = x) ∧
      (heap.IsHeapObject child_obj = true →
        ∃ t, HashMap.Lookup x1.filler_.entries_ child_obj = some t) := by
  obtain ⟨hno, hyes⟩ := GetEntry_step heap allocator x child_obj hmap
  cases hh : heap.IsHeapObject child_obj with
  | false =>
    have hg := hno hh
    have hess : V8HeapExplorer.IsEssentialObject heap child_obj = false := by
      cases he : V8HeapExplorer.IsEssentialObject heap child_obj with
      | false => rfl
      | true => rw [IsEssentialObject_heap heap child_obj he] at hh; exact absurd hh (by simp)
    refine ⟨x, ?_, ?_, rfl, fun _ => rfl, fun h => absurd h (by simp)⟩
    · unfold V8HeapExplorer.SetHiddenReference
      rw [hg]
    · unfold hiddenEdges
      rw [hess]
      simp only [Bool.false_eq_true, false_and, if_false]
      exact Stepped_refl x hmap
  | true =>
    obtain ⟨t, h1, hl, ht, hstep, hmarks⟩ := hyes hh
    by_cases hc : V8HeapExplorer.IsEssentialObject heap child_obj = true ∧
        V8HeapExplorer.IsEssentialHiddenReference heap links parent_obj field_offset = true
    · obtain ⟨s1, hs1, hadd⟩ := SetIndexedReference_AddsEdge
        (x.GetEntry heap allocator child_obj).2.filler_.snapshot_ parent_entry t
        HeapGraphEdgeType.kHidden index (lt_of_lt_of_le hparent hstep.entries_len) ht
      have hfill : (x.GetEntry heap allocator child_obj).2.filler_.SetIndexedReference
          HeapGraphEdgeType.kHidden parent_entry index t =
          some { (x.GetEntry heap allocator child_obj).2.filler_ with snapshot_ := s1 } := by
        unfold SnapshotFiller.SetIndexedReference
        rw [hs1]
      have hstep2 := Stepped_AddsEdge (x.GetEntry heap allocator child_obj).2
        { (x.GetEntry heap allocator child_obj).2.filler_ with snapshot_ := s1 } _ hstep.map rfl
        hadd
      refine ⟨{ (x.GetEntry heap allocator child_obj).2 with
        filler_ := { (x.GetEntry heap allocator child_obj).2.filler_ with snapshot_ := s1 } },
        ?_, ?_, hmarks, fun h => absurd h (by simp), fun _ => ⟨t, hl⟩⟩
      · unfold V8HeapExplorer.SetHiddenReference
        rw [h1]
        simp only [hc.1, hc.2, Bool.and_self, if_true, hfill, Option.map_some']
      · have hfe : hiddenEdges heap links parent_obj parent_entry index child_obj field_offset
            { (x.GetEntry heap allocator child_obj).2.filler_ with snapshot_ := s1 } =
            [⟨HeapGraphEdgeType.kHidden, parent_entry, EdgeTarget.to_index_ t,
              EdgeLabel.index_ index⟩] := by
          unfold hiddenEdges
          rw [if_pos hc]
          simp only
          rw [hl]
        rw [hfe]
        exact Stepped_trans hstep hstep2
    · refine ⟨(x.GetEntry heap allocator child_obj).2, ?_, ?_, hmarks,
        fun h => absurd h (by simp), fun _ => ⟨t, hl⟩⟩
      · unfold V8HeapExplorer.SetHiddenReference
        rw [h1]
        have : (V8HeapExplorer.IsEssentialObject heap child_obj &&
            V8HeapExplorer.IsEssentialHiddenReference heap links parent_obj field_offset) =
            false := by
          rw [Bool.and_eq_false_iff]
          by_cases he : V8HeapExplorer.IsEssentialObject heap child_obj = true
          · right
            cases hx : V8HeapExplorer.IsEssentialHiddenReference heap links parent_obj
                field_offset with
            | false => rfl
            | true => exact absurd ⟨he, hx⟩ hc
          · left
            simpa using he
        simp only [this, Bool.false_eq_true, if_false]
      · unfold hiddenEdges
        rw [if_neg hc]
        exact hstep

theorem fieldEdges_stable (heap : Heap) (type : HeapGraphEdgeType) (parent : Nat)
    (name : String) (child_obj : Nat) (f f1 : SnapshotFiller)
    (h : ∀ (q t : Nat), HashMap.Lookup f.entries_ q = some t →
      HashMap.Lookup f1.entries_ q = some t)
    (hex : heap.IsHeapObject child_obj = true →
      ∃ t, HashMap.Lookup f.entries_ child_obj = some t) :
    fieldEdges heap type parent name child_obj f1 =
      fieldEdges heap type parent name child_obj f := by
  unfold fieldEdges
  cases hess : V8HeapExplorer.IsEssentialObject heap child_obj with
  | false => rfl
  | true =>
    obtain ⟨t, ht⟩ := hex (IsEssentialObject_heap heap child_obj hess)
    rw [ht, h child_obj t ht]

/-- What the edges of `fieldEdges` are. -/
theorem mem_fieldEdges (heap : Heap) (type : HeapGraphEdgeType) (parent : Nat)
    (name : String) (child_obj : Nat) (f : SnapshotFiller) (e : HeapGraphEdge)
    (he : e ∈ fieldEdges heap type parent name child_obj f) :
    V8HeapExplorer.IsEssentialObject heap child_obj = true ∧
    ∃ t, HashMap.Lookup f.entries_ child_obj = some t ∧
      e = ⟨type, parent, EdgeTarget.to_index_ t, EdgeLabel.name_ name⟩ := by
  unfold fieldEdges at he
  cases hess : V8HeapExplorer.IsEssentialObject heap child_obj with
  | false => rw [hess] at he; simp at he
  | true =>
    rw [hess] at he
    simp only [if_true] at he
    cases hl : HashMap.Lookup f.entries_ child_obj with
    | none => rw [hl] at he; simp at he
    | some t =>
      rw [hl] at he
      simp only [List.mem_singleton] at he
      exact ⟨rfl, t, rfl, he⟩

theorem markedAt_length (heap : Heap) (marks : List Bool) (child_obj : Nat)
    (field_offset : Int) : (markedAt heap marks child_obj field_offset).length = marks.length := by
  unfold markedAt
  split
  · exact List.length_set _ _ _
  · rfl

/-- The loop of `ExtractFixedArrayReferences` over the elements: it has a result and adds, for
the elements in their order, the internal edge of each essential element, named by its
index. -/
theorem ExtractFixedArrayElements_step (heap : Heap) (allocator : HeapEntriesAllocator)
    (GetName : Int → String) (entry array : Nat) :
    ∀ (indexes : List Nat) (x : V8HeapExplorer), MapInRange x.filler_ →
      entry < x.filler_.snapshot_.entries_.length →
      (∀ i ∈ indexes, heap.OffsetOfElementAt i < 0 ∨
        (heap.OffsetOfElementAt i / (heap.kPointerSize : Int)).toNat < x.marks_.length) →
      ∃ x1, V8HeapExplorer.ExtractFixedArrayElements heap allocator GetName entry array
          indexes x = some x1 ∧
        Stepped x x1 (indexes.flatMap (fun i =>
          fieldEdges heap HeapGraphEdgeType.kInternal entry (GetName (i : Int))
            (heap.get array i) x1.filler_)) ∧
        x1.marks_.length = x.marks_.length ∧
        (∀ i ∈ indexes, heap.IsHeapObject (heap.get array i) = true →
          ∃ t, HashMap.Lookup x1.filler_.entries_ (heap.get array i) = some t) := by
  intro indexes
  induction indexes with
  | nil =>
    intro x hmap _ _
    exact ⟨x, rfl, Stepped_refl x hmap, rfl,
      fun i hi => absurd hi (List.not_mem_nil i)⟩
  | cons i rest ih =>
    intro x hmap hentry hmarks
    obtain ⟨x1, h1, s1, m1, _, l1⟩ := SetNamedFieldReference_step heap allocator
      HeapGraphEdgeType.kInternal x entry (GetName (i : Int)) (heap.get array i)
      (heap.OffsetOfElementAt i) hmap hentry (hmarks i (List.mem_cons_self _ _))
    have hlen1 : x1.marks_.length = x.marks_.length := by rw [m1, markedAt_length]
    obtain ⟨x2, h2, s2, m2, l2⟩ := ih x1 s1.map (lt_of_lt_of_le hentry s1.entries_len)
      (fun j hj => by rw [hlen1]; exact hmarks j (List.mem_cons_of_mem _ hj))
    have hst := fieldEdges_stable heap HeapGraphEdgeType.kInternal entry (GetName (i : Int))
      (heap.get array i) x1.filler_ x2.filler_ s2.lookups l1
    refine ⟨x2, ?_, ?_, m2.trans hlen1, ?_⟩
    · rw [V8HeapExplorer.ExtractFixedArrayElements]
      have : V8HeapExplorer.SetInternalReference heap allocator GetName x entry (i : Int)
          (heap.get array i) (heap.OffsetOfElementAt i) = some x1 := h1
      rw [this, Option.some_bind]
      exact h2
    · rw [List.flatMap_cons, hst]
      exact Stepped_trans s1 s2
    · intro j hj hh
      rcases List.mem_cons.mp hj with rfl | hj
      · obtain ⟨t, ht⟩ := l1 hh
        exact ⟨t, s2.lookups _ t ht⟩
      · exact l2 j hj hh

/-- The loop of `ExtractFixedArrayReferences` over the entries of a weak table: it has a
result and adds, for the entries in their order, the weak edge of the key and the internal
edge of the value, each when it is essential. -/
theorem ExtractWeakTableEntries_step (heap : Heap) (allocator : HeapEntriesAllocator)
    (GetName GetFormatted : Int → String) (entry table : Nat) :
    ∀ (indexes : List Nat) (x : V8HeapExplorer), MapInRange x.filler_ →
      entry < x.filler_.snapshot_.entries_.length →
      (∀ i ∈ indexes,
        (heap.OffsetOfElementAt (heap.EntryToIndex i + heap.kEntryKeyIndex) < 0 ∨
          (heap.OffsetOfElementAt (heap.EntryToIndex i + heap.kEntryKeyIndex) /
            (heap.kPointerSize : Int)).toNat < x.marks_.length) ∧
        (heap.OffsetOfElementAt (heap.EntryToValueIndex i) < 0 ∨
          (heap.OffsetOfElementAt (heap.EntryToValueIndex i) /
            (heap.kPointerSize : Int)).toNat < x.marks_.length)) →
      ∃ x1, V8HeapExplorer.ExtractWeakTableEntries heap allocator GetName GetFormatted entry
          table indexes x = some x1 ∧
        Stepped x x1 (indexes.flatMap (fun i =>
          fieldEdges heap HeapGraphEdgeType.kWeak entry
            (GetFormatted ((heap.EntryToIndex i + heap.kEntryKeyIndex : Nat) : Int))
            (heap.get table (heap.EntryToIndex i + heap.kEntryKeyIndex)) x1.filler_ ++
          fieldEdges heap HeapGraphEdgeType.kInternal entry
            (GetName ((heap.EntryToValueIndex i : Nat) : Int))
            (heap.get table (heap.EntryToValueIndex i)) x1.filler_)) ∧
        x1.marks_.length = x.marks_.length ∧
        (∀ i ∈ indexes,
          (heap.IsHeapObject (heap.get table (heap.EntryToIndex i + heap.kEntryKeyIndex)) =
            true → ∃ t, HashMap.Lookup x1.filler_.entries_
              (heap.get table (heap.EntryToIndex i + heap.kEntryKeyIndex)) = some t) ∧
          (heap.IsHeapObject (heap.get table (heap.EntryToValueIndex i)) = true →
            ∃ t, HashMap.Lookup x1.filler_.entries_
              (heap.get table (heap.EntryToValueIndex i)) = some t)) := by
  intro indexes
  induction indexes with
  | nil =>
    intro x hmap _ _
    exact ⟨x, rfl, Stepped_refl x hmap, rfl,
      fun i hi => absurd hi (List.not_mem_nil i)⟩
  | cons i rest ih =>
    intro x hmap hentry hmarks
    obtain ⟨hk, hv⟩ := hmarks i (List.mem_cons_self _ _)
    obtain ⟨x1, h1, s1, m1, _, l1⟩ := SetNamedFieldReference_step heap allocator
      HeapGraphEdgeType.kWeak x entry
      (GetFormatted ((heap.EntryToIndex i + heap.kEntryKeyIndex : Nat) : Int))
      (heap.get table (heap.EntryToIndex i + heap.kEntryKeyIndex))
      (heap.OffsetOfElementAt (heap.EntryToIndex i + heap.kEntryKeyIndex)) hmap hentry hk
    have hlen1 : x1.marks_.length = x.marks_.length := by rw [m1, markedAt_length]
    obtain ⟨x2, h2, s2, m2, _, l2⟩ := SetNamedFieldReference_step heap allocator
      HeapGraphEdgeType.kInternal x1 entry (GetName ((heap.EntryToValueIndex i : Nat) : Int))
      (heap.get table (heap.EntryToValueIndex i))
      (heap.OffsetOfElementAt (heap.EntryToValueIndex i)) s1.map
      (lt_of_lt_of_le hentry s1.entries_len) (by rw [hlen1]; exact hv)
    have hlen2 : x2.marks_.length = x.marks_.length := by
      rw [m2, markedAt_length]; exact hlen1
    obtain ⟨x3, h3, s3, m3, l3⟩ := ih x2 s2.map
      (lt_of_lt_of_le hentry (le_trans s1.entries_len s2.entries_len))
      (fun j hj => by rw [hlen2]; exact hmarks j (List.mem_cons_of_mem _ hj))
    have hst1 := fieldEdges_stable heap HeapGraphEdgeType.kWeak entry
      (GetFormatted ((heap.EntryToIndex i + heap.kEntryKeyIndex : Nat) : Int))
      (heap.get table (heap.EntryToIndex i + heap.kEntryKeyIndex)) x1.filler_ x3.filler_
      (fun q t h => s3.lookups q t (s2.lookups q t h)) l1
    have hst2 := fieldEdges_stable heap HeapGraphEdgeType.kInternal entry
      (GetName ((heap.EntryToValueIndex i : Nat) : Int))
      (heap.get table (heap.EntryToValueIndex i)) x2.filler_ x3.filler_ s3.lookups l2
    refine ⟨x3, ?_, ?_, m3.trans hlen2, ?_⟩
    · rw [V8HeapExplorer.ExtractWeakTableEntries]
      have a1 : V8HeapExplorer.SetWeakReference heap allocator GetFormatted x entry
          ((heap.EntryToIndex i + heap.kEntryKeyIndex : Nat) : Int)
          (heap.get table (heap.EntryToIndex i + heap.kEntryKeyIndex))
          (heap.OffsetOfElementAt (heap.EntryToIndex i + heap.kEntryKeyIndex)) = some x1 := h1
      have a2 : V8HeapExplorer.SetInternalReference heap allocator GetName x1 entry
          ((heap.EntryToValueIndex i : Nat) : Int) (heap.get table (heap.EntryToValueIndex i))
          (heap.OffsetOfElementAt (heap.EntryToValueIndex i)) = some x2 := h2
      rw [a1, Option.some_bind, a2, Option.some_bind]
      exact h3
    · rw [List.flatMap_cons, hst1, hst2, List.append_assoc]
      exact Stepped_trans s1 (Stepped_trans s2 s3)
    · intro j hj
      rcases List.mem_cons.mp hj with rfl | hj
      · constructor
        · intro hh
          obtain ⟨t, ht⟩ := l1 hh
          exact ⟨t, s3.lookups _ t (s2.lookups _ t ht)⟩
        · intro hh
          obtain ⟨t, ht⟩ := l2 hh
          exact ⟨t, s3.lookups _ t ht⟩
      · exact l3 j hj

theorem findArrayType_setArrayType (types : List (Nat × FixedArraySubInstanceType))
    (array : Nat) (type : FixedArraySubInstanceType) (other : Nat) :
    V8HeapExplorer.findArrayType (V8HeapExplorer.setArrayType types array type) other =
      if other = array then some type else V8HeapExplorer.findArrayType types other := by
  induction types with
  | nil =>
    simp only [V8HeapExplorer.setArrayType, V8HeapExplorer.findArrayType]
    by_cases h : other = array
    · rw [if_pos h.symm, if_pos h]
    · rw [if_neg (fun h2 => h h2.symm), if_neg h]
  | cons kv rest ih =>
    obtain ⟨k, v⟩ := kv
    simp only [V8HeapExplorer.setArrayType]
    by_cases hk : k = array
    · rw [if_pos hk]
      simp only [V8HeapExplorer.findArrayType]
      by_cases h : other = array
      · rw [if_pos (hk.trans h.symm), if_pos h]
      · rw [if_neg (fun h2 => h (h2.symm.trans hk)), if_neg h,
          if_neg (fun h2 => h (h2.symm.trans hk))]
    · rw [if_neg hk]
      simp only [V8HeapExplorer.findArrayType]
      by_cases hko : k = other
      · rw [if_pos hko, if_neg (fun h2 => hk (hko.trans h2)), if_pos hko]
      · rw [if_neg hko, ih, if_neg hko]

/-- C30, as the code has it: `ExtractFixedArrayReferences` chooses the strength of the edges
from the recorded sub-kind. For an array without a tag it adds, for the elements in their order, one internal
edge, named by the index `i` of the element, for every element that is essential, and no
weak edge; for the array tagged `JS_WEAK_COLLECTION_SUB_TYPE` it adds, for every entry of the
table, a weak edge for the key slot and an internal edge for the value slot, each when its
value is essential; with every other tag it does what it does without a tag. After
`TagFixedArraySubType` the array has its tag, so that the `DCHECK` of a second call fails,
and the tags of the other arrays are the same. -/
theorem fixed_array_strength_by_tag (heap : Heap) (allocator : HeapEntriesAllocator)
    (GetName GetFormatted : Int → String) (x : V8HeapExplorer) (entry array : Nat)
    (hmap : MapInRange x.filler_) (hentry : entry < x.filler_.snapshot_.entries_.length)
    (huntagged : V8HeapExplorer.findArrayType x.array_types_ array = none)
    (hmarks1 : ∀ i < heap.length array, heap.OffsetOfElementAt i < 0 ∨
      (heap.OffsetOfElementAt i / (heap.kPointerSize : Int)).toNat < x.marks_.length)
    (hmarks2 : ∀ i < heap.Capacity array,
      (heap.OffsetOfElementAt (heap.EntryToIndex i + heap.kEntryKeyIndex) < 0 ∨
        (heap.OffsetOfElementAt (heap.EntryToIndex i + heap.kEntryKeyIndex) /
          (heap.kPointerSize : Int)).toNat < x.marks_.length) ∧
      (heap.OffsetOfElementAt (heap.EntryToValueIndex i) < 0 ∨
        (heap.OffsetOfElementAt (heap.EntryToValueIndex i) /
          (heap.kPointerSize : Int)).toNat < x.marks_.length)) :
    (∃ x1, x.ExtractFixedArrayReferences heap allocator GetName GetFormatted entry array =
        some x1 ∧
      x1.filler_.snapshot_.edges_ = x.filler_.snapshot_.edges_ ++
        (List.range (heap.length array)).flatMap (fun i =>
          fieldEdges heap HeapGraphEdgeType.kInternal entry (GetName (i : Int))
            (heap.get array i) x1.filler_) ∧
      (∀ i < heap.length array,
        (V8HeapExplorer.IsEssentialObject heap (heap.get array i) = true →
          ∃ t, HashMap.Lookup x1.filler_.entries_ (heap.get array i) = some t ∧
            fieldEdges heap HeapGraphEdgeType.kInternal entry (GetName (i : Int))
              (heap.get array i) x1.filler_ =
              [⟨HeapGraphEdgeType.kInternal, entry, EdgeTarget.to_index_ t,
                EdgeLabel.name_ (GetName (i : Int))⟩]) ∧
        (V8HeapExplorer.IsEssentialObject heap (heap.get array i) = false →
          fieldEdges heap HeapGraphEdgeType.kInternal entry (GetName (i : Int))
            (heap.get array i) x1.filler_ = [])) ∧
      (∀ e ∈ (List.range (heap.length array)).flatMap (fun i =>
          fieldEdges heap HeapGraphEdgeType.kInternal entry (GetName (i : Int))
            (heap.get array i) x1.filler_), e.type ≠ HeapGraphEdgeType.kWeak) ∧
      (∀ v, ∃ x3, (x.TagFixedArraySubType array
          (FixedArraySubInstanceType.other v)).ExtractFixedArrayReferences heap allocator GetName
          GetFormatted entry array = some x3 ∧
        x3.filler_.snapshot_.edges_ = x.filler_.snapshot_.edges_ ++
          (List.range (heap.length array)).flatMap (fun i =>
            fieldEdges heap HeapGraphEdgeType.kInternal entry (GetName (i : Int))
              (heap.get array i) x3.filler_))) ∧
    (∃ x2, (x.TagFixedArraySubType array
        FixedArraySubInstanceType.JS_WEAK_COLLECTION_SUB_TYPE).ExtractFixedArrayReferences heap
        allocator GetName GetFormatted entry array = some x2 ∧
      x2.filler_.snapshot_.edges_ = x.filler_.snapshot_.edges_ ++
        (List.range (heap.Capacity array)).flatMap (fun i =>
          fieldEdges heap HeapGraphEdgeType.kWeak entry
            (GetFormatted ((heap.EntryToIndex i + heap.kEntryKeyIndex : Nat) : Int))
            (heap.get array (heap.EntryToIndex i + heap.kEntryKeyIndex)) x2.filler_ ++
          fieldEdges heap HeapGraphEdgeType.kInternal entry
            (GetName ((heap.EntryToValueIndex i : Nat) : Int))
            (heap.get array (heap.EntryToValueIndex i)) x2.filler_) ∧
      (∀ i < heap.Capacity array,
        (V8HeapExplorer.IsEssentialObject heap
            (heap.get array (heap.EntryToIndex i + heap.kEntryKeyIndex)) = true →
          ∃ t, fieldEdges heap HeapGraphEdgeType.kWeak entry
              (GetFormatted ((heap.EntryToIndex i + heap.kEntryKeyIndex : Nat) : Int))
              (heap.get array (heap.EntryToIndex i + heap.kEntryKeyIndex)) x2.filler_ =
            [⟨HeapGraphEdgeType.kWeak, entry, EdgeTarget.to_index_ t, EdgeLabel.name_
              (GetFormatted ((heap.EntryToIndex i + heap.kEntryKeyIndex : Nat) : Int))⟩]) ∧
        (V8HeapExplorer.IsEssentialObject heap (heap.get array (heap.EntryToValueIndex i)) =
            true →
          ∃ t, fieldEdges heap HeapGraphEdgeType.kInternal entry
              (GetName ((heap.EntryToValueIndex i : Nat) : Int))
              (heap.get array (heap.EntryToValueIndex i)) x2.filler_ =
            [⟨HeapGraphEdgeType.kInternal, entry, EdgeTarget.to_index_ t, EdgeLabel.name_
              (GetName ((heap.EntryToValueIndex i : Nat) : Int))⟩]))) ∧
    (∀ type, V8HeapExplorer.findArrayType (x.TagFixedArraySubType array type).array_types_
        array = some type ∧
      V8HeapExplorer.findArrayType (x.TagFixedArraySubType array type).array_types_ array ≠
        none ∧
      ∀ other, other ≠ array →
        V8HeapExplorer.findArrayType (x.TagFixedArraySubType array type).array_types_ other =
          V8HeapExplorer.findArrayType x.array_types_ other) := by
  obtain ⟨x1, h1, s1, _, l1⟩ := ExtractFixedArrayElements_step heap allocator GetName entry
    array (List.range (heap.length array)) x hmap hentry
    (fun i hi => hmarks1 i (List.mem_range.mp hi))
  obtain ⟨x2, h2, s2, _, l2⟩ := ExtractWeakTableEntries_step heap allocator GetName
    GetFormatted entry array (List.range (heap.Capacity array))
    (x.TagFixedArraySubType array FixedArraySubInstanceType.JS_WEAK_COLLECTION_SUB_TYPE)
    hmap hentry (fun i hi => hmarks2 i (List.mem_range.mp hi))
  have htag : ∀ type, V8HeapExplorer.findArrayType
      (x.TagFixedArraySubType array type).array_types_ array = some type := by
    intro type
    unfold V8HeapExplorer.TagFixedArraySubType
    simp only
    rw [findArrayType_setArrayType, if_pos rfl]
  refine ⟨⟨x1, ?_, s1.edges, ?_, ?_, ?_⟩, ⟨x2, ?_, s2.edges, ?_⟩, ?_⟩
  · unfold V8HeapExplorer.ExtractFixedArrayReferences
    rw [huntagged]
    exact h1
  · intro i hi
    constructor
    · intro hess
      obtain ⟨t, ht⟩ := l1 i (List.mem_range.mpr hi) (IsEssentialObject_heap heap _ hess)
      refine ⟨t, ht, ?_⟩
      unfold fieldEdges
      rw [hess, ht]
      rfl
    · intro hess
      unfold fieldEdges
      rw [hess]
      rfl
  · intro e he
    obtain ⟨i, _, hi⟩ := List.mem_flatMap.mp he
    obtain ⟨_, t, _, rfl⟩ := mem_fieldEdges heap _ _ _ _ _ e hi
    simp
  · intro v
    obtain ⟨x3, h3, s3, _⟩ := ExtractFixedArrayElements_step heap allocator GetName entry
      array (List.range (heap.length array))
      (x.TagFixedArraySubType array (FixedArraySubInstanceType.other v)) hmap hentry
      (fun i hi => hmarks1 i (List.mem_range.mp hi))
    refine ⟨x3, ?_, s3.edges⟩
    unfold V8HeapExplorer.ExtractFixedArrayReferences
    rw [htag]
    exact h3
  · unfold V8HeapExplorer.ExtractFixedArrayReferences
    rw [htag]
    exact h2
  · intro i hi
    obtain ⟨k1, k2⟩ := l2 i (List.mem_range.mpr hi)
    constructor
    · intro hess
      obtain ⟨t, ht⟩ := k1 (IsEssentialObject_heap heap _ hess)
      refine ⟨t, ?_⟩
      unfold fieldEdges
      rw [hess, ht]
      rfl
    · intro hess
      obtain ⟨t, ht⟩ := k2 (IsEssentialObject_heap heap _ hess)
      refine ⟨t, ?_⟩
      unfold fieldEdges
      rw [hess, ht]
      rfl
  · intro type
    refine ⟨htag type, by rw [htag]; simp, ?_⟩
    intro other hne
    unfold V8HeapExplorer.TagFixedArraySubType
    simp only
    rw [findArrayType_setArrayType, if_neg hne]

theorem smallExplorer_map : MapInRange smallExplorer.filler_ := by
  intro thing v h
  simp [smallExplorer, HashMap.Lookup] at h

/-- The array 2 of `smallHeap`, whose element 0 is the object 1 and whose element 1 is an
oddball, from the entry 1 of `smallExplorer`. -/
theorem fixed_array_strength_by_tag_witness :
    (∃ x1, smallExplorer.ExtractFixedArrayReferences smallHeap smallAllocator
        (fun i => toString i) (fun i => toString i) 1 2 = some x1 ∧
      x1.filler_.snapshot_.edges_ = smallExplorer.filler_.snapshot_.edges_ ++
        (List.range (smallHeap.length 2)).flatMap (fun i =>
          fieldEdges smallHeap HeapGraphEdgeType.kInternal 1 (toString (i : Int))
            (smallHeap.get 2 i) x1.filler_)) ∧
    (∃ x2, (smallExplorer.TagFixedArraySubType 2
        FixedArraySubInstanceType.JS_WEAK_COLLECTION_SUB_TYPE).ExtractFixedArrayReferences
        smallHeap smallAllocator (fun i => toString i) (fun i => toString i) 1 2 = some x2 ∧
      x2.filler_.snapshot_.edges_ = smallExplorer.filler_.snapshot_.edges_ ++
        (List.range (smallHeap.Capacity 2)).flatMap (fun i =>
          fieldEdges smallHeap HeapGraphEdgeType.kWeak 1
            (toString ((smallHeap.EntryToIndex i + smallHeap.kEntryKeyIndex : Nat) : Int))
            (smallHeap.get 2 (smallHeap.EntryToIndex i + smallHeap.kEntryKeyIndex)) x2.filler_ ++
          fieldEdges smallHeap HeapGraphEdgeType.kInternal 1
            (toString ((smallHeap.EntryToValueIndex i : Nat) : Int))
            (smallHeap.get 2 (smallHeap.EntryToValueIndex i)) x2.filler_)) :=
  match fixed_array_strength_by_tag smallHeap smallAllocator
    (fun i => toString i) (fun i => toString i) smallExplorer 1 2 smallExplorer_map
    (by decide) rfl (by decide) (by decide) with
  | ⟨⟨x1, h1, e1, _⟩, ⟨x2, h2, e2, _⟩, _⟩ => ⟨⟨x1, h1, e1⟩, ⟨x2, h2, e2⟩⟩

/-- C30 as it is stated fails. For the array 2 of `smallHeap` without a tag, whose element 0
is the object 1, which is essential, and whose element 1 is an oddball, from the entry 1 of
`smallExplorer`, `ExtractFixedArrayReferences` adds one edge: an edge of the kind internal
with a name, the one that `GetName` gives for 0, and not an element edge with the index 0.
For the same array tagged `JS_WEAK_COLLECTION_SUB_TYPE`, whose one table entry has the object
1 in its key slot and the oddball in its value slot, it adds the weak edge for the key slot
and no edge for the value slot. -/
theorem fixed_array_edges_are_named_and_skip_oddballs :
    (smallExplorer.ExtractFixedArrayReferences smallHeap smallAllocator
        (fun i => if i = 0 then "0" else "1") (fun i => if i = 0 then "0" else "1") 1 2).map
        (fun x => x.filler_.snapshot_.edges_) =
      some [⟨HeapGraphEdgeType.kInternal, 1, EdgeTarget.to_index_ 2, EdgeLabel.name_ "0"⟩] ∧
    V8HeapExplorer.IsEssentialObject smallHeap (smallHeap.get 2 0) = true ∧
    (⟨HeapGraphEdgeType.kInternal, 1, EdgeTarget.to_index_ 2, EdgeLabel.name_ "0"⟩ :
        HeapGraphEdge) ≠
      ⟨HeapGraphEdgeType.kElement, 1, EdgeTarget.to_index_ 2, EdgeLabel.index_ 0⟩ ∧
    ((smallExplorer.TagFixedArraySubType 2
        FixedArraySubInstanceType.JS_WEAK_COLLECTION_SUB_TYPE).ExtractFixedArrayReferences
        smallHeap smallAllocator (fun i => if i = 0 then "0" else "1")
        (fun i => if i = 0 then "0" else "1") 1 2).map
        (fun x => x.filler_.snapshot_.edges_) =
      some [⟨HeapGraphEdgeType.kWeak, 1, EdgeTarget.to_index_ 2, EdgeLabel.name_ "0"⟩] ∧
    smallHeap.Capacity 2 = 1 ∧
    smallHeap.get 2 (smallHeap.EntryToValueIndex 0) = 9 ∧
    V8HeapExplorer.IsEssentialObject smallHeap 9 = false :=
  ⟨rfl, rfl, by decide, rfl, rfl, rfl, rfl⟩

/-! ### The sweep of the slots -/

/-- One round of `VisitPointers`: for a slot inside the object whose mark is set, the mark is
cleared and nothing else happens; for every other slot `SetHiddenReference` is called. -/
theorem VisitPointer_step (heap : Heap) (links : WeakLinks) (allocator : HeapEntriesAllocator)
    (v : IndexedReferencesExtractor) (index : Int) (value : Nat)
    (hmap : MapInRange v.generator_.filler_)
    (hparent : v.parent_ < v.generator_.filler_.snapshot_.entries_.length)
    (hcover : 0 ≤ index → index * (heap.kPointerSize : Int) < v.parent_end_ →
      index.toNat < v.generator_.marks_.length) :
    ∃ v1, v.VisitPointer heap links allocator index value = some v1 ∧
      v1.parent_obj_ = v.parent_obj_ ∧ v1.parent_end_ = v.parent_end_ ∧
      v1.parent_ = v.parent_ ∧ v1.next_index_ = v.next_index_ + 1 ∧
      ((0 ≤ index ∧ index * (heap.kPointerSize : Int) < v.parent_end_ ∧
          v.generator_.marks_[index.toNat]? = some true) →
        v1.generator_.filler_ = v.generator_.filler_ ∧
        v1.generator_.array_types_ = v.generator_.array_types_ ∧
        v1.generator_.marks_ = v.generator_.marks_.set index.toNat false) ∧
      (¬ (0 ≤ index ∧ index * (heap.kPointerSize : Int) < v.parent_end_ ∧
          v.generator_.marks_[index.toNat]? = some true) →
        v1.generator_.marks_ = v.generator_.marks_ ∧
        Stepped v.generator_ v1.generator_
          (hiddenEdges heap links v.parent_obj_ v.parent_ (v.next_index_ + 1) value
            (index * (heap.kPointerSize : Int)) v1.generator_.filler_) ∧
        (heap.IsHeapObject value = true →
          ∃ t, HashMap.Lookup v1.generator_.filler_.entries_ value = some t)) := by
  obtain ⟨x1, h1, s1, m1, _, l1⟩ := SetHiddenReference_step heap links allocator v.generator_
    v.parent_obj_ v.parent_ (v.next_index_ + 1) value (index * (heap.kPointerSize : Int))
    hmap hparent
  have hhidden : (v.generator_.SetHiddenReference heap links allocator v.parent_obj_ v.parent_
      (v.next_index_ + 1) value (index * (heap.kPointerSize : Int))).map
      (fun x => ({ v with generator_ := x, next_index_ := v.next_index_ + 1 } :
        IndexedReferencesExtractor)) =
      some { v with generator_ := x1, next_index_ := v.next_index_ + 1 } := by
    rw [h1]
    rfl
  unfold IndexedReferencesExtractor.VisitPointer
  simp only [hhidden]
  by_cases hin : 0 ≤ index ∧ index * (heap.kPointerSize : Int) < v.parent_end_
  · rw [if_pos hin]
    have hlt := hcover hin.1 hin.2
    cases hopt : v.generator_.marks_[index.toNat]? with
    | none =>
      rw [List.getElem?_eq_none_iff] at hopt
      omega
    | some b =>
      cases b with
      | true =>
        simp only
        refine ⟨_, rfl, rfl, rfl, rfl, rfl, fun _ => ⟨rfl, rfl, rfl⟩, ?_⟩
        intro hn
        exact absurd ⟨hin.1, hin.2, trivial⟩ hn
      | false =>
        simp only
        refine ⟨_, rfl, rfl, rfl, rfl, rfl, ?_, fun _ => ⟨m1, s1, l1⟩⟩
        rintro ⟨_, _, hm⟩
        exact absurd hm (by simp)
  · rw [if_neg hin]
    refine ⟨_, rfl, rfl, rfl, rfl, rfl, ?_, fun _ => ⟨m1, s1, l1⟩⟩
    rintro ⟨h1, h2, _⟩
    exact absurd ⟨h1, h2⟩ hin

/-- The sweep has a result, and a mark that is set after it was set before it, at an index
that is not the index of a slot of the sweep inside the object. -/
theorem VisitPointers_marks (heap : Heap) (links : WeakLinks)
    (allocator : HeapEntriesAllocator) :
    ∀ (slots : List (Int × Nat)) (v : IndexedReferencesExtractor),
      MapInRange v.generator_.filler_ →
      v.parent_ < v.generator_.filler_.snapshot_.entries_.length →
      (∀ index : Int, 0 ≤ index → index * (heap.kPointerSize : Int) < v.parent_end_ →
        index.toNat < v.generator_.marks_.length) →
      ∃ v1, v.VisitPointers heap links allocator slots = some v1 ∧
        v1.generator_.marks_.length = v.generator_.marks_.length ∧
        v1.next_index_ = v.next_index_ + (slots.length : Int) ∧
        (∀ i, v1.generator_.marks_[i]? = some true →
          v.generator_.marks_[i]? = some true ∧
          ∀ s ∈ slots, ¬ (0 ≤ s.1 ∧ s.1 * (heap.kPointerSize : Int) < v.parent_end_ ∧
            s.1.toNat = i)) := by
  intro slots
  induction slots with
  | nil =>
    intro v _ _ _
    exact ⟨v, rfl, rfl, by simp, fun i hi => ⟨hi, fun s hs => absurd hs (List.not_mem_nil s)⟩⟩
  | cons s rest ih =>
    intro v hmap hparent hcover
    obtain ⟨index, value⟩ := s
    obtain ⟨v1, h1, _, hend, hp, hn, hyes, hno⟩ := VisitPointer_step heap links allocator v
      index value hmap hparent (hcover index)
    have hmarks : v1.generator_.marks_ =
        if 0 ≤ index ∧ index * (heap.kPointerSize : Int) < v.parent_end_ ∧
          v.generator_.marks_[index.toNat]? = some true then
          v.generator_.marks_.set index.toNat false else v.generator_.marks_ := by
      split
      · rename_i hc
        exact (hyes hc).2.2
      · rename_i hc
        exact (hno hc).1
    have hlen : v1.generator_.marks_.length = v.generator_.marks_.length := by
      rw [hmarks]
      split
      · exact List.length_set _ _ _
      · rfl
    have hmap1 : MapInRange v1.generator_.filler_ := by
      by_cases hc : 0 ≤ index ∧ index * (heap.kPointerSize : Int) < v.parent_end_ ∧
          v.generator_.marks_[index.toNat]? = some true
      · rw [(hyes hc).1]
        exact hmap
      · exact (hno hc).2.1.map
    have hparent1 : v1.parent_ < v1.generator_.filler_.snapshot_.entries_.length := by
      rw [hp]
      by_cases hc : 0 ≤ index ∧ index * (heap.kPointerSize : Int) < v.parent_end_ ∧
          v.generator_.marks_[index.toNat]? = some true
      · rw [(hyes hc).1]
        exact hparent
      · exact lt_of_lt_of_le hparent (hno hc).2.1.entries_len
    obtain ⟨v2, h2, hlen2, hn2, hm2⟩ := ih v1 hmap1 hparent1
      (fun i h0 hi => by rw [hlen]; exact hcover i h0 (by rw [← hend]; exact hi))
    refine ⟨v2, ?_, hlen2.trans hlen, ?_, ?_⟩
    · rw [IndexedReferencesExtractor.VisitPointers, h1, Option.some_bind]
      exact h2
    · rw [hn2, hn, List.length_cons]
      push_cast
      omega
    · intro i hi
      obtain ⟨hi1, hrest⟩ := hm2 i hi
      rw [hmarks] at hi1
      by_cases hc : 0 ≤ index ∧ index * (heap.kPointerSize : Int) < v.parent_end_ ∧
          v.generator_.marks_[index.toNat]? = some true
      · rw [if_pos hc] at hi1
        have hne : index.toNat ≠ i := by
          intro heq
          rw [← heq, List.getElem?_set_self (hcover index hc.1 hc.2.1)] at hi1
          exact absurd hi1 (by simp)
        rw [List.getElem?_set_ne hne] at hi1
        refine ⟨hi1, ?_⟩
        intro s hs
        rcases List.mem_cons.mp hs with rfl | hs
        · exact fun h => hne h.2.2
        · rw [← hend]
          exact hrest s hs
      · rw [if_neg hc] at hi1
        refine ⟨hi1, ?_⟩
        intro s hs
        rcases List.mem_cons.mp hs with rfl | hs
        · intro h
          exact hc ⟨h.1, h.2.1, by rw [h.2.2]; exact hi1⟩
        · rw [← hend]
          exact hrest s hs

/-- C31: marking prevents duplicate edges. For an extractor whose parent has an entry and
whose marks cover the slots of the parent: one round of `VisitPointers` for a slot inside the
object whose mark is set clears the mark and adds no edge and no node; for every other slot it
leaves the marks and adds one hidden edge, with the running index, exactly when the value is
an essential object and `IsEssentialHiddenReference` holds. A reference with a name that a
kind-specific routine sets for a field of the parent marks the slot of the field, so that the
round for that slot adds no hidden edge and clears the mark. The sweep has a result, and when
every mark that is set is the mark of a slot of the sweep inside the object, no mark is set
after it. -/
theorem marking_prevents_duplicate_edges (heap : Heap) (links : WeakLinks)
    (allocator : HeapEntriesAllocator) (v : IndexedReferencesExtractor)
    (hmap : MapInRange v.generator_.filler_)
    (hparent : v.parent_ < v.generator_.filler_.snapshot_.entries_.length)
    (hsize : 0 < heap.kPointerSize)
    (hcover : ∀ index : Int, 0 ≤ index → index * (heap.kPointerSize : Int) < v.parent_end_ →
      index.toNat < v.generator_.marks_.length) :
    (∀ (index : Int) (value : Nat),
      ∃ v1, v.VisitPointer heap links allocator index value = some v1 ∧
        v1.next_index_ = v.next_index_ + 1 ∧
        ((0 ≤ index ∧ index * (heap.kPointerSize : Int) < v.parent_end_ ∧
            v.generator_.marks_[index.toNat]? = some true) →
          v1.generator_.filler_ = v.generator_.filler_ ∧
          v1.generator_.marks_ = v.generator_.marks_.set index.toNat false) ∧
        (¬ (0 ≤ index ∧ index * (heap.kPointerSize : Int) < v.parent_end_ ∧
            v.generator_.marks_[index.toNat]? = some true) →
          v1.generator_.marks_ = v.generator_.marks_ ∧
          ((V8HeapExplorer.IsEssentialObject heap value = true ∧
            V8HeapExplorer.IsEssentialHiddenReference heap links v.parent_obj_
              (index * (heap.kPointerSize : Int)) = true) →
            ∃ t, v1.generator_.filler_.snapshot_.edges_ =
              v.generator_.filler_.snapshot_.edges_ ++
                [⟨HeapGraphEdgeType.kHidden, v.parent_, EdgeTarget.to_index_ t,
                  EdgeLabel.index_ (v.next_index_ + 1)⟩]) ∧
          (¬ (V8HeapExplorer.IsEssentialObject heap value = true ∧
            V8HeapExplorer.IsEssentialHiddenReference heap links v.parent_obj_
              (index * (heap.kPointerSize : Int)) = true) →
            v1.generator_.filler_.snapshot_.edges_ =
              v.generator_.filler_.snapshot_.edges_))) ∧
    (∀ (type : HeapGraphEdgeType) (reference_name : String) (child_obj : Nat) (index : Int),
      heap.IsHeapObject child_obj = true → 0 ≤ index →
      index * (heap.kPointerSize : Int) < v.parent_end_ →
      ∃ x1 v1, V8HeapExplorer.SetNamedFieldReference heap allocator type v.generator_ v.parent_
          reference_name child_obj (index * (heap.kPointerSize : Int)) = some x1 ∧
        x1.marks_[index.toNat]? = some true ∧
        IndexedReferencesExtractor.VisitPointer heap links allocator
          ⟨x1, v.parent_obj_, v.parent_end_, v.parent_, v.next_index_⟩ index child_obj =
            some v1 ∧
        v1.generator_.filler_ = x1.filler_ ∧
        v1.generator_.marks_[index.toNat]? = some false) ∧
    (∀ slots : List (Int × Nat),
      ∃ v1, v.VisitPointers heap links allocator slots = some v1 ∧
        v1.generator_.marks_.length = v.generator_.marks_.length ∧
        ((∀ i, v.generator_.marks_[i]? = some true →
            ∃ s ∈ slots, 0 ≤ s.1 ∧ s.1 * (heap.kPointerSize : Int) < v.parent_end_ ∧
              s.1.toNat = i) →
          ∀ b ∈ v1.generator_.marks_, b = false)) := by
  refine ⟨?_, ?_, ?_⟩
  · intro index value
    obtain ⟨v1, h1, _, _, _, hn, hyes, hno⟩ := VisitPointer_step heap links allocator v index
      value hmap hparent (hcover index)
    refine ⟨v1, h1, hn, fun hc => ⟨(hyes hc).1, (hyes hc).2.2⟩, ?_⟩
    intro hc
    obtain ⟨hm, hs, hlk⟩ := hno hc
    refine ⟨hm, ?_, ?_⟩
    · intro hess
      have hh := IsEssentialObject_heap heap value hess.1
      have hed := hs.edges
      unfold hiddenEdges at hed
      rw [if_pos hess] at hed
      cases hl : HashMap.Lookup v1.generator_.filler_.entries_ value with
      | none =>
        obtain ⟨t, ht⟩ := hlk hh
        rw [hl] at ht
        exact absurd ht (by simp)
      | some t =>
        rw [hl] at hed
        exact ⟨t, hed⟩
    · intro hess
      have hed := hs.edges
      unfold hiddenEdges at hed
      rw [if_neg hess, List.append_nil] at hed
      exact hed
  · intro type reference_name child_obj index hh h0 hin
    have hlt := hcover index h0 hin
    have hk : (heap.kPointerSize : Int) ≠ 0 := by omega
    have hdiv : index * (heap.kPointerSize : Int) / (heap.kPointerSize : Int) = index :=
      Int.mul_ediv_cancel index hk
    have hoff : 0 ≤ index * (heap.kPointerSize : Int) :=
      Int.mul_nonneg h0 (by omega)
    obtain ⟨x1, h1, s1, m1, _⟩ := SetNamedFieldReference_step heap allocator type v.generator_
      v.parent_ reference_name child_obj (index * (heap.kPointerSize : Int)) hmap hparent
      (Or.inr (by rw [hdiv]; exact hlt))
    have hm : x1.marks_ = v.generator_.marks_.set index.toNat true := by
      rw [m1]
      unfold markedAt
      rw [if_pos ⟨hh, hoff⟩, hdiv]
    have hset : x1.marks_[index.toNat]? = some true := by
      rw [hm, List.getElem?_set_self hlt]
    have hlen : x1.marks_.length = v.generator_.marks_.length := by
      rw [hm, List.length_set]
    obtain ⟨v1, k1, _, _, _, _, hyes, _⟩ := VisitPointer_step heap links allocator
      ⟨x1, v.parent_obj_, v.parent_end_, v.parent_, v.next_index_⟩ index child_obj s1.map
      (lt_of_lt_of_le hparent s1.entries_len) (fun _ _ => by rw [hlen]; exact hlt)
    obtain ⟨f1, _, m2⟩ := hyes ⟨h0, hin, hset⟩
    refine ⟨x1, v1, h1, hset, k1, f1, ?_⟩
    rw [m2]
    exact List.getElem?_set_self (by rw [hlen]; exact hlt)
  · intro slots
    obtain ⟨v1, h1, hlen, _, hm⟩ := VisitPointers_marks heap links allocator slots v hmap
      hparent hcover
    refine ⟨v1, h1, hlen, ?_⟩
    intro hall b hb
    cases b with
    | false => rfl
    | true =>
      exfalso
      obtain ⟨i, hi, hget⟩ := List.getElem_of_mem hb
      have hi2 : v1.generator_.marks_[i]? = some true := by
        rw [List.getElem?_eq_getElem hi, hget]
      obtain ⟨h0, hnot⟩ := hm i hi2
      obtain ⟨s, hs, hs2⟩ := hall i h0
      exact hnot s hs hs2

/-- The sweep of the slots 2 and 3 of the object 2 of `smallHeap`: the mark of the slot 2 is
cleared. -/
theorem marking_prevents_duplicate_edges_witness :
    ∃ v1, smallExtractor.VisitPointers smallHeap smallLinks smallAllocator [(2, 1), (3, 9)] =
        some v1 ∧
      v1.generator_.marks_.length = smallExtractor.generator_.marks_.length ∧
      ∀ b ∈ v1.generator_.marks_, b = false :=
  match (marking_prevents_duplicate_edges smallHeap smallLinks smallAllocator smallExtractor
    (fun thing v h => by simp [smallExtractor, HashMap.Lookup] at h) (by decide) (by decide)
    (fun index h0 h1 => by
      have h2 : index * 8 < 32 := h1
      have h3 : smallExtractor.generator_.marks_.length = 4 := rfl
      rw [h3]
      omega)).2.2 [(2, 1), (3, 9)] with
  | ⟨v1, h1, h2, h3⟩ => ⟨v1, h1, h2, h3 (fun i hi => by
      have hlt : i < 4 := lt_length_of_getElem? hi
      have h2 : i = 2 := by
        rcases i with _ | _ | _ | _ | i
        · exact absurd hi (by decide)
        · exact absurd hi (by decide)
        · rfl
        · exact absurd hi (by decide)
        · omega
      subst h2
      exact ⟨(2, 1), List.mem_cons_self _ _, by decide, by decide, rfl⟩)⟩

theorem Stepped_nil_entries {x x1 : V8HeapExplorer} (h : Stepped x x1 []) (i : Nat)
    (hi : i < x.filler_.snapshot_.entries_.length) :
    x1.filler_.snapshot_.entries_[i]? = x.filler_.snapshot_.entries_[i]? := by
  rw [List.getElem?_eq_getElem hi]
  exact h.entries i _ (List.getElem?_eq_getElem hi)

/-- C32: non-essential targets are elided. When the child is not a heap object,
`SetInternalReference`, `SetWeakReference` and `SetHiddenReference` return with the explorer
unchanged: no edge, no node and no mark. When the child is a heap object that fails
`IsEssentialObject`, they add no edge and leave the entry of the parent, with its edge count,
as it was; `SetInternalReference` and `SetWeakReference` mark the field, and the round of the
sweep for the slot of the field then adds no hidden edge. -/
theorem non_essential_targets_are_elided (heap : Heap) (links : WeakLinks)
    (allocator : HeapEntriesAllocator) (GetName GetFormatted : Int → String)
    (x : V8HeapExplorer) (parent_obj parent_entry : Nat) (index : Int) (child_obj : Nat)
    (slot : Int) (parent_end next_index : Int)
    (hmap : MapInRange x.filler_)
    (hparent : parent_entry < x.filler_.snapshot_.entries_.length)
    (hsize : 0 < heap.kPointerSize) (hslot : 0 ≤ slot)
    (hin : slot * (heap.kPointerSize : Int) < parent_end)
    (hmark : slot.toNat < x.marks_.length) :
    (heap.IsHeapObject child_obj = false →
      V8HeapExplorer.SetInternalReference heap allocator GetName x parent_entry index child_obj
        (slot * (heap.kPointerSize : Int)) = some x ∧
      V8HeapExplorer.SetWeakReference heap allocator GetFormatted x parent_entry index child_obj
        (slot * (heap.kPointerSize : Int)) = some x ∧
      x.SetHiddenReference heap links allocator parent_obj parent_entry index child_obj
        (slot * (heap.kPointerSize : Int)) = some x) ∧
    (heap.IsHeapObject child_obj = true →
      V8HeapExplorer.IsEssentialObject heap child_obj = false →
      (∃ x1 v1, V8HeapExplorer.SetInternalReference heap allocator GetName x parent_entry index
          child_obj (slot * (heap.kPointerSize : Int)) = some x1 ∧
        x1.filler_.snapshot_.edges_ = x.filler_.snapshot_.edges_ ∧
        x1.filler_.snapshot_.entries_[parent_entry]? =
          x.filler_.snapshot_.entries_[parent_entry]? ∧
        x1.marks_[slot.toNat]? = some true ∧
        IndexedReferencesExtractor.VisitPointer heap links allocator
          ⟨x1, parent_obj, parent_end, parent_entry, next_index⟩ slot child_obj = some v1 ∧
        v1.generator_.filler_ = x1.filler_) ∧
      (∃ x1 v1, V8HeapExplorer.SetWeakReference heap allocator GetFormatted x parent_entry index
          child_obj (slot * (heap.kPointerSize : Int)) = some x1 ∧
        x1.filler_.snapshot_.edges_ = x.filler_.snapshot_.edges_ ∧
        x1.filler_.snapshot_.entries_[parent_entry]? =
          x.filler_.snapshot_.entries_[parent_entry]? ∧
        x1.marks_[slot.toNat]? = some true ∧
        IndexedReferencesExtractor.VisitPointer heap links allocator
          ⟨x1, parent_obj, parent_end, parent_entry, next_index⟩ slot child_obj = some v1 ∧
        v1.generator_.filler_ = x1.filler_) ∧
      (∃ x1, x.SetHiddenReference heap links allocator parent_obj parent_entry index child_obj
          (slot * (heap.kPointerSize : Int)) = some x1 ∧
        x1.filler_.snapshot_.edges_ = x.filler_.snapshot_.edges_ ∧
        x1.filler_.snapshot_.entries_[parent_entry]? =
          x.filler_.snapshot_.entries_[parent_entry]? ∧
        x1.marks_ = x.marks_)) := by
  have hk : (heap.kPointerSize : Int) ≠ 0 := by omega
  have hdiv : slot * (heap.kPointerSize : Int) / (heap.kPointerSize : Int) = slot :=
    Int.mul_ediv_cancel slot hk
  have hoff : 0 ≤ slot * (heap.kPointerSize : Int) := Int.mul_nonneg hslot (by omega)
  have hmk : slot * (heap.kPointerSize : Int) < 0 ∨
      (slot * (heap.kPointerSize : Int) / (heap.kPointerSize : Int)).toNat < x.marks_.length :=
    Or.inr (by rw [hdiv]; exact hmark)
  have named : ∀ (type : HeapGraphEdgeType) (name : String),
      (heap.IsHeapObject child_obj = false →
        V8HeapExplorer.SetNamedFieldReference heap allocator type x parent_entry name child_obj
          (slot * (heap.kPointerSize : Int)) = some x) ∧
      (heap.IsHeapObject child_obj = true →
        V8HeapExplorer.IsEssentialObject heap child_obj = false →
        ∃ x1 v1, V8HeapExplorer.SetNamedFieldReference heap allocator type x parent_entry name
            child_obj (slot * (heap.kPointerSize : Int)) = some x1 ∧
          x1.filler_.snapshot_.edges_ = x.filler_.snapshot_.edges_ ∧
          x1.filler_.snapshot_.entries_[parent_entry]? =
            x.filler_.snapshot_.entries_[parent_entry]? ∧
          x1.marks_[slot.toNat]? = some true ∧
          IndexedReferencesExtractor.VisitPointer heap links allocator
            ⟨x1, parent_obj, parent_end, parent_entry, next_index⟩ slot child_obj = some v1 ∧
          v1.generator_.filler_ = x1.filler_) := by
    intro type name
    obtain ⟨x1, h1, s1, m1, hsame, _⟩ := SetNamedFieldReference_step heap allocator type x
      parent_entry name child_obj (slot * (heap.kPointerSize : Int)) hmap hparent hmk
    constructor
    · intro hh
      rw [h1, hsame hh]
    · intro hh hess
      have hfe : fieldEdges heap type parent_entry name child_obj x1.filler_ = [] := by
        unfold fieldEdges
        rw [hess]
        rfl
      rw [hfe] at s1
      have hm : x1.marks_ = x.marks_.set slot.toNat true := by
        rw [m1]
        unfold markedAt
        rw [if_pos ⟨hh, hoff⟩, hdiv]
      have hset : x1.marks_[slot.toNat]? = some true := by
        rw [hm, List.getElem?_set_self hmark]
      have hlen : x1.marks_.length = x.marks_.length := by rw [hm, List.length_set]
      obtain ⟨v1, k1, _, _, _, _, hyes, _⟩ := VisitPointer_step heap links allocator
        ⟨x1, parent_obj, parent_end, parent_entry, next_index⟩ slot child_obj s1.map
        (lt_of_lt_of_le hparent s1.entries_len) (fun _ _ => by rw [hlen]; exact hmark)
      exact ⟨x1, v1, h1, by rw [s1.edges, List.append_nil],
        Stepped_nil_entries s1 parent_entry hparent, hset, k1, (hyes ⟨hslot, hin, hset⟩).1⟩
  obtain ⟨x2, h2, s2, m2, hsame2, _⟩ := SetHiddenReference_step heap links allocator x
    parent_obj parent_entry index child_obj (slot * (heap.kPointerSize : Int)) hmap hparent
  refine ⟨fun hh => ⟨(named HeapGraphEdgeType.kInternal (GetName index)).1 hh,
    (named HeapGraphEdgeType.kWeak (GetFormatted index)).1 hh, by rw [h2, hsame2 hh]⟩, ?_⟩
  intro hh hess
  refine ⟨(named HeapGraphEdgeType.kInternal (GetName index)).2 hh hess,
    (named HeapGraphEdgeType.kWeak (GetFormatted index)).2 hh hess, x2, h2, ?_, ?_, m2⟩
  · have hfe : hiddenEdges heap links parent_obj parent_entry index child_obj
        (slot * (heap.kPointerSize : Int)) x2.filler_ = [] := by
      unfold hiddenEdges
      rw [if_neg (by rw [hess]; simp)]
    rw [s2.edges, hfe, List.append_nil]
  · have hfe : hiddenEdges heap links parent_obj parent_entry index child_obj
        (slot * (heap.kPointerSize : Int)) x2.filler_ = [] := by
      unfold hiddenEdges
      rw [if_neg (by rw [hess]; simp)]
    rw [hfe] at s2
    exact Stepped_nil_entries s2 parent_entry hparent

/-- The value 0, which is not a heap object of `smallHeap`, and its oddball 9, as the child of
the slot 3 of the entry 1. -/
theorem non_essential_targets_are_elided_witness :
    (V8HeapExplorer.SetInternalReference smallHeap smallAllocator (fun i => toString i)
        smallExplorer 1 3 0 (3 * (smallHeap.kPointerSize : Int)) = some smallExplorer ∧
      V8HeapExplorer.SetWeakReference smallHeap smallAllocator (fun i => toString i)
        smallExplorer 1 3 0 (3 * (smallHeap.kPointerSize : Int)) = some smallExplorer ∧
      smallExplorer.SetHiddenReference smallHeap smallLinks smallAllocator 2 1 3 0
        (3 * (smallHeap.kPointerSize : Int)) = some smallExplorer) ∧
    (∃ x1, smallExplorer.SetHiddenReference smallHeap smallLinks smallAllocator 2 1 3 9
        (3 * (smallHeap.kPointerSize : Int)) = some x1 ∧
      x1.filler_.snapshot_.edges_ = smallExplorer.filler_.snapshot_.edges_ ∧
      x1.filler_.snapshot_.entries_[1]? = smallExplorer.filler_.snapshot_.entries_[1]? ∧
      x1.marks_ = smallExplorer.marks_) :=
  ⟨(non_essential_targets_are_elided smallHeap smallLinks smallAllocator (fun i => toString i)
      (fun i => toString i) smallExplorer 2 1 3 0 3 32 0 smallExplorer_map (by decide)
      (by decide) (by decide) (by decide) (by decide)).1 (by decide),
    ((non_essential_targets_are_elided smallHeap smallLinks smallAllocator
      (fun i => toString i) (fun i => toString i) smallExplorer 2 1 3 9 3 32 0
      smallExplorer_map (by decide) (by decide) (by decide) (by decide) (by decide)).2
      (by decide) (by decide)).2.2⟩

/-! ### The references of the roots -/

theorem classify_length : ∀ (all strong : List Nat), (classify strong all).length = all.length := by
  intro all
  induction all with
  | nil => intro strong; cases strong <;> rfl
  | cons a rest ih =>
    intro strong
    cases strong with
    | nil => simp [classify, ih]
    | cons s ss =>
      rw [classify]
      split <;> simp [ih]

/-- When the strong references are a subsequence of all references, each of them is
matched. -/
theorem classify_count_of_sublist : ∀ (all strong : List Nat), strong.Sublist all →
    (classify strong all).count true = strong.length := by
  intro all
  induction all with
  | nil =>
    intro strong h
    rw [List.sublist_nil.mp h]
    rfl
  | cons a rest ih =>
    intro strong h
    cases strong with
    | nil =>
      rw [classify, List.count_cons_of_ne (by decide), ih [] (List.nil_sublist _)]
    | cons s ss =>
      rw [classify]
      by_cases hs : s = a
      · rw [if_pos hs, List.count_cons_self]
        subst hs
        rw [ih ss (List.cons_sublist_cons.mp h)]
        rfl
      · rw [if_neg hs, List.count_cons_of_ne (by decide)]
        apply ih
        rcases List.sublist_cons_iff.mp h with h1 | ⟨r, hr, _⟩
        · exact h1
        · exact absurd (List.cons.inj hr).1 hs

theorem subrootReferences_append (a b : List ExplorerCall) :
    subrootReferences (a ++ b) = subrootReferences a ++ subrootReferences b := by
  induction a with
  | nil => rfl
  | cons c a ih =>
    cases c with
    | SetGcSubrootReference tag w o => simp [subrootReferences, ih]
    | TagBuiltinCodeObject code i => simp [subrootReferences, ih]

/-- The tag to read in the next round is there. -/
theorem TagsCover_next (tags : List IndexTag) (n tags_index all_index : Nat) (t : IndexTag)
    (hcover : TagsCover tags n) (ht : tags[tags_index]? = some t) (hlt : all_index < t.index)
    (hn : all_index + 1 < n) :
    ∃ t1, tags[if t.index = all_index + 1 then tags_index + 1 else tags_index]? = some t1 ∧
      all_index + 1 < t1.index := by
  obtain ⟨hpair, _, hlast⟩ := hcover
  by_cases he : t.index = all_index + 1
  · rw [if_pos he]
    have hti := lt_length_of_getElem? ht
    obtain ⟨tl, hl, hln⟩ := hlast (by omega)
    rw [List.getLast?_eq_getElem?] at hl
    have hnext : tags_index + 1 < tags.length := by
      by_contra hge
      have : tags.length - 1 = tags_index := by omega
      rw [this, ht] at hl
      cases hl
      omega
    refine ⟨tags[tags_index + 1], List.getElem?_eq_getElem hnext, ?_⟩
    have h1 := List.pairwise_iff_getElem.mp hpair tags_index (tags_index + 1) hti hnext
      (by omega)
    have h2 : tags[tags_index] = t := by
      rw [List.getElem?_eq_getElem hti] at ht
      exact Option.some.inj ht
    rw [h2] at h1
    omega
  · rw [if_neg he]
    exact ⟨t, ht, by omega⟩

/-- The loop of `FillReferences` from a round on: one `SetGcSubrootReference` call for each
reference that remains, with the strength that the comparison of the lists gives. -/
theorem FillReferencesLoop_spec (r : RootsReferencesExtractor) (kBuiltins : Nat)
    (hcover : TagsCover r.reference_tags_ r.all_references_.length) :
    ∀ (fuel strong_index all_index tags_index builtin_index : Nat) (calls : List ExplorerCall),
      fuel + all_index = r.all_references_.length →
      (all_index < r.all_references_.length →
        ∃ t, r.reference_tags_[tags_index]? = some t ∧ all_index < t.index) →
      ∃ new, r.FillReferencesLoop kBuiltins fuel strong_index all_index tags_index
          builtin_index calls =
          some (calls ++ new, strong_index +
            (classify (r.strong_references_.drop strong_index)
              (r.all_references_.drop all_index)).count true) ∧
        subrootReferences new = (r.all_references_.drop all_index).zip
          (classify (r.strong_references_.drop strong_index)
            (r.all_references_.drop all_index)) := by
  intro fuel
  induction fuel with
  | zero =>
    intro si ai ti bi calls hf _
    have hd : r.all_references_.drop ai = [] := List.drop_eq_nil_of_le (by omega)
    refine ⟨[], ?_, ?_⟩
    · rw [RootsReferencesExtractor.FillReferencesLoop, hd, List.append_nil]
      cases r.strong_references_.drop si <;> rfl
    · rw [hd]
      rfl
  | succ fuel ih =>
    intro si ai ti bi calls hf htag
    have hai : ai < r.all_references_.length := by omega
    obtain ⟨t, ht, hlt⟩ := htag hai
    have hget := List.getElem?_eq_getElem hai
    have hd : r.all_references_.drop ai =
        r.all_references_[ai] :: r.all_references_.drop (ai + 1) :=
      List.drop_eq_getElem_cons hai
    have hnext : ai + 1 < r.all_references_.length →
        ∃ t1, r.reference_tags_[if t.index = ai + 1 then ti + 1 else ti]? = some t1 ∧
          ai + 1 < t1.index := TagsCover_next _ _ ti ai t hcover ht hlt
    rw [RootsReferencesExtractor.FillReferencesLoop, hget]
    simp only [ht]
    by_cases hs : si < r.strong_references_.length ∧
        r.strong_references_[si]? = some r.all_references_[ai]
    · have hstrong : (decide (si < r.strong_references_.length) &&
          decide (r.strong_references_[si]? = some r.all_references_[ai])) = true := by
        simp [hs.1, hs.2]
      obtain ⟨new, h1, h2⟩ := ih (si + 1) (ai + 1)
        (if t.index = ai + 1 then ti + 1 else ti)
        (if t.tag = kBuiltins then bi + 1 else bi)
        (calls ++ [ExplorerCall.SetGcSubrootReference t.tag false r.all_references_[ai]] ++
          (if t.tag = kBuiltins then
            [ExplorerCall.TagBuiltinCodeObject r.all_references_[ai] bi] else []))
        (by omega) hnext
      have hds : r.strong_references_.drop si =
          r.all_references_[ai] :: r.strong_references_.drop (si + 1) := by
        rw [List.drop_eq_getElem_cons hs.1]
        congr 1
        have := hs.2
        rw [List.getElem?_eq_getElem hs.1] at this
        exact Option.some.inj this
      refine ⟨[ExplorerCall.SetGcSubrootReference t.tag false r.all_references_[ai]] ++
          (if t.tag = kBuiltins then
            [ExplorerCall.TagBuiltinCodeObject r.all_references_[ai] bi] else []) ++ new,
        ?_, ?_⟩
      · simp only [hstrong, if_true, Bool.not_true]
        rw [h1, hd, hds, classify, if_pos rfl, List.count_cons_self]
        simp only [List.append_assoc]
        congr 2
        omega
      · rw [subrootReferences_append, subrootReferences_append, h2, hd, hds, classify,
          if_pos rfl]
        split <;> rfl
    · have hstrong : (decide (si < r.strong_references_.length) &&
          decide (r.strong_references_[si]? = some r.all_references_[ai])) = false := by
        rw [Bool.and_eq_false_iff]
        by_cases h1 : si < r.strong_references_.length
        · right
          simp only [decide_eq_false_iff_not]
          exact fun h2 => hs ⟨h1, h2⟩
        · left
          simp [h1]
      obtain ⟨new, h1, h2⟩ := ih si (ai + 1)
        (if t.index = ai + 1 then ti + 1 else ti)
        (if t.tag = kBuiltins then bi + 1 else bi)
        (calls ++ [ExplorerCall.SetGcSubrootReference t.tag true r.all_references_[ai]] ++
          (if t.tag = kBuiltins then
            [ExplorerCall.TagBuiltinCodeObject r.all_references_[ai] bi] else []))
        (by omega) hnext
      have hcl : classify (r.strong_references_.drop si)
          (r.all_references_[ai] :: r.all_references_.drop (ai + 1)) =
          false :: classify (r.strong_references_.drop si)
            (r.all_references_.drop (ai + 1)) := by
        by_cases hlen : si < r.strong_references_.length
        · rw [List.drop_eq_getElem_cons hlen, classify, if_neg]
          intro heq
          apply hs
          refine ⟨hlen, ?_⟩
          rw [List.getElem?_eq_getElem hlen, heq]
        · rw [List.drop_eq_nil_of_le (by omega)]
          rfl
      refine ⟨[ExplorerCall.SetGcSubrootReference t.tag true r.all_references_[ai]] ++
          (if t.tag = kBuiltins then
            [ExplorerCall.TagBuiltinCodeObject r.all_references_[ai] bi] else []) ++ new,
        ?_, ?_⟩
      · simp only [hstrong, Bool.false_eq_true, if_false, Bool.not_false]
        rw [h1, hd, hcl, List.count_cons_of_ne (by decide)]
        simp only [List.append_assoc]
      · rw [subrootReferences_append, subrootReferences_append, h2, hd, hcl]
        split <;> rfl

theorem length_filter_weak : ∀ (l : List (Nat × Bool)),
    (l.filter (fun p => !p.2)).length = (l.map Prod.snd).count false := by
  intro l
  induction l with
  | nil => rfl
  | cons p l ih =>
    obtain ⟨a, b⟩ := p
    cases b
    · rw [List.filter_cons_of_pos (by rfl), List.map_cons, List.count_cons_self,
        List.length_cons, ih]
    · rw [List.filter_cons_of_neg (by simp), List.map_cons,
        List.count_cons_of_ne (show false ≠ (a, true).2 by simp), ih]

theorem count_true_add_false : ∀ (l : List Bool),
    l.count true + l.count false = l.length := by
  intro l
  induction l with
  | nil => rfl
  | cons b l ih =>
    cases b
    · rw [List.count_cons_of_ne (by decide), List.count_cons_self, List.length_cons]
      omega
    · rw [List.count_cons_self, List.count_cons_of_ne (by decide), List.length_cons]
      omega

/-- C33: root edges are classified by comparing the strong list with the all list. With tags
that cover the references, `FillReferences` has a result: it makes one `SetGcSubrootReference`
call for each element of `all_references_`, in their order, strong exactly when the element
equals the next element of `strong_references_` that is not yet matched (`classify`) and weak
otherwise. Whenever `strong_references_` is a subsequence of `all_references_`, the last
value of `strong_index` is `strong_references_.size()`, as the final `CHECK_EQ` asserts, and
the number of the references marked weak is `all_references_.size()` minus
`strong_references_.size()`. -/
theorem root_edges_classified_by_lists (r : RootsReferencesExtractor) (kBuiltins : Nat)
    (hcover : TagsCover r.reference_tags_ r.all_references_.length) :
    ∃ (calls : List ExplorerCall) (strong_index : Nat),
      r.FillReferences kBuiltins = some (calls, strong_index) ∧
      (subrootReferences calls).map Prod.fst = r.all_references_ ∧
      (subrootReferences calls).map Prod.snd =
        classify r.strong_references_ r.all_references_ ∧
      (r.strong_references_.Sublist r.all_references_ →
        strong_index = r.strong_references_.length ∧
        ((subrootReferences calls).filter (fun p => !p.2)).length =
          r.all_references_.length - r.strong_references_.length) := by
  obtain ⟨new, h1, h2⟩ := FillReferencesLoop_spec r kBuiltins hcover
    r.all_references_.length 0 0 0 0 [] rfl (by
      intro hpos
      obtain ⟨hpair, hall, hlast⟩ := hcover
      obtain ⟨tl, hl, _⟩ := hlast hpos
      have hne : r.reference_tags_ ≠ [] := by
        intro h
        rw [h] at hl
        exact absurd hl (by simp)
      have h0 : 0 < r.reference_tags_.length := List.length_pos.mpr hne
      exact ⟨r.reference_tags_[0], List.getElem?_eq_getElem h0,
        hall _ (List.getElem_mem h0)⟩)
  rw [List.drop_zero, List.drop_zero, List.nil_append, Nat.zero_add] at h1
  rw [List.drop_zero, List.drop_zero] at h2
  have hlen := classify_length r.all_references_ r.strong_references_
  refine ⟨new, _, h1, ?_, ?_, ?_⟩
  · rw [h2, List.map_fst_zip]
    omega
  · rw [h2, List.map_snd_zip]
    omega
  · intro hsub
    have hcount := classify_count_of_sublist _ _ hsub
    refine ⟨hcount, ?_⟩
    have hsnd : (subrootReferences new).map Prod.snd =
        classify r.strong_references_ r.all_references_ := by
      rw [h2, List.map_snd_zip]
      omega
    have hadd := count_true_add_false (classify r.strong_references_ r.all_references_)
    rw [length_filter_weak, hsnd]
    omega

/-- The strong references 1 and 3 among all references 1, 2, 3 and 4, with two tags. -/
theorem root_edges_classified_by_lists_witness :
    ∃ (calls : List ExplorerCall) (strong_index : Nat),
      RootsReferencesExtractor.FillReferences ⟨true, [1, 3], [1, 2, 3, 4], 4, [⟨2, 0⟩, ⟨4, 1⟩]⟩
        7 = some (calls, strong_index) ∧
      (subrootReferences calls).map Prod.fst = [1, 2, 3, 4] ∧
      (subrootReferences calls).map Prod.snd = [true, false, true, false] ∧
      strong_index = 2 :=
  match root_edges_classified_by_lists ⟨true, [1, 3], [1, 2, 3, 4], 4, [⟨2, 0⟩, ⟨4, 1⟩]⟩ 7
    ⟨by decide, by decide, fun _ => ⟨⟨4, 1⟩, rfl, rfl⟩⟩ with
  | ⟨calls, strong_index, h1, h2, h3, h4⟩ =>
    ⟨calls, strong_index, h1, h2, h3.trans (by decide), (h4 (by decide)).1⟩

/-- Every id of a synthetic root entry is odd. -/
theorem synthetic_root_ids_odd (n : Nat) (kTagNames : Nat → String) :
    ∀ e ∈ (HeapSnapshot.AddSyntheticRootEntries n kTagNames (HeapSnapshot.ctor n)).2.entries_,
      e.id_ % 2 = 1 := by
  have hres : HeapSnapshot.AddSyntheticRootEntries n kTagNames (HeapSnapshot.ctor n) =
      HeapSnapshot.AddGcSubrootEntries kTagNames n 0 kGcRootsFirstSubrootId
        (HeapSnapshot.ctor n).AddRootEntry.2.AddGcRootsEntry.2 := rfl
  obtain ⟨_, h2, _⟩ := AddGcSubrootEntries_spec kTagNames n 0 kGcRootsFirstSubrootId
    (HeapSnapshot.ctor n).AddRootEntry.2.AddGcRootsEntry.2 (by decide)
  intro e he
  rw [hres, h2] at he
  rcases List.mem_append.mp he with he | he
  · have hl : (HeapSnapshot.ctor n).AddRootEntry.2.AddGcRootsEntry.2.entries_ =
        [⟨HeapEntryType.kSynthetic, 0, -1, 0, "", kInternalRootObjectId, 0⟩,
          ⟨HeapEntryType.kSynthetic, 0, -1, 0, "(GC roots)", kGcRootsObjectId, 0⟩] := rfl
    rw [hl] at he
    simp only [List.mem_cons, List.mem_singleton, List.not_mem_nil, or_false] at he
    rcases he with rfl | rfl <;> rfl
  · obtain ⟨t, _, rfl⟩ := List.mem_map.mp he
    simp only [kGcRootsFirstSubrootId, kGcRootsObjectId, kInternalRootObjectId, kObjectIdStep,
      kSnapshotObjectIdRange]
    omega

/-- C34: the parity convention of the code. Every id that `GenerateId` returns is even (the
hash is shifted left by one, in 32 bits); every id that `FindOrAddEntry` returns in a
reachable state of the registry is odd, and so is the id of every synthetic root entry: they
start at `kInternalRootObjectId` = 1 and advance by `kObjectIdStep` = 2. So an id made by
`GenerateId` is never the id of a heap-tracked object or of a synthetic root. -/
theorem GenerateId_even_others_odd (n : Nat) (kTagNames : Nat → String)
    (s s1 : HeapObjectsMap) (addr size id : Nat) (accessed : Bool) (h : Reachable n s)
    (hf : FindOrAddEntry s addr size accessed = some (id, s1))
    (HashSequentialString : List Nat → Nat → Nat → Nat) (ComputeIntegerHash : Nat → Nat)
    (hashSeed : Nat) (info : RetainedObjectInfo) :
    GenerateId HashSequentialString ComputeIntegerHash hashSeed info % 2 = 0 ∧
    id % 2 = 1 ∧
    kInternalRootObjectId = 1 ∧ kObjectIdStep = 2 ∧
    (∀ e ∈ (HeapSnapshot.AddSyntheticRootEntries n kTagNames
        (HeapSnapshot.ctor n)).2.entries_, e.id_ % 2 = 1) ∧
    GenerateId HashSequentialString ComputeIntegerHash hashSeed info ≠ id ∧
    (∀ e ∈ (HeapSnapshot.AddSyntheticRootEntries n kTagNames
        (HeapSnapshot.ctor n)).2.entries_,
      GenerateId HashSequentialString ComputeIntegerHash hashSeed info ≠ e.id_) := by
  have heven := GenerateId_even HashSequentialString ComputeIntegerHash hashSeed info
  have hodd := FindOrAddEntry_id_odd s s1 (Reachable_Inv n s h) addr size id accessed hf
  have hroots := synthetic_root_ids_odd n kTagNames
  refine ⟨heven, hodd, rfl, rfl, hroots, ?_, ?_⟩
  · intro heq
    omega
  · intro e he heq
    have := hroots e he
    omega

/-- The first id of a fresh registry, 5, and the id 6 that `GenerateId` makes from the hash
3. -/
theorem GenerateId_even_others_odd_witness :
    FindOrAddEntry (ctor 0) 8 4 true = some (5, ⟨7, [(8, 1)], [dummyEntry, ⟨5, 8, 4, true⟩]⟩) ∧
    GenerateId (fun _ _ _ => 0) (fun _ => 0) 0 ⟨3, [], -1⟩ % 2 = 0 ∧
    (5 : Nat) % 2 = 1 ∧
    GenerateId (fun _ _ _ => 0) (fun _ => 0) 0 ⟨3, [], -1⟩ ≠ 5 :=
  match GenerateId_even_others_odd 0 (fun _ => "") (ctor 0) _ 8 4 5 true Reachable.ctor rfl
    (fun _ _ _ => 0) (fun _ => 0) 0 ⟨3, [], -1⟩ with
  | ⟨h1, h2, _, _, _, h6, _⟩ => ⟨rfl, h1, h2, h6⟩

/-- C40: `MoveObject` reports whether a tracked object moved, and does nothing otherwise. In
every reachable state of the registry the call returns; its result is true exactly when
`from` differs from `to` and `from` was tracked; when `from` equals `to`, or when neither
address is tracked, the result is false and the state is unchanged; and in every case
`next_id_` and the number of entries are what they were. -/
theorem MoveObject_reports_tracked_move (n : Nat) (s : HeapObjectsMap) (from_ to_ : Nat)
    (size : Int) (h : Reachable n s) :
    ∃ (moved : Bool) (s1 : HeapObjectsMap), MoveObject s from_ to_ size = some (moved, s1) ∧
      (moved = true ↔ (from_ ≠ to_ ∧ HashMap.Lookup s.entries_map_ from_ ≠ none)) ∧
      ((from_ = to_ ∨ (HashMap.Lookup s.entries_map_ from_ = none ∧
          HashMap.Lookup s.entries_map_ to_ = none)) → moved = false ∧ s1 = s) ∧
      s1.next_id_ = s.next_id_ ∧ s1.entries_.length = s.entries_.length := by
  by_cases hne : from_ = to_
  · refine ⟨false, s, by simp [MoveObject, hne], ?_, fun _ => ⟨rfl, rfl⟩, rfl, rfl⟩
    constructor
    · intro hc
      exact absurd hc (by simp)
    · intro hc
      exact absurd hne hc.1
  · rcases MoveObject_cases s (Reachable_Inv n s h) from_ to_ size hne with
      ⟨hf, ht, hm⟩ | ⟨tv, et, hf, ht, _, _, _, hm⟩ | ⟨fv, ef, hf, _, ht, _, _, hm⟩ |
      ⟨fv, tv, ef, et, hf, _, ht, _, _, _, _, _, _, hm⟩
    · refine ⟨false, s, hm, ?_, fun _ => ⟨rfl, rfl⟩, rfl, rfl⟩
      constructor
      · intro hc
        exact absurd hc (by simp)
      · intro hc
        exact absurd hf hc.2
    · refine ⟨false, _, hm, ?_, ?_, rfl, by simp⟩
      · constructor
        · intro hc
          exact absurd hc (by simp)
        · intro hc
          exact absurd hf hc.2
      · rintro (hc | ⟨_, hc⟩)
        · exact absurd hc hne
        · rw [ht] at hc
          exact absurd hc (by simp)
    · refine ⟨true, _, hm, ?_, ?_, rfl, by simp⟩
      · constructor
        · intro _
          exact ⟨hne, by rw [hf]; simp⟩
        · intro _
          rfl
      · rintro (hc | ⟨hc, _⟩)
        · exact absurd hc hne
        · rw [hf] at hc
          exact absurd hc (by simp)
    · refine ⟨true, _, hm, ?_, ?_, rfl, by simp⟩
      · constructor
        · intro _
          exact ⟨hne, by rw [hf]; simp⟩
        · intro _
          rfl
      · rintro (hc | ⟨hc, _⟩)
        · exact absurd hc hne
        · rw [hf] at hc
          exact absurd hc (by simp)

/-- The object at the address 8 of a registry that tracks it moves to the address 16. -/
theorem MoveObject_reports_tracked_move_witness :
    Reachable 0 ⟨7, [(8, 1)], [dummyEntry, ⟨5, 8, 4, true⟩]⟩ ∧
    ∃ (moved : Bool) (s1 : HeapObjectsMap),
      MoveObject ⟨7, [(8, 1)], [dummyEntry, ⟨5, 8, 4, true⟩]⟩ 8 16 4 = some (moved, s1) ∧
      (moved = true ↔ ((8 : Nat) ≠ 16 ∧
        HashMap.Lookup (⟨7, [(8, 1)], [dummyEntry, ⟨5, 8, 4, true⟩]⟩ :
          HeapObjectsMap).entries_map_ 8 ≠ none)) ∧
      s1.next_id_ = 7 ∧ s1.entries_.length = 2 :=
  ⟨reachable_one,
    match MoveObject_reports_tracked_move 0 ⟨7, [(8, 1)], [dummyEntry, ⟨5, 8, 4, true⟩]⟩ 8 16 4
      reachable_one with
    | ⟨moved, s1, h1, h2, _, h4, h5⟩ => ⟨moved, s1, h1, h2, h4, h5⟩⟩

theorem scanInterval_spec (x : Nat) : ∀ (entries : List EntryInfo) (size count : Nat),
    (scanInterval x entries size count).1 = entries.dropWhile (fun e => decide (e.id < x)) ∧
    (scanInterval x entries size count).2.2 =
      count + (entries.takeWhile (fun e => decide (e.id < x))).length := by
  intro entries
  induction entries with
  | nil => intro size count; exact ⟨rfl, rfl⟩
  | cons e rest ih =>
    intro size count
    rw [scanInterval]
    by_cases h : e.id < x
    · rw [if_pos h, List.dropWhile_cons_of_pos (by simpa using h),
        List.takeWhile_cons_of_pos (by simpa using h)]
      obtain ⟨h1, h2⟩ := ih ((size + e.size) % 4294967296) (count + 1)
      refine ⟨h1, ?_⟩
      rw [h2, List.length_cons]
      omega
    · rw [if_neg h, List.dropWhile_cons_of_neg (by simpa using h),
        List.takeWhile_cons_of_neg (by simpa using h)]
      exact ⟨rfl, rfl⟩

/-- In a list with increasing ids the entries before the first id that is not below `x` are
the entries with an id below `x`. -/
theorem takeWhile_eq_filter_of_sorted (x : Nat) : ∀ (entries : List EntryInfo),
    (entries.map EntryInfo.id).Pairwise (· < ·) →
    entries.takeWhile (fun e => decide (e.id < x)) =
      entries.filter (fun e => decide (e.id < x)) := by
  intro entries
  induction entries with
  | nil => intro _; rfl
  | cons e rest ih =>
    intro h
    rw [List.map_cons, List.pairwise_cons] at h
    by_cases hx : e.id < x
    · rw [List.takeWhile_cons_of_pos (by simpa using hx),
        List.filter_cons_of_pos (by simpa using hx), ih h.2]
    · rw [List.takeWhile_cons_of_neg (by simpa using hx),
        List.filter_cons_of_neg (by simpa using hx)]
      symm
      rw [List.filter_eq_nil_iff]
      intro a ha
      have := h.1 a.id (List.mem_map_of_mem _ ha)
      simp only [decide_eq_true_eq]
      omega

theorem scanIntervals_suffix : ∀ (ids : List Nat) (entries : List EntryInfo),
    (scanIntervals ids entries).1 <:+ entries := by
  intro ids
  induction ids with
  | nil => intro entries; exact List.suffix_refl _
  | cons id ids ih =>
    intro entries
    rw [scanIntervals]
    refine (ih _).trans ?_
    rw [(scanInterval_spec id entries 0 0).1]
    exact List.dropWhile_suffix _

/-- With the id of the last interval above all ids, the scan ends at the end of the
entries. -/
theorem scanIntervals_end : ∀ (ids : List Nat) (entries : List EntryInfo) (next : Nat),
    (∀ e ∈ entries, e.id < next) → (scanIntervals (ids ++ [next]) entries).1 = [] := by
  intro ids
  induction ids with
  | nil =>
    intro entries next h
    rw [List.nil_append, scanIntervals, scanIntervals, (scanInterval_spec next entries 0 0).1,
      List.dropWhile_eq_nil_iff]
    intro e he
    simpa using h e he
  | cons id ids ih =>
    intro entries next h
    rw [List.cons_append, scanIntervals]
    apply ih
    intro e he
    rw [(scanInterval_spec id entries 0 0).1] at he
    exact h e ((List.dropWhile_suffix _).subset he)

/-- Until the counter wraps the entries are sorted: along every sequence of
`FindOrAddEntry`, `MoveObject` and `RemoveDeadEntries` calls on a fresh registry, as long as
the 32-bit counter `next_id_` has not wrapped (`kFirstAvailableObjectId` plus `kObjectIdStep` times the number of ids allocated
is below `2 ^ 32`), the state is reachable, the first entry is the dummy with the id 0, and
the ids of the entries are strictly increasing in list order. The forward scan of
`PushHeapObjectsStats` for an interval then passes exactly the entries with an id below the
id of the interval, and after the last interval, whose id is `next_id_`, it is at the end of
the entries, as the closing `DCHECK` asserts. -/
theorem entries_sorted_by_id_until_wrap (n : Nat) (ops : List Op) (s : HeapObjectsMap)
    (ids : List Nat) (hv : ∀ op ∈ ops, Op.valid op) (hr : run (ctor n) ops = some (s, ids))
    (hb : kFirstAvailableObjectId n + kObjectIdStep * ids.length < kSnapshotObjectIdRange) :
    Reachable n s ∧ s.entries_[0]? = some dummyEntry ∧ dummyEntry.id = 0 ∧
    (s.entries_.map EntryInfo.id).Pairwise (· < ·) ∧
    (∀ x, (scanInterval x s.entries_ 0 0).2.2 =
        (s.entries_.filter (fun e => decide (e.id < x))).length ∧
      (scanInterval x s.entries_ 0 0).1 =
        s.entries_.filter (fun e => !decide (e.id < x))) ∧
    (∀ time_interval_ids,
      (scanIntervals (time_interval_ids ++ [s.next_id_]) s.entries_).1 = []) := by
  have hreach := run_Reachable n ops (ctor n) s ids Reachable.ctor hv hr
  obtain ⟨⟨hsorted, hbelow⟩, _, _⟩ := ids_sorted_until_wrap n ops s ids hv hr hb
  refine ⟨hreach, (Reachable_Inv n s hreach).head_dummy, rfl, hsorted, ?_, ?_⟩
  · intro x
    obtain ⟨h1, h2⟩ := scanInterval_spec x s.entries_ 0 0
    have htf := takeWhile_eq_filter_of_sorted x s.entries_ hsorted
    refine ⟨by rw [h2, htf, Nat.zero_add], ?_⟩
    rw [h1]
    have hsplit := List.takeWhile_append_dropWhile (fun e => decide (e.id < x)) s.entries_
    have hpart : s.entries_.filter (fun e => !decide (e.id < x)) =
        (s.entries_.dropWhile (fun e => decide (e.id < x))).filter
          (fun e => !decide (e.id < x)) := by
      conv_lhs => rw [← hsplit]
      rw [List.filter_append, htf, List.filter_filter]
      simp
    rw [hpart]
    symm
    rw [List.filter_eq_self]
    intro a ha
    have hidle : (s.entries_.dropWhile (fun e => decide (e.id < x))).map EntryInfo.id
        |>.Pairwise (· < ·) :=
      (hsorted.sublist ((List.dropWhile_suffix _).sublist.map _))
    cases hd : s.entries_.dropWhile (fun e => decide (e.id < x)) with
    | nil => rw [hd] at ha; exact absurd ha (List.not_mem_nil a)
    | cons b rest =>
      have hb0 : ¬ b.id < x := by
        have := List.head_dropWhile_not (fun e => decide (e.id < x)) s.entries_
          (by rw [hd]; exact List.cons_ne_nil _ _)
        simp only [hd, List.head_cons] at this
        simpa using this
      rw [hd] at ha hidle
      rw [List.map_cons, List.pairwise_cons] at hidle
      rcases List.mem_cons.mp ha with rfl | ha
      · simpa using hb0
      · have := hidle.1 a.id (List.mem_map_of_mem _ ha)
        simp only [Bool.not_eq_true', decide_eq_false_iff_not]
        omega
  · intro time_interval_ids
    apply scanIntervals_end
    intro e he
    exact hbelow e.id (List.mem_map_of_mem _ he)

/-- Two insertions, a sweep, a move and another insertion leave the ids 0, 5 and 9. -/
theorem entries_sorted_by_id_until_wrap_witness :
    run (ctor 0) [Op.findOrAdd 8 4 true, Op.findOrAdd 16 4 false, Op.sweep,
        Op.move 8 24 4, Op.findOrAdd 8 4 true] =
      some (⟨11, [(24, 1), (8, 2)], [dummyEntry, ⟨5, 24, 4, false⟩, ⟨9, 8, 4, true⟩]⟩, [5, 7, 9]) ∧
    ([dummyEntry, ⟨5, 24, 4, false⟩, ⟨9, 8, 4, true⟩].map EntryInfo.id).Pairwise (· < ·) :=
  ⟨rfl, (entries_sorted_by_id_until_wrap 0
    [Op.findOrAdd 8 4 true, Op.findOrAdd 16 4 false, Op.sweep, Op.move 8 24 4,
      Op.findOrAdd 8 4 true]
    ⟨11, [(24, 1), (8, 2)], [dummyEntry, ⟨5, 24, 4, false⟩, ⟨9, 8, 4, true⟩]⟩ [5, 7, 9]
    (by simp [Op.valid]) rfl (by decide)).2.2.2.1⟩

/-! ### The registry in the hands of its callers -/

theorem getElem?_set_cases {α : Type} (l : List α) (i j : Nat) (a b : α)
    (h : (l.set i a)[j]? = some b) : (j = i ∧ b = a) ∨ (j ≠ i ∧ l[j]? = some b) := by
  by_cases hij : i = j
  · subst hij
    have hlt : i < l.length := by
      have := lt_length_of_getElem? h
      rwa [List.length_set] at this
    rw [List.getElem?_set_self hlt] at h
    exact Or.inl ⟨rfl, (Option.some.inj h).symm⟩
  · rw [List.getElem?_set_ne hij] at h
    exact Or.inr ⟨fun h2 => hij h2.symm, h⟩

/-- Every state that the callers reach is a state of the registry. -/
theorem CallerReachable_Reachable (n : Nat) (scanning : Bool) (s : HeapObjectsMap)
    (h : CallerReachable n scanning s) : Reachable n s := by
  induction h with
  | ctor => exact Reachable.ctor
  | updateSize _ ha hu ih =>
    unfold UpdateObjectSize at hu
    cases hf : FindOrAddEntry _ _ (toUnsigned _) false with
    | none => rw [hf] at hu; simp at hu
    | some r =>
      rw [hf] at hu
      obtain ⟨id, s2⟩ := r
      simp only [Option.map_some', Option.some.injEq] at hu
      subst hu
      exact Reachable.findOrAdd ih ha hf
  | move _ hf ht hm ih => exact Reachable.move ih hf ht hm
  | start _ ih => exact ih
  | visit _ ha hf ih => exact Reachable.findOrAdd ih ha hf
  | sweep _ hr ih => exact Reachable.sweep ih hr

/-- The entries after `FindOrAddEntry`: each is an entry of before, or it has the address
and the flag of the call. -/
theorem FindOrAddEntry_entries (s s1 : HeapObjectsMap) (hinv : Inv s) (addr size id : Nat)
    (accessed : Bool) (hf : FindOrAddEntry s addr size accessed = some (id, s1)) :
    ∀ (j : Nat) (e1 : EntryInfo), s1.entries_[j]? = some e1 →
      s.entries_[j]? = some e1 ∨ (e1.addr = addr ∧ e1.accessed = accessed) := by
  intro j e1 hj
  rcases FindOrAddEntry_cases s hinv addr size accessed with
    ⟨v, e, _, hv0, he, hea, heq⟩ | ⟨hl, heq⟩
  · rw [heq] at hf
    simp only [Option.some.injEq, Prod.mk.injEq] at hf
    obtain ⟨_, rfl⟩ := hf
    rcases getElem?_set_cases _ _ _ _ _ (show (List.set _ _ _)[j]? = some e1 from hj) with ⟨_, rfl⟩ | ⟨_, h2⟩
    · exact Or.inr ⟨hea, rfl⟩
    · exact Or.inl h2
  · rw [heq] at hf
    simp only [Option.some.injEq, Prod.mk.injEq] at hf
    obtain ⟨_, rfl⟩ := hf
    change (s.entries_ ++ [_])[j]? = some e1 at hj
    by_cases hlt : j < s.entries_.length
    · rw [List.getElem?_append_left hlt] at hj
      exact Or.inl hj
    · rw [List.getElem?_append_right (by omega)] at hj
      cases hk : j - s.entries_.length with
      | zero =>
        rw [hk] at hj
        simp only [List.getElem?_cons_zero, Option.some.injEq] at hj
        subst hj
        exact Or.inr ⟨rfl, rfl⟩
      | succ k =>
        rw [hk] at hj
        simp at hj

/-- The entries after `MoveObject` carry the flags they had. -/
theorem MoveObject_flags (s s1 : HeapObjectsMap) (hinv : Inv s) (from_ to_ : Nat) (size : Int)
    (moved : Bool) (hm : MoveObject s from_ to_ size = some (moved, s1)) :
    ∀ (j : Nat) (e1 : EntryInfo), s1.entries_[j]? = some e1 →
      ∃ e, s.entries_[j]? = some e ∧ e1.accessed = e.accessed := by
  intro j e1 hj
  by_cases hne : from_ = to_
  · simp only [MoveObject, hne, if_true, Option.some.injEq, Prod.mk.injEq] at hm
    obtain ⟨_, rfl⟩ := hm
    exact ⟨e1, hj, rfl⟩
  · rcases MoveObject_cases s hinv from_ to_ size hne with
      ⟨_, _, heq⟩ | ⟨tv, et, _, _, _, het, _, heq⟩ | ⟨fv, ef, _, _, _, hef, _, heq⟩ |
      ⟨fv, tv, ef, et, _, _, _, _, _, hef, het, _, _, heq⟩
    · rw [heq] at hm
      simp only [Option.some.injEq, Prod.mk.injEq] at hm
      obtain ⟨_, rfl⟩ := hm
      exact ⟨e1, hj, rfl⟩
    · rw [heq] at hm
      simp only [Option.some.injEq, Prod.mk.injEq] at hm
      obtain ⟨_, rfl⟩ := hm
      rcases getElem?_set_cases _ _ _ _ _ (show (List.set _ _ _)[j]? = some e1 from hj) with ⟨rfl, rfl⟩ | ⟨_, h2⟩
      · exact ⟨et, het, rfl⟩
      · exact ⟨e1, h2, rfl⟩
    · rw [heq] at hm
      simp only [Option.some.injEq, Prod.mk.injEq] at hm
      obtain ⟨_, rfl⟩ := hm
      rcases getElem?_set_cases _ _ _ _ _ (show (List.set _ _ _)[j]? = some e1 from hj) with ⟨rfl, rfl⟩ | ⟨_, h2⟩
      · exact ⟨ef, hef, rfl⟩
      · exact ⟨e1, h2, rfl⟩
    · rw [heq] at hm
      simp only [Option.some.injEq, Prod.mk.injEq] at hm
      obtain ⟨_, rfl⟩ := hm
      rcases getElem?_set_cases _ _ _ _ _ (show (List.set _ _ _)[j]? = some e1 from hj) with ⟨rfl, rfl⟩ | ⟨_, h2⟩
      · exact ⟨ef, hef, rfl⟩
      · rcases getElem?_set_cases _ _ _ _ _ h2 with ⟨rfl, rfl⟩ | ⟨_, h3⟩
        · exact ⟨et, het, rfl⟩
        · exact ⟨e1, h3, rfl⟩

/-- Between two scans no entry is marked accessed, and during a scan every entry that is
marked accessed has its address. -/
theorem CallerReachable_flags (n : Nat) (scanning : Bool) (s : HeapObjectsMap)
    (h : CallerReachable n scanning s) :
    (scanning = false →
      ∀ (j : Nat) (e : EntryInfo), j ≠ 0 → s.entries_[j]? = some e → e.accessed = false) ∧
    (∀ (j : Nat) (e : EntryInfo), j ≠ 0 → s.entries_[j]? = some e → e.accessed = true →
      e.addr ≠ 0) := by
  have key : ∀ (t : HeapObjectsMap),
      (∀ (j : Nat) (e : EntryInfo), j ≠ 0 → t.entries_[j]? = some e → e.accessed = false) →
      ∀ (j : Nat) (e : EntryInfo), j ≠ 0 → t.entries_[j]? = some e → e.accessed = true →
        e.addr ≠ 0 := by
    intro t hq j e hj he hacc
    rw [hq j e hj he] at hacc
    exact absurd hacc (by decide)
  induction h with
  | ctor =>
    have h0 : ∀ (j : Nat) (e : EntryInfo), j ≠ 0 → (ctor n).entries_[j]? = some e → e.accessed = false := by
      intro j e hj he
      cases j with
      | zero => exact absurd rfl hj
      | succ j => simp [ctor] at he
    exact ⟨fun _ => h0, key _ h0⟩
  | @updateSize s s1 addr size hc ha hu ih =>
    have hinv := Reachable_Inv n s (CallerReachable_Reachable n false s hc)
    unfold UpdateObjectSize at hu
    cases hf : FindOrAddEntry s addr (toUnsigned size) false with
    | none => rw [hf] at hu; simp at hu
    | some r =>
      rw [hf] at hu
      obtain ⟨id, s2⟩ := r
      simp only [Option.map_some', Option.some.injEq] at hu
      subst hu
      have h0 : ∀ (j : Nat) (e : EntryInfo), j ≠ 0 → s2.entries_[j]? = some e → e.accessed = false := by
        intro j e hj he
        rcases FindOrAddEntry_entries s s2 hinv addr _ id false hf j e he with h1 | ⟨_, h1⟩
        · exact ih.1 rfl j e hj h1
        · exact h1
      exact ⟨fun _ => h0, key _ h0⟩
  | @move s s1 from_ to_ size moved hc hf ht hm ih =>
    have hinv := Reachable_Inv n s (CallerReachable_Reachable n false s hc)
    have h0 : ∀ (j : Nat) (e : EntryInfo), j ≠ 0 → s1.entries_[j]? = some e → e.accessed = false := by
      intro j e hj he
      obtain ⟨e0, he0, hacc⟩ := MoveObject_flags s s1 hinv from_ to_ size moved hm j e he
      rw [hacc]
      exact ih.1 rfl j e0 hj he0
    exact ⟨fun _ => h0, key _ h0⟩
  | start _ ih =>
    exact ⟨fun h => absurd h (by decide), ih.2⟩
  | @visit s s1 addr size id accessed hc ha hf ih =>
    have hinv := Reachable_Inv n s (CallerReachable_Reachable n true s hc)
    refine ⟨fun h => absurd h (by decide), ?_⟩
    intro j e hj he hacc
    rcases FindOrAddEntry_entries s s1 hinv addr size id accessed hf j e he with h1 | ⟨h1, _⟩
    · exact ih.2 j e hj h1 hacc
    · rw [h1]
      exact ha
  | @sweep s s1 hc hr ih =>
    have hinv := Reachable_Inv n s (CallerReachable_Reachable n true s hc)
    obtain ⟨_, hent, _⟩ := RemoveDeadEntries_sound s s1 hinv hr
    have h0 : ∀ (j : Nat) (e : EntryInfo), j ≠ 0 → s1.entries_[j]? = some e → e.accessed = false := by
      intro j e hj he
      rw [hent] at he
      cases j with
      | zero => exact absurd rfl hj
      | succ p =>
        simp only [List.getElem?_cons_succ] at he
        have hmem : e ∈ survivors s.entries_.tail := List.mem_iff_getElem?.mpr ⟨p, he⟩
        simp only [survivors, List.mem_map] at hmem
        obtain ⟨e0, _, rfl⟩ := hmem
        rfl
    exact ⟨fun _ => h0, key _ h0⟩

/-- The registry that tracks nothing is reached by the callers with every odd value of the
counter: one round is `UpdateObjectSize(16, 0)` during a scan and the sweep. -/
theorem callerReachable_emptied (n k : Nat) :
    CallerReachable n false
      (emptiedState ((kFirstAvailableObjectId n + 2 * k) % 4294967296)) := by
  induction k with
  | zero =>
    have h : (kFirstAvailableObjectId n + 2 * 0) % 4294967296 = kFirstAvailableObjectId n :=
      Nat.mod_eq_of_lt (kFirstAvailableObjectId_lt n)
    rw [h]
    exact CallerReachable.ctor
  | succ k ih =>
    have h1 : CallerReachable n true
        ⟨((kFirstAvailableObjectId n + 2 * k) % 4294967296 + 2) % 4294967296, [(16, 1)],
        [dummyEntry, ⟨(kFirstAvailableObjectId n + 2 * k) % 4294967296, 16, 0, false⟩]⟩ :=
      @CallerReachable.visit n _ _ 16 0 ((kFirstAvailableObjectId n + 2 * k) % 4294967296)
        false (CallerReachable.start ih) (by decide) rfl
    have h2 : CallerReachable n false
        (emptiedState (((kFirstAvailableObjectId n + 2 * k) % 4294967296 + 2) % 4294967296)) :=
      @CallerReachable.sweep n _ _ h1 rfl
    have harith : ((kFirstAvailableObjectId n + 2 * k) % 4294967296 + 2) % 4294967296
        = (kFirstAvailableObjectId n + 2 * (k + 1)) % 4294967296 := by omega
    rw [harith] at h2
    exact h2

/-- C4: `RemoveDeadEntries` keeps exactly the accessed entries. At the end of every scan of
the heap by the callers of the registry (`FindOrAddEntry` for the objects, no `MoveObject`
since the scan began) the call returns; the entry list becomes the dummy entry followed by
the entries that were marked accessed, in their order and with their id, address and size,
each with the flag cleared; `next_id_` stays; `FindEntry` gives the id of every entry that
was kept at its address and 0 at the address of every entry that was removed. -/
theorem sweep_keeps_accessed_entries (n : Nat) (s : HeapObjectsMap)
    (h : CallerReachable n true s) :
    ∃ s1, RemoveDeadEntries s = some s1 ∧
      s1.entries_ = dummyEntry :: survivors s.entries_.tail ∧
      survivors s.entries_.tail =
        (s.entries_.tail.filter (fun e => e.accessed)).map
          (fun e => ⟨e.id, e.addr, e.size, false⟩) ∧
      s1.next_id_ = s.next_id_ ∧
      (∀ e ∈ s.entries_.tail, e.accessed = true → FindEntry s1 e.addr = some (e.id, s1)) ∧
      (∀ e ∈ s.entries_.tail, e.accessed = false → FindEntry s1 e.addr = some (0, s1)) := by
  obtain ⟨s1, h1, h2, h3, h4, h5⟩ := RemoveDeadEntries_keeps_accessed n s
    (CallerReachable_Reachable n true s h) (CallerReachable_flags n true s h).2
  exact ⟨s1, h1, h2, rfl, h3, h4, h5⟩

/-- A scan that visits the objects at 8 (marked accessed) and at 16 (not marked): the sweep
keeps the first entry and drops the second. -/
theorem sweep_keeps_accessed_entries_witness :
    ∃ s1, RemoveDeadEntries
        ⟨9, [(8, 1), (16, 2)], [dummyEntry, ⟨5, 8, 4, true⟩, ⟨7, 16, 4, false⟩]⟩ = some s1 ∧
      s1.entries_ = dummyEntry :: survivors [⟨5, 8, 4, true⟩, ⟨7, 16, 4, false⟩] ∧
      FindEntry s1 8 = some (5, s1) ∧ FindEntry s1 16 = some (0, s1) :=
  match sweep_keeps_accessed_entries 0
    ⟨9, [(8, 1), (16, 2)], [dummyEntry, ⟨5, 8, 4, true⟩, ⟨7, 16, 4, false⟩]⟩
    (@CallerReachable.visit 0 _ _ 16 4 7 false
      (@CallerReachable.visit 0 (ctor 0) _ 8 4 5 true
        (CallerReachable.start CallerReachable.ctor) (by decide) rfl)
      (by decide) rfl) with
  | ⟨s1, h1, h2, _, _, h4, h5⟩ =>
    ⟨s1, h1, h2, h4 ⟨5, 8, 4, true⟩ (by simp) rfl, h5 ⟨7, 16, 4, false⟩ (by simp) rfl⟩

/-- C39 fails on the code after the 32-bit counter `next_id_` has wrapped. The registry
that tracks nothing with the counter at 4294967295 is reached by the callers (2147483645
rounds of `UpdateObjectSize(16, 0)` and the sweep on a fresh registry with no sync tags). On
it `PushHeapObjectsStats`, with the objects at 16 and 24 in the heap, no time interval
recorded before and a stream that does not abort, updates the registry to the entries with
the ids 0, 4294967295 and 1, which are not increasing, and the counter 3; the scan for the
new interval with the id 3 passes the dummy entry only and stops at the entry with the id
4294967295, so that two entries are left when the loop over the intervals ends and the
closing `DCHECK(entry_info == end_entry_info)` fails. -/
theorem PushHeapObjectsStats_scan_stops_early_after_wrap :
    CallerReachable 0 false (emptiedState 4294967295) ∧
    PushHeapObjectsStatsScan true (emptiedState 4294967295) [(16, 0), (24, 0)] [] =
      some (⟨3, [(16, 1), (24, 2)],
          [dummyEntry, ⟨4294967295, 16, 0, false⟩, ⟨1, 24, 0, false⟩]⟩,
        [⟨4294967295, 16, 0, false⟩, ⟨1, 24, 0, false⟩], [(1, 0)]) ∧
    Reachable 0 ⟨3, [(16, 1), (24, 2)],
      [dummyEntry, ⟨4294967295, 16, 0, false⟩, ⟨1, 24, 0, false⟩]⟩ ∧
    ¬ ([dummyEntry, ⟨4294967295, 16, 0, false⟩, ⟨1, 24, 0, false⟩].map
      EntryInfo.id).Pairwise (· < ·) ∧
    (scanIntervals [3] [dummyEntry, ⟨4294967295, 16, 0, false⟩, ⟨1, 24, 0, false⟩]).1 ≠ [] := by
  have h0 := callerReachable_emptied 0 2147483645
  have harith : (kFirstAvailableObjectId 0 + 2 * 2147483645) % 4294967296 = 4294967295 := by
    decide
  rw [harith] at h0
  have h1 : CallerReachable 0 true ⟨1, [(16, 1)], [dummyEntry, ⟨4294967295, 16, 0, true⟩]⟩ :=
    @CallerReachable.visit 0 _ _ 16 0 4294967295 true (CallerReachable.start h0) (by decide) rfl
  have h2 : CallerReachable 0 true ⟨3, [(16, 1), (24, 2)],
      [dummyEntry, ⟨4294967295, 16, 0, true⟩, ⟨1, 24, 0, true⟩]⟩ :=
    @CallerReachable.visit 0 _ _ 24 0 1 true h1 (by decide) rfl
  have h3 : CallerReachable 0 false ⟨3, [(16, 1), (24, 2)],
      [dummyEntry, ⟨4294967295, 16, 0, false⟩, ⟨1, 24, 0, false⟩]⟩ :=
    @CallerReachable.sweep 0 _ _ h2 rfl
  exact ⟨h0, rfl, CallerReachable_Reachable 0 false _ h3, by decide, by decide⟩

end HeapProfiler
